import Mathlib

/-!
# LogClusterC: a shallow embedding of the mining passes

The definitions follow `src/LogClusterC.c`.  Conventions of the embedding:

* a C string is the list of its char values before the terminating NUL, so the
  empty word (`words[i][0] == 0`) is `[]` and `strcmp(a, b) == 0` is `a = b`;
* an input is the list of its lines in reading order, each line being the list
  `words[0] .. words[wordcount - 1]` that `find_words` returns for it;
* a chain linked through `pNext` is the list of its records, head first;
* fixed-size arrays (`wordNumStr`, `wildcard`, `pStorage`, `fullWildcard`,
  `wordDepMatrix`, the sketches) are functions from the index;
* unsigned counters are natural numbers (they count input lines), `int`
  variables are integers.
-/

namespace LogClusterC

/-! ## Constants, strings and hashing -/

/-- A C string: its bytes (`1 .. 255`) before the terminating NUL. -/
abbrev Key := List Nat

/-- `#define MAXWORDS 512` -/
def MAXWORDS : Nat := 512

/-- `#define CLUSTERSEP '\n'` -/
def CLUSTERSEP : Nat := 10

/-- Assignment `a[i] = v` to an array. -/
def arrSet {α : Type} (a : Nat → α) (i : Nat) (v : α) : Nat → α :=
  fun j => if j = i then v else a j

/-- The value of `string[i]` in the sum of `str2hash`, for the byte `c`.  The
type `char` is signed (x86-64): a byte `c` of 128 or more is the number `c -
256`, and its conversion to `unsigned long` is `2 ^ 64 - 256 + c`. -/
def char_to_ulong (c : Nat) : Nat :=
  if c < 128 then c else (2 ^ 64 - 256 + c) % 2 ^ 64

/-- `str2hash`: `h = h ^ ((h << 5) + (h >> 2) + string[i])` for every char, in
64-bit unsigned arithmetic, then `h % modulo`. -/
def str2hash (string : Key) (modulo h : Nat) : Nat :=
  (string.foldl
    (fun h c => h ^^^ (((h <<< 5) % 2 ^ 64 + (h >>> 2) + char_to_ulong c) % 2 ^ 64)) h)
    % modulo

/-! ## Hash tables -/

/-- `struct Elem`, without `pNext` (the chain is the list that holds the
record).  `pCluster` is the index of the `struct Cluster` in the heap of
cluster records. -/
structure Elem where
  pKey : Key
  count : Nat
  number : Nat := 0
  pCluster : Option Nat := none
  deriving DecidableEq, Repr

/-- A hash table `struct Elem **`: one chain per slot. -/
abbrev Table := List (List Elem)

/-- The scan `while (ptr) { if (!strcmp(pKey, ptr->pKey)) break; pPrev = ptr;
ptr = ptr->pNext; }` of `add_elem` and `find_elem`: the first record with the
key, and the chain with that record unlinked. -/
def chain_scan (pKey : Key) : List Elem → Option (Elem × List Elem)
  | [] => none
  | e :: rest =>
    if e.pKey = pKey then some (e, rest)
    else
      match chain_scan pKey rest with
      | none => none
      | some (ptr, others) => some (ptr, e :: others)

/-- `add_elem`: the record with the key gets `count++` and is moved to the
front of its chain; a missing key gets a new record with `count = 1` at the
front.  The returned pointer is the head of slot `str2hash pKey tablesize seed`
(see `front`). -/
def add_elem (pKey : Key) (ppTable : Table) (tablesize seed : Nat) : Table :=
  let hash := str2hash pKey tablesize seed
  match chain_scan pKey (ppTable.getD hash []) with
  | some (ptr, others) => ppTable.set hash ({ ptr with count := ptr.count + 1 } :: others)
  | none => ppTable.set hash ({ pKey := pKey, count := 1 } :: ppTable.getD hash [])

/-- `find_elem`: the record with the key, moved to the front of its chain when
found.  A non-null result is the head of slot `str2hash key tablesize seed`. -/
def find_elem (key : Key) (table : Table) (tablesize seed : Nat) : Option Elem × Table :=
  let hash := str2hash key tablesize seed
  match chain_scan key (table.getD hash []) with
  | some (ptr, others) => (some ptr, table.set hash (ptr :: others))
  | none => (none, table)

/-- Dereference of a pointer returned by `add_elem` or `find_elem`: the head of
the chain of slot `hash`. -/
def front (table : Table) (hash : Nat) : Option Elem :=
  (table.getD hash []).head?

/-- Assignment through a pointer returned by `add_elem` or `find_elem`. -/
def store_front (table : Table) (hash : Nat) (e : Elem) : Table :=
  match table.getD hash [] with
  | [] => table
  | _ :: rest => table.set hash (e :: rest)

/-! ## The vocabulary pass -/

/-- `is_word_repeated`: `for (i = 1; i < serial; i++) if (storage[i] ==
wordNumber) return 1;` -/
def is_word_repeated (storage : Nat → Nat) (wordNumber serial : Nat) : Bool :=
  (List.range' 1 (serial - 1)).any (fun i => storage i == wordNumber)

/-- `struct Cluster`, without `pNext` (a family chain is the list of the
pointers to its records).  `pElem` points to the record of the cluster table
with the given key; `ppWord[i]` holds the word-table record of the i-th
constant.  The source converts pointers between `struct Cluster` and `struct
ClusterWithToken`, which has the same fields followed by `ppToken`; the records
of both types live in one heap, and `ppToken[i]` is the chain of the `pWord` of
its `struct Token` records, head first (null in a `struct Cluster`). -/
structure Cluster where
  constants : Nat := 0
  count : Nat := 0
  fullWildcard : Nat → Int := fun _ => 0
  pElem : Key := []
  ppWord : Nat → Option Elem := fun _ => none
  pLastNode : Option Nat := none
  bIsJoined : Bool := false
  ppToken : Nat → List (Option Elem) := fun _ => []

/-- The fields of `struct TrieNode` other than `pChild` and `pNext`.  `addr`
is the address of the node: the value of `trieNodeNum` when the node was
allocated (the root has address 0).  `pParent` is the address of the parent,
`pIsEnd` the pointer of the cluster that ends in the node. -/
structure TrieData where
  addr : Nat
  pParent : Option Nat := none
  pIsEnd : Option Nat := none
  pWord : Option Elem := none
  wildcardMin : Int := 0
  wildcardMax : Int := 0
  hashValue : Nat := 0
  deriving DecidableEq, Repr

/-- `struct TrieNode *`: a null pointer, or a node with the subtree of its first
child `pChild` and of its next sibling `pNext`. -/
inductive TrieNode where
  | null : TrieNode
  | node (d : TrieData) (pChild pNext : TrieNode) : TrieNode
  deriving Repr

/-- `struct TemplElem`, without `pNext`: a string, or (when `pStr` is null) the
number `data` of a backreference variable. -/
structure TemplElem where
  pStr : Option Key := none
  data : Int := 0
  deriving DecidableEq, Repr

/-- The part of `struct Parameters` that the mining passes use.  `clusters` is
the heap of the `struct Cluster` records allocated so far: a pointer to a
cluster is its index in this list, and `pClusterFamily[k]` is the chain of the
pointers of bucket `k`, head first.  `pInputFiles` is the list of the names of
the input files and `pTemplate` the list of the template elements; a string
option that was not given is null (`none`). -/
structure Parameters where
  support : Nat := 0
  wordSketchSize : Nat := 0
  wordSketchSeed : Nat := 0
  pWordSketch : Nat → Nat := fun _ => 0
  wordTableSize : Nat := 1
  wordTableSeed : Nat := 0
  ppWordTable : Table := []
  wordNumStr : Nat → Nat := fun _ => 0
  clusterSketchSize : Nat := 0
  clusterSketchSeed : Nat := 0
  pClusterSketch : Nat → Nat := fun _ => 0
  clusterTableSize : Nat := 1
  clusterTableSeed : Nat := 0
  ppClusterTable : Table := []
  clusters : List Cluster := []
  pClusterFamily : Nat → List Nat := fun _ => []
  biggestConstants : Nat := 0
  freWordNum : Nat := 0
  wordDepMatrixBreadth : Nat := 0
  wordDepMatrix : Nat → Nat := fun _ => 0
  prefixSketchSize : Nat := 0
  prefixSketchSeed : Nat := 0
  wildcardHash : Nat := 0
  prefixWildcardMin : Int := 0
  prefixWildcardMax : Int := 0
  trieNodeNum : Nat := 0
  pPrefixRoot : TrieNode := TrieNode.null
  clusterNum : Nat := 0
  wordWeightThreshold : ℚ := 0
  wordWeightFunction : Int := 1
  token : Key := [116, 111, 107, 101, 110]
  tokenMarker : Nat → Nat := fun _ => 0
  pCurrentCluster : Option Nat := none
  pClusterWithTokenFamily : Nat → List Nat := fun _ => []
  joinedClusterInputNum : Nat := 0
  joinedClusterOutputNum : Nat := 0
  bDetailedTokenFlag : Bool := false
  outputMode : Int := 0
  linecount : Nat := 0
  pctSupport : ℚ := 0
  bAggrsupFlag : Bool := false
  pInputFiles : List Key := []
  initSeed : Nat := 1
  pSyslogFacility : Key := [108, 111, 99, 97, 108, 50]
  pDelim : Option Key := none
  byteOffset : Int := 0
  pFilter : Option Key := none
  pWordFilter : Option Key := none
  pWordSearch : Option Key := none
  pWordReplace : Option Key := none
  pTemplate : List TemplElem := []
  debug : Int := 0

/-- The local variables of `create_vocabulary` that survive a word. -/
structure VocabularyLocals where
  number : Nat
  distinctWords : Nat
  linecount : Nat

/-- The body of `for (i = 0; i < wordcount; i++)` in `create_vocabulary`. -/
def create_vocabulary_word (st : Parameters × VocabularyLocals) (word : Key) :
    Parameters × VocabularyLocals :=
  let pParam := st.1
  let loc := st.2
  if word = [] then st
  else if pParam.wordSketchSize ≠ 0 ∧
      pParam.pWordSketch (str2hash word pParam.wordSketchSize pParam.wordSketchSeed)
        < pParam.support then st
  else
    let hash := str2hash word pParam.wordTableSize pParam.wordTableSeed
    let table := add_elem word pParam.ppWordTable pParam.wordTableSize pParam.wordTableSeed
    let distinctWords := loc.distinctWords + 1
    match front table hash with
    | none => st
    | some w =>
      let number := if w.count = 1 then loc.number + 1 else loc.number
      let w := if w.count = 1 then { w with number := number } else w
      if is_word_repeated pParam.wordNumStr w.number distinctWords then
        ({ pParam with ppWordTable := store_front table hash { w with count := w.count - 1 } },
         { loc with number := number, distinctWords := distinctWords - 1 })
      else
        ({ pParam with ppWordTable := store_front table hash w,
                       wordNumStr := arrSet pParam.wordNumStr distinctWords w.number },
         { loc with number := number, distinctWords := distinctWords })

/-- The body of `while (fgets(line, MAXLINELEN, pFile))` in
`create_vocabulary`. -/
def create_vocabulary_line (st : Parameters × VocabularyLocals) (words : List Key) :
    Parameters × VocabularyLocals :=
  let st1 := words.foldl create_vocabulary_word (st.1, { st.2 with distinctWords := 0 })
  (st1.1, { st1.2 with linecount := st1.2.linecount + 1 })

/-- The passes of `create_vocabulary` over the input: the word table is
cleared, every line is processed, and `number` is returned.  `linecount` is not
initialised in the source; its start value is the argument `linecount`. -/
def create_vocabulary_loop (pParam : Parameters) (input : List (List Key)) (linecount : Nat) :
    Parameters × VocabularyLocals :=
  input.foldl create_vocabulary_line
    ({ pParam with ppWordTable := List.replicate pParam.wordTableSize [] },
     { number := 0, distinctWords := 0, linecount := linecount })

/-- `create_vocabulary`: the state after the loop over the input and the
returned `number`.  The two statements between the loop and the `return`, which
touch only `linecount` and `support`, are `support_from_linecount`; they are
added in `create_vocabulary_with_linecount`. -/
def create_vocabulary (pParam : Parameters) (input : List (List Key)) : Parameters × Nat :=
  let r := create_vocabulary_loop pParam input 0
  (r.1, r.2.number)

/-! ## Specification vocabulary -/

/-- The number of lines in which the word occurs at least once. -/
def linesWith (word : Key) (input : List (List Key)) : Nat :=
  input.countP (fun line => decide (word ∈ line))

/-- The distinct non-empty words of the input. -/
def distinctWordsOf (input : List (List Key)) : List Key :=
  (input.flatten.filter (fun w => decide (w ≠ []))).dedup


/-! ## Lookup view of a hash table -/

/-- The record that a scan of the key's chain stops at. -/
def lookup (table : Table) (tablesize seed : Nat) (key : Key) : Option Elem :=
  (table.getD (str2hash key tablesize seed) []).find? (fun e => decide (e.pKey = key))


/-- The record `add_elem` leaves for the key, given the record found before. -/
def added (old : Option Elem) (k : Key) : Elem :=
  match old with
  | some e => { e with count := e.count + 1 }
  | none => { pKey := k, count := 1 }

/-- The invariant of the vocabulary pass after the lines `done` and the words
`ws` of the current line. -/
structure VocabInv (m s : Nat) (st : Parameters × VocabularyLocals)
    (done : List (List Key)) (ws : List Key) : Prop where
  size : st.1.wordTableSize = m
  seed : st.1.wordTableSeed = s
  sketch : st.1.wordSketchSize = 0
  len : st.1.ppWordTable.length = m
  cnt : ∀ k, (lookup st.1.ppWordTable m s k).map Elem.count =
    if k = [] ∨ linesWith k (done ++ [ws]) = 0 then none
    else some (linesWith k (done ++ [ws]))
  num_le : ∀ k e, lookup st.1.ppWordTable m s k = some e → e.number ≤ st.2.number
  num_inj : ∀ k k' e e', lookup st.1.ppWordTable m s k = some e →
    lookup st.1.ppWordTable m s k' = some e' → e.number = e'.number → k = k'
  number_eq : st.2.number = (distinctWordsOf (done ++ [ws])).length
  sto_sound : ∀ i, 1 ≤ i → i ≤ st.2.distinctWords →
    ∃ k ∈ ws, ∃ e, lookup st.1.ppWordTable m s k = some e ∧ e.number = st.1.wordNumStr i
  sto_complete : ∀ k ∈ ws, k ≠ [] → ∃ i, 1 ≤ i ∧ i ≤ st.2.distinctWords ∧
    ∃ e, lookup st.1.ppWordTable m s k = some e ∧ e.number = st.1.wordNumStr i

/-! ## Frequent words -/

/-- The loop `while (ptr)` of `find_frequent_words` over the chain of one slot:
a record with `count < support` is unlinked and freed, every other record gets
`number = ++freWordNum`. -/
def find_frequent_words_chain (support : Nat) : List Elem → Nat → List Elem × Nat
  | [], freWordNum => ([], freWordNum)
  | ptr :: rest, freWordNum =>
    if ptr.count < support then find_frequent_words_chain support rest freWordNum
    else
      let r := find_frequent_words_chain support rest (freWordNum + 1)
      ({ ptr with number := freWordNum + 1 } :: r.1, r.2)

/-- The loop `for (i = 0; i < pParam->wordTableSize; i++)` of
`find_frequent_words`, with `slots` the number of slots still to visit. -/
def find_frequent_words_slots (support : Nat) : Nat → Table → Nat → Table × Nat
  | 0, table, freWordNum => (table, freWordNum)
  | _ + 1, [], freWordNum => ([], freWordNum)
  | slots + 1, chain :: rest, freWordNum =>
    let r := find_frequent_words_chain support chain freWordNum
    let r2 := find_frequent_words_slots support slots rest r.2
    (r.1 :: r2.1, r2.2)

/-- `find_frequent_words`: the state with the swept word table, and the returned
`freWordNum`.  The statistics that are only logged are left out, and so is
`sum`, which only they use. -/
def find_frequent_words (pParam : Parameters) : Parameters × Nat :=
  let r := find_frequent_words_slots pParam.support pParam.wordTableSize pParam.ppWordTable 0
  ({ pParam with ppWordTable := r.1 }, r.2)

/-- Key and count of a record. -/
def Elem.entry (e : Elem) : Key × Nat := (e.pKey, e.count)

/-! ## The candidate pass: scanning a line -/

/-- The local variables of `create_cluster_candidates` that a line leaves
behind: `key`, `constants`, `variables` (here `variables_`), `wildcard[]` and `pStorage[]`. -/
structure CandidateLocals where
  key : Key := []
  constants : Nat := 0
  variables_ : Int := 0
  wildcard : Nat → Int := fun _ => 0
  pStorage : Nat → Option Elem := fun _ => none

/-- The body of `for (i = 0; i < wordcount; i++)` in
`create_cluster_candidates`: a non-empty word found in the word table is
appended to the key with the separator and becomes the next constant, with the
variables counted since the last constant as its gap; any other word is a
variable. -/
def candidate_word (st : Parameters × CandidateLocals) (word : Key) :
    Parameters × CandidateLocals :=
  let pParam := st.1
  let loc := st.2
  let r := find_elem word pParam.ppWordTable pParam.wordTableSize pParam.wordTableSeed
  let pParam := { pParam with ppWordTable := r.2 }
  match r.1 with
  | some pWord =>
    if word ≠ [] then
      (pParam, { loc with key := loc.key ++ word ++ [CLUSTERSEP],
                          constants := loc.constants + 1,
                          pStorage := arrSet loc.pStorage (loc.constants + 1) (some pWord),
                          wildcard := arrSet loc.wildcard (loc.constants + 1) loc.variables_,
                          variables_ := 0 })
    else (pParam, { loc with variables_ := loc.variables_ + 1 })
  | none => (pParam, { loc with variables_ := loc.variables_ + 1 })

/-- The scan of one line in `create_cluster_candidates`: `*key = 0; constants =
0; variables = 0;`, the loop over the words, and `wildcard[0] = variables`. -/
def candidate_scan (pParam : Parameters) (loc : CandidateLocals) (words : List Key) :
    Parameters × CandidateLocals :=
  let st := words.foldl candidate_word
    (pParam, { loc with key := [], constants := 0, variables_ := 0 })
  (st.1, { st.2 with wildcard := arrSet st.2.wildcard 0 st.2.variables_ })

/-- A word is frequent when it is not empty and the word table has a record for
it (the test `words[i][0] != 0 && pWord`). -/
def isFrequent (pParam : Parameters) (word : Key) : Bool :=
  decide (word ≠ []) &&
    (lookup pParam.ppWordTable pParam.wordTableSize pParam.wordTableSeed word).isSome

/-- The candidate key of a sequence of constants: every word followed by the
separator. -/
def keyOf (constants : List Key) : Key :=
  (constants.map (fun w => w ++ [CLUSTERSEP])).flatten

/-- The invariant of the scan of a line after the words `pre`. -/
structure ScanInv (p0 : Parameters) (st : Parameters × CandidateLocals) (pre : List Key) :
    Prop where
  size : st.1.wordTableSize = p0.wordTableSize
  seed : st.1.wordTableSeed = p0.wordTableSeed
  same : ∀ w, lookup st.1.ppWordTable p0.wordTableSize p0.wordTableSeed w
    = lookup p0.ppWordTable p0.wordTableSize p0.wordTableSeed w
  constants_eq : st.2.constants = (pre.filter (isFrequent p0)).length
  key_eq : st.2.key = keyOf (pre.filter (isFrequent p0))
  storage : ∀ i c, (pre.filter (isFrequent p0))[i]? = some c →
    st.2.pStorage (i + 1) = lookup p0.ppWordTable p0.wordTableSize p0.wordTableSeed c
  total : (st.2.constants : Int) + (∑ i in Finset.range st.2.constants, st.2.wildcard (i + 1))
    + st.2.variables_ = pre.length
  split : ∃ gaps : List (List Key), ∃ cur : List Key,
    gaps.length = (pre.filter (isFrequent p0)).length ∧
    pre = (List.zipWith (fun g c => g ++ [c]) gaps (pre.filter (isFrequent p0))).flatten ++ cur ∧
    (∀ g ∈ gaps, ∀ w ∈ g, isFrequent p0 w = false) ∧
    (∀ w ∈ cur, isFrequent p0 w = false) ∧
    st.2.variables_ = cur.length ∧
    ∀ i g, gaps[i]? = some g → st.2.wildcard (i + 1) = g.length

/-! ## The candidate pass: cluster records -/

/-- Dereference of a `struct Cluster *`. -/
def Parameters.cluster (pParam : Parameters) (ptr : Nat) : Cluster :=
  pParam.clusters.getD ptr {}

/-- Assignment through a `struct Cluster *`. -/
def Parameters.setCluster (pParam : Parameters) (ptr : Nat) (c : Cluster) : Parameters :=
  { pParam with clusters := pParam.clusters.set ptr c }

/-- `create_cluster_instance`.  `pClusterElem` is the pointer returned by
`add_elem`, given by its slot `hash` in the cluster table and its key. -/
def create_cluster_instance (hash : Nat) (pClusterElem : Elem) (constants : Nat)
    (wildcard : Nat → Int) (pStorage : Nat → Option Elem) (pParam : Parameters) : Parameters :=
  let ptr := pParam.clusters.length
  let ppWord := (List.range' 1 constants).foldl (fun a i => arrSet a i (pStorage i))
    (arrSet (fun _ => none) 0 none)
  let fullWildcard := (List.range' 1 constants).foldl
    (fun a i => arrSet (arrSet a (i * 2) (wildcard i)) (i * 2 + 1) (wildcard i)) (fun _ => 0)
  let fullWildcard := arrSet (arrSet fullWildcard 0 (wildcard 0)) 1 (wildcard 0)
  let c : Cluster := { constants := constants, count := 0, fullWildcard := fullWildcard,
                       pElem := pClusterElem.pKey, ppWord := ppWord, pLastNode := none,
                       bIsJoined := false }
  { pParam with
      clusters := pParam.clusters ++ [c],
      ppClusterTable :=
        store_front pParam.ppClusterTable hash { pClusterElem with pCluster := some ptr },
      pClusterFamily :=
        arrSet pParam.pClusterFamily constants (ptr :: pParam.pClusterFamily constants),
      biggestConstants :=
        if constants > pParam.biggestConstants then constants else pParam.biggestConstants }

/-- The body of `for (i = 0; i <= constants; i++)` in
`adjust_cluster_instance`. -/
def adjust_wildcard (wildcard : Nat → Int) (fullWildcard : Nat → Int) (i : Nat) : Nat → Int :=
  if wildcard i < fullWildcard (i * 2) then arrSet fullWildcard (i * 2) (wildcard i)
  else if wildcard i > fullWildcard (i * 2 + 1) then arrSet fullWildcard (i * 2 + 1) (wildcard i)
  else fullWildcard

/-- `adjust_cluster_instance`, for the cluster `ptr = pClusterElem->pCluster`:
`count++`, and every gap bound is widened to include the gap of the line. -/
def adjust_cluster_instance (ptr : Nat) (constants : Nat) (wildcard : Nat → Int)
    (pParam : Parameters) : Parameters :=
  let c := pParam.cluster ptr
  pParam.setCluster ptr
    { c with count := c.count + 1,
             fullWildcard := (List.range (constants + 1)).foldl (adjust_wildcard wildcard)
               c.fullWildcard }

/-- The end of the loop body of `create_cluster_candidates`, from the comment
"Put this cluster into clustertable": `add_elem` on the key, a new cluster
record when the returned record has `count == 1`, and
`adjust_cluster_instance`.  The second component is `clusterCount`. -/
def put_cluster (pParam : Parameters) (loc : CandidateLocals) (clusterCount : Nat) :
    Parameters × Nat :=
  let hash := str2hash loc.key pParam.clusterTableSize pParam.clusterTableSeed
  let table :=
    add_elem loc.key pParam.ppClusterTable pParam.clusterTableSize pParam.clusterTableSeed
  let pParam := { pParam with ppClusterTable := table }
  match front pParam.ppClusterTable hash with
  | none => (pParam, clusterCount)
  | some pElem =>
    let created := if pElem.count = 1 then
        (create_cluster_instance hash pElem loc.constants loc.wildcard loc.pStorage pParam,
         clusterCount + 1)
      else (pParam, clusterCount)
    match front created.1.ppClusterTable hash with
    | none => created
    | some pElem =>
      match pElem.pCluster with
      | none => created
      | some ptr =>
        (adjust_cluster_instance ptr loc.constants loc.wildcard created.1, created.2)

/-- The body of `while (fgets(line, MAXLINELEN, pFile))` in
`create_cluster_candidates`; the third component is `clusterCount`. -/
def create_cluster_candidates_line (st : Parameters × CandidateLocals × Nat)
    (words : List Key) : Parameters × CandidateLocals × Nat :=
  let sc := candidate_scan st.1 st.2.1 words
  let pParam := sc.1
  let loc := sc.2
  let clusterCount := st.2.2
  if loc.constants = 0 then (pParam, loc, clusterCount)
  else if pParam.clusterSketchSize ≠ 0 ∧
      pParam.pClusterSketch (str2hash loc.key pParam.clusterSketchSize pParam.clusterSketchSeed)
        < pParam.support then (pParam, loc, clusterCount)
  else
    let r := put_cluster pParam loc clusterCount
    (r.1, loc, r.2)

/-- `create_cluster_candidates`: the cluster table is cleared and every line is
processed.  `clusterCount` is not initialised in the source; its start value is
the argument `clusterCount`, and so are the start contents `loc` of the local
arrays. -/
def create_cluster_candidates (pParam : Parameters) (input : List (List Key))
    (loc : CandidateLocals) (clusterCount : Nat) : Parameters × Nat :=
  let r := input.foldl create_cluster_candidates_line
    ({ pParam with ppClusterTable := List.replicate pParam.clusterTableSize [] },
     loc, clusterCount)
  (r.1, r.2.2)

/-! ## The fused candidate and word-dependency pass -/

/-- `update_word_dep_matrix`: `wordDepMatrix[storage[i] * breadth +
storage[j]]++` for all `i` and `j` in `1 .. serial`. -/
def update_word_dep_matrix (storage : Nat → Nat) (serial : Nat) (pParam : Parameters) :
    Parameters :=
  let matrix := (List.range' 1 serial).foldl (fun D i =>
    (List.range' 1 serial).foldl (fun D j =>
      arrSet D (storage i * pParam.wordDepMatrixBreadth + storage j)
        (D (storage i * pParam.wordDepMatrixBreadth + storage j) + 1)) D) pParam.wordDepMatrix
  { pParam with wordDepMatrix := matrix }

/-- The body of `for (i = 0; i < wordcount; i++)` in
`create_cluster_candidates_word_dep`: the statements of `candidate_word`, and
for a constant its number is stored in `wordNumStr` unless it is already there.
The third component is `distinctConstants`. -/
def candidate_word_dep (st : Parameters × CandidateLocals × Nat) (word : Key) :
    Parameters × CandidateLocals × Nat :=
  let pParam := st.1
  let loc := st.2.1
  let distinctConstants := st.2.2
  let r := find_elem word pParam.ppWordTable pParam.wordTableSize pParam.wordTableSeed
  let pParam := { pParam with ppWordTable := r.2 }
  match r.1 with
  | some pWord =>
    if word ≠ [] then
      let loc := { loc with key := loc.key ++ word ++ [CLUSTERSEP],
                            constants := loc.constants + 1,
                            pStorage := arrSet loc.pStorage (loc.constants + 1) (some pWord),
                            wildcard := arrSet loc.wildcard (loc.constants + 1) loc.variables_,
                            variables_ := 0 }
      let distinctConstants := distinctConstants + 1
      if is_word_repeated pParam.wordNumStr pWord.number distinctConstants then
        (pParam, loc, distinctConstants - 1)
      else
        let wordNumStr := arrSet pParam.wordNumStr distinctConstants pWord.number
        ({ pParam with wordNumStr := wordNumStr }, loc, distinctConstants)
    else (pParam, { loc with variables_ := loc.variables_ + 1 }, distinctConstants)
  | none => (pParam, { loc with variables_ := loc.variables_ + 1 }, distinctConstants)

/-- The scan of one line in `create_cluster_candidates_word_dep`. -/
def candidate_scan_dep (pParam : Parameters) (loc : CandidateLocals) (words : List Key) :
    Parameters × CandidateLocals × Nat :=
  let st := words.foldl candidate_word_dep
    (pParam, { loc with key := [], constants := 0, variables_ := 0 }, 0)
  (st.1, { st.2.1 with wildcard := arrSet st.2.1.wildcard 0 st.2.1.variables_ }, st.2.2)

/-- The body of `while (fgets(line, MAXLINELEN, pFile))` in
`create_cluster_candidates_word_dep`; the third component is `clusterCount`. -/
def create_cluster_candidates_word_dep_line (st : Parameters × CandidateLocals × Nat)
    (words : List Key) : Parameters × CandidateLocals × Nat :=
  let sc := candidate_scan_dep st.1 st.2.1 words
  let pParam := sc.1
  let loc := sc.2.1
  let distinctConstants := sc.2.2
  let clusterCount := st.2.2
  if loc.constants = 0 then (pParam, loc, clusterCount)
  else
    let pParam := update_word_dep_matrix pParam.wordNumStr distinctConstants pParam
    if pParam.clusterSketchSize ≠ 0 ∧
        pParam.pClusterSketch
          (str2hash loc.key pParam.clusterSketchSize pParam.clusterSketchSeed)
          < pParam.support then (pParam, loc, clusterCount)
    else
      let r := put_cluster pParam loc clusterCount
      (r.1, loc, r.2)

/-- `create_cluster_candidates_word_dep`: the cluster table and the matrix
entries `[p * breadth + q]` for `p, q < breadth` are cleared, and every line is
processed.  `clusterCount` and the local arrays `loc` are not initialised in
the source; their start values are arguments. -/
def create_cluster_candidates_word_dep (pParam : Parameters) (input : List (List Key))
    (loc : CandidateLocals) (clusterCount : Nat) : Parameters × Nat :=
  let matrix := (List.range pParam.wordDepMatrixBreadth).foldl (fun D p =>
    (List.range pParam.wordDepMatrixBreadth).foldl (fun D q =>
      arrSet D (p * pParam.wordDepMatrixBreadth + q) 0) D) pParam.wordDepMatrix
  let r := input.foldl create_cluster_candidates_word_dep_line
    ({ pParam with ppClusterTable := List.replicate pParam.clusterTableSize [],
                   wordDepMatrix := matrix },
     loc, clusterCount)
  (r.1, r.2.2)

/-- The preparation of the word-dependency pass in `main` and
`step_2_find_cluster_candidates`: `freWordNum` is the value returned by
`find_frequent_words`, and `wordDepMatrixBreadth = freWordNum + 1`. -/
def prepare_word_dep (pParam : Parameters) : Parameters :=
  let r := find_frequent_words pParam
  { r.1 with freWordNum := r.2, wordDepMatrixBreadth := r.2 + 1 }

/-- The number of lines in which both words occur. -/
def linesWithBoth (u v : Key) (input : List (List Key)) : Nat :=
  input.countP (fun line => decide (u ∈ line ∧ v ∈ line))

/-! ## Frequent-cluster selection -/

/-- The loop `while (ptr)` of `find_clusters_from_candidates` over one family
chain: a cluster with `count >= support` is counted and kept, any other cluster
is unlinked from the chain. -/
def find_clusters_chain (pParam : Parameters) : List Nat → Nat → List Nat × Nat
  | [], clusterNum => ([], clusterNum)
  | ptr :: rest, clusterNum =>
    if (pParam.cluster ptr).count ≥ pParam.support then
      let r := find_clusters_chain pParam rest (clusterNum + 1)
      (ptr :: r.1, r.2)
    else find_clusters_chain pParam rest clusterNum

/-- The loop `for (i = 1; i <= pParam->biggestConstants; i++)` of
`find_clusters_from_candidates` over the buckets `i, i + 1, ...` (`n` of
them). -/
def find_clusters_buckets (pParam : Parameters) :
    Nat → Nat → (Nat → List Nat) → Nat → (Nat → List Nat) × Nat
  | 0, _, family, clusterNum => (family, clusterNum)
  | n + 1, i, family, clusterNum =>
    let r := find_clusters_chain pParam (family i) clusterNum
    find_clusters_buckets pParam n (i + 1) (arrSet family i r.1) r.2

/-- `find_clusters_from_candidates`: the buckets `1 .. biggestConstants` are
swept, and the number of the clusters kept is returned. -/
def find_clusters_from_candidates (pParam : Parameters) : Parameters × Nat :=
  let r := find_clusters_buckets pParam pParam.biggestConstants 1 pParam.pClusterFamily 0
  ({ pParam with pClusterFamily := r.1 }, r.2)

/-! ## Specification vocabulary of the candidate pass -/

/-- The frequent words of a line, in line order. -/
def constantsOf (pParam : Parameters) (line : List Key) : List Key :=
  line.filter (isFrequent pParam)

/-- The lines of the input whose sequence of frequent words is `S`. -/
def linesOf (pParam : Parameters) (S : List Key) (input : List (List Key)) : List (List Key) :=
  input.filter (fun line => decide (constantsOf pParam line = S))

/-- The lengths of the runs of non-frequent words of a line: the run before
the first frequent word, the runs between consecutive frequent words, and last
the run after the last frequent word. -/
def gapRuns (freq : Key → Bool) : List Key → List Nat
  | [] => [0]
  | w :: rest =>
    if freq w then 0 :: gapRuns freq rest
    else
      match gapRuns freq rest with
      | g :: gs => (g + 1) :: gs
      | [] => [1]

/-- The number of non-frequent words of a line at gap position `i`, in the
numbering of the `wildcard` array: position `i >= 1` is the gap before the i-th
frequent word, position `0` is the gap after the last one. -/
def gapAt (pParam : Parameters) (line : List Key) (i : Nat) : Int :=
  if i = 0 then (((gapRuns (isFrequent pParam) line).getLast?.getD 0 : Nat) : Int)
  else (((gapRuns (isFrequent pParam) line).getD (i - 1) 0 : Nat) : Int)

/-- The gap bounds of a cluster record at position `j` are the smallest and the
largest gap of the lines `Ls` at that position. -/
def GapBounds (p0 : Parameters) (c : Cluster) (Ls : List (List Key)) (j : Nat) : Prop :=
  (∀ l ∈ Ls, c.fullWildcard (j * 2) ≤ gapAt p0 l j ∧ gapAt p0 l j ≤ c.fullWildcard (j * 2 + 1)) ∧
  (∃ l ∈ Ls, gapAt p0 l j = c.fullWildcard (j * 2)) ∧
  (∃ l ∈ Ls, gapAt p0 l j = c.fullWildcard (j * 2 + 1))

/-- The cluster record of the constant sequence `S` after the lines `done`:
both counters are the number of the lines with that sequence, and the gap bounds
are those of these lines. -/
def ClusterOf (p0 p : Parameters) (m s : Nat) (S : List Key) (done : List (List Key)) : Prop :=
  ∃ e ptr c, lookup p.ppClusterTable m s (keyOf S) = some e ∧
    e.count = (linesOf p0 S done).length ∧ e.pCluster = some ptr ∧
    p.clusters[ptr]? = some c ∧ c.count = (linesOf p0 S done).length ∧
    c.constants = S.length ∧ c.pElem = keyOf S ∧
    (∀ i w, S[i]? = some w → ∃ we, c.ppWord (i + 1) = some we ∧ we.pKey = w) ∧
    ∀ j, j ≤ S.length → GapBounds p0 c (linesOf p0 S done) j

/-- The invariant of the candidate pass after the lines `done`, for the cluster
table of size `m` and seed `s`. -/
structure CandInv (p0 p : Parameters) (m s : Nat) (done : List (List Key)) : Prop where
  csize : p.clusterTableSize = m
  cseed : p.clusterTableSeed = s
  csketch : p.clusterSketchSize = 0
  len : p.ppClusterTable.length = m
  bound : ∀ K e ptr, lookup p.ppClusterTable m s K = some e → e.pCluster = some ptr →
    ptr < p.clusters.length
  inj : ∀ K K' e e' ptr, lookup p.ppClusterTable m s K = some e →
    lookup p.ppClusterTable m s K' = some e' → e.pCluster = some ptr →
    e'.pCluster = some ptr → K = K'
  absent : ∀ S, S ≠ [] → (∀ w ∈ S, CLUSTERSEP ∉ w) → linesOf p0 S done = [] →
    lookup p.ppClusterTable m s (keyOf S) = none
  present : ∀ S, S ≠ [] → (∀ w ∈ S, CLUSTERSEP ∉ w) → linesOf p0 S done ≠ [] →
    ClusterOf p0 p m s S done
  keys : ∀ K e, lookup p.ppClusterTable m s K = some e →
    ∃ S, S ≠ [] ∧ linesOf p0 S done ≠ [] ∧ K = keyOf S

/-- The invariant of the candidate pass on the family buckets: the bucket `i`
holds, each once, the pointers of the cluster records with `i` constants, `1 <=
i <= biggestConstants`, and every cluster record is the `pCluster` of the table
record of its key. -/
structure FamInv (p : Parameters) (m s : Nat) : Prop where
  mem : ∀ i ptr, ptr ∈ p.pClusterFamily i →
    ptr < p.clusters.length ∧ (p.cluster ptr).constants = i ∧ 1 ≤ i ∧ i ≤ p.biggestConstants
  all : ∀ ptr, ptr < p.clusters.length → ptr ∈ p.pClusterFamily (p.cluster ptr).constants
  nodup : ∀ i, (p.pClusterFamily i).Nodup
  back : ∀ ptr, ptr < p.clusters.length →
    ∃ e, lookup p.ppClusterTable m s (p.cluster ptr).pElem = some e ∧ e.pCluster = some ptr

/-- The word table of `p` has the size, the seed and the records of the word
table of `p0` (the chains may be ordered differently). -/
structure WInv (p0 p : Parameters) : Prop where
  wsize : p.wordTableSize = p0.wordTableSize
  wseed : p.wordTableSeed = p0.wordTableSeed
  wsame : ∀ w, lookup p.ppWordTable p0.wordTableSize p0.wordTableSeed w
    = lookup p0.ppWordTable p0.wordTableSize p0.wordTableSeed w

/-! ## The prefix trie -/

/-- Dereference of a node pointer: the fields and the first child of the node
with the address `a` in the tree `t`. -/
def TrieNode.find : TrieNode → Nat → Option (TrieData × TrieNode)
  | .null, _ => none
  | .node d c n, a =>
    if d.addr = a then some (d, c)
    else
      match c.find a with
      | some r => some r
      | none => n.find a

/-- Assignment through a node pointer: the node with the address `a` is
replaced by `f d pChild pNext`. -/
def TrieNode.modify (f : TrieData → TrieNode → TrieNode → TrieNode) :
    TrieNode → Nat → TrieNode
  | .null, _ => .null
  | .node d c n, a =>
    if d.addr = a then f d c n
    else .node d (TrieNode.modify f c a) (TrieNode.modify f n a)

/-- The fields that `create_trie_node` gives the new node, a wildcard when
`pElem` is null and a word node otherwise. -/
def new_trie_node (pElem : Option Elem) (pParent : Nat) (pParam : Parameters) : TrieData :=
  match pElem with
  | none => { addr := pParam.trieNodeNum, pParent := some pParent, pIsEnd := none,
              pWord := none, wildcardMin := pParam.prefixWildcardMin,
              wildcardMax := pParam.prefixWildcardMax, hashValue := pParam.wildcardHash }
  | some e => { addr := pParam.trieNodeNum, pParent := some pParent, pIsEnd := none,
                pWord := some e, wildcardMin := 0, wildcardMax := 0,
                hashValue := str2hash e.pKey pParam.prefixSketchSize pParam.prefixSketchSeed }

/-- `create_trie_node`: the new node is linked after `pPrev`, or as first child
of `pParent` when `pPrev` is null.  The result is the new state and the address
of the node. -/
def create_trie_node (pElem : Option Elem) (pParent : Nat) (pPrev : Option Nat)
    (pParam : Parameters) : Parameters × Nat :=
  let d := new_trie_node pElem pParent pParam
  let root :=
    match pPrev with
    | some prev =>
      TrieNode.modify (fun pd pc pn => .node pd pc (.node d .null pn)) pParam.pPrefixRoot prev
    | none =>
      TrieNode.modify (fun pd pc pn => .node pd (.node d .null pc) pn) pParam.pPrefixRoot pParent
  ({ pParam with trieNodeNum := pParam.trieNodeNum + 1, pPrefixRoot := root }, d.addr)

/-- The loop of `insert_cluster_into_trie_wildcard` over the children `ptr`,
`ptr->pNext`, ...: found or not, and `pPrefixRet`. -/
def wildcard_scan (wildcardHash : Nat) (min max : Int) : TrieNode → Bool × Option Nat
  | .null => (false, none)
  | .node d _ n =>
    if d.hashValue = wildcardHash then
      if d.wildcardMin = min ∧ d.wildcardMax = max then (true, some d.addr)
      else wildcard_scan wildcardHash min max n
    else (false, none)

/-- `insert_cluster_into_trie_wildcard`. -/
def insert_cluster_into_trie_wildcard (pParent : Nat) (min max : Int) (pParam : Parameters) :
    Bool × Option Nat :=
  match pParam.pPrefixRoot.find pParent with
  | some (_, pChild) => wildcard_scan pParam.wildcardHash min max pChild
  | none => (false, none)

/-- The loop of `insert_cluster_into_trie_word` over the children, with the
current `pPrev`: found or not, and `pPrefixRet`. -/
def word_scan (hash : Nat) (key : Key) : TrieNode → Option Nat → Bool × Option Nat
  | .null, pPrev => (false, pPrev)
  | .node d _ n, pPrev =>
    if d.hashValue > hash then word_scan hash key n (some d.addr)
    else if d.hashValue = hash then
      if d.pWord.map Elem.pKey = some key then (true, some d.addr)
      else word_scan hash key n (some d.addr)
    else (false, pPrev)

/-- `insert_cluster_into_trie_word`. -/
def insert_cluster_into_trie_word (pParent : Nat) (pWord : Elem) (pParam : Parameters) :
    Bool × Option Nat :=
  match pParam.pPrefixRoot.find pParent with
  | some (_, pChild) =>
    word_scan (str2hash pWord.pKey pParam.prefixSketchSize pParam.prefixSketchSeed) pWord.pKey
      pChild none
  | none => (false, none)

/-- The statements under `//insert_wild_card` in `insert_cluster_into_trie`:
the wildcard node `(min, max)` below `ptr` is looked up, and created when
missing.  The second component is the new `ptr`. -/
def trie_insert_wildcard (st : Parameters × Nat) (min max : Int) : Parameters × Nat :=
  match insert_cluster_into_trie_wildcard st.2 min max st.1 with
  | (true, some found) => (st.1, found)
  | (_, ret) =>
    create_trie_node none st.2 ret
      { st.1 with prefixWildcardMin := min, prefixWildcardMax := max }

/-- The statements under `//insert_word` in `insert_cluster_into_trie`. -/
def trie_insert_word (st : Parameters × Nat) (pWord : Option Elem) : Parameters × Nat :=
  match pWord with
  | none => st
  | some w =>
    match insert_cluster_into_trie_word st.2 w st.1 with
    | (true, some found) => (st.1, found)
    | (_, ret) => create_trie_node (some w) st.2 ret st.1

/-- The body of `for (i = 1; i <= pCluster->constants; i++)` in
`insert_cluster_into_trie`. -/
def trie_insert_constant (pCluster : Nat) (st : Parameters × Nat) (i : Nat) :
    Parameters × Nat :=
  let c := st.1.cluster pCluster
  if c.fullWildcard (i * 2 + 1) ≠ 0 then
    trie_insert_word
      (trie_insert_wildcard st (c.fullWildcard (i * 2)) (c.fullWildcard (i * 2 + 1)))
      (c.ppWord i)
  else trie_insert_word st (c.ppWord i)

/-- `insert_cluster_into_trie`, for the root with the address `pRoot`. -/
def insert_cluster_into_trie (pRoot : Nat) (pCluster : Nat) (pParam : Parameters) :
    Parameters :=
  let c := pParam.cluster pCluster
  let st := (List.range' 1 c.constants).foldl (trie_insert_constant pCluster) (pParam, pRoot)
  let st :=
    if c.fullWildcard 1 ≠ 0 then trie_insert_wildcard st (c.fullWildcard 0) (c.fullWildcard 1)
    else st
  let root := TrieNode.modify (fun d pc pn => .node { d with pIsEnd := some pCluster } pc pn)
    st.1.pPrefixRoot st.2
  { st.1 with pPrefixRoot := root }.setCluster pCluster
    { st.1.cluster pCluster with pLastNode := some st.2 }

/-- The cluster pointers in the order in which the loops `for (i = 1; i <=
pParam->biggestConstants; i++) { ptr = pParam->pClusterFamily[i]; while (ptr)
... }` visit them. -/
def family_order (pParam : Parameters) : List Nat :=
  (List.range' 1 pParam.biggestConstants).flatMap pParam.pClusterFamily

/-- `build_prefix_trie`: the root, then every cluster of the family buckets is
inserted. -/
def build_prefix_trie (pParam : Parameters) : Parameters :=
  let root : TrieNode :=
    .node { addr := 0, pParent := none, pIsEnd := none, pWord := none, wildcardMin := 0,
            wildcardMax := 0, hashValue := pParam.wildcardHash + 1 } .null .null
  (family_order pParam).foldl (fun p ptr => insert_cluster_into_trie 0 ptr p)
    { pParam with trieNodeNum := 1, pPrefixRoot := root }

/-! ## Support aggregation -/

/-- `get_first_wildcard_location`. -/
def get_first_wildcard_location (c : Cluster) : Int :=
  match (List.range' 1 c.constants).find? (fun i => decide (c.fullWildcard (i * 2 + 1) ≠ 0)) with
  | some i => (i : Int)
  | none => if c.fullWildcard 1 ≠ 0 then 0 else -1

/-- `get_first_wildcard_reverse_depth`. -/
def get_first_wildcard_reverse_depth (c : Cluster) : Nat :=
  let location := get_first_wildcard_location c
  if location = -1 then 0
  else if location = 0 then 1
  else
    let reverseDepth := (List.range' location.toNat (c.constants + 1 - location.toNat)).foldl
      (fun reverseDepth i =>
        (if c.fullWildcard (i * 2 + 1) ≠ 0 then reverseDepth + 1 else reverseDepth) + 1) 0
    if c.fullWildcard 1 ≠ 0 then reverseDepth + 1 else reverseDepth

/-- The loop `for (i = 1; i <= reverseDepth; i++) ptr = ptr->pParent;` of
`get_common_parent`. -/
def trie_ancestor (root : TrieNode) : Nat → Option Nat → Option Nat
  | 0, ptr => ptr
  | n + 1, ptr =>
    match ptr with
    | none => none
    | some a =>
      match root.find a with
      | some (d, _) => trie_ancestor root n d.pParent
      | none => none

/-- `get_common_parent`. -/
def get_common_parent (pParam : Parameters) (pCluster : Nat) : Option Nat :=
  let c := pParam.cluster pCluster
  trie_ancestor pParam.pPrefixRoot (get_first_wildcard_reverse_depth c) c.pLastNode

/-- The update `min += ...; max += ...` at the head of the loops of the search:
a word node counts as one word, a wildcard node as its range. -/
def trie_step (d : TrieData) (mm : Int × Int) : Int × Int :=
  if d.wildcardMax = 0 then (mm.1 + 1, mm.2 + 1)
  else (mm.1 + d.wildcardMin, mm.2 + d.wildcardMax)

/-- The modification of one record of a chain: the first record with the key
is replaced by `f` of it. -/
def chain_modify (key : Key) (f : Elem → Elem) : List Elem → List Elem
  | [] => []
  | e :: rest => if e.pKey = key then f e :: rest else e :: chain_modify key f rest

/-- The update `pElem->count += add` of the record with the key in a hash
table. -/
def elem_add_count (key : Key) (add : Nat) (table : Table) (tablesize seed : Nat) : Table :=
  let hash := str2hash key tablesize seed
  table.set hash
    (chain_modify key (fun e => { e with count := e.count + add }) (table.getD hash []))

/-- The statement `pCluster->pElem->count += ptr->pIsEnd->count;`, where `other`
is `ptr->pIsEnd`. -/
def aggregate_support (pCluster other : Nat) (pParam : Parameters) : Parameters :=
  let table := elem_add_count (pParam.cluster pCluster).pElem (pParam.cluster other).count
    pParam.ppClusterTable pParam.clusterTableSize pParam.clusterTableSeed
  { pParam with ppClusterTable := table }

/-- The statement `if (ptr->pIsEnd && (ptr->pIsEnd != pCluster)) pCluster->
pElem->count += ptr->pIsEnd->count;`. -/
def aggregate_end (pCluster : Nat) (d : TrieData) (pParam : Parameters) : Parameters :=
  match d.pIsEnd with
  | some other => if other ≠ pCluster then aggregate_support pCluster other pParam else pParam
  | none => pParam

/-- `find_more_specific_tail`, as the loop `for (ptr = pParent->pChild; ptr; ptr
= ptr->pNext)` started at `ptr`. -/
def find_more_specific_tail (pCluster : Nat) (c : Cluster) :
    TrieNode → Int × Int → Parameters → Parameters
  | .null, _, pParam => pParam
  | .node d pChild pNext, mm, pParam =>
    let mm1 := trie_step d mm
    let pParam :=
      if mm1.1 < c.fullWildcard 0 then find_more_specific_tail pCluster c pChild mm1 pParam
      else if mm1.2 > c.fullWildcard 1 then pParam
      else find_more_specific_tail pCluster c pChild mm1 (aggregate_end pCluster d pParam)
    find_more_specific_tail pCluster c pNext mm pParam

/-- `find_more_specific` for `constant >= 1`, as the loop `for (ptr =
pParent->pChild; ptr; ptr = ptr->pNext)` started at `ptr`.  `hashOf` is
`str2hash(.., prefixSketchSize, prefixSketchSeed)`. -/
def find_more_specific_loop (pCluster : Nat) (c : Cluster) (hashOf : Key → Nat) :
    TrieNode → Nat → Int × Int → Nat → Parameters → Parameters
  | .null, _, _, _, pParam => pParam
  | .node d pChild pNext, constant, mm, hash, pParam =>
    let mm1 := trie_step d mm
    if mm1.1 - 1 < c.fullWildcard (constant * 2) then
      find_more_specific_loop pCluster c hashOf pNext constant mm hash
        (find_more_specific_loop pCluster c hashOf pChild constant mm1 hash pParam)
    else if mm1.2 - 1 > c.fullWildcard (constant * 2 + 1) then
      find_more_specific_loop pCluster c hashOf pNext constant mm hash pParam
    else if d.hashValue = hash ∧
        d.pWord.map Elem.pKey = (c.ppWord constant).map Elem.pKey ∧ d.pWord ≠ none then
      if constant < c.constants then
        let hashTmp := match c.ppWord (constant + 1) with
          | some w => hashOf w.pKey
          | none => 0
        find_more_specific_loop pCluster c hashOf pNext constant mm hash
          (find_more_specific_loop pCluster c hashOf pChild (constant + 1) (0, 0) hashTmp pParam)
      else if constant = c.constants then
        if c.fullWildcard 1 = 0 then
          find_more_specific_loop pCluster c hashOf pNext constant mm hash
            (aggregate_end pCluster d pParam)
        else
          let pParam := if c.fullWildcard 0 = 0 then aggregate_end pCluster d pParam else pParam
          find_more_specific_loop pCluster c hashOf pNext constant mm hash
            (find_more_specific_tail pCluster c pChild (0, 0) pParam)
      else find_more_specific_loop pCluster c hashOf pNext constant mm1 hash pParam
    else
      find_more_specific_loop pCluster c hashOf pNext constant mm hash
        (find_more_specific_loop pCluster c hashOf pChild constant mm1 hash pParam)

/-- `find_more_specific`, for the parent node with the address `pParent`. -/
def find_more_specific (pParent : Nat) (pCluster : Nat) (constant : Nat) (mm : Int × Int)
    (hash : Nat) (pParam : Parameters) : Parameters :=
  match pParam.pPrefixRoot.find pParent with
  | none => pParam
  | some (_, pChild) =>
    let c := pParam.cluster pCluster
    if constant = 0 then find_more_specific_tail pCluster c pChild mm pParam
    else
      find_more_specific_loop pCluster c
        (fun k => str2hash k pParam.prefixSketchSize pParam.prefixSketchSeed)
        pChild constant mm hash pParam

/-- `aggregate_candidate`, called for a cluster with a wildcard
(`get_first_wildcard_location >= 0`). -/
def aggregate_candidate (pCluster : Nat) (pParam : Parameters) : Parameters :=
  let c := pParam.cluster pCluster
  let firstWildcardLoc := (get_first_wildcard_location c).toNat
  let hash :=
    if firstWildcardLoc ≠ 0 then
      match c.ppWord firstWildcardLoc with
      | some w => str2hash w.pKey pParam.prefixSketchSize pParam.prefixSketchSeed
      | none => 0
    else 0
  match get_common_parent pParam pCluster with
  | none => pParam
  | some pParent => find_more_specific pParent pCluster firstWildcardLoc (0, 0) hash pParam

/-- The first loop of `aggregate_candidates`, over the cluster pointers
`order`. -/
def aggregate_search (order : List Nat) (pParam : Parameters) : Parameters :=
  order.foldl (fun p ptr =>
    if get_first_wildcard_location (p.cluster ptr) ≥ 0 then aggregate_candidate ptr p else p)
    pParam

/-- The count of the cluster-table record that `pCluster->pElem` points to. -/
def elem_count (pParam : Parameters) (pCluster : Nat) : Nat :=
  match lookup pParam.ppClusterTable pParam.clusterTableSize pParam.clusterTableSeed
      (pParam.cluster pCluster).pElem with
  | some e => e.count
  | none => 0

/-- The second loop of `aggregate_candidates`: `ptr->count =
ptr->pElem->count`. -/
def aggregate_commit (order : List Nat) (pParam : Parameters) : Parameters :=
  order.foldl (fun p ptr =>
    p.setCluster ptr { p.cluster ptr with count := elem_count p ptr }) pParam

/-- The two loops of `aggregate_candidates`, run over the clusters in the
given order. -/
def aggregate_in_order (order : List Nat) (pParam : Parameters) : Parameters :=
  aggregate_commit order (aggregate_search order pParam)

/-- `aggregate_candidates`. -/
def aggregate_candidates (pParam : Parameters) : Parameters :=
  aggregate_in_order (family_order pParam) pParam

/-- `step_2_aggregate_support` up to the call of `aggregate_candidates`: the
hash modulus and the wildcard hash are set to three times the number of
frequent words, and the trie is built. -/
def prepare_prefix_trie (pParam : Parameters) : Parameters :=
  build_prefix_trie { pParam with prefixSketchSize := pParam.freWordNum * 3,
                                  wildcardHash := pParam.freWordNum * 3 }

/-- `step_2_aggregate_support`. -/
def step_2_aggregate_support (pParam : Parameters) : Parameters :=
  aggregate_candidates (prepare_prefix_trie pParam)

/-! ## The candidates matched by the search -/

/-- The candidate whose support `aggregate_end` adds, if any. -/
def matched_end (pCluster : Nat) (d : TrieData) : List Nat :=
  match d.pIsEnd with
  | some other => if other ≠ pCluster then [other] else []
  | none => []

/-- The candidates whose supports `find_more_specific_tail` adds, in the order
of the additions. -/
def matched_tail (pCluster : Nat) (c : Cluster) : TrieNode → Int × Int → List Nat
  | .null, _ => []
  | .node d pChild pNext, mm =>
    let mm1 := trie_step d mm
    (if mm1.1 < c.fullWildcard 0 then matched_tail pCluster c pChild mm1
     else if mm1.2 > c.fullWildcard 1 then []
     else matched_end pCluster d ++ matched_tail pCluster c pChild mm1)
    ++ matched_tail pCluster c pNext mm

/-- The candidates whose supports `find_more_specific_loop` adds, in the order
of the additions. -/
def matched_loop (pCluster : Nat) (c : Cluster) (hashOf : Key → Nat) :
    TrieNode → Nat → Int × Int → Nat → List Nat
  | .null, _, _, _ => []
  | .node d pChild pNext, constant, mm, hash =>
    let mm1 := trie_step d mm
    if mm1.1 - 1 < c.fullWildcard (constant * 2) then
      matched_loop pCluster c hashOf pChild constant mm1 hash
        ++ matched_loop pCluster c hashOf pNext constant mm hash
    else if mm1.2 - 1 > c.fullWildcard (constant * 2 + 1) then
      matched_loop pCluster c hashOf pNext constant mm hash
    else if d.hashValue = hash ∧
        d.pWord.map Elem.pKey = (c.ppWord constant).map Elem.pKey ∧ d.pWord ≠ none then
      if constant < c.constants then
        let hashTmp := match c.ppWord (constant + 1) with
          | some w => hashOf w.pKey
          | none => 0
        matched_loop pCluster c hashOf pChild (constant + 1) (0, 0) hashTmp
          ++ matched_loop pCluster c hashOf pNext constant mm hash
      else if constant = c.constants then
        if c.fullWildcard 1 = 0 then
          matched_end pCluster d ++ matched_loop pCluster c hashOf pNext constant mm hash
        else
          (if c.fullWildcard 0 = 0 then matched_end pCluster d else [])
            ++ matched_tail pCluster c pChild (0, 0)
            ++ matched_loop pCluster c hashOf pNext constant mm hash
      else matched_loop pCluster c hashOf pNext constant mm1 hash
    else
      matched_loop pCluster c hashOf pChild constant mm1 hash
        ++ matched_loop pCluster c hashOf pNext constant mm hash

/-- The candidates whose supports `aggregate_candidates` adds to the candidate
`pCluster`, in the order of the additions: none for a candidate without a
wildcard, and else those that the search from the common parent reaches. -/
def matched (pParam : Parameters) (pCluster : Nat) : List Nat :=
  let c := pParam.cluster pCluster
  if get_first_wildcard_location c ≥ 0 then
    let firstWildcardLoc := (get_first_wildcard_location c).toNat
    let hash :=
      if firstWildcardLoc ≠ 0 then
        match c.ppWord firstWildcardLoc with
        | some w => str2hash w.pKey pParam.prefixSketchSize pParam.prefixSketchSeed
        | none => 0
      else 0
    match get_common_parent pParam pCluster with
    | none => []
    | some pParent =>
      match pParam.pPrefixRoot.find pParent with
      | none => []
      | some (_, pChild) =>
        if firstWildcardLoc = 0 then matched_tail pCluster c pChild (0, 0)
        else
          matched_loop pCluster c
            (fun k => str2hash k pParam.prefixSketchSize pParam.prefixSketchSeed)
            pChild firstWildcardLoc (0, 0) hash
  else []

/-- The additions `pCluster->pElem->count += other->count` for the candidates
`others`, in order. -/
def aggregate_supports (pCluster : Nat) (others : List Nat) (pParam : Parameters) :
    Parameters :=
  others.foldl (fun p other => aggregate_support pCluster other p) pParam

/-- The state `q` differs from `p` at most in the cluster table. -/
structure TableOnly (p q : Parameters) : Prop where
  clusters : q.clusters = p.clusters
  root : q.pPrefixRoot = p.pPrefixRoot
  psize : q.prefixSketchSize = p.prefixSketchSize
  pseed : q.prefixSketchSeed = p.prefixSketchSeed
  csize : q.clusterTableSize = p.clusterTableSize
  cseed : q.clusterTableSeed = p.clusterTableSeed
  family : q.pClusterFamily = p.pClusterFamily
  biggest : q.biggestConstants = p.biggestConstants
  support : q.support = p.support

/-- The sum of the counts that the cluster records of `pParam` hold for the
candidates `ptrs`. -/
def support_sum (pParam : Parameters) (ptrs : List Nat) : Nat :=
  (ptrs.map (fun ptr => (pParam.cluster ptr).count)).sum

/-! ## A small input used to instantiate the theorems -/

/-- The lines `A B`, `A X B`, `A X Y B`. -/
def exampleInput : List (List Key) :=
  [[[65], [66]], [[65], [88], [66]], [[65], [88], [89], [66]]]

/-- The parameters after the vocabulary pass on `exampleInput`, with support
3. -/
def exampleVocabulary : Parameters :=
  (create_vocabulary { support := 3, wordTableSize := 5, clusterTableSize := 7 }
    exampleInput).1

/-- The parameters after the selection of the frequent words of
`exampleVocabulary`. -/
def exampleParams : Parameters :=
  (find_frequent_words exampleVocabulary).1

/-- The invariant of the scan of a line in the word-dependency pass after the
words `pre`: `wordNumStr[1 .. distinctConstants]` holds the numbers of the
frequent words of `pre`, each once.  `ps` is the state the scan started in. -/
structure DepInv (p0 ps : Parameters) (st : Parameters × CandidateLocals × Nat)
    (pre : List Key) : Prop where
  size : st.1.wordTableSize = p0.wordTableSize
  seed : st.1.wordTableSeed = p0.wordTableSeed
  same : ∀ w, lookup st.1.ppWordTable p0.wordTableSize p0.wordTableSeed w
    = lookup p0.ppWordTable p0.wordTableSize p0.wordTableSeed w
  matrix : st.1.wordDepMatrix = ps.wordDepMatrix
  breadth : st.1.wordDepMatrixBreadth = ps.wordDepMatrixBreadth
  constants_eq : st.2.1.constants = (pre.filter (isFrequent p0)).length
  sto_sound : ∀ i, 1 ≤ i → i ≤ st.2.2 → ∃ u ∈ pre, isFrequent p0 u = true ∧
    ∃ e, lookup p0.ppWordTable p0.wordTableSize p0.wordTableSeed u = some e ∧
      e.number = st.1.wordNumStr i
  sto_complete : ∀ u ∈ pre, isFrequent p0 u = true → ∃ i, 1 ≤ i ∧ i ≤ st.2.2 ∧
    ∃ e, lookup p0.ppWordTable p0.wordTableSize p0.wordTableSeed u = some e ∧
      e.number = st.1.wordNumStr i
  sto_inj : ∀ i j, 1 ≤ i → i ≤ st.2.2 → 1 ≤ j → j ≤ st.2.2 →
    st.1.wordNumStr i = st.1.wordNumStr j → i = j

/-- The numbers of the records of the word table identify the words. -/
def NumbersInjective (p0 : Parameters) : Prop :=
  ∀ u v eu ev, lookup p0.ppWordTable p0.wordTableSize p0.wordTableSeed u = some eu →
    lookup p0.ppWordTable p0.wordTableSize p0.wordTableSeed v = some ev →
    eu.number = ev.number → u = v

/-- The numbers of the records of the word table are below `B`. -/
def NumbersBelow (p0 : Parameters) (B : Nat) : Prop :=
  ∀ u eu, lookup p0.ppWordTable p0.wordTableSize p0.wordTableSeed u = some eu → eu.number < B

/-- The invariant of the word-dependency pass after the lines `done`. -/
structure MatrixInv (p0 p : Parameters) (done : List (List Key)) : Prop where
  words : WInv p0 p
  breadth : p.wordDepMatrixBreadth = p0.wordDepMatrixBreadth
  entries : ∀ u v eu ev, isFrequent p0 u = true → isFrequent p0 v = true →
    lookup p0.ppWordTable p0.wordTableSize p0.wordTableSeed u = some eu →
    lookup p0.ppWordTable p0.wordTableSize p0.wordTableSeed v = some ev →
    p.wordDepMatrix (eu.number * p0.wordDepMatrixBreadth + ev.number) = linesWithBoth u v done

/-! ## Specification vocabulary of the aggregation -/

/-- An element of a candidate: a constant, or a gap with its bounds. -/
inductive TrieElem where
  | word (key : Key) : TrieElem
  | gap (min max : Int) : TrieElem
  deriving DecidableEq, Repr

/-- The number of words an element stands for: a constant is exactly one word,
a gap is its range. -/
def TrieElem.range : TrieElem → Int × Int
  | .word _ => (1, 1)
  | .gap a b => (a, b)

/-- The range a sequence of elements adds up to. -/
def rangeSum : List TrieElem → Int × Int
  | [] => (0, 0)
  | e :: rest => (e.range.1 + (rangeSum rest).1, e.range.2 + (rangeSum rest).2)

/-- The `i`-th constant of a candidate. -/
def Cluster.word (c : Cluster) (i : Nat) : Key :=
  ((c.ppWord i).map Elem.pKey).getD []

/-- The constants of a candidate, in order. -/
def Cluster.words (c : Cluster) : List Key :=
  (List.range' 1 c.constants).map c.word

/-- The elements a candidate has for its `i`-th constant: the gap before it,
when that is not empty, and the constant. -/
def Cluster.elementsAt (c : Cluster) (i : Nat) : List TrieElem :=
  (if c.fullWildcard (i * 2 + 1) ≠ 0
    then [TrieElem.gap (c.fullWildcard (i * 2)) (c.fullWildcard (i * 2 + 1))] else [])
  ++ [TrieElem.word (c.word i)]

/-- The gap after the last constant of a candidate, when it is not empty. -/
def Cluster.elementsTail (c : Cluster) : List TrieElem :=
  if c.fullWildcard 1 ≠ 0 then [TrieElem.gap (c.fullWildcard 0) (c.fullWildcard 1)] else []

/-- The elements of a candidate, in order. -/
def Cluster.elements (c : Cluster) : List TrieElem :=
  (List.range' 1 c.constants).flatMap c.elementsAt ++ c.elementsTail

/-- The constants of a candidate from the `i`-th on (`n` of them), each with
the bounds of the gap before it. -/
def Cluster.bounds (c : Cluster) (i n : Nat) : List (Key × Int × Int) :=
  (List.range' i n).map
    (fun j => (c.word j, c.fullWildcard (j * 2), c.fullWildcard (j * 2 + 1)))

/-- The constants `ws` occur in order among the elements `ρ`, the elements
before each constant add up, together with the range `mm` for the first of
them, to a range within the bounds of that constant, and the elements after the
last one add up to a range within `tl`. -/
def Embeds : List (Key × Int × Int) → Int × Int → Int × Int → List TrieElem → Prop
  | [], tl, mm, ρ => tl.1 ≤ mm.1 + (rangeSum ρ).1 ∧ mm.2 + (rangeSum ρ).2 ≤ tl.2
  | w :: ws, tl, mm, ρ =>
    ∃ g rest, ρ = g ++ TrieElem.word w.1 :: rest ∧
      w.2.1 ≤ mm.1 + (rangeSum g).1 ∧ mm.2 + (rangeSum g).2 ≤ w.2.2 ∧
      Embeds ws tl (0, 0) rest

/-- The candidate `c1` is more specific than the candidate `c`: the constants of
`c` occur in order among the elements of `c1`, and for every gap of `c` the
elements of `c1` lying in that gap add up to a range contained in the bounds of
the gap. -/
def MoreSpecific (c1 c : Cluster) : Prop :=
  Embeds (c.bounds 1 c.constants) (c.fullWildcard 0, c.fullWildcard 1) (0, 0) c1.elements

/-- The number of the input lines that a candidate stands for: the lines whose
sequence of frequent words is the sequence of its constants. -/
def own_count (pParam : Parameters) (input : List (List Key)) (c : Cluster) : Nat :=
  (linesOf pParam c.words input).length

/-- Steps 2.B, 2.C and 3.A of `main` with `--aggrsup` (no sketch, no word
filter, no word weight): the candidate pass, the aggregation of the supports,
and then the selection of the clusters. -/
def mine_aggrsup (pParam : Parameters) (input : List (List Key)) (loc : CandidateLocals)
    (clusterCount : Nat) : Parameters :=
  (find_clusters_from_candidates
    (step_2_aggregate_support (create_cluster_candidates pParam input loc clusterCount).1)).1

/-! ## The nodes of the prefix trie -/

/-- The element a node stands for. -/
def TrieData.elem (d : TrieData) : TrieElem :=
  match d.pWord with
  | some e => TrieElem.word e.pKey
  | none => TrieElem.gap d.wildcardMin d.wildcardMax

/-- The nodes of the chain `t` and below it, in preorder, each with the
addresses and the elements of its ancestors from the top; `π` is that of the
ancestors of the chain. -/
def TrieNode.nodes : TrieNode → List (Nat × TrieElem) → List (List (Nat × TrieElem) × TrieData)
  | .null, _ => []
  | .node d c n, π => (π, d) :: (c.nodes (π ++ [(d.addr, d.elem)]) ++ n.nodes π)

/-- The addresses of the nodes of the chain `t` and below it, in preorder. -/
def TrieNode.addrs : TrieNode → List Nat
  | .null => []
  | .node d c n => d.addr :: (c.addrs ++ n.addrs)

/-- The nodes of a chain itself. -/
def TrieNode.siblings : TrieNode → List TrieData
  | .null => []
  | .node d _ n => d :: n.siblings

/-- The elements on the way from below the root to a node, the node
included. -/
def pathElems (x : List (Nat × TrieElem) × TrieData) : List TrieElem :=
  ((x.1 ++ [(x.2.addr, x.2.elem)]).tail).map Prod.snd

/-- A word node has `wildcardMax = 0`, a wildcard node below the root has
not. -/
def TrieData.Kind (x : List (Nat × TrieElem) × TrieData) : Prop :=
  (x.2.pWord ≠ none → x.2.wildcardMax = 0) ∧
  (x.2.pWord = none → x.1 ≠ [] → x.2.wildcardMax ≠ 0)

/-- The state `q` differs from `p` at most in the trie and in the scratch fields
of its construction. -/
def TrieFields (p q : Parameters) : Prop :=
  q = { p with pPrefixRoot := q.pPrefixRoot, trieNodeNum := q.trieNodeNum,
               prefixWildcardMin := q.prefixWildcardMin,
               prefixWildcardMax := q.prefixWildcardMax }

/-- The state `q` differs from `p` at most in the trie, in the scratch fields of
its construction and in the `pLastNode` fields of the cluster records. -/
structure BuildFrame (p q : Parameters) : Prop where
  table : q.ppClusterTable = p.ppClusterTable
  csize : q.clusterTableSize = p.clusterTableSize
  cseed : q.clusterTableSeed = p.clusterTableSeed
  family : q.pClusterFamily = p.pClusterFamily
  biggest : q.biggestConstants = p.biggestConstants
  support : q.support = p.support
  psize : q.prefixSketchSize = p.prefixSketchSize
  pseed : q.prefixSketchSeed = p.prefixSketchSeed
  len : q.clusters.length = p.clusters.length
  cluster : ∀ o, q.cluster o = { p.cluster o with pLastNode := (q.cluster o).pLastNode }

/-- The invariant of the prefix trie while the candidates `inserted` have been
put into it. -/
structure TrieInv (p : Parameters) (inserted : List Nat) : Prop where
  root : ∃ d0 c0, p.pPrefixRoot = TrieNode.node d0 c0 TrieNode.null ∧ d0.addr = 0
  addr : ((p.pPrefixRoot.nodes []).map (fun x => x.2.addr)).Nodup
  fresh : ∀ x ∈ p.pPrefixRoot.nodes [], x.2.addr < p.trieNodeNum
  parent : ∀ x ∈ p.pPrefixRoot.nodes [], x.2.pParent = x.1.getLast?.map Prod.fst
  kind : ∀ x ∈ p.pPrefixRoot.nodes [], TrieData.Kind x
  ends : ∀ x ∈ p.pPrefixRoot.nodes [], ∀ o, x.2.pIsEnd = some o →
    o ∈ inserted ∧ pathElems x = (p.cluster o).elements ∧
      (p.cluster o).pLastNode = some x.2.addr
  last : ∀ o ∈ inserted, ∃ x ∈ p.pPrefixRoot.nodes [],
    (p.cluster o).pLastNode = some x.2.addr ∧ pathElems x = (p.cluster o).elements

/-! ## Inputs used to instantiate the aggregation theorems -/

/-- The lines `A x B`, `A y B`, `A C B`, `C`. -/
def aggrInput : List (List Key) :=
  [[[65], [120], [66]], [[65], [121], [66]], [[65], [67], [66]], [[67]]]

/-- The parameters after the vocabulary pass and the selection of the frequent
words on `aggrInput`, with support 2; `freWordNum` is set as in `main`. -/
def aggrParams : Parameters :=
  let v := create_vocabulary { support := 2, wordTableSize := 5, clusterTableSize := 7 } aggrInput
  let f := find_frequent_words v.1
  { f.1 with freWordNum := f.2 }

/-- The state after the candidate pass on `aggrInput`. -/
def aggrCandidates : Parameters :=
  (create_cluster_candidates aggrParams aggrInput {} 0).1

/-- The state after the prefix trie of `aggrCandidates` is built. -/
def aggrTrie : Parameters :=
  prepare_prefix_trie aggrCandidates

/-- The example of the documentation of `--aggrsup`, with `I` for `Interface`,
`D` for `down`, `e0` for `eth0` and `e1` for `eth1`: twenty lines `I x D` with
twenty different words `x`, ten lines `I e0 D` and five lines `I e1 D`. -/
def docInput : List (List Key) :=
  (List.range 20).map (fun i => [[73], [120, 65 + i], [68]]) ++
    (List.replicate 10 [[73], [101, 48], [68]] ++ List.replicate 5 [[73], [101, 49], [68]])

/-- The parameters after the vocabulary pass and the selection of the frequent
words on `docInput`, with support 5; `freWordNum` is set as in `main`. -/
def docParams : Parameters :=
  let v := create_vocabulary { support := 5, wordTableSize := 5, clusterTableSize := 7 } docInput
  let f := find_frequent_words v.1
  { f.1 with freWordNum := f.2 }

/-- The state after the candidate pass on `docInput`. -/
def docCandidates : Parameters :=
  (create_cluster_candidates docParams docInput {} 0).1

/-- The lines `A B`, `A x B`, `A B B`, `A B B`. -/
def leftmostInput : List (List Key) :=
  [[[65], [66]], [[65], [120], [66]], [[65], [66], [66]], [[65], [66], [66]]]

/-- The parameters after the vocabulary pass and the selection of the frequent
words on `leftmostInput`, with support 2; `freWordNum` is set as in `main`. -/
def leftmostParams : Parameters :=
  let v := create_vocabulary { support := 2, wordTableSize := 5, clusterTableSize := 7 }
    leftmostInput
  let f := find_frequent_words v.1
  { f.1 with freWordNum := f.2 }

/-- The state after the candidate pass on `leftmostInput`. -/
def leftmostCandidates : Parameters :=
  (create_cluster_candidates leftmostParams leftmostInput {} 0).1

/-! ## Word weights -/

/-- A value of type `double` (IEEE 754 binary64).  A finite value is the
rational number it stands for.  `none` is a value that is not finite: a positive
infinity or a NaN, which the weight functions get from a division by zero;
their sums, their differences with a finite value and their quotients by a
positive value are not finite again, and they compare false with `<`. -/
abbrev Double := Option ℚ

/-- The power `2 ^ e` of two with an integer exponent. -/
def pow2 (e : ℤ) : ℚ :=
  if 0 ≤ e then ((2 ^ e.toNat : ℕ) : ℚ) else 1 / ((2 ^ (-e).toNat : ℕ) : ℚ)

/-- The integer nearest to `x`; of the two integers nearest to a half, the even
one. -/
def round_half_even (x : ℚ) : ℤ :=
  if x - ⌊x⌋ < 1 / 2 then ⌊x⌋
  else if 1 / 2 < x - ⌊x⌋ then ⌊x⌋ + 1
  else if ⌊x⌋ % 2 = 0 then ⌊x⌋ else ⌊x⌋ + 1

/-- The position of the leading bit of `n`, for `n <= fuel`: the largest `k`
with `2 ^ k <= n`, and 0 for `n = 0`. -/
def leading_bit : Nat → Nat → Nat
  | 0, _ => 0
  | fuel + 1, n => if n < 2 then 0 else leading_bit fuel (n / 2) + 1

/-- The exponent `e` of a number `x` that is not 0: `2 ^ e <= |x| < 2 ^ (e +
1)`. -/
def Double.exponent (x : ℚ) : ℤ :=
  let e : ℤ := (leading_bit x.num.natAbs x.num.natAbs : ℤ) - (leading_bit x.den x.den : ℤ)
  if pow2 e ≤ |x| then e else e - 1

/-- The number with 53 significant bits (a multiple of `2 ^ (-1074)` below
`2 ^ (-1022)`) nearest to `x`, the one with the even last bit of two nearest
ones: the rounding of IEEE 754 binary64 arithmetic (round to nearest, ties to
even) before the test for overflow. -/
def Double.nearest (x : ℚ) : ℚ :=
  if x = 0 then 0
  else
    let q : ℤ := max (Double.exponent x - 52) (-1074)
    (round_half_even (x / pow2 q) : ℚ) * pow2 q

/-- The `double` that the arithmetic gives for the exact result `x` of an
operation: the nearest `double`, or an infinity when that has a magnitude of
`2 ^ 1024` or more. -/
def Double.round (x : ℚ) : Double :=
  if |Double.nearest x| < pow2 1024 then some (Double.nearest x) else none

/-- The numbers `n * 2 ^ q` with an integer `n` of at most 53 bits and `q >=
-1074`: the finite values of the type `double`, and their continuation above
`2 ^ 1024`. -/
def Double.Representable (f : ℚ) : Prop :=
  ∃ n q : ℤ, |n| ≤ 2 ^ 53 ∧ -1074 ≤ q ∧ f = n * pow2 q

/-- The conversion `(double) n` of a value `n` of the types `unsigned long` and
`int` that is not negative: the nearest `double`, which is `n` itself up to
`2 ^ 53`. -/
def to_double (n : Nat) : ℚ :=
  Double.nearest n

/-- The value that `atof` returns for a decimal numeral with the value `x`:
the nearest `double`. -/
def atof (x : ℚ) : ℚ :=
  Double.nearest x

/-- The quotient `a / b` of two finite values of type `double`: the exact
quotient, rounded; not finite when `b` is 0. -/
def Double.quot (a b : ℚ) : Double :=
  if b = 0 then none else Double.round (a / b)

/-- The sum of two values of type `double`: the exact sum, rounded. -/
def Double.add : Double → Double → Double
  | some x, some y => Double.round (x + y)
  | _, _ => none

/-- The comparison `a < b` of a value of type `double` with a finite value of
type `double`. -/
def Double.lt : Double → ℚ → Bool
  | some x, b => decide (x < b)
  | none, _ => false

/-- The expression `pCluster->ppWord[i]->number`. -/
def Cluster.wordNumber (c : Cluster) (i : Nat) : Nat :=
  ((c.ppWord i).map Elem.number).getD 0

/-- `cal_word_dep_number_version`: `wordDepMatrix[word1num * breadth +
word2num]` divided by `wordDepMatrix[word1num * breadth + word1num]`, as
`(double) word2NumInWord1 / word1Total`. -/
def cal_word_dep_number_version (word1num word2num : Nat) (pParam : Parameters) : Double :=
  let word1Total := pParam.wordDepMatrix (word1num * pParam.wordDepMatrixBreadth + word1num)
  let word2NumInWord1 :=
    pParam.wordDepMatrix (word1num * pParam.wordDepMatrixBreadth + word2num)
  Double.quot (to_double word2NumInWord1) (to_double word1Total)

/-- `cal_word_dep`, for the words `word1` and `word2` of the word table:
`dependency = (double) word2NumInWord1 / word1Total`, the quotient of the two
counts converted to `double`. -/
def cal_word_dep (word1 word2 : Option Elem) (pParam : Parameters) : Double :=
  let number1 := (word1.map Elem.number).getD 0
  let number2 := (word2.map Elem.number).getD 0
  let word1Total := pParam.wordDepMatrix (number1 * pParam.wordDepMatrixBreadth + number1)
  let word2NumInWord1 :=
    pParam.wordDepMatrix (number1 * pParam.wordDepMatrixBreadth + number2)
  Double.quot (to_double word2NumInWord1) (to_double word1Total)

/-- `cal_word_weight_function_1`: the sum of `cal_word_dep(ppWord[i],
ppWord[serial])` over `i = 1 .. constants`, added one by one to the variable
`sum` of type `double`, divided by `constants`. -/
def cal_word_weight_function_1 (pCluster : Nat) (serial : Nat) (pParam : Parameters) : Double :=
  let c := pParam.cluster pCluster
  let sum := (List.range' 1 c.constants).foldl
    (fun sum i => Double.add sum (cal_word_dep (c.ppWord i) (c.ppWord serial) pParam)) (some 0)
  match sum with
  | some s => Double.quot s (to_double c.constants)
  | none => none

/-- `get_unique_frequent_words_out_of_cluster`.  The number of a constant that
is not repeated is stored at the index `i` of its position. -/
def get_unique_frequent_words_out_of_cluster (pCluster : Nat) (pParam : Parameters) :
    Parameters :=
  let c := pParam.cluster pCluster
  let r := (List.range' 1 c.constants).foldl
    (fun (st : (Nat → Nat) × Nat) i =>
      let distinctConstants := st.2 + 1
      if is_word_repeated st.1 (c.wordNumber i) distinctConstants then
        (st.1, distinctConstants - 1)
      else (arrSet st.1 i (c.wordNumber i), distinctConstants))
    (pParam.wordNumStr, 0)
  { pParam with wordNumStr := arrSet r.1 0 r.2, pCurrentCluster := some pCluster }

/-- The statement `if (pCluster != pParam->pCurrentCluster)
get_unique_frequent_words_out_of_cluster(pCluster, pParam);` of
`cal_word_weight_function_2`. -/
def unique_words (pCluster : Nat) (pParam : Parameters) : Parameters :=
  if pParam.pCurrentCluster ≠ some pCluster then
    get_unique_frequent_words_out_of_cluster pCluster pParam
  else pParam

/-- `cal_word_weight_function_2`; the second component is the state, in which
`wordNumStr` and `pCurrentCluster` may have changed.  The divisor
`wordNumStr[0] - 1` is computed in 64-bit unsigned arithmetic and converted to
`double`; the difference `sum - 1` and the quotient are rounded. -/
def cal_word_weight_function_2 (pCluster : Nat) (serial : Nat) (pParam : Parameters) :
    Double × Parameters :=
  let c := pParam.cluster pCluster
  let pParam := unique_words pCluster pParam
  if pParam.wordNumStr 0 = 1 then (some 1, pParam)
  else
    let sum := (List.range' 1 (pParam.wordNumStr 0)).foldl
      (fun sum i => Double.add sum
        (cal_word_dep_number_version (pParam.wordNumStr i) (c.wordNumber serial) pParam))
      (some 0)
    let result := match sum with
      | some s =>
        match Double.round (s - 1) with
        | some d => Double.quot d (to_double ((pParam.wordNumStr 0 + 2 ^ 64 - 1) % 2 ^ 64))
        | none => none
      | none => none
    (result, pParam)

/-- `cal_word_weight`: the weight function selected by `wordWeightFunction`;
`none` when the process exits because the function is neither 1 nor 2. -/
def cal_word_weight (pCluster : Nat) (serial : Nat) (pParam : Parameters) :
    Option (Double × Parameters) :=
  if pParam.wordWeightFunction = 1 then
    some (cal_word_weight_function_1 pCluster serial pParam, pParam)
  else if pParam.wordWeightFunction = 2 then
    some (cal_word_weight_function_2 pCluster serial pParam)
  else none

/-- The entry `D[Wj][Wi]` of the matrix for the constants at the positions `j`
and `i` of a candidate. -/
def depEntry (pParam : Parameters) (c : Cluster) (j i : Nat) : Nat :=
  pParam.wordDepMatrix (c.wordNumber j * pParam.wordDepMatrixBreadth + c.wordNumber i)

/-- Weight function 1 in the words of its documentation, as an exact rational
number: `(sum over the positions j = 1 .. k of D[Wj][Wi] / D[Wj][Wj]) / k`. -/
def exact_word_weight (pParam : Parameters) (c : Cluster) (i : Nat) : ℚ :=
  ((List.range' 1 c.constants).map (fun j =>
    (depEntry pParam c j i : ℚ) / (depEntry pParam c j j : ℚ))).sum / (c.constants : ℚ)

/-- A sum in double arithmetic: the values `d j` for the `j` of the list are
added to `s` one by one, and every partial sum is rounded to the nearest
`double`. -/
def rounded_sum (d : Nat → ℚ) (l : List Nat) (s : ℚ) : ℚ :=
  l.foldl (fun s j => Double.nearest (s + d j)) s

/-- Weight function 1 in double arithmetic: every quotient `D[Wj][Wi] /
D[Wj][Wj]`, every partial sum of the quotients from the position 1 on, and the
quotient of the sum by `k` are rounded to the nearest `double`. -/
def rounded_word_weight (pParam : Parameters) (c : Cluster) (i : Nat) : ℚ :=
  Double.nearest
    (rounded_sum
      (fun j => Double.nearest ((depEntry pParam c j i : ℚ) / (depEntry pParam c j j : ℚ)))
      (List.range' 1 c.constants) 0 / (c.constants : ℚ))

/-- The lines of the documentation example of `--wweight` with `I` for
`Interface`, `e` for `eth0` and `u` for `unstable`: of the 20 lines with `I`
one has `e`, and of the 20 lines with `u` three have `e`. -/
def weightInput : List (List Key) :=
  [[[73], [101], [117]]] ++ List.replicate 2 [[101], [117]] ++
    (List.replicate 19 [[73]] ++ List.replicate 17 [[117]])

/-- The state after the vocabulary pass, the selection of the frequent words
and the fused candidate and word-dependency pass on `weightInput`, with support
1. -/
def weightCandidates : Parameters :=
  let v := create_vocabulary { support := 1, wordTableSize := 5, clusterTableSize := 7 }
    weightInput
  (create_cluster_candidates_word_dep (prepare_word_dep v.1) weightInput {} 0).1

/-- Weight function 2 in the words of its documentation: with `U1 .. Up` the
distinct constants of the candidate, the weight of the constant at the position
`i` is 1 when `p = 1` and otherwise `(dep(U1, Wi) + .. + dep(Up, Wi) - dep(Wi,
Wi)) / (p - 1)`, where `dep(U, W) = D[U][W] / D[U][U]`. -/
def unique_word_weight (pParam : Parameters) (c : Cluster) (i : Nat) : ℚ :=
  let dep := fun (u w : Nat) =>
    (pParam.wordDepMatrix (u * pParam.wordDepMatrixBreadth + w) : ℚ)
      / (pParam.wordDepMatrix (u * pParam.wordDepMatrixBreadth + u) : ℚ)
  let U := ((List.range' 1 c.constants).map c.wordNumber).dedup
  if U.length = 1 then 1
  else ((U.map (fun u => dep u (c.wordNumber i))).sum - dep (c.wordNumber i) (c.wordNumber i))
    / ((U.length : ℚ) - 1)

/-- The lines `A A B`, `A A B`, `C A`, `A C`. -/
def repeatInput : List (List Key) :=
  [[[65], [65], [66]], [[65], [65], [66]], [[67], [65]], [[65], [67]]]

/-- The state after the vocabulary pass, the selection of the frequent words,
the fused candidate and word-dependency pass and the selection of the clusters
on `repeatInput`, with support 2 and weight function 2. -/
def repeatClusters : Parameters :=
  let v := create_vocabulary
    { support := 2, wordTableSize := 5, clusterTableSize := 7, wordWeightFunction := 2,
      wordWeightThreshold := atof (3 / 10) } repeatInput
  let c := (create_cluster_candidates_word_dep (prepare_word_dep v.1) repeatInput {} 0).1
  let r := find_clusters_from_candidates c
  { r.1 with clusterNum := r.2 }

/-! ## Joining clusters -/

/-- The key that `join_cluster_with_token` builds for a cluster: for every
constant its word, or `token` when `tokenMarker[i]` is not 0, followed by
`CLUSTERSEP`. -/
def token_key (c : Cluster) (tokenMarker : Nat → Nat) (token : Key) : Key :=
  (List.range' 1 c.constants).foldl
    (fun key i => (if tokenMarker i = 0 then key ++ c.word i else key ++ token) ++ [CLUSTERSEP])
    []

/-- The record that `create_cluster_with_token_instance` allocates for the
cluster `c` and initialises; `key` is the key of the record `pElem`. -/
def new_token_record (c : Cluster) (key : Key) : Cluster :=
  let ppWord := (List.range' 1 c.constants).foldl (fun a i => arrSet a i (c.ppWord i))
    (arrSet (fun _ => none) 0 none)
  let fullWildcard := (List.range' 1 c.constants).foldl
    (fun a i => arrSet (arrSet a (i * 2) (c.fullWildcard (i * 2))) (i * 2 + 1)
      (c.fullWildcard (i * 2 + 1))) (fun _ => 0)
  let fullWildcard := arrSet (arrSet fullWildcard 0 (c.fullWildcard 0)) 1 (c.fullWildcard 1)
  { constants := c.constants, count := 0, fullWildcard := fullWildcard,
    pElem := key, ppWord := ppWord, pLastNode := c.pLastNode,
    bIsJoined := c.bIsJoined, ppToken := fun _ => [] }

/-- `create_cluster_with_token_instance`.  `pElem` is the pointer returned by
`add_elem`, given by its slot `hash` in the cluster table and its record. -/
def create_cluster_with_token_instance (pCluster : Nat) (hash : Nat) (pElem : Elem)
    (pParam : Parameters) : Parameters :=
  let c := pParam.cluster pCluster
  let ptr := pParam.clusters.length
  { pParam with
      clusters := pParam.clusters ++ [new_token_record c pElem.pKey],
      ppClusterTable :=
        store_front pParam.ppClusterTable hash { pElem with pCluster := some ptr },
      pClusterWithTokenFamily :=
        arrSet pParam.pClusterWithTokenFamily c.constants
          (ptr :: pParam.pClusterWithTokenFamily c.constants) }

/-- `check_if_token_key_is_exist`: whether the chain `ptr->ppToken[serial]`
has a token with `pWord == pElem`.  Two pointers to records of the word table
are equal when the records are. -/
def check_if_token_key_is_exist (ptr : Cluster) (serial : Nat) (pElem : Option Elem) : Bool :=
  (ptr.ppToken serial).any (fun pWord => decide (pWord = pElem))

/-- The body of the first loop of `adjust_cluster_with_token_instance`, for the
bounds `wildcard` of the cluster that is joined. -/
def adjust_token_wildcard (wildcard : Nat → Int) (fullWildcard : Nat → Int) (i : Nat) :
    Nat → Int :=
  let fullWildcard :=
    if wildcard (i * 2) < fullWildcard (i * 2) then arrSet fullWildcard (i * 2) (wildcard (i * 2))
    else fullWildcard
  if wildcard (i * 2 + 1) > fullWildcard (i * 2 + 1) then
    arrSet fullWildcard (i * 2 + 1) (wildcard (i * 2 + 1))
  else fullWildcard

/-- The body of the second loop of `adjust_cluster_with_token_instance`: at a
marked position the word of the cluster `c` becomes the new head of the token
chain, unless the chain has it. -/
def adjust_token (c : Cluster) (tokenMarker : Nat → Nat) (ptr : Cluster) (i : Nat) : Cluster :=
  if tokenMarker i = 1 then
    if check_if_token_key_is_exist ptr i (c.ppWord i) then ptr
    else { ptr with ppToken := arrSet ptr.ppToken i (c.ppWord i :: ptr.ppToken i) }
  else ptr

/-- The statements of `adjust_cluster_with_token_instance` on the record
`ptr`, for the cluster `c` that is joined. -/
def adjust_record (c : Cluster) (tokenMarker : Nat → Nat) (ptr : Cluster) : Cluster :=
  let ptr := { ptr with count := ptr.count + c.count }
  let ptr := { ptr with
    fullWildcard := (List.range (ptr.constants + 1)).foldl
      (adjust_token_wildcard c.fullWildcard) ptr.fullWildcard }
  (List.range' 1 ptr.constants).foldl (adjust_token c tokenMarker) ptr

/-- `adjust_cluster_with_token_instance`, for the record `ptr =
pElem->pCluster`. -/
def adjust_cluster_with_token_instance (pCluster : Nat) (ptr : Nat) (pParam : Parameters) :
    Parameters :=
  pParam.setCluster ptr
    (adjust_record (pParam.cluster pCluster) pParam.tokenMarker (pParam.cluster ptr))

/-- `join_cluster_with_token`. -/
def join_cluster_with_token (pCluster : Nat) (pParam : Parameters) : Parameters :=
  let pParam := { pParam with joinedClusterInputNum := pParam.joinedClusterInputNum + 1 }
  let key := token_key (pParam.cluster pCluster) pParam.tokenMarker pParam.token
  let hash := str2hash key pParam.clusterTableSize pParam.clusterTableSeed
  let table := add_elem key pParam.ppClusterTable pParam.clusterTableSize pParam.clusterTableSeed
  let pParam := { pParam with ppClusterTable := table }
  match front pParam.ppClusterTable hash with
  | none => pParam
  | some pElem =>
    let pParam :=
      if pElem.count = 1 then
        create_cluster_with_token_instance pCluster hash pElem
          { pParam with joinedClusterOutputNum := pParam.joinedClusterOutputNum + 1 }
      else pParam
    match front pParam.ppClusterTable hash with
    | none => pParam
    | some pElem =>
      match pElem.pCluster with
      | none => pParam
      | some ptr => adjust_cluster_with_token_instance pCluster ptr pParam

/-- The second loop of `check_cluster_for_join_cluster`, over the positions
that are left; `none` when `cal_word_weight` exits. -/
def check_positions (pCluster : Nat) : List Nat → Parameters → Option Parameters
  | [], pParam => some pParam
  | i :: rest, pParam =>
    match cal_word_weight pCluster i pParam with
    | none => none
    | some (weight, pParam) =>
      if Double.lt weight pParam.wordWeightThreshold then
        check_positions pCluster rest
          { pParam with tokenMarker := arrSet (arrSet pParam.tokenMarker 0 1) i 1 }
      else check_positions pCluster rest pParam

/-- `check_cluster_for_join_cluster`; `none` when `cal_word_weight` exits. -/
def check_cluster_for_join_cluster (pCluster : Nat) (pParam : Parameters) : Option Parameters :=
  let constants := (pParam.cluster pCluster).constants
  let pParam := { pParam with
    tokenMarker := (List.range (constants + 1)).foldl (fun m i => arrSet m i 0)
      pParam.tokenMarker }
  match check_positions pCluster (List.range' 1 constants) pParam with
  | none => none
  | some pParam =>
    if pParam.tokenMarker 0 = 1 then
      some (join_cluster_with_token pCluster
        (pParam.setCluster pCluster { pParam.cluster pCluster with bIsJoined := true }))
    else some pParam

/-- The first loop of `join_cluster`, over the cluster pointers that are
left. -/
def join_check : List Nat → Parameters → Option Parameters
  | [], pParam => some pParam
  | pCluster :: rest, pParam =>
    match check_cluster_for_join_cluster pCluster pParam with
    | none => none
    | some pParam => join_check rest pParam

/-- The order in which the loops over `pClusterWithTokenFamily[1 ..
biggestConstants]` visit the records. -/
def token_family_order (pParam : Parameters) : List Nat :=
  (List.range' 1 pParam.biggestConstants).flatMap pParam.pClusterWithTokenFamily

/-- The update `pElem->count = count` of the record with the key in a hash
table. -/
def elem_set_count (key : Key) (count : Nat) (table : Table) (tablesize seed : Nat) : Table :=
  let hash := str2hash key tablesize seed
  table.set hash (chain_modify key (fun e => { e with count := count }) (table.getD hash []))

/-- The second loop of `join_cluster`: `pClusterWithToken->pElem->count =
pClusterWithToken->count`. -/
def join_equal (order : List Nat) (pParam : Parameters) : Parameters :=
  order.foldl (fun p ptr =>
    let table := elem_set_count (p.cluster ptr).pElem (p.cluster ptr).count p.ppClusterTable
      p.clusterTableSize p.clusterTableSeed
    { p with ppClusterTable := table }) pParam

/-- `join_cluster`; `none` when `cal_word_weight` exits. -/
def join_cluster (pParam : Parameters) : Option Parameters :=
  match join_check (family_order pParam) pParam with
  | none => none
  | some pParam => some (join_equal (token_family_order pParam) pParam)

/-- The value that `cal_word_weight` returns for the position `i` of a
cluster (not finite when the process exits). -/
def word_weight (pCluster : Nat) (i : Nat) (pParam : Parameters) : Double :=
  match cal_word_weight pCluster i pParam with
  | some r => r.1
  | none => none

/-- The clusters that the first loop of `join_cluster` marks as joined, in the
order of the loop, each with the array `tokenMarker` of its positions. -/
def join_trace : List Nat → Parameters → List (Nat × (Nat → Nat))
  | [], _ => []
  | pCluster :: rest, pParam =>
    match check_cluster_for_join_cluster pCluster pParam with
    | none => []
    | some p =>
      (if p.tokenMarker 0 = 1 then [(pCluster, p.tokenMarker)] else []) ++ join_trace rest p

/-- The key under which a cluster is joined, given its token markers: the
words at the positions that are not marked are kept, and `token` stands at the
marked positions. -/
def joined_key (pParam : Parameters) (x : Nat × (Nat → Nat)) : Key :=
  token_key (pParam.cluster x.1) x.2 pParam.token

/-- The joined clusters of a trace with the key `K`. -/
def merged (pParam : Parameters) (trace : List (Nat × (Nat → Nat))) (K : Key) :
    List (Nat × (Nat → Nat)) :=
  trace.filter (fun x => decide (joined_key pParam x = K))

/-- A cluster record with the flag `bIsJoined` set. -/
def Cluster.flagged (c : Cluster) : Cluster :=
  { c with bIsJoined := true }

/-- The record with the key `K` after the joined clusters `xs` (not empty)
are merged into it, in order. -/
def joined_record (pParam : Parameters) (K : Key) (xs : List (Nat × (Nat → Nat))) : Cluster :=
  match xs with
  | [] => {}
  | x :: _ =>
    xs.foldl (fun r y => adjust_record (pParam.cluster y.1).flagged y.2 r)
      (new_token_record (pParam.cluster x.1).flagged K)

/-- The bound `v` of a joined record after the bound `w k` of a cluster is
merged into it: the smaller one for a lower bound (even `k`), the larger one
for an upper bound (odd `k`). -/
def widen (w : Nat → Int) (k : Nat) (v : Int) : Int :=
  if k % 2 = 0 then min v (w k) else max v (w k)

/-- The insertion of a word into a token chain: a word that the chain has is
left out, any other word becomes the new head. -/
def insert_token (w : Option Elem) (chain : List (Option Elem)) : List (Option Elem) :=
  if w ∈ chain then chain else w :: chain

/-- The token chain after the words `ws` are inserted in order. -/
def token_chain (ws : List (Option Elem)) : List (Option Elem) :=
  ws.foldl (fun chain w => insert_token w chain) []

/-- The words that the joined clusters `xs` have at the position `i`, for
those in which the position is marked, in order. -/
def token_words (pParam : Parameters) (xs : List (Nat × (Nat → Nat))) (i : Nat) :
    List (Option Elem) :=
  (xs.filter (fun x => decide (x.2 i = 1))).map (fun x => (pParam.cluster x.1).ppWord i)

/-- The lines of the documentation example of the joining of clusters, with `I`
for `Interface`, `e0` for `eth0`, `e1` for `eth1` and `u` for `unstable`: two
lines `I e0 u`, then three lines `I e1 u`. -/
def joinInput : List (List Key) :=
  List.replicate 2 [[73], [101, 48], [117]] ++ List.replicate 3 [[73], [101, 49], [117]]

/-- The state after the vocabulary pass, the selection of the frequent words,
the fused candidate and word-dependency pass and the selection of the clusters
on `joinInput`, with support 2, weight function 1 and the threshold 0.75.  The
buckets of the joined clusters are empty, as `init_input_parameters` leaves
them. -/
def joinClusters : Parameters :=
  let v := create_vocabulary
    { support := 2, wordTableSize := 5, clusterTableSize := 7, wordWeightThreshold := 3 / 4 }
    joinInput
  let c := (create_cluster_candidates_word_dep (prepare_word_dep v.1) joinInput {} 0).1
  let r := find_clusters_from_candidates c
  { r.1 with clusterNum := r.2, pClusterWithTokenFamily := fun _ => [] }

/-- The state after `join_cluster` on `joinClusters`. -/
def joinJoined : Parameters :=
  (join_cluster joinClusters).getD joinClusters

/-- The lines `A B C D`, `A`, `A`, `C D` and `D`: for the constant `C` of the
first line the dependencies `dep(A, C)`, `dep(B, C)`, `dep(C, C)` and `dep(D,
C)` are `1/3`, `1`, `1` and `2/3`. -/
def roundInput : List (List Key) :=
  [[[65], [66], [67], [68]], [[65]], [[65]], [[67], [68]], [[68]]]

/-- The state after the vocabulary pass, the selection of the frequent words,
the fused candidate and word-dependency pass and the selection of the clusters
on `roundInput`, with support 1, weight function 1 and the threshold 0.75. -/
def roundClusters : Parameters :=
  let v := create_vocabulary
    { support := 1, wordTableSize := 5, clusterTableSize := 7, wordWeightThreshold := 3 / 4 }
    roundInput
  let c := (create_cluster_candidates_word_dep (prepare_word_dep v.1) roundInput {} 0).1
  let r := find_clusters_from_candidates c
  { r.1 with clusterNum := r.2, pClusterWithTokenFamily := fun _ => [] }

/-! ## Printing

The output of a printing function is the list of the char values written to
the standard output. -/

/-- The conversion `%lu` of a number. -/
def fmt_lu (n : Nat) : List Nat :=
  (Nat.toDigits 10 n).map Char.toNat

/-- The conversion `%d` of a number. -/
def fmt_d (n : Int) : List Nat :=
  if n < 0 then 45 :: fmt_lu n.natAbs else fmt_lu n.toNat

/-- `str_format_int_grouped`: the digits of `num`, with a comma after every
digit for which the counter `commas` is 1; the last char written, a comma, is
overwritten by the terminator. -/
def str_format_int_grouped (num : Nat) : List Nat :=
  let src := fmt_lu num
  let r := src.foldl
    (fun (st : List Nat × Int) ch =>
      let dst := st.1 ++ [ch]
      (if st.2 = 1 then dst ++ [44] else dst, (st.2 + 1) % 3))
    ([], 2 - (src.length : Int) % 3)
  r.1.dropLast

/-- The value that `str_format_int_grouped` returns, `(size_t)(p_dst - dst)`
after the last char written has been replaced by the terminator: one less than
the number of the chars that the loop has written, as a 64-bit unsigned
number. -/
def str_format_int_grouped_return (num : Nat) : Nat :=
  let src := fmt_lu num
  let r := src.foldl
    (fun (st : List Nat × Int) ch =>
      let dst := st.1 ++ [ch]
      (if st.2 = 1 then dst ++ [44] else dst, (st.2 + 1) % 3))
    ([], 2 - (src.length : Int) % 3)
  (((r.1.length : Int) - 1) % 2 ^ 64).toNat

/-- The output of `printf("*{%d,%d}", min, max)`. -/
def wildcard_text (min max : Int) : List Nat :=
  [42, 123] ++ fmt_d min ++ [44] ++ fmt_d max ++ [125]

/-- The output of `printf("\n")` and `printf("Support : %s\n\n", digit)` after
`str_format_int_grouped(digit, count)`. -/
def support_text (count : Nat) : List Nat :=
  [10] ++ [83, 117, 112, 112, 111, 114, 116, 32, 58, 32] ++ str_format_int_grouped count
    ++ [10, 10]

/-- `print_cluster`. -/
def print_cluster (pCluster : Cluster) : List Nat :=
  let out := (List.range' 1 pCluster.constants).foldl
    (fun out i =>
      let out :=
        if pCluster.fullWildcard (i * 2 + 1) ≠ 0 then
          out ++ wildcard_text (pCluster.fullWildcard (i * 2)) (pCluster.fullWildcard (i * 2 + 1))
            ++ [32]
        else out
      out ++ pCluster.word i ++ [32]) []
  let out :=
    if pCluster.fullWildcard 1 ≠ 0 then
      out ++ wildcard_text (pCluster.fullWildcard 0) (pCluster.fullWildcard 1)
    else out
  out ++ support_text pCluster.count

/-- The loop `while (pToken) { printf("%s", pToken->pWord->pKey); if
(pToken->pNext) printf("|"); pToken = pToken->pNext; }`. -/
def print_tokens : List (Option Elem) → List Nat
  | [] => []
  | pWord :: rest =>
    let out := (pWord.map Elem.pKey).getD []
    if rest ≠ [] then out ++ [124] ++ print_tokens rest else out ++ print_tokens rest

/-- `print_cluster_with_token`. -/
def print_cluster_with_token (pClusterWithToken : Cluster) (pParam : Parameters) : List Nat :=
  let out := (List.range' 1 pClusterWithToken.constants).foldl
    (fun out i =>
      let out :=
        if pClusterWithToken.fullWildcard (i * 2 + 1) ≠ 0 then
          out ++ wildcard_text (pClusterWithToken.fullWildcard (i * 2))
            (pClusterWithToken.fullWildcard (i * 2 + 1)) ++ [32]
        else out
      match pClusterWithToken.ppToken i with
      | pWord :: rest =>
        if pParam.bDetailedTokenFlag = false then
          if rest ≠ [] then out ++ [40] ++ print_tokens (pWord :: rest) ++ [41, 32]
          else out ++ (pWord.map Elem.pKey).getD [] ++ [32]
        else out ++ [40] ++ print_tokens (pWord :: rest) ++ [41, 32]
      | [] => out ++ pClusterWithToken.word i ++ [32]) []
  let out :=
    if pClusterWithToken.fullWildcard 1 ≠ 0 then
      out ++ wildcard_text (pClusterWithToken.fullWildcard 0) (pClusterWithToken.fullWildcard 1)
    else out
  out ++ support_text pClusterWithToken.count

/-- `sort_elements`, on the array `ppArray[0 .. size - 1]`.  The bound `size -
1` of the outer loop is computed in 64-bit unsigned arithmetic. -/
def sort_elements (ppArray : Nat → Elem) (size : Nat) : Nat → Elem :=
  (List.range ((size + 2 ^ 64 - 1) % 2 ^ 64)).foldl
    (fun a j =>
      let imax := (List.range' (j + 1) (size - (j + 1))).foldl
        (fun imax i => if (a i).count > (a imax).count then i else imax) j
      arrSet (arrSet a j (a imax)) imax (a j))
    ppArray

/-- The record of the cluster table that `pCluster->pElem` points to. -/
def Parameters.elem (pParam : Parameters) (pCluster : Nat) : Elem :=
  (lookup pParam.ppClusterTable pParam.clusterTableSize pParam.clusterTableSeed
    (pParam.cluster pCluster).pElem).getD { pKey := (pParam.cluster pCluster).pElem, count := 0 }

/-- The array `ppSortedArray` after the pointers `l` are stored from the index
0 on; the other entries are not initialised. -/
def sorted_array (l : List Elem) : Nat → Elem :=
  fun j => l.getD j { pKey := [], count := 0 }

/-- Dereference of the `pCluster` of a record of the cluster table. -/
def Parameters.deref (pParam : Parameters) (pCluster : Option Nat) : Cluster :=
  match pCluster with
  | some ptr => pParam.cluster ptr
  | none => {}

/-- A call of `print_cluster` or of `print_cluster_with_token` with the given
pointer. -/
inductive PrintCall where
  | cluster (pCluster : Option Nat) : PrintCall
  | withToken (pClusterWithToken : Option Nat) : PrintCall
  deriving DecidableEq, Repr

/-- The output of a call. -/
def PrintCall.output (pParam : Parameters) : PrintCall → List Nat
  | .cluster pCluster => print_cluster (pParam.deref pCluster)
  | .withToken pClusterWithToken => print_cluster_with_token (pParam.deref pClusterWithToken) pParam

/-- The record a call prints. -/
def PrintCall.record (pParam : Parameters) : PrintCall → Cluster
  | .cluster pCluster => pParam.deref pCluster
  | .withToken pClusterWithToken => pParam.deref pClusterWithToken

/-- The calls of `print_cluster` that `print_clusters_default_0` makes, in
order. -/
def print_clusters_default_0_calls (pParam : Parameters) : List PrintCall :=
  let ppSortedArray := sorted_array ((family_order pParam).map pParam.elem)
  let ppSortedArray := sort_elements ppSortedArray pParam.clusterNum
  (List.range pParam.clusterNum).map (fun k => PrintCall.cluster (ppSortedArray k).pCluster)

/-- The calls of `print_cluster` that `print_clusters_constant_1` makes, in
order. -/
def print_clusters_constant_1_calls (pParam : Parameters) : List PrintCall :=
  (family_order pParam).map (fun pCluster => PrintCall.cluster (some pCluster))

/-- `print_clusters_constant_1`. -/
def print_clusters_constant_1 (pParam : Parameters) : List Nat :=
  (print_clusters_constant_1_calls pParam).flatMap (PrintCall.output pParam)

/-- The pointers that the first loop of
`__print_clusters_if_join_cluster_default_0` stores in `ppSortedArray`: for
every bucket the records of the clusters that are not joined, then the records
of the clusters with tokens. -/
def join_sorted_pointers (pParam : Parameters) : List Nat :=
  (List.range' 1 pParam.biggestConstants).flatMap (fun i =>
    (pParam.pClusterFamily i).filter (fun pCluster => (pParam.cluster pCluster).bIsJoined = false)
      ++ pParam.pClusterWithTokenFamily i)

/-- The number `toBeSortedNum`, computed in 64-bit unsigned arithmetic. -/
def toBeSortedNum (pParam : Parameters) : Nat :=
  (pParam.clusterNum + 2 ^ 64 - pParam.joinedClusterInputNum + pParam.joinedClusterOutputNum)
    % 2 ^ 64

/-- The calls of `print_cluster` and `print_cluster_with_token` that
`__print_clusters_if_join_cluster_default_0` makes, in order. -/
def __print_clusters_if_join_cluster_default_0_calls (pParam : Parameters) : List PrintCall :=
  let ppSortedArray := sorted_array ((join_sorted_pointers pParam).map pParam.elem)
  let ppSortedArray := sort_elements ppSortedArray (toBeSortedNum pParam)
  (List.range (toBeSortedNum pParam)).map (fun k =>
    if (pParam.deref (ppSortedArray k).pCluster).bIsJoined = true then
      PrintCall.withToken (ppSortedArray k).pCluster
    else PrintCall.cluster (ppSortedArray k).pCluster)

/-- `__print_clusters_if_join_cluster_default_0`. -/
def __print_clusters_if_join_cluster_default_0 (pParam : Parameters) : List Nat :=
  (__print_clusters_if_join_cluster_default_0_calls pParam).flatMap (PrintCall.output pParam)

/-- The calls of `print_cluster` and `print_cluster_with_token` that
`__print_clusters_if_join_cluster_constant_1` makes, in order. -/
def __print_clusters_if_join_cluster_constant_1_calls (pParam : Parameters) : List PrintCall :=
  (List.range' 1 pParam.biggestConstants).flatMap (fun i =>
    ((pParam.pClusterFamily i).filter
        (fun pCluster => (pParam.cluster pCluster).bIsJoined = false)).map
      (fun pCluster => PrintCall.cluster (some pCluster))
    ++ (pParam.pClusterWithTokenFamily i).map (fun ptr => PrintCall.withToken (some ptr)))

/-- `__print_clusters_if_join_cluster_constant_1`. -/
def __print_clusters_if_join_cluster_constant_1 (pParam : Parameters) : List Nat :=
  (__print_clusters_if_join_cluster_constant_1_calls pParam).flatMap (PrintCall.output pParam)

/-- The calls that `step_3_print_clusters` makes: `print_clusters_default0` in
the output mode 0 and `print_clusters_constant1` in the output mode 1, each of
which takes the functions for joined clusters when `wordWeightThreshold` is not
0. -/
def step_3_print_clusters_calls (pParam : Parameters) : List PrintCall :=
  if pParam.outputMode = 0 then
    if pParam.wordWeightThreshold ≠ 0 then __print_clusters_if_join_cluster_default_0_calls pParam
    else print_clusters_default_0_calls pParam
  else if pParam.outputMode = 1 then
    if pParam.wordWeightThreshold ≠ 0 then __print_clusters_if_join_cluster_constant_1_calls pParam
    else print_clusters_constant_1_calls pParam
  else []

/-- `step_3_print_clusters`. -/
def step_3_print_clusters (pParam : Parameters) : List Nat :=
  [10] ++ (step_3_print_clusters_calls pParam).flatMap (PrintCall.output pParam) ++ [10]

/-- The invariant of the first loop of `join_cluster`, for the state `p0`
before the loop, the cluster table of size `m` and seed `s`, and the joined
clusters `trace` so far: a cluster record of `p0` is changed only in its flag,
which is set for the clusters of the trace; every key of a joined cluster has a
table record, whose count is the number of the clusters joined under the key
and whose `pCluster` is a record allocated by the loop that is in the bucket of
its constants and holds `joined_record`; the other keys have the table records
of `p0`. -/
structure JoinInv (p0 p : Parameters) (m s : Nat) (trace : List (Nat × (Nat → Nat))) :
    Prop where
  csize : p.clusterTableSize = m
  cseed : p.clusterTableSeed = s
  len : p.ppClusterTable.length = m
  token : p.token = p0.token
  family : p.pClusterFamily = p0.pClusterFamily
  biggest : p.biggestConstants = p0.biggestConstants
  clusterNum : p.clusterNum = p0.clusterNum
  weightf : p.wordWeightFunction = p0.wordWeightFunction
  threshold : p.wordWeightThreshold = p0.wordWeightThreshold
  heap : p0.clusters.length ≤ p.clusters.length
  old : ∀ ptr, ptr < p0.clusters.length →
    p.cluster ptr =
      if ptr ∈ trace.map Prod.fst then (p0.cluster ptr).flagged else p0.cluster ptr
  other : ∀ K, merged p0 trace K = [] →
    lookup p.ppClusterTable m s K = lookup p0.ppClusterTable m s K
  joined : ∀ K, merged p0 trace K ≠ [] →
    ∃ e J, lookup p.ppClusterTable m s K = some e ∧
      e.count = (merged p0 trace K).length ∧ e.pCluster = some J ∧
      p0.clusters.length ≤ J ∧ J < p.clusters.length ∧
      p.cluster J = joined_record p0 K (merged p0 trace K) ∧
      J ∈ p.pClusterWithTokenFamily (p.cluster J).constants
  records : ∀ J, p0.clusters.length ≤ J → J < p.clusters.length →
    ∃ K e, merged p0 trace K ≠ [] ∧ lookup p.ppClusterTable m s K = some e ∧
      e.pCluster = some J
  fam : ∀ i J, J ∈ p.pClusterWithTokenFamily i →
    p0.clusters.length ≤ J ∧ J < p.clusters.length ∧ (p.cluster J).constants = i
  famnodup : ∀ i, (p.pClusterWithTokenFamily i).Nodup
  inNum : p.joinedClusterInputNum = p0.joinedClusterInputNum + trace.length
  outNum : p.joinedClusterOutputNum + p0.clusters.length
    = p0.joinedClusterOutputNum + p.clusters.length

/-- The strings of a key that are terminated by `CLUSTERSEP`, in order (and
the rest of the key, when it does not end with `CLUSTERSEP`). -/
def key_words : Key → List Key
  | [] => []
  | c :: rest =>
    if c = CLUSTERSEP then [] :: key_words rest
    else
      match key_words rest with
      | [] => [[c]]
      | w :: ws => (c :: w) :: ws

/-- The states `p` and `q` differ at most in `tokenMarker`, `wordNumStr` and
`pCurrentCluster`. -/
def MarkFrame (p q : Parameters) : Prop :=
  ∃ tm wn pc, q = { p with tokenMarker := tm, wordNumStr := wn, pCurrentCluster := pc }

/-- The conditions on the state `p0` in which `join_cluster` is called, for the
cluster table of size `m` and seed `s`: no cluster is joined yet, the weight
function is 1 or 2, `token` holds no separator and is none of the strings of a
key of the cluster table (`set_token` and the candidate pass see to that), and
the family buckets hold valid pointers of unflagged records, each once, with
`1 <= constants <= biggestConstants`. -/
structure JoinReady (p0 : Parameters) (m s : Nat) : Prop where
  size_pos : 0 < m
  csize : p0.clusterTableSize = m
  cseed : p0.clusterTableSeed = s
  len : p0.ppClusterTable.length = m
  empty : ∀ i, p0.pClusterWithTokenFamily i = []
  weightf : p0.wordWeightFunction = 1 ∨ p0.wordWeightFunction = 2
  sep : CLUSTERSEP ∉ p0.token
  tok : ∀ e ∈ p0.ppClusterTable.flatten, p0.token ∉ key_words e.pKey
  valid : ∀ ptr ∈ family_order p0, ptr < p0.clusters.length
  consts : ∀ ptr ∈ family_order p0,
    1 ≤ (p0.cluster ptr).constants ∧ (p0.cluster ptr).constants ≤ p0.biggestConstants
  nodup : (family_order p0).Nodup
  unflagged : ∀ ptr ∈ family_order p0, (p0.cluster ptr).bIsJoined = false

/-- The key of the word of a token. -/
def token_word (pWord : Option Elem) : Key :=
  (pWord.map Elem.pKey).getD []

/-- The text of a token position in the words of the documentation of
`--detailtoken`: the words `ws` between parentheses, separated by `|`; a single
word stands without the parentheses when the detail flag is off. -/
def token_text (bDetailedTokenFlag : Bool) (ws : List Key) : List Nat :=
  if bDetailedTokenFlag = false ∧ ws.length = 1 then ws.flatten
  else [40] ++ List.intercalate [124] ws ++ [41]

/-- The text of the position `i` of a cluster with tokens, when `tokens` are
the words of its tokens in the order in which they are listed: the gap before
the position when its `max` is not 0, then the text of the tokens, or the word
of the position when it has no token; a space follows each of them. -/
def position_text (c : Cluster) (bDetailedTokenFlag : Bool) (tokens : List Key) (i : Nat) :
    List Nat :=
  (if c.fullWildcard (i * 2 + 1) ≠ 0 then
    wildcard_text (c.fullWildcard (i * 2)) (c.fullWildcard (i * 2 + 1)) ++ [32] else [])
  ++ (if tokens = [] then c.word i else token_text bDetailedTokenFlag tokens) ++ [32]

/-- The text of a cluster with tokens, when `tokens i` are the words of the
tokens of the position `i` in the order in which they are listed. -/
def cluster_with_token_text (c : Cluster) (bDetailedTokenFlag : Bool)
    (tokens : Nat → List Key) : List Nat :=
  (List.range' 1 c.constants).flatMap (fun i => position_text c bDetailedTokenFlag (tokens i) i)
    ++ (if c.fullWildcard 1 ≠ 0 then wildcard_text (c.fullWildcard 0) (c.fullWildcard 1) else [])
    ++ support_text c.count

/-! ## The order of the family buckets -/

/-- The index of the first line of the input whose sequence of frequent words
is `S` (the number of the lines, when there is none). -/
def firstSeen (pParam : Parameters) (S : List Key) (input : List (List Key)) : Nat :=
  input.findIdx (fun line => decide (constantsOf pParam line = S))

/-- The invariant of the candidate pass on the order of the cluster records:
every family bucket holds its pointers in decreasing order, the newest record
first, and of two candidates the one with the smaller pointer was first seen
earlier in the input. -/
structure OrderInv (p0 p : Parameters) (m s : Nat) (done : List (List Key)) : Prop where
  sorted : ∀ i, (p.pClusterFamily i).Pairwise (fun a b => b < a)
  seen : ∀ S S' e e' ptr ptr', S ≠ [] → S' ≠ [] → (∀ w ∈ S, CLUSTERSEP ∉ w) →
    (∀ w ∈ S', CLUSTERSEP ∉ w) →
    lookup p.ppClusterTable m s (keyOf S) = some e → e.pCluster = some ptr →
    lookup p.ppClusterTable m s (keyOf S') = some e' → e'.pCluster = some ptr' →
    ptr < ptr' → firstSeen p0 S done < firstSeen p0 S' done

/-- The parameters after the vocabulary pass and the selection of the frequent
words on `joinInput`, with support 2; `freWordNum` is set as in `main`. -/
def orderParams : Parameters :=
  let v := create_vocabulary { support := 2, wordTableSize := 5, clusterTableSize := 7 } joinInput
  let f := find_frequent_words v.1
  { f.1 with freWordNum := f.2 }

/-- The state after the candidate pass and the selection of the clusters on
`joinInput`, with support 2 and without the joining of clusters. -/
def orderClusters : Parameters :=
  let r := find_clusters_from_candidates (create_cluster_candidates orderParams joinInput {} 0).1
  { r.1 with clusterNum := r.2 }

/-! ## The word filter and the outliers -/

/-- The functions `is_word_filtered` and `word_search_replace` of a run with
`--wfilter`, `--wsearch` and `--wreplace`: whether the word matches both the
filter and the search expression, and the word after the replacements.  The
matching of the regular expressions is done by the C library. -/
structure WordFilter where
  is_word_filtered : Key → Bool
  word_search_replace : Key → Key

/-- The statements of `create_vocabulary_with_wfilter` that enter a word into
the word table: `add_elem`, `distinctWords++`, the number of a new word, and the
test `is_word_repeated`. -/
def vocabulary_add (st : Parameters × VocabularyLocals) (word : Key) :
    Parameters × VocabularyLocals :=
  let pParam := st.1
  let loc := st.2
  let hash := str2hash word pParam.wordTableSize pParam.wordTableSeed
  let table := add_elem word pParam.ppWordTable pParam.wordTableSize pParam.wordTableSeed
  let distinctWords := loc.distinctWords + 1
  match front table hash with
  | none => st
  | some w =>
    let number := if w.count = 1 then loc.number + 1 else loc.number
    let w := if w.count = 1 then { w with number := number } else w
    if is_word_repeated pParam.wordNumStr w.number distinctWords then
      ({ pParam with ppWordTable := store_front table hash { w with count := w.count - 1 } },
       { loc with number := number, distinctWords := distinctWords - 1 })
    else
      ({ pParam with ppWordTable := store_front table hash w,
                     wordNumStr := arrSet pParam.wordNumStr distinctWords w.number },
       { loc with number := number, distinctWords := distinctWords })

/-- The body of `for (i = 0; i < wordcount; i++)` in
`create_vocabulary_with_wfilter`: the word is entered, and so is the replaced
word when the word is filtered (each of them only with a sketch counter of at
least the support, when there is a word sketch). -/
def create_vocabulary_with_wfilter_word (F : WordFilter) (st : Parameters × VocabularyLocals)
    (word : Key) : Parameters × VocabularyLocals :=
  if word = [] then st
  else if st.1.wordSketchSize ≠ 0 then
    let st1 :=
      if st.1.pWordSketch (str2hash word st.1.wordSketchSize st.1.wordSketchSeed)
          ≥ st.1.support then vocabulary_add st word
      else st
    if F.is_word_filtered word then
      let newWord := F.word_search_replace word
      if st1.1.pWordSketch (str2hash newWord st1.1.wordSketchSize st1.1.wordSketchSeed)
          ≥ st1.1.support then vocabulary_add st1 newWord
      else st1
    else st1
  else
    let st1 := vocabulary_add st word
    if F.is_word_filtered word then vocabulary_add st1 (F.word_search_replace word) else st1

/-- `create_vocabulary_with_wfilter`: the word table is cleared, every line is
processed, and `number` is returned.  `linecount` is not initialised in the
source; its start value is the argument `linecount`. -/
def create_vocabulary_with_wfilter (F : WordFilter) (pParam : Parameters)
    (input : List (List Key)) (linecount : Nat) : Parameters × Nat :=
  let r := input.foldl
    (fun st words =>
      let st1 := words.foldl (create_vocabulary_with_wfilter_word F)
        (st.1, { st.2 with distinctWords := 0 })
      (st1.1, { st1.2 with linecount := st1.2.linecount + 1 }))
    ({ pParam with ppWordTable := List.replicate pParam.wordTableSize [] },
     ({ number := 0, distinctWords := 0, linecount := linecount } : VocabularyLocals))
  (r.1, r.2.number)

/-- The statements of `create_cluster_candidates_with_wfilter` that make a
word the next constant of the line: the word is appended to the key with the
separator, and the variables counted since the last constant are its gap. -/
def candidate_constant (loc : CandidateLocals) (word : Key) (pWord : Elem) : CandidateLocals :=
  { loc with key := loc.key ++ word ++ [CLUSTERSEP],
             constants := loc.constants + 1,
             pStorage := arrSet loc.pStorage (loc.constants + 1) (some pWord),
             wildcard := arrSet loc.wildcard (loc.constants + 1) loc.variables_,
             variables_ := 0 }

/-- The body of `for (i = 0; i < wordcount; i++)` in
`create_cluster_candidates_with_wfilter`: a non-empty word found in the word
table is the next constant; a filtered word whose replaced word is found in the
word table gives the replaced word as the next constant; any other word is a
variable. -/
def candidate_word_with_wfilter (F : WordFilter) (st : Parameters × CandidateLocals)
    (word : Key) : Parameters × CandidateLocals :=
  let pParam := st.1
  let loc := st.2
  let r := find_elem word pParam.ppWordTable pParam.wordTableSize pParam.wordTableSeed
  let pParam := { pParam with ppWordTable := r.2 }
  match (if word ≠ [] then r.1 else none) with
  | some pWord => (pParam, candidate_constant loc word pWord)
  | none =>
    if F.is_word_filtered word then
      let newWord := F.word_search_replace word
      let r := find_elem newWord pParam.ppWordTable pParam.wordTableSize pParam.wordTableSeed
      let pParam := { pParam with ppWordTable := r.2 }
      match (if word ≠ [] then r.1 else none) with
      | some pWord => (pParam, candidate_constant loc newWord pWord)
      | none => (pParam, { loc with variables_ := loc.variables_ + 1 })
    else (pParam, { loc with variables_ := loc.variables_ + 1 })

/-- The body of `while (fgets(line, MAXLINELEN, pFile))` in
`create_cluster_candidates_with_wfilter`; the third component is
`clusterCount`. -/
def create_cluster_candidates_with_wfilter_line (F : WordFilter)
    (st : Parameters × CandidateLocals × Nat) (words : List Key) :
    Parameters × CandidateLocals × Nat :=
  let sc := words.foldl (candidate_word_with_wfilter F)
    (st.1, { st.2.1 with key := [], constants := 0, variables_ := 0 })
  let pParam := sc.1
  let loc : CandidateLocals :=
    { sc.2 with wildcard := arrSet sc.2.wildcard 0 sc.2.variables_ }
  let clusterCount := st.2.2
  if loc.constants = 0 then (pParam, loc, clusterCount)
  else if pParam.clusterSketchSize ≠ 0 ∧
      pParam.pClusterSketch (str2hash loc.key pParam.clusterSketchSize pParam.clusterSketchSeed)
        < pParam.support then (pParam, loc, clusterCount)
  else
    let r := put_cluster pParam loc clusterCount
    (r.1, loc, r.2)

/-- `create_cluster_candidates_with_wfilter`: the cluster table is cleared and
every line is processed.  `clusterCount` is not initialised in the source; its
start value is the argument `clusterCount`, and so are the start contents `loc`
of the local arrays. -/
def create_cluster_candidates_with_wfilter (F : WordFilter) (pParam : Parameters)
    (input : List (List Key)) (loc : CandidateLocals) (clusterCount : Nat) : Parameters × Nat :=
  let r := input.foldl (create_cluster_candidates_with_wfilter_line F)
    ({ pParam with ppClusterTable := List.replicate pParam.clusterTableSize [] },
     loc, clusterCount)
  (r.1, r.2.2)

/-- The body of `for (i = 0; i < wordcount; i++)` in `find_outliers`: a
non-empty word found in the word table is appended to the key with the
separator. -/
def outlier_word (st : Parameters × Key) (word : Key) : Parameters × Key :=
  let r := find_elem word st.1.ppWordTable st.1.wordTableSize st.1.wordTableSeed
  let pParam := { st.1 with ppWordTable := r.2 }
  match r.1 with
  | some _ => if word ≠ [] then (pParam, st.2 ++ word ++ [CLUSTERSEP]) else (pParam, st.2)
  | none => (pParam, st.2)

/-- The body of `while (fgets(line, MAXLINELEN, pFile))` in `find_outliers`;
the second component holds the lines written to the file of the outliers. -/
def find_outliers_line (st : Parameters × List (List Key)) (words : List Key) :
    Parameters × List (List Key) :=
  let r := words.foldl outlier_word (st.1, [])
  let pParam := r.1
  let key := r.2
  if key = [] ∧ words ≠ [] then (pParam, st.2 ++ [words])
  else
    let f := find_elem key pParam.ppClusterTable pParam.clusterTableSize pParam.clusterTableSeed
    let pParam := { pParam with ppClusterTable := f.2 }
    match f.1 with
    | none => (pParam, st.2 ++ [words])
    | some pElem =>
      if pElem.count < pParam.support then (pParam, st.2 ++ [words]) else (pParam, st.2)

/-- `find_outliers`: the state after the pass and the lines written to the
file of the outliers, in order; the returned `outlierNum` is their number. -/
def find_outliers (pParam : Parameters) (input : List (List Key)) :
    Parameters × List (List Key) :=
  input.foldl find_outliers_line (pParam, [])

/-- The values of `is_word_filtered` and `word_search_replace` for the filter
`[.]`, the search expression `[0-9]+` and the replacement `N`: a word with a
dot and a digit is filtered, and every run of digits is replaced by `N`. -/
def dotDigitFilter : WordFilter :=
  { is_word_filtered := fun w =>
      w.any (fun ch => ch == 46) && w.any (fun ch => decide (48 ≤ ch ∧ ch ≤ 57)),
    word_search_replace := fun w =>
      (w.splitBy (fun a b => decide (48 ≤ a ∧ a ≤ 57) == decide (48 ≤ b ∧ b ≤ 57))).flatMap
        (fun run => if run.all (fun ch => decide (48 ≤ ch ∧ ch ≤ 57)) then [78] else run) }

/-- Five lines `ip 10.0.0.1`, then five lines `ip 10.0.0.2`. -/
def outlierInput : List (List Key) :=
  List.replicate 5 [[105, 112], [49, 48, 46, 48, 46, 48, 46, 49]]
    ++ List.replicate 5 [[105, 112], [49, 48, 46, 48, 46, 48, 46, 50]]

/-- The state after the vocabulary pass, the selection of the frequent words,
the candidate pass and the selection of the clusters on `outlierInput`, with
support 10 and the word filter `dotDigitFilter`. -/
def outlierClusters : Parameters :=
  let v := create_vocabulary_with_wfilter dotDigitFilter
    { support := 10, wordTableSize := 5, clusterTableSize := 7 } outlierInput 0
  let f := find_frequent_words v.1
  let r := find_clusters_from_candidates
    (create_cluster_candidates_with_wfilter dotDigitFilter { f.1 with freWordNum := f.2 }
      outlierInput {} 0).1
  { r.1 with clusterNum := r.2 }

/-- Whether the key is the key of a cluster of the family buckets, that is, of
a candidate kept by `find_clusters_from_candidates`. -/
def retained_key (pParam : Parameters) (key : Key) : Bool :=
  (family_order pParam).any (fun ptr => decide ((pParam.cluster ptr).pElem = key))

/-- The test of `find_outliers` on the key of a line with the words `words`:
the key is empty and the line has words, or the cluster table has no record
with the key, or the record has `count < support`. -/
def outlier_test (table : Table) (tablesize seed support : Nat) (words : List Key) (key : Key) :
    Bool :=
  (decide (key = []) && decide (words ≠ [])) ||
    match lookup table tablesize seed key with
    | none => true
    | some pElem => decide (pElem.count < support)
/-! ## The hash recurrence of the specification -/

/-- One step of the recurrence of the specification, `h ← h XOR ((h << 5) +
(h >> 2) + b)`, on 64-bit words: the shift to the left is the multiplication by
32 and the shift to the right the division by 4, and the shifted value and the
sum wrap modulo `2 ^ 64`. -/
def hash_step (h b : Nat) : Nat :=
  Nat.xor h ((h * 32 % 2 ^ 64 + h / 4 + b) % 2 ^ 64)

/-- The value of the recurrence of the specification on the bytes `s`, started
with `h`. -/
def hash_recurrence : List Nat → Nat → Nat
  | [], h => h
  | b :: s, h => hash_recurrence s (hash_step h b)

/-- The value of the byte `b` read as a `char` that is signed: `b` below 128,
`b - 256` from 128 on. -/
def signed_char (b : Nat) : Int :=
  if b < 128 then (b : Int) else (b : Int) - 256

/-- One step of the recurrence with the byte read as a signed `char`: the sum
`(h << 5) + (h >> 2) + c` is taken with the number `c = signed_char b`, which
may be negative, and wraps modulo `2 ^ 64`. -/
def hash_step_signed (h b : Nat) : Nat :=
  Nat.xor h ((((h * 32 % 2 ^ 64 + h / 4 : Nat) : Int) + signed_char b) % 2 ^ 64).toNat

/-- The value of the recurrence with signed bytes on the bytes `s`, started
with `h`. -/
def hash_recurrence_signed : List Nat → Nat → Nat
  | [], h => h
  | b :: s, h => hash_recurrence_signed s (hash_step_signed h b)

/-! ## Validation of the parameters -/

/-- `#define MAXPARANEXPR 100` -/
def MAXPARANEXPR : Int := 100

/-- `#define DEF_SYSLOG_FACILITY "local2"` -/
def DEF_SYSLOG_FACILITY : Key := [108, 111, 99, 97, 108, 50]

/-- `pSyslogFacilityList`: `kern`, `user`, `mail`, `daemon`, `auth`, `syslog`,
`lpr`, `news`, `uucp`, `cron`, `authpriv`, `ftp`, `ntp`, `log_audit`,
`log_alert`, `cron`, `local0` to `local7`. -/
def pSyslogFacilityList : List Key :=
  [[107, 101, 114, 110], [117, 115, 101, 114], [109, 97, 105, 108],
   [100, 97, 101, 109, 111, 110], [97, 117, 116, 104], [115, 121, 115, 108, 111, 103],
   [108, 112, 114], [110, 101, 119, 115], [117, 117, 99, 112], [99, 114, 111, 110],
   [97, 117, 116, 104, 112, 114, 105, 118], [102, 116, 112], [110, 116, 112],
   [108, 111, 103, 95, 97, 117, 100, 105, 116], [108, 111, 103, 95, 97, 108, 101, 114, 116],
   [99, 114, 111, 110], [108, 111, 99, 97, 108, 48], [108, 111, 99, 97, 108, 49],
   [108, 111, 99, 97, 108, 50], [108, 111, 99, 97, 108, 51], [108, 111, 99, 97, 108, 52],
   [108, 111, 99, 97, 108, 53], [108, 111, 99, 97, 108, 54], [108, 111, 99, 97, 108, 55]]

/-- The loop of `validate_parameters_template` over the elements from `ptr`
on: 0 at the first backreference variable outside `0 .. MAXPARANEXPR - 1`, and
1 after the last element. -/
def validate_parameters_template_loop : List TemplElem → Int
  | [] => 1
  | ptr :: rest =>
    if ptr.pStr = none ∧ (ptr.data < 0 ∨ ptr.data > MAXPARANEXPR - 1) then 0
    else validate_parameters_template_loop rest

/-- `validate_parameters_template`. -/
def validate_parameters_template (pParam : Parameters) : Int :=
  validate_parameters_template_loop pParam.pTemplate

/-- The loop of `change_syslog_facility_number` over the entries of the list
from the `i`-th on: it is left at the entry that equals the facility, and 0 is
returned at the last entry when that is different.  The number of the facility,
which only the logging uses, is left out. -/
def change_syslog_facility_number_loop (pSyslogFacility : Key) : List Key → Int
  | [] => 1
  | s :: rest =>
    if pSyslogFacility = s then 1
    else if rest = [] then 0
    else change_syslog_facility_number_loop pSyslogFacility rest

/-- `change_syslog_facility_number`. -/
def change_syslog_facility_number (pParam : Parameters) : Int :=
  change_syslog_facility_number_loop pParam.pSyslogFacility pSyslogFacilityList

/-- `validate_parameters`: the returned value.  `regcomp` is the function of the
C library, which returns 0 when the expression was compiled; the compiled
expressions, which the word splitting and the filters use, are left out. -/
def validate_parameters (regcomp : Key → Int) (pParam : Parameters) : Int :=
  if pParam.support ≤ 0 ∧ pParam.pctSupport ≤ 0 then 0
  else if pParam.pInputFiles = [] then 0
  else if pParam.initSeed ≤ 0 then 0
  else if pParam.wordTableSize ≤ 0 then 0
  else if pParam.pSyslogFacility ≠ DEF_SYSLOG_FACILITY ∧
      change_syslog_facility_number pParam = 0 then 0
  else if (∃ d, pParam.pDelim = some d ∧ regcomp d ≠ 0) then 0
  else if pParam.byteOffset < 0 then 0
  else if (∃ f, pParam.pFilter = some f ∧ regcomp f ≠ 0) then 0
  else if pParam.pWordFilter ≠ none ∧ (pParam.pWordSearch = none ∨ pParam.pWordReplace = none)
    then 0
  else if (∃ f, pParam.pWordFilter = some f ∧ regcomp f ≠ 0) then 0
  else if (∃ f, pParam.pWordSearch = some f ∧ regcomp f ≠ 0) then 0
  else if validate_parameters_template pParam = 0 then 0
  else if pParam.wordWeightThreshold < 0 ∨ pParam.wordWeightThreshold > 1 then 0
  else if pParam.wordWeightFunction ≠ 1 ∧ pParam.wordWeightFunction ≠ 2 then 0
  else if pParam.debug ≠ 0 ∧ pParam.debug ≠ 1 ∧ pParam.debug ≠ 2 ∧ pParam.debug ≠ 3 then 0
  else if pParam.outputMode ≠ 0 ∧ pParam.outputMode ≠ 1 then 0
  else if pParam.clusterSketchSize ≠ 0 ∧ pParam.bAggrsupFlag = true then 0
  else 1

/-- Step 0.C of `main`: `if (!validate_parameters(&param)) { ...; exit(1); }`.
The result is `none` when the process exits, which is before any pass over the
input, and the parameters otherwise. -/
def main_step_0_C (regcomp : Key → Int) (param : Parameters) : Option Parameters :=
  if validate_parameters regcomp param = 0 then none else some param

/-- Parameters as `--input=f --support=2 --csize=10 --aggrsup` sets them. -/
def csizeAggrsupParams : Parameters :=
  { support := 2, pInputFiles := [[102]], wordTableSize := 100000, clusterSketchSize := 10,
    bAggrsupFlag := true }

/-! ## The word sketch and the relative support -/

/-- The conversion of a finite `double` that is not negative to `unsigned
long`: the fractional part is discarded. -/
def double_to_ulong (x : ℚ) : Nat :=
  (Rat.floor x).toNat

/-- The value of `linecount * pParam->pctSupport / 100` that is assigned to
`support`: `linecount` is converted to `double`, the product and the quotient
by 100 are each rounded to a `double`, and the conversion to `unsigned long`
discards the fraction.  The conversion of a value that is not finite is not
defined in C; the model gives 0 for it. -/
def support_percentage (linecount : Nat) (pctSupport : ℚ) : Nat :=
  match Double.round (to_double linecount * pctSupport) with
  | some product =>
    match Double.round (product / 100) with
    | some quotient => double_to_ulong quotient
    | none => 0
  | none => 0

/-- The statements `if (!pParam->linecount) pParam->linecount = linecount;
if (!pParam->support) pParam->support = linecount * pParam->pctSupport / 100;`
that follow the loop over the input in `create_word_sketch` and in
`create_vocabulary`, for the value `linecount` of the local variable. -/
def support_from_linecount (linecount : Nat) (pParam : Parameters) : Parameters :=
  let pParam := if pParam.linecount = 0 then { pParam with linecount := linecount } else pParam
  if pParam.support = 0 then
    { pParam with support := support_percentage linecount pParam.pctSupport }
  else pParam

/-- The body of `for (i = 0; i < wordcount; i++)` in `create_word_sketch`: the
counter of the slot of a non-empty word is incremented. -/
def create_word_sketch_word (pParam : Parameters) (word : Key) : Parameters :=
  if word = [] then pParam
  else
    let hash := str2hash word pParam.wordSketchSize pParam.wordSketchSeed
    { pParam with pWordSketch := arrSet pParam.pWordSketch hash (pParam.pWordSketch hash + 1) }

/-- The body of `while (fgets(line, MAXLINELEN, pFile))` in
`create_word_sketch`; the second component is `linecount`. -/
def create_word_sketch_line (st : Parameters × Nat) (words : List Key) : Parameters × Nat :=
  (words.foldl create_word_sketch_word st.1, st.2 + 1)

/-- The loops of `create_word_sketch` up to the end of the input: `linecount`
starts at 0 and the slots of the sketch are cleared. -/
def create_word_sketch_loop (pParam : Parameters) (input : List (List Key)) :
    Parameters × Nat :=
  input.foldl create_word_sketch_line
    ({ pParam with
        pWordSketch := fun j => if j < pParam.wordSketchSize then 0 else pParam.pWordSketch j },
     0)

/-- `create_word_sketch`: the state after the pass, and the returned number
`oversupport` of the slots that reach the support. -/
def create_word_sketch (pParam : Parameters) (input : List (List Key)) : Parameters × Nat :=
  let st := create_word_sketch_loop pParam input
  let pParam := support_from_linecount st.2 st.1
  (pParam, ((List.range pParam.wordSketchSize).filter
    (fun j => decide (pParam.support ≤ pParam.pWordSketch j))).length)

/-- `create_vocabulary` with the statements that follow its loop.  The local
variable `linecount` is declared without a value (`support_t linecount;`) and
incremented for every line; the argument `linecount` is the value it starts
with. -/
def create_vocabulary_with_linecount (pParam : Parameters) (input : List (List Key))
    (linecount : Nat) : Parameters × Nat :=
  let r := create_vocabulary_loop pParam input linecount
  (support_from_linecount r.2.linecount r.1, r.2.number)

/-- Step 1.A and step 1.B of `main` without a word filter: the word sketch pass
when `wordSketchSize` is not 0, then the vocabulary pass, whose local variable
`linecount` starts with the value of the argument. -/
def step_1 (pParam : Parameters) (input : List (List Key)) (linecount : Nat) :
    Parameters × Nat :=
  let pParam := if pParam.wordSketchSize ≠ 0 then (create_word_sketch pParam input).1 else pParam
  create_vocabulary_with_linecount pParam input linecount

/-- The number of the occurrences of a word in the input. -/
def occurrences (word : Key) (input : List (List Key)) : Nat :=
  (input.map (fun line => line.count word)).sum

/-- The threshold of the specification for the relative support `pct` on an
input of `lines` lines: the ceiling of `lines * pct / 100`. -/
def support_ceiling (lines : Nat) (pct : ℚ) : Nat :=
  (Rat.ceil ((lines : ℚ) * pct / 100)).toNat

/-! ## The two sections of the output mode 1 -/

/-- `print_clusters_if_join_cluster_constant_1`: the heading with the number
`clusterNum - joinedClusterInputNum` (in 64-bit unsigned arithmetic) when that
is not 0, the clusters of all buckets that are not joined, the heading with
`joinedClusterOutputNum` when that is not 0, and the joined clusters of all
buckets.  `print_clusters_constant1` holds the call of this function in a
comment (`//print_clusters_if_join_cluster_constant_1(pParam);`) and calls
`__print_clusters_if_join_cluster_constant_1` instead. -/
def print_clusters_if_join_cluster_constant_1 (pParam : Parameters) : List Nat :=
  let unjoined := (pParam.clusterNum + 2 ^ 64 - pParam.joinedClusterInputNum) % 2 ^ 64
  (if unjoined ≠ 0 then
      [62, 62, 62, 62, 62, 62, 84, 104, 101, 32] ++ fmt_lu unjoined ++
        [32, 99, 108, 117, 115, 116, 101, 114, 115, 32, 116, 104, 97, 116, 32, 97, 114, 101, 32,
         110, 111, 116, 32, 106, 111, 105, 110, 101, 100, 58, 10, 10]
    else []) ++
  ((family_order pParam).filter
      (fun pCluster => (pParam.cluster pCluster).bIsJoined = false)).flatMap
    (fun pCluster => print_cluster (pParam.cluster pCluster)) ++
  (if pParam.joinedClusterOutputNum ≠ 0 then
      [62, 62, 62, 62, 62, 62, 84, 104, 101, 32] ++ fmt_lu pParam.joinedClusterOutputNum ++
        [32, 106, 111, 105, 110, 101, 100, 32, 99, 108, 117, 115, 116, 101, 114, 115, 58, 10, 10]
    else []) ++
  (token_family_order pParam).flatMap
    (fun ptr => print_cluster_with_token (pParam.cluster ptr) pParam)

/-- The lines of `joinInput`, then two lines `A B C D`. -/
def sectionInput : List (List Key) :=
  joinInput ++ List.replicate 2 [[65], [66], [67], [68]]

/-- The state after the vocabulary pass, the selection of the frequent words,
the fused candidate and word-dependency pass and the selection of the clusters
on `sectionInput`, with support 2, weight function 1, the threshold 0.75 and
the output mode 1. -/
def sectionClusters : Parameters :=
  let v := create_vocabulary
    { support := 2, wordTableSize := 5, clusterTableSize := 7, wordWeightThreshold := 3 / 4,
      outputMode := 1 }
    sectionInput
  let c := (create_cluster_candidates_word_dep (prepare_word_dep v.1) sectionInput {} 0).1
  let r := find_clusters_from_candidates c
  { r.1 with clusterNum := r.2, pClusterWithTokenFamily := fun _ => [],
             wordWeightThreshold := 3 / 4, outputMode := 1 }

/-- The state after `join_cluster` on `sectionClusters`. -/
def sectionJoined : Parameters :=
  (join_cluster sectionClusters).getD sectionClusters

/-! ## The grouping of the digits -/

/-- `#define MAXDIGITBIT 32` -/
def MAXDIGITBIT : Nat := 32

/-- The digits with a comma between every two groups of three digits counted
from the right: a digit is followed by a comma when the number of the digits to
its right is a positive multiple of three. -/
def grouped_digits : List Nat → List Nat
  | [] => []
  | d :: rest =>
    if rest ≠ [] ∧ rest.length % 3 = 0 then d :: 44 :: grouped_digits rest
    else d :: grouped_digits rest

/-- The state `q` differs from `p` at most in the word table and in the array
`wordNumStr`. -/
def VocabFrame (p q : Parameters) : Prop :=
  q = { p with ppWordTable := q.ppWordTable, wordNumStr := q.wordNumStr }

/-- The state `q` differs from `p` at most in the word sketch. -/
def SketchFrame (p q : Parameters) : Prop :=
  q = { p with pWordSketch := q.pWordSketch }

/-- The test of the vocabulary pass on the word sketch: the word is skipped
when the counter of its slot is below the support. -/
def sketch_gate (pParam : Parameters) (word : Key) : Bool :=
  decide (pParam.wordSketchSize ≠ 0 ∧
    pParam.pWordSketch (str2hash word pParam.wordSketchSize pParam.wordSketchSeed)
      < pParam.support)

/-- Ten lines `a`. -/
def pctInput : List (List Key) :=
  List.replicate 10 [[97]]

/-- The lines `a`, `a`, `b`, `b`. -/
def rsupportInput : List (List Key) :=
  [[[97]], [[97]], [[98]], [[98]]]

/-- The state with the word sketch switched off. -/
def without_sketch (pParam : Parameters) : Parameters :=
  { pParam with wordSketchSize := 0 }

/-- The lines `a b a`, `a c`, `b`. -/
def sketchInput : List (List Key) :=
  [[[97], [98], [97]], [[97], [99]], [[98]]]

/-- Parameters with a word sketch of 3 slots, a word table of 5 slots and the
support 2. -/
def sketchParams : Parameters :=
  { support := 2, wordSketchSize := 3, wordTableSize := 5 }

/-- The lines `A B`, `x y`, `A B` and an empty line. -/
def skipInput : List (List Key) :=
  [[[65], [66]], [[120], [121]], [[65], [66]], []]

/-- The parameters after the vocabulary pass and the selection of the frequent
words on `skipInput`, with support 2; `freWordNum` is set as in `main`. -/
def skipParams : Parameters :=
  let v := create_vocabulary { support := 2, wordTableSize := 5, clusterTableSize := 7 } skipInput
  let f := find_frequent_words v.1
  { f.1 with freWordNum := f.2 }

/-! ## The order of the children in the prefix trie -/

/-- The hash value of a node fits its kind: a wildcard node has the hash `wh`,
and a word node the hash of its word, modulo `wh` with the seed `seed`, which
is below `wh`. -/
def NodeHash (wh seed : Nat) (d : TrieData) : Prop :=
  (d.pWord = none → d.hashValue = wh) ∧
  (∀ e, d.pWord = some e → d.hashValue = str2hash e.pKey wh seed ∧ d.hashValue < wh)

/-- The node `a` may stand before the node `b` in a list of children: the hash
value does not increase, two wildcard nodes differ in their bounds, and two
word nodes differ in their words. -/
def SiblingOrder (a b : TrieData) : Prop :=
  b.hashValue ≤ a.hashValue ∧
  (a.pWord = none → b.pWord = none →
    ¬ (a.wildcardMin = b.wildcardMin ∧ a.wildcardMax = b.wildcardMax)) ∧
  (∀ ea eb, a.pWord = some ea → b.pWord = some eb → ea.pKey ≠ eb.pKey)

/-- A list of children is in order. -/
def SiblingsSorted (wh seed : Nat) (l : List TrieData) : Prop :=
  (∀ d ∈ l, NodeHash wh seed d) ∧ l.Pairwise SiblingOrder

/-- The children of every node of the chain `t` and below it are in order. -/
def TrieNode.Sorted (wh seed : Nat) : TrieNode → Prop
  | .null => True
  | .node _ c n => SiblingsSorted wh seed c.siblings ∧ c.Sorted wh seed ∧ n.Sorted wh seed

/-- The list of children after the node `dnew` is linked behind the node with
the address `a`. -/
def insert_after (dnew : TrieData) (a : Nat) : List TrieData → List TrieData
  | [] => []
  | d :: l => if d.addr = a then d :: dnew :: l else d :: insert_after dnew a l

/-- The number of the gaps of a candidate (the gap after the last constant and
the gaps before the constants) whose upper bound is not 0. -/
def Cluster.gaps (c : Cluster) : Nat :=
  ((List.range (c.constants + 1)).filter (fun i => decide (c.fullWildcard (i * 2 + 1) ≠ 0))).length

/-- The addresses of the trie are distinct and below `trieNodeNum`. -/
structure TrieFresh (p : Parameters) : Prop where
  nodup : p.pPrefixRoot.addrs.Nodup
  fresh : ∀ a ∈ p.pPrefixRoot.addrs, a < p.trieNodeNum

/-- The state `q` arises from the state `p` by insertions into the trie for the
candidates `os`: the addresses stay distinct, the hash parameters and the
records of the other candidates are the same, every node of `p` is a node of
`q` with the same ancestors and the same fields but `pIsEnd`, and the children
of every node of `q` are in order when those of `p` are. -/
structure TrieStep (os : List Nat) (p q : Parameters) : Prop where
  fresh : TrieFresh q
  whash : q.wildcardHash = p.wildcardHash
  psize : q.prefixSketchSize = p.prefixSketchSize
  pseed : q.prefixSketchSeed = p.prefixSketchSeed
  len : q.clusters.length = p.clusters.length
  cluster : ∀ o, o ∉ os → q.cluster o = p.cluster o
  kept : ∀ x ∈ p.pPrefixRoot.nodes [], ∃ y ∈ q.pPrefixRoot.nodes [],
    y.1 = x.1 ∧ y.2 = { x.2 with pIsEnd := y.2.pIsEnd }
  sorted : p.prefixSketchSize = p.wildcardHash → 0 < p.wildcardHash →
    p.pPrefixRoot.Sorted p.wildcardHash p.prefixSketchSeed →
    q.pPrefixRoot.Sorted p.wildcardHash p.prefixSketchSeed

/-- The state in which `build_prefix_trie` starts to insert the candidates: the
trie is the root alone. -/
def empty_prefix_trie (pParam : Parameters) : Parameters :=
  { pParam with
      trieNodeNum := 1,
      pPrefixRoot :=
        (.node { addr := 0, pParent := none, pIsEnd := none, pWord := none, wildcardMin := 0,
                 wildcardMax := 0, hashValue := pParam.wildcardHash + 1 } .null .null) }

/-- The state in which `step_2_aggregate_support` starts to insert the
candidates: the hash modulus and the wildcard hash are three times the number
of frequent words, and the trie is the root alone. -/
def start_prefix_trie (pParam : Parameters) : Parameters :=
  empty_prefix_trie { pParam with prefixSketchSize := pParam.freWordNum * 3,
                                  wildcardHash := pParam.freWordNum * 3 }

/-- The order of a list of children as the specification states it, for the
wildcard hash `wh`: the hash values do not increase; every child is a wildcard
node with the hash `wh` or a word node with a hash below `wh`; no word node
stands before a wildcard node; two wildcard nodes differ in their bounds, and
two word nodes in their words. -/
def ChildrenOrdered (wh : Nat) (l : List TrieData) : Prop :=
  l.Pairwise (fun x y => y.hashValue ≤ x.hashValue) ∧
  (∀ x ∈ l, (x.hashValue = wh ∧ x.pWord = none) ∨ (x.hashValue < wh ∧ ∃ e, x.pWord = some e)) ∧
  l.Pairwise (fun x y => y.hashValue = wh → x.hashValue = wh) ∧
  l.Pairwise (fun x y => x.hashValue = wh → y.hashValue = wh →
    ¬ (x.wildcardMin = y.wildcardMin ∧ x.wildcardMax = y.wildcardMax)) ∧
  l.Pairwise (fun x y => ∀ ex ey, x.pWord = some ex → y.pWord = some ey → ex.pKey ≠ ey.pKey)

/-- The children of the node with the address `a`. -/
def TrieNode.children (t : TrieNode) (a : Nat) : List TrieData :=
  match t.find a with
  | some (_, pChild) => pChild.siblings
  | none => []

/-- The trie of the clusters that `find_clusters_from_candidates` keeps of the
candidates of `aggrInput`: the candidate 0 alone. -/
def pathParams : Parameters :=
  prepare_prefix_trie (find_clusters_from_candidates aggrCandidates).1

/-- The part of the invariant of the candidate pass that holds with and without
the cluster sketch: the cluster table keeps its size and has no record with the
empty key, and every cluster record has at least one constant, each of them a
word-table record of a frequent word of `p0`. -/
structure CandLight (p0 p : Parameters) (m s : Nat) : Prop where
  csize : p.clusterTableSize = m
  cseed : p.clusterTableSeed = s
  len : p.ppClusterTable.length = m
  nokey : lookup p.ppClusterTable m s [] = none
  good : ∀ ptr, ptr < p.clusters.length → 1 ≤ (p.cluster ptr).constants ∧
    ∀ i, 1 ≤ i → i ≤ (p.cluster ptr).constants →
      ∃ we, (p.cluster ptr).ppWord i = some we ∧ isFrequent p0 we.pKey = true

/-! ## The cluster sketch -/

/-- The body of `for (i = 0; i < wordcount; i++)` in
`create_cluster_candidate_sketch`: a non-empty word found in the word table is
appended to the key with the separator, and `last = i + 1`.  The components of
the state after the parameters are `key`, `last` and `i`. -/
def cluster_sketch_word (st : Parameters × Key × Nat × Nat) (word : Key) :
    Parameters × Key × Nat × Nat :=
  let r := find_elem word st.1.ppWordTable st.1.wordTableSize st.1.wordTableSeed
  let pParam := { st.1 with ppWordTable := r.2 }
  let i := st.2.2.2
  match r.1 with
  | some _ =>
    if word ≠ [] then (pParam, st.2.1 ++ word ++ [CLUSTERSEP], i + 1, i + 1)
    else (pParam, st.2.1, st.2.2.1, i + 1)
  | none => (pParam, st.2.1, st.2.2.1, i + 1)

/-- The body of `while (fgets(line, MAXLINELEN, pFile))` in
`create_cluster_candidate_sketch`: `last = 0; *key = 0;`, the loop over the
words, `continue` when `last` is 0, and the increment of the slot of the key. -/
def cluster_sketch_line (pParam : Parameters) (words : List Key) : Parameters :=
  let r := words.foldl cluster_sketch_word (pParam, [], 0, 0)
  let pParam := r.1
  if r.2.2.1 = 0 then pParam
  else
    let hash := str2hash r.2.1 pParam.clusterSketchSize pParam.clusterSketchSeed
    { pParam with
        pClusterSketch := arrSet pParam.pClusterSketch hash (pParam.pClusterSketch hash + 1) }

/-- `create_cluster_candidate_sketch`: the slots of the sketch are cleared and
every line is processed; the second component is the returned number
`oversupport` of the slots that reach the support. -/
def create_cluster_candidate_sketch (pParam : Parameters) (input : List (List Key)) :
    Parameters × Nat :=
  let pParam := input.foldl cluster_sketch_line
    { pParam with
        pClusterSketch :=
          fun j => if j < pParam.clusterSketchSize then 0 else pParam.pClusterSketch j }
  (pParam, ((List.range pParam.clusterSketchSize).filter
    (fun j => decide (pParam.support ≤ pParam.pClusterSketch j))).length)

/-- The parameters after the vocabulary pass, the selection of the frequent
words and the cluster sketch pass on `skipInput`, with support 2 and a cluster
sketch of 3 slots. -/
def skipSketchParams : Parameters :=
  let v := create_vocabulary
    { support := 2, wordTableSize := 5, clusterTableSize := 7, clusterSketchSize := 3 } skipInput
  let f := find_frequent_words v.1
  (create_cluster_candidate_sketch { f.1 with freWordNum := f.2 } skipInput).1

/-- The state `q` differs from `p` at most in the scratch array `wordNumStr`
and in the word-dependency matrix. -/
def DepFrame (p q : Parameters) : Prop :=
  q = { p with wordNumStr := q.wordNumStr, wordDepMatrix := q.wordDepMatrix }
/-- An invariant of the candidate pass that holds with and without the cluster
sketch, for a property `K` of the keys of the cluster table and a property `G`
of the word-table records of the constants: the cluster table keeps its size,
the key of every record of the table has the property `K`, and every cluster
record has at least one constant, each with a record that has the property
`G`. -/
structure CandGen (G : Elem → Prop) (K : Key → Prop) (p : Parameters) (m s : Nat) : Prop where
  csize : p.clusterTableSize = m
  cseed : p.clusterTableSeed = s
  len : p.ppClusterTable.length = m
  keys : ∀ e ∈ p.ppClusterTable.flatten, K e.pKey
  good : ∀ ptr, ptr < p.clusters.length → 1 ≤ (p.cluster ptr).constants ∧
    K (p.cluster ptr).pElem ∧
    ∀ i, 1 ≤ i → i ≤ (p.cluster ptr).constants → ∃ we, (p.cluster ptr).ppWord i = some we ∧ G we

/-- The word-table record `we` is that of a constant of a line of `done`: the
record that the word table of `p0` holds for its key, which is a frequent word
and occurs in a line of `done`. -/
def ConstantOf (p0 : Parameters) (done : List (List Key)) (we : Elem) : Prop :=
  lookup p0.ppWordTable p0.wordTableSize p0.wordTableSeed we.pKey = some we ∧
  isFrequent p0 we.pKey = true ∧ ∃ l ∈ done, we.pKey ∈ l

/-- Every cluster record was made for a line of `done`: it has at most as many
constants as the line has words, and every constant has a word-table record
whose word is a word of the line. -/
def CandLine (done : List (List Key)) (p : Parameters) : Prop :=
  ∀ ptr, ptr < p.clusters.length → ∃ l ∈ done, (p.cluster ptr).constants ≤ l.length ∧
    ∀ i, 1 ≤ i → i ≤ (p.cluster ptr).constants →
      ∃ we, (p.cluster ptr).ppWord i = some we ∧ we.pKey ∈ l

/-- The key `k` is the candidate key of a line of `done` that has a frequent
word. -/
def CandidateKey (p0 : Parameters) (done : List (List Key)) (k : Key) : Prop :=
  ∃ l ∈ done, constantsOf p0 l ≠ [] ∧ k = keyOf (constantsOf p0 l)

/-! ## The token sentinel -/

/-- `TOKENLEN`. -/
def TOKENLEN : Nat := 10

/-- The array `alphanum` of `gen_random_string` without its terminator: the
digits, the capital letters and the small letters. -/
def alphanum : List Nat :=
  List.range' 48 10 ++ List.range' 65 26 ++ List.range' 97 26

/-- `gen_random_string(s, len)`: `s[i] = alphanum[rand() % (sizeof(alphanum) -
1)]` for `i < len`.  `rand` is the sequence of the values that the calls of
`rand()` return, and `k` is the number of the calls made before. -/
def gen_random_string (rand : Nat → Nat) (k len : Nat) : Key :=
  (List.range len).map (fun i => alphanum.getD (rand (k + i) % alphanum.length) 0)

/-- `set_token`: `while (find_elem(token, ppWordTable, ...))
gen_random_string(token, TOKENLEN - 1);`, for at most `fuel` tests of the loop
condition; `none` when the loop has not ended by then. -/
def set_token : Nat → (Nat → Nat) → Nat → Parameters → Option Parameters
  | 0, _, _, _ => none
  | fuel + 1, rand, k, pParam =>
    let r := find_elem pParam.token pParam.ppWordTable pParam.wordTableSize pParam.wordTableSeed
    let pParam := { pParam with ppWordTable := r.2 }
    match r.1 with
    | none => some pParam
    | some _ =>
      set_token fuel rand (k + (TOKENLEN - 1))
        { pParam with token := gen_random_string rand k (TOKENLEN - 1) }

/-- Steps 2.B, 2.C and 3.A of `main` when `wordWeightThreshold` is not 0, up to
the call of `step_3_join_clusters`: the fused candidate pass, the aggregation of
the supports when `bAggrsupFlag` is set, and the selection of the clusters,
whose number is stored in `clusterNum`. -/
def mine_word_dep (pParam : Parameters) (input : List (List Key)) (loc : CandidateLocals)
    (clusterCount : Nat) : Parameters :=
  let pc := (create_cluster_candidates_word_dep pParam input loc clusterCount).1
  let pa := if pc.bAggrsupFlag = true then step_2_aggregate_support pc else pc
  let r := find_clusters_from_candidates pa
  { r.1 with clusterNum := r.2 }

/-- The state `q` has the token, the word table and the sizes and seeds of the
word table and of the cluster table of `p`, and every record of its cluster
table has the key of a record of the cluster table of `p`. -/
structure AggFrame (p q : Parameters) : Prop where
  token : q.token = p.token
  wtable : q.ppWordTable = p.ppWordTable
  wsize : q.wordTableSize = p.wordTableSize
  wseed : q.wordTableSeed = p.wordTableSeed
  csize : q.clusterTableSize = p.clusterTableSize
  cseed : q.clusterTableSeed = p.clusterTableSeed
  keys : ∀ e ∈ q.ppClusterTable.flatten, ∃ e0 ∈ p.ppClusterTable.flatten, e0.pKey = e.pKey

/-- The lines `a token x` and `a token y`. -/
def tokenInput : List (List Key) :=
  [[[97], [116, 111, 107, 101, 110], [120]], [[97], [116, 111, 107, 101, 110], [121]]]

/-- The parameters after the vocabulary pass and the selection of the frequent
words on `tokenInput` with support 2 and `--aggrsup`: the frequent words are
`a` and `token`. -/
def tokenParams : Parameters :=
  prepare_word_dep
    (create_vocabulary { support := 2, wordTableSize := 5, clusterTableSize := 7,
                         bAggrsupFlag := true } tokenInput).1

/-! ## Search and replace in a word -/

/-- `replace_string_for_word_search(start, end, pOriginStr, pStr)`, as the
string `pOriginStr` holds afterwards: `tmp` is the text from `end` on, `pStr`
is written from `start` on and terminated, and `tmp` is appended. -/
def replace_string_for_word_search (start stop : Nat) (pOriginStr pStr : Key) : Key :=
  let tmp := pOriginStr.drop stop
  pOriginStr.take start ++ pStr ++ tmp

/-- The loop `for (i = start; i < end; i++)` of `check_endless_loop` with `n =
end - i` rounds left: 1 at the first `tmpStr[i] != pWordReplace[j]`, and 0 when
there is none.  The byte behind the last one of a string is its terminator
0. -/
def check_endless_loop_from (tmpStr pWordReplace : Key) : Nat → Nat → Nat → Nat
  | 0, _, _ => 0
  | n + 1, i, j =>
    if tmpStr.getD i 0 ≠ pWordReplace.getD j 0 then 1
    else check_endless_loop_from tmpStr pWordReplace n (i + 1) (j + 1)

/-- `check_endless_loop(start, end, pParam)`, for the strings `pParam->tmpStr`
and `pParam->pWordReplace`. -/
def check_endless_loop (start stop : Nat) (tmpStr pWordReplace : Key) : Nat :=
  check_endless_loop_from tmpStr pWordReplace (stop - start) start 0

/-- The loop `while (1)` of `word_search_replace` on the string `tmpStr` with
the counter `cnt`, for at most `fuel` rounds (`none` when it has not ended by
then).  `regexec` is the search for `wsearch_regex` in a string: `none` when
nothing matches, and the offsets `rm_so`, `rm_eo` of the match otherwise. -/
def word_search_replace_loop (regexec : Key → Option (Nat × Nat)) (pWordReplace : Key) :
    Nat → Key → Nat → Option Key
  | 0, _, _ => none
  | fuel + 1, tmpStr, cnt =>
    match regexec tmpStr with
    | some (so, eo) =>
      if cnt ≠ 0 ∧ check_endless_loop so eo tmpStr pWordReplace = 0 then some tmpStr
      else
        word_search_replace_loop regexec pWordReplace fuel
          (replace_string_for_word_search so eo tmpStr pWordReplace) (cnt + 1)
    | none => some tmpStr

/-- `word_search_replace`: the string `tmpStr` that is returned; `none` when
`pWordReplace` is null or the loop has not ended after `fuel` rounds. -/
def word_search_replace (regexec : Key → Option (Nat × Nat)) (fuel : Nat) (pOriginStr : Key)
    (pParam : Parameters) : Option Key :=
  match pParam.pWordReplace with
  | some w => word_search_replace_loop regexec w fuel pOriginStr 0
  | none => none

/-- The loop of `word_search_replace` in the words of the specification: a
match whose bytes are equal to the string `word_replace` is left as it is and
ends the loop, and every other match is replaced before the search is
repeated. -/
def word_search_replace_spec (regexec : Key → Option (Nat × Nat)) (word_replace : Key) :
    Nat → Key → Option Key
  | 0, _ => none
  | fuel + 1, str =>
    match regexec str with
    | some (so, eo) =>
      if (str.drop so).take (eo - so) = word_replace then some str
      else
        word_search_replace_spec regexec word_replace fuel
          (str.take so ++ word_replace ++ str.drop eo)
    | none => some str

/-- A search that matches the second and the third byte of a string whose
second byte is `=` (the expression `^.=.` on a string without line breaks). -/
def eqSearch : Key → Option (Nat × Nat)
  | _ :: 61 :: _ :: _ => some (1, 3)
  | _ => none

/-- Parameters with `--wreplace==VALUE`. -/
def eqValueParams : Parameters :=
  { pWordReplace := some [61, 86, 65, 76, 85, 69] }

/-! ## The tests of the search for more specific candidates -/

/-- What the body of the loops of `find_more_specific` and
`find_more_specific_tail` does with a node: the search goes on below the node
without a comparison, the node and all below it are left out, or the node is
looked at (compared with the constant, or taken as an end node in the tail). -/
inductive SearchAction where
  | descend
  | prune
  | compare
  deriving DecidableEq

/-- The two tests at the head of the loop body of `find_more_specific` at the
node `d`, for the constant `constant` of the cluster `c` and the sums `mm` of
the nodes before `d`: `if (min - 1 < fullWildcard[constant * 2])`, then `if
(max - 1 > fullWildcard[constant * 2 + 1])`. -/
def find_more_specific_action (c : Cluster) (constant : Nat) (d : TrieData) (mm : Int × Int) :
    SearchAction :=
  let mm1 := trie_step d mm
  if mm1.1 - 1 < c.fullWildcard (constant * 2) then .descend
  else if mm1.2 - 1 > c.fullWildcard (constant * 2 + 1) then .prune
  else .compare

/-- The two tests at the head of the loop body of `find_more_specific_tail`:
`if (min < fullWildcard[0])`, then `if (max > fullWildcard[1])`. -/
def find_more_specific_tail_action (c : Cluster) (d : TrieData) (mm : Int × Int) :
    SearchAction :=
  let mm1 := trie_step d mm
  if mm1.1 < c.fullWildcard 0 then .descend
  else if mm1.2 > c.fullWildcard 1 then .prune
  else .compare

/-- The tests in the words of the specification, for the sums `(min_sum,
max_sum)` and the bounds `(lo, hi)` of a gap of the cluster: the subtree is
pruned when `min_sum > hi`, and the search descends without a comparison when
`max_sum < lo`. -/
def spec_action (sums : Int × Int) (lo hi : Int) : SearchAction :=
  if sums.1 > hi then .prune
  else if sums.2 < lo then .descend
  else .compare

/-- The candidates that the search of the tail adds when its tests are those
of the specification. -/
def matched_tail_spec (pCluster : Nat) (c : Cluster) : TrieNode → Int × Int → List Nat
  | .null, _ => []
  | .node d pChild pNext, mm =>
    let mm1 := trie_step d mm
    (match spec_action mm1 (c.fullWildcard 0) (c.fullWildcard 1) with
     | .descend => matched_tail_spec pCluster c pChild mm1
     | .prune => []
     | .compare => matched_end pCluster d ++ matched_tail_spec pCluster c pChild mm1)
    ++ matched_tail_spec pCluster c pNext mm

/-- The candidates that the search adds when its two tests are those of the
specification, everything else being as in `find_more_specific`.  The sums
that are tested are those of the nodes before the node when `own = 1`, and
those with the node included when `own = 0`. -/
def matched_loop_spec (own : Int) (pCluster : Nat) (c : Cluster) (hashOf : Key → Nat) :
    TrieNode → Nat → Int × Int → Nat → List Nat
  | .null, _, _, _ => []
  | .node d pChild pNext, constant, mm, hash =>
    let mm1 := trie_step d mm
    match spec_action (mm1.1 - own, mm1.2 - own) (c.fullWildcard (constant * 2))
        (c.fullWildcard (constant * 2 + 1)) with
    | .descend =>
      matched_loop_spec own pCluster c hashOf pChild constant mm1 hash
        ++ matched_loop_spec own pCluster c hashOf pNext constant mm hash
    | .prune => matched_loop_spec own pCluster c hashOf pNext constant mm hash
    | .compare =>
      if d.hashValue = hash ∧
          d.pWord.map Elem.pKey = (c.ppWord constant).map Elem.pKey ∧ d.pWord ≠ none then
        if constant < c.constants then
          let hashTmp := match c.ppWord (constant + 1) with
            | some w => hashOf w.pKey
            | none => 0
          matched_loop_spec own pCluster c hashOf pChild (constant + 1) (0, 0) hashTmp
            ++ matched_loop_spec own pCluster c hashOf pNext constant mm hash
        else if constant = c.constants then
          if c.fullWildcard 1 = 0 then
            matched_end pCluster d ++ matched_loop_spec own pCluster c hashOf pNext constant mm hash
          else
            (if c.fullWildcard 0 = 0 then matched_end pCluster d else [])
              ++ matched_tail_spec pCluster c pChild (0, 0)
              ++ matched_loop_spec own pCluster c hashOf pNext constant mm hash
        else matched_loop_spec own pCluster c hashOf pNext constant mm1 hash
      else
        matched_loop_spec own pCluster c hashOf pChild constant mm1 hash
          ++ matched_loop_spec own pCluster c hashOf pNext constant mm hash

/-- The candidates added to the candidate `pCluster` when the tests of the
search are those of the specification. -/
def matched_spec (own : Int) (pParam : Parameters) (pCluster : Nat) : List Nat :=
  let c := pParam.cluster pCluster
  if get_first_wildcard_location c ≥ 0 then
    let firstWildcardLoc := (get_first_wildcard_location c).toNat
    let hash :=
      if firstWildcardLoc ≠ 0 then
        match c.ppWord firstWildcardLoc with
        | some w => str2hash w.pKey pParam.prefixSketchSize pParam.prefixSketchSeed
        | none => 0
      else 0
    match get_common_parent pParam pCluster with
    | none => []
    | some pParent =>
      match pParam.pPrefixRoot.find pParent with
      | none => []
      | some (_, pChild) =>
        if firstWildcardLoc = 0 then matched_tail_spec pCluster c pChild (0, 0)
        else
          matched_loop_spec own pCluster c
            (fun k => str2hash k pParam.prefixSketchSize pParam.prefixSketchSeed)
            pChild firstWildcardLoc (0, 0) hash
  else []

/-- The lines `A x B`, `A y z w B`, `A D B`, `A D q r s t u B`: the frequent
words are `A`, `B` and `D`. -/
def pruneInput : List (List Key) :=
  [[[65], [120], [66]], [[65], [121], [122], [119], [66]], [[65], [68], [66]],
   [[65], [68], [113], [114], [115], [116], [117], [66]]]

/-- The parameters after the vocabulary pass and the selection of the frequent
words on `pruneInput`, with support 2; `freWordNum` is set as in `main`. -/
def pruneParams : Parameters :=
  let v := create_vocabulary { support := 2, wordTableSize := 5, clusterTableSize := 7 }
    pruneInput
  let f := find_frequent_words v.1
  { f.1 with freWordNum := f.2 }

/-- The trie of the candidates of `pruneInput`: the candidate 0 is `A *{1,3}
B`, and the candidate 1 is `A D *{0,5} B`. -/
def pruneTrie : Parameters :=
  prepare_prefix_trie (create_cluster_candidates pruneParams pruneInput {} 0).1


/-! ## Well-formed hash tables -/

/-- A hash table with `m` slots whose chains hold every key at most once, each
record in the slot of its key. -/
structure TableWf (t : Table) (m s : Nat) : Prop where
  len : t.length = m
  nodup : ∀ i, ((t.getD i []).map Elem.pKey).Nodup
  slot : ∀ i, ∀ e ∈ t.getD i [], str2hash e.pKey m s = i

/-! ## The cluster sketch as a gate of the candidate pass -/

/-- The state `q` has the cluster sketch, its size and seed, and the support of
`p`. -/
structure GateFrame (p q : Parameters) : Prop where
  gsize : q.clusterSketchSize = p.clusterSketchSize
  gseed : q.clusterSketchSeed = p.clusterSketchSeed
  gsketch : q.pClusterSketch = p.pClusterSketch
  gsupport : q.support = p.support

/-- The state `q` differs from `p` at most in the word table, the cluster
table, the cluster records, the family buckets and `biggestConstants`. -/
def CandFrame (p q : Parameters) : Prop :=
  ∃ t ct cl fam b, q = { p with ppWordTable := t, ppClusterTable := ct, clusters := cl,
                                pClusterFamily := fam, biggestConstants := b }

/-- Two cluster records have the same constants and the same bounds of the
gaps. -/
structure SamePattern (c c1 : Cluster) : Prop where
  constants : c.constants = c1.constants
  word : ∀ i, 1 ≤ i → i ≤ c.constants → c.word i = c1.word i
  wildcard : ∀ j, j ≤ c.constants → c.fullWildcard (j * 2) = c1.fullWildcard (j * 2) ∧
    c.fullWildcard (j * 2 + 1) = c1.fullWildcard (j * 2 + 1)

theorem getD_set_same (t : Table) (i : Nat) (v : List Elem) (h : i < t.length) :
    (t.set i v).getD i [] = v := by
  simp [List.getD_eq_getElem?_getD, List.getElem?_set, h]

theorem getD_set_other (t : Table) (i j : Nat) (v : List Elem) (h : i ≠ j) :
    (t.set i v).getD j [] = t.getD j [] := by
  simp [List.getD_eq_getElem?_getD, List.getElem?_set, h]

theorem chain_scan_fst (k : Key) (c : List Elem) :
    (chain_scan k c).map Prod.fst = c.find? (fun e => decide (e.pKey = k)) := by
  induction c with
  | nil => rfl
  | cons e rest ih =>
    unfold chain_scan
    by_cases h : e.pKey = k
    · simp [h]
    · simp only [h, if_false, List.find?_cons, decide_False]
      rw [← ih]
      cases chain_scan k rest <;> rfl

theorem chain_scan_key {k : Key} {c : List Elem} {x : Elem} {r : List Elem}
    (h : chain_scan k c = some (x, r)) : x.pKey = k := by
  have h1 := chain_scan_fst k c
  rw [h] at h1
  have h2 := List.find?_some h1.symm
  simpa using h2

theorem chain_scan_others {k : Key} (k' : Key) (hk : k' ≠ k) :
    ∀ {c : List Elem} {x : Elem} {r : List Elem}, chain_scan k c = some (x, r) →
      r.find? (fun e => decide (e.pKey = k')) = c.find? (fun e => decide (e.pKey = k')) := by
  intro c
  induction c with
  | nil => intro x r h; simp [chain_scan] at h
  | cons e rest ih =>
    intro x r h
    unfold chain_scan at h
    by_cases he : e.pKey = k
    · simp only [he, if_true, Option.some.injEq, Prod.mk.injEq] at h
      obtain ⟨-, rfl⟩ := h
      have : ¬ e.pKey = k' := by rw [he]; exact fun h => hk h.symm
      simp [List.find?_cons, this]
    · simp only [he, if_false] at h
      cases hs : chain_scan k rest with
      | none => simp [hs] at h
      | some pr =>
        obtain ⟨y, r'⟩ := pr
        simp only [hs, Option.some.injEq, Prod.mk.injEq] at h
        obtain ⟨-, rfl⟩ := h
        simp only [List.find?_cons]
        rw [ih hs]


theorem str2hash_lt (k : Key) (m h : Nat) (hm : 0 < m) : str2hash k m h < m :=
  Nat.mod_lt _ hm

theorem add_elem_length (k : Key) (t : Table) (m s : Nat) :
    (add_elem k t m s).length = t.length := by
  simp only [add_elem]
  split <;> simp

theorem store_front_length (t : Table) (h : Nat) (e : Elem) :
    (store_front t h e).length = t.length := by
  unfold store_front
  split <;> simp

theorem lookup_key {t : Table} {m s : Nat} {k : Key} {e : Elem}
    (h : lookup t m s k = some e) : e.pKey = k := by
  have := List.find?_some h
  simpa using this

theorem added_pKey (t : Table) (m s : Nat) (k : Key) : (added (lookup t m s k) k).pKey = k := by
  cases hl : lookup t m s k with
  | none => rfl
  | some e => exact (lookup_key hl : e.pKey = k)

theorem add_elem_chain (k : Key) (t : Table) (m s : Nat) (hlen : str2hash k m s < t.length) :
    ∃ rest, (add_elem k t m s).getD (str2hash k m s) [] = added (lookup t m s k) k :: rest ∧
      ∀ k', k' ≠ k → rest.find? (fun e => decide (e.pKey = k')) =
        (t.getD (str2hash k m s) []).find? (fun e => decide (e.pKey = k')) := by
  simp only [add_elem, lookup]
  have hf := chain_scan_fst k (t.getD (str2hash k m s) [])
  cases hs : chain_scan k (t.getD (str2hash k m s) []) with
  | none =>
    rw [hs] at hf
    simp only [Option.map_none'] at hf
    refine ⟨t.getD (str2hash k m s) [], ?_, fun _ _ => rfl⟩
    simp only [hs, getD_set_same _ _ _ hlen, ← hf, added]
  | some pr =>
    obtain ⟨x, r⟩ := pr
    rw [hs] at hf
    simp only [Option.map_some'] at hf
    refine ⟨r, ?_, fun k' hk => chain_scan_others k' hk hs⟩
    simp only [hs, getD_set_same _ _ _ hlen, ← hf, added]

theorem lookup_add_elem_self (k : Key) (t : Table) (m s : Nat)
    (hlen : str2hash k m s < t.length) :
    lookup (add_elem k t m s) m s k = some (added (lookup t m s k) k) := by
  obtain ⟨rest, h1, -⟩ := add_elem_chain k t m s hlen
  have hk := added_pKey t m s k
  unfold lookup at *
  rw [h1, List.find?_cons]
  simp only [hk, decide_True]

theorem front_add_elem (k : Key) (t : Table) (m s : Nat)
    (hlen : str2hash k m s < t.length) :
    front (add_elem k t m s) (str2hash k m s) = some (added (lookup t m s k) k) := by
  obtain ⟨rest, h1, -⟩ := add_elem_chain k t m s hlen
  unfold front
  rw [h1]; rfl

theorem lookup_add_elem_other (k k' : Key) (hk : k' ≠ k) (t : Table) (m s : Nat)
    (hlen : str2hash k m s < t.length) :
    lookup (add_elem k t m s) m s k' = lookup t m s k' := by
  by_cases hh : str2hash k m s = str2hash k' m s
  · obtain ⟨rest, h1, h2⟩ := add_elem_chain k t m s hlen
    have hkk := added_pKey t m s k
    have hne : ¬ (added (lookup t m s k) k).pKey = k' := by
      rw [hkk]; exact fun h => hk h.symm
    unfold lookup
    rw [← hh, h1, List.find?_cons]
    simp only [hne, decide_False]
    exact h2 k' hk
  · simp only [lookup, add_elem]
    split <;> simp only [getD_set_other _ _ _ _ hh]

theorem lookup_store_front_self (t : Table) (m s : Nat) (k : Key) (e0 e : Elem)
    (hlen : str2hash k m s < t.length) (hf : front t (str2hash k m s) = some e0)
    (he : e.pKey = k) :
    lookup (store_front t (str2hash k m s) e) m s k = some e := by
  unfold front at hf
  unfold lookup store_front
  cases hc : t.getD (str2hash k m s) [] with
  | nil => exfalso; rw [hc] at hf; simp at hf
  | cons x rest =>
    simp only [getD_set_same _ _ _ hlen, List.find?_cons, he, decide_True]

theorem lookup_store_front_other (t : Table) (m s : Nat) (k k' : Key) (e0 e : Elem)
    (hk : k' ≠ k)
    (hlen : str2hash k m s < t.length) (hf : front t (str2hash k m s) = some e0)
    (he0 : e0.pKey = k) (he : e.pKey = k) :
    lookup (store_front t (str2hash k m s) e) m s k' = lookup t m s k' := by
  unfold front at hf
  unfold lookup store_front
  cases hc : t.getD (str2hash k m s) [] with
  | nil => exfalso; rw [hc] at hf; simp at hf
  | cons x rest =>
    rw [hc] at hf
    simp only [List.head?_cons, Option.some.injEq] at hf
    by_cases hh : str2hash k m s = str2hash k' m s
    · have h1 : ¬ e.pKey = k' := by rw [he]; exact fun h => hk h.symm
      have h2 : ¬ x.pKey = k' := by rw [hf, he0]; exact fun h => hk h.symm
      simp only
      rw [← hh, getD_set_same _ _ _ hlen, hc]
      simp only [List.find?_cons, h1, h2, decide_False]
    · simp only [getD_set_other _ _ _ _ hh]

theorem find_elem_fst (k : Key) (t : Table) (m s : Nat) :
    (find_elem k t m s).1 = lookup t m s k := by
  simp only [find_elem, lookup]
  rw [← chain_scan_fst]
  split <;> simp_all

/-! ## The vocabulary pass: counts -/

theorem linesWith_snoc (k : Key) (done : List (List Key)) (l : List Key) :
    linesWith k (done ++ [l]) = linesWith k done + if k ∈ l then 1 else 0 := by
  unfold linesWith
  rw [List.countP_append]
  by_cases h : k ∈ l <;> simp [List.countP_cons, h]

theorem linesWith_pos_iff (k : Key) (L : List (List Key)) :
    0 < linesWith k L ↔ k ∈ L.flatten := by
  unfold linesWith
  rw [List.countP_pos_iff, List.mem_flatten]
  constructor
  · rintro ⟨l, hl, h⟩; exact ⟨l, hl, by simpa using h⟩
  · rintro ⟨l, hl, h⟩; exact ⟨l, hl, by simpa using h⟩

theorem flatten_snoc_snoc (done : List (List Key)) (ws : List Key) (w : Key) :
    (done ++ [ws ++ [w]]).flatten = (done ++ [ws]).flatten ++ [w] := by
  simp [List.flatten_append]

theorem distinctWordsOf_snoc (done : List (List Key)) (ws : List Key) (w : Key) :
    (distinctWordsOf (done ++ [ws ++ [w]])).length =
      (distinctWordsOf (done ++ [ws])).length +
        if w = [] ∨ w ∈ (done ++ [ws]).flatten then 0 else 1 := by
  unfold distinctWordsOf
  rw [flatten_snoc_snoc, List.filter_append]
  rw [← List.card_toFinset, ← List.card_toFinset, List.toFinset_append]
  by_cases hw : w = []
  · simp [hw]
  · by_cases hm : w ∈ (done ++ [ws]).flatten
    · have : w ∈ ((done ++ [ws]).flatten.filter (fun w => decide (w ≠ []))).toFinset := by
        simp [List.mem_filter, hw]; simpa using hm
      simp only [List.filter_cons, hw, ne_eq, not_false_eq_true, decide_True, if_true,
        List.filter_nil, List.toFinset_cons, List.toFinset_nil, insert_emptyc_eq, hm, or_true]
      rw [Finset.union_comm, ← Finset.insert_eq, Finset.insert_eq_of_mem this]
      rfl
    · have : w ∉ ((done ++ [ws]).flatten.filter (fun w => decide (w ≠ []))).toFinset := by
        simp [List.mem_filter, hw]; simpa using hm
      simp only [List.filter_cons, hw, ne_eq, not_false_eq_true, decide_True, if_true,
        List.filter_nil, List.toFinset_cons, List.toFinset_nil, insert_emptyc_eq, hm, or_false,
        if_false]
      rw [Finset.union_comm, ← Finset.insert_eq, Finset.card_insert_of_not_mem this]

theorem is_word_repeated_iff (storage : Nat → Nat) (x dw : Nat) :
    is_word_repeated storage x (dw + 1) = true ↔ ∃ i, 1 ≤ i ∧ i ≤ dw ∧ storage i = x := by
  unfold is_word_repeated
  simp only [List.any_eq_true, List.mem_range'_1, beq_iff_eq, Nat.add_sub_cancel]
  constructor
  · rintro ⟨i, ⟨h1, h2⟩, h3⟩; exact ⟨i, h1, by omega, h3⟩
  · rintro ⟨i, h1, h2, h3⟩; exact ⟨i, ⟨h1, by omega⟩, h3⟩

theorem lookup_step_self (w : Key) (t : Table) (m s : Nat) (e : Elem)
    (hlen : str2hash w m s < t.length) (he : e.pKey = w) :
    lookup (store_front (add_elem w t m s) (str2hash w m s) e) m s w = some e := by
  have hlen1 : str2hash w m s < (add_elem w t m s).length := by
    rw [add_elem_length]; exact hlen
  exact lookup_store_front_self _ m s w _ e hlen1 (front_add_elem w t m s hlen) he

theorem lookup_step_other (w k : Key) (hk : k ≠ w) (t : Table) (m s : Nat) (e : Elem)
    (hlen : str2hash w m s < t.length) (he : e.pKey = w) :
    lookup (store_front (add_elem w t m s) (str2hash w m s) e) m s k = lookup t m s k := by
  have hlen1 : str2hash w m s < (add_elem w t m s).length := by
    rw [add_elem_length]; exact hlen
  rw [lookup_store_front_other _ m s w k _ e hk hlen1 (front_add_elem w t m s hlen)
    (added_pKey t m s w) he]
  exact lookup_add_elem_other w k hk t m s hlen

theorem step_length (w : Key) (t : Table) (m s : Nat) (e : Elem) :
    (store_front (add_elem w t m s) (str2hash w m s) e).length = t.length := by
  rw [store_front_length, add_elem_length]

theorem create_vocabulary_word_empty (st : Parameters × VocabularyLocals) :
    create_vocabulary_word st [] = st := by
  simp [create_vocabulary_word]

theorem VocabInv.snoc_empty {m s : Nat} {st : Parameters × VocabularyLocals}
    {done : List (List Key)} {ws : List Key} (h : VocabInv m s st done ws) :
    VocabInv m s st done (ws ++ [[]]) := by
  have hl : ∀ k, k ≠ [] → linesWith k (done ++ [ws ++ [[]]]) = linesWith k (done ++ [ws]) := by
    intro k hk
    rw [linesWith_snoc, linesWith_snoc]
    have : k ∈ ws ++ [[]] ↔ k ∈ ws := by simp [hk]
    simp only [this]
  refine { size := h.size, seed := h.seed, sketch := h.sketch, len := h.len, cnt := ?_,
           num_le := h.num_le, num_inj := h.num_inj, number_eq := ?_, sto_sound := ?_,
           sto_complete := ?_ }
  · intro k
    rw [h.cnt k]
    by_cases hk : k = []
    · simp [hk]
    · rw [hl k hk]
  · rw [h.number_eq, distinctWordsOf_snoc]; simp
  · intro i h1 h2
    obtain ⟨k, hk, e, he⟩ := h.sto_sound i h1 h2
    exact ⟨k, List.mem_append_left _ hk, e, he⟩
  · intro k hk hne
    have : k ∈ ws := by
      rcases List.mem_append.1 hk with h' | h'
      · exact h'
      · simp at h'; exact absurd h' hne
    exact h.sto_complete k this hne

theorem create_vocabulary_word_inv {m s : Nat} (hm : 0 < m) {st : Parameters × VocabularyLocals}
    {done : List (List Key)} {ws : List Key} (w : Key) (h : VocabInv m s st done ws) :
    VocabInv m s (create_vocabulary_word st w) done (ws ++ [w]) := by
  by_cases hw : w = []
  · subst hw; rw [create_vocabulary_word_empty]; exact h.snoc_empty
  obtain ⟨p, loc⟩ := st
  have hsize : p.wordTableSize = m := h.size
  have hseed : p.wordTableSeed = s := h.seed
  have hsk : p.wordSketchSize = 0 := h.sketch
  have hnum : loc.number = (distinctWordsOf (done ++ [ws])).length := h.number_eq
  have hlen : str2hash w m s < p.ppWordTable.length := by
    rw [h.len]; exact str2hash_lt w m s hm
  have hcnt := h.cnt w
  simp only [hw, false_or] at hcnt
  have hL : ∀ k, linesWith k (done ++ [ws ++ [w]]) =
      linesWith k done + if (k ∈ ws ∨ k = w) then 1 else 0 := by
    intro k; rw [linesWith_snoc]; simp [List.mem_append]
  have hL0 : ∀ k, linesWith k (done ++ [ws]) = linesWith k done + if k ∈ ws then 1 else 0 :=
    fun k => linesWith_snoc k done ws
  have hLk : ∀ k, k ≠ w → linesWith k (done ++ [ws ++ [w]]) = linesWith k (done ++ [ws]) := by
    intro k hk; rw [hL, hL0]; simp [hk]
  have hsound : ∀ i, 1 ≤ i → i ≤ loc.distinctWords →
      ∃ k ∈ ws, ∃ e, lookup p.ppWordTable m s k = some e ∧ e.number = p.wordNumStr i :=
    h.sto_sound
  have hcomplete : ∀ k ∈ ws, k ≠ [] → ∃ i, 1 ≤ i ∧ i ≤ loc.distinctWords ∧
      ∃ e, lookup p.ppWordTable m s k = some e ∧ e.number = p.wordNumStr i := h.sto_complete
  have hnumle : ∀ k e, lookup p.ppWordTable m s k = some e → e.number ≤ loc.number := h.num_le
  unfold create_vocabulary_word
  simp only [hw, if_false, hsk, ne_eq, not_true_eq_false, false_and, hsize, hseed]
  rw [front_add_elem w _ m s hlen]
  simp only
  cases hold : lookup p.ppWordTable m s w with
  | none =>
    have hw0 : linesWith w (done ++ [ws]) = 0 := by
      rw [hold] at hcnt
      by_contra hne
      simp [hne] at hcnt
    have hnotin : w ∉ (done ++ [ws]).flatten := by
      rw [← linesWith_pos_iff]; omega
    have hnws : w ∉ ws := by
      intro hin; have := hL0 w; simp [hin] at this; omega
    have hdone0 : linesWith w done = 0 := by have := hL0 w; omega
    have hrep : is_word_repeated p.wordNumStr (loc.number + 1) (loc.distinctWords + 1) = false := by
      rw [Bool.eq_false_iff]; intro hc; rw [is_word_repeated_iff] at hc
      obtain ⟨i, h1, h2, h3⟩ := hc
      obtain ⟨k, _, e, he, hn⟩ := hsound i h1 h2
      have := hnumle k e he
      omega
    simp only [added, ↓reduceIte, hrep, Bool.false_eq_true]
    have hself := lookup_step_self w p.ppWordTable m s
      { pKey := w, count := 1, number := loc.number + 1, pCluster := none } hlen rfl
    have hoth := fun k hk => lookup_step_other w k hk p.ppWordTable m s
      { pKey := w, count := 1, number := loc.number + 1, pCluster := none } hlen rfl
    refine { size := rfl, seed := rfl, sketch := rfl, len := ?_, cnt := ?_, num_le := ?_,
             num_inj := ?_, number_eq := ?_, sto_sound := ?_, sto_complete := ?_ }
    · show (store_front _ _ _).length = m
      rw [step_length]; exact h.len
    · intro k
      show Option.map Elem.count (lookup (store_front _ _ _) m s k) = _
      by_cases hk : k = w
      · subst hk; rw [hself, hL]; simp [hw, hdone0]
      · rw [hoth k hk, hLk k hk]; exact h.cnt k
    · intro k e he
      change lookup (store_front _ _ _) m s k = some e at he
      show e.number ≤ loc.number + 1
      by_cases hk : k = w
      · subst hk; rw [hself] at he; cases he; exact le_refl _
      · rw [hoth k hk] at he; have := hnumle k e he; omega
    · intro k k' e e' he he' hn
      change lookup (store_front _ _ _) m s k = some e at he
      change lookup (store_front _ _ _) m s k' = some e' at he'
      by_cases hk : k = w <;> by_cases hk' : k' = w
      · rw [hk, hk']
      · exfalso
        subst hk; rw [hself] at he; cases he
        rw [hoth k' hk'] at he'
        have := hnumle k' e' he'
        simp only at hn; omega
      · exfalso
        subst hk'; rw [hself] at he'; cases he'
        rw [hoth k hk] at he
        have := hnumle k e he
        simp only at hn; omega
      · rw [hoth k hk] at he; rw [hoth k' hk'] at he'
        exact h.num_inj k k' e e' he he' hn
    · show loc.number + 1 = _
      rw [distinctWordsOf_snoc]; simp only [hw, hnotin, or_self, if_false]; rw [hnum]
    · intro i h1 h2
      change i ≤ loc.distinctWords + 1 at h2
      show ∃ k ∈ ws ++ [w], ∃ e, lookup (store_front _ _ _) m s k = some e ∧
        e.number = arrSet p.wordNumStr (loc.distinctWords + 1) (loc.number + 1) i
      by_cases hi : i = loc.distinctWords + 1
      · exact ⟨w, by simp, _, hself, by simp [arrSet, hi]⟩
      · obtain ⟨k, hk, e, he, hn⟩ := hsound i h1 (by omega)
        have hkw : k ≠ w := fun hc => hnws (hc ▸ hk)
        refine ⟨k, List.mem_append_left _ hk, e, ?_, ?_⟩
        · rw [hoth k hkw]; exact he
        · simp only [arrSet, hi, if_false]; exact hn
    · intro k hk hne
      show ∃ i, 1 ≤ i ∧ i ≤ loc.distinctWords + 1 ∧ ∃ e,
        lookup (store_front _ _ _) m s k = some e ∧
        e.number = arrSet p.wordNumStr (loc.distinctWords + 1) (loc.number + 1) i
      rcases List.mem_append.1 hk with hk1 | hk1
      · obtain ⟨i, h1, h2, e, he, hn⟩ := hcomplete k hk1 hne
        have hkw : k ≠ w := fun hc => hnws (hc ▸ hk1)
        have hi : i ≠ loc.distinctWords + 1 := by omega
        refine ⟨i, h1, by omega, e, by rw [hoth k hkw]; exact he, ?_⟩
        simp only [arrSet, hi, if_false]; exact hn
      · simp only [List.mem_singleton] at hk1; subst hk1
        exact ⟨loc.distinctWords + 1, by omega, le_refl _, _, hself, by simp [arrSet]⟩
  | some e =>
    have hek : e.pKey = w := lookup_key hold
    have hn0 : linesWith w (done ++ [ws]) ≠ 0 := by
      intro hc; rw [hold] at hcnt; simp [hc] at hcnt
    have hec : e.count = linesWith w (done ++ [ws]) := by
      rw [hold] at hcnt; simpa [hn0] using hcnt
    have hc1 : ¬ (e.count + 1 = 1) := by omega
    have hinfl : w ∈ (done ++ [ws]).flatten := by
      rw [← linesWith_pos_iff]; omega
    have hrep_iff : is_word_repeated p.wordNumStr e.number (loc.distinctWords + 1) = true ↔
        w ∈ ws := by
      rw [is_word_repeated_iff]
      constructor
      · rintro ⟨i, h1, h2, h3⟩
        obtain ⟨k, hk, e', he', hn⟩ := hsound i h1 h2
        have : k = w := h.num_inj k w e' e he' hold (by omega)
        exact this ▸ hk
      · intro hin
        obtain ⟨i, h1, h2, e', he', hn⟩ := hcomplete w hin hw
        rw [hold] at he'; cases he'
        exact ⟨i, h1, h2, hn.symm⟩
    simp only [added, hc1, ↓reduceIte]
    by_cases hin : w ∈ ws
    · have hrep := hrep_iff.2 hin
      simp only [hrep, ↓reduceIte, Nat.add_sub_cancel]
      have hself := lookup_step_self w p.ppWordTable m s e hlen hek
      have hoth := fun k hk => lookup_step_other w k hk p.ppWordTable m s e hlen hek
      have hall : ∀ k, lookup (store_front (add_elem w p.ppWordTable m s) (str2hash w m s) e)
          m s k = lookup p.ppWordTable m s k := by
        intro k
        by_cases hk : k = w
        · subst hk; rw [hself, hold]
        · exact hoth k hk
      have hLw : ∀ k, linesWith k (done ++ [ws ++ [w]]) = linesWith k (done ++ [ws]) := by
        intro k
        by_cases hk : k = w
        · subst hk; rw [hL, hL0]; simp [hin]
        · exact hLk k hk
      refine { size := rfl, seed := rfl, sketch := rfl, len := ?_, cnt := ?_, num_le := ?_,
               num_inj := ?_, number_eq := ?_, sto_sound := ?_, sto_complete := ?_ }
      · show (store_front _ _ _).length = m
        rw [step_length]; exact h.len
      · intro k
        show Option.map Elem.count (lookup (store_front _ _ _) m s k) = _
        rw [hall, hLw]; exact h.cnt k
      · intro k e' he'
        change lookup (store_front _ _ _) m s k = some e' at he'
        rw [hall] at he'
        exact hnumle k e' he'
      · intro k k' a b ha hb hn
        change lookup (store_front _ _ _) m s k = some a at ha
        change lookup (store_front _ _ _) m s k' = some b at hb
        rw [hall] at ha hb
        exact h.num_inj k k' a b ha hb hn
      · show loc.number = _
        rw [distinctWordsOf_snoc]; simp only [hinfl, or_true, if_true, Nat.add_zero]; exact hnum
      · intro i h1 h2
        change i ≤ loc.distinctWords at h2
        show ∃ k ∈ ws ++ [w], ∃ e', lookup (store_front _ _ _) m s k = some e' ∧
          e'.number = p.wordNumStr i
        obtain ⟨k, hk, e', he', hn⟩ := hsound i h1 h2
        exact ⟨k, List.mem_append_left _ hk, e', by rw [hall]; exact he', hn⟩
      · intro k hk hne
        show ∃ i, 1 ≤ i ∧ i ≤ loc.distinctWords ∧ ∃ e',
          lookup (store_front _ _ _) m s k = some e' ∧ e'.number = p.wordNumStr i
        have hkws : k ∈ ws := by
          rcases List.mem_append.1 hk with hk1 | hk1
          · exact hk1
          · simp only [List.mem_singleton] at hk1; exact hk1 ▸ hin
        obtain ⟨i, h1, h2, e', he', hn⟩ := hcomplete k hkws hne
        exact ⟨i, h1, h2, e', by rw [hall]; exact he', hn⟩
    · have hrep : is_word_repeated p.wordNumStr e.number (loc.distinctWords + 1) = false := by
        rw [Bool.eq_false_iff]; exact fun hc => hin (hrep_iff.1 hc)
      simp only [hrep, Bool.false_eq_true, ↓reduceIte]
      have hself := lookup_step_self w p.ppWordTable m s
        { pKey := e.pKey, count := e.count + 1, number := e.number, pCluster := e.pCluster }
        hlen hek
      have hoth := fun k hk => lookup_step_other w k hk p.ppWordTable m s
        { pKey := e.pKey, count := e.count + 1, number := e.number, pCluster := e.pCluster }
        hlen hek
      have hnumsame : ∀ k a, lookup (store_front (add_elem w p.ppWordTable m s) (str2hash w m s)
          { pKey := e.pKey, count := e.count + 1, number := e.number, pCluster := e.pCluster })
          m s k = some a → ∃ a0, lookup p.ppWordTable m s k = some a0 ∧ a0.number = a.number := by
        intro k a ha
        by_cases hk : k = w
        · subst hk; rw [hself] at ha; cases ha; exact ⟨e, hold, rfl⟩
        · rw [hoth k hk] at ha; exact ⟨a, ha, rfl⟩
      refine { size := rfl, seed := rfl, sketch := rfl, len := ?_, cnt := ?_, num_le := ?_,
               num_inj := ?_, number_eq := ?_, sto_sound := ?_, sto_complete := ?_ }
      · show (store_front _ _ _).length = m
        rw [step_length]; exact h.len
      · intro k
        show Option.map Elem.count (lookup (store_front _ _ _) m s k) = _
        by_cases hk : k = w
        · subst hk
          have h1 := hL k; have h2 := hL0 k
          simp only [hin, if_false, or_true, if_true, true_or, false_or] at h1 h2
          rw [hself, h1]
          simp only [Option.map_some', hw, false_or]
          rw [hec, h2]; simp
        · rw [hoth k hk, hLk k hk]; exact h.cnt k
      · intro k a ha
        change lookup (store_front _ _ _) m s k = some a at ha
        show a.number ≤ loc.number
        obtain ⟨a0, ha0, hn⟩ := hnumsame k a ha
        rw [← hn]; exact hnumle k a0 ha0
      · intro k k' a b ha hb hn
        change lookup (store_front _ _ _) m s k = some a at ha
        change lookup (store_front _ _ _) m s k' = some b at hb
        obtain ⟨a0, ha0, hna⟩ := hnumsame k a ha
        obtain ⟨b0, hb0, hnb⟩ := hnumsame k' b hb
        exact h.num_inj k k' a0 b0 ha0 hb0 (by omega)
      · show loc.number = _
        rw [distinctWordsOf_snoc]; simp only [hinfl, or_true, if_true, Nat.add_zero]; exact hnum
      · intro i h1 h2
        change i ≤ loc.distinctWords + 1 at h2
        show ∃ k ∈ ws ++ [w], ∃ e', lookup (store_front _ _ _) m s k = some e' ∧
          e'.number = arrSet p.wordNumStr (loc.distinctWords + 1) e.number i
        by_cases hi : i = loc.distinctWords + 1
        · exact ⟨w, by simp, _, hself, by simp [arrSet, hi]⟩
        · obtain ⟨k, hk, e', he', hn⟩ := hsound i h1 (by omega)
          have hkw : k ≠ w := fun hc => hin (hc ▸ hk)
          refine ⟨k, List.mem_append_left _ hk, e', ?_, ?_⟩
          · rw [hoth k hkw]; exact he'
          · simp only [arrSet, hi, if_false]; exact hn
      · intro k hk hne
        show ∃ i, 1 ≤ i ∧ i ≤ loc.distinctWords + 1 ∧ ∃ e',
          lookup (store_front _ _ _) m s k = some e' ∧
          e'.number = arrSet p.wordNumStr (loc.distinctWords + 1) e.number i
        rcases List.mem_append.1 hk with hk1 | hk1
        · obtain ⟨i, h1, h2, e', he', hn⟩ := hcomplete k hk1 hne
          have hkw : k ≠ w := fun hc => hin (hc ▸ hk1)
          have hi : i ≠ loc.distinctWords + 1 := by omega
          refine ⟨i, h1, by omega, e', by rw [hoth k hkw]; exact he', ?_⟩
          simp only [arrSet, hi, if_false]; exact hn
        · simp only [List.mem_singleton] at hk1; subst hk1
          exact ⟨loc.distinctWords + 1, by omega, le_refl _, _, hself, by simp [arrSet]⟩

theorem create_vocabulary_words_inv {m s : Nat} (hm : 0 < m) (ws2 : List Key) :
    ∀ {st : Parameters × VocabularyLocals} {done : List (List Key)} {ws : List Key},
      VocabInv m s st done ws →
      VocabInv m s (ws2.foldl create_vocabulary_word st) done (ws ++ ws2) := by
  induction ws2 with
  | nil => intro st done ws h; simpa using h
  | cons w rest ih =>
    intro st done ws h
    have h1 := create_vocabulary_word_inv hm w h
    have h2 := ih h1
    simpa [List.foldl_cons, List.append_assoc] using h2

theorem linesWith_snoc_nil (k : Key) (L : List (List Key)) :
    linesWith k (L ++ [[]]) = linesWith k L := by
  rw [linesWith_snoc]; simp

theorem distinctWordsOf_snoc_nil (L : List (List Key)) :
    distinctWordsOf (L ++ [[]]) = distinctWordsOf L := by
  unfold distinctWordsOf; simp [List.flatten_append]

theorem VocabInv.close_line {m s : Nat} {st : Parameters × VocabularyLocals}
    {done : List (List Key)} {ws : List Key} (h : VocabInv m s st done ws) (c : Nat) :
    VocabInv m s (st.1, { number := st.2.number, distinctWords := 0, linecount := c })
      (done ++ [ws]) [] := by
  refine { size := h.size, seed := h.seed, sketch := h.sketch, len := h.len, cnt := ?_,
           num_le := h.num_le, num_inj := h.num_inj, number_eq := ?_, sto_sound := ?_,
           sto_complete := ?_ }
  · intro k
    rw [linesWith_snoc_nil]; exact h.cnt k
  · rw [distinctWordsOf_snoc_nil]; exact h.number_eq
  · intro i h1 h2
    change i ≤ 0 at h2
    omega
  · intro k hk; simp at hk

theorem create_vocabulary_line_inv {m s : Nat} (hm : 0 < m) {st : Parameters × VocabularyLocals}
    {done : List (List Key)} (l : List Key)
    (h : VocabInv m s (st.1, { st.2 with distinctWords := 0 }) done []) :
    VocabInv m s ((create_vocabulary_line st l).1,
      { (create_vocabulary_line st l).2 with distinctWords := 0 }) (done ++ [l]) [] := by
  have h1 := create_vocabulary_words_inv hm l h
  rw [List.nil_append] at h1
  exact h1.close_line _

theorem create_vocabulary_lines_inv {m s : Nat} (hm : 0 < m) (input : List (List Key)) :
    ∀ (st : Parameters × VocabularyLocals) (done : List (List Key)),
      VocabInv m s (st.1, { st.2 with distinctWords := 0 }) done [] →
      VocabInv m s ((input.foldl create_vocabulary_line st).1,
        { (input.foldl create_vocabulary_line st).2 with distinctWords := 0 })
        (done ++ input) [] := by
  induction input with
  | nil => intro st done h; simpa using h
  | cons l rest ih =>
    intro st done h
    have h1 := create_vocabulary_line_inv hm l h
    have h2 := ih _ _ h1
    simpa [List.foldl_cons, List.append_assoc] using h2

theorem lookup_replicate (n m s : Nat) (k : Key) :
    lookup (List.replicate n []) m s k = none := by
  unfold lookup
  have : (List.replicate n ([] : List Elem)).getD (str2hash k m s) [] = [] := by
    rw [List.getD_eq_getElem?_getD, List.getElem?_replicate]
    split <;> rfl
  rw [this]; rfl

theorem create_vocabulary_init_inv (pParam : Parameters) (c : Nat)
    (hsk : pParam.wordSketchSize = 0) :
    VocabInv pParam.wordTableSize pParam.wordTableSeed
      ({ pParam with ppWordTable := List.replicate pParam.wordTableSize [] },
       { number := 0, distinctWords := 0, linecount := c }) [] [] := by
  refine { size := rfl, seed := rfl, sketch := hsk, len := by simp, cnt := ?_,
           num_le := ?_, num_inj := ?_, number_eq := by simp [distinctWordsOf], sto_sound := ?_,
           sto_complete := ?_ }
  · intro k
    show Option.map Elem.count (lookup (List.replicate _ []) _ _ k) = _
    rw [lookup_replicate]
    simp [linesWith]
  · intro k e he
    change lookup (List.replicate _ []) _ _ k = some e at he
    rw [lookup_replicate] at he; cases he
  · intro k k' e e' he
    change lookup (List.replicate _ []) _ _ k = some e at he
    rw [lookup_replicate] at he; cases he
  · intro i h1 h2
    change i ≤ 0 at h2
    omega
  · intro k hk; simp at hk

/-- C1: with the word sketch disabled, after `create_vocabulary` the count
stored for a word is the number of input lines that contain the word (no record
exists for the empty word or for a word of no line), and the returned number is
the number of distinct non-empty words of the input. -/
theorem create_vocabulary_counts (pParam : Parameters) (input : List (List Key))
    (hsk : pParam.wordSketchSize = 0) (hsz : 0 < pParam.wordTableSize) :
    (∀ word : Key,
      (find_elem word (create_vocabulary pParam input).1.ppWordTable
          pParam.wordTableSize pParam.wordTableSeed).1.map Elem.count
        = if word = [] ∨ linesWith word input = 0 then none
          else some (linesWith word input)) ∧
    (create_vocabulary pParam input).2 = (distinctWordsOf input).length := by
  have h := create_vocabulary_lines_inv hsz input
    ({ pParam with ppWordTable := List.replicate pParam.wordTableSize [] },
       { number := 0, distinctWords := 0, linecount := 0 }) []
    (create_vocabulary_init_inv pParam 0 hsk)
  rw [List.nil_append] at h
  constructor
  · intro word
    rw [find_elem_fst]
    have := h.cnt word
    rw [linesWith_snoc_nil] at this
    exact this
  · have := h.number_eq
    rw [distinctWordsOf_snoc_nil] at this
    exact this

theorem create_vocabulary_counts_witness :
    (0 : Nat) = 0 ∧ 0 < 3 ∧
    (find_elem [65] (create_vocabulary { wordTableSize := 3 }
        [[[65], [66], [65]], [[66], [], [67]], [[65]]]).1.ppWordTable 3 0).1.map Elem.count
      = (if ([65] : Key) = [] ∨ linesWith [65] [[[65], [66], [65]], [[66], [], [67]], [[65]]] = 0
          then none
          else some (linesWith [65] [[[65], [66], [65]], [[66], [], [67]], [[65]]])) ∧
    (create_vocabulary { wordTableSize := 3 }
        [[[65], [66], [65]], [[66], [], [67]], [[65]]]).2
      = (distinctWordsOf [[[65], [66], [65]], [[66], [], [67]], [[65]]]).length :=
  ⟨rfl, by decide,
    (create_vocabulary_counts { wordTableSize := 3 }
      [[[65], [66], [65]], [[66], [], [67]], [[65]]] rfl (by decide)).1 [65],
    (create_vocabulary_counts { wordTableSize := 3 }
      [[[65], [66], [65]], [[66], [], [67]], [[65]]] rfl (by decide)).2⟩

/-! ## Frequent words: the sweep -/

theorem find_frequent_words_chain_spec (support : Nat) (chain : List Elem) :
    ∀ n, (find_frequent_words_chain support chain n).1.map Elem.entry
        = (chain.filter (fun e => decide (support ≤ e.count))).map Elem.entry ∧
      (find_frequent_words_chain support chain n).1.map Elem.number
        = List.range' (n + 1) (find_frequent_words_chain support chain n).1.length ∧
      (find_frequent_words_chain support chain n).2
        = n + (find_frequent_words_chain support chain n).1.length := by
  induction chain with
  | nil => intro n; simp [find_frequent_words_chain]
  | cons e rest ih =>
    intro n
    unfold find_frequent_words_chain
    by_cases h : e.count < support
    · have h2 : ¬ support ≤ e.count := by omega
      simp only [h, if_true, List.filter_cons, h2, decide_False]
      exact ih n
    · have h2 : support ≤ e.count := by omega
      obtain ⟨i1, i2, i3⟩ := ih (n + 1)
      simp only [h, if_false, List.filter_cons, h2, decide_True, List.map_cons, List.length_cons,
        List.range'_succ, if_true]
      refine ⟨?_, ?_, ?_⟩
      · rw [i1]; rfl
      · rw [i2]
      · rw [i3]; omega

theorem find_frequent_words_slots_spec (support : Nat) (table : Table) :
    ∀ n, (find_frequent_words_slots support table.length table n).1.map (List.map Elem.entry)
        = table.map (fun chain =>
            (chain.filter (fun e => decide (support ≤ e.count))).map Elem.entry) ∧
      (find_frequent_words_slots support table.length table n).1.flatten.map Elem.number
        = List.range' (n + 1)
            (find_frequent_words_slots support table.length table n).1.flatten.length ∧
      (find_frequent_words_slots support table.length table n).2
        = n + (find_frequent_words_slots support table.length table n).1.flatten.length := by
  induction table with
  | nil => intro n; simp [find_frequent_words_slots]
  | cons chain rest ih =>
    intro n
    obtain ⟨c1, c2, c3⟩ := find_frequent_words_chain_spec support chain n
    obtain ⟨i1, i2, i3⟩ := ih (find_frequent_words_chain support chain n).2
    simp only [List.length_cons, find_frequent_words_slots, List.map_cons, List.flatten_cons,
      List.map_append, List.length_append]
    refine ⟨?_, ?_, ?_⟩
    · rw [c1, i1]
    · rw [c2, i2, c3, Nat.add_right_comm, List.range'_append_1, Nat.add_comm _ (List.length _)]
    · rw [i3, c3]; omega

theorem find_frequent_words_sweep (pParam : Parameters)
    (hlen : pParam.ppWordTable.length = pParam.wordTableSize) :
    (find_frequent_words pParam).1.ppWordTable.map (List.map Elem.entry)
      = pParam.ppWordTable.map (fun chain =>
          (chain.filter (fun e => decide (pParam.support ≤ e.count))).map Elem.entry) ∧
    (find_frequent_words pParam).1.ppWordTable.flatten.map Elem.number
      = List.range' 1 (find_frequent_words pParam).2 ∧
    (find_frequent_words pParam).2 = (find_frequent_words pParam).1.ppWordTable.flatten.length := by
  obtain ⟨h1, h2, h3⟩ := find_frequent_words_slots_spec pParam.support pParam.ppWordTable 0
  rw [hlen] at h1 h2 h3
  simp only [Nat.zero_add] at h2 h3
  refine ⟨h1, ?_, h3⟩
  show _ = List.range' 1 (find_frequent_words_slots _ _ _ 0).2
  rw [h3]; exact h2

/-- C2: `find_frequent_words` keeps in every chain exactly the records with
`count >= support`, in their order and with key and count unchanged; read slot
by slot the retained records carry the numbers `1, 2, ..., F`, and `F`, the
number of retained records, is returned. -/
theorem find_frequent_words_dense (pParam : Parameters)
    (hlen : pParam.ppWordTable.length = pParam.wordTableSize) :
    (find_frequent_words pParam).1.ppWordTable.map (List.map Elem.entry)
      = pParam.ppWordTable.map (fun chain =>
          (chain.filter (fun e => decide (pParam.support ≤ e.count))).map Elem.entry) ∧
    (find_frequent_words pParam).1.ppWordTable.flatten.map Elem.number
      = List.range' 1 (find_frequent_words pParam).2 ∧
    (find_frequent_words pParam).2 = (find_frequent_words pParam).1.ppWordTable.flatten.length :=
  find_frequent_words_sweep pParam hlen

theorem find_frequent_words_dense_witness :
    ([[⟨[65], 3, 7, none⟩, ⟨[66], 1, 8, none⟩], [⟨[67], 2, 9, none⟩]] : Table).length = 2 ∧
    (find_frequent_words { support := 2, wordTableSize := 2, ppWordTable :=
        [[⟨[65], 3, 7, none⟩, ⟨[66], 1, 8, none⟩], [⟨[67], 2, 9, none⟩]] }).1.ppWordTable.flatten.map
        Elem.number
      = List.range' 1 (find_frequent_words { support := 2, wordTableSize := 2, ppWordTable :=
        [[⟨[65], 3, 7, none⟩, ⟨[66], 1, 8, none⟩], [⟨[67], 2, 9, none⟩]] }).2 :=
  ⟨rfl, (find_frequent_words_dense { support := 2, wordTableSize := 2, ppWordTable :=
        [[⟨[65], 3, 7, none⟩, ⟨[66], 1, 8, none⟩], [⟨[67], 2, 9, none⟩]] } rfl).2.1⟩


/-! ## The candidate pass: constants, gaps and keys -/

theorem getD_ne_nil_lt (t : Table) (i : Nat) (h : t.getD i [] ≠ []) : i < t.length := by
  by_contra hc
  apply h
  rw [List.getD_eq_getElem?_getD, List.getElem?_eq_none (by omega)]
  rfl

theorem chain_scan_some_ne_nil {k : Key} {c : List Elem} {x : Elem} {r : List Elem}
    (h : chain_scan k c = some (x, r)) : c ≠ [] := by
  intro hc; subst hc; simp [chain_scan] at h

theorem lookup_find_elem (k k' : Key) (t : Table) (m s : Nat) :
    lookup (find_elem k t m s).2 m s k' = lookup t m s k' := by
  simp only [find_elem]
  cases hs : chain_scan k (t.getD (str2hash k m s) []) with
  | none => rfl
  | some pr =>
    obtain ⟨x, r⟩ := pr
    have hlen := getD_ne_nil_lt t _ (chain_scan_some_ne_nil hs)
    simp only [lookup]
    by_cases hh : str2hash k m s = str2hash k' m s
    · rw [← hh, getD_set_same _ _ _ hlen]
      by_cases hk : k' = k
      · subst hk
        have h1 := chain_scan_fst k' (t.getD (str2hash k' m s) [])
        rw [hs] at h1
        rw [← h1, List.find?_cons]
        simp [chain_scan_key hs]
      · have hx : ¬ x.pKey = k' := by rw [chain_scan_key hs]; exact fun h => hk h.symm
        rw [List.find?_cons]
        simp only [hx, decide_False]
        exact chain_scan_others k' hk hs
    · rw [getD_set_other _ _ _ _ hh]

theorem isFrequent_congr {p q : Parameters} (hsize : q.wordTableSize = p.wordTableSize)
    (hseed : q.wordTableSeed = p.wordTableSeed)
    (h : ∀ w, lookup q.ppWordTable p.wordTableSize p.wordTableSeed w
      = lookup p.ppWordTable p.wordTableSize p.wordTableSeed w) (w : Key) :
    isFrequent q w = isFrequent p w := by
  unfold isFrequent
  rw [hsize, hseed, h]

theorem candidate_word_inv (p0 : Parameters) {st : Parameters × CandidateLocals}
    {pre : List Key} (w : Key) (h : ScanInv p0 st pre) :
    ScanInv p0 (candidate_word st w) (pre ++ [w]) := by
  obtain ⟨p, loc⟩ := st
  have hsize : p.wordTableSize = p0.wordTableSize := h.size
  have hseed : p.wordTableSeed = p0.wordTableSeed := h.seed
  have hsame := h.same
  have hconst : loc.constants = (pre.filter (isFrequent p0)).length := h.constants_eq
  have hkey : loc.key = keyOf (pre.filter (isFrequent p0)) := h.key_eq
  have htotal : (loc.constants : Int) + (∑ i in Finset.range loc.constants, loc.wildcard (i + 1))
    + loc.variables_ = pre.length := h.total
  have hfind : (find_elem w p.ppWordTable p0.wordTableSize p0.wordTableSeed).1
      = lookup p0.ppWordTable p0.wordTableSize p0.wordTableSeed w := by
    rw [find_elem_fst]; exact hsame w
  have hsame' : ∀ k, lookup (find_elem w p.ppWordTable p0.wordTableSize p0.wordTableSeed).2
      p0.wordTableSize p0.wordTableSeed k
      = lookup p0.ppWordTable p0.wordTableSize p0.wordTableSeed k := by
    intro k; rw [lookup_find_elem]; exact hsame k
  obtain ⟨gaps, cur, hg1, hg2, hg3, hg4, hg5, hg6⟩ := h.split
  by_cases hf : isFrequent p0 w = true
  · -- the word is the next constant
    have hw : w ≠ [] := by
      unfold isFrequent at hf; simp only [Bool.and_eq_true, decide_eq_true_eq] at hf; exact hf.1
    obtain ⟨e, he⟩ : ∃ e, lookup p0.ppWordTable p0.wordTableSize p0.wordTableSeed w = some e := by
      unfold isFrequent at hf; simp only [Bool.and_eq_true, decide_eq_true_eq] at hf
      exact Option.isSome_iff_exists.1 hf.2
    have hfilter : (pre ++ [w]).filter (isFrequent p0) = pre.filter (isFrequent p0) ++ [w] := by
      simp [List.filter_append, hf]
    have hres : candidate_word (p, loc) w =
        ({ p with ppWordTable :=
            (find_elem w p.ppWordTable p0.wordTableSize p0.wordTableSeed).2 },
         { loc with key := loc.key ++ w ++ [CLUSTERSEP],
                    constants := loc.constants + 1,
                    pStorage := arrSet loc.pStorage (loc.constants + 1) (some e),
                    wildcard := arrSet loc.wildcard (loc.constants + 1) loc.variables_,
                    variables_ := 0 }) := by
      simp only [candidate_word, hsize, hseed, hfind, he, hw, ne_eq, not_false_eq_true, if_true]
    rw [hres]
    refine { size := hsize, seed := hseed, same := hsame', constants_eq := ?_, key_eq := ?_,
             storage := ?_, total := ?_, split := ?_ }
    · show loc.constants + 1 = _
      rw [hfilter, List.length_append, hconst]; rfl
    · show loc.key ++ w ++ [CLUSTERSEP] = _
      rw [hfilter, hkey]; simp [keyOf, List.flatten_append]
    · intro i c hc
      rw [hfilter] at hc
      show arrSet loc.pStorage (loc.constants + 1) (some e) (i + 1) = _
      by_cases hi : i = loc.constants
      · subst hi
        rw [hconst, List.getElem?_append_right (le_refl _)] at hc
        simp only [Nat.sub_self, List.getElem?_cons_zero, Option.some.injEq] at hc
        subst hc
        simp [arrSet, he]
      · have hlt : i < (pre.filter (isFrequent p0)).length := by
          by_contra hge
          have hlen := (List.getElem?_eq_some.1 hc).1
          simp only [List.length_append, List.length_singleton] at hlen
          omega
        rw [List.getElem?_append_left hlt] at hc
        have : i + 1 ≠ loc.constants + 1 := by omega
        simp only [arrSet, this, if_false]
        exact h.storage i c hc
    · show ((loc.constants + 1 : Nat) : Int) +
        (∑ i in Finset.range (loc.constants + 1),
          arrSet loc.wildcard (loc.constants + 1) loc.variables_ (i + 1)) + 0
        = ((pre ++ [w]).length : Int)
      rw [Finset.sum_range_succ]
      have hsum : ∑ i in Finset.range loc.constants,
          arrSet loc.wildcard (loc.constants + 1) loc.variables_ (i + 1)
          = ∑ i in Finset.range loc.constants, loc.wildcard (i + 1) := by
        apply Finset.sum_congr rfl
        intro i hi
        have : i + 1 ≠ loc.constants + 1 := by
          have := Finset.mem_range.1 hi; omega
        simp only [arrSet, this, if_false]
      rw [hsum]
      simp only [arrSet, if_true, List.length_append, List.length_singleton]
      push_cast
      omega
    · rw [hfilter]
      refine ⟨gaps ++ [cur], [], ?_, ?_, ?_, ?_, ?_, ?_⟩
      · simp [hg1]
      · rw [List.zipWith_append _ _ _ _ _ hg1]
        simp only [List.zipWith_cons_cons, List.zipWith_nil_right, List.flatten_append,
          List.flatten_cons, List.flatten_nil, List.append_nil]
        rw [← List.append_assoc, ← hg2]
      · intro g hg
        rcases List.mem_append.1 hg with h1 | h1
        · exact hg3 g h1
        · simp only [List.mem_singleton] at h1; subst h1; exact hg4
      · intro x hx; simp at hx
      · rfl
      · intro i g hg
        show arrSet loc.wildcard (loc.constants + 1) loc.variables_ (i + 1) = _
        by_cases hi : i = loc.constants
        · subst hi
          rw [hconst, ← hg1, List.getElem?_append_right (le_refl _)] at hg
          simp only [Nat.sub_self, List.getElem?_cons_zero, Option.some.injEq] at hg
          subst hg
          simp only [arrSet, if_true]
          exact hg5
        · have hlt : i < gaps.length := by
            by_contra hge
            have hlen := (List.getElem?_eq_some.1 hg).1
            simp only [List.length_append, List.length_singleton] at hlen
            omega
          rw [List.getElem?_append_left hlt] at hg
          have : i + 1 ≠ loc.constants + 1 := by omega
          simp only [arrSet, this, if_false]
          exact hg6 i g hg
  · -- the word is a variable
    have hf' : isFrequent p0 w = false := by simpa using hf
    have hfilter : (pre ++ [w]).filter (isFrequent p0) = pre.filter (isFrequent p0) := by
      simp [List.filter_append, hf']
    have hres : candidate_word (p, loc) w =
        ({ p with ppWordTable :=
            (find_elem w p.ppWordTable p0.wordTableSize p0.wordTableSeed).2 },
         { loc with variables_ := loc.variables_ + 1 }) := by
      simp only [candidate_word, hsize, hseed, hfind]
      cases hl : lookup p0.ppWordTable p0.wordTableSize p0.wordTableSeed w with
      | none => rfl
      | some e =>
        have hw : w = [] := by
          by_contra hne
          have : isFrequent p0 w = true := by simp [isFrequent, hne, hl]
          rw [this] at hf'; cases hf'
        simp [hw]
    rw [hres]
    refine { size := hsize, seed := hseed, same := hsame', constants_eq := ?_,
             key_eq := ?_, storage := ?_, total := ?_, split := ?_ }
    · rw [hfilter]; exact hconst
    · rw [hfilter]; exact hkey
    · rw [hfilter]; exact h.storage
    · show (loc.constants : Int) + (∑ i in Finset.range loc.constants, loc.wildcard (i + 1))
        + (loc.variables_ + 1) = ((pre ++ [w]).length : Int)
      simp only [List.length_append, List.length_singleton]
      push_cast
      omega
    · rw [hfilter]
      refine ⟨gaps, cur ++ [w], hg1, ?_, hg3, ?_, ?_, hg6⟩
      · rw [← List.append_assoc, ← hg2]
      · intro x hx
        rcases List.mem_append.1 hx with h1 | h1
        · exact hg4 x h1
        · simp only [List.mem_singleton] at h1; subst h1; exact hf'
      · show loc.variables_ + 1 = _
        rw [hg5]; simp

theorem candidate_words_inv (p0 : Parameters) (ws : List Key) :
    ∀ {st : Parameters × CandidateLocals} {pre : List Key}, ScanInv p0 st pre →
      ScanInv p0 (ws.foldl candidate_word st) (pre ++ ws) := by
  induction ws with
  | nil => intro st pre h; simpa using h
  | cons w rest ih =>
    intro st pre h
    have h2 := ih (candidate_word_inv p0 w h)
    simpa [List.foldl_cons, List.append_assoc] using h2

theorem candidate_scan_init_inv (pParam : Parameters) (loc : CandidateLocals) :
    ScanInv pParam (pParam, { loc with key := [], constants := 0, variables_ := 0 }) [] := by
  refine { size := rfl, seed := rfl, same := fun _ => rfl, constants_eq := rfl, key_eq := rfl,
           storage := ?_, total := ?_, split := ?_ }
  · intro i c hc; simp at hc
  · simp
  · exact ⟨[], [], rfl, rfl, by simp, by simp, rfl, by simp⟩

theorem candidate_scan_inv (pParam : Parameters) (loc : CandidateLocals) (words : List Key) :
    ScanInv pParam (words.foldl candidate_word
      (pParam, { loc with key := [], constants := 0, variables_ := 0 })) words := by
  have := candidate_words_inv pParam words (candidate_scan_init_inv pParam loc)
  simpa using this

theorem candidate_scan_decomposition (pParam : Parameters) (loc : CandidateLocals)
    (words : List Key) :
    (candidate_scan pParam loc words).2.constants = (words.filter (isFrequent pParam)).length ∧
    (∀ i c, (words.filter (isFrequent pParam))[i]? = some c →
      ∃ e, (candidate_scan pParam loc words).2.pStorage (i + 1) = some e ∧ e.pKey = c ∧
        lookup pParam.ppWordTable pParam.wordTableSize pParam.wordTableSeed c = some e) ∧
    (∃ gaps : List (List Key), ∃ tail : List Key,
      gaps.length = (words.filter (isFrequent pParam)).length ∧
      words = (List.zipWith (fun g c => g ++ [c]) gaps
        (words.filter (isFrequent pParam))).flatten ++ tail ∧
      (∀ g ∈ gaps, ∀ w ∈ g, isFrequent pParam w = false) ∧
      (∀ w ∈ tail, isFrequent pParam w = false) ∧
      (∀ i g, gaps[i]? = some g →
        (candidate_scan pParam loc words).2.wildcard (i + 1) = g.length) ∧
      (candidate_scan pParam loc words).2.wildcard 0 = tail.length) ∧
    ((candidate_scan pParam loc words).2.constants : Int)
      + (∑ i in Finset.range ((candidate_scan pParam loc words).2.constants + 1),
          (candidate_scan pParam loc words).2.wildcard i) = words.length := by
  have h := candidate_scan_inv pParam loc words
  obtain ⟨gaps, cur, hg1, hg2, hg3, hg4, hg5, hg6⟩ := h.split
  refine ⟨h.constants_eq, ?_, ⟨gaps, cur, hg1, hg2, hg3, hg4, ?_, ?_⟩, ?_⟩
  · intro i c hc
    have h1 := h.storage i c hc
    have hfreq : isFrequent pParam c = true := by
      have : c ∈ words.filter (isFrequent pParam) := List.mem_iff_getElem?.2 ⟨i, hc⟩
      exact (List.mem_filter.1 this).2
    unfold isFrequent at hfreq
    simp only [Bool.and_eq_true, decide_eq_true_eq] at hfreq
    obtain ⟨e, he⟩ := Option.isSome_iff_exists.1 hfreq.2
    refine ⟨e, ?_, lookup_key he, he⟩
    simp only [candidate_scan, arrSet, Nat.add_one_ne_zero, if_false]
    rw [← he]; exact h1
  · intro i g hg
    simp only [candidate_scan, arrSet, Nat.add_one_ne_zero, if_false]
    exact hg6 i g hg
  · simp only [candidate_scan, arrSet, if_true]
    exact hg5
  · have ht := h.total
    simp only [candidate_scan]
    rw [Finset.sum_range_succ']
    simp only [arrSet, Nat.add_one_ne_zero, if_false, if_true]
    rw [← ht]; ring

/-- C3: after the scan of a line the constants are the frequent words of the
line in line order (`pStorage[i]` is the word-table record of the i-th one), the
line is `gap_1, W_1, ..., gap_k, W_k, tail` with only non-frequent words in the
gaps and the tail, `wildcard[i]` is the length of `gap_i`, `wildcard[0]` the
length of the tail, and `k` plus the `k + 1` gap counts is the number of words
of the line. -/
theorem candidate_scan_constants_gaps (pParam : Parameters) (loc : CandidateLocals)
    (words : List Key) :
    (candidate_scan pParam loc words).2.constants = (words.filter (isFrequent pParam)).length ∧
    (∀ i c, (words.filter (isFrequent pParam))[i]? = some c →
      ∃ e, (candidate_scan pParam loc words).2.pStorage (i + 1) = some e ∧ e.pKey = c ∧
        lookup pParam.ppWordTable pParam.wordTableSize pParam.wordTableSeed c = some e) ∧
    (∃ gaps : List (List Key), ∃ tail : List Key,
      gaps.length = (words.filter (isFrequent pParam)).length ∧
      words = (List.zipWith (fun g c => g ++ [c]) gaps
        (words.filter (isFrequent pParam))).flatten ++ tail ∧
      (∀ g ∈ gaps, ∀ w ∈ g, isFrequent pParam w = false) ∧
      (∀ w ∈ tail, isFrequent pParam w = false) ∧
      (∀ i g, gaps[i]? = some g →
        (candidate_scan pParam loc words).2.wildcard (i + 1) = g.length) ∧
      (candidate_scan pParam loc words).2.wildcard 0 = tail.length) ∧
    ((candidate_scan pParam loc words).2.constants : Int)
      + (∑ i in Finset.range ((candidate_scan pParam loc words).2.constants + 1),
          (candidate_scan pParam loc words).2.wildcard i) = words.length :=
  candidate_scan_decomposition pParam loc words

theorem candidate_scan_key (pParam : Parameters) (loc : CandidateLocals) (words : List Key) :
    (candidate_scan pParam loc words).2.key = keyOf (words.filter (isFrequent pParam)) :=
  (candidate_scan_inv pParam loc words).key_eq

theorem append_sep_inj : ∀ (x y ra rb : Key), CLUSTERSEP ∉ x → CLUSTERSEP ∉ y →
    x ++ CLUSTERSEP :: ra = y ++ CLUSTERSEP :: rb → x = y ∧ ra = rb := by
  intro x
  induction x with
  | nil =>
    intro y ra rb _ hy h
    cases y with
    | nil => simpa using h
    | cons c y' =>
      simp only [List.nil_append, List.cons_append, List.cons.injEq] at h
      exact absurd (h.1 ▸ List.mem_cons_self _ _) hy
  | cons a x' ih =>
    intro y ra rb hx hy h
    cases y with
    | nil =>
      simp only [List.nil_append, List.cons_append, List.cons.injEq] at h
      exact absurd (h.1 ▸ List.mem_cons_self _ _) hx
    | cons c y' =>
      simp only [List.cons_append, List.cons.injEq] at h
      have hx' : CLUSTERSEP ∉ x' := fun hc => hx (List.mem_cons_of_mem _ hc)
      have hy' : CLUSTERSEP ∉ y' := fun hc => hy (List.mem_cons_of_mem _ hc)
      obtain ⟨h1, h2⟩ := ih y' ra rb hx' hy' h.2
      exact ⟨by rw [h.1, h1], h2⟩

theorem keyOf_cons (x : Key) (a : List Key) : keyOf (x :: a) = x ++ CLUSTERSEP :: keyOf a := by
  simp [keyOf]

theorem keyOf_injective : ∀ (a b : List Key), (∀ w ∈ a, CLUSTERSEP ∉ w) →
    (∀ w ∈ b, CLUSTERSEP ∉ w) → keyOf a = keyOf b → a = b := by
  intro a
  induction a with
  | nil =>
    intro b _ _ h
    cases b with
    | nil => rfl
    | cons y b' =>
      rw [keyOf_cons] at h
      have : (keyOf ([] : List Key)).length = (y ++ CLUSTERSEP :: keyOf b').length := by rw [h]
      simp only [keyOf, List.map_nil, List.flatten_nil, List.length_nil, List.length_append,
        List.length_cons] at this
      omega
  | cons x a' ih =>
    intro b ha hb h
    cases b with
    | nil =>
      rw [keyOf_cons] at h
      have : (x ++ CLUSTERSEP :: keyOf a').length = (keyOf ([] : List Key)).length := by rw [h]
      simp only [keyOf, List.map_nil, List.flatten_nil, List.length_nil, List.length_append,
        List.length_cons] at this
      omega
    | cons y b' =>
      rw [keyOf_cons, keyOf_cons] at h
      obtain ⟨h1, h2⟩ := append_sep_inj x y _ _ (ha x (List.mem_cons_self _ _))
        (hb y (List.mem_cons_self _ _)) h
      rw [h1, ih b' (fun w hw => ha w (List.mem_cons_of_mem _ hw))
        (fun w hw => hb w (List.mem_cons_of_mem _ hw)) h2]

/-- C4: for two lines whose words contain no separator byte, scanned against
word tables with the same records, the candidate keys are equal if and only if
the lines have the same sequence of frequent words. -/
theorem candidate_key_eq_iff (p1 p2 : Parameters) (loc1 loc2 : CandidateLocals)
    (line1 line2 : List Key)
    (hsame : ∀ w, isFrequent p2 w = isFrequent p1 w)
    (h1 : ∀ w ∈ line1, CLUSTERSEP ∉ w) (h2 : ∀ w ∈ line2, CLUSTERSEP ∉ w) :
    (candidate_scan p1 loc1 line1).2.key = (candidate_scan p2 loc2 line2).2.key ↔
      line1.filter (isFrequent p1) = line2.filter (isFrequent p1) := by
  rw [candidate_scan_key, candidate_scan_key]
  have hf : line2.filter (isFrequent p2) = line2.filter (isFrequent p1) := by
    congr 1; funext w; exact hsame w
  rw [hf]
  constructor
  · intro h
    exact keyOf_injective _ _ (fun w hw => h1 w (List.mem_filter.1 hw).1)
      (fun w hw => h2 w (List.mem_filter.1 hw).1) h
  · intro h; rw [h]

/-! ## Gaps of a line -/

theorem gapRuns_nonfreq (freq : Key → Bool) (g : List Key) (hg : ∀ w ∈ g, freq w = false) :
    gapRuns freq g = [g.length] := by
  induction g with
  | nil => rfl
  | cons w rest ih =>
    have hw : freq w = false := hg w (List.mem_cons_self _ _)
    rw [gapRuns, ih (fun x hx => hg x (List.mem_cons_of_mem _ hx))]
    simp [hw]

theorem gapRuns_gap_cons (freq : Key → Bool) (g : List Key) (hg : ∀ w ∈ g, freq w = false)
    (c : Key) (hc : freq c = true) (rest : List Key) :
    gapRuns freq (g ++ c :: rest) = g.length :: gapRuns freq rest := by
  induction g with
  | nil => simp [gapRuns, hc]
  | cons w g' ih =>
    have hw : freq w = false := hg w (List.mem_cons_self _ _)
    rw [List.cons_append, gapRuns, ih (fun x hx => hg x (List.mem_cons_of_mem _ hx))]
    simp [hw]

theorem gapRuns_split (freq : Key → Bool) :
    ∀ (gaps : List (List Key)) (F : List Key) (tail : List Key), gaps.length = F.length →
      (∀ g ∈ gaps, ∀ w ∈ g, freq w = false) → (∀ c ∈ F, freq c = true) →
      (∀ w ∈ tail, freq w = false) →
      gapRuns freq ((List.zipWith (fun g c => g ++ [c]) gaps F).flatten ++ tail)
        = gaps.map List.length ++ [tail.length] := by
  intro gaps
  induction gaps with
  | nil =>
    intro F tail hlen _ _ ht
    cases F with
    | nil => simpa using gapRuns_nonfreq freq tail ht
    | cons c F' => simp at hlen
  | cons g gaps' ih =>
    intro F tail hlen hg hF ht
    cases F with
    | nil => simp at hlen
    | cons c F' =>
      simp only [List.zipWith_cons_cons, List.flatten_cons, List.append_assoc,
        List.singleton_append, List.map_cons, List.cons_append]
      rw [gapRuns_gap_cons freq g (hg g (List.mem_cons_self _ _)) c (hF c (List.mem_cons_self _ _))]
      rw [List.nil_append, ih F' tail (by simpa using hlen)
        (fun x hx => hg x (List.mem_cons_of_mem _ hx))
        (fun x hx => hF x (List.mem_cons_of_mem _ hx)) ht]

/-- The gaps recorded by the scan of a line are the gaps of the line. -/
theorem candidate_scan_wildcard (pParam : Parameters) (loc : CandidateLocals)
    (words : List Key) (i : Nat) (hi : i ≤ (constantsOf pParam words).length) :
    (candidate_scan pParam loc words).2.wildcard i = gapAt pParam words i := by
  obtain ⟨-, -, ⟨gaps, tail, hg1, hg2, hg3, hg4, hg5, hg6⟩, -⟩ :=
    candidate_scan_decomposition pParam loc words
  have hF : ∀ c ∈ words.filter (isFrequent pParam), isFrequent pParam c = true :=
    fun c hc => (List.mem_filter.1 hc).2
  have hruns := gapRuns_split (isFrequent pParam) gaps _ tail hg1 hg3 hF hg4
  rw [← hg2] at hruns
  unfold gapAt
  by_cases h0 : i = 0
  · subst h0
    simp only [if_true, hruns, hg6]
    simp
  · simp only [h0, if_false, hruns]
    obtain ⟨j, rfl⟩ : ∃ j, i = j + 1 := ⟨i - 1, by omega⟩
    have hj : j < gaps.length := by
      rw [hg1]; unfold constantsOf at hi; omega
    rw [hg5 j gaps[j] (List.getElem?_eq_getElem hj)]
    simp only [Nat.add_sub_cancel]
    rw [List.getD_eq_getElem?_getD, List.getElem?_append_left (by simpa using hj)]
    simp [hj]

/-! ## Cluster records: initialisation and widening of the gap bounds -/

theorem foldl_pairs_untouched (w : Nat → Int) (L : List Nat) :
    ∀ (a : Nat → Int) (k : Nat), (∀ i ∈ L, k ≠ i * 2 ∧ k ≠ i * 2 + 1) →
      (L.foldl (fun a i => arrSet (arrSet a (i * 2) (w i)) (i * 2 + 1) (w i)) a) k = a k := by
  induction L with
  | nil => intro a k _; rfl
  | cons i L' ih =>
    intro a k h
    rw [List.foldl_cons, ih _ k (fun x hx => h x (List.mem_cons_of_mem _ hx))]
    have := h i (List.mem_cons_self _ _)
    simp [arrSet, this.1, this.2]

theorem foldl_pairs_set (w : Nat → Int) (L : List Nat) :
    ∀ (a : Nat → Int) (j : Nat), j ∈ L →
      (L.foldl (fun a i => arrSet (arrSet a (i * 2) (w i)) (i * 2 + 1) (w i)) a) (j * 2) = w j ∧
      (L.foldl (fun a i => arrSet (arrSet a (i * 2) (w i)) (i * 2 + 1) (w i)) a) (j * 2 + 1)
        = w j := by
  induction L with
  | nil => intro a j hj; simp at hj
  | cons i L' ih =>
    intro a j hj
    rw [List.foldl_cons]
    by_cases hin : j ∈ L'
    · exact ih _ j hin
    · have hji : j = i := by
        rcases List.mem_cons.1 hj with h | h
        · exact h
        · exact absurd h hin
      subst hji
      constructor
      · rw [foldl_pairs_untouched w L' _ _ (fun x hx => by
          have : x ≠ j := fun h => hin (h ▸ hx)
          constructor <;> omega)]
        simp [arrSet]
      · rw [foldl_pairs_untouched w L' _ _ (fun x hx => by
          have : x ≠ j := fun h => hin (h ▸ hx)
          constructor <;> omega)]
        simp [arrSet]

theorem foldl_storage_set (pStorage : Nat → Option Elem) (L : List Nat) :
    ∀ (a : Nat → Option Elem) (j : Nat), j ∈ L →
      (L.foldl (fun a i => arrSet a i (pStorage i)) a) j = pStorage j := by
  induction L with
  | nil => intro a j hj; simp at hj
  | cons i L' ih =>
    intro a j hj
    rw [List.foldl_cons]
    by_cases hin : j ∈ L'
    · exact ih _ j hin
    · have hji : j = i := by
        rcases List.mem_cons.1 hj with h | h
        · exact h
        · exact absurd h hin
      subst hji
      have hun : ∀ (L : List Nat) (a : Nat → Option Elem), j ∉ L →
          (L.foldl (fun a i => arrSet a i (pStorage i)) a) j = a j := by
        intro L
        induction L with
        | nil => intro a _; rfl
        | cons x L'' ih2 =>
          intro a hx
          rw [List.foldl_cons, ih2 _ (fun h => hx (List.mem_cons_of_mem _ h))]
          have : j ≠ x := fun h => hx (h ▸ List.mem_cons_self _ _)
          simp [arrSet, this]
      rw [hun L' _ hin]
      simp [arrSet]

theorem adjust_wildcard_fold (w fw : Nat → Int) (n : Nat) :
    (∀ j, j < n → fw (j * 2) ≤ fw (j * 2 + 1) →
      ((List.range n).foldl (adjust_wildcard w) fw) (j * 2) ≤ fw (j * 2) ∧
      ((List.range n).foldl (adjust_wildcard w) fw) (j * 2) ≤ w j ∧
      (((List.range n).foldl (adjust_wildcard w) fw) (j * 2) = fw (j * 2) ∨
        ((List.range n).foldl (adjust_wildcard w) fw) (j * 2) = w j) ∧
      fw (j * 2 + 1) ≤ ((List.range n).foldl (adjust_wildcard w) fw) (j * 2 + 1) ∧
      w j ≤ ((List.range n).foldl (adjust_wildcard w) fw) (j * 2 + 1) ∧
      (((List.range n).foldl (adjust_wildcard w) fw) (j * 2 + 1) = fw (j * 2 + 1) ∨
        ((List.range n).foldl (adjust_wildcard w) fw) (j * 2 + 1) = w j)) ∧
    (∀ k, n * 2 ≤ k → ((List.range n).foldl (adjust_wildcard w) fw) k = fw k) := by
  induction n with
  | zero =>
    constructor
    · intro j hj; omega
    · intro k _; rfl
  | succ n ih =>
    obtain ⟨ih1, ih2⟩ := ih
    rw [List.range_succ, List.foldl_append, List.foldl_cons, List.foldl_nil]
    generalize (List.range n).foldl (adjust_wildcard w) fw = r at ih1 ih2 ⊢
    have e0 := ih2 (n * 2) (le_refl _)
    have e1 := ih2 (n * 2 + 1) (by omega)
    have hun : ∀ k, k ≠ n * 2 → k ≠ n * 2 + 1 → adjust_wildcard w r n k = r k := by
      intro k h1 h2
      unfold adjust_wildcard
      split
      · simp [arrSet, h1]
      · split
        · simp [arrSet, h2]
        · rfl
    constructor
    · intro j hj hle
      by_cases hjn : j = n
      · subst hjn
        unfold adjust_wildcard
        rw [e0, e1]
        by_cases c1 : w j < fw (j * 2)
        · simp only [c1, if_true, arrSet, if_true]
          have : j * 2 + 1 ≠ j * 2 := by omega
          simp only [this, if_false, e1]
          refine ⟨?_, ?_, ?_, ?_, ?_, ?_⟩ <;> first | omega | simp
        · simp only [c1, if_false]
          by_cases c2 : w j > fw (j * 2 + 1)
          · simp only [c2, if_true, arrSet, if_true]
            have : j * 2 ≠ j * 2 + 1 := by omega
            simp only [this, if_false, e0]
            refine ⟨?_, ?_, ?_, ?_, ?_, ?_⟩ <;> first | omega | simp
          · simp only [c2, if_false, e0, e1]
            refine ⟨?_, ?_, ?_, ?_, ?_, ?_⟩ <;> first | omega | simp
      · have hlt : j < n := by omega
        rw [hun (j * 2) (by omega) (by omega), hun (j * 2 + 1) (by omega) (by omega)]
        exact ih1 j hlt hle
    · intro k hk
      rw [hun k (by omega) (by omega)]
      exact ih2 k (by omega)

/-! ## The candidate pass: counts and gap bounds -/

theorem front_store_front (t : Table) (h : Nat) (e e0 : Elem) (hlen : h < t.length)
    (hf : front t h = some e0) : front (store_front t h e) h = some e := by
  unfold front at hf
  unfold front store_front
  cases hc : t.getD h [] with
  | nil => exfalso; rw [hc] at hf; simp at hf
  | cons x rest => simp only [getD_set_same _ _ _ hlen, List.head?_cons]

theorem getD_append_length (l : List Cluster) (c d : Cluster) :
    (l ++ [c]).getD l.length d = c := by
  simp [List.getD_eq_getElem?_getD]

theorem set_append_length (l : List Cluster) (c c' : Cluster) :
    (l ++ [c]).set l.length c' = l ++ [c'] := by
  simp [List.set_append]

theorem create_fullWildcard (w : Nat → Int) (n : Nat) (j : Nat) (hj : j ≤ n) :
    (arrSet (arrSet ((List.range' 1 n).foldl
        (fun a i => arrSet (arrSet a (i * 2) (w i)) (i * 2 + 1) (w i)) (fun _ => 0))
        0 (w 0)) 1 (w 0)) (j * 2) = w j ∧
    (arrSet (arrSet ((List.range' 1 n).foldl
        (fun a i => arrSet (arrSet a (i * 2) (w i)) (i * 2 + 1) (w i)) (fun _ => 0))
        0 (w 0)) 1 (w 0)) (j * 2 + 1) = w j := by
  by_cases h0 : j = 0
  · subst h0; simp [arrSet]
  · have hmem : j ∈ List.range' 1 n := by
      rw [List.mem_range'_1]; omega
    obtain ⟨h1, h2⟩ := foldl_pairs_set w (List.range' 1 n) (fun _ => 0) j hmem
    have a1 : j * 2 ≠ 1 := by omega
    have a2 : j * 2 ≠ 0 := by omega
    have a3 : j * 2 + 1 ≠ 1 := by omega
    have a4 : j * 2 + 1 ≠ 0 := by omega
    simp only [arrSet, a1, a2, a3, a4, if_false]
    exact ⟨h1, h2⟩

theorem adjust_same (w fw : Nat → Int) (n : Nat)
    (h : ∀ j, j ≤ n → fw (j * 2) = w j ∧ fw (j * 2 + 1) = w j) (j : Nat) (hj : j ≤ n) :
    ((List.range (n + 1)).foldl (adjust_wildcard w) fw) (j * 2) = w j ∧
    ((List.range (n + 1)).foldl (adjust_wildcard w) fw) (j * 2 + 1) = w j := by
  obtain ⟨h1, h2⟩ := h j hj
  obtain ⟨-, -, a3, -, -, a6⟩ :=
    (adjust_wildcard_fold w fw (n + 1)).1 j (by omega) (by rw [h1, h2])
  constructor
  · rcases a3 with a | a
    · rw [a, h1]
    · exact a
  · rcases a6 with a | a
    · rw [a, h2]
    · exact a

theorem put_cluster_new (p : Parameters) (loc : CandidateLocals) (cc : Nat) (m s : Nat)
    (hm : 0 < m) (hsize : p.clusterTableSize = m) (hseed : p.clusterTableSeed = s)
    (hlen : p.ppClusterTable.length = m)
    (hnone : lookup p.ppClusterTable m s loc.key = none) :
    ∃ c1 : Cluster,
      (put_cluster p loc cc).1.ppClusterTable =
        store_front (add_elem loc.key p.ppClusterTable m s) (str2hash loc.key m s)
          { pKey := loc.key, count := 1, number := 0, pCluster := some p.clusters.length } ∧
      (put_cluster p loc cc).1.clusters = p.clusters ++ [c1] ∧
      (put_cluster p loc cc).1.clusterTableSize = m ∧
      (put_cluster p loc cc).1.clusterTableSeed = s ∧
      (put_cluster p loc cc).1.clusterSketchSize = p.clusterSketchSize ∧
      c1.count = 1 ∧ c1.constants = loc.constants ∧ c1.pElem = loc.key ∧
      (∀ j, 1 ≤ j → j ≤ loc.constants → c1.ppWord j = loc.pStorage j) ∧
      (∀ j, j ≤ loc.constants → c1.fullWildcard (j * 2) = loc.wildcard j ∧
        c1.fullWildcard (j * 2 + 1) = loc.wildcard j) := by
  have hh : str2hash loc.key m s < p.ppClusterTable.length := by
    rw [hlen]; exact str2hash_lt _ _ _ hm
  have hh1 : str2hash loc.key m s < (add_elem loc.key p.ppClusterTable m s).length := by
    rw [add_elem_length]; exact hh
  have hf := front_add_elem loc.key p.ppClusterTable m s hh
  rw [hnone] at hf
  simp only [added] at hf
  have hf2 := front_store_front (add_elem loc.key p.ppClusterTable m s) (str2hash loc.key m s)
    { pKey := loc.key, count := 1, number := 0, pCluster := some p.clusters.length } _ hh1 hf
  simp only [put_cluster, hsize, hseed, hf, if_true, create_cluster_instance, hf2,
    adjust_cluster_instance, Parameters.cluster, Parameters.setCluster, getD_append_length,
    set_append_length]
  refine ⟨_, trivial, rfl, trivial, trivial, trivial, rfl, rfl, rfl, ?_, ?_⟩
  · intro j h1 h2
    exact foldl_storage_set loc.pStorage (List.range' 1 loc.constants) _ j
      (by rw [List.mem_range'_1]; omega)
  · intro j hj
    exact adjust_same loc.wildcard _ loc.constants
      (fun i hi => create_fullWildcard loc.wildcard loc.constants i hi) j hj

theorem put_cluster_old (p : Parameters) (loc : CandidateLocals) (cc : Nat) (m s : Nat)
    (hm : 0 < m) (hsize : p.clusterTableSize = m) (hseed : p.clusterTableSeed = s)
    (hlen : p.ppClusterTable.length = m) (e : Elem) (ptr : Nat) (c : Cluster)
    (hsome : lookup p.ppClusterTable m s loc.key = some e) (hcount : 1 ≤ e.count)
    (hptr : e.pCluster = some ptr) (hc : p.clusters[ptr]? = some c) :
    (put_cluster p loc cc).1.ppClusterTable = add_elem loc.key p.ppClusterTable m s ∧
    (put_cluster p loc cc).1.clusters = p.clusters.set ptr
      { c with count := c.count + 1,
               fullWildcard := (List.range (loc.constants + 1)).foldl
                 (adjust_wildcard loc.wildcard) c.fullWildcard } ∧
    (put_cluster p loc cc).1.clusterTableSize = m ∧
    (put_cluster p loc cc).1.clusterTableSeed = s ∧
    (put_cluster p loc cc).1.clusterSketchSize = p.clusterSketchSize := by
  have hh : str2hash loc.key m s < p.ppClusterTable.length := by
    rw [hlen]; exact str2hash_lt _ _ _ hm
  have hf := front_add_elem loc.key p.ppClusterTable m s hh
  rw [hsome] at hf
  simp only [added] at hf
  have hne : ¬ (e.count + 1 = 1) := by omega
  have hget : p.clusters.getD ptr {} = c := by
    rw [List.getD_eq_getElem?_getD, hc]; rfl
  simp only [put_cluster, hsize, hseed, hf, hne, if_false, hptr,
    adjust_cluster_instance, Parameters.cluster, Parameters.setCluster, hget]
  exact ⟨trivial, trivial, trivial, trivial, trivial⟩

theorem linesOf_snoc (p0 : Parameters) (S : List Key) (done : List (List Key)) (l : List Key) :
    linesOf p0 S (done ++ [l]) =
      linesOf p0 S done ++ if constantsOf p0 l = S then [l] else [] := by
  unfold linesOf
  rw [List.filter_append]
  by_cases h : constantsOf p0 l = S <;> simp [List.filter_cons, h]

theorem put_cluster_inv (p0 p : Parameters) (m s : Nat) (hm : 0 < m) (done : List (List Key))
    (l : List Key) (loc : CandidateLocals) (cc : Nat) (hinv : CandInv p0 p m s done)
    (hS : constantsOf p0 l ≠ []) (hnl : ∀ w ∈ l, CLUSTERSEP ∉ w)
    (hkey : loc.key = keyOf (constantsOf p0 l))
    (hconst : loc.constants = (constantsOf p0 l).length)
    (hwild : ∀ j, j ≤ (constantsOf p0 l).length → loc.wildcard j = gapAt p0 l j)
    (hsto : ∀ i w, (constantsOf p0 l)[i]? = some w →
      ∃ e, loc.pStorage (i + 1) = some e ∧ e.pKey = w) :
    CandInv p0 (put_cluster p loc cc).1 m s (done ++ [l]) := by
  have hSnl : ∀ w ∈ constantsOf p0 l, CLUSTERSEP ∉ w :=
    fun w hw => hnl w (List.mem_filter.1 hw).1
  have hKinj : ∀ S', (∀ w ∈ S', CLUSTERSEP ∉ w) → keyOf S' = loc.key →
      S' = constantsOf p0 l := by
    intro S' h1 h2
    rw [hkey] at h2
    exact keyOf_injective _ _ h1 hSnl h2
  have hh : str2hash loc.key m s < p.ppClusterTable.length := by
    rw [hinv.len]; exact str2hash_lt _ _ _ hm
  have hlines_ne : ∀ S', S' ≠ constantsOf p0 l →
      linesOf p0 S' (done ++ [l]) = linesOf p0 S' done := by
    intro S' hne
    rw [linesOf_snoc]
    have : ¬ constantsOf p0 l = S' := fun h => hne h.symm
    simp [this]
  have hlines_eq : linesOf p0 (constantsOf p0 l) (done ++ [l]) =
      linesOf p0 (constantsOf p0 l) done ++ [l] := by
    rw [linesOf_snoc]; simp
  by_cases hLs : linesOf p0 (constantsOf p0 l) done = []
  · -- a new candidate
    have hnone : lookup p.ppClusterTable m s loc.key = none := by
      rw [hkey]; exact hinv.absent _ hS hSnl hLs
    obtain ⟨c1, r1, r2, r3, r4, r5, r6, r7, r8, r9, r10⟩ :=
      put_cluster_new p loc cc m s hm hinv.csize hinv.cseed hinv.len hnone
    have hself := lookup_step_self loc.key p.ppClusterTable m s
      { pKey := loc.key, count := 1, number := 0, pCluster := some p.clusters.length } hh rfl
    have hoth := fun k hk => lookup_step_other loc.key k hk p.ppClusterTable m s
      { pKey := loc.key, count := 1, number := 0, pCluster := some p.clusters.length } hh rfl
    rw [← r1] at hself hoth
    refine { csize := r3, cseed := r4, csketch := by rw [r5]; exact hinv.csketch, len := ?_,
             bound := ?_, inj := ?_, absent := ?_, present := ?_, keys := ?_ }
    rotate_right
    · intro K e he
      by_cases hK : K = loc.key
      · exact ⟨constantsOf p0 l, hS, by rw [hlines_eq]; simp, by rw [hK, hkey]⟩
      · rw [hoth K hK] at he
        obtain ⟨S', a1, a2, a3⟩ := hinv.keys K e he
        refine ⟨S', a1, ?_, a3⟩
        rw [linesOf_snoc]
        intro hc
        exact a2 (List.append_eq_nil.1 hc).1
    · rw [r1, step_length]; exact hinv.len
    · intro K e ptr he hp
      rw [r2, List.length_append, List.length_singleton]
      by_cases hK : K = loc.key
      · subst hK; rw [hself] at he; cases he
        simp only [Option.some.injEq] at hp; omega
      · rw [hoth K hK] at he
        have := hinv.bound K e ptr he hp; omega
    · intro K K' e e' ptr he he' hp hp'
      by_cases hK : K = loc.key <;> by_cases hK' : K' = loc.key
      · rw [hK, hK']
      · exfalso
        subst hK; rw [hself] at he; cases he
        rw [hoth K' hK'] at he'
        have := hinv.bound K' e' ptr he' hp'
        simp only [Option.some.injEq] at hp; omega
      · exfalso
        subst hK'; rw [hself] at he'; cases he'
        rw [hoth K hK] at he
        have := hinv.bound K e ptr he hp
        simp only [Option.some.injEq] at hp'; omega
      · rw [hoth K hK] at he; rw [hoth K' hK'] at he'
        exact hinv.inj K K' e e' ptr he he' hp hp'
    · intro S' hS' hnl' hemp
      have hne : S' ≠ constantsOf p0 l := by
        intro h; subst h; rw [hlines_eq] at hemp; simp at hemp
      rw [hlines_ne S' hne] at hemp
      have hk : keyOf S' ≠ loc.key := fun h => hne (hKinj S' hnl' h)
      rw [hoth _ hk]
      exact hinv.absent S' hS' hnl' hemp
    · intro S' hS' hnl' hnemp
      by_cases hne : S' = constantsOf p0 l
      · subst hne
        unfold ClusterOf
        rw [← hkey]
        refine ⟨_, p.clusters.length, c1, hself, ?_, rfl, ?_, ?_, ?_, r8, ?_, ?_⟩
        · rw [hlines_eq, hLs]; rfl
        · rw [r2]; simp
        · rw [hlines_eq, hLs, r6]; rfl
        · rw [r7, hconst]
        · intro i w hi
          have hlt : i < (constantsOf p0 l).length := (List.getElem?_eq_some.1 hi).1
          rw [r9 (i + 1) (by omega) (by omega)]
          exact hsto i w hi
        · intro j hj
          rw [hlines_eq, hLs, List.nil_append]
          obtain ⟨a, b⟩ := r10 j (by omega)
          rw [hwild j hj] at a b
          refine ⟨?_, ⟨l, List.mem_singleton_self _, a.symm⟩, ⟨l, List.mem_singleton_self _, b.symm⟩⟩
          intro l' hl'
          rw [List.mem_singleton.1 hl', a, b]
          exact ⟨le_refl _, le_refl _⟩
      · rw [hlines_ne S' hne] at hnemp
        obtain ⟨e, ptr, c, q1, q2, q3, q4, q5, q6, q7, q8, q9⟩ := hinv.present S' hS' hnl' hnemp
        have hk : keyOf S' ≠ loc.key := fun h => hne (hKinj S' hnl' h)
        have hlt : ptr < p.clusters.length := hinv.bound _ e ptr q1 q3
        refine ⟨e, ptr, c, ?_, ?_, q3, ?_, ?_, q6, q7, q8, ?_⟩
        · rw [hoth _ hk]; exact q1
        · rw [hlines_ne S' hne]; exact q2
        · rw [r2, List.getElem?_append_left hlt]; exact q4
        · rw [hlines_ne S' hne]; exact q5
        · rw [hlines_ne S' hne]; exact q9
  · -- a candidate seen before
    obtain ⟨e, ptr, c, q1, q2, q3, q4, q5, q6, q7, q8, q9⟩ := hinv.present _ hS hSnl hLs
    rw [← hkey] at q1
    have hcount : 1 ≤ e.count := by
      rw [q2]; exact List.length_pos.2 hLs
    obtain ⟨r1, r2, r3, r4, r5⟩ :=
      put_cluster_old p loc cc m s hm hinv.csize hinv.cseed hinv.len e ptr c q1 hcount q3 q4
    have hlt : ptr < p.clusters.length := hinv.bound _ e ptr q1 q3
    have hself := lookup_add_elem_self loc.key p.ppClusterTable m s hh
    rw [q1] at hself
    simp only [added] at hself
    have hoth := fun k hk => lookup_add_elem_other loc.key k hk p.ppClusterTable m s hh
    rw [← r1] at hself hoth
    have hback : ∀ K' e', lookup (put_cluster p loc cc).1.ppClusterTable m s K' = some e' →
        ∃ e0, lookup p.ppClusterTable m s K' = some e0 ∧ e0.pCluster = e'.pCluster := by
      intro K' e' he'
      by_cases hK : K' = loc.key
      · subst hK; rw [hself] at he'; cases he'; exact ⟨e, q1, rfl⟩
      · rw [hoth K' hK] at he'; exact ⟨e', he', rfl⟩
    refine { csize := r3, cseed := r4, csketch := by rw [r5]; exact hinv.csketch, len := ?_,
             bound := ?_, inj := ?_, absent := ?_, present := ?_, keys := ?_ }
    rotate_right
    · intro K e' he'
      by_cases hK : K = loc.key
      · exact ⟨constantsOf p0 l, hS, by rw [hlines_eq]; simp, by rw [hK, hkey]⟩
      · rw [hoth K hK] at he'
        obtain ⟨S', a1, a2, a3⟩ := hinv.keys K e' he'
        refine ⟨S', a1, ?_, a3⟩
        rw [linesOf_snoc]
        intro hc
        exact a2 (List.append_eq_nil.1 hc).1
    · rw [r1, add_elem_length]; exact hinv.len
    · intro K e' ptr' he' hp
      obtain ⟨e0, h0, h1⟩ := hback K e' he'
      rw [r2, List.length_set]
      exact hinv.bound K e0 ptr' h0 (by rw [h1]; exact hp)
    · intro K K' a b ptr' ha hb hpa hpb
      obtain ⟨a0, ha0, ha1⟩ := hback K a ha
      obtain ⟨b0, hb0, hb1⟩ := hback K' b hb
      exact hinv.inj K K' a0 b0 ptr' ha0 hb0 (by rw [ha1]; exact hpa) (by rw [hb1]; exact hpb)
    · intro S' hS' hnl' hemp
      have hne : S' ≠ constantsOf p0 l := by
        intro h; subst h; rw [hlines_eq] at hemp; simp at hemp
      rw [hlines_ne S' hne] at hemp
      have hk : keyOf S' ≠ loc.key := fun h => hne (hKinj S' hnl' h)
      rw [hoth _ hk]
      exact hinv.absent S' hS' hnl' hemp
    · intro S' hS' hnl' hnemp
      by_cases hne : S' = constantsOf p0 l
      · subst hne
        unfold ClusterOf
        rw [← hkey]
        rw [← hkey] at q7
        refine ⟨_, ptr, ({ c with
            count := c.count + 1,
            fullWildcard := (List.range (loc.constants + 1)).foldl
              (adjust_wildcard loc.wildcard) c.fullWildcard } : Cluster),
          hself, ?_, q3, ?_, ?_, q6, q7, q8, ?_⟩
        · rw [hlines_eq, List.length_append, List.length_singleton, q2]
        · rw [r2, List.getElem?_set_self hlt]
        · rw [hlines_eq, List.length_append, List.length_singleton, q5]
        · intro j hj
          rw [hlines_eq]
          obtain ⟨b1, ⟨lmin, hlmin, emin⟩, ⟨lmax, hlmax, emax⟩⟩ := q9 j hj
          have hle : c.fullWildcard (j * 2) ≤ c.fullWildcard (j * 2 + 1) := by
            have := b1 lmin hlmin; omega
          obtain ⟨a1, a2, a3, a4, a5, a6⟩ :=
            (adjust_wildcard_fold loc.wildcard c.fullWildcard (loc.constants + 1)).1 j
              (by omega) hle
          rw [hwild j hj] at a2 a3 a5 a6
          refine ⟨?_, ?_, ?_⟩
          · intro l' hl'
            dsimp only
            rcases List.mem_append.1 hl' with h | h
            · have := b1 l' h; constructor <;> omega
            · rw [List.mem_singleton.1 h]; exact ⟨a2, a5⟩
          · dsimp only
            rcases a3 with h | h
            · exact ⟨lmin, List.mem_append_left _ hlmin, by rw [h]; exact emin⟩
            · exact ⟨l, by simp, h.symm⟩
          · dsimp only
            rcases a6 with h | h
            · exact ⟨lmax, List.mem_append_left _ hlmax, by rw [h]; exact emax⟩
            · exact ⟨l, by simp, h.symm⟩
      · rw [hlines_ne S' hne] at hnemp
        obtain ⟨e', ptr', c', t1, t2, t3, t4, t5, t6, t7, t8, t9⟩ :=
          hinv.present S' hS' hnl' hnemp
        have hk : keyOf S' ≠ loc.key := fun h => hne (hKinj S' hnl' h)
        have hpne : ptr ≠ ptr' := by
          intro h
          apply hk
          exact hinv.inj _ _ e' e ptr' t1 q1 t3 (by rw [← h]; exact q3)
        refine ⟨e', ptr', c', ?_, ?_, t3, ?_, ?_, t6, t7, t8, ?_⟩
        · rw [hoth _ hk]; exact t1
        · rw [hlines_ne S' hne]; exact t2
        · rw [r2, List.getElem?_set_ne hpne]; exact t4
        · rw [hlines_ne S' hne]; exact t5
        · rw [hlines_ne S' hne]; exact t9

theorem candidate_word_fields (st : Parameters × CandidateLocals) (w : Key) :
    ∃ t, (candidate_word st w).1 = { st.1 with ppWordTable := t } := by
  unfold candidate_word
  simp only
  split
  · split <;> exact ⟨_, rfl⟩
  · exact ⟨_, rfl⟩

theorem candidate_words_fields (ws : List Key) :
    ∀ st : Parameters × CandidateLocals,
      ∃ t, (ws.foldl candidate_word st).1 = { st.1 with ppWordTable := t } := by
  induction ws with
  | nil => intro st; exact ⟨st.1.ppWordTable, rfl⟩
  | cons w rest ih =>
    intro st
    obtain ⟨t1, h1⟩ := candidate_word_fields st w
    obtain ⟨t2, h2⟩ := ih (candidate_word st w)
    refine ⟨t2, ?_⟩
    rw [List.foldl_cons, h2, h1]

theorem candidate_scan_fields (p : Parameters) (loc : CandidateLocals) (ws : List Key) :
    ∃ t, (candidate_scan p loc ws).1 = { p with ppWordTable := t } := by
  obtain ⟨t, ht⟩ := candidate_words_fields ws
    (p, { loc with key := [], constants := 0, variables_ := 0 })
  exact ⟨t, ht⟩

theorem CandInv.of_wordTable {p0 p : Parameters} {m s : Nat} {done : List (List Key)}
    (h : CandInv p0 p m s done) (t : Table) :
    CandInv p0 { p with ppWordTable := t } m s done :=
  { csize := h.csize, cseed := h.cseed, csketch := h.csketch, len := h.len, bound := h.bound,
    inj := h.inj, absent := h.absent, present := h.present, keys := h.keys }

theorem CandInv.skip {p0 p : Parameters} {m s : Nat} {done : List (List Key)}
    (h : CandInv p0 p m s done) (l : List Key) (hl : constantsOf p0 l = []) :
    CandInv p0 p m s (done ++ [l]) := by
  have hlines : ∀ S', S' ≠ [] → linesOf p0 S' (done ++ [l]) = linesOf p0 S' done := by
    intro S' hne
    rw [linesOf_snoc, hl]
    have : ¬ ([] : List Key) = S' := fun h => hne h.symm
    simp [this]
  refine { csize := h.csize, cseed := h.cseed, csketch := h.csketch, len := h.len,
           bound := h.bound, inj := h.inj, absent := ?_, present := ?_, keys := ?_ }
  · intro S' hS' hnl' hemp
    rw [hlines S' hS'] at hemp
    exact h.absent S' hS' hnl' hemp
  · intro S' hS' hnl' hnemp
    rw [hlines S' hS'] at hnemp
    have := h.present S' hS' hnl' hnemp
    unfold ClusterOf at this ⊢
    rw [hlines S' hS']
    exact this
  · intro K e he
    obtain ⟨S', a1, a2, a3⟩ := h.keys K e he
    exact ⟨S', a1, by rw [hlines S' a1]; exact a2, a3⟩

theorem put_cluster_wordTable (p : Parameters) (loc : CandidateLocals) (cc : Nat) :
    (put_cluster p loc cc).1.ppWordTable = p.ppWordTable ∧
    (put_cluster p loc cc).1.wordTableSize = p.wordTableSize ∧
    (put_cluster p loc cc).1.wordTableSeed = p.wordTableSeed := by
  simp only [put_cluster]
  split
  · exact ⟨rfl, rfl, rfl⟩
  · split
    · split <;> exact ⟨rfl, rfl, rfl⟩
    · split
      · split <;> exact ⟨rfl, rfl, rfl⟩
      · split <;> exact ⟨rfl, rfl, rfl⟩

theorem WInv.isFrequent_eq {p0 p : Parameters} (h : WInv p0 p) :
    isFrequent p = isFrequent p0 :=
  funext (isFrequent_congr h.wsize h.wseed h.wsame)

theorem candidate_scan_WInv {p0 p : Parameters} (h : WInv p0 p) (loc : CandidateLocals)
    (l : List Key) : WInv p0 (candidate_scan p loc l).1 := by
  have hsc := candidate_scan_inv p loc l
  refine { wsize := ?_, wseed := ?_, wsame := ?_ }
  · exact hsc.size.trans h.wsize
  · exact hsc.seed.trans h.wseed
  · intro w
    have := hsc.same w
    rw [h.wsize, h.wseed] at this
    exact this.trans (h.wsame w)

theorem create_cluster_candidates_line_inv (p0 : Parameters) (m s : Nat) (hm : 0 < m)
    (st : Parameters × CandidateLocals × Nat) (done : List (List Key)) (l : List Key)
    (hw : WInv p0 st.1) (hc : CandInv p0 st.1 m s done) (hnl : ∀ w ∈ l, CLUSTERSEP ∉ w) :
    WInv p0 (create_cluster_candidates_line st l).1 ∧
    CandInv p0 (create_cluster_candidates_line st l).1 m s (done ++ [l]) := by
  have hfreq := hw.isFrequent_eq
  have hconsts : constantsOf st.1 l = constantsOf p0 l := by unfold constantsOf; rw [hfreq]
  have hgap : ∀ j, gapAt st.1 l j = gapAt p0 l j := by intro j; unfold gapAt; rw [hfreq]
  obtain ⟨c1, c2, -, -⟩ := candidate_scan_decomposition st.1 st.2.1 l
  have c3 := candidate_scan_key st.1 st.2.1 l
  have c4 := fun j hj => candidate_scan_wildcard st.1 st.2.1 l j hj
  have hw2 := candidate_scan_WInv hw st.2.1 l
  obtain ⟨t, ht⟩ := candidate_scan_fields st.1 st.2.1 l
  have hc2 : CandInv p0 (candidate_scan st.1 st.2.1 l).1 m s done := by
    rw [ht]; exact hc.of_wordTable t
  change (candidate_scan st.1 st.2.1 l).2.constants = (constantsOf st.1 l).length at c1
  change (candidate_scan st.1 st.2.1 l).2.key = keyOf (constantsOf st.1 l) at c3
  rw [hconsts] at c1 c3 c4
  unfold create_cluster_candidates_line
  simp only [hc2.csketch, ne_eq, not_true_eq_false, false_and, if_false]
  by_cases h0 : (candidate_scan st.1 st.2.1 l).2.constants = 0
  · simp only [h0, if_true]
    have hnil : constantsOf p0 l = [] := by
      rw [c1] at h0; exact List.length_eq_zero.1 h0
    exact ⟨hw2, hc2.skip l hnil⟩
  · simp only [h0, if_false]
    have hne : constantsOf p0 l ≠ [] := by
      intro h; apply h0; rw [c1, h]; rfl
    obtain ⟨w1, w2, w3⟩ := put_cluster_wordTable (candidate_scan st.1 st.2.1 l).1
      (candidate_scan st.1 st.2.1 l).2 st.2.2
    constructor
    · refine { wsize := ?_, wseed := ?_, wsame := ?_ }
      · rw [w2]; exact hw2.wsize
      · rw [w3]; exact hw2.wseed
      · intro w; rw [w1]; exact hw2.wsame w
    · refine put_cluster_inv p0 _ m s hm done l _ _ hc2 hne hnl c3 c1 ?_ ?_
      · intro j hj
        rw [c4 j hj, hgap]
      · intro i w hi
        rw [← hconsts] at hi
        obtain ⟨e, e1, e2, -⟩ := c2 i w hi
        exact ⟨e, e1, e2⟩

theorem create_cluster_candidates_lines_inv (p0 : Parameters) (m s : Nat) (hm : 0 < m)
    (input : List (List Key)) (hnl : ∀ l ∈ input, ∀ w ∈ l, CLUSTERSEP ∉ w) :
    ∀ (st : Parameters × CandidateLocals × Nat) (done : List (List Key)),
      WInv p0 st.1 → CandInv p0 st.1 m s done →
      WInv p0 (input.foldl create_cluster_candidates_line st).1 ∧
      CandInv p0 (input.foldl create_cluster_candidates_line st).1 m s (done ++ input) := by
  induction input with
  | nil => intro st done hw hc; simpa using ⟨hw, hc⟩
  | cons l rest ih =>
    intro st done hw hc
    obtain ⟨h1, h2⟩ := create_cluster_candidates_line_inv p0 m s hm st done l hw hc
      (hnl l (List.mem_cons_self _ _))
    have := ih (fun l' hl' => hnl l' (List.mem_cons_of_mem _ hl')) _ _ h1 h2
    simpa [List.foldl_cons, List.append_assoc] using this

theorem create_cluster_candidates_inv (pParam : Parameters) (input : List (List Key))
    (loc : CandidateLocals) (cc : Nat) (hsk : pParam.clusterSketchSize = 0)
    (hsz : 0 < pParam.clusterTableSize) (hnl : ∀ l ∈ input, ∀ w ∈ l, CLUSTERSEP ∉ w) :
    WInv pParam (create_cluster_candidates pParam input loc cc).1 ∧
    CandInv pParam (create_cluster_candidates pParam input loc cc).1
      pParam.clusterTableSize pParam.clusterTableSeed input := by
  have hinit : CandInv pParam
      { pParam with ppClusterTable := List.replicate pParam.clusterTableSize [] }
      pParam.clusterTableSize pParam.clusterTableSeed [] := by
    refine { csize := rfl, cseed := rfl, csketch := hsk, len := by simp, bound := ?_,
             inj := ?_, absent := ?_, present := ?_, keys := ?_ }
    · intro K e ptr he
      change lookup (List.replicate _ []) _ _ K = some e at he
      rw [lookup_replicate] at he; cases he
    · intro K K' e e' ptr he
      change lookup (List.replicate _ []) _ _ K = some e at he
      rw [lookup_replicate] at he; cases he
    · intro S _ _ _
      exact lookup_replicate _ _ _ _
    · intro S _ _ h
      exact absurd rfl h
    · intro K e he
      change lookup (List.replicate _ []) _ _ K = some e at he
      rw [lookup_replicate] at he; cases he
  have hw : WInv pParam
      { pParam with ppClusterTable := List.replicate pParam.clusterTableSize [] } :=
    { wsize := rfl, wseed := rfl, wsame := fun _ => rfl }
  have := create_cluster_candidates_lines_inv pParam pParam.clusterTableSize
    pParam.clusterTableSeed hsz input hnl
    ({ pParam with ppClusterTable := List.replicate pParam.clusterTableSize [] }, loc, cc) []
    hw hinit
  simpa [create_cluster_candidates] using this

theorem linesOf_mem {p0 : Parameters} {S : List Key} {input : List (List Key)} {l : List Key}
    (h : l ∈ linesOf p0 S input) : l ∈ input ∧ constantsOf p0 l = S := by
  unfold linesOf at h
  have := List.mem_filter.1 h
  exact ⟨this.1, by simpa using this.2⟩

theorem linesOf_no_sep {p0 : Parameters} {S : List Key} {input : List (List Key)}
    (hnl : ∀ l ∈ input, ∀ w ∈ l, CLUSTERSEP ∉ w) (h : linesOf p0 S input ≠ []) :
    ∀ w ∈ S, CLUSTERSEP ∉ w := by
  obtain ⟨l, hl⟩ := List.exists_mem_of_ne_nil _ h
  obtain ⟨h1, h2⟩ := linesOf_mem hl
  intro w hw
  rw [← h2] at hw
  exact hnl l h1 w (List.mem_filter.1 hw).1

/-- C5: after the candidate pass with the cluster sketch disabled, every record
of the cluster table belongs to a non-empty sequence `S` of frequent words, its
cluster record has `S` as constants, and the count of the table record and the
count of the cluster record are both the number of input lines whose sequence of
frequent words is `S`; every such sequence of the input has a record. -/
theorem candidate_pass_counts (pParam : Parameters) (input : List (List Key))
    (loc : CandidateLocals) (cc : Nat) (hsk : pParam.clusterSketchSize = 0)
    (hsz : 0 < pParam.clusterTableSize) (hnl : ∀ l ∈ input, ∀ w ∈ l, CLUSTERSEP ∉ w) :
    (∀ K e, lookup (create_cluster_candidates pParam input loc cc).1.ppClusterTable
        pParam.clusterTableSize pParam.clusterTableSeed K = some e →
      ∃ S ptr c, S ≠ [] ∧ K = keyOf S ∧ e.pCluster = some ptr ∧
        (create_cluster_candidates pParam input loc cc).1.clusters[ptr]? = some c ∧
        c.pElem = K ∧ c.constants = S.length ∧
        (∀ i w, S[i]? = some w → ∃ we, c.ppWord (i + 1) = some we ∧ we.pKey = w) ∧
        e.count = (linesOf pParam S input).length ∧
        c.count = (linesOf pParam S input).length ∧ c.count = e.count) ∧
    (∀ S, S ≠ [] → linesOf pParam S input ≠ [] →
      ∃ e, lookup (create_cluster_candidates pParam input loc cc).1.ppClusterTable
        pParam.clusterTableSize pParam.clusterTableSeed (keyOf S) = some e) := by
  obtain ⟨-, hinv⟩ := create_cluster_candidates_inv pParam input loc cc hsk hsz hnl
  constructor
  · intro K e he
    obtain ⟨S, a1, a2, a3⟩ := hinv.keys K e he
    obtain ⟨e', ptr, c, q1, q2, q3, q4, q5, q6, q7, q8, -⟩ :=
      hinv.present S a1 (linesOf_no_sep hnl a2) a2
    rw [← a3, he] at q1
    cases q1
    exact ⟨S, ptr, c, a1, a3, q3, q4, by rw [q7, a3], q6, q8, q2, q5, by rw [q5, q2]⟩
  · intro S hS hlines
    obtain ⟨e', ptr, c, q1, -⟩ := hinv.present S hS (linesOf_no_sep hnl hlines) hlines
    exact ⟨e', q1⟩

/-- C6: after the candidate pass, for the candidate of a sequence `S` and every
gap position `j` in `0 .. k` (`0` is the gap after the last constant), the
stored minimum `fullWildcard[2j]` and maximum `fullWildcard[2j+1]` are the
smallest and the largest gap at that position among the lines with the sequence
`S`: every such line's gap lies between them, each is the gap of one of these
lines, and the minimum is at most the maximum. -/
theorem candidate_pass_gap_bounds (pParam : Parameters) (input : List (List Key))
    (loc : CandidateLocals) (cc : Nat) (hsk : pParam.clusterSketchSize = 0)
    (hsz : 0 < pParam.clusterTableSize) (hnl : ∀ l ∈ input, ∀ w ∈ l, CLUSTERSEP ∉ w)
    (S : List Key) (hS : S ≠ []) (hlines : linesOf pParam S input ≠ []) :
    ∃ e ptr c, lookup (create_cluster_candidates pParam input loc cc).1.ppClusterTable
        pParam.clusterTableSize pParam.clusterTableSeed (keyOf S) = some e ∧
      e.pCluster = some ptr ∧
      (create_cluster_candidates pParam input loc cc).1.clusters[ptr]? = some c ∧
      ∀ j, j ≤ S.length →
        (∀ l ∈ linesOf pParam S input,
          c.fullWildcard (j * 2) ≤ gapAt pParam l j ∧
          gapAt pParam l j ≤ c.fullWildcard (j * 2 + 1)) ∧
        (∃ l ∈ linesOf pParam S input, gapAt pParam l j = c.fullWildcard (j * 2)) ∧
        (∃ l ∈ linesOf pParam S input, gapAt pParam l j = c.fullWildcard (j * 2 + 1)) ∧
        c.fullWildcard (j * 2) ≤ c.fullWildcard (j * 2 + 1) := by
  obtain ⟨-, hinv⟩ := create_cluster_candidates_inv pParam input loc cc hsk hsz hnl
  obtain ⟨e, ptr, c, q1, q2, q3, q4, q5, q6, q7, q8, q9⟩ :=
    hinv.present S hS (linesOf_no_sep hnl hlines) hlines
  refine ⟨e, ptr, c, q1, q3, q4, ?_⟩
  intro j hj
  obtain ⟨b1, ⟨lmin, hlmin, emin⟩, b3⟩ := q9 j hj
  refine ⟨b1, ⟨lmin, hlmin, emin⟩, b3, ?_⟩
  have := b1 lmin hlmin
  omega

/-! ## Frequent-cluster selection -/

theorem find_clusters_chain_spec (p : Parameters) (chain : List Nat) :
    ∀ n, (find_clusters_chain p chain n).1
        = chain.filter (fun ptr => decide (p.support ≤ (p.cluster ptr).count)) ∧
      (find_clusters_chain p chain n).2
        = n + (chain.filter (fun ptr => decide (p.support ≤ (p.cluster ptr).count))).length := by
  induction chain with
  | nil => intro n; simp [find_clusters_chain]
  | cons ptr rest ih =>
    intro n
    unfold find_clusters_chain
    by_cases h : (p.cluster ptr).count ≥ p.support
    · obtain ⟨i1, i2⟩ := ih (n + 1)
      have h' : p.support ≤ (p.cluster ptr).count := h
      simp only [h, if_true, List.filter_cons, h', decide_True, List.length_cons]
      exact ⟨by rw [i1], by rw [i2]; omega⟩
    · have h' : ¬ p.support ≤ (p.cluster ptr).count := h
      simp only [h, if_false, List.filter_cons, h', decide_False]
      exact ih n

theorem find_clusters_buckets_spec (p : Parameters) (n : Nat) :
    ∀ (i : Nat) (family : Nat → List Nat) (k : Nat),
      (∀ j, (find_clusters_buckets p n i family k).1 j =
        if i ≤ j ∧ j < i + n then
          (family j).filter (fun ptr => decide (p.support ≤ (p.cluster ptr).count))
        else family j) ∧
      (find_clusters_buckets p n i family k).2 = k + ((List.range' i n).map (fun j =>
        ((family j).filter (fun ptr => decide (p.support ≤ (p.cluster ptr).count))).length)).sum
    := by
  induction n with
  | zero =>
    intro i family k
    constructor
    · intro j
      have : ¬ (i ≤ j ∧ j < i + 0) := by omega
      simp only [find_clusters_buckets, this, if_false]
    · simp [find_clusters_buckets]
  | succ n ih =>
    intro i family k
    obtain ⟨c1, c2⟩ := find_clusters_chain_spec p (family i) k
    obtain ⟨i1, i2⟩ := ih (i + 1) (arrSet family i (find_clusters_chain p (family i) k).1)
      (find_clusters_chain p (family i) k).2
    simp only [find_clusters_buckets]
    constructor
    · intro j
      rw [i1 j]
      by_cases hj : j = i
      · subst hj
        have a : ¬ (j + 1 ≤ j ∧ j < j + 1 + n) := by omega
        have b : j ≤ j ∧ j < j + (n + 1) := by omega
        simp only [a, if_false, b, and_self, if_true, arrSet, c1]
      · by_cases hr : i + 1 ≤ j ∧ j < i + 1 + n
        · have b : i ≤ j ∧ j < i + (n + 1) := by omega
          simp only [hr, and_self, if_true, b, arrSet, hj, if_false]
        · have b : ¬ (i ≤ j ∧ j < i + (n + 1)) := by omega
          simp only [hr, if_false, b, arrSet, hj]
    · rw [i2, c2, List.range'_succ, List.map_cons, List.sum_cons, Nat.add_assoc]
      congr 2
      apply congrArg
      apply List.map_congr_left
      intro j hj
      have : j ≠ i := by
        have := (List.mem_range'_1.1 hj).1; omega
      simp only [arrSet, this, if_false]

theorem find_clusters_from_candidates_buckets (pParam : Parameters) :
    (∀ i, 1 ≤ i → i ≤ pParam.biggestConstants →
      (find_clusters_from_candidates pParam).1.pClusterFamily i =
        (pParam.pClusterFamily i).filter
          (fun ptr => decide (pParam.support ≤ (pParam.cluster ptr).count))) ∧
    (∀ i, ¬ (1 ≤ i ∧ i ≤ pParam.biggestConstants) →
      (find_clusters_from_candidates pParam).1.pClusterFamily i = pParam.pClusterFamily i) ∧
    (find_clusters_from_candidates pParam).2 =
      ((List.range' 1 pParam.biggestConstants).map
        (fun i => ((find_clusters_from_candidates pParam).1.pClusterFamily i).length)).sum ∧
    (find_clusters_from_candidates pParam).1.ppClusterTable = pParam.ppClusterTable ∧
    (find_clusters_from_candidates pParam).1.clusters = pParam.clusters := by
  obtain ⟨h1, h2⟩ := find_clusters_buckets_spec pParam pParam.biggestConstants 1
    pParam.pClusterFamily 0
  refine ⟨?_, ?_, ?_, rfl, rfl⟩
  · intro i hi1 hi2
    show (find_clusters_buckets _ _ _ _ _).1 i = _
    rw [h1 i]
    have : 1 ≤ i ∧ i < 1 + pParam.biggestConstants := by omega
    simp only [this, and_self, if_true]
  · intro i hi
    show (find_clusters_buckets _ _ _ _ _).1 i = _
    rw [h1 i]
    have : ¬ (1 ≤ i ∧ i < 1 + pParam.biggestConstants) := by omega
    simp only [this, if_false]
  · show (find_clusters_buckets _ _ _ _ _).2 = _
    rw [h2, Nat.zero_add]
    apply congrArg
    apply List.map_congr_left
    intro j hj
    show _ = ((find_clusters_buckets _ _ _ _ _).1 j).length
    rw [h1 j]
    have := List.mem_range'_1.1 hj
    have : 1 ≤ j ∧ j < 1 + pParam.biggestConstants := by omega
    simp only [this, and_self, if_true]

/-- C7: `find_clusters_from_candidates` leaves in every bucket `1 ..
biggestConstants` exactly the former members with `count >= support`, in their
former order, does not touch the other buckets, the cluster table or the
cluster records, and returns the total number of the members left in the
buckets `1 .. biggestConstants`. -/
theorem find_clusters_from_candidates_spec (pParam : Parameters) :
    (∀ i, 1 ≤ i → i ≤ pParam.biggestConstants →
      (find_clusters_from_candidates pParam).1.pClusterFamily i =
        (pParam.pClusterFamily i).filter
          (fun ptr => decide (pParam.support ≤ (pParam.cluster ptr).count))) ∧
    (∀ i, ¬ (1 ≤ i ∧ i ≤ pParam.biggestConstants) →
      (find_clusters_from_candidates pParam).1.pClusterFamily i = pParam.pClusterFamily i) ∧
    (find_clusters_from_candidates pParam).2 =
      ((List.range' 1 pParam.biggestConstants).map
        (fun i => ((find_clusters_from_candidates pParam).1.pClusterFamily i).length)).sum ∧
    (find_clusters_from_candidates pParam).1.ppClusterTable = pParam.ppClusterTable ∧
    (find_clusters_from_candidates pParam).1.clusters = pParam.clusters :=
  find_clusters_from_candidates_buckets pParam

theorem candidate_key_eq_iff_witness :
    (∀ w ∈ ([[65], [88], [66]] : List Key), CLUSTERSEP ∉ w) ∧
    (∀ w ∈ ([[65], [66], [89]] : List Key), CLUSTERSEP ∉ w) ∧
    ((candidate_scan exampleParams {} [[65], [88], [66]]).2.key
        = (candidate_scan exampleParams {} [[65], [66], [89]]).2.key ↔
      List.filter (isFrequent exampleParams) [[65], [88], [66]]
        = List.filter (isFrequent exampleParams) [[65], [66], [89]]) :=
  ⟨by decide, by decide,
    candidate_key_eq_iff exampleParams exampleParams {} {} [[65], [88], [66]] [[65], [66], [89]]
      (fun _ => rfl) (by decide) (by decide)⟩

theorem candidate_pass_counts_witness :
    exampleParams.clusterSketchSize = 0 ∧ 0 < exampleParams.clusterTableSize ∧
    (∀ l ∈ exampleInput, ∀ w ∈ l, CLUSTERSEP ∉ w) ∧
    ∃ e, lookup (create_cluster_candidates exampleParams exampleInput {} 0).1.ppClusterTable
      exampleParams.clusterTableSize exampleParams.clusterTableSeed (keyOf [[65], [66]])
        = some e :=
  ⟨by decide, by decide, by decide,
    (candidate_pass_counts exampleParams exampleInput {} 0 (by decide) (by decide)
      (by decide)).2 [[65], [66]] (by decide) (by decide)⟩

theorem candidate_pass_gap_bounds_witness :
    exampleParams.clusterSketchSize = 0 ∧ 0 < exampleParams.clusterTableSize ∧
    (∀ l ∈ exampleInput, ∀ w ∈ l, CLUSTERSEP ∉ w) ∧
    ([[65], [66]] : List Key) ≠ [] ∧ linesOf exampleParams [[65], [66]] exampleInput ≠ [] ∧
    ∃ e ptr c, lookup (create_cluster_candidates exampleParams exampleInput {} 0).1.ppClusterTable
        exampleParams.clusterTableSize exampleParams.clusterTableSeed (keyOf [[65], [66]])
          = some e ∧
      e.pCluster = some ptr ∧
      (create_cluster_candidates exampleParams exampleInput {} 0).1.clusters[ptr]? = some c ∧
      ∀ j, j ≤ ([[65], [66]] : List Key).length →
        (∀ l ∈ linesOf exampleParams [[65], [66]] exampleInput,
          c.fullWildcard (j * 2) ≤ gapAt exampleParams l j ∧
          gapAt exampleParams l j ≤ c.fullWildcard (j * 2 + 1)) ∧
        (∃ l ∈ linesOf exampleParams [[65], [66]] exampleInput,
          gapAt exampleParams l j = c.fullWildcard (j * 2)) ∧
        (∃ l ∈ linesOf exampleParams [[65], [66]] exampleInput,
          gapAt exampleParams l j = c.fullWildcard (j * 2 + 1)) ∧
        c.fullWildcard (j * 2) ≤ c.fullWildcard (j * 2 + 1) :=
  ⟨by decide, by decide, by decide, by decide, by decide,
    candidate_pass_gap_bounds exampleParams exampleInput {} 0 (by decide) (by decide)
      (by decide) [[65], [66]] (by decide) (by decide)⟩

/-! ## The word-dependency matrix -/

theorem foldl_incr (f : Nat → Nat) (L : List Nat) :
    ∀ (D : Nat → Nat) (idx : Nat),
      (L.foldl (fun D j => arrSet D (f j) (D (f j) + 1)) D) idx
        = D idx + L.countP (fun j => decide (f j = idx)) := by
  induction L with
  | nil => intro D idx; simp
  | cons j rest ih =>
    intro D idx
    rw [List.foldl_cons, ih, List.countP_cons]
    by_cases h : f j = idx
    · subst h; simp [arrSet]; omega
    · have h' : idx ≠ f j := fun e => h e.symm
      simp [arrSet, h, h']

theorem foldl_incr2 (f : Nat → Nat → Nat) (L1 L2 : List Nat) :
    ∀ (D : Nat → Nat) (idx : Nat),
      (L1.foldl (fun D i => L2.foldl (fun D j => arrSet D (f i j) (D (f i j) + 1)) D) D) idx
        = D idx + (L1.map (fun i => L2.countP (fun j => decide (f i j = idx)))).sum := by
  induction L1 with
  | nil => intro D idx; simp
  | cons i rest ih =>
    intro D idx
    rw [List.foldl_cons, ih, foldl_incr (f i) L2 D idx, List.map_cons, List.sum_cons]
    omega

theorem foldl_zero_keep (g : Nat → Nat) (L : List Nat) :
    ∀ (D : Nat → Nat) (idx : Nat), D idx = 0 →
      (L.foldl (fun D j => arrSet D (g j) 0) D) idx = 0 := by
  induction L with
  | nil => intro D idx h; exact h
  | cons j rest ih =>
    intro D idx h
    rw [List.foldl_cons]
    apply ih
    unfold arrSet
    split
    · rfl
    · exact h

theorem foldl_zero_hit (g : Nat → Nat) (L : List Nat) :
    ∀ (D : Nat → Nat) (j : Nat), j ∈ L →
      (L.foldl (fun D j => arrSet D (g j) 0) D) (g j) = 0 := by
  induction L with
  | nil => intro D j h; simp at h
  | cons x rest ih =>
    intro D j h
    rw [List.foldl_cons]
    rcases List.mem_cons.1 h with h1 | h1
    · subst h1
      apply foldl_zero_keep
      simp [arrSet]
    · exact ih _ j h1

theorem foldl_zero2_keep (g : Nat → Nat → Nat) (L1 L2 : List Nat) :
    ∀ (D : Nat → Nat) (idx : Nat), D idx = 0 →
      (L1.foldl (fun D i => L2.foldl (fun D j => arrSet D (g i j) 0) D) D) idx = 0 := by
  induction L1 with
  | nil => intro D idx h; exact h
  | cons i rest ih =>
    intro D idx h
    rw [List.foldl_cons]
    exact ih _ idx (foldl_zero_keep (g i) L2 D idx h)

theorem foldl_zero2_hit (g : Nat → Nat → Nat) (L1 L2 : List Nat) :
    ∀ (D : Nat → Nat) (i j : Nat), i ∈ L1 → j ∈ L2 →
      (L1.foldl (fun D i => L2.foldl (fun D j => arrSet D (g i j) 0) D) D) (g i j) = 0 := by
  induction L1 with
  | nil => intro D i j h; simp at h
  | cons x rest ih =>
    intro D i j hi hj
    rw [List.foldl_cons]
    rcases List.mem_cons.1 hi with h1 | h1
    · subst h1
      exact foldl_zero2_keep g rest L2 _ _ (foldl_zero_hit (g i) L2 D j hj)
    · exact ih _ i j h1 hj

theorem index_inj {B a b c d : Nat} (hb : b < B) (hd : d < B)
    (h : a * B + b = c * B + d) : a = c ∧ b = d := by
  have hB : 0 < B := by omega
  have h1 : (a * B + b) % B = b := by
    rw [Nat.add_comm, Nat.add_mul_mod_self_right]; exact Nat.mod_eq_of_lt hb
  have h2 : (c * B + d) % B = d := by
    rw [Nat.add_comm, Nat.add_mul_mod_self_right]; exact Nat.mod_eq_of_lt hd
  have hbd : b = d := by rw [← h1, ← h2, h]
  subst hbd
  have : a * B = c * B := by omega
  exact ⟨Nat.eq_of_mul_eq_mul_right hB this, rfl⟩

theorem countP_unique (storage : Nat → Nat) (x : Nat) (n : Nat)
    (hinj : ∀ i j, 1 ≤ i → i ≤ n → 1 ≤ j → j ≤ n → storage i = storage j → i = j) :
    ((∃ i, 1 ≤ i ∧ i ≤ n ∧ storage i = x) →
      (List.range' 1 n).countP (fun i => decide (storage i = x)) = 1) ∧
    ((¬ ∃ i, 1 ≤ i ∧ i ≤ n ∧ storage i = x) →
      (List.range' 1 n).countP (fun i => decide (storage i = x)) = 0) := by
  induction n with
  | zero =>
    constructor
    · rintro ⟨i, h1, h2, -⟩; omega
    · intro _; simp
  | succ n ih =>
    obtain ⟨ih1, ih2⟩ := ih (fun i j a b c d e => hinj i j a (by omega) c (by omega) e)
    rw [List.range'_1_concat, List.countP_append]
    by_cases hx : storage (1 + n) = x
    · have hnone : ¬ ∃ i, 1 ≤ i ∧ i ≤ n ∧ storage i = x := by
        rintro ⟨i, h1, h2, h3⟩
        have := hinj i (1 + n) h1 (by omega) (by omega) (by omega) (by rw [h3, hx])
        omega
      have hsome : ∃ i, 1 ≤ i ∧ i ≤ n + 1 ∧ storage i = x := ⟨1 + n, by omega, by omega, hx⟩
      rw [ih2 hnone]
      constructor
      · intro _; simp [hx]
      · intro h; exact absurd hsome h
    · by_cases hex : ∃ i, 1 ≤ i ∧ i ≤ n ∧ storage i = x
      · rw [ih1 hex]
        constructor
        · intro _; simp [hx]
        · intro h
          exfalso; apply h
          obtain ⟨i, h1, h2, h3⟩ := hex; exact ⟨i, h1, by omega, h3⟩
      · rw [ih2 hex]
        constructor
        · rintro ⟨i, h1, h2, h3⟩
          exfalso
          by_cases hi : i = 1 + n
          · subst hi; exact hx h3
          · exact hex ⟨i, h1, by omega, h3⟩
        · intro _; simp [hx]

theorem sum_map_ite (L : List Nat) (p : Nat → Prop) [DecidablePred p] (C : Nat) :
    (L.map (fun i => if p i then C else 0)).sum = L.countP (fun i => decide (p i)) * C := by
  induction L with
  | nil => simp
  | cons i rest ih =>
    rw [List.map_cons, List.sum_cons, ih, List.countP_cons]
    by_cases h : p i <;> simp [h, Nat.add_mul, Nat.add_comm]

theorem candidate_word_dep_inv (p0 ps : Parameters) (hinj : NumbersInjective p0)
    {st : Parameters × CandidateLocals × Nat} {pre : List Key} (w : Key)
    (h : DepInv p0 ps st pre) : DepInv p0 ps (candidate_word_dep st w) (pre ++ [w]) := by
  obtain ⟨p, loc, dc⟩ := st
  have hsize : p.wordTableSize = p0.wordTableSize := h.size
  have hseed : p.wordTableSeed = p0.wordTableSeed := h.seed
  have hsame := h.same
  have hconst : loc.constants = (pre.filter (isFrequent p0)).length := h.constants_eq
  have hsound : ∀ i, 1 ≤ i → i ≤ dc → ∃ u ∈ pre, isFrequent p0 u = true ∧
      ∃ e, lookup p0.ppWordTable p0.wordTableSize p0.wordTableSeed u = some e ∧
        e.number = p.wordNumStr i := h.sto_sound
  have hcomplete : ∀ u ∈ pre, isFrequent p0 u = true → ∃ i, 1 ≤ i ∧ i ≤ dc ∧
      ∃ e, lookup p0.ppWordTable p0.wordTableSize p0.wordTableSeed u = some e ∧
        e.number = p.wordNumStr i := h.sto_complete
  have hstoinj : ∀ i j, 1 ≤ i → i ≤ dc → 1 ≤ j → j ≤ dc →
      p.wordNumStr i = p.wordNumStr j → i = j := h.sto_inj
  have hfind : (find_elem w p.ppWordTable p0.wordTableSize p0.wordTableSeed).1
      = lookup p0.ppWordTable p0.wordTableSize p0.wordTableSeed w := by
    rw [find_elem_fst]; exact hsame w
  have hsame' : ∀ k, lookup (find_elem w p.ppWordTable p0.wordTableSize p0.wordTableSeed).2
      p0.wordTableSize p0.wordTableSeed k
      = lookup p0.ppWordTable p0.wordTableSize p0.wordTableSeed k := by
    intro k; rw [lookup_find_elem]; exact hsame k
  by_cases hf : isFrequent p0 w = true
  · have hw : w ≠ [] := by
      unfold isFrequent at hf; simp only [Bool.and_eq_true, decide_eq_true_eq] at hf; exact hf.1
    obtain ⟨e, he⟩ : ∃ e, lookup p0.ppWordTable p0.wordTableSize p0.wordTableSeed w = some e := by
      unfold isFrequent at hf; simp only [Bool.and_eq_true, decide_eq_true_eq] at hf
      exact Option.isSome_iff_exists.1 hf.2
    have hfilter : (pre ++ [w]).filter (isFrequent p0) = pre.filter (isFrequent p0) ++ [w] := by
      simp [List.filter_append, hf]
    have hrep_iff : is_word_repeated p.wordNumStr e.number (dc + 1) = true ↔ w ∈ pre := by
      rw [is_word_repeated_iff]
      constructor
      · rintro ⟨i, h1, h2, h3⟩
        obtain ⟨u, hu, -, e', he', hn⟩ := hsound i h1 h2
        have : u = w := hinj u w e' e he' he (by omega)
        exact this ▸ hu
      · intro hin
        obtain ⟨i, h1, h2, e', he', hn⟩ := hcomplete w hin hf
        rw [he] at he'; cases he'
        exact ⟨i, h1, h2, hn.symm⟩
    unfold candidate_word_dep
    simp only [hsize, hseed, hfind, he, hw, ne_eq, not_false_eq_true, if_true]
    by_cases hin : w ∈ pre
    · have hrep := hrep_iff.2 hin
      simp only [hrep, if_true, Nat.add_sub_cancel]
      refine { size := rfl, seed := rfl, same := hsame', matrix := h.matrix,
               breadth := h.breadth, constants_eq := ?_, sto_sound := ?_, sto_complete := ?_,
               sto_inj := hstoinj }
      · show loc.constants + 1 = _
        rw [hfilter, List.length_append, hconst]; rfl
      · intro i h1 h2
        obtain ⟨u, hu, hfu, e', he', hn⟩ := hsound i h1 h2
        exact ⟨u, List.mem_append_left _ hu, hfu, e', he', hn⟩
      · intro u hu hfu
        have hupre : u ∈ pre := by
          rcases List.mem_append.1 hu with h1 | h1
          · exact h1
          · simp only [List.mem_singleton] at h1; exact h1 ▸ hin
        exact hcomplete u hupre hfu
    · have hrep : is_word_repeated p.wordNumStr e.number (dc + 1) = false := by
        rw [Bool.eq_false_iff]; exact fun hc => hin (hrep_iff.1 hc)
      have hnew : ∀ i, 1 ≤ i → i ≤ dc → p.wordNumStr i ≠ e.number := by
        intro i h1 h2 hc
        have : is_word_repeated p.wordNumStr e.number (dc + 1) = true :=
          (is_word_repeated_iff _ _ _).2 ⟨i, h1, h2, hc⟩
        rw [hrep] at this; cases this
      simp only [hrep, Bool.false_eq_true, if_false]
      refine { size := rfl, seed := rfl, same := hsame', matrix := h.matrix,
               breadth := h.breadth, constants_eq := ?_, sto_sound := ?_, sto_complete := ?_,
               sto_inj := ?_ }
      · show loc.constants + 1 = _
        rw [hfilter, List.length_append, hconst]; rfl
      · intro i h1 h2
        change i ≤ dc + 1 at h2
        show ∃ u ∈ pre ++ [w], isFrequent p0 u = true ∧ ∃ e' : Elem,
          lookup p0.ppWordTable p0.wordTableSize p0.wordTableSeed u = some e' ∧
          e'.number = arrSet p.wordNumStr (dc + 1) e.number i
        by_cases hi : i = dc + 1
        · exact ⟨w, by simp, hf, e, he, by simp [arrSet, hi]⟩
        · obtain ⟨u, hu, hfu, e', he', hn⟩ := hsound i h1 (by omega)
          refine ⟨u, List.mem_append_left _ hu, hfu, e', he', ?_⟩
          simp only [arrSet, hi, if_false]; exact hn
      · intro u hu hfu
        show ∃ i, 1 ≤ i ∧ i ≤ dc + 1 ∧ ∃ e' : Elem,
          lookup p0.ppWordTable p0.wordTableSize p0.wordTableSeed u = some e' ∧
          e'.number = arrSet p.wordNumStr (dc + 1) e.number i
        rcases List.mem_append.1 hu with h1 | h1
        · obtain ⟨i, a1, a2, e', he', hn⟩ := hcomplete u h1 hfu
          have hi : i ≠ dc + 1 := by omega
          refine ⟨i, a1, by omega, e', he', ?_⟩
          simp only [arrSet, hi, if_false]; exact hn
        · simp only [List.mem_singleton] at h1; subst h1
          exact ⟨dc + 1, by omega, le_refl _, e, he, by simp [arrSet]⟩
      · intro i j a1 a2 b1 b2 hij
        change i ≤ dc + 1 at a2
        change j ≤ dc + 1 at b2
        change arrSet p.wordNumStr (dc + 1) e.number i
          = arrSet p.wordNumStr (dc + 1) e.number j at hij
        by_cases hi : i = dc + 1 <;> by_cases hj : j = dc + 1
        · rw [hi, hj]
        · exfalso
          simp only [arrSet, hi, hj, if_true, if_false] at hij
          exact hnew j b1 (by omega) hij.symm
        · exfalso
          simp only [arrSet, hi, hj, if_true, if_false] at hij
          exact hnew i a1 (by omega) hij
        · simp only [arrSet, hi, hj, if_false] at hij
          exact hstoinj i j a1 (by omega) b1 (by omega) hij
  · have hf' : isFrequent p0 w = false := by simpa using hf
    have hfilter : (pre ++ [w]).filter (isFrequent p0) = pre.filter (isFrequent p0) := by
      simp [List.filter_append, hf']
    have hres : candidate_word_dep (p, loc, dc) w =
        ({ p with ppWordTable :=
            (find_elem w p.ppWordTable p0.wordTableSize p0.wordTableSeed).2 },
         { loc with variables_ := loc.variables_ + 1 }, dc) := by
      simp only [candidate_word_dep, hsize, hseed, hfind]
      cases hl : lookup p0.ppWordTable p0.wordTableSize p0.wordTableSeed w with
      | none => rfl
      | some e =>
        have hw : w = [] := by
          by_contra hne
          have : isFrequent p0 w = true := by simp [isFrequent, hne, hl]
          rw [this] at hf'; cases hf'
        simp [hw]
    rw [hres]
    refine { size := hsize, seed := hseed, same := hsame', matrix := h.matrix,
             breadth := h.breadth, constants_eq := ?_, sto_sound := ?_, sto_complete := ?_,
             sto_inj := hstoinj }
    · rw [hfilter]; exact hconst
    · intro i h1 h2
      obtain ⟨u, hu, hfu, e', he', hn⟩ := hsound i h1 h2
      exact ⟨u, List.mem_append_left _ hu, hfu, e', he', hn⟩
    · intro u hu hfu
      have hupre : u ∈ pre := by
        rcases List.mem_append.1 hu with h1 | h1
        · exact h1
        · simp only [List.mem_singleton] at h1; subst h1; rw [hf'] at hfu; cases hfu
      exact hcomplete u hupre hfu

theorem candidate_words_dep_inv (p0 ps : Parameters) (hinj : NumbersInjective p0)
    (ws : List Key) :
    ∀ {st : Parameters × CandidateLocals × Nat} {pre : List Key}, DepInv p0 ps st pre →
      DepInv p0 ps (ws.foldl candidate_word_dep st) (pre ++ ws) := by
  induction ws with
  | nil => intro st pre h; simpa using h
  | cons w rest ih =>
    intro st pre h
    have h2 := ih (candidate_word_dep_inv p0 ps hinj w h)
    simpa [List.foldl_cons, List.append_assoc] using h2

theorem update_word_dep_matrix_entry (p0 : Parameters) (hinj : NumbersInjective p0)
    (hlt : NumbersBelow p0 p0.wordDepMatrixBreadth) (p : Parameters) (l : List Key)
    (dc : Nat) (hB : p.wordDepMatrixBreadth = p0.wordDepMatrixBreadth)
    (hsound : ∀ i, 1 ≤ i → i ≤ dc → ∃ u ∈ l, isFrequent p0 u = true ∧
      ∃ e, lookup p0.ppWordTable p0.wordTableSize p0.wordTableSeed u = some e ∧
        e.number = p.wordNumStr i)
    (hcomplete : ∀ u ∈ l, isFrequent p0 u = true → ∃ i, 1 ≤ i ∧ i ≤ dc ∧
      ∃ e, lookup p0.ppWordTable p0.wordTableSize p0.wordTableSeed u = some e ∧
        e.number = p.wordNumStr i)
    (hstoinj : ∀ i j, 1 ≤ i → i ≤ dc → 1 ≤ j → j ≤ dc →
      p.wordNumStr i = p.wordNumStr j → i = j)
    (u v : Key) (eu ev : Elem) (hfu : isFrequent p0 u = true) (hfv : isFrequent p0 v = true)
    (hu : lookup p0.ppWordTable p0.wordTableSize p0.wordTableSeed u = some eu)
    (hv : lookup p0.ppWordTable p0.wordTableSize p0.wordTableSeed v = some ev) :
    (update_word_dep_matrix p.wordNumStr dc p).wordDepMatrix
        (eu.number * p0.wordDepMatrixBreadth + ev.number)
      = p.wordDepMatrix (eu.number * p0.wordDepMatrixBreadth + ev.number)
        + if u ∈ l ∧ v ∈ l then 1 else 0 := by
  have hstolt : ∀ i, 1 ≤ i → i ≤ dc → p.wordNumStr i < p0.wordDepMatrixBreadth := by
    intro i h1 h2
    obtain ⟨w, -, -, e, he, hn⟩ := hsound i h1 h2
    rw [← hn]; exact hlt w e he
  have hex : ∀ (w : Key) (e : Elem), isFrequent p0 w = true →
      lookup p0.ppWordTable p0.wordTableSize p0.wordTableSeed w = some e →
      ((∃ i, 1 ≤ i ∧ i ≤ dc ∧ p.wordNumStr i = e.number) ↔ w ∈ l) := by
    intro w e hfw hw
    constructor
    · rintro ⟨i, h1, h2, h3⟩
      obtain ⟨w', hw', -, e', he', hn⟩ := hsound i h1 h2
      have : w' = w := hinj w' w e' e he' hw (by omega)
      exact this ▸ hw'
    · intro hin
      obtain ⟨i, h1, h2, e', he', hn⟩ := hcomplete w hin hfw
      rw [hw] at he'; cases he'
      exact ⟨i, h1, h2, hn.symm⟩
  have hcnt : ∀ (w : Key) (e : Elem), isFrequent p0 w = true →
      lookup p0.ppWordTable p0.wordTableSize p0.wordTableSeed w = some e →
      (List.range' 1 dc).countP (fun i => decide (p.wordNumStr i = e.number))
        = if w ∈ l then 1 else 0 := by
    intro w e hfw hw
    obtain ⟨c1, c2⟩ := countP_unique p.wordNumStr e.number dc hstoinj
    by_cases hin : w ∈ l
    · simp only [hin, if_true]; exact c1 ((hex w e hfw hw).2 hin)
    · simp only [hin, if_false]; exact c2 (fun h => hin ((hex w e hfw hw).1 h))
  have hevlt : ev.number < p0.wordDepMatrixBreadth := hlt v ev hv
  simp only [update_word_dep_matrix, hB]
  rw [foldl_incr2 (fun i j => p.wordNumStr i * p0.wordDepMatrixBreadth + p.wordNumStr j)]
  congr 1
  have hinner : ∀ i ∈ List.range' 1 dc,
      (List.range' 1 dc).countP (fun j => decide
        (p.wordNumStr i * p0.wordDepMatrixBreadth + p.wordNumStr j
          = eu.number * p0.wordDepMatrixBreadth + ev.number))
      = if p.wordNumStr i = eu.number then (if v ∈ l then 1 else 0) else 0 := by
    intro i hi
    by_cases hie : p.wordNumStr i = eu.number
    · simp only [hie, if_true]
      rw [← hcnt v ev hfv hv]
      apply List.countP_congr
      intro j hj
      have hj' := List.mem_range'_1.1 hj
      simp only [decide_eq_true_eq]
      constructor
      · intro h; omega
      · intro h; rw [h]
    · simp only [hie, if_false]
      rw [List.countP_eq_zero]
      intro j hj
      have hj' := List.mem_range'_1.1 hj
      simp only [decide_eq_true_eq]
      intro h
      exact hie (index_inj (hstolt j hj'.1 (by omega)) hevlt h).1
  rw [List.map_congr_left hinner, sum_map_ite, hcnt u eu hfu hu]
  by_cases h1 : u ∈ l <;> by_cases h2 : v ∈ l <;> simp [h1, h2]

theorem put_cluster_matrix (p : Parameters) (loc : CandidateLocals) (cc : Nat) :
    (put_cluster p loc cc).1.wordDepMatrix = p.wordDepMatrix ∧
    (put_cluster p loc cc).1.wordDepMatrixBreadth = p.wordDepMatrixBreadth := by
  simp only [put_cluster]
  split
  · exact ⟨rfl, rfl⟩
  · split
    · split <;> exact ⟨rfl, rfl⟩
    · split
      · split <;> exact ⟨rfl, rfl⟩
      · split <;> exact ⟨rfl, rfl⟩

theorem linesWithBoth_snoc (u v : Key) (done : List (List Key)) (l : List Key) :
    linesWithBoth u v (done ++ [l]) = linesWithBoth u v done + if u ∈ l ∧ v ∈ l then 1 else 0 := by
  unfold linesWithBoth
  rw [List.countP_append]
  by_cases h : u ∈ l ∧ v ∈ l <;> simp [List.countP_cons, h]

theorem candidate_scan_dep_inv (p0 ps : Parameters) (hinj : NumbersInjective p0)
    (hw : WInv p0 ps) (loc : CandidateLocals) (l : List Key) :
    DepInv p0 ps (l.foldl candidate_word_dep
      (ps, { loc with key := [], constants := 0, variables_ := 0 }, 0)) l := by
  have hinit : DepInv p0 ps (ps, { loc with key := [], constants := 0, variables_ := 0 }, 0)
      [] := by
    refine { size := hw.wsize, seed := hw.wseed, same := hw.wsame, matrix := rfl,
             breadth := rfl, constants_eq := rfl, sto_sound := ?_, sto_complete := ?_,
             sto_inj := ?_ }
    · intro i h1 h2; change i ≤ 0 at h2; omega
    · intro u hu; simp at hu
    · intro i j h1 h2; change i ≤ 0 at h2; omega
  have := candidate_words_dep_inv p0 ps hinj l hinit
  simpa using this

theorem create_cluster_candidates_word_dep_line_inv (p0 : Parameters)
    (hinj : NumbersInjective p0) (hlt : NumbersBelow p0 p0.wordDepMatrixBreadth)
    (st : Parameters × CandidateLocals × Nat) (done : List (List Key)) (l : List Key)
    (h : MatrixInv p0 st.1 done) :
    MatrixInv p0 (create_cluster_candidates_word_dep_line st l).1 (done ++ [l]) := by
  have hsc := candidate_scan_dep_inv p0 st.1 hinj h.words st.2.1 l
  have hw2 : WInv p0 (candidate_scan_dep st.1 st.2.1 l).1 :=
    { wsize := hsc.size, wseed := hsc.seed, wsame := hsc.same }
  have hmat : (candidate_scan_dep st.1 st.2.1 l).1.wordDepMatrix = st.1.wordDepMatrix :=
    hsc.matrix
  have hbr : (candidate_scan_dep st.1 st.2.1 l).1.wordDepMatrixBreadth
      = p0.wordDepMatrixBreadth := hsc.breadth.trans h.breadth
  have hconst : (candidate_scan_dep st.1 st.2.1 l).2.1.constants
      = (l.filter (isFrequent p0)).length := hsc.constants_eq
  unfold create_cluster_candidates_word_dep_line
  simp only
  by_cases h0 : (candidate_scan_dep st.1 st.2.1 l).2.1.constants = 0
  · simp only [h0, if_true]
    have hnil : l.filter (isFrequent p0) = [] := by
      rw [hconst] at h0; exact List.length_eq_zero.1 h0
    refine { words := hw2, breadth := hbr, entries := ?_ }
    intro u v eu ev hfu hfv hu hv
    rw [hmat, h.entries u v eu ev hfu hfv hu hv, linesWithBoth_snoc]
    have : ¬ (u ∈ l ∧ v ∈ l) := by
      rintro ⟨hul, -⟩
      have : u ∈ l.filter (isFrequent p0) := List.mem_filter.2 ⟨hul, hfu⟩
      rw [hnil] at this; simp at this
    simp [this]
  · simp only [h0, if_false]
    have hentry : ∀ u v eu ev, isFrequent p0 u = true → isFrequent p0 v = true →
        lookup p0.ppWordTable p0.wordTableSize p0.wordTableSeed u = some eu →
        lookup p0.ppWordTable p0.wordTableSize p0.wordTableSeed v = some ev →
        (update_word_dep_matrix (candidate_scan_dep st.1 st.2.1 l).1.wordNumStr
          (candidate_scan_dep st.1 st.2.1 l).2.2
          (candidate_scan_dep st.1 st.2.1 l).1).wordDepMatrix
            (eu.number * p0.wordDepMatrixBreadth + ev.number)
          = linesWithBoth u v (done ++ [l]) := by
      intro u v eu ev hfu hfv hu hv
      have e := update_word_dep_matrix_entry p0 hinj hlt (candidate_scan_dep st.1 st.2.1 l).1 l
        (candidate_scan_dep st.1 st.2.1 l).2.2 hbr hsc.sto_sound hsc.sto_complete
        hsc.sto_inj u v eu ev hfu hfv hu hv
      rw [e, hmat, h.entries u v eu ev hfu hfv hu hv, linesWithBoth_snoc]
    have hw3 : WInv p0 (update_word_dep_matrix (candidate_scan_dep st.1 st.2.1 l).1.wordNumStr
        (candidate_scan_dep st.1 st.2.1 l).2.2 (candidate_scan_dep st.1 st.2.1 l).1) :=
      { wsize := hw2.wsize, wseed := hw2.wseed, wsame := hw2.wsame }
    split
    · exact { words := hw3, breadth := hbr, entries := hentry }
    · obtain ⟨w1, w2, w3⟩ := put_cluster_wordTable
        (update_word_dep_matrix (candidate_scan_dep st.1 st.2.1 l).1.wordNumStr
          (candidate_scan_dep st.1 st.2.1 l).2.2 (candidate_scan_dep st.1 st.2.1 l).1)
        (candidate_scan_dep st.1 st.2.1 l).2.1 st.2.2
      obtain ⟨m1, m2⟩ := put_cluster_matrix
        (update_word_dep_matrix (candidate_scan_dep st.1 st.2.1 l).1.wordNumStr
          (candidate_scan_dep st.1 st.2.1 l).2.2 (candidate_scan_dep st.1 st.2.1 l).1)
        (candidate_scan_dep st.1 st.2.1 l).2.1 st.2.2
      refine { words := ?_, breadth := ?_, entries := ?_ }
      · refine { wsize := ?_, wseed := ?_, wsame := ?_ }
        · rw [w2]; exact hw3.wsize
        · rw [w3]; exact hw3.wseed
        · intro w; rw [w1]; exact hw3.wsame w
      · rw [m2]; exact hbr
      · intro u v eu ev hfu hfv hu hv
        rw [m1]; exact hentry u v eu ev hfu hfv hu hv

theorem create_cluster_candidates_word_dep_lines_inv (p0 : Parameters)
    (hinj : NumbersInjective p0) (hlt : NumbersBelow p0 p0.wordDepMatrixBreadth)
    (input : List (List Key)) :
    ∀ (st : Parameters × CandidateLocals × Nat) (done : List (List Key)),
      MatrixInv p0 st.1 done →
      MatrixInv p0 (input.foldl create_cluster_candidates_word_dep_line st).1 (done ++ input) := by
  induction input with
  | nil => intro st done h; simpa using h
  | cons l rest ih =>
    intro st done h
    have h1 := create_cluster_candidates_word_dep_line_inv p0 hinj hlt st done l h
    have := ih _ _ h1
    simpa [List.foldl_cons, List.append_assoc] using this

theorem word_dep_matrix_general (pParam : Parameters) (input : List (List Key))
    (loc : CandidateLocals) (cc : Nat) (hinj : NumbersInjective pParam)
    (hlt : NumbersBelow pParam pParam.wordDepMatrixBreadth) :
    ∀ u v eu ev, isFrequent pParam u = true → isFrequent pParam v = true →
      lookup pParam.ppWordTable pParam.wordTableSize pParam.wordTableSeed u = some eu →
      lookup pParam.ppWordTable pParam.wordTableSize pParam.wordTableSeed v = some ev →
      (create_cluster_candidates_word_dep pParam input loc cc).1.wordDepMatrix
        (eu.number * pParam.wordDepMatrixBreadth + ev.number) = linesWithBoth u v input := by
  have hinit : MatrixInv pParam
      { pParam with
          ppClusterTable := List.replicate pParam.clusterTableSize [],
          wordDepMatrix := (List.range pParam.wordDepMatrixBreadth).foldl (fun D p =>
            (List.range pParam.wordDepMatrixBreadth).foldl (fun D q =>
              arrSet D (p * pParam.wordDepMatrixBreadth + q) 0) D) pParam.wordDepMatrix } [] := by
    refine { words := { wsize := rfl, wseed := rfl, wsame := fun _ => rfl }, breadth := rfl,
             entries := ?_ }
    intro u v eu ev _ _ hu hv
    show (List.foldl _ _ _ : Nat → Nat) _ = _
    rw [foldl_zero2_hit (fun p q => p * pParam.wordDepMatrixBreadth + q) _ _ _ eu.number
      ev.number (List.mem_range.2 (hlt u eu hu)) (List.mem_range.2 (hlt v ev hv))]
    rfl
  have := create_cluster_candidates_word_dep_lines_inv pParam hinj hlt input
    (_, loc, cc) [] hinit
  rw [List.nil_append] at this
  exact this.entries

theorem lookup_mem_flatten {t : Table} {m s : Nat} {k : Key} {e : Elem}
    (h : lookup t m s k = some e) : e ∈ t.flatten := by
  unfold lookup at h
  have hmem : e ∈ t.getD (str2hash k m s) [] := List.mem_of_find?_eq_some h
  have hne : t.getD (str2hash k m s) [] ≠ [] := List.ne_nil_of_mem hmem
  have hlt := getD_ne_nil_lt t _ hne
  rw [List.mem_flatten]
  refine ⟨t.getD (str2hash k m s) [], ?_, hmem⟩
  rw [List.getD_eq_getElem?_getD, List.getElem?_eq_getElem hlt]
  exact List.getElem_mem hlt

theorem prepare_word_dep_numbers (q : Parameters)
    (hlen : q.ppWordTable.length = q.wordTableSize) :
    NumbersInjective (prepare_word_dep q) ∧
    NumbersBelow (prepare_word_dep q) (prepare_word_dep q).wordDepMatrixBreadth := by
  obtain ⟨-, h2, -⟩ := find_frequent_words_sweep q hlen
  constructor
  · intro u v eu ev hu hv hn
    have hu' := lookup_mem_flatten hu
    have hv' := lookup_mem_flatten hv
    have hnd : ((find_frequent_words q).1.ppWordTable.flatten.map Elem.number).Nodup := by
      rw [h2]; exact List.nodup_range' _ _
    have := List.inj_on_of_nodup_map hnd hu' hv' hn
    rw [← lookup_key hu, ← lookup_key hv, this]
  · intro u eu hu
    have hu' := lookup_mem_flatten hu
    have : eu.number ∈ (find_frequent_words q).1.ppWordTable.flatten.map Elem.number :=
      List.mem_map_of_mem _ hu'
    rw [h2, List.mem_range'_1] at this
    show eu.number < (find_frequent_words q).2 + 1
    omega

theorem linesWithBoth_self (u : Key) (input : List (List Key)) :
    linesWithBoth u u input = linesWith u input := by
  unfold linesWithBoth linesWith
  congr 1
  funext l
  simp

/-- C10: after `find_frequent_words` and the fused candidate and
word-dependency pass, for all frequent words `u` and `v` with numbers `i` and
`j` the matrix entry `D[i][j]` (stored at `i * breadth + j`) is the number of
input lines in which both words occur, and `D[i][i]` is the number of lines that
contain `u`. -/
theorem word_dep_matrix_counts (q : Parameters) (input : List (List Key))
    (loc : CandidateLocals) (cc : Nat) (hlen : q.ppWordTable.length = q.wordTableSize) :
    ∀ u v eu ev, isFrequent (prepare_word_dep q) u = true →
      isFrequent (prepare_word_dep q) v = true →
      lookup (prepare_word_dep q).ppWordTable q.wordTableSize q.wordTableSeed u = some eu →
      lookup (prepare_word_dep q).ppWordTable q.wordTableSize q.wordTableSeed v = some ev →
      (create_cluster_candidates_word_dep (prepare_word_dep q) input loc cc).1.wordDepMatrix
          (eu.number * (prepare_word_dep q).wordDepMatrixBreadth + ev.number)
        = linesWithBoth u v input ∧
      (create_cluster_candidates_word_dep (prepare_word_dep q) input loc cc).1.wordDepMatrix
          (eu.number * (prepare_word_dep q).wordDepMatrixBreadth + eu.number)
        = linesWith u input := by
  obtain ⟨hinj, hlt⟩ := prepare_word_dep_numbers q hlen
  intro u v eu ev hfu hfv hu hv
  constructor
  · exact word_dep_matrix_general (prepare_word_dep q) input loc cc hinj hlt u v eu ev
      hfu hfv hu hv
  · rw [← linesWithBoth_self]
    exact word_dep_matrix_general (prepare_word_dep q) input loc cc hinj hlt u u eu eu
      hfu hfu hu hu

theorem word_dep_matrix_counts_witness :
    exampleVocabulary.ppWordTable.length = exampleVocabulary.wordTableSize ∧
    isFrequent (prepare_word_dep exampleVocabulary) [65] = true ∧
    isFrequent (prepare_word_dep exampleVocabulary) [66] = true ∧
    lookup (prepare_word_dep exampleVocabulary).ppWordTable exampleVocabulary.wordTableSize
      exampleVocabulary.wordTableSeed [65] = some ⟨[65], 3, 1, none⟩ ∧
    lookup (prepare_word_dep exampleVocabulary).ppWordTable exampleVocabulary.wordTableSize
      exampleVocabulary.wordTableSeed [66] = some ⟨[66], 3, 2, none⟩ ∧
    (create_cluster_candidates_word_dep (prepare_word_dep exampleVocabulary) exampleInput {}
        0).1.wordDepMatrix (1 * (prepare_word_dep exampleVocabulary).wordDepMatrixBreadth + 2)
      = linesWithBoth [65] [66] exampleInput ∧
    (create_cluster_candidates_word_dep (prepare_word_dep exampleVocabulary) exampleInput {}
        0).1.wordDepMatrix (1 * (prepare_word_dep exampleVocabulary).wordDepMatrixBreadth + 1)
      = linesWith [65] exampleInput :=
  ⟨by decide, by decide, by decide, by decide, by decide,
    word_dep_matrix_counts exampleVocabulary exampleInput {} 0 (by decide) [65] [66]
      ⟨[65], 3, 1, none⟩ ⟨[66], 3, 2, none⟩ (by decide) (by decide) (by decide) (by decide)⟩
theorem chain_modify_find (key K : Key) (f : Elem → Elem) (hf : ∀ e, (f e).pKey = e.pKey)
    (c : List Elem) :
    (chain_modify key f c).find? (fun e => decide (e.pKey = K)) =
      if K = key then (c.find? (fun e => decide (e.pKey = K))).map f
      else c.find? (fun e => decide (e.pKey = K)) := by
  induction c with
  | nil => simp [chain_modify]
  | cons e rest ih =>
    unfold chain_modify
    by_cases h1 : e.pKey = key
    · simp only [h1, if_true]
      by_cases h2 : K = key
      · subst h2
        simp [List.find?_cons, hf, h1]
      · have : ¬ key = K := fun h => h2 h.symm
        simp [List.find?_cons, hf, h1, h2, this]
    · simp only [h1, if_false]
      by_cases h2 : K = key
      · subst h2
        simp only [List.find?_cons, h1, decide_False, ih, if_true]
      · simp only [h2, if_false] at ih ⊢
        simp only [List.find?_cons, ih]

theorem lookup_elem_add_count (T : Table) (m s : Nat) (key K : Key) (add : Nat) :
    lookup (elem_add_count key add T m s) m s K =
      if K = key then (lookup T m s K).map (fun e => { e with count := e.count + add })
      else lookup T m s K := by
  unfold lookup elem_add_count
  by_cases hh : str2hash key m s = str2hash K m s
  · by_cases hlen : str2hash key m s < T.length
    · simp only [hh] at hlen ⊢
      rw [getD_set_same _ _ _ hlen]
      exact chain_modify_find key K (fun e => { e with count := e.count + add })
        (fun _ => rfl) _
    · have e1 : T.set (str2hash key m s) (chain_modify key
          (fun e => { e with count := e.count + add }) (T.getD (str2hash key m s) [])) = T := by
        apply List.set_eq_of_length_le; omega
      simp only [] at e1 ⊢
      rw [e1]
      have e2 : T.getD (str2hash K m s) [] = [] := by
        rw [← hh, List.getD_eq_getElem?_getD, List.getElem?_eq_none (by omega)]; rfl
      rw [e2]; simp
  · have hne : K ≠ key := by rintro rfl; exact hh rfl
    simp only [hne, if_false]
    rw [getD_set_other _ _ _ _ hh]

/-! ## The search as a list of additions -/

theorem aggregate_supports_append (pc : Nat) (L1 L2 : List Nat) (p : Parameters) :
    aggregate_supports pc (L1 ++ L2) p = aggregate_supports pc L2 (aggregate_supports pc L1 p) := by
  unfold aggregate_supports
  rw [List.foldl_append]

theorem aggregate_supports_nil (pc : Nat) (p : Parameters) :
    aggregate_supports pc [] p = p := rfl

theorem aggregate_end_eq (pc : Nat) (d : TrieData) (p : Parameters) :
    aggregate_end pc d p = aggregate_supports pc (matched_end pc d) p := by
  unfold aggregate_end matched_end
  cases d.pIsEnd with
  | none => rfl
  | some o =>
    by_cases h : o ≠ pc
    · simp only [if_pos h]; rfl
    · simp only [if_neg h]; rfl

theorem find_more_specific_tail_eq (pc : Nat) (c : Cluster) (t : TrieNode) :
    ∀ (mm : Int × Int) (p : Parameters),
      find_more_specific_tail pc c t mm p = aggregate_supports pc (matched_tail pc c t mm) p := by
  induction t with
  | null => intro mm p; rfl
  | node d ch nx ihc ihn =>
    intro mm p
    simp only [find_more_specific_tail, matched_tail]
    rw [aggregate_supports_append, ihn]
    congr 1
    split
    · rw [ihc]
    · split
      · rfl
      · rw [ihc, aggregate_supports_append, aggregate_end_eq]

theorem find_more_specific_loop_eq (pc : Nat) (c : Cluster) (hashOf : Key → Nat) (t : TrieNode) :
    ∀ (constant : Nat) (mm : Int × Int) (hash : Nat) (p : Parameters),
      find_more_specific_loop pc c hashOf t constant mm hash p =
        aggregate_supports pc (matched_loop pc c hashOf t constant mm hash) p := by
  induction t with
  | null => intro constant mm hash p; rfl
  | node d ch nx ihc ihn =>
    intro constant mm hash p
    simp only [find_more_specific_loop, matched_loop]
    split
    · rw [aggregate_supports_append, ihn, ihc]
    · split
      · rw [ihn]
      · split
        · split
          · rw [aggregate_supports_append, ihn, ihc]
          · split
            · split
              · rw [aggregate_supports_append, ihn, aggregate_end_eq]
              · rw [aggregate_supports_append, aggregate_supports_append, ihn,
                  find_more_specific_tail_eq]
                split
                · rw [aggregate_end_eq]
                · rfl
            · rw [ihn]
        · rw [aggregate_supports_append, ihn, ihc]

theorem TableOnly.refl_table (p : Parameters) : TableOnly p p :=
  ⟨rfl, rfl, rfl, rfl, rfl, rfl, rfl, rfl, rfl⟩

theorem TableOnly.trans_table {p q r : Parameters} (h1 : TableOnly p q) (h2 : TableOnly q r) :
    TableOnly p r :=
  ⟨h2.clusters.trans h1.clusters, h2.root.trans h1.root, h2.psize.trans h1.psize,
    h2.pseed.trans h1.pseed, h2.csize.trans h1.csize, h2.cseed.trans h1.cseed,
    h2.family.trans h1.family, h2.biggest.trans h1.biggest, h2.support.trans h1.support⟩

theorem TableOnly.cluster_eq {p q : Parameters} (h : TableOnly p q) (ptr : Nat) :
    q.cluster ptr = p.cluster ptr := by
  unfold Parameters.cluster
  rw [h.clusters]

theorem matched_congr {p q : Parameters} (h : TableOnly p q) (ptr : Nat) :
    matched q ptr = matched p ptr := by
  unfold matched get_common_parent
  simp only [h.cluster_eq, h.root, h.psize, h.pseed]

theorem support_sum_congr {p q : Parameters} (h : TableOnly p q) (L : List Nat) :
    support_sum q L = support_sum p L := by
  unfold support_sum
  simp only [h.cluster_eq]

theorem support_sum_nil (p : Parameters) : support_sum p [] = 0 := rfl

theorem support_sum_cons (p : Parameters) (o : Nat) (L : List Nat) :
    support_sum p (o :: L) = (p.cluster o).count + support_sum p L := by
  simp [support_sum]

theorem aggregate_support_only (pc o : Nat) (p : Parameters) :
    TableOnly p (aggregate_support pc o p) :=
  ⟨rfl, rfl, rfl, rfl, rfl, rfl, rfl, rfl, rfl⟩

theorem aggregate_supports_spec (pc : Nat) (L : List Nat) :
    ∀ p : Parameters, TableOnly p (aggregate_supports pc L p) ∧
      ∀ K, lookup (aggregate_supports pc L p).ppClusterTable p.clusterTableSize
          p.clusterTableSeed K =
        if K = (p.cluster pc).pElem then
          (lookup p.ppClusterTable p.clusterTableSize p.clusterTableSeed K).map
            (fun e => { e with count := e.count + support_sum p L })
        else lookup p.ppClusterTable p.clusterTableSize p.clusterTableSeed K := by
  induction L with
  | nil =>
    intro p
    refine ⟨TableOnly.refl_table p, ?_⟩
    intro K
    simp only [aggregate_supports_nil, support_sum_nil, Nat.add_zero]
    split
    · cases lookup p.ppClusterTable p.clusterTableSize p.clusterTableSeed K <;> rfl
    · rfl
  | cons o L ih =>
    intro p
    have h1 := aggregate_support_only pc o p
    obtain ⟨h2, h3⟩ := ih (aggregate_support pc o p)
    refine ⟨h1.trans_table h2, ?_⟩
    intro K
    have e : aggregate_supports pc (o :: L) p = aggregate_supports pc L (aggregate_support pc o p) :=
      rfl
    rw [e]
    have h3K := h3 K
    rw [h1.csize, h1.cseed, h1.cluster_eq, support_sum_congr h1] at h3K
    rw [h3K]
    have e2 : (aggregate_support pc o p).ppClusterTable =
        elem_add_count (p.cluster pc).pElem (p.cluster o).count p.ppClusterTable
          p.clusterTableSize p.clusterTableSeed := rfl
    rw [e2, lookup_elem_add_count]
    by_cases hK : K = (p.cluster pc).pElem
    · simp only [hK, if_true, support_sum_cons]
      cases lookup p.ppClusterTable p.clusterTableSize p.clusterTableSeed (p.cluster pc).pElem with
      | none => rfl
      | some e0 => simp only [Option.map_some', Nat.add_assoc]
    · simp only [hK, if_false]

theorem aggregate_candidate_eq (ptr : Nat) (p : Parameters) :
    (if get_first_wildcard_location (p.cluster ptr) ≥ 0 then aggregate_candidate ptr p else p) =
      aggregate_supports ptr (matched p ptr) p := by
  unfold matched
  by_cases hloc : get_first_wildcard_location (p.cluster ptr) ≥ 0
  · simp only [if_pos hloc]
    unfold aggregate_candidate find_more_specific
    simp only []
    cases get_common_parent p ptr with
    | none => rfl
    | some pParent =>
      simp only []
      cases p.pPrefixRoot.find pParent with
      | none => rfl
      | some r =>
        obtain ⟨d, ch⟩ := r
        simp only []
        split
        · exact find_more_specific_tail_eq _ _ _ _ _
        · exact find_more_specific_loop_eq _ _ _ _ _ _ _ _
  · simp only [if_neg hloc]
    rfl

theorem cluster_setCluster (p : Parameters) (a ptr : Nat) (c : Cluster) :
    (p.setCluster a c).cluster ptr =
      if a = ptr ∧ a < p.clusters.length then c else p.cluster ptr := by
  unfold Parameters.cluster Parameters.setCluster
  simp only [List.getD_eq_getElem?_getD, List.getElem?_set]
  by_cases h : a = ptr
  · subst h
    by_cases h2 : a < p.clusters.length
    · simp [h2]
    · simp [h2, List.getElem?_eq_none (Nat.le_of_not_lt h2)]
  · simp [h]

theorem aggregate_search_cons (ptr : Nat) (rest : List Nat) (p : Parameters) :
    aggregate_search (ptr :: rest) p =
      aggregate_search rest (aggregate_supports ptr (matched p ptr) p) := by
  unfold aggregate_search
  rw [List.foldl_cons, aggregate_candidate_eq]

theorem aggregate_search_spec (order : List Nat) :
    ∀ p : Parameters, TableOnly p (aggregate_search order p) ∧
      ∀ K, lookup (aggregate_search order p).ppClusterTable p.clusterTableSize
          p.clusterTableSeed K =
        (lookup p.ppClusterTable p.clusterTableSize p.clusterTableSeed K).map
          (fun e => { e with count := e.count +
            ((order.filter (fun ptr => decide ((p.cluster ptr).pElem = K))).map
              (fun ptr => support_sum p (matched p ptr))).sum }) := by
  induction order with
  | nil =>
    intro p
    refine ⟨TableOnly.refl_table p, ?_⟩
    intro K
    show lookup p.ppClusterTable _ _ K = _
    cases lookup p.ppClusterTable p.clusterTableSize p.clusterTableSeed K <;> rfl
  | cons ptr rest ih =>
    intro p
    obtain ⟨h1, h2⟩ := aggregate_supports_spec ptr (matched p ptr) p
    obtain ⟨h3, h4⟩ := ih (aggregate_supports ptr (matched p ptr) p)
    rw [aggregate_search_cons]
    refine ⟨h1.trans_table h3, ?_⟩
    intro K
    have h4K := h4 K
    rw [h1.csize, h1.cseed] at h4K
    simp only [h1.cluster_eq, matched_congr h1, support_sum_congr h1] at h4K
    rw [h4K, h2 K]
    by_cases hK : (p.cluster ptr).pElem = K
    · have hK2 : K = (p.cluster ptr).pElem := hK.symm
      simp only [if_pos hK2, List.filter_cons, hK, decide_True, if_true, List.map_cons,
        List.sum_cons]
      cases lookup p.ppClusterTable p.clusterTableSize p.clusterTableSeed K with
      | none => rfl
      | some e0 => simp only [Option.map_some', Nat.add_assoc]
    · have hK2 : ¬ K = (p.cluster ptr).pElem := fun h => hK h.symm
      simp only [if_neg hK2, List.filter_cons, hK, decide_False]
      rfl

theorem elem_count_congr (p q : Parameters) (ptr : Nat)
    (ht : q.ppClusterTable = p.ppClusterTable) (hs : q.clusterTableSize = p.clusterTableSize)
    (hd : q.clusterTableSeed = p.clusterTableSeed)
    (hk : (q.cluster ptr).pElem = (p.cluster ptr).pElem) :
    elem_count q ptr = elem_count p ptr := by
  unfold elem_count
  rw [ht, hs, hd, hk]

theorem aggregate_commit_spec (order : List Nat) :
    ∀ p : Parameters,
      (aggregate_commit order p).ppClusterTable = p.ppClusterTable ∧
      (aggregate_commit order p).clusterTableSize = p.clusterTableSize ∧
      (aggregate_commit order p).clusterTableSeed = p.clusterTableSeed ∧
      (aggregate_commit order p).clusters.length = p.clusters.length ∧
      ∀ ptr, (aggregate_commit order p).cluster ptr =
        { p.cluster ptr with count :=
            if ptr ∈ order ∧ ptr < p.clusters.length then elem_count p ptr
            else (p.cluster ptr).count } := by
  induction order with
  | nil =>
    intro p
    refine ⟨rfl, rfl, rfl, rfl, ?_⟩
    intro ptr
    simp [aggregate_commit]
  | cons a rest ih =>
    intro p
    obtain ⟨q, hq⟩ : ∃ q, q = p.setCluster a { p.cluster a with count := elem_count p a } :=
      ⟨_, rfl⟩
    have e : aggregate_commit (a :: rest) p = aggregate_commit rest q := by rw [hq]; rfl
    have hqt : q.ppClusterTable = p.ppClusterTable := by rw [hq]; rfl
    have hqs : q.clusterTableSize = p.clusterTableSize := by rw [hq]; rfl
    have hqd : q.clusterTableSeed = p.clusterTableSeed := by rw [hq]; rfl
    have hlen : q.clusters.length = p.clusters.length := by
      rw [hq]; simp [Parameters.setCluster]
    have hqc : ∀ ptr, q.cluster ptr = if a = ptr ∧ a < p.clusters.length then
        { p.cluster a with count := elem_count p a } else p.cluster ptr := by
      intro ptr; rw [hq, cluster_setCluster]
    have hkey : ∀ ptr, (q.cluster ptr).pElem = (p.cluster ptr).pElem := by
      intro ptr
      rw [hqc]
      split
      · rename_i h; rw [← h.1]
      · rfl
    rw [e]
    obtain ⟨h1, h2, h3, h4, h5⟩ := ih q
    refine ⟨h1.trans hqt, h2.trans hqs, h3.trans hqd, h4.trans hlen, ?_⟩
    intro ptr
    rw [h5 ptr, hlen, elem_count_congr p q ptr hqt hqs hqd (hkey ptr), hqc]
    by_cases hr : ptr ∈ rest
    · by_cases hl : ptr < p.clusters.length
      · by_cases ha : a = ptr
        · subst ha; simp [hr, hl]
        · simp [hr, hl, ha]
      · have hc : ¬ (a = ptr ∧ a < p.clusters.length) := by
          rintro ⟨h1, h2⟩; omega
        simp [hr, hl, hc]
    · by_cases ha : a = ptr
      · subst ha
        by_cases hl : a < p.clusters.length
        · simp [hr, hl]
        · simp [hr, hl]
      · have ha2 : ¬ ptr = a := fun h => ha h.symm
        simp [hr, ha, ha2]

theorem filter_eq_singleton (f : Nat → Bool) (order : List Nat) (ptr : Nat)
    (hnodup : order.Nodup) (hmem : ptr ∈ order) (hf : f ptr = true)
    (huniq : ∀ b ∈ order, f b = true → b = ptr) : order.filter f = [ptr] := by
  induction order with
  | nil => cases hmem
  | cons a rest ih =>
    rw [List.nodup_cons] at hnodup
    by_cases ha : a = ptr
    · subst ha
      rw [List.filter_cons, hf, if_pos rfl]
      congr 1
      rw [List.filter_eq_nil_iff]
      intro b hb hfb
      have := huniq b (List.mem_cons_of_mem _ hb) hfb
      subst this
      exact hnodup.1 hb
    · have hfa : f a = false := by
        cases h : f a with
        | false => rfl
        | true => exact absurd (huniq a (List.mem_cons_self _ _) h) ha
      rw [List.filter_cons, hfa]
      simp only [Bool.false_eq_true, if_false]
      apply ih hnodup.2
      · rcases List.mem_cons.1 hmem with h | h
        · exact absurd h.symm ha
        · exact h
      · intro b hb
        exact huniq b (List.mem_cons_of_mem _ hb)

theorem aggregate_in_order_count (p : Parameters) (order : List Nat) (hnodup : order.Nodup)
    (hvalid : ∀ ptr ∈ order, ptr < p.clusters.length)
    (hinj : ∀ a ∈ order, ∀ b ∈ order, (p.cluster a).pElem = (p.cluster b).pElem → a = b)
    (hstage : ∀ ptr ∈ order,
      (lookup p.ppClusterTable p.clusterTableSize p.clusterTableSeed (p.cluster ptr).pElem).map
        Elem.count = some (p.cluster ptr).count) :
    ∀ ptr, (aggregate_in_order order p).cluster ptr =
      { p.cluster ptr with count :=
          if ptr ∈ order then (p.cluster ptr).count + support_sum p (matched p ptr)
          else (p.cluster ptr).count } := by
  intro ptr
  obtain ⟨h1, h2⟩ := aggregate_search_spec order p
  obtain ⟨c1, c2, c3, c4, c5⟩ := aggregate_commit_spec order (aggregate_search order p)
  unfold aggregate_in_order
  rw [c5 ptr, h1.cluster_eq, h1.clusters]
  by_cases hm : ptr ∈ order
  · have hv := hvalid ptr hm
    simp only [hm, hv, and_self, if_true]
    congr 1
    unfold elem_count
    rw [h1.csize, h1.cseed, h1.cluster_eq, h2]
    have hs := hstage ptr hm
    cases hl : lookup p.ppClusterTable p.clusterTableSize p.clusterTableSeed
        (p.cluster ptr).pElem with
    | none => rw [hl] at hs; cases hs
    | some e0 =>
      rw [hl] at hs
      simp only [Option.map_some', Option.some.injEq] at hs
      simp only [Option.map_some', hs]
      rw [filter_eq_singleton _ order ptr hnodup hm (by simp)]
      · simp
      · intro b hb hfb
        exact hinj b hb ptr hm (by simpa using hfb)
  · simp only [hm, false_and, if_false]

/-- C9: after `aggregate_candidates` the count of every candidate is its own
count from before the aggregation plus the sum of the counts from before the
aggregation of the candidates matched for it, and the two loops give the same
counts for every order in which the candidates are processed.  The hypotheses
say that the candidates of the family buckets are distinct valid records with
distinct keys, and that the table record of each holds its count. -/
theorem aggregate_candidates_counts (pParam : Parameters)
    (hnodup : (family_order pParam).Nodup)
    (hvalid : ∀ ptr ∈ family_order pParam, ptr < pParam.clusters.length)
    (hinj : ∀ a ∈ family_order pParam, ∀ b ∈ family_order pParam,
      (pParam.cluster a).pElem = (pParam.cluster b).pElem → a = b)
    (hstage : ∀ ptr ∈ family_order pParam,
      (lookup pParam.ppClusterTable pParam.clusterTableSize pParam.clusterTableSeed
        (pParam.cluster ptr).pElem).map Elem.count = some (pParam.cluster ptr).count) :
    ∀ order, (family_order pParam).Perm order → ∀ ptr ∈ family_order pParam,
      ((aggregate_candidates pParam).cluster ptr).count =
        (pParam.cluster ptr).count + support_sum pParam (matched pParam ptr) ∧
      ((aggregate_in_order order pParam).cluster ptr).count =
        ((aggregate_candidates pParam).cluster ptr).count := by
  intro order hperm ptr hptr
  have h1 := aggregate_in_order_count pParam (family_order pParam) hnodup hvalid hinj hstage ptr
  have h2 := aggregate_in_order_count pParam order (hperm.nodup_iff.1 hnodup)
    (fun a ha => hvalid a (hperm.mem_iff.2 ha))
    (fun a ha b hb => hinj a (hperm.mem_iff.2 ha) b (hperm.mem_iff.2 hb))
    (fun a ha => hstage a (hperm.mem_iff.2 ha)) ptr
  have e : aggregate_candidates pParam = aggregate_in_order (family_order pParam) pParam := rfl
  rw [e, h1, h2]
  simp only [hptr, hperm.mem_iff.1 hptr, if_true, and_self]

theorem aggregate_candidates_counts_witness :
    (family_order aggrTrie).Nodup ∧
    (family_order aggrTrie).Perm [0, 1, 2] ∧ 0 ∈ family_order aggrTrie ∧
    matched aggrTrie 0 = [1] ∧
    ((aggregate_candidates aggrTrie).cluster 0).count = 2 + 1 ∧
    ((aggregate_in_order [0, 1, 2] aggrTrie).cluster 0).count =
      ((aggregate_candidates aggrTrie).cluster 0).count :=
  have h := aggregate_candidates_counts aggrTrie (by decide!) (by decide!) (by decide!)
    (by decide!) [0, 1, 2] (by decide!) 0 (by decide!)
  ⟨by decide!, by decide!, by decide!, by decide!, by rw [h.1]; decide!, h.2⟩

/-! ## The family buckets after the candidate pass -/

theorem put_cluster_new_family (p : Parameters) (loc : CandidateLocals) (cc : Nat) (m s : Nat)
    (hm : 0 < m) (hsize : p.clusterTableSize = m) (hseed : p.clusterTableSeed = s)
    (hlen : p.ppClusterTable.length = m)
    (hnone : lookup p.ppClusterTable m s loc.key = none) :
    (put_cluster p loc cc).1.pClusterFamily =
      arrSet p.pClusterFamily loc.constants (p.clusters.length :: p.pClusterFamily loc.constants) ∧
    (put_cluster p loc cc).1.biggestConstants =
      (if loc.constants > p.biggestConstants then loc.constants else p.biggestConstants) := by
  have hh : str2hash loc.key m s < p.ppClusterTable.length := by
    rw [hlen]; exact str2hash_lt _ _ _ hm
  have hh1 : str2hash loc.key m s < (add_elem loc.key p.ppClusterTable m s).length := by
    rw [add_elem_length]; exact hh
  have hf := front_add_elem loc.key p.ppClusterTable m s hh
  rw [hnone] at hf
  simp only [added] at hf
  have hf2 := front_store_front (add_elem loc.key p.ppClusterTable m s) (str2hash loc.key m s)
    { pKey := loc.key, count := 1, number := 0, pCluster := some p.clusters.length } _ hh1 hf
  simp only [put_cluster, hsize, hseed, hf, if_true, create_cluster_instance, hf2,
    adjust_cluster_instance, Parameters.cluster, Parameters.setCluster, getD_append_length,
    set_append_length]
  exact ⟨trivial, trivial⟩

theorem put_cluster_old_family (p : Parameters) (loc : CandidateLocals) (cc : Nat) (m s : Nat)
    (hm : 0 < m) (hsize : p.clusterTableSize = m) (hseed : p.clusterTableSeed = s)
    (hlen : p.ppClusterTable.length = m) (e : Elem) (ptr : Nat) (c : Cluster)
    (hsome : lookup p.ppClusterTable m s loc.key = some e) (hcount : 1 ≤ e.count)
    (hptr : e.pCluster = some ptr) (hc : p.clusters[ptr]? = some c) :
    (put_cluster p loc cc).1.pClusterFamily = p.pClusterFamily ∧
    (put_cluster p loc cc).1.biggestConstants = p.biggestConstants := by
  have hh : str2hash loc.key m s < p.ppClusterTable.length := by
    rw [hlen]; exact str2hash_lt _ _ _ hm
  have hf := front_add_elem loc.key p.ppClusterTable m s hh
  rw [hsome] at hf
  simp only [added] at hf
  have hne : ¬ (e.count + 1 = 1) := by omega
  have hget : p.clusters.getD ptr {} = c := by
    rw [List.getD_eq_getElem?_getD, hc]; rfl
  simp only [put_cluster, hsize, hseed, hf, hne, if_false, hptr,
    adjust_cluster_instance, Parameters.cluster, Parameters.setCluster, hget]
  exact ⟨trivial, trivial⟩

theorem cluster_append_old (l : List Cluster) (c : Cluster) (ptr : Nat) (h : ptr < l.length) :
    (l ++ [c]).getD ptr {} = l.getD ptr {} := by
  simp [List.getD_eq_getElem?_getD, List.getElem?_append_left h]

theorem put_cluster_fam (p0 p : Parameters) (m s : Nat) (hm : 0 < m) (done : List (List Key))
    (l : List Key) (loc : CandidateLocals) (cc : Nat) (hinv : CandInv p0 p m s done)
    (hfam : FamInv p m s)
    (hS : constantsOf p0 l ≠ []) (hnl : ∀ w ∈ l, CLUSTERSEP ∉ w)
    (hkey : loc.key = keyOf (constantsOf p0 l))
    (hconst : loc.constants = (constantsOf p0 l).length) :
    FamInv (put_cluster p loc cc).1 m s := by
  have hSnl : ∀ w ∈ constantsOf p0 l, CLUSTERSEP ∉ w :=
    fun w hw => hnl w (List.mem_filter.1 hw).1
  have hh : str2hash loc.key m s < p.ppClusterTable.length := by
    rw [hinv.len]; exact str2hash_lt _ _ _ hm
  have hpos : 1 ≤ loc.constants := by
    rw [hconst]; exact List.length_pos.2 hS
  by_cases hLs : linesOf p0 (constantsOf p0 l) done = []
  · -- a new candidate
    have hnone : lookup p.ppClusterTable m s loc.key = none := by
      rw [hkey]; exact hinv.absent _ hS hSnl hLs
    obtain ⟨c1, r1, r2, r3, r4, r5, r6, r7, r8, r9, r10⟩ :=
      put_cluster_new p loc cc m s hm hinv.csize hinv.cseed hinv.len hnone
    obtain ⟨f1, f2⟩ :=
      put_cluster_new_family p loc cc m s hm hinv.csize hinv.cseed hinv.len hnone
    have hself := lookup_step_self loc.key p.ppClusterTable m s
      { pKey := loc.key, count := 1, number := 0, pCluster := some p.clusters.length } hh rfl
    have hoth := fun k hk => lookup_step_other loc.key k hk p.ppClusterTable m s
      { pKey := loc.key, count := 1, number := 0, pCluster := some p.clusters.length } hh rfl
    rw [← r1] at hself hoth
    have hcl_old : ∀ ptr, ptr < p.clusters.length →
        (put_cluster p loc cc).1.cluster ptr = p.cluster ptr := by
      intro ptr hptr
      unfold Parameters.cluster
      rw [r2]; exact cluster_append_old _ _ _ hptr
    have hcl_new : (put_cluster p loc cc).1.cluster p.clusters.length = c1 := by
      unfold Parameters.cluster
      rw [r2]; exact getD_append_length _ _ _
    have hbig : p.biggestConstants ≤ (put_cluster p loc cc).1.biggestConstants ∧
        loc.constants ≤ (put_cluster p loc cc).1.biggestConstants := by
      rw [f2]; split <;> omega
    refine { mem := ?_, all := ?_, nodup := ?_, back := ?_ }
    · intro i ptr hmem
      rw [f1] at hmem
      rw [r2, List.length_append, List.length_singleton]
      unfold arrSet at hmem
      by_cases hi : i = loc.constants
      · simp only [hi, if_true] at hmem
        rcases List.mem_cons.1 hmem with h | h
        · subst h
          rw [hcl_new, r7, hi]
          exact ⟨by omega, rfl, hpos, hbig.2⟩
        · obtain ⟨a1, a2, a3, a4⟩ := hfam.mem _ _ h
          rw [hcl_old ptr a1, hi]
          exact ⟨by omega, a2, a3, hbig.2⟩
      · simp only [hi, if_false] at hmem
        obtain ⟨a1, a2, a3, a4⟩ := hfam.mem _ _ hmem
        rw [hcl_old ptr a1]
        exact ⟨by omega, a2, a3, by omega⟩
    · intro ptr hptr
      rw [r2, List.length_append, List.length_singleton] at hptr
      rw [f1]
      unfold arrSet
      by_cases hp : ptr = p.clusters.length
      · subst hp
        rw [hcl_new, r7]
        simp
      · have hlt : ptr < p.clusters.length := by omega
        rw [hcl_old ptr hlt]
        have := hfam.all ptr hlt
        split
        · rename_i h; rw [h] at this; exact List.mem_cons_of_mem _ this
        · exact this
    · intro i
      rw [f1]
      unfold arrSet
      split
      · rw [List.nodup_cons]
        refine ⟨?_, hfam.nodup _⟩
        intro h
        have := (hfam.mem _ _ h).1
        omega
      · exact hfam.nodup i
    · intro ptr hptr
      rw [r2, List.length_append, List.length_singleton] at hptr
      by_cases hp : ptr = p.clusters.length
      · subst hp
        rw [hcl_new, r8]
        exact ⟨_, hself, rfl⟩
      · have hlt : ptr < p.clusters.length := by omega
        rw [hcl_old ptr hlt]
        obtain ⟨e, e1, e2⟩ := hfam.back ptr hlt
        have hk : (p.cluster ptr).pElem ≠ loc.key := by
          intro h; rw [h, hnone] at e1; cases e1
        rw [hoth _ hk]
        exact ⟨e, e1, e2⟩
  · -- a candidate seen before
    obtain ⟨e, ptr, c, q1, q2, q3, q4, q5, q6, q7, q8, q9⟩ := hinv.present _ hS hSnl hLs
    rw [← hkey] at q1
    have hcount : 1 ≤ e.count := by
      rw [q2]; exact List.length_pos.2 hLs
    obtain ⟨r1, r2, r3, r4, r5⟩ :=
      put_cluster_old p loc cc m s hm hinv.csize hinv.cseed hinv.len e ptr c q1 hcount q3 q4
    obtain ⟨f1, f2⟩ :=
      put_cluster_old_family p loc cc m s hm hinv.csize hinv.cseed hinv.len e ptr c q1 hcount
        q3 q4
    have hlt : ptr < p.clusters.length := hinv.bound _ e ptr q1 q3
    have hself := lookup_add_elem_self loc.key p.ppClusterTable m s hh
    rw [q1] at hself
    simp only [added] at hself
    have hoth := fun k hk => lookup_add_elem_other loc.key k hk p.ppClusterTable m s hh
    rw [← r1] at hself hoth
    have hget : p.cluster ptr = c := by
      unfold Parameters.cluster
      rw [List.getD_eq_getElem?_getD, q4]; rfl
    have hcl : ∀ a, ((put_cluster p loc cc).1.cluster a).constants = (p.cluster a).constants ∧
        ((put_cluster p loc cc).1.cluster a).pElem = (p.cluster a).pElem := by
      intro a
      unfold Parameters.cluster
      rw [r2]
      simp only [List.getD_eq_getElem?_getD, List.getElem?_set]
      by_cases ha : ptr = a
      · subst ha
        simp only [if_true, hlt, q4]
        exact ⟨rfl, rfl⟩
      · simp only [ha, if_false, and_self]
    have hlen2 : (put_cluster p loc cc).1.clusters.length = p.clusters.length := by
      rw [r2, List.length_set]
    refine { mem := ?_, all := ?_, nodup := ?_, back := ?_ }
    · intro i a hmem
      rw [f1] at hmem
      rw [hlen2, (hcl a).1, f2]
      exact hfam.mem i a hmem
    · intro a ha
      rw [hlen2] at ha
      rw [f1, (hcl a).1]
      exact hfam.all a ha
    · intro i
      rw [f1]; exact hfam.nodup i
    · intro a ha
      rw [hlen2] at ha
      rw [(hcl a).2]
      obtain ⟨e0, e1, e2⟩ := hfam.back a ha
      by_cases hk : (p.cluster a).pElem = loc.key
      · rw [hk] at e1 ⊢
        rw [q1] at e1
        cases e1
        exact ⟨_, hself, e2⟩
      · rw [hoth _ hk]
        exact ⟨e0, e1, e2⟩

theorem FamInv.of_wordTable_fam {p : Parameters} {m s : Nat} (h : FamInv p m s) (t : Table) :
    FamInv { p with ppWordTable := t } m s :=
  { mem := h.mem, all := h.all, nodup := h.nodup, back := h.back }

theorem create_cluster_candidates_line_fam (p0 : Parameters) (m s : Nat) (hm : 0 < m)
    (st : Parameters × CandidateLocals × Nat) (done : List (List Key)) (l : List Key)
    (hw : WInv p0 st.1) (hc : CandInv p0 st.1 m s done) (hf : FamInv st.1 m s)
    (hnl : ∀ w ∈ l, CLUSTERSEP ∉ w) :
    FamInv (create_cluster_candidates_line st l).1 m s := by
  have hfreq := hw.isFrequent_eq
  have hconsts : constantsOf st.1 l = constantsOf p0 l := by unfold constantsOf; rw [hfreq]
  obtain ⟨c1, c2, -, -⟩ := candidate_scan_decomposition st.1 st.2.1 l
  have c3 := candidate_scan_key st.1 st.2.1 l
  obtain ⟨t, ht⟩ := candidate_scan_fields st.1 st.2.1 l
  have hc2 : CandInv p0 (candidate_scan st.1 st.2.1 l).1 m s done := by
    rw [ht]; exact hc.of_wordTable t
  have hf2 : FamInv (candidate_scan st.1 st.2.1 l).1 m s := by
    rw [ht]; exact hf.of_wordTable_fam t
  change (candidate_scan st.1 st.2.1 l).2.constants = (constantsOf st.1 l).length at c1
  change (candidate_scan st.1 st.2.1 l).2.key = keyOf (constantsOf st.1 l) at c3
  rw [hconsts] at c1 c3
  unfold create_cluster_candidates_line
  simp only [hc2.csketch, ne_eq, not_true_eq_false, false_and, if_false]
  by_cases h0 : (candidate_scan st.1 st.2.1 l).2.constants = 0
  · simp only [h0, if_true]
    exact hf2
  · simp only [h0, if_false]
    have hne : constantsOf p0 l ≠ [] := by
      intro h; apply h0; rw [c1, h]; rfl
    exact put_cluster_fam p0 _ m s hm done l _ _ hc2 hf2 hne hnl c3 c1

theorem create_cluster_candidates_lines_fam (p0 : Parameters) (m s : Nat) (hm : 0 < m)
    (input : List (List Key)) (hnl : ∀ l ∈ input, ∀ w ∈ l, CLUSTERSEP ∉ w) :
    ∀ (st : Parameters × CandidateLocals × Nat) (done : List (List Key)),
      WInv p0 st.1 → CandInv p0 st.1 m s done → FamInv st.1 m s →
      FamInv (input.foldl create_cluster_candidates_line st).1 m s := by
  induction input with
  | nil => intro st done _ _ hf; exact hf
  | cons l rest ih =>
    intro st done hw hc hf
    obtain ⟨h1, h2⟩ := create_cluster_candidates_line_inv p0 m s hm st done l hw hc
      (hnl l (List.mem_cons_self _ _))
    have h3 := create_cluster_candidates_line_fam p0 m s hm st done l hw hc hf
      (hnl l (List.mem_cons_self _ _))
    exact ih (fun l' hl' => hnl l' (List.mem_cons_of_mem _ hl')) _ _ h1 h2 h3

theorem create_cluster_candidates_fam (pParam : Parameters) (input : List (List Key))
    (loc : CandidateLocals) (cc : Nat) (hsk : pParam.clusterSketchSize = 0)
    (hsz : 0 < pParam.clusterTableSize) (hnl : ∀ l ∈ input, ∀ w ∈ l, CLUSTERSEP ∉ w)
    (hcl : pParam.clusters = []) (hfm : ∀ i, pParam.pClusterFamily i = []) :
    FamInv (create_cluster_candidates pParam input loc cc).1
      pParam.clusterTableSize pParam.clusterTableSeed := by
  have hinit : CandInv pParam
      { pParam with ppClusterTable := List.replicate pParam.clusterTableSize [] }
      pParam.clusterTableSize pParam.clusterTableSeed [] := by
    refine { csize := rfl, cseed := rfl, csketch := hsk, len := by simp, bound := ?_,
             inj := ?_, absent := ?_, present := ?_, keys := ?_ }
    · intro K e ptr he
      change lookup (List.replicate _ []) _ _ K = some e at he
      rw [lookup_replicate] at he; cases he
    · intro K K' e e' ptr he
      change lookup (List.replicate _ []) _ _ K = some e at he
      rw [lookup_replicate] at he; cases he
    · intro S _ _ _
      exact lookup_replicate _ _ _ _
    · intro S _ _ h
      exact absurd rfl h
    · intro K e he
      change lookup (List.replicate _ []) _ _ K = some e at he
      rw [lookup_replicate] at he; cases he
  have hfinit : FamInv
      { pParam with ppClusterTable := List.replicate pParam.clusterTableSize [] }
      pParam.clusterTableSize pParam.clusterTableSeed := by
    refine { mem := ?_, all := ?_, nodup := ?_, back := ?_ }
    · intro i ptr h
      change ptr ∈ pParam.pClusterFamily i at h
      rw [hfm] at h; cases h
    · intro ptr h
      change ptr < pParam.clusters.length at h
      rw [hcl] at h; cases h
    · intro i
      change (pParam.pClusterFamily i).Nodup
      rw [hfm]; exact List.nodup_nil
    · intro ptr h
      change ptr < pParam.clusters.length at h
      rw [hcl] at h; cases h
  have hwinit : WInv pParam
      { pParam with ppClusterTable := List.replicate pParam.clusterTableSize [] } :=
    { wsize := rfl, wseed := rfl, wsame := fun _ => rfl }
  exact create_cluster_candidates_lines_fam pParam _ _ hsz input hnl _ [] hwinit hinit hfinit

theorem family_order_mem {p : Parameters} {m s : Nat} (h : FamInv p m s) (ptr : Nat) :
    ptr ∈ family_order p ↔ ptr < p.clusters.length := by
  unfold family_order
  rw [List.mem_flatMap]
  constructor
  · rintro ⟨i, _, hi⟩
    exact (h.mem i ptr hi).1
  · intro hlt
    have hm := h.all ptr hlt
    obtain ⟨_, _, a3, a4⟩ := h.mem _ _ hm
    exact ⟨_, by rw [List.mem_range'_1]; omega, hm⟩

theorem family_order_nodup {p : Parameters} {m s : Nat} (h : FamInv p m s) :
    (family_order p).Nodup := by
  unfold family_order
  rw [List.nodup_flatMap]
  refine ⟨fun i _ => h.nodup i, ?_⟩
  have hnd : (List.range' 1 p.biggestConstants).Nodup := List.nodup_range' _ _
  refine List.Pairwise.imp_of_mem ?_ hnd
  intro i j _ _ hij
  show List.Disjoint _ _
  intro ptr h1 h2
  have e1 := (h.mem i ptr h1).2.1
  have e2 := (h.mem j ptr h2).2.1
  exact hij (e1.symm.trans e2)

/-! ## The nodes of the prefix trie -/

theorem nodes_map_addr (t : TrieNode) :
    ∀ π, (t.nodes π).map (fun x => x.2.addr) = t.addrs := by
  induction t with
  | null => intro π; rfl
  | node d c n ihc ihn =>
    intro π
    simp only [TrieNode.nodes, TrieNode.addrs, List.map_cons, List.map_append, ihc, ihn]

theorem mem_addrs_of_mem_nodes {t : TrieNode} {π : List (Nat × TrieElem)}
    {x : List (Nat × TrieElem) × TrieData} (h : x ∈ t.nodes π) : x.2.addr ∈ t.addrs := by
  rw [← nodes_map_addr t π]
  exact List.mem_map_of_mem _ h

theorem nodes_eq_of_addr {t : TrieNode} {π : List (Nat × TrieElem)} (hnd : t.addrs.Nodup)
    {x y : List (Nat × TrieElem) × TrieData} (hx : x ∈ t.nodes π) (hy : y ∈ t.nodes π)
    (h : x.2.addr = y.2.addr) : x = y := by
  rw [← nodes_map_addr t π] at hnd
  exact List.inj_on_of_nodup_map hnd hx hy h

theorem modify_of_not_mem (f : TrieData → TrieNode → TrieNode → TrieNode) (t : TrieNode)
    (a : Nat) (h : a ∉ t.addrs) : TrieNode.modify f t a = t := by
  induction t with
  | null => rfl
  | node d c n ihc ihn =>
    simp only [TrieNode.addrs, List.mem_cons, List.mem_append, not_or] at h
    have h1 : ¬ d.addr = a := fun e => h.1 e.symm
    simp only [TrieNode.modify, h1, if_false, ihc h.2.1, ihn h.2.2]

theorem find_of_not_mem (t : TrieNode) (a : Nat) (h : a ∉ t.addrs) : t.find a = none := by
  induction t with
  | null => rfl
  | node d c n ihc ihn =>
    simp only [TrieNode.addrs, List.mem_cons, List.mem_append, not_or] at h
    have h1 : ¬ d.addr = a := fun e => h.1 e.symm
    simp only [TrieNode.find, h1, if_false, ihc h.2.1, ihn h.2.2]

theorem find_spec (t : TrieNode) (a : Nat) (d : TrieData) (ch : TrieNode) :
    ∀ π, t.find a = some (d, ch) →
      d.addr = a ∧ ∃ π1 l1 l2,
        t.nodes π = l1 ++ (π1, d) :: (ch.nodes (π1 ++ [(d.addr, d.elem)]) ++ l2) := by
  induction t with
  | null => intro π h; cases h
  | node d0 c n ihc ihn =>
    intro π h
    simp only [TrieNode.find] at h
    by_cases h0 : d0.addr = a
    · simp only [h0, if_true, Option.some.injEq, Prod.mk.injEq] at h
      obtain ⟨rfl, rfl⟩ := h
      exact ⟨h0, π, [], n.nodes π, rfl⟩
    · simp only [h0, if_false] at h
      cases hc : c.find a with
      | some r =>
        rw [hc] at h
        simp only [Option.some.injEq] at h
        subst h
        obtain ⟨e1, π1, l1, l2, e2⟩ := ihc (π ++ [(d0.addr, d0.elem)]) hc
        refine ⟨e1, π1, (π, d0) :: l1, l2 ++ n.nodes π, ?_⟩
        simp only [TrieNode.nodes, e2, List.cons_append, List.append_assoc]
      | none =>
        rw [hc] at h
        simp only [] at h
        obtain ⟨e1, π1, l1, l2, e2⟩ := ihn π h
        refine ⟨e1, π1, (π, d0) :: (c.nodes (π ++ [(d0.addr, d0.elem)]) ++ l1), l2, ?_⟩
        simp only [TrieNode.nodes, e2, List.cons_append, List.append_assoc]

theorem find_of_mem (t : TrieNode) (a : Nat) (h : a ∈ t.addrs) : ∃ r, t.find a = some r := by
  induction t with
  | null => cases h
  | node d c n ihc ihn =>
    simp only [TrieNode.find]
    by_cases h0 : d.addr = a
    · simp only [h0, if_true]; exact ⟨_, rfl⟩
    · simp only [h0, if_false]
      simp only [TrieNode.addrs, List.mem_cons, List.mem_append] at h
      cases hc : c.find a with
      | some r => exact ⟨r, rfl⟩
      | none =>
        simp only []
        rcases h with h | h | h
        · exact absurd h.symm h0
        · obtain ⟨r, hr⟩ := ihc h
          rw [hr] at hc; cases hc
        · exact ihn h

theorem nodup_addrs_node {d : TrieData} {c n : TrieNode}
    (h : (TrieNode.node d c n).addrs.Nodup) :
    c.addrs.Nodup ∧ n.addrs.Nodup ∧ d.addr ∉ c.addrs ∧ d.addr ∉ n.addrs ∧
      ∀ a, a ∈ c.addrs → a ∉ n.addrs := by
  simp only [TrieNode.addrs, List.nodup_cons, List.mem_append, not_or, List.nodup_append] at h
  obtain ⟨⟨h1, h2⟩, h3, h4, h5⟩ := h
  exact ⟨h3, h4, h1, h2, fun a ha hb => h5 ha hb⟩

theorem modify_child_nodes (dnew : TrieData) (t : TrieNode) (a : Nat) :
    t.addrs.Nodup → a ∈ t.addrs → ∀ π, ∃ π1 d l1 l2, d.addr = a ∧
      t.nodes π = l1 ++ (π1, d) :: l2 ∧
      (TrieNode.modify (fun pd pc pn => .node pd (.node dnew .null pc) pn) t a).nodes π =
        l1 ++ (π1, d) :: (π1 ++ [(a, d.elem)], dnew) :: l2 := by
  induction t with
  | null => intro _ ha; cases ha
  | node d0 c n ihc ihn =>
    intro hnd ha π
    obtain ⟨n1, n2, n3, n4, n5⟩ := nodup_addrs_node hnd
    by_cases h0 : d0.addr = a
    · subst h0
      refine ⟨π, d0, [], c.nodes (π ++ [(d0.addr, d0.elem)]) ++ n.nodes π, rfl, rfl, ?_⟩
      simp only [TrieNode.modify, if_true, TrieNode.nodes, List.nil_append, List.cons_append]
    · simp only [TrieNode.addrs, List.mem_cons, List.mem_append] at ha
      rcases ha with ha | ha | ha
      · exact absurd ha.symm h0
      · obtain ⟨π1, d, l1, l2, e1, e2, e3⟩ := ihc n1 ha (π ++ [(d0.addr, d0.elem)])
        refine ⟨π1, d, (π, d0) :: l1, l2 ++ n.nodes π, e1, ?_, ?_⟩
        · simp only [TrieNode.nodes, e2, List.cons_append, List.append_assoc]
        · simp only [TrieNode.modify, h0, if_false, TrieNode.nodes, e3,
            modify_of_not_mem _ n a (n5 a ha), List.cons_append, List.append_assoc]
      · have hc : a ∉ c.addrs := fun h => n5 a h ha
        obtain ⟨π1, d, l1, l2, e1, e2, e3⟩ := ihn n2 ha π
        refine ⟨π1, d, (π, d0) :: (c.nodes (π ++ [(d0.addr, d0.elem)]) ++ l1), l2, e1, ?_, ?_⟩
        · simp only [TrieNode.nodes, e2, List.cons_append, List.append_assoc]
        · simp only [TrieNode.modify, h0, if_false, TrieNode.nodes, e3,
            modify_of_not_mem _ c a hc, List.cons_append, List.append_assoc]

theorem modify_next_nodes (dnew : TrieData) (t : TrieNode) (a : Nat) :
    t.addrs.Nodup → a ∈ t.addrs → ∀ π, ∃ π1 d l1 l2, d.addr = a ∧
      (π1, d) ∈ t.nodes π ∧ t.nodes π = l1 ++ l2 ∧
      (TrieNode.modify (fun pd pc pn => .node pd pc (.node dnew .null pn)) t a).nodes π =
        l1 ++ (π1, dnew) :: l2 := by
  induction t with
  | null => intro _ ha; cases ha
  | node d0 c n ihc ihn =>
    intro hnd ha π
    obtain ⟨n1, n2, n3, n4, n5⟩ := nodup_addrs_node hnd
    by_cases h0 : d0.addr = a
    · refine ⟨π, d0, (π, d0) :: c.nodes (π ++ [(d0.addr, d0.elem)]), n.nodes π, h0, ?_, ?_, ?_⟩
      · simp only [TrieNode.nodes, List.mem_cons, true_or]
      · simp only [TrieNode.nodes, List.cons_append]
      · simp only [TrieNode.modify, h0, if_true, TrieNode.nodes, List.nil_append,
          List.cons_append]
    · simp only [TrieNode.addrs, List.mem_cons, List.mem_append] at ha
      rcases ha with ha | ha | ha
      · exact absurd ha.symm h0
      · obtain ⟨π1, d, l1, l2, e1, e0, e2, e3⟩ := ihc n1 ha (π ++ [(d0.addr, d0.elem)])
        refine ⟨π1, d, (π, d0) :: l1, l2 ++ n.nodes π, e1, ?_, ?_, ?_⟩
        · simp only [TrieNode.nodes, List.mem_cons, List.mem_append]
          exact Or.inr (Or.inl e0)
        · simp only [TrieNode.nodes, e2, List.cons_append, List.append_assoc]
        · simp only [TrieNode.modify, h0, if_false, TrieNode.nodes, e3,
            modify_of_not_mem _ n a (n5 a ha), List.cons_append, List.append_assoc]
      · have hc : a ∉ c.addrs := fun h => n5 a h ha
        obtain ⟨π1, d, l1, l2, e1, e0, e2, e3⟩ := ihn n2 ha π
        refine ⟨π1, d, (π, d0) :: (c.nodes (π ++ [(d0.addr, d0.elem)]) ++ l1), l2, e1, ?_, ?_, ?_⟩
        · simp only [TrieNode.nodes, List.mem_cons, List.mem_append]
          exact Or.inr (Or.inr e0)
        · simp only [TrieNode.nodes, e2, List.cons_append, List.append_assoc]
        · simp only [TrieNode.modify, h0, if_false, TrieNode.nodes, e3,
            modify_of_not_mem _ c a hc, List.cons_append, List.append_assoc]

theorem elem_set_end (d : TrieData) (o : Option Nat) :
    ({ d with pIsEnd := o } : TrieData).elem = d.elem := rfl

theorem map_end_of_not_mem (o a : Nat) (l : List (List (Nat × TrieElem) × TrieData))
    (h : a ∉ l.map (fun x => x.2.addr)) :
    l.map (fun x => if x.2.addr = a then (x.1, { x.2 with pIsEnd := some o }) else x) = l := by
  induction l with
  | nil => rfl
  | cons x rest ih =>
    simp only [List.map_cons, List.mem_cons, not_or] at h
    have h1 : ¬ x.2.addr = a := fun e => h.1 e.symm
    simp only [List.map_cons, h1, if_false, ih h.2]

theorem modify_end_nodes (o : Nat) (t : TrieNode) (a : Nat) :
    t.addrs.Nodup → ∀ π,
      (TrieNode.modify (fun d pc pn => .node { d with pIsEnd := some o } pc pn) t a).nodes π =
        (t.nodes π).map
          (fun x => if x.2.addr = a then (x.1, { x.2 with pIsEnd := some o }) else x) := by
  induction t with
  | null => intro _ π; rfl
  | node d0 c n ihc ihn =>
    intro hnd π
    obtain ⟨n1, n2, n3, n4, n5⟩ := nodup_addrs_node hnd
    by_cases h0 : d0.addr = a
    · subst h0
      have hc : d0.addr ∉ (c.nodes (π ++ [(d0.addr, d0.elem)])).map (fun x => x.2.addr) := by
        rw [nodes_map_addr]; exact n3
      have hn : d0.addr ∉ (n.nodes π).map (fun x => x.2.addr) := by
        rw [nodes_map_addr]; exact n4
      simp only [TrieNode.modify, if_true, TrieNode.nodes, List.map_cons, List.map_append,
        map_end_of_not_mem o _ _ hc, map_end_of_not_mem o _ _ hn, elem_set_end]
    · simp only [TrieNode.modify, h0, if_false, TrieNode.nodes, List.map_cons, List.map_append,
        ihc n1, ihn n2]

theorem siblings_mem_nodes (t : TrieNode) (π : List (Nat × TrieElem)) (d : TrieData)
    (h : d ∈ t.siblings) : (π, d) ∈ t.nodes π := by
  induction t with
  | null => cases h
  | node d0 c n _ ihn =>
    simp only [TrieNode.siblings, List.mem_cons] at h
    simp only [TrieNode.nodes, List.mem_cons, List.mem_append]
    rcases h with h | h
    · subst h; exact Or.inl rfl
    · exact Or.inr (Or.inr (ihn h))

theorem wildcard_scan_spec (wh : Nat) (min max : Int) (t : TrieNode) (b : Bool)
    (r : Option Nat) (h : wildcard_scan wh min max t = (b, r)) :
    (b = true → ∃ d ∈ t.siblings, r = some d.addr ∧ d.wildcardMin = min ∧ d.wildcardMax = max) ∧
    (b = false → r = none) := by
  induction t with
  | null =>
    simp only [wildcard_scan, Prod.mk.injEq] at h
    obtain ⟨rfl, rfl⟩ := h
    exact ⟨(fun h => nomatch h), fun _ => rfl⟩
  | node d c n _ ihn =>
    simp only [wildcard_scan] at h
    split at h
    · split at h
      · rename_i h1 h2
        simp only [Prod.mk.injEq] at h
        obtain ⟨rfl, rfl⟩ := h
        exact ⟨fun _ => ⟨d, by simp [TrieNode.siblings], rfl, h2.1, h2.2⟩, fun h => nomatch h⟩
      · obtain ⟨i1, i2⟩ := ihn h
        refine ⟨fun hb => ?_, i2⟩
        obtain ⟨d1, m1, m2⟩ := i1 hb
        exact ⟨d1, by simp [TrieNode.siblings, m1], m2⟩
    · simp only [Prod.mk.injEq] at h
      obtain ⟨rfl, rfl⟩ := h
      exact ⟨(fun h => nomatch h), fun _ => rfl⟩

theorem word_scan_spec (hash : Nat) (key : Key) (t : TrieNode) :
    ∀ (pPrev : Option Nat) (b : Bool) (r : Option Nat), word_scan hash key t pPrev = (b, r) →
      (b = true → ∃ d ∈ t.siblings, r = some d.addr ∧ d.pWord.map Elem.pKey = some key) ∧
      (b = false → r = pPrev ∨ ∃ d ∈ t.siblings, r = some d.addr) := by
  induction t with
  | null =>
    intro pPrev b r h
    simp only [word_scan, Prod.mk.injEq] at h
    obtain ⟨rfl, rfl⟩ := h
    exact ⟨(fun h => nomatch h), fun _ => Or.inl rfl⟩
  | node d c n _ ihn =>
    intro pPrev b r h
    have hrec : ∀ b r, word_scan hash key n (some d.addr) = (b, r) →
        (b = true → ∃ d1 ∈ (TrieNode.node d c n).siblings, r = some d1.addr ∧
          d1.pWord.map Elem.pKey = some key) ∧
        (b = false → r = pPrev ∨ ∃ d1 ∈ (TrieNode.node d c n).siblings, r = some d1.addr) := by
      intro b r h
      obtain ⟨i1, i2⟩ := ihn _ b r h
      constructor
      · intro hb
        obtain ⟨d1, m1, m2⟩ := i1 hb
        exact ⟨d1, by simp [TrieNode.siblings, m1], m2⟩
      · intro hb
        rcases i2 hb with h | ⟨d1, m1, m2⟩
        · exact Or.inr ⟨d, by simp [TrieNode.siblings], h⟩
        · exact Or.inr ⟨d1, by simp [TrieNode.siblings, m1], m2⟩
    simp only [word_scan] at h
    split at h
    · exact hrec b r h
    · split at h
      · split at h
        · rename_i h3
          simp only [Prod.mk.injEq] at h
          obtain ⟨rfl, rfl⟩ := h
          exact ⟨fun _ => ⟨d, by simp [TrieNode.siblings], rfl, h3⟩, fun h => nomatch h⟩
        · exact hrec b r h
      · simp only [Prod.mk.injEq] at h
        obtain ⟨rfl, rfl⟩ := h
        exact ⟨(fun h => nomatch h), fun _ => Or.inl rfl⟩

/-! ## The construction of the prefix trie -/

theorem TrieFields.refl_trie (p : Parameters) : TrieFields p p := rfl

theorem TrieFields.trans_trie {p q r : Parameters} (h1 : TrieFields p q) (h2 : TrieFields q r) :
    TrieFields p r := by
  unfold TrieFields at *
  rw [h2, h1]

theorem TrieFields.clusters {p q : Parameters} (h : TrieFields p q) :
    q.clusters = p.clusters := by
  unfold TrieFields at h; rw [h]

theorem TrieFields.cluster_same {p q : Parameters} (h : TrieFields p q) (o : Nat) :
    q.cluster o = p.cluster o := by
  unfold Parameters.cluster; rw [h.clusters]

theorem pathElems_child (π : List (Nat × TrieElem)) (d d1 : TrieData) :
    pathElems (π ++ [(d.addr, d.elem)], d1) = pathElems (π, d) ++ [d1.elem] := by
  unfold pathElems
  cases π with
  | nil => rfl
  | cons x rest => simp

theorem TrieInv.insert_node {p q : Parameters} {ins : List Nat} (hinv : TrieInv p ins)
    (hcl : ∀ o, q.cluster o = p.cluster o)
    (hroot : ∃ d0 c0, q.pPrefixRoot = TrieNode.node d0 c0 TrieNode.null ∧ d0.addr = 0)
    (π1 : List (Nat × TrieElem)) (dnew : TrieData)
    (l1 l2 : List (List (Nat × TrieElem) × TrieData))
    (h1 : p.pPrefixRoot.nodes [] = l1 ++ l2)
    (h2 : q.pPrefixRoot.nodes [] = l1 ++ (π1, dnew) :: l2)
    (haddr : dnew.addr = p.trieNodeNum) (hnum : q.trieNodeNum = p.trieNodeNum + 1)
    (hend : dnew.pIsEnd = none) (hpar : dnew.pParent = π1.getLast?.map Prod.fst)
    (hkind : TrieData.Kind (π1, dnew)) : TrieInv q ins := by
  have hmem : ∀ x, x ∈ q.pPrefixRoot.nodes [] ↔ x = (π1, dnew) ∨ x ∈ p.pPrefixRoot.nodes [] := by
    intro x
    rw [h1, h2]
    simp only [List.mem_append, List.mem_cons]
    tauto
  refine { root := hroot, addr := ?_, fresh := ?_, parent := ?_, kind := ?_, ends := ?_,
           last := ?_ }
  · have hp := hinv.addr
    rw [h1] at hp
    rw [h2]
    simp only [List.map_append, List.map_cons] at hp ⊢
    have hperm : (List.map (fun x => x.2.addr) l1 ++ dnew.addr :: List.map (fun x => x.2.addr) l2).Perm
        (dnew.addr :: (List.map (fun x => x.2.addr) l1 ++ List.map (fun x => x.2.addr) l2)) :=
      List.perm_middle
    rw [hperm.nodup_iff, List.nodup_cons]
    refine ⟨?_, hp⟩
    intro hm
    rw [← List.map_append, ← h1] at hm
    obtain ⟨x, hx, hxa⟩ := List.mem_map.1 hm
    have := hinv.fresh x hx
    rw [hxa, haddr] at this
    exact Nat.lt_irrefl _ this
  · intro x hx
    rw [hnum]
    rcases (hmem x).1 hx with h | h
    · subst h; show dnew.addr < _; rw [haddr]; exact Nat.lt_succ_self _
    · exact Nat.lt_succ_of_lt (hinv.fresh x h)
  · intro x hx
    rcases (hmem x).1 hx with h | h
    · subst h; exact hpar
    · exact hinv.parent x h
  · intro x hx
    rcases (hmem x).1 hx with h | h
    · subst h; exact hkind
    · exact hinv.kind x h
  · intro x hx o ho
    rcases (hmem x).1 hx with h | h
    · subst h
      rw [hend] at ho; cases ho
    · rw [hcl]
      exact hinv.ends x h o ho
  · intro o ho
    obtain ⟨x, hx, e1, e2⟩ := hinv.last o ho
    refine ⟨x, (hmem x).2 (Or.inr hx), ?_, ?_⟩
    · rw [hcl]; exact e1
    · rw [hcl]; exact e2

theorem TrieInv.nodup {p : Parameters} {ins : List Nat} (h : TrieInv p ins) :
    p.pPrefixRoot.addrs.Nodup := by
  have := h.addr
  rwa [nodes_map_addr] at this

theorem modify_root_shape (f : TrieData → TrieNode → TrieNode → TrieNode) (d0 : TrieData)
    (c0 : TrieNode) (a : Nat)
    (hf : d0.addr = a → ∃ c1, f d0 c0 TrieNode.null = TrieNode.node d0 c1 TrieNode.null) :
    ∃ c1, TrieNode.modify f (TrieNode.node d0 c0 TrieNode.null) a =
      TrieNode.node d0 c1 TrieNode.null := by
  by_cases h : d0.addr = a
  · obtain ⟨c1, hc1⟩ := hf h
    exact ⟨c1, by simp only [TrieNode.modify, h, if_true, hc1]⟩
  · exact ⟨TrieNode.modify f c0 a, by simp only [TrieNode.modify, h, if_false]⟩

theorem create_trie_node_inv (p : Parameters) (ins : List Nat) (hinv : TrieInv p ins)
    (pElem : Option Elem) (pParent : Nat) (pPrev : Option Nat)
    (π : List (Nat × TrieElem)) (d : TrieData)
    (hpar : (π, d) ∈ p.pPrefixRoot.nodes []) (hd : d.addr = pParent)
    (hprev : ∀ a, pPrev = some a →
      ∃ dp, (π ++ [(pParent, d.elem)], dp) ∈ p.pPrefixRoot.nodes [] ∧ dp.addr = a)
    (hkind : pElem = none → p.prefixWildcardMax ≠ 0) :
    TrieFields p (create_trie_node pElem pParent pPrev p).1 ∧
    TrieInv (create_trie_node pElem pParent pPrev p).1 ins ∧
    ∃ d1, (π ++ [(pParent, d.elem)], d1) ∈
        (create_trie_node pElem pParent pPrev p).1.pPrefixRoot.nodes [] ∧
      d1.addr = (create_trie_node pElem pParent pPrev p).2 ∧
      (∀ e, pElem = some e → d1.elem = TrieElem.word e.pKey) ∧
      (pElem = none → d1.elem = TrieElem.gap p.prefixWildcardMin p.prefixWildcardMax) := by
  obtain ⟨dnew, hdnew, ha, he, hp, hk, hel⟩ : ∃ dnew : TrieData,
      dnew = new_trie_node pElem pParent p ∧
      dnew.addr = p.trieNodeNum ∧ dnew.pIsEnd = none ∧ dnew.pParent = some pParent ∧
      TrieData.Kind (π ++ [(pParent, d.elem)], dnew) ∧
      ((∀ e, pElem = some e → dnew.elem = TrieElem.word e.pKey) ∧
       (pElem = none → dnew.elem = TrieElem.gap p.prefixWildcardMin p.prefixWildcardMax)) := by
    cases pElem with
    | none =>
      refine ⟨_, rfl, rfl, rfl, rfl, ?_, ?_, fun _ => rfl⟩
      · exact ⟨fun h => absurd rfl h, fun _ _ => hkind rfl⟩
      · intro e h; cases h
    | some e =>
      refine ⟨_, rfl, rfl, rfl, rfl, ?_, ?_, fun h => nomatch h⟩
      · exact ⟨fun _ => rfl, fun h => nomatch h⟩
      · intro e1 h; cases h; rfl
  have hnd := hinv.nodup
  obtain ⟨d0, c0, hr0, hr1⟩ := hinv.root
  have hparent : dnew.pParent = (π ++ [(pParent, d.elem)]).getLast?.map Prod.fst := by
    rw [hp]; simp
  cases pPrev with
  | none =>
    have hres : create_trie_node pElem pParent none p =
        ({ p with trieNodeNum := p.trieNodeNum + 1,
                  pPrefixRoot := TrieNode.modify
                    (fun pd pc pn => .node pd (.node dnew .null pc) pn) p.pPrefixRoot pParent },
         dnew.addr) := by
      rw [hdnew]; rfl
    rw [hres]
    have hmem : pParent ∈ p.pPrefixRoot.addrs := by
      rw [← hd]; exact mem_addrs_of_mem_nodes hpar
    obtain ⟨π1, d1, l1, l2, e1, e2, e3⟩ := modify_child_nodes dnew p.pPrefixRoot pParent hnd hmem []
    have hx : (π1, d1) ∈ p.pPrefixRoot.nodes [] := by rw [e2]; simp
    have hsame := nodes_eq_of_addr hnd hx hpar (e1.trans hd.symm)
    simp only [Prod.mk.injEq] at hsame
    obtain ⟨rfl, rfl⟩ := hsame
    refine ⟨rfl, ?_, dnew, ?_, rfl, hel⟩
    · refine hinv.insert_node (fun _ => rfl) ?_ (π1 ++ [(pParent, d1.elem)]) dnew
        (l1 ++ [(π1, d1)]) l2 ?_ ?_ ha rfl he hparent hk
      · show ∃ d0 c0, TrieNode.modify _ p.pPrefixRoot pParent = _ ∧ _
        rw [hr0]
        obtain ⟨c1, hc1⟩ := modify_root_shape
          (fun pd pc pn => .node pd (.node dnew .null pc) pn) d0 c0 pParent (fun _ => ⟨_, rfl⟩)
        exact ⟨d0, c1, hc1, hr1⟩
      · rw [e2]; simp
      · show (TrieNode.modify _ p.pPrefixRoot pParent).nodes [] = _
        rw [e3]; simp
    · show (π1 ++ [(pParent, d1.elem)], dnew) ∈ (TrieNode.modify _ p.pPrefixRoot pParent).nodes []
      rw [e3]; simp
  | some a =>
    have hres : create_trie_node pElem pParent (some a) p =
        ({ p with trieNodeNum := p.trieNodeNum + 1,
                  pPrefixRoot := TrieNode.modify
                    (fun pd pc pn => .node pd pc (.node dnew .null pn)) p.pPrefixRoot a },
         dnew.addr) := by
      rw [hdnew]; rfl
    rw [hres]
    obtain ⟨dp, hdp1, hdp2⟩ := hprev a rfl
    have hmem : a ∈ p.pPrefixRoot.addrs := by
      rw [← hdp2]; exact mem_addrs_of_mem_nodes hdp1
    obtain ⟨π1, d1, l1, l2, e1, e0, e2, e3⟩ := modify_next_nodes dnew p.pPrefixRoot a hnd hmem []
    have hsame := nodes_eq_of_addr hnd e0 hdp1 (e1.trans hdp2.symm)
    simp only [Prod.mk.injEq] at hsame
    obtain ⟨rfl, rfl⟩ := hsame
    refine ⟨rfl, ?_, dnew, ?_, rfl, hel⟩
    · refine hinv.insert_node (fun _ => rfl) ?_ (π ++ [(pParent, d.elem)]) dnew
        l1 l2 e2 ?_ ha rfl he hparent hk
      · show ∃ d0 c0, TrieNode.modify _ p.pPrefixRoot a = _ ∧ _
        rw [hr0]
        have hne : ¬ d0.addr = a := by
          intro h0
          have hroot : (([] : List (Nat × TrieElem)), d0) ∈ p.pPrefixRoot.nodes [] := by
            rw [hr0]; simp [TrieNode.nodes]
          have := nodes_eq_of_addr hnd hroot hdp1 (h0.trans hdp2.symm)
          simp only [Prod.mk.injEq] at this
          have h3 := this.1
          simp at h3
        obtain ⟨c1, hc1⟩ := modify_root_shape
          (fun pd pc pn => .node pd pc (.node dnew .null pn)) d0 c0 a (fun h => absurd h hne)
        exact ⟨d0, c1, hc1, hr1⟩
      · exact e3
    · show (π ++ [(pParent, d.elem)], dnew) ∈ (TrieNode.modify _ p.pPrefixRoot a).nodes []
      rw [e3]; simp

theorem TrieInv.congr {p q : Parameters} {ins : List Nat} (h : TrieInv p ins)
    (h1 : q.pPrefixRoot = p.pPrefixRoot) (h2 : q.trieNodeNum = p.trieNodeNum)
    (h3 : q.clusters = p.clusters) : TrieInv q ins := by
  have hc : ∀ o, q.cluster o = p.cluster o := by
    intro o; unfold Parameters.cluster; rw [h3]
  refine { root := ?_, addr := ?_, fresh := ?_, parent := ?_, kind := ?_, ends := ?_,
           last := ?_ }
  · rw [h1]; exact h.root
  · rw [h1]; exact h.addr
  · rw [h1, h2]; exact h.fresh
  · rw [h1]; exact h.parent
  · rw [h1]; exact h.kind
  · rw [h1]; intro x hx o ho; rw [hc]; exact h.ends x hx o ho
  · rw [h1]; intro o ho
    obtain ⟨x, hx, e1, e2⟩ := h.last o ho
    exact ⟨x, hx, by rw [hc]; exact e1, by rw [hc]; exact e2⟩

theorem find_children {p : Parameters} {ins : List Nat} (hinv : TrieInv p ins)
    (π : List (Nat × TrieElem)) (d : TrieData) (hpar : (π, d) ∈ p.pPrefixRoot.nodes []) :
    ∃ ch, p.pPrefixRoot.find d.addr = some (d, ch) ∧
      ∀ x ∈ ch.nodes (π ++ [(d.addr, d.elem)]), x ∈ p.pPrefixRoot.nodes [] := by
  obtain ⟨r, hr⟩ := find_of_mem p.pPrefixRoot d.addr (mem_addrs_of_mem_nodes hpar)
  obtain ⟨dd, ch⟩ := r
  obtain ⟨e1, π1, l1, l2, e2⟩ := find_spec _ _ _ _ [] hr
  have hx : (π1, dd) ∈ p.pPrefixRoot.nodes [] := by rw [e2]; simp
  have hsame := nodes_eq_of_addr hinv.nodup hx hpar e1
  simp only [Prod.mk.injEq] at hsame
  obtain ⟨rfl, rfl⟩ := hsame
  refine ⟨ch, hr, ?_⟩
  intro x hx
  rw [e2]
  simp only [List.mem_append, List.mem_cons]
  exact Or.inr (Or.inr (Or.inl hx))

theorem trie_insert_wildcard_inv (p : Parameters) (ins : List Nat) (hinv : TrieInv p ins)
    (ptr : Nat) (π : List (Nat × TrieElem)) (d : TrieData)
    (hpar : (π, d) ∈ p.pPrefixRoot.nodes []) (hd : d.addr = ptr) (min max : Int)
    (hmax : max ≠ 0) :
    TrieFields p (trie_insert_wildcard (p, ptr) min max).1 ∧
    TrieInv (trie_insert_wildcard (p, ptr) min max).1 ins ∧
    ∃ d1, (π ++ [(ptr, d.elem)], d1) ∈
        (trie_insert_wildcard (p, ptr) min max).1.pPrefixRoot.nodes [] ∧
      d1.addr = (trie_insert_wildcard (p, ptr) min max).2 ∧
      d1.elem = TrieElem.gap min max := by
  obtain ⟨ch, hfind, hsub⟩ := find_children hinv π d hpar
  rw [hd] at hfind hsub
  have hcreate : ∀ ret, ret = none →
      TrieFields p (create_trie_node none ptr ret
        { p with prefixWildcardMin := min, prefixWildcardMax := max }).1 ∧
      TrieInv (create_trie_node none ptr ret
        { p with prefixWildcardMin := min, prefixWildcardMax := max }).1 ins ∧
      ∃ d1, (π ++ [(ptr, d.elem)], d1) ∈ (create_trie_node none ptr ret
          { p with prefixWildcardMin := min, prefixWildcardMax := max }).1.pPrefixRoot.nodes [] ∧
        d1.addr = (create_trie_node none ptr ret
          { p with prefixWildcardMin := min, prefixWildcardMax := max }).2 ∧
        d1.elem = TrieElem.gap min max := by
    intro ret hret
    subst hret
    have hinv2 : TrieInv { p with prefixWildcardMin := min, prefixWildcardMax := max } ins :=
      hinv.congr rfl rfl rfl
    obtain ⟨f1, f2, d1, f3, f4, -, f5⟩ := create_trie_node_inv _ ins hinv2 none ptr none π d
      hpar hd (fun a h => nomatch h) (fun _ => hmax)
    refine ⟨?_, f2, d1, f3, f4, f5 rfl⟩
    exact TrieFields.trans_trie (p := p)
      (q := { p with prefixWildcardMin := min, prefixWildcardMax := max }) rfl f1
  unfold trie_insert_wildcard insert_cluster_into_trie_wildcard
  simp only [hfind]
  rcases hscan : wildcard_scan p.wildcardHash min max ch with ⟨b, r⟩
  obtain ⟨s1, s2⟩ := wildcard_scan_spec _ _ _ _ _ _ hscan
  cases b with
  | false =>
    simp only []
    exact hcreate r (s2 rfl)
  | true =>
    obtain ⟨d1, m1, m2, m3, m4⟩ := s1 rfl
    subst m2
    simp only []
    refine ⟨TrieFields.refl_trie p, hinv, d1, hsub _ (siblings_mem_nodes _ _ _ m1), rfl, ?_⟩
    have hk := hinv.kind _ (hsub _ (siblings_mem_nodes _ _ _ m1))
    have hw : d1.pWord = none := by
      by_contra hne
      exact hmax (m4 ▸ hk.1 hne)
    unfold TrieData.elem
    rw [hw, m3, m4]

theorem trie_insert_word_inv (p : Parameters) (ins : List Nat) (hinv : TrieInv p ins)
    (ptr : Nat) (π : List (Nat × TrieElem)) (d : TrieData)
    (hpar : (π, d) ∈ p.pPrefixRoot.nodes []) (hd : d.addr = ptr) (w : Elem) :
    TrieFields p (trie_insert_word (p, ptr) (some w)).1 ∧
    TrieInv (trie_insert_word (p, ptr) (some w)).1 ins ∧
    ∃ d1, (π ++ [(ptr, d.elem)], d1) ∈
        (trie_insert_word (p, ptr) (some w)).1.pPrefixRoot.nodes [] ∧
      d1.addr = (trie_insert_word (p, ptr) (some w)).2 ∧
      d1.elem = TrieElem.word w.pKey := by
  obtain ⟨ch, hfind, hsub⟩ := find_children hinv π d hpar
  rw [hd] at hfind hsub
  have hcreate : ∀ ret, (ret = none ∨ ∃ d1 ∈ ch.siblings, ret = some d1.addr) →
      TrieFields p (create_trie_node (some w) ptr ret p).1 ∧
      TrieInv (create_trie_node (some w) ptr ret p).1 ins ∧
      ∃ d1, (π ++ [(ptr, d.elem)], d1) ∈
          (create_trie_node (some w) ptr ret p).1.pPrefixRoot.nodes [] ∧
        d1.addr = (create_trie_node (some w) ptr ret p).2 ∧
        d1.elem = TrieElem.word w.pKey := by
    intro ret hret
    have hp : ∀ a, ret = some a →
        ∃ dp, (π ++ [(ptr, d.elem)], dp) ∈ p.pPrefixRoot.nodes [] ∧ dp.addr = a := by
      intro a ha
      rcases hret with h | ⟨d1, m1, m2⟩
      · rw [h] at ha; cases ha
      · rw [m2] at ha
        simp only [Option.some.injEq] at ha
        exact ⟨d1, hsub _ (siblings_mem_nodes _ _ _ m1), ha⟩
    obtain ⟨f1, f2, d1, f3, f4, f5, -⟩ := create_trie_node_inv _ ins hinv (some w) ptr ret π d
      hpar hd hp (fun h => nomatch h)
    exact ⟨f1, f2, d1, f3, f4, f5 w rfl⟩
  unfold trie_insert_word insert_cluster_into_trie_word
  simp only [hfind]
  rcases hscan : word_scan (str2hash w.pKey p.prefixSketchSize p.prefixSketchSeed) w.pKey ch
    none with ⟨b, r⟩
  obtain ⟨s1, s2⟩ := word_scan_spec _ _ _ _ _ _ hscan
  cases b with
  | false =>
    simp only []
    exact hcreate r (s2 rfl)
  | true =>
    obtain ⟨d1, m1, m2, m3⟩ := s1 rfl
    subst m2
    simp only []
    refine ⟨TrieFields.refl_trie p, hinv, d1, hsub _ (siblings_mem_nodes _ _ _ m1), rfl, ?_⟩
    unfold TrieData.elem
    cases hw : d1.pWord with
    | none => rw [hw] at m3; cases m3
    | some e =>
      rw [hw] at m3
      simp only [Option.map_some', Option.some.injEq] at m3
      simp only [m3]

theorem Cluster.word_eq (c : Cluster) (i : Nat) (w : Elem) (h : c.ppWord i = some w) :
    c.word i = w.pKey := by
  unfold Cluster.word; rw [h]; rfl

theorem trie_insert_constant_inv (o : Nat) (st : Parameters × Nat) (ins : List Nat)
    (hinv : TrieInv st.1 ins) (π : List (Nat × TrieElem)) (d : TrieData)
    (hpar : (π, d) ∈ st.1.pPrefixRoot.nodes []) (hd : d.addr = st.2) (i : Nat) (w : Elem)
    (hw : (st.1.cluster o).ppWord i = some w) :
    TrieFields st.1 (trie_insert_constant o st i).1 ∧
    TrieInv (trie_insert_constant o st i).1 ins ∧
    ∃ π1 d1, (π1, d1) ∈ (trie_insert_constant o st i).1.pPrefixRoot.nodes [] ∧
      d1.addr = (trie_insert_constant o st i).2 ∧
      pathElems (π1, d1) = pathElems (π, d) ++ (st.1.cluster o).elementsAt i := by
  obtain ⟨p, ptr⟩ := st
  simp only [] at hinv hpar hd hw ⊢
  unfold trie_insert_constant Cluster.elementsAt
  simp only [hw, (p.cluster o).word_eq i w hw]
  by_cases hwc : (p.cluster o).fullWildcard (i * 2 + 1) ≠ 0
  · simp only [if_pos hwc]
    obtain ⟨a1, a2, d1, a3, a4, a5⟩ := trie_insert_wildcard_inv p ins hinv ptr π d hpar hd
      ((p.cluster o).fullWildcard (i * 2)) ((p.cluster o).fullWildcard (i * 2 + 1)) hwc
    rcases hst : trie_insert_wildcard (p, ptr) ((p.cluster o).fullWildcard (i * 2))
      ((p.cluster o).fullWildcard (i * 2 + 1)) with ⟨p1, ptr1⟩
    rw [hst] at a1 a2 a3 a4
    simp only [] at a1 a2 a3 a4
    obtain ⟨b1, b2, d2, b3, b4, b5⟩ := trie_insert_word_inv p1 ins a2 ptr1 _ d1 a3 a4 w
    refine ⟨a1.trans_trie b1, b2, _, d2, b3, b4, ?_⟩
    rw [← hd, ← a4, pathElems_child, pathElems_child, a5, b5, List.append_assoc]
  · simp only [if_neg hwc]
    obtain ⟨b1, b2, d2, b3, b4, b5⟩ := trie_insert_word_inv p ins hinv ptr π d hpar hd w
    refine ⟨b1, b2, _, d2, b3, b4, ?_⟩
    rw [← hd, pathElems_child, b5]
    rfl

theorem trie_insert_constants_inv (o : Nat) (ins : List Nat) (c : Cluster) (l : List Nat)
    (hw : ∀ i ∈ l, ∃ w, c.ppWord i = some w) :
    ∀ (st : Parameters × Nat), TrieInv st.1 ins → st.1.cluster o = c →
      ∀ (π : List (Nat × TrieElem)) (d : TrieData),
        (π, d) ∈ st.1.pPrefixRoot.nodes [] → d.addr = st.2 →
        TrieFields st.1 (l.foldl (trie_insert_constant o) st).1 ∧
        TrieInv (l.foldl (trie_insert_constant o) st).1 ins ∧
        ∃ π1 d1, (π1, d1) ∈ (l.foldl (trie_insert_constant o) st).1.pPrefixRoot.nodes [] ∧
          d1.addr = (l.foldl (trie_insert_constant o) st).2 ∧
          pathElems (π1, d1) = pathElems (π, d) ++ l.flatMap c.elementsAt := by
  induction l with
  | nil =>
    intro st hinv _ π d hpar hd
    exact ⟨TrieFields.refl_trie _, hinv, π, d, hpar, hd, by simp⟩
  | cons i rest ih =>
    intro st hinv hc π d hpar hd
    obtain ⟨w, hwi⟩ := hw i (List.mem_cons_self _ _)
    rw [← hc] at hwi
    obtain ⟨a1, a2, π1, d1, a3, a4, a5⟩ := trie_insert_constant_inv o st ins hinv π d hpar hd i w hwi
    have hc2 : (trie_insert_constant o st i).1.cluster o = c := by
      rw [a1.cluster_same, hc]
    obtain ⟨b1, b2, π2, d2, b3, b4, b5⟩ := ih (fun j hj => hw j (List.mem_cons_of_mem _ hj))
      (trie_insert_constant o st i) a2 hc2 π1 d1 a3 a4
    refine ⟨a1.trans_trie b1, b2, π2, d2, b3, b4, ?_⟩
    rw [b5, a5, hc, List.flatMap_cons, List.append_assoc]

theorem BuildFrame.refl_build (p : Parameters) : BuildFrame p p :=
  { table := rfl, csize := rfl, cseed := rfl, family := rfl, biggest := rfl, support := rfl,
    psize := rfl, pseed := rfl, len := rfl, cluster := fun _ => rfl }

theorem BuildFrame.trans_build {p q r : Parameters} (h1 : BuildFrame p q) (h2 : BuildFrame q r) :
    BuildFrame p r := by
  refine { table := h2.table.trans h1.table, csize := h2.csize.trans h1.csize,
           cseed := h2.cseed.trans h1.cseed, family := h2.family.trans h1.family,
           biggest := h2.biggest.trans h1.biggest, support := h2.support.trans h1.support,
           psize := h2.psize.trans h1.psize, pseed := h2.pseed.trans h1.pseed,
           len := h2.len.trans h1.len, cluster := ?_ }
  intro o
  have e1 := h1.cluster o
  have e2 := h2.cluster o
  rw [e2]
  conv_lhs => rw [e1]

theorem TrieFields.frame {p q : Parameters} (h : TrieFields p q) : BuildFrame p q := by
  have hc := h.cluster_same
  unfold TrieFields at h
  refine { table := by rw [h], csize := by rw [h], cseed := by rw [h], family := by rw [h],
           biggest := by rw [h], support := by rw [h], psize := by rw [h], pseed := by rw [h],
           len := by rw [h], cluster := ?_ }
  intro o
  rw [hc]

theorem Cluster.elements_lastNode (c : Cluster) (a : Option Nat) :
    ({ c with pLastNode := a } : Cluster).elements = c.elements := rfl

theorem BuildFrame.elements {p q : Parameters} (h : BuildFrame p q) (o : Nat) :
    (q.cluster o).elements = (p.cluster o).elements := by
  rw [h.cluster o]; rfl

theorem mark_end_inv (p : Parameters) (ins : List Nat) (o : Nat) (hinv : TrieInv p ins)
    (ho : o ∉ ins) (hlen : o < p.clusters.length) (π : List (Nat × TrieElem)) (d : TrieData)
    (hpar : (π, d) ∈ p.pPrefixRoot.nodes [])
    (hpath : pathElems (π, d) = (p.cluster o).elements) (q : Parameters) (root : TrieNode)
    (hroot : root = TrieNode.modify
        (fun d pc pn => .node { d with pIsEnd := some o } pc pn) p.pPrefixRoot d.addr)
    (hq : q = ({ p with pPrefixRoot := root }).setCluster o
      { p.cluster o with pLastNode := some d.addr }) :
    BuildFrame p q ∧ TrieInv q (o :: ins) := by
  subst hroot
  have hcl : ∀ o1, q.cluster o1 =
      if o = o1 then { p.cluster o with pLastNode := some d.addr } else p.cluster o1 := by
    intro o1
    rw [hq, cluster_setCluster]
    by_cases h : o = o1
    · subst h
      have : o < p.clusters.length := hlen
      simp only [true_and, if_true]
      rw [if_pos this]
    · simp only [h, false_and, if_false]
      rfl
  have hnodes : q.pPrefixRoot.nodes [] = (p.pPrefixRoot.nodes []).map
      (fun x => if x.2.addr = d.addr then (x.1, { x.2 with pIsEnd := some o }) else x) := by
    rw [hq]
    exact modify_end_nodes o p.pPrefixRoot d.addr hinv.nodup []
  have hg : ∀ x : List (Nat × TrieElem) × TrieData,
      (if x.2.addr = d.addr then (x.1, ({ x.2 with pIsEnd := some o } : TrieData)) else x).1
        = x.1 ∧
      (if x.2.addr = d.addr then (x.1, ({ x.2 with pIsEnd := some o } : TrieData)) else x).2.addr
        = x.2.addr ∧
      (if x.2.addr = d.addr then (x.1, ({ x.2 with pIsEnd := some o } : TrieData)) else x).2.elem
        = x.2.elem ∧
      (if x.2.addr = d.addr then (x.1, ({ x.2 with pIsEnd := some o } : TrieData)) else x).2.pParent
        = x.2.pParent ∧
      (if x.2.addr = d.addr then (x.1, ({ x.2 with pIsEnd := some o } : TrieData)) else x).2.pWord
        = x.2.pWord ∧
      (if x.2.addr = d.addr then (x.1, ({ x.2 with pIsEnd := some o } : TrieData))
        else x).2.wildcardMax = x.2.wildcardMax := by
    intro x
    split <;> exact ⟨rfl, rfl, rfl, rfl, rfl, rfl⟩
  constructor
  · refine { table := by rw [hq]; rfl, csize := by rw [hq]; rfl, cseed := by rw [hq]; rfl,
             family := by rw [hq]; rfl, biggest := by rw [hq]; rfl, support := by rw [hq]; rfl,
             psize := by rw [hq]; rfl, pseed := by rw [hq]; rfl,
             len := by rw [hq]; simp [Parameters.setCluster], cluster := ?_ }
    intro o1
    rw [hcl o1]
    by_cases h : o = o1
    · subst h; simp only [if_true]
    · simp only [h, if_false]
  · refine { root := ?_, addr := ?_, fresh := ?_, parent := ?_, kind := ?_, ends := ?_,
             last := ?_ }
    · obtain ⟨d0, c0, hr0, hr1⟩ := hinv.root
      have e : q.pPrefixRoot = TrieNode.modify
        (fun d pc pn => .node { d with pIsEnd := some o } pc pn) p.pPrefixRoot d.addr := by
        rw [hq]; rfl
      rw [e, hr0]
      by_cases h : d0.addr = d.addr
      · exact ⟨{ d0 with pIsEnd := some o }, c0, by simp only [TrieNode.modify, h, if_true], hr1⟩
      · exact ⟨d0, _, by simp only [TrieNode.modify, h, if_false]; rfl, hr1⟩
    · rw [hnodes, List.map_map]
      have : ((fun x : List (Nat × TrieElem) × TrieData => x.2.addr) ∘
          (fun x => if x.2.addr = d.addr then (x.1, { x.2 with pIsEnd := some o }) else x))
          = fun x => x.2.addr := by
        funext x; exact (hg x).2.1
      rw [this]; exact hinv.addr
    · intro x hx
      rw [hnodes] at hx
      obtain ⟨y, hy, rfl⟩ := List.mem_map.1 hx
      rw [(hg y).2.1]
      have e : q.trieNodeNum = p.trieNodeNum := by rw [hq]; rfl
      rw [e]; exact hinv.fresh y hy
    · intro x hx
      rw [hnodes] at hx
      obtain ⟨y, hy, rfl⟩ := List.mem_map.1 hx
      rw [(hg y).2.2.2.1, (hg y).1]
      exact hinv.parent y hy
    · intro x hx
      rw [hnodes] at hx
      obtain ⟨y, hy, rfl⟩ := List.mem_map.1 hx
      have := hinv.kind y hy
      unfold TrieData.Kind at this ⊢
      rw [(hg y).2.2.2.2.1, (hg y).2.2.2.2.2, (hg y).1]
      exact this
    · intro x hx o1 ho1
      rw [hnodes] at hx
      obtain ⟨y, hy, rfl⟩ := List.mem_map.1 hx
      have hpe : pathElems (if y.2.addr = d.addr then (y.1, { y.2 with pIsEnd := some o })
          else y) = pathElems y := by
        unfold pathElems
        rw [(hg y).1, (hg y).2.1, (hg y).2.2.1]
      rw [hpe, (hg y).2.1]
      by_cases hy2 : y.2.addr = d.addr
      · simp only [hy2, if_true, Option.some.injEq] at ho1
        subst ho1
        have hyd : y = (π, d) := nodes_eq_of_addr hinv.nodup hy hpar hy2
        rw [hcl o, if_pos rfl, hyd]
        exact ⟨List.mem_cons_self _ _, hpath, rfl⟩
      · simp only [hy2, if_false] at ho1
        obtain ⟨e1, e2, e3⟩ := hinv.ends y hy o1 ho1
        have hne : ¬ o = o1 := by rintro rfl; exact ho e1
        rw [hcl o1, if_neg hne]
        exact ⟨List.mem_cons_of_mem _ e1, e2, e3⟩
    · intro o1 ho1
      have hmem : ∀ y ∈ p.pPrefixRoot.nodes [],
          (if y.2.addr = d.addr then (y.1, ({ y.2 with pIsEnd := some o } : TrieData)) else y)
            ∈ q.pPrefixRoot.nodes [] := by
        intro y hy
        rw [hnodes]
        exact List.mem_map_of_mem _ hy
      have hpe : ∀ y : List (Nat × TrieElem) × TrieData,
          pathElems (if y.2.addr = d.addr then (y.1, { y.2 with pIsEnd := some o })
            else y) = pathElems y := by
        intro y
        unfold pathElems
        rw [(hg y).1, (hg y).2.1, (hg y).2.2.1]
      by_cases h : o = o1
      · subst h
        refine ⟨_, hmem _ hpar, ?_, ?_⟩
        · rw [hcl o, if_pos rfl, (hg (π, d)).2.1]
        · rw [hpe, hcl o, if_pos rfl]
          exact hpath
      · have ho2 : o1 ∈ ins := by
          rcases List.mem_cons.1 ho1 with h1 | h1
          · exact absurd h1.symm h
          · exact h1
        obtain ⟨y, hy, e1, e2⟩ := hinv.last o1 ho2
        refine ⟨_, hmem y hy, ?_, ?_⟩
        · rw [hcl o1, if_neg h, (hg y).2.1]; exact e1
        · rw [hpe, hcl o1, if_neg h]; exact e2

theorem insert_cluster_into_trie_inv (p : Parameters) (ins : List Nat) (o : Nat)
    (hinv : TrieInv p ins) (ho : o ∉ ins) (hlen : o < p.clusters.length)
    (hw : ∀ i, 1 ≤ i → i ≤ (p.cluster o).constants → ∃ w, (p.cluster o).ppWord i = some w) :
    BuildFrame p (insert_cluster_into_trie 0 o p) ∧
    TrieInv (insert_cluster_into_trie 0 o p) (o :: ins) := by
  obtain ⟨d0, c0, hr0, hr1⟩ := hinv.root
  have hrootmem : (([] : List (Nat × TrieElem)), d0) ∈ p.pPrefixRoot.nodes [] := by
    rw [hr0]; simp [TrieNode.nodes]
  have hw2 : ∀ i ∈ List.range' 1 (p.cluster o).constants,
      ∃ w, (p.cluster o).ppWord i = some w := by
    intro i hi
    rw [List.mem_range'_1] at hi
    exact hw i hi.1 (by omega)
  obtain ⟨a1, a2, π1, d1, a3, a4, a5⟩ := trie_insert_constants_inv o ins (p.cluster o)
    (List.range' 1 (p.cluster o).constants) hw2 (p, 0) hinv rfl [] d0 hrootmem hr1
  have hp0 : pathElems (([] : List (Nat × TrieElem)), d0) = [] := rfl
  rw [hp0, List.nil_append] at a5
  -- the tail
  obtain ⟨st2, hst2, b1, b2, π2, d2, b3, b4, b5⟩ : ∃ st2 : Parameters × Nat,
      st2 = (if (p.cluster o).fullWildcard 1 ≠ 0 then
          trie_insert_wildcard
            ((List.range' 1 (p.cluster o).constants).foldl (trie_insert_constant o) (p, 0))
            ((p.cluster o).fullWildcard 0) ((p.cluster o).fullWildcard 1)
        else (List.range' 1 (p.cluster o).constants).foldl (trie_insert_constant o) (p, 0)) ∧
      TrieFields p st2.1 ∧ TrieInv st2.1 ins ∧
      ∃ π2 d2, (π2, d2) ∈ st2.1.pPrefixRoot.nodes [] ∧ d2.addr = st2.2 ∧
        pathElems (π2, d2) = (p.cluster o).elements := by
    refine ⟨_, rfl, ?_⟩
    by_cases ht : (p.cluster o).fullWildcard 1 ≠ 0
    · simp only [if_pos ht]
      obtain ⟨c1, c2, d3, c3, c4, c5⟩ := trie_insert_wildcard_inv _ ins a2 _ π1 d1 a3 a4
        ((p.cluster o).fullWildcard 0) ((p.cluster o).fullWildcard 1) ht
      refine ⟨a1.trans_trie c1, c2, _, d3, c3, c4, ?_⟩
      rw [← a4, pathElems_child, a5, c5]
      unfold Cluster.elements Cluster.elementsTail
      rw [if_pos ht]
    · simp only [if_neg ht]
      refine ⟨a1, a2, π1, d1, a3, a4, ?_⟩
      rw [a5]
      unfold Cluster.elements Cluster.elementsTail
      rw [if_neg ht, List.append_nil]
  obtain ⟨root2, hroot2⟩ : ∃ r : TrieNode, r = TrieNode.modify
      (fun d pc pn => .node { d with pIsEnd := some o } pc pn) st2.1.pPrefixRoot st2.2 :=
    ⟨_, rfl⟩
  have hres : insert_cluster_into_trie 0 o p =
      ({ st2.1 with pPrefixRoot := root2 }).setCluster o
        { st2.1.cluster o with pLastNode := some st2.2 } := by
    rw [hroot2, hst2]; rfl
  have hlen2 : o < st2.1.clusters.length := by rw [b1.clusters]; exact hlen
  have hpath : pathElems (π2, d2) = (st2.1.cluster o).elements := by
    rw [b1.cluster_same]; exact b5
  rw [← b4] at hres hroot2
  obtain ⟨e1, e2⟩ := mark_end_inv st2.1 ins o b2 ho hlen2 π2 d2 b3 hpath _ root2 hroot2 hres
  exact ⟨b1.frame.trans_build e1, e2⟩

theorem insert_clusters_inv (order : List Nat) :
    ∀ (p : Parameters) (ins : List Nat), TrieInv p ins → order.Nodup →
      (∀ o ∈ order, o ∉ ins) → (∀ o ∈ order, o < p.clusters.length) →
      (∀ o ∈ order, ∀ i, 1 ≤ i → i ≤ (p.cluster o).constants →
        ∃ w, (p.cluster o).ppWord i = some w) →
      BuildFrame p (order.foldl (fun p ptr => insert_cluster_into_trie 0 ptr p) p) ∧
      TrieInv (order.foldl (fun p ptr => insert_cluster_into_trie 0 ptr p) p)
        (order.reverse ++ ins) := by
  induction order with
  | nil =>
    intro p ins hinv _ _ _ _
    exact ⟨BuildFrame.refl_build p, hinv⟩
  | cons o rest ih =>
    intro p ins hinv hnd hfresh hlen hw
    rw [List.nodup_cons] at hnd
    obtain ⟨a1, a2⟩ := insert_cluster_into_trie_inv p ins o hinv
      (hfresh o (List.mem_cons_self _ _)) (hlen o (List.mem_cons_self _ _))
      (hw o (List.mem_cons_self _ _))
    obtain ⟨b1, b2⟩ := ih (insert_cluster_into_trie 0 o p) (o :: ins) a2 hnd.2
      (by
        intro o1 ho1 hm
        rcases List.mem_cons.1 hm with h | h
        · subst h; exact hnd.1 ho1
        · exact hfresh o1 (List.mem_cons_of_mem _ ho1) h)
      (by
        intro o1 ho1
        rw [a1.len]; exact hlen o1 (List.mem_cons_of_mem _ ho1))
      (by
        intro o1 ho1 i hi1 hi2
        have e := a1.cluster o1
        rw [e] at hi2 ⊢
        exact hw o1 (List.mem_cons_of_mem _ ho1) i hi1 hi2)
    refine ⟨a1.trans_build b1, ?_⟩
    rw [List.foldl_cons, List.reverse_cons, List.append_assoc]
    exact b2

theorem prepare_prefix_trie_inv (p : Parameters) (hnd : (family_order p).Nodup)
    (hlen : ∀ o ∈ family_order p, o < p.clusters.length)
    (hw : ∀ o ∈ family_order p, ∀ i, 1 ≤ i → i ≤ (p.cluster o).constants →
      ∃ w, (p.cluster o).ppWord i = some w) :
    (prepare_prefix_trie p).ppClusterTable = p.ppClusterTable ∧
    (prepare_prefix_trie p).clusterTableSize = p.clusterTableSize ∧
    (prepare_prefix_trie p).clusterTableSeed = p.clusterTableSeed ∧
    (prepare_prefix_trie p).pClusterFamily = p.pClusterFamily ∧
    (prepare_prefix_trie p).biggestConstants = p.biggestConstants ∧
    (prepare_prefix_trie p).support = p.support ∧
    (prepare_prefix_trie p).clusters.length = p.clusters.length ∧
    (∀ o, (prepare_prefix_trie p).cluster o =
      { p.cluster o with pLastNode := ((prepare_prefix_trie p).cluster o).pLastNode }) ∧
    TrieInv (prepare_prefix_trie p) (family_order p).reverse := by
  obtain ⟨d0, hd0⟩ : ∃ d0 : TrieData, d0 =
      { addr := 0, pParent := none, pIsEnd := none, pWord := none, wildcardMin := 0,
        wildcardMax := 0, hashValue := p.freWordNum * 3 + 1 } := ⟨_, rfl⟩
  obtain ⟨q, hq⟩ : ∃ q : Parameters, q =
      { p with prefixSketchSize := p.freWordNum * 3, wildcardHash := p.freWordNum * 3,
               trieNodeNum := 1, pPrefixRoot := TrieNode.node d0 .null .null } :=
    ⟨_, rfl⟩
  have hres : prepare_prefix_trie p =
      (family_order p).foldl (fun p ptr => insert_cluster_into_trie 0 ptr p) q := by
    rw [hq, hd0]; rfl
  have hinit : TrieInv q [] := by
    rw [hq, hd0]
    refine { root := ⟨_, _, rfl, rfl⟩, addr := ?_, fresh := ?_, parent := ?_, kind := ?_,
             ends := ?_, last := ?_ }
    · simp [TrieNode.nodes]
    · intro x hx
      simp only [TrieNode.nodes, List.append_nil, List.mem_singleton] at hx
      subst hx; exact Nat.zero_lt_one
    · intro x hx
      simp only [TrieNode.nodes, List.append_nil, List.mem_singleton] at hx
      subst hx; rfl
    · intro x hx
      simp only [TrieNode.nodes, List.append_nil, List.mem_singleton] at hx
      subst hx
      exact ⟨fun h => absurd rfl h, fun _ h => absurd rfl h⟩
    · intro x hx o ho
      simp only [TrieNode.nodes, List.append_nil, List.mem_singleton] at hx
      subst hx; cases ho
    · intro o ho; cases ho
  have hcl : ∀ o, q.cluster o = p.cluster o := by intro o; rw [hq]; rfl
  obtain ⟨a1, a2⟩ := insert_clusters_inv (family_order p) q [] hinit hnd
    (fun _ _ h => nomatch h)
    (by intro o ho; rw [hq]; exact hlen o ho)
    (by intro o ho i hi1 hi2; rw [hcl] at hi2 ⊢; exact hw o ho i hi1 hi2)
  rw [← hres, List.append_nil] at a2
  rw [← hres] at a1
  refine ⟨?_, ?_, ?_, ?_, ?_, ?_, ?_, ?_, a2⟩
  · rw [a1.table, hq]
  · rw [a1.csize, hq]
  · rw [a1.cseed, hq]
  · rw [a1.family, hq]
  · rw [a1.biggest, hq]
  · rw [a1.support, hq]
  · rw [a1.len, hq]
  · intro o
    have := a1.cluster o
    rw [hcl] at this
    exact this

/-! ## Soundness of the search -/

theorem trie_step_eq (x : List (Nat × TrieElem) × TrieData) (hk : TrieData.Kind x)
    (hne : x.1 ≠ []) (mm : Int × Int) :
    trie_step x.2 mm = (mm.1 + x.2.elem.range.1, mm.2 + x.2.elem.range.2) := by
  unfold trie_step TrieData.elem
  cases hw : x.2.pWord with
  | none =>
    have := hk.2 hw hne
    simp only [this, if_false]
    rfl
  | some e =>
    have := hk.1 (by rw [hw]; exact fun h => nomatch h)
    simp only [this, if_true]
    rfl

theorem Embeds.cons_elem (ws : List (Key × Int × Int)) (tl mm : Int × Int) (e : TrieElem)
    (ρ : List TrieElem) (h : Embeds ws tl (mm.1 + e.range.1, mm.2 + e.range.2) ρ) :
    Embeds ws tl mm (e :: ρ) := by
  cases ws with
  | nil =>
    unfold Embeds at h ⊢
    simp only [rangeSum] at h ⊢
    constructor <;> omega
  | cons w ws =>
    unfold Embeds at h ⊢
    obtain ⟨g, rest, h1, h2, h3, h4⟩ := h
    refine ⟨e :: g, rest, by rw [h1]; rfl, ?_, ?_, h4⟩
    · simp only [rangeSum] at h2 ⊢; omega
    · simp only [rangeSum] at h3 ⊢; omega

theorem Embeds.matched (w : Key × Int × Int) (ws : List (Key × Int × Int)) (tl mm : Int × Int)
    (ρ : List TrieElem) (h1 : w.2.1 ≤ mm.1) (h2 : mm.2 ≤ w.2.2) (h : Embeds ws tl (0, 0) ρ) :
    Embeds (w :: ws) tl mm (TrieElem.word w.1 :: ρ) := by
  unfold Embeds
  refine ⟨[], ρ, rfl, ?_, ?_, h⟩
  · simp only [rangeSum]; omega
  · simp only [rangeSum]; omega

theorem matched_end_mem (pc : Nat) (d : TrieData) (o : Nat) (h : o ∈ matched_end pc d) :
    d.pIsEnd = some o ∧ o ≠ pc := by
  unfold matched_end at h
  cases he : d.pIsEnd with
  | none => rw [he] at h; cases h
  | some o1 =>
    rw [he] at h
    simp only [] at h
    by_cases hne : o1 ≠ pc
    · rw [if_pos hne] at h
      simp only [List.mem_singleton] at h
      subst h
      exact ⟨rfl, hne⟩
    · rw [if_neg hne] at h; cases h

theorem matched_tail_sound (pc : Nat) (c : Cluster) (t : TrieNode) :
    ∀ (π : List (Nat × TrieElem)) (mm : Int × Int), π ≠ [] →
      (∀ x ∈ t.nodes π, TrieData.Kind x) →
      ∀ o ∈ matched_tail pc c t mm, ∃ x ∈ t.nodes π, ∃ ρ : List (Nat × TrieElem),
        x.2.pIsEnd = some o ∧ o ≠ pc ∧ x.1 ++ [(x.2.addr, x.2.elem)] = π ++ ρ ∧
        Embeds [] (c.fullWildcard 0, c.fullWildcard 1) mm (ρ.map Prod.snd) := by
  induction t with
  | null => intro π mm _ _ o ho; cases ho
  | node d ch nx ihc ihn =>
    intro π mm hπ hk o ho
    have hstep := trie_step_eq (π, d) (hk _ (by simp [TrieNode.nodes])) hπ mm
    simp only [] at hstep
    have hkc : ∀ x ∈ ch.nodes (π ++ [(d.addr, d.elem)]), TrieData.Kind x := by
      intro x hx; apply hk; simp [TrieNode.nodes, hx]
    have hkn : ∀ x ∈ nx.nodes π, TrieData.Kind x := by
      intro x hx; apply hk; simp [TrieNode.nodes, hx]
    have hchild : ∀ o ∈ matched_tail pc c ch (trie_step d mm),
        ∃ x ∈ (TrieNode.node d ch nx).nodes π, ∃ ρ : List (Nat × TrieElem),
          x.2.pIsEnd = some o ∧ o ≠ pc ∧ x.1 ++ [(x.2.addr, x.2.elem)] = π ++ ρ ∧
          Embeds [] (c.fullWildcard 0, c.fullWildcard 1) mm (ρ.map Prod.snd) := by
      intro o ho
      obtain ⟨x, hx, ρ, e1, e2, e3, e4⟩ := ihc (π ++ [(d.addr, d.elem)]) (trie_step d mm)
        (by simp) hkc o ho
      refine ⟨x, by simp [TrieNode.nodes, hx], (d.addr, d.elem) :: ρ, e1, e2, ?_, ?_⟩
      · rw [e3]; simp
      · rw [hstep] at e4
        exact Embeds.cons_elem _ _ _ _ _ e4
    simp only [matched_tail, List.mem_append] at ho
    rcases ho with ho | ho
    · split at ho
      · exact hchild o ho
      · split at ho
        · cases ho
        · rename_i h1 h2
          rcases List.mem_append.1 ho with ho | ho
          · obtain ⟨e1, e2⟩ := matched_end_mem pc d o ho
            refine ⟨(π, d), by simp [TrieNode.nodes], [(d.addr, d.elem)], e1, e2, rfl, ?_⟩
            rw [hstep] at h1 h2
            simp only [] at h1 h2
            unfold Embeds
            simp only [List.map_cons, List.map_nil, rangeSum]
            constructor <;> omega
          · exact hchild o ho
    · obtain ⟨x, hx, ρ, e⟩ := ihn π mm hπ hkn o ho
      exact ⟨x, by simp [TrieNode.nodes, hx], ρ, e⟩

theorem Cluster.bounds_succ (c : Cluster) (i n : Nat) :
    c.bounds i (n + 1) =
      (c.word i, c.fullWildcard (i * 2), c.fullWildcard (i * 2 + 1)) :: c.bounds (i + 1) n := by
  unfold Cluster.bounds
  rw [List.range'_succ, List.map_cons]

theorem elem_of_match (c : Cluster) (d : TrieData) (constant : Nat)
    (h1 : d.pWord.map Elem.pKey = (c.ppWord constant).map Elem.pKey) (h2 : d.pWord ≠ none) :
    d.elem = TrieElem.word (c.word constant) := by
  unfold TrieData.elem Cluster.word
  cases hw : d.pWord with
  | none => exact absurd hw h2
  | some e =>
    rw [hw] at h1
    rw [← h1]
    rfl

theorem matched_loop_sound (pc : Nat) (c : Cluster) (hashOf : Key → Nat)
    (htl : c.fullWildcard 0 ≤ c.fullWildcard 1) (t : TrieNode) :
    ∀ (π : List (Nat × TrieElem)) (constant n : Nat) (mm : Int × Int) (hash : Nat), π ≠ [] →
      (∀ x ∈ t.nodes π, TrieData.Kind x) → constant + n = c.constants →
      ∀ o ∈ matched_loop pc c hashOf t constant mm hash, ∃ x ∈ t.nodes π,
        ∃ ρ : List (Nat × TrieElem),
          x.2.pIsEnd = some o ∧ o ≠ pc ∧ x.1 ++ [(x.2.addr, x.2.elem)] = π ++ ρ ∧
          Embeds (c.bounds constant (n + 1)) (c.fullWildcard 0, c.fullWildcard 1) mm
            (ρ.map Prod.snd) := by
  induction t with
  | null => intro π constant n mm hash _ _ _ o ho; cases ho
  | node d ch nx ihc ihn =>
    intro π constant n mm hash hπ hk hn o ho
    have hstep := trie_step_eq (π, d) (hk _ (by simp [TrieNode.nodes])) hπ mm
    simp only [] at hstep
    have hkc : ∀ x ∈ ch.nodes (π ++ [(d.addr, d.elem)]), TrieData.Kind x := by
      intro x hx; apply hk; simp [TrieNode.nodes, hx]
    have hkn : ∀ x ∈ nx.nodes π, TrieData.Kind x := by
      intro x hx; apply hk; simp [TrieNode.nodes, hx]
    have hnext : ∀ o ∈ matched_loop pc c hashOf nx constant mm hash,
        ∃ x ∈ (TrieNode.node d ch nx).nodes π, ∃ ρ : List (Nat × TrieElem),
          x.2.pIsEnd = some o ∧ o ≠ pc ∧ x.1 ++ [(x.2.addr, x.2.elem)] = π ++ ρ ∧
          Embeds (c.bounds constant (n + 1)) (c.fullWildcard 0, c.fullWildcard 1) mm
            (ρ.map Prod.snd) := by
      intro o ho
      obtain ⟨x, hx, ρ, e⟩ := ihn π constant n mm hash hπ hkn hn o ho
      exact ⟨x, by simp [TrieNode.nodes, hx], ρ, e⟩
    have hchild : ∀ o ∈ matched_loop pc c hashOf ch constant (trie_step d mm) hash,
        ∃ x ∈ (TrieNode.node d ch nx).nodes π, ∃ ρ : List (Nat × TrieElem),
          x.2.pIsEnd = some o ∧ o ≠ pc ∧ x.1 ++ [(x.2.addr, x.2.elem)] = π ++ ρ ∧
          Embeds (c.bounds constant (n + 1)) (c.fullWildcard 0, c.fullWildcard 1) mm
            (ρ.map Prod.snd) := by
      intro o ho
      obtain ⟨x, hx, ρ, e1, e2, e3, e4⟩ := ihc (π ++ [(d.addr, d.elem)]) constant n
        (trie_step d mm) hash (by simp) hkc hn o ho
      refine ⟨x, by simp [TrieNode.nodes, hx], (d.addr, d.elem) :: ρ, e1, e2, ?_, ?_⟩
      · rw [e3]; simp
      · rw [hstep] at e4
        exact Embeds.cons_elem _ _ _ _ _ e4
    simp only [matched_loop] at ho
    split at ho
    · rcases List.mem_append.1 ho with ho | ho
      · exact hchild o ho
      · exact hnext o ho
    · split at ho
      · exact hnext o ho
      · split at ho
        · rename_i h1 h2 h3
          have helem := elem_of_match c d constant h3.2.1 h3.2.2
          rw [hstep, helem] at h1 h2
          simp only [TrieElem.range] at h1 h2
          have hb1 : c.fullWildcard (constant * 2) ≤ mm.1 := by omega
          have hb2 : mm.2 ≤ c.fullWildcard (constant * 2 + 1) := by omega
          split at ho
          · rename_i hlt
            rcases List.mem_append.1 ho with ho | ho
            · obtain ⟨n1, hn1⟩ : ∃ n1, n = n1 + 1 := ⟨n - 1, by omega⟩
              subst hn1
              obtain ⟨x, hx, ρ, e1, e2, e3, e4⟩ := ihc (π ++ [(d.addr, d.elem)]) (constant + 1)
                n1 (0, 0) _ (by simp) hkc (by omega) o ho
              refine ⟨x, by simp [TrieNode.nodes, hx], (d.addr, d.elem) :: ρ, e1, e2, ?_, ?_⟩
              · rw [e3]; simp
              · rw [Cluster.bounds_succ, List.map_cons, helem]
                exact Embeds.matched (c.word constant, _, _) _ _ _ _ hb1 hb2 e4
            · exact hnext o ho
          · rename_i hlt
            have hn0 : n = 0 := by omega
            subst hn0
            have hbase : (c.fullWildcard 1 = 0 ∨ c.fullWildcard 0 = 0) →
                Embeds (c.bounds constant (0 + 1))
                (c.fullWildcard 0, c.fullWildcard 1) mm
                (List.map Prod.snd [(d.addr, d.elem)]) := by
              intro hcase
              rw [Cluster.bounds_succ, List.map_cons, helem]
              refine Embeds.matched (c.word constant, _, _) _ _ _ _ hb1 hb2 ?_
              unfold Cluster.bounds
              simp only [List.range'_zero, List.map_nil, Embeds, rangeSum]
              constructor <;> omega
            split at ho
            · split at ho
              · rename_i hfw1
                rcases List.mem_append.1 ho with ho | ho
                · obtain ⟨e1, e2⟩ := matched_end_mem pc d o ho
                  exact ⟨(π, d), by simp [TrieNode.nodes], [(d.addr, d.elem)], e1, e2, rfl,
                    hbase (Or.inl hfw1)⟩
                · exact hnext o ho
              · rename_i hfw1
                rcases List.mem_append.1 ho with ho | ho
                · rcases List.mem_append.1 ho with ho | ho
                  · split at ho
                    · rename_i hfw0
                      obtain ⟨e1, e2⟩ := matched_end_mem pc d o ho
                      exact ⟨(π, d), by simp [TrieNode.nodes], [(d.addr, d.elem)], e1, e2, rfl,
                        hbase (Or.inr hfw0)⟩
                    · cases ho
                  · obtain ⟨x, hx, ρ, e1, e2, e3, e4⟩ := matched_tail_sound pc c ch
                      (π ++ [(d.addr, d.elem)]) (0, 0) (by simp) hkc o ho
                    refine ⟨x, by simp [TrieNode.nodes, hx], (d.addr, d.elem) :: ρ, e1, e2,
                      ?_, ?_⟩
                    · rw [e3]; simp
                    · rw [Cluster.bounds_succ, List.map_cons, helem]
                      refine Embeds.matched (c.word constant, _, _) _ _ _ _ hb1 hb2 ?_
                      unfold Cluster.bounds
                      simp only [List.range'_zero, List.map_nil]
                      exact e4
                · exact hnext o ho
            · rename_i hne
              exact absurd (by omega : constant = c.constants) hne
        · rcases List.mem_append.1 ho with ho | ho
          · exact hchild o ho
          · exact hnext o ho

theorem nodes_ends (d : TrieData) (ch nx : TrieNode) (π : List (Nat × TrieElem)) :
    ((TrieNode.node d ch nx).nodes π).filterMap (fun x => x.2.pIsEnd) =
      d.pIsEnd.toList ++ (ch.nodes (π ++ [(d.addr, d.elem)])).filterMap (fun x => x.2.pIsEnd)
        ++ (nx.nodes π).filterMap (fun x => x.2.pIsEnd) := by
  simp only [TrieNode.nodes, List.filterMap_cons, List.filterMap_append]
  cases d.pIsEnd <;> simp

theorem matched_end_sublist (pc : Nat) (d : TrieData) :
    (matched_end pc d).Sublist d.pIsEnd.toList := by
  unfold matched_end
  cases d.pIsEnd with
  | none => exact List.Sublist.refl _
  | some o =>
    simp only [Option.toList]
    split
    · exact List.Sublist.refl _
    · exact List.nil_sublist _

theorem sublist3 {A B D E C N : List Nat} (hE : A.Sublist E) (hC : B.Sublist C)
    (hN : D.Sublist N) : (A ++ B ++ D).Sublist (E ++ C ++ N) :=
  (hE.append hC).append hN

theorem sublist_CN {B D E C N : List Nat} (hC : B.Sublist C) (hN : D.Sublist N) :
    (B ++ D).Sublist (E ++ C ++ N) := by
  have := sublist3 (List.nil_sublist E) hC hN
  simpa using this

theorem sublist_N {D E C N : List Nat} (hN : D.Sublist N) : D.Sublist (E ++ C ++ N) := by
  have := sublist3 (List.nil_sublist E) (List.nil_sublist C) hN
  simpa using this

theorem sublist_EN {A D E C N : List Nat} (hE : A.Sublist E) (hN : D.Sublist N) :
    (A ++ D).Sublist (E ++ C ++ N) := by
  have := sublist3 hE (List.nil_sublist C) hN
  simpa using this

theorem matched_tail_sublist (pc : Nat) (c : Cluster) (t : TrieNode) :
    ∀ (π : List (Nat × TrieElem)) (mm : Int × Int),
      (matched_tail pc c t mm).Sublist ((t.nodes π).filterMap (fun x => x.2.pIsEnd)) := by
  induction t with
  | null => intro π mm; exact List.Sublist.refl _
  | node d ch nx ihc ihn =>
    intro π mm
    rw [nodes_ends]
    simp only [matched_tail]
    split
    · exact sublist_CN (ihc _ _) (ihn π mm)
    · split
      · rw [List.nil_append]
        exact sublist_N (ihn π mm)
      · exact sublist3 (matched_end_sublist pc d) (ihc _ _) (ihn π mm)

theorem matched_loop_sublist (pc : Nat) (c : Cluster) (hashOf : Key → Nat) (t : TrieNode) :
    ∀ (π : List (Nat × TrieElem)) (constant : Nat) (mm : Int × Int) (hash : Nat),
      (matched_loop pc c hashOf t constant mm hash).Sublist
        ((t.nodes π).filterMap (fun x => x.2.pIsEnd)) := by
  induction t with
  | null => intro π constant mm hash; exact List.Sublist.refl _
  | node d ch nx ihc ihn =>
    intro π constant mm hash
    rw [nodes_ends]
    simp only [matched_loop]
    split
    · exact sublist_CN (ihc _ _ _ _) (ihn _ _ _ _)
    · split
      · exact sublist_N (ihn _ _ _ _)
      · split
        · split
          · exact sublist_CN (ihc _ _ _ _) (ihn _ _ _ _)
          · split
            · split
              · exact sublist_EN (matched_end_sublist pc d) (ihn _ _ _ _)
              · split
                · exact sublist3 (matched_end_sublist pc d)
                    (matched_tail_sublist pc c ch _ _) (ihn _ _ _ _)
                · rw [List.nil_append]
                  exact sublist_CN (matched_tail_sublist pc c ch _ _) (ihn _ _ _ _)
            · exact sublist_N (ihn _ _ _ _)
        · exact sublist_CN (ihc _ _ _ _) (ihn _ _ _ _)

theorem nodup_filterMap_of_map {α β γ : Type} (f : α → β) (g : α → Option γ) (l : List α)
    (hnd : (l.map f).Nodup)
    (hinj : ∀ x ∈ l, ∀ y ∈ l, ∀ o, g x = some o → g y = some o → f x = f y) :
    (l.filterMap g).Nodup := by
  induction l with
  | nil => exact List.nodup_nil
  | cons a rest ih =>
    rw [List.map_cons, List.nodup_cons] at hnd
    have ih2 := ih hnd.2 (fun x hx y hy => hinj x (List.mem_cons_of_mem _ hx) y
      (List.mem_cons_of_mem _ hy))
    rw [List.filterMap_cons]
    cases hg : g a with
    | none => exact ih2
    | some o =>
      simp only []
      rw [List.nodup_cons]
      refine ⟨?_, ih2⟩
      intro hm
      obtain ⟨y, hy, hgy⟩ := List.mem_filterMap.1 hm
      have := hinj a (List.mem_cons_self _ _) y (List.mem_cons_of_mem _ hy) o hg hgy
      exact hnd.1 (this ▸ List.mem_map_of_mem f hy)

theorem TrieInv.ends_nodup {p : Parameters} {ins : List Nat} (h : TrieInv p ins) :
    ((p.pPrefixRoot.nodes []).filterMap (fun x => x.2.pIsEnd)).Nodup := by
  apply nodup_filterMap_of_map (fun x => x.2.addr) _ _ h.addr
  intro x hx y hy o hox hoy
  have e1 := (h.ends x hx o hox).2.2
  have e2 := (h.ends y hy o hoy).2.2
  rw [e1] at e2
  simpa using e2

/-! ## The common parent -/

theorem nodes_parent (t : TrieNode) :
    ∀ (π0 : List (Nat × TrieElem)) (x : List (Nat × TrieElem) × TrieData), x ∈ t.nodes π0 →
      x.1 = π0 ∨ ∃ y ∈ t.nodes π0, x.1 = y.1 ++ [(y.2.addr, y.2.elem)] := by
  induction t with
  | null => intro π0 x hx; cases hx
  | node d ch nx ihc ihn =>
    intro π0 x hx
    simp only [TrieNode.nodes, List.mem_cons, List.mem_append] at hx
    rcases hx with hx | hx | hx
    · subst hx; exact Or.inl rfl
    · rcases ihc _ x hx with h | ⟨y, hy, h⟩
      · exact Or.inr ⟨(π0, d), by simp [TrieNode.nodes], h⟩
      · exact Or.inr ⟨y, by simp [TrieNode.nodes, hy], h⟩
    · rcases ihn _ x hx with h | ⟨y, hy, h⟩
      · exact Or.inl h
      · exact Or.inr ⟨y, by simp [TrieNode.nodes, hy], h⟩

theorem trie_ancestor_spec {p : Parameters} {ins : List Nat} (hinv : TrieInv p ins) :
    ∀ (n : Nat) (x : List (Nat × TrieElem) × TrieData), x ∈ p.pPrefixRoot.nodes [] →
      n ≤ x.1.length →
      ∃ y ∈ p.pPrefixRoot.nodes [], ∃ suf : List (Nat × TrieElem),
        trie_ancestor p.pPrefixRoot n (some x.2.addr) = some y.2.addr ∧
        x.1 ++ [(x.2.addr, x.2.elem)] = (y.1 ++ [(y.2.addr, y.2.elem)]) ++ suf ∧
        suf.length = n := by
  intro n
  induction n with
  | zero =>
    intro x hx _
    exact ⟨x, hx, [], rfl, by simp, rfl⟩
  | succ n ih =>
    intro x hx hn
    obtain ⟨ch, hfind, -⟩ := find_children hinv x.1 x.2 hx
    rcases nodes_parent _ _ x hx with h | ⟨y1, hy1, h⟩
    · rw [h] at hn; cases hn
    · have hpar := hinv.parent x hx
      rw [h] at hpar hn
      simp only [List.getLast?_append, List.getLast?_singleton, Option.or_some,
        Option.map_some'] at hpar
      simp only [List.length_append, List.length_singleton] at hn
      obtain ⟨y, hy, suf, e1, e2, e3⟩ := ih y1 hy1 (by omega)
      refine ⟨y, hy, suf ++ [(x.2.addr, x.2.elem)], ?_, ?_, ?_⟩
      · simp only [trie_ancestor, hfind, hpar]
        exact e1
      · rw [h, e2, List.append_assoc]
      · simp [e3]

theorem find_range'_some (P : Nat → Bool) :
    ∀ (n s i : Nat), (List.range' s n).find? P = some i →
      s ≤ i ∧ i < s + n ∧ P i = true ∧ ∀ j, s ≤ j → j < i → P j = false := by
  intro n
  induction n with
  | zero => intro s i h; cases h
  | succ n ih =>
    intro s i h
    rw [List.range'_succ, List.find?_cons] at h
    cases hp : P s with
    | true =>
      rw [hp] at h
      simp only [Option.some.injEq] at h
      subst h
      exact ⟨Nat.le_refl _, by omega, hp, fun j h1 h2 => by omega⟩
    | false =>
      rw [hp] at h
      obtain ⟨a1, a2, a3, a4⟩ := ih (s + 1) i h
      refine ⟨by omega, by omega, a3, ?_⟩
      intro j h1 h2
      by_cases hj : j = s
      · subst hj; exact hp
      · exact a4 j (by omega) h2

theorem find_range'_none (P : Nat → Bool) :
    ∀ (n s : Nat), (List.range' s n).find? P = none →
      ∀ j, s ≤ j → j < s + n → P j = false := by
  intro n
  induction n with
  | zero => intro s _ j h1 h2; omega
  | succ n ih =>
    intro s h j h1 h2
    rw [List.range'_succ, List.find?_cons] at h
    cases hp : P s with
    | true => rw [hp] at h; cases h
    | false =>
      rw [hp] at h
      by_cases hj : j = s
      · subst hj; exact hp
      · exact ih (s + 1) h j (by omega) (by omega)

theorem first_wildcard_cases (c : Cluster) :
    (get_first_wildcard_location c = -1) ∨
    (get_first_wildcard_location c = 0 ∧ c.fullWildcard 1 ≠ 0 ∧
      ∀ j, 1 ≤ j → j ≤ c.constants → c.fullWildcard (j * 2 + 1) = 0) ∨
    (∃ i : Nat, get_first_wildcard_location c = (i : Int) ∧ 1 ≤ i ∧ i ≤ c.constants ∧
      c.fullWildcard (i * 2 + 1) ≠ 0 ∧ ∀ j, 1 ≤ j → j < i → c.fullWildcard (j * 2 + 1) = 0) := by
  unfold get_first_wildcard_location
  cases h : (List.range' 1 c.constants).find?
      (fun i => decide (c.fullWildcard (i * 2 + 1) ≠ 0)) with
  | none =>
    simp only []
    have hn := find_range'_none _ _ _ h
    by_cases ht : c.fullWildcard 1 ≠ 0
    · rw [if_pos ht]
      refine Or.inr (Or.inl ⟨rfl, ht, ?_⟩)
      intro j h1 h2
      have := hn j h1 (by omega)
      simpa using this
    · rw [if_neg ht]
      exact Or.inl rfl
  | some i =>
    simp only []
    obtain ⟨a1, a2, a3, a4⟩ := find_range'_some _ _ _ _ h
    refine Or.inr (Or.inr ⟨i, rfl, a1, by omega, by simpa using a3, ?_⟩)
    intro j h1 h2
    have := a4 j h1 h2
    simpa using this

theorem pathElems_append (x y : List (Nat × TrieElem) × TrieData) (suf : List (Nat × TrieElem))
    (h : x.1 ++ [(x.2.addr, x.2.elem)] = (y.1 ++ [(y.2.addr, y.2.elem)]) ++ suf) :
    pathElems x = pathElems y ++ suf.map Prod.snd := by
  unfold pathElems
  rw [h]
  cases y.1 with
  | nil => simp
  | cons a rest => simp

theorem pathElems_length (x : List (Nat × TrieElem) × TrieData) :
    (pathElems x).length = x.1.length := by
  unfold pathElems
  simp

theorem flatMap_words (c : Cluster) (l : List Nat)
    (h : ∀ j ∈ l, c.fullWildcard (j * 2 + 1) = 0) :
    l.flatMap c.elementsAt = l.map (fun j => TrieElem.word (c.word j)) := by
  induction l with
  | nil => rfl
  | cons a rest ih =>
    rw [List.flatMap_cons, List.map_cons, ih (fun j hj => h j (List.mem_cons_of_mem _ hj))]
    unfold Cluster.elementsAt
    have := h a (List.mem_cons_self _ _)
    simp [this]

theorem Embeds.prefix (c : Cluster) (ws : List (Key × Int × Int)) (tl : Int × Int)
    (ρ : List TrieElem) (h : Embeds ws tl (0, 0) ρ) (l : List Nat)
    (hl : ∀ j ∈ l, c.fullWildcard (j * 2) ≤ 0 ∧ 0 ≤ c.fullWildcard (j * 2 + 1)) :
    Embeds (l.map (fun j => (c.word j, c.fullWildcard (j * 2), c.fullWildcard (j * 2 + 1)))
        ++ ws) tl (0, 0) (l.map (fun j => TrieElem.word (c.word j)) ++ ρ) := by
  induction l with
  | nil => exact h
  | cons a rest ih =>
    have ha := hl a (List.mem_cons_self _ _)
    simp only [List.map_cons, List.cons_append]
    exact Embeds.matched (c.word a, _, _) _ _ _ _ ha.1 ha.2
      (ih (fun j hj => hl j (List.mem_cons_of_mem _ hj)))

theorem reverse_depth_fold (c : Cluster) (l : List Nat) :
    ∀ r0 : Nat, l.foldl (fun reverseDepth i =>
        (if c.fullWildcard (i * 2 + 1) ≠ 0 then reverseDepth + 1 else reverseDepth) + 1) r0 =
      r0 + (l.flatMap c.elementsAt).length := by
  induction l with
  | nil => intro r0; rfl
  | cons a rest ih =>
    intro r0
    rw [List.foldl_cons, ih, List.flatMap_cons, List.length_append]
    unfold Cluster.elementsAt
    by_cases h : c.fullWildcard (a * 2 + 1) ≠ 0
    · simp only [if_pos h, List.length_append, List.length_singleton]; omega
    · simp only [if_neg h, List.length_append, List.length_singleton, List.length_nil]; omega

theorem elements_split_tail (c : Cluster) (h0 : get_first_wildcard_location c = 0)
    (ht : c.fullWildcard 1 ≠ 0)
    (hz : ∀ j, 1 ≤ j → j ≤ c.constants → c.fullWildcard (j * 2 + 1) = 0) :
    ∃ post, c.elements =
        (List.range' 1 c.constants).map (fun j => TrieElem.word (c.word j)) ++ post ∧
      post.length = get_first_wildcard_reverse_depth c := by
  refine ⟨c.elementsTail, ?_, ?_⟩
  · unfold Cluster.elements
    rw [flatMap_words]
    intro j hj
    rw [List.mem_range'_1] at hj
    exact hz j hj.1 (by omega)
  · unfold get_first_wildcard_reverse_depth Cluster.elementsTail
    simp only [h0]
    rw [if_pos ht]
    rfl

theorem elements_split_loop (c : Cluster) (i : Nat)
    (h0 : get_first_wildcard_location c = (i : Int)) (h1 : 1 ≤ i) (h2 : i ≤ c.constants)
    (hz : ∀ j, 1 ≤ j → j < i → c.fullWildcard (j * 2 + 1) = 0) :
    ∃ post, c.elements =
        (List.range' 1 (i - 1)).map (fun j => TrieElem.word (c.word j)) ++ post ∧
      post.length = get_first_wildcard_reverse_depth c := by
  refine ⟨(List.range' i (c.constants + 1 - i)).flatMap c.elementsAt ++ c.elementsTail, ?_, ?_⟩
  · unfold Cluster.elements
    have hsplit : List.range' 1 c.constants =
        List.range' 1 (i - 1) ++ List.range' i (c.constants + 1 - i) := by
      have := List.range'_append_1 1 (i - 1) (c.constants + 1 - i)
      have e1 : 1 + (i - 1) = i := by omega
      have e2 : c.constants + 1 - i + (i - 1) = c.constants := by omega
      rw [e1, e2] at this
      exact this.symm
    rw [hsplit, List.flatMap_append, List.append_assoc, flatMap_words]
    intro j hj
    rw [List.mem_range'_1] at hj
    exact hz j hj.1 (by omega)
  · unfold get_first_wildcard_reverse_depth
    simp only [h0]
    have hi1 : ¬ ((i : Int) = -1) := by omega
    have hi0 : ¬ ((i : Int) = 0) := by omega
    simp only [hi1, hi0, if_false, Int.toNat_ofNat, reverse_depth_fold, Nat.zero_add,
      List.length_append]
    unfold Cluster.elementsTail
    by_cases ht : c.fullWildcard 1 ≠ 0
    · simp only [if_pos ht, List.length_singleton]
    · simp only [if_neg ht, List.length_nil, Nat.add_zero]

theorem Cluster.bounds_split (c : Cluster) (m n : Nat) :
    c.bounds 1 (m + n) =
      (List.range' 1 m).map
        (fun j => (c.word j, c.fullWildcard (j * 2), c.fullWildcard (j * 2 + 1)))
      ++ c.bounds (1 + m) n := by
  unfold Cluster.bounds
  rw [← List.map_append, List.range'_append_1, Nat.add_comm n m]

theorem matched_sound (p : Parameters) (ins : List Nat) (hinv : TrieInv p ins) (ptr : Nat)
    (hptr : ptr ∈ ins)
    (hmm : ∀ j, j ≤ (p.cluster ptr).constants →
      (p.cluster ptr).fullWildcard (j * 2) ≤ (p.cluster ptr).fullWildcard (j * 2 + 1)) :
    (matched p ptr).Nodup ∧
    ∀ o ∈ matched p ptr, o ≠ ptr ∧ o ∈ ins ∧ MoreSpecific (p.cluster o) (p.cluster ptr) := by
  have htl : (p.cluster ptr).fullWildcard 0 ≤ (p.cluster ptr).fullWildcard 1 := by
    have := hmm 0 (Nat.zero_le _)
    simpa using this
  unfold matched
  simp only []
  by_cases hloc : get_first_wildcard_location (p.cluster ptr) ≥ 0
  swap
  · rw [if_neg hloc]
    exact ⟨List.nodup_nil, fun o ho => nomatch ho⟩
  rw [if_pos hloc]
  cases hcp : get_common_parent p ptr with
  | none => exact ⟨List.nodup_nil, fun o ho => nomatch ho⟩
  | some pParent =>
    simp only []
    cases hfind : p.pPrefixRoot.find pParent with
    | none => exact ⟨List.nodup_nil, fun o ho => nomatch ho⟩
    | some r =>
      obtain ⟨dP, ch⟩ := r
      simp only []
      obtain ⟨hdP, π1, l1, l2, hnodes⟩ := find_spec _ _ _ _ [] hfind
      have hsubl : ((ch.nodes (π1 ++ [(dP.addr, dP.elem)])).filterMap
          (fun x => x.2.pIsEnd)).Sublist
          ((p.pPrefixRoot.nodes []).filterMap (fun x => x.2.pIsEnd)) := by
        rw [hnodes]
        apply List.Sublist.filterMap
        apply List.sublist_append_of_sublist_right
        apply List.Sublist.cons
        exact List.sublist_append_left _ _
      have hnd := hinv.ends_nodup
      constructor
      · split
        · exact ((matched_tail_sublist _ _ ch _ _).trans hsubl).nodup hnd
        · exact ((matched_loop_sublist _ _ _ ch _ _ _ _).trans hsubl).nodup hnd
      · -- the node the candidate ends in, and the common parent
        obtain ⟨x, hx, hx1, hx2⟩ := hinv.last ptr hptr
        have hPmem : (π1, dP) ∈ p.pPrefixRoot.nodes [] := by rw [hnodes]; simp
        have hchmem : ∀ z ∈ ch.nodes (π1 ++ [(dP.addr, dP.elem)]),
            z ∈ p.pPrefixRoot.nodes [] := by
          intro z hz; rw [hnodes]; simp [hz]
        have hkind : ∀ z ∈ ch.nodes (π1 ++ [(dP.addr, dP.elem)]), TrieData.Kind z :=
          fun z hz => hinv.kind z (hchmem z hz)
        have hcommon : ∀ pre post : List TrieElem, (p.cluster ptr).elements = pre ++ post →
            post.length = get_first_wildcard_reverse_depth (p.cluster ptr) →
            pathElems (π1, dP) = pre := by
          intro pre post hel hpost
          have hlen : get_first_wildcard_reverse_depth (p.cluster ptr) ≤ x.1.length := by
            rw [← pathElems_length, hx2, hel, List.length_append]; omega
          obtain ⟨y, hy, suf, e1, e2, e3⟩ := trie_ancestor_spec hinv _ x hx hlen
          have hcp2 : get_common_parent p ptr = some y.2.addr := by
            unfold get_common_parent
            simp only []
            rw [hx1]; exact e1
          rw [hcp] at hcp2
          simp only [Option.some.injEq] at hcp2
          have hyP : y = (π1, dP) :=
            nodes_eq_of_addr hinv.nodup hy hPmem (by rw [← hcp2, hdP])
          have e4 := pathElems_append x y suf e2
          rw [hx2, hel, hyP] at e4
          exact (List.append_inj_left' e4 (by rw [hpost, List.length_map, e3])).symm
        have hfinish : ∀ (o : Nat) (z : List (Nat × TrieElem) × TrieData)
            (ρ : List (Nat × TrieElem)) (m : Nat) (ws : List (Key × Int × Int)),
            z ∈ ch.nodes (π1 ++ [(dP.addr, dP.elem)]) → z.2.pIsEnd = some o → o ≠ ptr →
            z.1 ++ [(z.2.addr, z.2.elem)] = (π1 ++ [(dP.addr, dP.elem)]) ++ ρ →
            pathElems (π1, dP) =
              (List.range' 1 m).map (fun j => TrieElem.word ((p.cluster ptr).word j)) →
            (∀ j, 1 ≤ j → j ≤ m → (p.cluster ptr).fullWildcard (j * 2 + 1) = 0) →
            m ≤ (p.cluster ptr).constants →
            (p.cluster ptr).bounds 1 (p.cluster ptr).constants =
              (List.range' 1 m).map (fun j => ((p.cluster ptr).word j,
                (p.cluster ptr).fullWildcard (j * 2), (p.cluster ptr).fullWildcard (j * 2 + 1)))
              ++ ws →
            Embeds ws ((p.cluster ptr).fullWildcard 0, (p.cluster ptr).fullWildcard 1) (0, 0)
              (ρ.map Prod.snd) →
            o ≠ ptr ∧ o ∈ ins ∧ MoreSpecific (p.cluster o) (p.cluster ptr) := by
          intro o z ρ m ws hz hzo hne hzp hpre hzero hm hb hemb
          obtain ⟨e1, e2, -⟩ := hinv.ends z (hchmem z hz) o hzo
          refine ⟨hne, e1, ?_⟩
          unfold MoreSpecific
          have e3 := pathElems_append z (π1, dP) ρ hzp
          rw [e2, hpre] at e3
          rw [e3, hb]
          apply Embeds.prefix _ _ _ _ hemb
          intro j hj
          rw [List.mem_range'_1] at hj
          have h1 := hmm j (by omega)
          have h2 := hzero j hj.1 (by omega)
          rw [h2] at h1
          exact ⟨h1, by rw [h2]⟩
        intro o ho
        rcases first_wildcard_cases (p.cluster ptr) with h | ⟨h0, ht, hz⟩ | ⟨i, h0, h1, h2, h3, hz⟩
        · rw [h] at hloc; exact absurd hloc (by decide)
        · -- only the gap after the last constant
          simp only [h0, Int.toNat_zero, if_true] at ho
          obtain ⟨post, hel, hpost⟩ := elements_split_tail _ h0 ht hz
          have hpre := hcommon _ _ hel hpost
          obtain ⟨z, hz1, ρ, hz2, hz3, hz4, hz5⟩ := matched_tail_sound ptr (p.cluster ptr) ch
            (π1 ++ [(dP.addr, dP.elem)]) (0, 0) (by simp) hkind o ho
          refine hfinish o z ρ (p.cluster ptr).constants [] hz1 hz2 hz3 hz4 hpre hz
            (Nat.le_refl _) ?_ hz5
          unfold Cluster.bounds
          rw [List.append_nil]
        · -- a gap before the i-th constant
          have hi0 : ¬ i = 0 := by omega
          simp only [h0, Int.toNat_ofNat, hi0, if_false] at ho
          obtain ⟨post, hel, hpost⟩ := elements_split_loop _ i h0 h1 h2 hz
          have hpre := hcommon _ _ hel hpost
          obtain ⟨z, hz1, ρ, hz2, hz3, hz4, hz5⟩ := matched_loop_sound ptr (p.cluster ptr) _ htl
            ch (π1 ++ [(dP.addr, dP.elem)]) i ((p.cluster ptr).constants - i) (0, 0) _
            (by simp) hkind (by omega) o ho
          refine hfinish o z ρ (i - 1) _ hz1 hz2 hz3 hz4 hpre
            (fun j hj1 hj2 => hz j hj1 (by omega)) (by omega) ?_ hz5
          have := (p.cluster ptr).bounds_split (i - 1) ((p.cluster ptr).constants - i + 1)
          have e1 : i - 1 + ((p.cluster ptr).constants - i + 1) = (p.cluster ptr).constants := by
            omega
          have e2 : 1 + (i - 1) = i := by omega
          rw [e1, e2] at this
          exact this

theorem aggregate_commit_frame (order : List Nat) :
    ∀ p : Parameters,
      (aggregate_commit order p).pClusterFamily = p.pClusterFamily ∧
      (aggregate_commit order p).biggestConstants = p.biggestConstants ∧
      (aggregate_commit order p).support = p.support := by
  induction order with
  | nil => intro p; exact ⟨rfl, rfl, rfl⟩
  | cons a rest ih =>
    intro p
    obtain ⟨h1, h2, h3⟩ := ih (p.setCluster a { p.cluster a with count := elem_count p a })
    exact ⟨h1, h2, h3⟩

theorem cluster_words_eq (c : Cluster) (S : List Key) (h1 : c.constants = S.length)
    (h2 : ∀ i w, S[i]? = some w → ∃ we, c.ppWord (i + 1) = some we ∧ we.pKey = w) :
    c.words = S := by
  unfold Cluster.words
  apply List.ext_getElem?
  intro i
  by_cases hi : i < S.length
  · have hs : S[i]? = some S[i] := List.getElem?_eq_getElem hi
    obtain ⟨we, e1, e2⟩ := h2 i _ hs
    rw [hs, List.getElem?_map, List.getElem?_range' _ _ (by omega)]
    simp only [Option.map_some', Nat.one_mul, Option.some.injEq]
    rw [Nat.add_comm, Cluster.word_eq c (i + 1) we e1, e2]
  · have hl : ((List.range' 1 c.constants).map c.word).length ≤ i := by
      simp only [List.length_map, List.length_range', h1]; omega
    rw [List.getElem?_eq_none (by omega : S.length ≤ i), List.getElem?_eq_none hl]

theorem candidate_facts (p0 p : Parameters) (m s : Nat) (input : List (List Key))
    (hc : CandInv p0 p m s input) (hf : FamInv p m s)
    (hnl : ∀ l ∈ input, ∀ w ∈ l, CLUSTERSEP ∉ w) (ptr : Nat) (hptr : ptr < p.clusters.length) :
    (p.cluster ptr).count = (linesOf p0 (p.cluster ptr).words input).length ∧
    (lookup p.ppClusterTable m s (p.cluster ptr).pElem).map Elem.count
      = some (p.cluster ptr).count ∧
    (∀ i, 1 ≤ i → i ≤ (p.cluster ptr).constants → ∃ w, (p.cluster ptr).ppWord i = some w) ∧
    (∀ j, j ≤ (p.cluster ptr).constants →
      (p.cluster ptr).fullWildcard (j * 2) ≤ (p.cluster ptr).fullWildcard (j * 2 + 1)) := by
  obtain ⟨e, he1, he2⟩ := hf.back ptr hptr
  obtain ⟨S, a1, a2, a3⟩ := hc.keys _ e he1
  obtain ⟨e1, ptr1, c1, q1, q2, q3, q4, q5, q6, q7, q8, q9⟩ :=
    hc.present S a1 (linesOf_no_sep hnl a2) a2
  rw [← a3, he1] at q1
  cases q1
  rw [he2] at q3
  cases q3
  have hcl : p.cluster ptr = c1 := by
    unfold Parameters.cluster
    rw [List.getD_eq_getElem?_getD, q4]; rfl
  rw [hcl] at he1 ⊢
  have hwords := cluster_words_eq c1 S q6 q8
  refine ⟨by rw [hwords, q5], by rw [he1, Option.map_some', q2, q5], ?_, ?_⟩
  · intro i hi1 hi2
    have hlt : i - 1 < S.length := by omega
    obtain ⟨we, e1, -⟩ := q8 (i - 1) _ (List.getElem?_eq_getElem hlt)
    have : i - 1 + 1 = i := by omega
    rw [this] at e1
    exact ⟨we, e1⟩
  · intro j hj
    rw [q6] at hj
    obtain ⟨g1, ⟨l, hl, g2⟩, -⟩ := q9 j hj
    have := g1 l hl
    omega

theorem candidate_keys_inj (p : Parameters) (m s : Nat) (hf : FamInv p m s) (a b : Nat)
    (ha : a < p.clusters.length) (hb : b < p.clusters.length)
    (h : (p.cluster a).pElem = (p.cluster b).pElem) : a = b := by
  obtain ⟨e1, x1, x2⟩ := hf.back a ha
  obtain ⟨e2, y1, y2⟩ := hf.back b hb
  rw [h, y1] at x1
  cases x1
  rw [y2] at x2
  simpa using x2.symm

theorem MoreSpecific_congr (c1 d1 c d : Cluster)
    (h1 : d1 = { c1 with pLastNode := d1.pLastNode })
    (h2 : d = { c with pLastNode := d.pLastNode }) :
    MoreSpecific d1 d ↔ MoreSpecific c1 c := by
  rw [h1, h2]
  exact Iff.rfl

theorem support_sum_eq_own (p0 pc pt : Parameters) (input : List (List Key)) (L : List Nat)
    (h : ∀ o ∈ L, (pt.cluster o).count = own_count p0 input (pc.cluster o)) :
    support_sum pt L = (L.map (fun o => own_count p0 input (pc.cluster o))).sum := by
  unfold support_sum
  congr 1
  apply List.map_congr_left
  exact h

theorem mine_aggrsup_counts (pParam : Parameters) (input : List (List Key))
    (loc : CandidateLocals) (cc : Nat) (hsk : pParam.clusterSketchSize = 0)
    (hsz : 0 < pParam.clusterTableSize) (hnl : ∀ l ∈ input, ∀ w ∈ l, CLUSTERSEP ∉ w)
    (hcl : pParam.clusters = []) (hfm : ∀ i, pParam.pClusterFamily i = [])
    (pc pt : Parameters) (hpc : pc = (create_cluster_candidates pParam input loc cc).1)
    (hpt : pt = prepare_prefix_trie pc) :
    ∀ i ptr, 1 ≤ i → i ≤ (mine_aggrsup pParam input loc cc).biggestConstants →
      ptr ∈ (mine_aggrsup pParam input loc cc).pClusterFamily i →
      ((mine_aggrsup pParam input loc cc).cluster ptr).count =
        own_count pParam input (pc.cluster ptr) +
          ((matched pt ptr).map (fun o => own_count pParam input (pc.cluster o))).sum ∧
      (matched pt ptr).Nodup ∧
      ∀ o ∈ matched pt ptr, o ≠ ptr ∧ o < pc.clusters.length ∧
        MoreSpecific (pc.cluster o) (pc.cluster ptr) := by
  intro i ptr hi1 hi2 hmem
  obtain ⟨-, hc⟩ := create_cluster_candidates_inv pParam input loc cc hsk hsz hnl
  have hf := create_cluster_candidates_fam pParam input loc cc hsk hsz hnl hcl hfm
  rw [← hpc] at hc hf
  have hnd := family_order_nodup hf
  have hmemo := family_order_mem hf
  have facts := fun o ho => candidate_facts pParam pc _ _ input hc hf hnl o ho
  obtain ⟨t1, t2, t3, t4, t5, t6, t7, t8, t9⟩ := prepare_prefix_trie_inv pc hnd
    (fun o ho => (hmemo o).1 ho) (fun o ho => (facts o ((hmemo o).1 ho)).2.2.1)
  rw [← hpt] at t1 t2 t3 t4 t5 t6 t7 t8 t9
  have hfo : family_order pt = family_order pc := by unfold family_order; rw [t4, t5]
  have hkey : ∀ o, (pt.cluster o).pElem = (pc.cluster o).pElem := by
    intro o; rw [t8 o]
  have hcnt : ∀ o, (pt.cluster o).count = (pc.cluster o).count := by
    intro o; rw [t8 o]
  have hcst : ∀ o, (pt.cluster o).constants = (pc.cluster o).constants := by
    intro o; rw [t8 o]
  have hfw : ∀ o j, (pt.cluster o).fullWildcard j = (pc.cluster o).fullWildcard j := by
    intro o j; rw [t8 o]
  -- the two loops of `aggregate_candidates`
  have hagg := aggregate_in_order_count pt (family_order pt) (by rw [hfo]; exact hnd)
    (by intro o ho; rw [hfo] at ho; rw [t7]; exact (hmemo o).1 ho)
    (by
      intro a ha b hb hab
      rw [hfo] at ha hb
      rw [hkey, hkey] at hab
      exact candidate_keys_inj pc _ _ hf a b ((hmemo a).1 ha) ((hmemo b).1 hb) hab)
    (by
      intro o ho
      rw [hfo] at ho
      rw [t1, t2, t3, hkey, hcnt, hc.csize, hc.cseed]
      exact (facts o ((hmemo o).1 ho)).2.1)
  obtain ⟨s1, -⟩ := aggregate_search_spec (family_order pt) pt
  obtain ⟨f1, f2, f3⟩ := aggregate_commit_frame (family_order pt)
    (aggregate_search (family_order pt) pt)
  have hpa : step_2_aggregate_support pc = aggregate_in_order (family_order pt) pt := by
    rw [hpt]; rfl
  have hfam : (step_2_aggregate_support pc).pClusterFamily = pc.pClusterFamily := by
    rw [hpa]; exact (f1.trans s1.family).trans t4
  have hbig : (step_2_aggregate_support pc).biggestConstants = pc.biggestConstants := by
    rw [hpa]; exact (f2.trans s1.biggest).trans t5
  -- the selection
  have hsel := (find_clusters_buckets_spec (step_2_aggregate_support pc)
    (step_2_aggregate_support pc).biggestConstants 1
    (step_2_aggregate_support pc).pClusterFamily 0).1 i
  have hmine : mine_aggrsup pParam input loc cc =
      (find_clusters_from_candidates (step_2_aggregate_support pc)).1 := by
    rw [hpc]; rfl
  rw [hmine] at hi2 hmem ⊢
  have hbig2 : (find_clusters_from_candidates (step_2_aggregate_support pc)).1.biggestConstants
      = pc.biggestConstants := hbig
  rw [hbig2] at hi2
  have hmem2 : ptr ∈ pc.pClusterFamily i := by
    have e : (find_clusters_from_candidates (step_2_aggregate_support pc)).1.pClusterFamily i =
        (find_clusters_buckets (step_2_aggregate_support pc)
          (step_2_aggregate_support pc).biggestConstants 1
          (step_2_aggregate_support pc).pClusterFamily 0).1 i := rfl
    rw [e, hsel, hbig] at hmem
    have hcond : 1 ≤ i ∧ i < 1 + pc.biggestConstants := by omega
    rw [if_pos hcond, hfam] at hmem
    exact (List.mem_filter.1 hmem).1
  have hlt : ptr < pc.clusters.length := (hf.mem i ptr hmem2).1
  have hord : ptr ∈ family_order pt := by rw [hfo]; exact (hmemo ptr).2 hlt
  have hclf : (find_clusters_from_candidates (step_2_aggregate_support pc)).1.cluster ptr =
      (step_2_aggregate_support pc).cluster ptr := rfl
  -- the matched candidates
  have hins : ptr ∈ (family_order pc).reverse := List.mem_reverse.2 ((hmemo ptr).2 hlt)
  obtain ⟨m1, m2⟩ := matched_sound pt _ t9 ptr hins (by
    intro j hj
    rw [hcst] at hj
    rw [hfw, hfw]
    exact (facts ptr hlt).2.2.2 j hj)
  have hvalid : ∀ o ∈ matched pt ptr, o < pc.clusters.length := by
    intro o ho
    exact (hmemo o).1 (List.mem_reverse.1 (m2 o ho).2.1)
  refine ⟨?_, m1, ?_⟩
  · rw [hclf, hpa, hagg ptr]
    simp only [hord, if_true]
    rw [hcnt, (facts ptr hlt).1]
    congr 1
    apply support_sum_eq_own
    intro o ho
    rw [hcnt, (facts o (hvalid o ho)).1]
    rfl
  · intro o ho
    obtain ⟨n1, -, n3⟩ := m2 o ho
    exact ⟨n1, hvalid o ho, (MoreSpecific_congr _ _ _ _ (t8 o) (t8 ptr)).1 n3⟩

/-! ## The vocabulary pass leaves the cluster records alone -/

theorem create_vocabulary_word_frame (st : Parameters × VocabularyLocals) (word : Key) :
    (create_vocabulary_word st word).1.pClusterFamily = st.1.pClusterFamily ∧
    (create_vocabulary_word st word).1.clusters = st.1.clusters := by
  unfold create_vocabulary_word
  simp only []
  split
  · exact ⟨rfl, rfl⟩
  · split
    · exact ⟨rfl, rfl⟩
    · split
      · exact ⟨rfl, rfl⟩
      · split <;> split <;> exact ⟨rfl, rfl⟩

theorem create_vocabulary_words_frame (words : List Key) :
    ∀ st : Parameters × VocabularyLocals,
      (words.foldl create_vocabulary_word st).1.pClusterFamily = st.1.pClusterFamily ∧
      (words.foldl create_vocabulary_word st).1.clusters = st.1.clusters := by
  induction words with
  | nil => intro st; exact ⟨rfl, rfl⟩
  | cons w rest ih =>
    intro st
    obtain ⟨a1, a2⟩ := ih (create_vocabulary_word st w)
    obtain ⟨b1, b2⟩ := create_vocabulary_word_frame st w
    exact ⟨a1.trans b1, a2.trans b2⟩

theorem create_vocabulary_lines_frame (input : List (List Key)) :
    ∀ st : Parameters × VocabularyLocals,
      (input.foldl create_vocabulary_line st).1.pClusterFamily = st.1.pClusterFamily ∧
      (input.foldl create_vocabulary_line st).1.clusters = st.1.clusters := by
  induction input with
  | nil => intro st; exact ⟨rfl, rfl⟩
  | cons l rest ih =>
    intro st
    obtain ⟨a1, a2⟩ := ih (create_vocabulary_line st l)
    obtain ⟨b1, b2⟩ := create_vocabulary_words_frame l (st.1, { st.2 with distinctWords := 0 })
    exact ⟨a1.trans b1, a2.trans b2⟩

theorem create_vocabulary_frame (pParam : Parameters) (input : List (List Key)) :
    (find_frequent_words (create_vocabulary pParam input).1).1.pClusterFamily
      = pParam.pClusterFamily ∧
    (find_frequent_words (create_vocabulary pParam input).1).1.clusters = pParam.clusters := by
  obtain ⟨a1, a2⟩ := create_vocabulary_lines_frame input
    ({ pParam with ppWordTable := List.replicate pParam.wordTableSize [] },
     { number := 0, distinctWords := 0, linecount := 0 })
  exact ⟨a1, a2⟩

theorem docParams_fresh :
    (∀ i, docParams.pClusterFamily i = []) ∧ docParams.clusters = [] := by
  have h := create_vocabulary_frame { support := 5, wordTableSize := 5, clusterTableSize := 7 }
    docInput
  unfold docParams
  dsimp only
  rw [h.1, h.2]
  exact ⟨fun _ => rfl, rfl⟩

theorem aggrParams_fresh :
    (∀ i, aggrParams.pClusterFamily i = []) ∧ aggrParams.clusters = [] := by
  have h := create_vocabulary_frame { support := 2, wordTableSize := 5, clusterTableSize := 7 }
    aggrInput
  unfold aggrParams
  dsimp only
  rw [h.1, h.2]
  exact ⟨fun _ => rfl, rfl⟩

/-- The aggregation runs before the selection: on the lines `A x B`, `A y B`,
`A C B`, `C` with support 2 the only candidate that survives the selection is
candidate 0 (`A *{1,1} B`, two lines); its reported count is 3, because the
line count 1 of the more specific candidate 1 (`A C B`), which does not
survive, has been added. -/
theorem aggregation_counts_non_survivor :
    (mine_aggrsup aggrParams aggrInput {} 0).biggestConstants = 3 ∧
    (mine_aggrsup aggrParams aggrInput {} 0).pClusterFamily 1 = [] ∧
    (mine_aggrsup aggrParams aggrInput {} 0).pClusterFamily 2 = [0] ∧
    (mine_aggrsup aggrParams aggrInput {} 0).pClusterFamily 3 = [] ∧
    own_count aggrParams aggrInput (aggrCandidates.cluster 0) = 2 ∧
    ((mine_aggrsup aggrParams aggrInput {} 0).cluster 0).count = 3 ∧
    ((mine_aggrsup aggrParams aggrInput {} 0).cluster 0).count ≠
      own_count aggrParams aggrInput (aggrCandidates.cluster 0) +
        (((family_order (mine_aggrsup aggrParams aggrInput {} 0)).filter
            (fun o => decide (o ≠ 0))).map
          (fun o => own_count aggrParams aggrInput (aggrCandidates.cluster o))).sum ∧
    own_count aggrParams aggrInput (aggrCandidates.cluster 1) = 1 ∧
    MoreSpecific (aggrCandidates.cluster 1) (aggrCandidates.cluster 0) := by
  have h :
      ((mine_aggrsup aggrParams aggrInput {} 0).biggestConstants = 3) ∧
      ((mine_aggrsup aggrParams aggrInput {} 0).pClusterFamily 1 = []) ∧
      ((mine_aggrsup aggrParams aggrInput {} 0).pClusterFamily 2 = [0]) ∧
      ((mine_aggrsup aggrParams aggrInput {} 0).pClusterFamily 3 = []) ∧
      (own_count aggrParams aggrInput (aggrCandidates.cluster 0) = 2) ∧
      (((mine_aggrsup aggrParams aggrInput {} 0).cluster 0).count = 3) ∧
      (((mine_aggrsup aggrParams aggrInput {} 0).cluster 0).count ≠
        own_count aggrParams aggrInput (aggrCandidates.cluster 0) +
          (((family_order (mine_aggrsup aggrParams aggrInput {} 0)).filter
              (fun o => decide (o ≠ 0))).map
            (fun o => own_count aggrParams aggrInput (aggrCandidates.cluster o))).sum) ∧
      (own_count aggrParams aggrInput (aggrCandidates.cluster 1) = 1) ∧
      ((aggrCandidates.cluster 0).bounds 1 (aggrCandidates.cluster 0).constants =
        [([65], 0, 0), ([66], 1, 1)]) ∧
      ((aggrCandidates.cluster 1).elements =
        [TrieElem.word [65], TrieElem.word [67], TrieElem.word [66]]) ∧
      (((aggrCandidates.cluster 0).fullWildcard 0, (aggrCandidates.cluster 0).fullWildcard 1)
        = (0, 0)) := by
    decide!
  obtain ⟨h0, h1, h2, h3, h4, h5, h6, h7, hb, he, hf⟩ := h
  refine ⟨h0, h1, h2, h3, h4, h5, h6, h7, ?_⟩
  unfold MoreSpecific
  rw [hb, he, hf]
  refine ⟨[], [TrieElem.word [67], TrieElem.word [66]], rfl, by decide, by decide, ?_⟩
  refine ⟨[TrieElem.word [67]], [], rfl, by decide, by decide, ?_⟩
  exact ⟨by decide, by decide⟩

/-- What the aggregation adds: for every candidate that survives the selection
the reported count is its own line count plus the sum of the line counts of the
candidates that the search of the prefix trie matches for it.  Every matched
candidate is matched once, differs from the candidate, and is more specific
than it; it is a candidate of the candidate pass, whether or not it survives
the selection itself. -/
theorem aggregated_support_counts (pParam : Parameters) (input : List (List Key))
    (loc : CandidateLocals) (cc : Nat) (hsk : pParam.clusterSketchSize = 0)
    (hsz : 0 < pParam.clusterTableSize) (hnl : ∀ l ∈ input, ∀ w ∈ l, CLUSTERSEP ∉ w)
    (hcl : pParam.clusters = []) (hfm : ∀ i, pParam.pClusterFamily i = []) :
    ∀ i ptr, 1 ≤ i → i ≤ (mine_aggrsup pParam input loc cc).biggestConstants →
      ptr ∈ (mine_aggrsup pParam input loc cc).pClusterFamily i →
      ((mine_aggrsup pParam input loc cc).cluster ptr).count =
        own_count pParam input ((create_cluster_candidates pParam input loc cc).1.cluster ptr) +
          ((matched (prepare_prefix_trie (create_cluster_candidates pParam input loc cc).1)
              ptr).map
            (fun o => own_count pParam input
              ((create_cluster_candidates pParam input loc cc).1.cluster o))).sum ∧
      (matched (prepare_prefix_trie (create_cluster_candidates pParam input loc cc).1)
        ptr).Nodup ∧
      ∀ o ∈ matched (prepare_prefix_trie (create_cluster_candidates pParam input loc cc).1) ptr,
        o ≠ ptr ∧ o < (create_cluster_candidates pParam input loc cc).1.clusters.length ∧
        MoreSpecific ((create_cluster_candidates pParam input loc cc).1.cluster o)
          ((create_cluster_candidates pParam input loc cc).1.cluster ptr) :=
  mine_aggrsup_counts pParam input loc cc hsk hsz hnl hcl hfm _ _ rfl rfl

theorem aggregated_support_counts_witness :
    docParams.clusterSketchSize = 0 ∧ 0 < docParams.clusterTableSize ∧
    (∀ l ∈ docInput, ∀ w ∈ l, CLUSTERSEP ∉ w) ∧
    docParams.clusters = [] ∧ (∀ i, docParams.pClusterFamily i = []) ∧
    (mine_aggrsup docParams docInput {} 0).biggestConstants = 3 ∧
    0 ∈ (mine_aggrsup docParams docInput {} 0).pClusterFamily 2 ∧
    own_count docParams docInput ((create_cluster_candidates docParams docInput {} 0).1.cluster 0)
      = 20 ∧
    matched (prepare_prefix_trie (create_cluster_candidates docParams docInput {} 0).1) 0
      = [2, 1] ∧
    own_count docParams docInput ((create_cluster_candidates docParams docInput {} 0).1.cluster 1)
      = 10 ∧
    own_count docParams docInput ((create_cluster_candidates docParams docInput {} 0).1.cluster 2)
      = 5 ∧
    ((mine_aggrsup docParams docInput {} 0).cluster 0).count = 35 ∧
    ((mine_aggrsup docParams docInput {} 0).cluster 0).count =
      own_count docParams docInput
          ((create_cluster_candidates docParams docInput {} 0).1.cluster 0) +
        ((matched (prepare_prefix_trie (create_cluster_candidates docParams docInput {} 0).1)
            0).map
          (fun o => own_count docParams docInput
            ((create_cluster_candidates docParams docInput {} 0).1.cluster o))).sum := by
  have h :
      (docParams.clusterSketchSize = 0) ∧
      (0 < docParams.clusterTableSize) ∧
      ((∀ l ∈ docInput, ∀ w ∈ l, CLUSTERSEP ∉ w)) ∧
      ((mine_aggrsup docParams docInput {} 0).biggestConstants = 3) ∧
      (0 ∈ (mine_aggrsup docParams docInput {} 0).pClusterFamily 2) ∧
      (own_count docParams docInput ((create_cluster_candidates docParams docInput {} 0).1.cluster 0)
        = 20) ∧
      (matched (prepare_prefix_trie (create_cluster_candidates docParams docInput {} 0).1) 0
        = [2, 1]) ∧
      (own_count docParams docInput ((create_cluster_candidates docParams docInput {} 0).1.cluster 1)
        = 10) ∧
      (own_count docParams docInput ((create_cluster_candidates docParams docInput {} 0).1.cluster 2)
        = 5) ∧
      (((mine_aggrsup docParams docInput {} 0).cluster 0).count = 35) ∧
      (2 ≤ (mine_aggrsup docParams docInput {} 0).biggestConstants) := by
    decide!
  obtain ⟨h0, h1, h2, h5, h6, h7, h8, h9, h10, h11, x0⟩ := h
  exact ⟨h0, h1, h2, docParams_fresh.2, docParams_fresh.1, h5, h6, h7, h8, h9, h10, h11,
    (aggregated_support_counts docParams docInput {} 0 h0 h1 h2 docParams_fresh.2
    docParams_fresh.1 2 0 (by decide) x0 h6).1⟩

/-- C8, on the code: with support aggregation the reported count of a
candidate that survives the selection is not always its own line count plus the
line counts of all more specific candidates.  `find_more_specific` takes the
first node that matches a constant and does not look below it for a later match
of the same constant: on the lines `A B`, `A x B`, `A B B`, `A B B` with
support 2 both candidates survive, candidate 1 (`A B B`, 2 lines) is more
specific than candidate 0 (`A *{0,1} B`, 2 lines), the search for candidate 0
matches no candidate, and the reported count of candidate 0 stays at its own 2
lines, where the claim and the documentation of `--aggrsup` give 4. -/
theorem aggregation_first_match_only :
    (mine_aggrsup leftmostParams leftmostInput {} 0).pClusterFamily 2 = [0] ∧
    (mine_aggrsup leftmostParams leftmostInput {} 0).pClusterFamily 3 = [1] ∧
    own_count leftmostParams leftmostInput (leftmostCandidates.cluster 0) = 2 ∧
    own_count leftmostParams leftmostInput (leftmostCandidates.cluster 1) = 2 ∧
    ((mine_aggrsup leftmostParams leftmostInput {} 0).cluster 0).count = 2 ∧
    matched (prepare_prefix_trie leftmostCandidates) 0 = [] ∧
    MoreSpecific (leftmostCandidates.cluster 1) (leftmostCandidates.cluster 0) := by
  have h :
      ((mine_aggrsup leftmostParams leftmostInput {} 0).pClusterFamily 2 = [0]) ∧
      ((mine_aggrsup leftmostParams leftmostInput {} 0).pClusterFamily 3 = [1]) ∧
      (own_count leftmostParams leftmostInput (leftmostCandidates.cluster 0) = 2) ∧
      (own_count leftmostParams leftmostInput (leftmostCandidates.cluster 1) = 2) ∧
      (((mine_aggrsup leftmostParams leftmostInput {} 0).cluster 0).count = 2) ∧
      (matched (prepare_prefix_trie leftmostCandidates) 0 = []) ∧
      ((leftmostCandidates.cluster 0).bounds 1 (leftmostCandidates.cluster 0).constants =
        [([65], 0, 0), ([66], 0, 1)]) ∧
      ((leftmostCandidates.cluster 1).elements =
        [TrieElem.word [65], TrieElem.word [66], TrieElem.word [66]]) ∧
      (((leftmostCandidates.cluster 0).fullWildcard 0,
        (leftmostCandidates.cluster 0).fullWildcard 1) = (0, 0)) := by
    decide!
  obtain ⟨h0, h1, h2, h3, h4, h5, hb, he, hf⟩ := h
  refine ⟨h0, h1, h2, h3, h4, h5, ?_⟩
  unfold MoreSpecific
  rw [hb, he, hf]
  refine ⟨[], [TrieElem.word [66], TrieElem.word [66]], rfl, by decide, by decide, ?_⟩
  refine ⟨[TrieElem.word [66]], [], rfl, by decide, by decide, ?_⟩
  exact ⟨by decide, by decide⟩
/-! ## Rounding to the nearest double -/

theorem pow2_eq (e : ℤ) : pow2 e = (2 : ℚ) ^ e := by
  unfold pow2
  split_ifs with h
  · obtain ⟨n, rfl⟩ := Int.eq_ofNat_of_zero_le h
    simp
  · have he : e = -((-e).toNat : ℤ) := by
      rw [Int.toNat_of_nonneg (by omega)]; ring
    rw [he]
    simp only [neg_neg, Int.toNat_ofNat, zpow_neg, zpow_natCast, Nat.cast_pow, Nat.cast_ofNat,
      one_div]

theorem pow2_pos (e : ℤ) : 0 < pow2 e := by
  rw [pow2_eq]; positivity

theorem pow2_add (a b : ℤ) : pow2 (a + b) = pow2 a * pow2 b := by
  rw [pow2_eq, pow2_eq, pow2_eq, zpow_add₀ (by norm_num)]

theorem pow2_le {a b : ℤ} (h : a ≤ b) : pow2 a ≤ pow2 b := by
  rw [pow2_eq, pow2_eq]
  exact zpow_le_zpow_right₀ (by norm_num) h

theorem pow2_lt {a b : ℤ} (h : a < b) : pow2 a < pow2 b := by
  rw [pow2_eq, pow2_eq]
  exact zpow_lt_zpow_right₀ (by norm_num) h

theorem round_half_even_nearest (x : ℚ) (m : ℤ) :
    |(round_half_even x : ℚ) - x| ≤ |(m : ℚ) - x| := by
  have h1 : (⌊x⌋ : ℚ) ≤ x := Int.floor_le x
  have h2 : x < (⌊x⌋ : ℚ) + 1 := Int.lt_floor_add_one x
  have hm : |(m : ℚ) - x| ≥ min (x - ⌊x⌋) (⌊x⌋ + 1 - x) := by
    by_cases hle : m ≤ ⌊x⌋
    · have : (m : ℚ) ≤ ⌊x⌋ := by exact_mod_cast hle
      have : |(m : ℚ) - x| = x - m := by
        rw [abs_sub_comm, abs_of_nonneg]; linarith
      rw [this]
      exact le_trans (min_le_left _ _) (by linarith)
    · have : (⌊x⌋ : ℚ) + 1 ≤ m := by
        have : ⌊x⌋ + 1 ≤ m := by omega
        exact_mod_cast this
      have : |(m : ℚ) - x| = m - x := by
        rw [abs_of_nonneg]; linarith
      rw [this]
      exact le_trans (min_le_right _ _) (by linarith)
  unfold round_half_even
  split_ifs with c1 c2 c3
  · rw [abs_sub_comm, abs_of_nonneg (by linarith)]
    refine le_trans ?_ hm
    rw [le_min_iff]; constructor <;> linarith
  · push_cast
    rw [abs_of_nonneg (by linarith)]
    refine le_trans ?_ hm
    rw [le_min_iff]; constructor <;> linarith
  · rw [abs_sub_comm, abs_of_nonneg (by linarith)]
    refine le_trans ?_ hm
    rw [le_min_iff]; constructor <;> linarith
  · push_cast
    rw [abs_of_nonneg (by linarith)]
    refine le_trans ?_ hm
    rw [le_min_iff]; constructor <;> linarith

theorem round_half_even_int (m : ℤ) : round_half_even (m : ℚ) = m := by
  have h := round_half_even_nearest (m : ℚ) m
  rw [sub_self, abs_zero] at h
  have h0 : (round_half_even (m : ℚ) : ℚ) - m = 0 := abs_eq_zero.1 (le_antisymm h (abs_nonneg _))
  have : (round_half_even (m : ℚ) : ℚ) = m := by linarith
  exact_mod_cast this

theorem round_half_even_abs_le (x : ℚ) (B : ℤ) (h : |x| ≤ B) :
    |round_half_even x| ≤ B := by
  have hB : (0 : ℚ) ≤ B := le_trans (abs_nonneg _) h
  have hx := abs_le.1 h
  have h1 : (⌊x⌋ : ℚ) ≤ x := Int.floor_le x
  have h2 : x < (⌊x⌋ : ℚ) + 1 := Int.lt_floor_add_one x
  have lo : -B ≤ ⌊x⌋ := by
    rw [Int.le_floor]; push_cast; exact hx.1
  have hi : ⌊x⌋ ≤ B := by
    have : (⌊x⌋ : ℚ) ≤ B := le_trans h1 hx.2
    exact_mod_cast this
  have hi2 : ¬ x - ⌊x⌋ < 1 / 2 → ⌊x⌋ + 1 ≤ B := by
    intro hc
    by_contra hcon
    have : ⌊x⌋ = B := by omega
    have : (⌊x⌋ : ℚ) = B := by exact_mod_cast this
    apply hc
    linarith
  rw [abs_le]
  unfold round_half_even
  split_ifs with c1 c2 c3
  · exact ⟨lo, hi⟩
  · exact ⟨by omega, hi2 c1⟩
  · exact ⟨lo, hi⟩
  · exact ⟨by omega, hi2 c1⟩

theorem leading_bit_eq (fuel : ℕ) : ∀ n, n ≤ fuel → leading_bit fuel n = Nat.log2 n := by
  induction fuel with
  | zero =>
    intro n hn
    have : n = 0 := by omega
    subst this
    rw [Nat.log2]
    rfl
  | succ fuel ih =>
    intro n hn
    unfold leading_bit
    rw [Nat.log2]
    by_cases h : n < 2
    · rw [if_pos h, if_neg (by omega)]
    · rw [if_neg h, if_pos (by omega), ih (n / 2) (by omega)]

theorem Double.exponent_spec (x : ℚ) (hx : x ≠ 0) :
    pow2 (Double.exponent x) ≤ |x| ∧ |x| < pow2 (Double.exponent x + 1) := by
  have hn : x.num.natAbs ≠ 0 := by
    rw [Ne, Int.natAbs_eq_zero, Rat.num_eq_zero]; exact hx
  have hd : x.den ≠ 0 := x.den_nz
  have a1 : 2 ^ x.num.natAbs.log2 ≤ x.num.natAbs := Nat.log2_self_le hn
  have a2 : x.num.natAbs < 2 ^ (x.num.natAbs.log2 + 1) :=
    (Nat.log2_lt hn).1 (Nat.lt_succ_self _)
  have b1 : 2 ^ x.den.log2 ≤ x.den := Nat.log2_self_le hd
  have b2 : x.den < 2 ^ (x.den.log2 + 1) := (Nat.log2_lt hd).1 (Nat.lt_succ_self _)
  have habs : |x| = (x.num.natAbs : ℚ) / (x.den : ℚ) := by
    conv_lhs => rw [← Rat.num_div_den x]
    rw [abs_div, Nat.abs_cast, Nat.cast_natAbs, Int.cast_abs]
  have hdpos : (0 : ℚ) < x.den := by exact_mod_cast Nat.pos_of_ne_zero hd
  have a1q : (2 : ℚ) ^ (x.num.natAbs.log2 : ℤ) ≤ x.num.natAbs := by
    rw [zpow_natCast]; exact_mod_cast a1
  have a2q : (x.num.natAbs : ℚ) < (2 : ℚ) ^ ((x.num.natAbs.log2 : ℤ) + 1) := by
    have : ((x.num.natAbs.log2 : ℤ) + 1) = ((x.num.natAbs.log2 + 1 : ℕ) : ℤ) := by push_cast; rfl
    rw [this, zpow_natCast]; exact_mod_cast a2
  have b1q : (2 : ℚ) ^ (x.den.log2 : ℤ) ≤ x.den := by
    rw [zpow_natCast]; exact_mod_cast b1
  have b2q : (x.den : ℚ) < (2 : ℚ) ^ ((x.den.log2 : ℤ) + 1) := by
    have : ((x.den.log2 : ℤ) + 1) = ((x.den.log2 + 1 : ℕ) : ℤ) := by push_cast; rfl
    rw [this, zpow_natCast]; exact_mod_cast b2
  -- the quotient lies between the neighbouring powers
  have lo : (2 : ℚ) ^ ((x.num.natAbs.log2 : ℤ) - (x.den.log2 : ℤ) - 1) ≤ |x| := by
    rw [habs, le_div_iff₀ hdpos]
    have e : (2 : ℚ) ^ ((x.num.natAbs.log2 : ℤ) - (x.den.log2 : ℤ) - 1) *
        (2 : ℚ) ^ ((x.den.log2 : ℤ) + 1) = (2 : ℚ) ^ (x.num.natAbs.log2 : ℤ) := by
      rw [← zpow_add₀ (by norm_num)]; congr 1; ring
    calc (2 : ℚ) ^ ((x.num.natAbs.log2 : ℤ) - (x.den.log2 : ℤ) - 1) * (x.den : ℚ)
        ≤ (2 : ℚ) ^ ((x.num.natAbs.log2 : ℤ) - (x.den.log2 : ℤ) - 1) *
          (2 : ℚ) ^ ((x.den.log2 : ℤ) + 1) :=
          mul_le_mul_of_nonneg_left b2q.le (by positivity)
      _ = (2 : ℚ) ^ (x.num.natAbs.log2 : ℤ) := e
      _ ≤ x.num.natAbs := a1q
  have hi : |x| < (2 : ℚ) ^ ((x.num.natAbs.log2 : ℤ) - (x.den.log2 : ℤ) + 1) := by
    rw [habs, div_lt_iff₀ hdpos]
    have e : (2 : ℚ) ^ ((x.num.natAbs.log2 : ℤ) - (x.den.log2 : ℤ) + 1) *
        (2 : ℚ) ^ (x.den.log2 : ℤ) = (2 : ℚ) ^ ((x.num.natAbs.log2 : ℤ) + 1) := by
      rw [← zpow_add₀ (by norm_num)]; congr 1; ring
    calc (x.num.natAbs : ℚ) < (2 : ℚ) ^ ((x.num.natAbs.log2 : ℤ) + 1) := a2q
      _ = (2 : ℚ) ^ ((x.num.natAbs.log2 : ℤ) - (x.den.log2 : ℤ) + 1) *
          (2 : ℚ) ^ (x.den.log2 : ℤ) := e.symm
      _ ≤ (2 : ℚ) ^ ((x.num.natAbs.log2 : ℤ) - (x.den.log2 : ℤ) + 1) * (x.den : ℚ) :=
          mul_le_mul_of_nonneg_left b1q (by positivity)
  unfold Double.exponent
  rw [leading_bit_eq _ _ le_rfl, leading_bit_eq _ _ le_rfl]
  simp only []
  split_ifs with hc
  · refine ⟨hc, ?_⟩
    rw [pow2_eq]; exact hi
  · rw [pow2_eq] at hc
    rw [pow2_eq, pow2_eq]
    refine ⟨lo, ?_⟩
    rw [sub_add_cancel]
    exact lt_of_not_le hc

theorem Double.nearest_zero : Double.nearest 0 = 0 := by
  unfold Double.nearest; rw [if_pos rfl]

theorem Double.nearest_eq (x : ℚ) (hx : x ≠ 0) :
    Double.nearest x =
      (round_half_even (x / pow2 (max (Double.exponent x - 52) (-1074))) : ℚ) *
        pow2 (max (Double.exponent x - 52) (-1074)) := by
  unfold Double.nearest; rw [if_neg hx]

theorem Double.nearest_multiple (x : ℚ) (q : ℤ) (M : ℤ) :
    |(round_half_even (x / pow2 q) : ℚ) * pow2 q - x| ≤ |(M : ℚ) * pow2 q - x| := by
  have hp := pow2_pos q
  have h := round_half_even_nearest (x / pow2 q) M
  have e1 : (round_half_even (x / pow2 q) : ℚ) * pow2 q - x =
      ((round_half_even (x / pow2 q) : ℚ) - x / pow2 q) * pow2 q := by
    field_simp
  have e2 : (M : ℚ) * pow2 q - x = ((M : ℚ) - x / pow2 q) * pow2 q := by
    field_simp
  rw [e1, e2, abs_mul, abs_mul, abs_of_pos hp]
  exact mul_le_mul_of_nonneg_right h hp.le

theorem Double.nearest_repr (x : ℚ) : Double.Representable (Double.nearest x) := by
  by_cases hx : x = 0
  · rw [hx, Double.nearest_zero]
    exact ⟨0, 0, by norm_num, by norm_num, by simp⟩
  · rw [Double.nearest_eq x hx]
    obtain ⟨h1, h2⟩ := Double.exponent_spec x hx
    refine ⟨_, _, ?_, le_max_right _ _, rfl⟩
    have hq : Double.exponent x - 52 ≤ max (Double.exponent x - 52) (-1074) := le_max_left _ _
    have hp := pow2_pos (max (Double.exponent x - 52) (-1074))
    have hb : |x / pow2 (max (Double.exponent x - 52) (-1074))| ≤ ((2 ^ 53 : ℤ) : ℚ) := by
      rw [abs_div, abs_of_pos hp, div_le_iff₀ hp]
      have e : ((2 ^ 53 : ℤ) : ℚ) = pow2 53 := by rw [pow2_eq]; norm_num
      rw [e, ← pow2_add]
      exact le_trans h2.le (pow2_le (by omega))
    exact round_half_even_abs_le _ _ hb

/-- The rounded number is a representable number nearest to `x`. -/
theorem Double.nearest_le (x f : ℚ) (hf : Double.Representable f) :
    |Double.nearest x - x| ≤ |f - x| := by
  by_cases hx : x = 0
  · rw [hx, Double.nearest_zero, sub_zero, abs_zero]
    exact abs_nonneg _
  obtain ⟨m, q', hm, hq', rfl⟩ := hf
  obtain ⟨h1, h2⟩ := Double.exponent_spec x hx
  rw [Double.nearest_eq x hx]
  generalize hq : max (Double.exponent x - 52) (-1074) = q
  by_cases hle : q ≤ q'
  · -- a multiple of the unit of `x`
    obtain ⟨k, hk⟩ : ∃ k : ℕ, q' = q + k := ⟨(q' - q).toNat, by omega⟩
    have e : (m : ℚ) * pow2 q' = ((m * 2 ^ k : ℤ) : ℚ) * pow2 q := by
      rw [hk, pow2_add]
      have : pow2 (k : ℤ) = (2 : ℚ) ^ k := by rw [pow2_eq, zpow_natCast]
      rw [this]; push_cast; ring
    rw [e]
    exact Double.nearest_multiple x q _
  · -- below the binade of `x`
    have hq1 : q = Double.exponent x - 52 := by
      rw [← hq]
      apply max_eq_left
      have : q' < q := lt_of_not_le hle
      by_contra hcon
      have : max (Double.exponent x - 52) (-1074) = -1074 := max_eq_right (by omega)
      omega
    have hfe : |(m : ℚ) * pow2 q'| ≤ pow2 (Double.exponent x) := by
      rw [abs_mul, abs_of_pos (pow2_pos q')]
      have hm' : |(m : ℚ)| ≤ pow2 53 := by
        have : ((|m| : ℤ) : ℚ) ≤ ((2 ^ 53 : ℤ) : ℚ) := by exact_mod_cast hm
        rw [Int.cast_abs] at this
        rw [pow2_eq]; norm_num at this ⊢; exact this
      calc |(m : ℚ)| * pow2 q' ≤ pow2 53 * pow2 q' :=
            mul_le_mul_of_nonneg_right hm' (pow2_pos q').le
        _ = pow2 (53 + q') := (pow2_add 53 q').symm
        _ ≤ pow2 (Double.exponent x) := pow2_le (by omega)
    have hE : pow2 (Double.exponent x) = ((2 ^ 52 : ℤ) : ℚ) * pow2 q := by
      rw [hq1]
      have : ((2 ^ 52 : ℤ) : ℚ) = pow2 52 := by rw [pow2_eq]; norm_num
      rw [this, ← pow2_add]; congr 1; ring
    have hfa := abs_le.1 hfe
    rcases lt_or_gt_of_ne hx with hneg | hpos
    · have hxa : |x| = -x := abs_of_neg hneg
      rw [hxa] at h1
      have hg := Double.nearest_multiple x q (-(2 ^ 52))
      refine le_trans hg ?_
      have : ((-(2 ^ 52) : ℤ) : ℚ) * pow2 q = -pow2 (Double.exponent x) := by
        rw [hE]; push_cast; ring
      rw [this, abs_of_nonneg (by linarith), abs_of_nonneg (by linarith)]
      linarith
    · have hxa : |x| = x := abs_of_pos hpos
      rw [hxa] at h1
      have hg := Double.nearest_multiple x q (2 ^ 52)
      refine le_trans hg ?_
      rw [← hE, abs_sub_comm, abs_of_nonneg (by linarith), abs_sub_comm,
        abs_of_nonneg (by linarith)]
      linarith

theorem Double.nearest_of_repr (f : ℚ) (hf : Double.Representable f) : Double.nearest f = f := by
  have h := Double.nearest_le f f hf
  rw [sub_self, abs_zero] at h
  have := abs_eq_zero.1 (le_antisymm h (abs_nonneg _))
  linarith

/-- Rounding is monotone. -/
theorem Double.nearest_mono {x y : ℚ} (h : x ≤ y) : Double.nearest x ≤ Double.nearest y := by
  by_contra hcon
  have hlt : Double.nearest y < Double.nearest x := lt_of_not_le hcon
  have hx := Double.nearest_le x (Double.nearest y) (Double.nearest_repr y)
  have hy := Double.nearest_le y (Double.nearest x) (Double.nearest_repr x)
  have h1 : 2 * x ≥ Double.nearest x + Double.nearest y := by
    have a : Double.nearest x - x ≤ |Double.nearest y - x| := le_trans (le_abs_self _) hx
    rw [abs_eq_max_neg, le_max_iff] at a
    rcases a with a | a <;> linarith
  have h2 : 2 * y ≤ Double.nearest x + Double.nearest y := by
    have a : -(Double.nearest y - y) ≤ |Double.nearest x - y| := le_trans (neg_le_abs _) hy
    rw [abs_eq_max_neg, le_max_iff] at a
    rcases a with a | a <;> linarith
  have hxy : x = y := by linarith
  rw [hxy] at hlt
  exact lt_irrefl _ hlt

theorem Double.representable_nat (n : ℕ) (h : n ≤ 2 ^ 53) : Double.Representable (n : ℚ) := by
  refine ⟨n, 0, ?_, by norm_num, ?_⟩
  · rw [abs_of_nonneg (by positivity)]; exact_mod_cast h
  · rw [pow2_eq]; simp

theorem Double.round_of_repr (f : ℚ) (hf : Double.Representable f) (h : |f| < pow2 1024) :
    Double.round f = some f := by
  unfold Double.round
  rw [Double.nearest_of_repr f hf, if_pos h]

theorem Double.round_nat (n : ℕ) (h : n ≤ 2 ^ 53) : Double.round (n : ℚ) = some (n : ℚ) := by
  apply Double.round_of_repr _ (Double.representable_nat n h)
  rw [abs_of_nonneg (by positivity), pow2_eq]
  have : (n : ℚ) ≤ 2 ^ 53 := by exact_mod_cast h
  have h2 : (2 : ℚ) ^ 53 < 2 ^ (1024 : ℤ) := by
    rw [← zpow_natCast]; exact zpow_lt_zpow_right₀ (by norm_num) (by norm_num)
  linarith

/-- A result between two finite values of the type `double` is rounded to a
finite value between them. -/
theorem Double.round_between (x lo hi : ℚ) (hlo : Double.Representable lo)
    (hhi : Double.Representable hi) (h1 : lo ≤ x) (h2 : x ≤ hi) (b1 : -pow2 1024 < lo)
    (b2 : hi < pow2 1024) :
    ∃ r, Double.round x = some r ∧ lo ≤ r ∧ r ≤ hi ∧ Double.Representable r := by
  have m1 := Double.nearest_mono h1
  have m2 := Double.nearest_mono h2
  rw [Double.nearest_of_repr lo hlo] at m1
  rw [Double.nearest_of_repr hi hhi] at m2
  refine ⟨Double.nearest x, ?_, m1, m2, Double.nearest_repr x⟩
  unfold Double.round
  rw [if_pos]
  rw [abs_lt]
  constructor <;> linarith

theorem Double.round_mono {x y a b : ℚ} (h : x ≤ y) (hx : Double.round x = some a)
    (hy : Double.round y = some b) : a ≤ b := by
  unfold Double.round at hx hy
  split_ifs at hx hy
  simp only [Option.some.injEq] at hx hy
  rw [← hx, ← hy]
  exact Double.nearest_mono h

theorem round_half_even_half (x : ℚ) : |(round_half_even x : ℚ) - x| ≤ 1 / 2 := by
  have h1 : (⌊x⌋ : ℚ) ≤ x := Int.floor_le x
  have h2 : x < (⌊x⌋ : ℚ) + 1 := Int.lt_floor_add_one x
  have a := round_half_even_nearest x ⌊x⌋
  have b := round_half_even_nearest x (⌊x⌋ + 1)
  have ea : |((⌊x⌋ : ℤ) : ℚ) - x| = x - ⌊x⌋ := by
    rw [abs_sub_comm, abs_of_nonneg (by linarith)]
  have eb : |((⌊x⌋ + 1 : ℤ) : ℚ) - x| = ⌊x⌋ + 1 - x := by
    push_cast
    rw [abs_of_nonneg (by linarith)]
  rw [ea] at a
  rw [eb] at b
  linarith

/-- The rounding error is at most half of the unit of the last place. -/
theorem Double.nearest_half_unit (x : ℚ) (hx : x ≠ 0) :
    |Double.nearest x - x| ≤ pow2 (max (Double.exponent x - 52) (-1074)) / 2 := by
  rw [Double.nearest_eq x hx]
  generalize max (Double.exponent x - 52) (-1074) = q
  have hp := pow2_pos q
  have h := round_half_even_half (x / pow2 q)
  have e1 : (round_half_even (x / pow2 q) : ℚ) * pow2 q - x =
      ((round_half_even (x / pow2 q) : ℚ) - x / pow2 q) * pow2 q := by
    field_simp
  rw [e1, abs_mul, abs_of_pos hp]
  calc |(round_half_even (x / pow2 q) : ℚ) - x / pow2 q| * pow2 q
      ≤ 1 / 2 * pow2 q := mul_le_mul_of_nonneg_right h hp.le
    _ = pow2 q / 2 := by ring

theorem pow2_half (q : ℤ) : pow2 q / 2 = pow2 (q - 1) := by
  have : pow2 q = pow2 (q - 1) * pow2 1 := by rw [← pow2_add]; congr 1; ring
  rw [this]
  have h1 : pow2 1 = 2 := by rw [pow2_eq]; norm_num
  rw [h1]; ring

theorem Double.representable_pow2 (m : ℤ) (hm : -1074 ≤ m) : Double.Representable (pow2 m) :=
  ⟨1, m, by norm_num, hm, by simp⟩

theorem Double.representable_neg {f : ℚ} (h : Double.Representable f) :
    Double.Representable (-f) := by
  obtain ⟨n, q, hn, hq, rfl⟩ := h
  exact ⟨-n, q, by rwa [abs_neg], hq, by push_cast; ring⟩

/-- The rounding error of a number of a magnitude of at most `2 ^ m`. -/
theorem Double.nearest_error (x : ℚ) (m : ℤ) (hm : -1021 ≤ m) (hx : |x| ≤ pow2 m) :
    |Double.nearest x - x| ≤ pow2 (m - 54) := by
  by_cases h0 : x = 0
  · rw [h0, Double.nearest_zero, sub_zero, abs_zero]; exact (pow2_pos _).le
  rcases eq_or_lt_of_le hx with heq | hlt
  · have hr : Double.Representable x := by
      rcases abs_choice x with h | h
      · rw [h] at heq; rw [heq]; exact Double.representable_pow2 m (by omega)
      · rw [h] at heq
        have : x = -pow2 m := by linarith
        rw [this]; exact Double.representable_neg (Double.representable_pow2 m (by omega))
    rw [Double.nearest_of_repr x hr, sub_self, abs_zero]; exact (pow2_pos _).le
  · obtain ⟨h1, -⟩ := Double.exponent_spec x h0
    have he : Double.exponent x < m := by
      by_contra hcon
      have := pow2_le (not_lt.1 hcon)
      linarith
    refine le_trans (Double.nearest_half_unit x h0) ?_
    rw [pow2_half]
    exact pow2_le (by
      have : max (Double.exponent x - 52) (-1074) ≤ m - 53 := max_le (by omega) (by omega)
      omega)

/-- The relative rounding error of a normal number. -/
theorem Double.nearest_relative (x : ℚ) (hx : pow2 (-1022) ≤ |x|) :
    |Double.nearest x - x| ≤ pow2 (-53) * |x| := by
  have h0 : x ≠ 0 := by
    intro h
    rw [h, abs_zero] at hx
    exact absurd hx (not_le.2 (pow2_pos _))
  obtain ⟨h1, h2⟩ := Double.exponent_spec x h0
  have he : -1022 ≤ Double.exponent x := by
    by_contra hcon
    have : Double.exponent x + 1 ≤ -1022 := by omega
    have := pow2_le this
    linarith
  refine le_trans (Double.nearest_half_unit x h0) ?_
  rw [pow2_half, max_eq_left (by omega)]
  have e : pow2 (Double.exponent x - 52 - 1) = pow2 (-53) * pow2 (Double.exponent x) := by
    rw [← pow2_add]; congr 1; ring
  rw [e]
  exact mul_le_mul_of_nonneg_left h1 (pow2_pos _).le

theorem Double.round_eq_nearest {x r : ℚ} (h : Double.round x = some r) :
    r = Double.nearest x := by
  unfold Double.round at h
  split_ifs at h
  simp only [Option.some.injEq] at h
  exact h.symm

theorem to_double_nat (n : ℕ) (h : n ≤ 2 ^ 53) : to_double n = (n : ℚ) :=
  Double.nearest_of_repr _ (Double.representable_nat n h)

theorem to_double_mono {a b : ℕ} (h : a ≤ b) : to_double a ≤ to_double b :=
  Double.nearest_mono (by exact_mod_cast h)

theorem to_double_nonneg (a : ℕ) : 0 ≤ to_double a := by
  have := to_double_mono (Nat.zero_le a)
  rwa [to_double_nat 0 (by norm_num), Nat.cast_zero] at this

theorem to_double_pos {a : ℕ} (h : 1 ≤ a) : 1 ≤ to_double a := by
  have := to_double_mono h
  rwa [to_double_nat 1 (by norm_num), Nat.cast_one] at this

theorem Double.representable_zero : Double.Representable 0 :=
  ⟨0, 0, by norm_num, by norm_num, by simp⟩

theorem Double.representable_one : Double.Representable 1 := by
  have := Double.representable_nat 1 (by norm_num)
  rwa [Nat.cast_one] at this

theorem pow2_1024_gt (n : ℕ) (h : n ≤ 2 ^ 53) : (n : ℚ) < pow2 1024 := by
  rw [pow2_eq]
  have : (n : ℚ) ≤ 2 ^ 53 := by exact_mod_cast h
  have h2 : (2 : ℚ) ^ 53 < 2 ^ (1024 : ℤ) := by
    rw [← zpow_natCast]; exact zpow_lt_zpow_right₀ (by norm_num) (by norm_num)
  linarith

/-! ## Word weights -/

theorem Double.add_some (x y : ℚ) : Double.add (some x) (some y) = Double.round (x + y) := rfl

theorem Double.quot_of_ne (a b : ℚ) (h : b ≠ 0) : Double.quot a b = Double.round (a / b) := by
  unfold Double.quot
  rw [if_neg h]

theorem Double.round_some_of_bounds (x : ℚ) (n : ℕ) (h0 : 0 ≤ x) (h1 : x ≤ n) (hn : n ≤ 2 ^ 53) :
    Double.round x = some (Double.nearest x) ∧ 0 ≤ Double.nearest x ∧ Double.nearest x ≤ n := by
  obtain ⟨r, hr, a, b, -⟩ := Double.round_between x 0 n Double.representable_zero
    (Double.representable_nat n hn) h0 h1 (by linarith [pow2_pos 1024]) (pow2_1024_gt n hn)
  have e := Double.round_eq_nearest hr
  rw [← e]
  exact ⟨hr, a, b⟩

/-- The quotient of two counts `a <= b` with `b` not 0 and at most `2 ^ 53`. -/
theorem Double.quot_counts (a b : ℕ) (hb : b ≠ 0) (hab : a ≤ b) (hb2 : b ≤ 2 ^ 53) :
    Double.quot (to_double a) (to_double b) = some (Double.nearest ((a : ℚ) / (b : ℚ))) ∧
    0 ≤ Double.nearest ((a : ℚ) / (b : ℚ)) ∧ Double.nearest ((a : ℚ) / (b : ℚ)) ≤ 1 ∧
    |Double.nearest ((a : ℚ) / (b : ℚ)) - (a : ℚ) / (b : ℚ)| ≤ pow2 (-54) := by
  have hbq : (0 : ℚ) < (b : ℚ) := by exact_mod_cast Nat.pos_of_ne_zero hb
  have h0 : (0 : ℚ) ≤ (a : ℚ) / (b : ℚ) := div_nonneg (Nat.cast_nonneg _) hbq.le
  have h1 : (a : ℚ) / (b : ℚ) ≤ ((1 : ℕ) : ℚ) := by
    rw [Nat.cast_one, div_le_one hbq]; exact_mod_cast hab
  rw [to_double_nat a (le_trans hab hb2), to_double_nat b hb2, Double.quot_of_ne _ _ hbq.ne']
  obtain ⟨r1, r2, r3⟩ := Double.round_some_of_bounds _ 1 h0 h1 (by norm_num)
  refine ⟨r1, r2, by simpa using r3, ?_⟩
  have := Double.nearest_error ((a : ℚ) / (b : ℚ)) 0 (by norm_num) (by
    rw [abs_of_nonneg h0]
    have : pow2 0 = 1 := by rw [pow2_eq]; norm_num
    rw [this]; simpa using h1)
  simpa using this

theorem rounded_sum_cons (d : Nat → ℚ) (a : Nat) (l : List Nat) (s : ℚ) :
    rounded_sum d (a :: l) s = rounded_sum d l (Double.nearest (s + d a)) := rfl

theorem rounded_sum_nil (d : Nat → ℚ) (s : ℚ) : rounded_sum d [] s = s := rfl

/-- Rounded sums are monotone in the summands and in the start value. -/
theorem rounded_sum_mono (d d' : Nat → ℚ) (l : List Nat) (h : ∀ j ∈ l, d j ≤ d' j) :
    ∀ s s', s ≤ s' → rounded_sum d l s ≤ rounded_sum d' l s' := by
  induction l with
  | nil => intro s s' hs; exact hs
  | cons a l ih =>
    intro s s' hs
    rw [rounded_sum_cons, rounded_sum_cons]
    exact ih (fun j hj => h j (List.mem_cons_of_mem _ hj)) _ _
      (Double.nearest_mono (add_le_add hs (h a (List.mem_cons_self _ _))))

theorem Double.representable_units (n : ℕ) (q : ℤ) (hq : -1074 ≤ q) (hn : n ≤ 2 ^ 53) :
    Double.Representable ((n : ℚ) * pow2 q) := by
  refine ⟨n, q, ?_, hq, by push_cast; rfl⟩
  rw [abs_of_nonneg (by positivity)]; exact_mod_cast hn

/-- A sum of multiples of a unit, the total at most `2 ^ 53` units, is exact. -/
theorem rounded_sum_units (q : ℤ) (hq : -1074 ≤ q) (g : Nat → ℕ) (l : List Nat) :
    ∀ N : ℕ, N + (l.map g).sum ≤ 2 ^ 53 →
      rounded_sum (fun j => (g j : ℚ) * pow2 q) l ((N : ℚ) * pow2 q)
        = ((N + (l.map g).sum : ℕ) : ℚ) * pow2 q := by
  induction l with
  | nil => intro N _; simp [rounded_sum_nil]
  | cons a l ih =>
    intro N hN
    rw [List.map_cons, List.sum_cons] at hN ⊢
    rw [rounded_sum_cons]
    have e : (N : ℚ) * pow2 q + (g a : ℚ) * pow2 q = ((N + g a : ℕ) : ℚ) * pow2 q := by
      push_cast; ring
    rw [e, Double.nearest_of_repr _ (Double.representable_units _ q hq (by omega)),
      ih (N + g a) (by omega)]
    congr 2
    omega

/-- The loop of the sum over finite summands in `[0, 1]`, started below `n`:
it returns the rounded sum, which lies between 0 and `n` plus the number of the
summands. -/
theorem foldl_add_rounded (f : Nat → Double) (d : Nat → ℚ) (l : List Nat)
    (h : ∀ j ∈ l, f j = some (d j) ∧ 0 ≤ d j ∧ d j ≤ 1) :
    ∀ (s : ℚ) (n : ℕ), 0 ≤ s → s ≤ n → n + l.length ≤ 2 ^ 53 →
      l.foldl (fun sum i => Double.add sum (f i)) (some s) = some (rounded_sum d l s) ∧
      0 ≤ rounded_sum d l s ∧ rounded_sum d l s ≤ ((n + l.length : ℕ) : ℚ) := by
  induction l with
  | nil =>
    intro s n h0 h1 _
    exact ⟨rfl, h0, by simpa using h1⟩
  | cons a l ih =>
    intro s n h0 h1 hn
    obtain ⟨fa, d0, d1⟩ := h a (List.mem_cons_self _ _)
    rw [List.length_cons] at hn
    have hb : s + d a ≤ ((n + 1 : ℕ) : ℚ) := by push_cast; linarith
    obtain ⟨r1, r2, r3⟩ := Double.round_some_of_bounds (s + d a) (n + 1) (by linarith) hb
      (by omega)
    obtain ⟨i1, i2, i3⟩ := ih (fun j hj => h j (List.mem_cons_of_mem _ hj))
      (Double.nearest (s + d a)) (n + 1) r2 r3 (by omega)
    rw [List.foldl_cons, fa, Double.add_some, r1, rounded_sum_cons]
    refine ⟨i1, i2, ?_⟩
    have e : n + 1 + l.length = n + (l.length + 1) := by omega
    rw [List.length_cons, ← e]
    exact i3

/-- The error of a rounded sum of summands in `[0, 1]`, each within `δ` of its
exact value, when the sums stay below `2 ^ m`. -/
theorem rounded_sum_error (d e : Nat → ℚ) (δ : ℚ) (m : ℤ) (hm : -1021 ≤ m) (l : List Nat)
    (h : ∀ j ∈ l, 0 ≤ d j ∧ d j ≤ 1 ∧ |d j - e j| ≤ δ) :
    ∀ (s S E : ℚ) (n : ℕ), 0 ≤ s → s ≤ n → n + l.length ≤ 2 ^ 53 →
      ((n + l.length : ℕ) : ℚ) ≤ pow2 m → |s - S| ≤ E →
      |rounded_sum d l s - (S + (l.map e).sum)| ≤ E + l.length * (δ + pow2 (m - 54)) := by
  induction l with
  | nil =>
    intro s S E n _ _ _ _ hE
    simpa [rounded_sum_nil] using hE
  | cons a l ih =>
    intro s S E n h0 h1 hN hn hE
    obtain ⟨d0, d1, d2⟩ := h a (List.mem_cons_self _ _)
    rw [List.length_cons] at hn hN
    have hn1 : ((n + 1 : ℕ) : ℚ) ≤ pow2 m := by
      refine le_trans ?_ hn
      exact_mod_cast (by omega : n + 1 ≤ n + (l.length + 1))
    have hb : s + d a ≤ ((n + 1 : ℕ) : ℚ) := by push_cast; linarith
    have herr := Double.nearest_error (s + d a) m hm (by
      rw [abs_of_nonneg (by linarith)]; exact le_trans hb hn1)
    have hlo : 0 ≤ Double.nearest (s + d a) := by
      have := Double.nearest_mono (by linarith : (0 : ℚ) ≤ s + d a)
      rwa [Double.nearest_zero] at this
    have hhi : Double.nearest (s + d a) ≤ ((n + 1 : ℕ) : ℚ) := by
      have hr : Double.Representable (((n + 1 : ℕ) : ℚ)) :=
        Double.representable_nat _ (by omega)
      have := Double.nearest_mono hb
      rwa [Double.nearest_of_repr _ hr] at this
    have hstep : |Double.nearest (s + d a) - (S + e a)| ≤ E + (δ + pow2 (m - 54)) := by
      have t : Double.nearest (s + d a) - (S + e a)
          = (Double.nearest (s + d a) - (s + d a)) + (s - S) + (d a - e a) := by ring
      rw [t]
      refine le_trans (abs_add_three _ _ _) ?_
      linarith
    have := ih (fun j hj => h j (List.mem_cons_of_mem _ hj)) (Double.nearest (s + d a))
      (S + e a) (E + (δ + pow2 (m - 54))) (n + 1) hlo hhi (by omega)
      (by
        refine le_trans ?_ hn
        exact_mod_cast (by omega : n + 1 + l.length ≤ n + (l.length + 1)))
      hstep
    rw [rounded_sum_cons, List.map_cons, List.sum_cons, List.length_cons]
    have e2 : S + (e a + (l.map e).sum) = S + e a + (l.map e).sum := by ring
    rw [e2]
    refine le_trans this ?_
    push_cast
    linarith

theorem cal_word_dep_eq (pParam : Parameters) (c : Cluster) (j i : Nat)
    (h : depEntry pParam c j j ≠ 0) (hle : depEntry pParam c j i ≤ depEntry pParam c j j)
    (hb : depEntry pParam c j j ≤ 2 ^ 53) :
    cal_word_dep (c.ppWord j) (c.ppWord i) pParam
      = some (Double.nearest ((depEntry pParam c j i : ℚ) / (depEntry pParam c j j : ℚ))) ∧
    0 ≤ Double.nearest ((depEntry pParam c j i : ℚ) / (depEntry pParam c j j : ℚ)) ∧
    Double.nearest ((depEntry pParam c j i : ℚ) / (depEntry pParam c j j : ℚ)) ≤ 1 ∧
    |Double.nearest ((depEntry pParam c j i : ℚ) / (depEntry pParam c j j : ℚ))
      - (depEntry pParam c j i : ℚ) / (depEntry pParam c j j : ℚ)| ≤ pow2 (-54) := by
  unfold cal_word_dep
  exact Double.quot_counts _ _ h hle hb

/-- Weight function 1 on a candidate with `1 <= k <= 2 ^ 53` constants whose
matrix entries satisfy `D[Wj][Wi] <= D[Wj][Wj]`, the diagonal entries not 0 and
at most `2 ^ 53`: the loop returns the weight of the double arithmetic, which
lies in `[0, 1]`, and the rounded sum lies in `[0, k]`. -/
theorem cal_word_weight_function_1_eq (pParam : Parameters) (pCluster i : Nat)
    (hk : (pParam.cluster pCluster).constants ≠ 0)
    (hk2 : (pParam.cluster pCluster).constants ≤ 2 ^ 53)
    (hD : ∀ j ∈ List.range' 1 (pParam.cluster pCluster).constants,
      depEntry pParam (pParam.cluster pCluster) j j ≠ 0 ∧
      depEntry pParam (pParam.cluster pCluster) j i
        ≤ depEntry pParam (pParam.cluster pCluster) j j ∧
      depEntry pParam (pParam.cluster pCluster) j j ≤ 2 ^ 53) :
    cal_word_weight_function_1 pCluster i pParam
      = some (rounded_word_weight pParam (pParam.cluster pCluster) i) ∧
    0 ≤ rounded_word_weight pParam (pParam.cluster pCluster) i ∧
    rounded_word_weight pParam (pParam.cluster pCluster) i ≤ 1 ∧
    0 ≤ rounded_sum (fun j => Double.nearest
        ((depEntry pParam (pParam.cluster pCluster) j i : ℚ)
          / (depEntry pParam (pParam.cluster pCluster) j j : ℚ)))
        (List.range' 1 (pParam.cluster pCluster).constants) 0 ∧
    rounded_sum (fun j => Double.nearest
        ((depEntry pParam (pParam.cluster pCluster) j i : ℚ)
          / (depEntry pParam (pParam.cluster pCluster) j j : ℚ)))
        (List.range' 1 (pParam.cluster pCluster).constants) 0
      ≤ ((pParam.cluster pCluster).constants : ℚ) := by
  have hall : ∀ j ∈ List.range' 1 (pParam.cluster pCluster).constants,
      cal_word_dep ((pParam.cluster pCluster).ppWord j) ((pParam.cluster pCluster).ppWord i)
          pParam
        = some (Double.nearest ((depEntry pParam (pParam.cluster pCluster) j i : ℚ)
            / (depEntry pParam (pParam.cluster pCluster) j j : ℚ))) ∧
      0 ≤ Double.nearest ((depEntry pParam (pParam.cluster pCluster) j i : ℚ)
            / (depEntry pParam (pParam.cluster pCluster) j j : ℚ)) ∧
      Double.nearest ((depEntry pParam (pParam.cluster pCluster) j i : ℚ)
            / (depEntry pParam (pParam.cluster pCluster) j j : ℚ)) ≤ 1 := by
    intro j hj
    obtain ⟨a, b, c⟩ := hD j hj
    obtain ⟨e1, e2, e3, -⟩ := cal_word_dep_eq pParam _ j i a b c
    exact ⟨e1, e2, e3⟩
  obtain ⟨s1, s2, s3⟩ := foldl_add_rounded _ _ _ hall 0 0 le_rfl (by simp)
    (by rw [List.length_range']; omega)
  rw [List.length_range', Nat.zero_add] at s3
  have hkq : (0 : ℚ) < ((pParam.cluster pCluster).constants : ℚ) := by
    exact_mod_cast Nat.pos_of_ne_zero hk
  have q0 : 0 ≤ rounded_sum (fun j => Double.nearest
        ((depEntry pParam (pParam.cluster pCluster) j i : ℚ)
          / (depEntry pParam (pParam.cluster pCluster) j j : ℚ)))
        (List.range' 1 (pParam.cluster pCluster).constants) 0
      / ((pParam.cluster pCluster).constants : ℚ) := div_nonneg s2 hkq.le
  have q1 : rounded_sum (fun j => Double.nearest
        ((depEntry pParam (pParam.cluster pCluster) j i : ℚ)
          / (depEntry pParam (pParam.cluster pCluster) j j : ℚ)))
        (List.range' 1 (pParam.cluster pCluster).constants) 0
      / ((pParam.cluster pCluster).constants : ℚ) ≤ ((1 : ℕ) : ℚ) := by
    rw [Nat.cast_one, div_le_one hkq]; exact s3
  obtain ⟨r1, r2, r3⟩ := Double.round_some_of_bounds _ 1 q0 q1 (by norm_num)
  refine ⟨?_, r2, by simpa using r3, s2, s3⟩
  unfold cal_word_weight_function_1
  simp only
  rw [s1]
  simp only
  rw [to_double_nat _ hk2, Double.quot_of_ne _ _ hkq.ne', r1]
  rfl

theorem pow2_neg_54 : pow2 (-54) = 1 / 2 ^ 54 := by
  rw [pow2_eq]; norm_num

theorem pow2_neg_45 : pow2 (9 - 54) = 1 / 2 ^ 45 := by
  rw [pow2_eq]; norm_num

theorem pow2_9 : pow2 9 = 512 := by
  rw [pow2_eq]; norm_num

/-- The weight of the double arithmetic is within `2 ^ (-44)` of the exact
weight for a candidate of at most `MAXWORDS` constants. -/
theorem rounded_word_weight_error (pParam : Parameters) (c : Cluster) (i : Nat)
    (hk : c.constants ≠ 0) (hk2 : c.constants ≤ MAXWORDS)
    (hD : ∀ j ∈ List.range' 1 c.constants,
      depEntry pParam c j j ≠ 0 ∧ depEntry pParam c j i ≤ depEntry pParam c j j ∧
      depEntry pParam c j j ≤ 2 ^ 53) :
    |rounded_word_weight pParam c i - exact_word_weight pParam c i| ≤ 1 / 2 ^ 44 := by
  have hkq : (0 : ℚ) < (c.constants : ℚ) := by exact_mod_cast Nat.pos_of_ne_zero hk
  have hk3 : c.constants ≤ 512 := hk2
  have hall : ∀ j ∈ List.range' 1 c.constants,
      0 ≤ Double.nearest ((depEntry pParam c j i : ℚ) / (depEntry pParam c j j : ℚ)) ∧
      Double.nearest ((depEntry pParam c j i : ℚ) / (depEntry pParam c j j : ℚ)) ≤ 1 ∧
      |Double.nearest ((depEntry pParam c j i : ℚ) / (depEntry pParam c j j : ℚ))
        - (depEntry pParam c j i : ℚ) / (depEntry pParam c j j : ℚ)| ≤ pow2 (-54) := by
    intro j hj
    obtain ⟨a, b, d⟩ := hD j hj
    obtain ⟨-, e2, e3, e4⟩ := cal_word_dep_eq pParam c j i a b d
    exact ⟨e2, e3, e4⟩
  have hlen : (List.range' 1 c.constants).length = c.constants := List.length_range' _ _ _
  have herr := rounded_sum_error _ (fun j =>
      (depEntry pParam c j i : ℚ) / (depEntry pParam c j j : ℚ)) (pow2 (-54)) 9 (by norm_num)
    _ hall 0 0 0 0 le_rfl (by simp) (by rw [hlen]; omega)
    (by
      rw [hlen, Nat.zero_add, pow2_9]
      exact_mod_cast hk3)
    (by simp)
  rw [hlen, zero_add, zero_add, pow2_neg_54, pow2_neg_45] at herr
  obtain ⟨-, hlow, hmono⟩ := foldl_add_rounded
    (fun j => some (Double.nearest
      ((depEntry pParam c j i : ℚ) / (depEntry pParam c j j : ℚ)))) _ (List.range' 1 c.constants)
    (fun j hj => ⟨rfl, (hall j hj).1, (hall j hj).2.1⟩) 0 0 le_rfl (by simp)
    (by rw [hlen]; omega)
  rw [hlen, Nat.zero_add] at hmono
  have hp0 : pow2 0 = 1 := by rw [pow2_eq]; norm_num
  unfold rounded_word_weight exact_word_weight
  generalize rounded_sum (fun j => Double.nearest
      ((depEntry pParam c j i : ℚ) / (depEntry pParam c j j : ℚ)))
      (List.range' 1 c.constants) 0 = rs at herr hmono hlow ⊢
  have hq0 : 0 ≤ rs / (c.constants : ℚ) := div_nonneg hlow hkq.le
  have hq1 : |rs / (c.constants : ℚ)| ≤ pow2 0 := by
    rw [abs_of_nonneg hq0, hp0, div_le_one hkq]; exact hmono
  have hfin := Double.nearest_error (rs / (c.constants : ℚ)) 0 (by norm_num) hq1
  have hp : pow2 (0 - 54) = 1 / 2 ^ 54 := by rw [pow2_eq]; norm_num
  rw [hp] at hfin
  generalize ((List.range' 1 c.constants).map (fun j =>
      (depEntry pParam c j i : ℚ) / (depEntry pParam c j j : ℚ))).sum = S at herr ⊢
  have hdiv : |rs / (c.constants : ℚ) - S / (c.constants : ℚ)| ≤ 1 / 2 ^ 54 + 1 / 2 ^ 45 := by
    rw [← sub_div, abs_div, abs_of_pos hkq, div_le_iff₀ hkq]
    calc |rs - S| ≤ (c.constants : ℚ) * (1 / 2 ^ 54 + 1 / 2 ^ 45) := herr
      _ = (1 / 2 ^ 54 + 1 / 2 ^ 45) * (c.constants : ℚ) := by ring
  have t : Double.nearest (rs / (c.constants : ℚ)) - S / (c.constants : ℚ)
      = (Double.nearest (rs / (c.constants : ℚ)) - rs / (c.constants : ℚ))
        + (rs / (c.constants : ℚ) - S / (c.constants : ℚ)) := by ring
  rw [t]
  refine le_trans (abs_add _ _) ?_
  have : (1 : ℚ) / 2 ^ 54 + (1 / 2 ^ 54 + 1 / 2 ^ 45) ≤ 1 / 2 ^ 44 := by norm_num
  linarith

/-- C11 (amended): weight function 1 does not return the exact rational number
`(sum over j = 1 .. k of D[Wj][Wi] / D[Wj][Wj]) / k`; it returns that value as
computed in double arithmetic.  For a candidate `W1 .. Wk` with `1 <= k <=
MAXWORDS` whose matrix entries satisfy `D[Wj][Wi] <= D[Wj][Wj]`, with diagonal
entries that are not 0 and at most `2 ^ 53`, the result is the finite `double`
obtained by rounding every quotient `D[Wj][Wi] / D[Wj][Wj]`, every partial sum
of the quotients in the order of the positions `j = 1 .. k`, and the quotient
of the sum by `k` to the nearest `double`; a constant that occurs at several
positions is summed at each of them.  The result differs from the exact
rational number by at most `2 ^ (-44)`. -/
theorem cal_word_weight_function_1_rounded (pParam : Parameters) (pCluster i : Nat)
    (hk : (pParam.cluster pCluster).constants ≠ 0)
    (hk2 : (pParam.cluster pCluster).constants ≤ MAXWORDS)
    (hD : ∀ j ∈ List.range' 1 (pParam.cluster pCluster).constants,
      depEntry pParam (pParam.cluster pCluster) j j ≠ 0 ∧
      depEntry pParam (pParam.cluster pCluster) j i
        ≤ depEntry pParam (pParam.cluster pCluster) j j ∧
      depEntry pParam (pParam.cluster pCluster) j j ≤ 2 ^ 53) :
    cal_word_weight_function_1 pCluster i pParam
      = some (rounded_word_weight pParam (pParam.cluster pCluster) i) ∧
    |rounded_word_weight pParam (pParam.cluster pCluster) i
      - exact_word_weight pParam (pParam.cluster pCluster) i| ≤ 1 / 2 ^ 44 :=
  ⟨(cal_word_weight_function_1_eq pParam pCluster i hk
      (le_trans hk2 (by unfold MAXWORDS; norm_num)) hD).1,
    rounded_word_weight_error pParam (pParam.cluster pCluster) i hk hk2 hD⟩

theorem cal_word_weight_function_1_rounded_witness :
    (weightCandidates.cluster 0).words = [[73], [101], [117]] ∧
    rounded_word_weight weightCandidates (weightCandidates.cluster 0) 2
      = 7205759403792793 / 18014398509481984 ∧
    exact_word_weight weightCandidates (weightCandidates.cluster 0) 2 = 4 / 10 ∧
    cal_word_weight_function_1 0 2 weightCandidates
      = some (rounded_word_weight weightCandidates (weightCandidates.cluster 0) 2) ∧
    |rounded_word_weight weightCandidates (weightCandidates.cluster 0) 2
      - exact_word_weight weightCandidates (weightCandidates.cluster 0) 2| ≤ 1 / 2 ^ 44 := by
  have h :
      ((weightCandidates.cluster 0).words = [[73], [101], [117]]) ∧
      (rounded_word_weight weightCandidates (weightCandidates.cluster 0) 2
        = 7205759403792793 / 18014398509481984) ∧
      (exact_word_weight weightCandidates (weightCandidates.cluster 0) 2 = 4 / 10) ∧
      ((weightCandidates.cluster 0).constants ≠ 0) ∧
      ((weightCandidates.cluster 0).constants ≤ MAXWORDS) ∧
      (∀ j ∈ List.range' 1 (weightCandidates.cluster 0).constants,
        depEntry weightCandidates (weightCandidates.cluster 0) j j ≠ 0 ∧
        depEntry weightCandidates (weightCandidates.cluster 0) j 2
          ≤ depEntry weightCandidates (weightCandidates.cluster 0) j j ∧
        depEntry weightCandidates (weightCandidates.cluster 0) j j ≤ 2 ^ 53) := by
    decide!
  obtain ⟨h0, h1, h2, x0, x1, x2⟩ := h
  exact ⟨h0, h1, h2, cal_word_weight_function_1_rounded weightCandidates 0 2 x0 x1 x2⟩

/-- C11, the counterexample: on the example of the documentation, with
`dep(Interface, eth0) = 0.05`, `dep(eth0, eth0) = 1.0` and `dep(unstable, eth0)
= 0.15`, the exact rational number of the claimed formula is `0.4`, and weight
function 1 returns the `double` `7205759403792793 / 2 ^ 54`
(0.39999999999999997), which is a different number. -/
theorem cal_word_weight_function_1_inexact :
    (weightCandidates.cluster 0).words = [[73], [101], [117]] ∧
    (weightCandidates.cluster 0).constants = 3 ∧
    (depEntry weightCandidates (weightCandidates.cluster 0) 1 2 : ℚ)
      / (depEntry weightCandidates (weightCandidates.cluster 0) 1 1 : ℚ) = 5 / 100 ∧
    (depEntry weightCandidates (weightCandidates.cluster 0) 2 2 : ℚ)
      / (depEntry weightCandidates (weightCandidates.cluster 0) 2 2 : ℚ) = 1 ∧
    (depEntry weightCandidates (weightCandidates.cluster 0) 3 2 : ℚ)
      / (depEntry weightCandidates (weightCandidates.cluster 0) 3 3 : ℚ) = 15 / 100 ∧
    exact_word_weight weightCandidates (weightCandidates.cluster 0) 2 = 4 / 10 ∧
    cal_word_weight_function_1 0 2 weightCandidates
      = some (7205759403792793 / 18014398509481984) ∧
    cal_word_weight_function_1 0 2 weightCandidates
      ≠ some (exact_word_weight weightCandidates (weightCandidates.cluster 0) 2) := by
  decide!

/-! ## Printing -/

theorem foldl_append_flatMap {α : Type} (f : Nat → List α) (l : List Nat) (init : List α) :
    l.foldl (fun out i => out ++ f i) init = init ++ l.flatMap f := by
  induction l generalizing init with
  | nil => simp
  | cons a l ih => rw [List.foldl_cons, ih, List.flatMap_cons, List.append_assoc]

theorem foldl_halves_set (u : Nat → Int) (L : List Nat) :
    ∀ (a : Nat → Int) (k : Nat),
      (L.foldl (fun a i => arrSet (arrSet a (i * 2) (u (i * 2))) (i * 2 + 1) (u (i * 2 + 1))) a) k
        = if k / 2 ∈ L then u k else a k := by
  induction L with
  | nil => intro a k; simp
  | cons i L ih =>
    intro a k
    rw [List.foldl_cons, ih]
    by_cases h1 : k / 2 ∈ L
    · simp [h1]
    · by_cases h2 : k / 2 = i
      · have hk : k = i * 2 ∨ k = i * 2 + 1 := by omega
        simp only [h1, if_false, List.mem_cons, h2, true_or, if_true]
        rcases hk with hk | hk
        · have : i * 2 ≠ i * 2 + 1 := by omega
          simp [arrSet, hk, this]
        · simp [arrSet, hk]
      · have a1 : k ≠ i * 2 := by omega
        have a2 : k ≠ i * 2 + 1 := by omega
        simp only [h1, if_false, arrSet, a1, a2, List.mem_cons, h2, or_self]

theorem new_token_record_wildcard (c : Cluster) (K : Key) (k : Nat)
    (hk : k / 2 ≤ c.constants) : (new_token_record c K).fullWildcard k = c.fullWildcard k := by
  unfold new_token_record
  simp only
  by_cases h0 : k = 0
  · subst h0; simp [arrSet]
  · by_cases h1 : k = 1
    · subst h1; simp [arrSet]
    · simp only [arrSet, h0, h1, if_false]
      rw [foldl_halves_set]
      have : k / 2 ∈ List.range' 1 c.constants := by
        rw [List.mem_range'_1]; omega
      simp [this]

theorem new_token_record_word (c : Cluster) (K : Key) (i : Nat)
    (h1 : 1 ≤ i) (h2 : i ≤ c.constants) : (new_token_record c K).ppWord i = c.ppWord i := by
  unfold new_token_record
  simp only
  exact foldl_storage_set c.ppWord _ _ i (by rw [List.mem_range'_1]; omega)

theorem widen_idem (w : Nat → Int) (k : Nat) (v : Int) : widen w k (widen w k v) = widen w k v := by
  unfold widen
  split <;> simp

theorem adjust_token_wildcard_entry (w fw : Nat → Int) (i k : Nat) :
    adjust_token_wildcard w fw i k = if k / 2 = i then widen w k (fw k) else fw k := by
  have e3 : i * 2 + 1 ≠ i * 2 := by omega
  have e4 : i * 2 ≠ i * 2 + 1 := by omega
  unfold adjust_token_wildcard widen
  by_cases h : k / 2 = i
  · have hk : k = i * 2 ∨ k = i * 2 + 1 := by omega
    simp only [h, if_true]
    rcases hk with hk | hk
    · subst hk
      have e2 : i * 2 % 2 = 0 := by omega
      simp only [e2, if_true]
      by_cases c1 : w (i * 2) < fw (i * 2)
      · have hm : min (fw (i * 2)) (w (i * 2)) = w (i * 2) := by
          rw [min_def]; split <;> omega
        rw [hm]
        simp only [c1, if_true]
        split <;> simp [arrSet, e4]
      · have hm : min (fw (i * 2)) (w (i * 2)) = fw (i * 2) := by
          rw [min_def]; split <;> omega
        rw [hm]
        simp only [c1, if_false]
        split <;> simp [arrSet, e4]
    · subst hk
      have e2 : (i * 2 + 1) % 2 ≠ 0 := by omega
      simp only [e2, if_false]
      have hfw1 : (if w (i * 2) < fw (i * 2) then arrSet fw (i * 2) (w (i * 2)) else fw)
          (i * 2 + 1) = fw (i * 2 + 1) := by
        split
        · simp [arrSet]
        · rfl
      simp only [hfw1]
      by_cases c2 : w (i * 2 + 1) > fw (i * 2 + 1)
      · have hm : max (fw (i * 2 + 1)) (w (i * 2 + 1)) = w (i * 2 + 1) := by
          rw [max_def]; split <;> omega
        rw [hm]
        simp only [c2, if_true, arrSet, if_true]
      · have hm : max (fw (i * 2 + 1)) (w (i * 2 + 1)) = fw (i * 2 + 1) := by
          rw [max_def]; split <;> omega
        rw [hm]
        simp only [c2, if_false, hfw1]
  · have a1 : k ≠ i * 2 := by omega
    have a2 : k ≠ i * 2 + 1 := by omega
    simp only [h, if_false]
    split <;> split <;> simp [arrSet, a1, a2]

theorem adjust_token_wildcard_fold (w : Nat → Int) (L : List Nat) :
    ∀ (fw : Nat → Int) (k : Nat),
      (L.foldl (adjust_token_wildcard w) fw) k = if k / 2 ∈ L then widen w k (fw k) else fw k := by
  induction L with
  | nil => intro fw k; simp
  | cons i L ih =>
    intro fw k
    rw [List.foldl_cons, ih, adjust_token_wildcard_entry]
    by_cases h1 : k / 2 ∈ L <;> by_cases h2 : k / 2 = i
    · simp [h1, h2, widen_idem]
    · simp [h1, h2]
    · simp [h1, h2, widen_idem]
    · simp [h1, h2]

theorem insert_token_idem (w : Option Elem) (chain : List (Option Elem)) :
    insert_token w (insert_token w chain) = insert_token w chain := by
  unfold insert_token
  by_cases h : w ∈ chain
  · simp [h]
  · simp [h]

theorem check_if_token_key_is_exist_iff (r : Cluster) (i : Nat) (w : Option Elem) :
    check_if_token_key_is_exist r i w = true ↔ w ∈ r.ppToken i := by
  unfold check_if_token_key_is_exist
  simp only [List.any_eq_true, decide_eq_true_eq]
  constructor
  · rintro ⟨x, hx, rfl⟩; exact hx
  · intro h; exact ⟨w, h, rfl⟩

theorem Cluster.token_congr (r : Cluster) (f g : Nat → List (Option Elem))
    (h : ∀ j, f j = g j) :
    ({ r with ppToken := f } : Cluster) = { r with ppToken := g } := by
  have : f = g := funext h
  rw [this]

theorem Cluster.token_self (r : Cluster) (f : Nat → List (Option Elem))
    (h : ∀ j, f j = r.ppToken j) : ({ r with ppToken := f } : Cluster) = r := by
  have : f = r.ppToken := funext h
  rw [this]

theorem adjust_token_eq (c : Cluster) (m : Nat → Nat) (r : Cluster) (i : Nat) :
    adjust_token c m r i = { r with ppToken := (fun j =>
      if j = i ∧ m i = 1 then insert_token (c.ppWord i) (r.ppToken i) else r.ppToken j) } := by
  unfold adjust_token insert_token
  by_cases hm : m i = 1
  · by_cases hw : check_if_token_key_is_exist r i (c.ppWord i) = true
    · have hw2 := (check_if_token_key_is_exist_iff r i _).1 hw
      simp only [hm, hw, if_true, and_true, hw2]
      refine (Cluster.token_self r _ ?_).symm
      intro j
      by_cases hj : j = i
      · simp [hj]
      · simp [hj]
    · have hw2 : ¬ c.ppWord i ∈ r.ppToken i := fun h =>
        hw ((check_if_token_key_is_exist_iff r i _).2 h)
      simp only [hm, hw, if_true, and_true, hw2, if_false]
      refine Cluster.token_congr r _ _ ?_
      intro j
      by_cases hj : j = i
      · simp [hj, arrSet]
      · simp [hj, arrSet]
  · simp only [hm, if_false, and_false]

theorem adjust_token_fold (c : Cluster) (m : Nat → Nat) (L : List Nat) :
    ∀ r : Cluster, L.foldl (adjust_token c m) r = { r with ppToken := (fun j =>
      if j ∈ L ∧ m j = 1 then insert_token (c.ppWord j) (r.ppToken j) else r.ppToken j) } := by
  induction L with
  | nil =>
    intro r
    simp only [List.foldl_nil, List.not_mem_nil, false_and, if_false]
  | cons i L ih =>
    intro r
    rw [List.foldl_cons, ih, adjust_token_eq]
    simp only
    refine Cluster.token_congr r _ _ ?_
    intro j
    by_cases h1 : j ∈ L <;> by_cases h2 : j = i <;> by_cases h3 : m j = 1
    · subst h2; simp [h1, h3, insert_token_idem]
    · subst h2; simp [h1, h3]
    · simp [h1, h2, h3]
    · simp [h1, h2, h3]
    · subst h2; simp [h1, h3]
    · subst h2; simp [h1, h3]
    · simp [h1, h2, h3]
    · simp [h1, h2, h3]

theorem adjust_record_eq (c : Cluster) (m : Nat → Nat) (r : Cluster) :
    adjust_record c m r = { r with
      count := r.count + c.count,
      fullWildcard := (fun k =>
        if k / 2 ≤ r.constants then widen c.fullWildcard k (r.fullWildcard k)
        else r.fullWildcard k),
      ppToken := (fun j =>
        if (1 ≤ j ∧ j ≤ r.constants) ∧ m j = 1 then insert_token (c.ppWord j) (r.ppToken j)
        else r.ppToken j) } := by
  unfold adjust_record
  simp only
  rw [adjust_token_fold]
  simp only
  congr 1
  · funext k
    rw [adjust_token_wildcard_fold]
    have : k / 2 ∈ List.range (r.constants + 1) ↔ k / 2 ≤ r.constants := by
      rw [List.mem_range]; omega
    simp only [this]
  · funext j
    have : j ∈ List.range' 1 r.constants ↔ (1 ≤ j ∧ j ≤ r.constants) := by
      rw [List.mem_range'_1]; omega
    simp only [this]

theorem joined_fold (C : Nat → Cluster) (xs : List (Nat × (Nat → Nat))) :
    ∀ r0 : Cluster,
      let R := xs.foldl (fun r y => adjust_record (C y.1).flagged y.2 r) r0
      R.constants = r0.constants ∧ R.pElem = r0.pElem ∧ R.bIsJoined = r0.bIsJoined ∧
      R.ppWord = r0.ppWord ∧
      R.count = r0.count + (xs.map (fun y => (C y.1).count)).sum ∧
      (∀ k, R.fullWildcard k =
        if k / 2 ≤ r0.constants then
          xs.foldl (fun v y => widen (C y.1).fullWildcard k v) (r0.fullWildcard k)
        else r0.fullWildcard k) ∧
      (∀ j, R.ppToken j =
        if 1 ≤ j ∧ j ≤ r0.constants then
          ((xs.filter (fun x => decide (x.2 j = 1))).map (fun x => (C x.1).ppWord j)).foldl
            (fun chain w => insert_token w chain) (r0.ppToken j)
        else r0.ppToken j) := by
  induction xs with
  | nil =>
    intro r0
    exact ⟨rfl, rfl, rfl, rfl, by simp, fun k => by simp, fun j => by simp⟩
  | cons y xs ih =>
    intro r0
    simp only [List.foldl_cons]
    have e := adjust_record_eq (C y.1).flagged y.2 r0
    obtain ⟨a1, a2, a3, a4, a5, a6, a7⟩ := ih (adjust_record (C y.1).flagged y.2 r0)
    have f1 : (adjust_record (C y.1).flagged y.2 r0).constants = r0.constants := by rw [e]
    have f2 : (adjust_record (C y.1).flagged y.2 r0).pElem = r0.pElem := by rw [e]
    have f3 : (adjust_record (C y.1).flagged y.2 r0).bIsJoined = r0.bIsJoined := by rw [e]
    have f4 : (adjust_record (C y.1).flagged y.2 r0).ppWord = r0.ppWord := by rw [e]
    have f5 : (adjust_record (C y.1).flagged y.2 r0).count = r0.count + (C y.1).count := by
      rw [e]; rfl
    have f6 : ∀ k, (adjust_record (C y.1).flagged y.2 r0).fullWildcard k =
        if k / 2 ≤ r0.constants then widen (C y.1).fullWildcard k (r0.fullWildcard k)
        else r0.fullWildcard k := by
      intro k; rw [e]; rfl
    have f7 : ∀ j, (adjust_record (C y.1).flagged y.2 r0).ppToken j =
        if (1 ≤ j ∧ j ≤ r0.constants) ∧ y.2 j = 1 then
          insert_token ((C y.1).ppWord j) (r0.ppToken j)
        else r0.ppToken j := by
      intro j; rw [e]; rfl
    refine ⟨a1.trans f1, a2.trans f2, a3.trans f3, a4.trans f4, ?_, ?_, ?_⟩
    · rw [a5, f5, List.map_cons, List.sum_cons]
      omega
    · intro k
      rw [a6 k, f1, f6 k]
      by_cases hk : k / 2 ≤ r0.constants
      · simp only [hk, if_true]
      · simp only [hk, if_false]
    · intro j
      rw [a7 j, f1, f7 j]
      by_cases hj : 1 ≤ j ∧ j ≤ r0.constants
      · simp only [hj, and_self, if_true, true_and]
        by_cases hm : y.2 j = 1
        · simp only [hm, if_true, List.filter_cons, decide_True, List.map_cons,
            List.foldl_cons]
        · simp [hm, List.filter_cons]
      · simp only [hj, if_false, false_and]

/-- The fields of the record into which the joined clusters `x :: rest` are
merged. -/
theorem joined_record_fields (p : Parameters) (K : Key) (x : Nat × (Nat → Nat))
    (rest : List (Nat × (Nat → Nat))) :
    (joined_record p K (x :: rest)).constants = (p.cluster x.1).constants ∧
    (joined_record p K (x :: rest)).pElem = K ∧
    (joined_record p K (x :: rest)).bIsJoined = true ∧
    (joined_record p K (x :: rest)).count
      = ((x :: rest).map (fun y => (p.cluster y.1).count)).sum ∧
    (∀ k, k / 2 ≤ (p.cluster x.1).constants →
      (joined_record p K (x :: rest)).fullWildcard k =
        rest.foldl (fun v y => widen (p.cluster y.1).fullWildcard k v)
          ((p.cluster x.1).fullWildcard k)) ∧
    (∀ j, 1 ≤ j → j ≤ (p.cluster x.1).constants →
      (joined_record p K (x :: rest)).ppToken j = token_chain (token_words p (x :: rest) j)) ∧
    (∀ j, ¬ (1 ≤ j ∧ j ≤ (p.cluster x.1).constants) →
      (joined_record p K (x :: rest)).ppToken j = []) ∧
    (∀ j, 1 ≤ j → j ≤ (p.cluster x.1).constants →
      (joined_record p K (x :: rest)).ppWord j = (p.cluster x.1).ppWord j) := by
  obtain ⟨a1, a2, a3, a4, a5, a6, a7⟩ :=
    joined_fold p.cluster (x :: rest) (new_token_record (p.cluster x.1).flagged K)
  have c0 : (new_token_record (p.cluster x.1).flagged K).constants = (p.cluster x.1).constants :=
    rfl
  refine ⟨a1.trans c0, a2, a3, ?_, ?_, ?_, ?_, ?_⟩
  · unfold joined_record
    simp only
    rw [a5]
    show 0 + _ = _
    omega
  · intro k hk
    unfold joined_record
    simp only
    rw [a6 k, c0, if_pos hk, List.foldl_cons,
      new_token_record_wildcard _ K k (by simpa [Cluster.flagged] using hk)]
    have : widen (p.cluster x.1).fullWildcard k ((p.cluster x.1).flagged.fullWildcard k)
        = (p.cluster x.1).fullWildcard k := by
      unfold widen Cluster.flagged
      split <;> simp
    rw [this]
  · intro j h1 h2
    unfold joined_record token_chain token_words
    simp only
    rw [a7 j, c0, if_pos ⟨h1, h2⟩]
    rfl
  · intro j hj
    unfold joined_record
    simp only
    rw [a7 j, c0, if_neg hj]
    rfl
  · intro j h1 h2
    unfold joined_record
    simp only
    rw [a4]
    exact new_token_record_word _ K j h1 (by simpa [Cluster.flagged] using h2)

theorem foldl_widen_even (W : (Nat × (Nat → Nat)) → Int) (k : Nat) (hk : k % 2 = 0)
    (xs : List (Nat × (Nat → Nat))) (w : (Nat × (Nat → Nat)) → Nat → Int)
    (hW : ∀ y, w y k = W y) :
    ∀ v : Int,
      (xs.foldl (fun v y => widen (w y) k v) v ≤ v) ∧
      (∀ y ∈ xs, xs.foldl (fun v y => widen (w y) k v) v ≤ W y) ∧
      (xs.foldl (fun v y => widen (w y) k v) v = v ∨
        ∃ y ∈ xs, xs.foldl (fun v y => widen (w y) k v) v = W y) := by
  induction xs with
  | nil => intro v; simp
  | cons y xs ih =>
    intro v
    simp only [List.foldl_cons]
    obtain ⟨b1, b2, b3⟩ := ih (widen (w y) k v)
    have hw : widen (w y) k v = min v (W y) := by
      unfold widen; rw [if_pos hk, hW]
    rw [hw] at b1 b2 b3 ⊢
    have m1 : min v (W y) ≤ v := min_le_left _ _
    have m2 : min v (W y) ≤ W y := min_le_right _ _
    refine ⟨le_trans b1 m1, ?_, ?_⟩
    · intro z hz
      rcases List.mem_cons.1 hz with h | h
      · subst h; exact le_trans b1 m2
      · exact b2 z h
    · rcases b3 with h | ⟨z, hz, h⟩
      · rcases min_choice v (W y) with e | e
        · left; rw [h, e]
        · right; exact ⟨y, List.mem_cons_self _ _, by rw [h, e]⟩
      · right; exact ⟨z, List.mem_cons_of_mem _ hz, h⟩

theorem foldl_widen_odd (W : (Nat × (Nat → Nat)) → Int) (k : Nat) (hk : k % 2 ≠ 0)
    (xs : List (Nat × (Nat → Nat))) (w : (Nat × (Nat → Nat)) → Nat → Int)
    (hW : ∀ y, w y k = W y) :
    ∀ v : Int,
      (v ≤ xs.foldl (fun v y => widen (w y) k v) v) ∧
      (∀ y ∈ xs, W y ≤ xs.foldl (fun v y => widen (w y) k v) v) ∧
      (xs.foldl (fun v y => widen (w y) k v) v = v ∨
        ∃ y ∈ xs, xs.foldl (fun v y => widen (w y) k v) v = W y) := by
  induction xs with
  | nil => intro v; simp
  | cons y xs ih =>
    intro v
    simp only [List.foldl_cons]
    obtain ⟨b1, b2, b3⟩ := ih (widen (w y) k v)
    have hw : widen (w y) k v = max v (W y) := by
      unfold widen; rw [if_neg hk, hW]
    rw [hw] at b1 b2 b3 ⊢
    have m1 : v ≤ max v (W y) := le_max_left _ _
    have m2 : W y ≤ max v (W y) := le_max_right _ _
    refine ⟨le_trans m1 b1, ?_, ?_⟩
    · intro z hz
      rcases List.mem_cons.1 hz with h | h
      · subst h; exact le_trans m2 b1
      · exact b2 z h
    · rcases b3 with h | ⟨z, hz, h⟩
      · rcases max_choice v (W y) with e | e
        · left; rw [h, e]
        · right; exact ⟨y, List.mem_cons_self _ _, by rw [h, e]⟩
      · right; exact ⟨z, List.mem_cons_of_mem _ hz, h⟩

/-- The bounds of the record into which the joined clusters `x :: rest` are
merged: the lower bound of every gap is the smallest lower bound and the upper
bound the largest upper bound of the clusters. -/
theorem joined_record_bounds (p : Parameters) (K : Key) (x : Nat × (Nat → Nat))
    (rest : List (Nat × (Nat → Nat))) (i : Nat) (hi : i ≤ (p.cluster x.1).constants) :
    (∀ y ∈ x :: rest, (joined_record p K (x :: rest)).fullWildcard (i * 2)
      ≤ (p.cluster y.1).fullWildcard (i * 2)) ∧
    (∃ y ∈ x :: rest, (joined_record p K (x :: rest)).fullWildcard (i * 2)
      = (p.cluster y.1).fullWildcard (i * 2)) ∧
    (∀ y ∈ x :: rest, (p.cluster y.1).fullWildcard (i * 2 + 1)
      ≤ (joined_record p K (x :: rest)).fullWildcard (i * 2 + 1)) ∧
    (∃ y ∈ x :: rest, (joined_record p K (x :: rest)).fullWildcard (i * 2 + 1)
      = (p.cluster y.1).fullWildcard (i * 2 + 1)) := by
  obtain ⟨-, -, -, -, hw, -⟩ := joined_record_fields p K x rest
  have e0 := hw (i * 2) (by omega)
  have e1 := hw (i * 2 + 1) (by omega)
  obtain ⟨b1, b2, b3⟩ := foldl_widen_even (fun y => (p.cluster y.1).fullWildcard (i * 2)) (i * 2)
    (by omega) rest (fun y => (p.cluster y.1).fullWildcard) (fun _ => rfl)
    ((p.cluster x.1).fullWildcard (i * 2))
  obtain ⟨c1, c2, c3⟩ := foldl_widen_odd (fun y => (p.cluster y.1).fullWildcard (i * 2 + 1))
    (i * 2 + 1) (by omega) rest (fun y => (p.cluster y.1).fullWildcard) (fun _ => rfl)
    ((p.cluster x.1).fullWildcard (i * 2 + 1))
  rw [← e0] at b1 b2 b3
  rw [← e1] at c1 c2 c3
  refine ⟨?_, ?_, ?_, ?_⟩
  · intro y hy
    rcases List.mem_cons.1 hy with h | h
    · subst h; exact b1
    · exact b2 y h
  · rcases b3 with h | ⟨z, hz, h⟩
    · exact ⟨x, List.mem_cons_self _ _, h⟩
    · exact ⟨z, List.mem_cons_of_mem _ hz, h⟩
  · intro y hy
    rcases List.mem_cons.1 hy with h | h
    · subst h; exact c1
    · exact c2 y h
  · rcases c3 with h | ⟨z, hz, h⟩
    · exact ⟨x, List.mem_cons_self _ _, h⟩
    · exact ⟨z, List.mem_cons_of_mem _ hz, h⟩

theorem foldl_insert_token (ws : List (Option Elem)) :
    ∀ chain : List (Option Elem), chain.Nodup →
      (ws.foldl (fun chain w => insert_token w chain) chain).Nodup ∧
      (∀ w, w ∈ ws.foldl (fun chain w => insert_token w chain) chain ↔ w ∈ ws ∨ w ∈ chain) ∧
      ws.foldl (fun chain w => insert_token w chain) chain
        = (ws.reverse ++ chain).dedup := by
  induction ws with
  | nil =>
    intro chain hc
    exact ⟨hc, fun w => by simp, by simpa using hc.dedup.symm⟩
  | cons a ws ih =>
    intro chain hc
    simp only [List.foldl_cons]
    have hn : (insert_token a chain).Nodup := by
      unfold insert_token
      split
      · exact hc
      · exact List.nodup_cons.2 ⟨by assumption, hc⟩
    obtain ⟨b1, b2, b3⟩ := ih (insert_token a chain) hn
    have hmem : ∀ w, w ∈ insert_token a chain ↔ w = a ∨ w ∈ chain := by
      intro w
      unfold insert_token
      by_cases h : a ∈ chain
      · simp only [h, if_true]
        constructor
        · exact Or.inr
        · rintro (h1 | h1)
          · rw [h1]; exact h
          · exact h1
      · simp only [h, if_false, List.mem_cons]
    refine ⟨b1, ?_, ?_⟩
    · intro w
      rw [b2 w, hmem w, List.mem_cons]
      tauto
    · rw [b3, List.reverse_cons, List.append_assoc, List.singleton_append]
      unfold insert_token
      by_cases h : a ∈ chain
      · simp only [h, if_true]
        rw [List.dedup_append, List.dedup_append, List.dedup_cons_of_mem h]
      · simp only [h, if_false]

/-- The token chain of a position lists every inserted word once, the word
inserted last first. -/
theorem token_chain_spec (ws : List (Option Elem)) :
    (token_chain ws).Nodup ∧ (∀ w, w ∈ token_chain ws ↔ w ∈ ws) ∧
    token_chain ws = ws.reverse.dedup := by
  obtain ⟨b1, b2, b3⟩ := foldl_insert_token ws [] List.nodup_nil
  refine ⟨b1, ?_, ?_⟩
  · intro w
    have := b2 w
    simpa using this
  · simpa using b3

/-! ## Joining clusters: the tables -/

theorem join_cluster_with_token_new (q : Parameters) (ptr : Nat) (m s : Nat) (hm : 0 < m)
    (hsize : q.clusterTableSize = m) (hseed : q.clusterTableSeed = s)
    (hlen : q.ppClusterTable.length = m) (hptr : ptr < q.clusters.length) (K : Key)
    (hK : token_key (q.cluster ptr) q.tokenMarker q.token = K)
    (hnone : lookup q.ppClusterTable m s K = none) :
    join_cluster_with_token ptr q = { q with
      joinedClusterInputNum := q.joinedClusterInputNum + 1,
      joinedClusterOutputNum := q.joinedClusterOutputNum + 1,
      clusters := (q.clusters ++
        [adjust_record (q.cluster ptr) q.tokenMarker (new_token_record (q.cluster ptr) K)]),
      ppClusterTable := (store_front (add_elem K q.ppClusterTable m s) (str2hash K m s)
        { pKey := K, count := 1, number := 0, pCluster := some q.clusters.length }),
      pClusterWithTokenFamily := (arrSet q.pClusterWithTokenFamily (q.cluster ptr).constants
        (q.clusters.length :: q.pClusterWithTokenFamily (q.cluster ptr).constants)) } := by
  have hh : str2hash K m s < q.ppClusterTable.length := by
    rw [hlen]; exact str2hash_lt _ _ _ hm
  have hh1 : str2hash K m s < (add_elem K q.ppClusterTable m s).length := by
    rw [add_elem_length]; exact hh
  have hf := front_add_elem K q.ppClusterTable m s hh
  rw [hnone] at hf
  simp only [added] at hf
  have hf2 := front_store_front (add_elem K q.ppClusterTable m s) (str2hash K m s)
    { pKey := K, count := 1, number := 0, pCluster := some q.clusters.length } _ hh1 hf
  have hold := cluster_append_old q.clusters
    (new_token_record (q.clusters.getD ptr {}) K) ptr hptr
  unfold join_cluster_with_token
  simp only [Parameters.cluster] at hK ⊢
  simp only [hK, hsize, hseed, hf, if_true, create_cluster_with_token_instance, hf2,
    adjust_cluster_with_token_instance, Parameters.cluster, Parameters.setCluster,
    getD_append_length, set_append_length, hold]

theorem join_cluster_with_token_old (q : Parameters) (ptr : Nat) (m s : Nat) (hm : 0 < m)
    (hsize : q.clusterTableSize = m) (hseed : q.clusterTableSeed = s)
    (hlen : q.ppClusterTable.length = m) (K : Key)
    (hK : token_key (q.cluster ptr) q.tokenMarker q.token = K) (e : Elem) (J : Nat)
    (hsome : lookup q.ppClusterTable m s K = some e) (hcount : 1 ≤ e.count)
    (hJ : e.pCluster = some J) :
    join_cluster_with_token ptr q = { q with
      joinedClusterInputNum := q.joinedClusterInputNum + 1,
      clusters := (q.clusters.set J
        (adjust_record (q.cluster ptr) q.tokenMarker (q.cluster J))),
      ppClusterTable := (add_elem K q.ppClusterTable m s) } := by
  have hh : str2hash K m s < q.ppClusterTable.length := by
    rw [hlen]; exact str2hash_lt _ _ _ hm
  have hf := front_add_elem K q.ppClusterTable m s hh
  rw [hsome] at hf
  simp only [added] at hf
  have hne : ¬ (e.count + 1 = 1) := by omega
  unfold join_cluster_with_token
  simp only [Parameters.cluster] at hK ⊢
  simp only [hK, hsize, hseed, hf, hne, if_false, hJ,
    adjust_cluster_with_token_instance, Parameters.cluster, Parameters.setCluster]

theorem clusters_set_getD (l : List Cluster) (a b : Nat) (c : Cluster) :
    (l.set a c).getD b {} = if a = b ∧ a < l.length then c else l.getD b {} := by
  simp only [List.getD_eq_getElem?_getD, List.getElem?_set]
  by_cases h : a = b
  · subst h
    by_cases h2 : a < l.length
    · simp [h2]
    · simp [h2, List.getElem?_eq_none (Nat.le_of_not_lt h2)]
  · simp [h]

theorem merged_snoc (p0 : Parameters) (tr : List (Nat × (Nat → Nat))) (x : Nat × (Nat → Nat))
    (K : Key) :
    merged p0 (tr ++ [x]) K = merged p0 tr K ++ if joined_key p0 x = K then [x] else [] := by
  unfold merged
  rw [List.filter_append]
  by_cases h : joined_key p0 x = K <;> simp [List.filter_cons, h]

theorem joined_record_snoc (p0 : Parameters) (K : Key) (xs : List (Nat × (Nat → Nat)))
    (hne : xs ≠ []) (x : Nat × (Nat → Nat)) :
    joined_record p0 K (xs ++ [x])
      = adjust_record (p0.cluster x.1).flagged x.2 (joined_record p0 K xs) := by
  cases xs with
  | nil => exact absurd rfl hne
  | cons y ys =>
    unfold joined_record
    simp only [List.cons_append, List.foldl_cons, List.foldl_append, List.foldl_nil]

theorem joined_record_single (p0 : Parameters) (K : Key) (x : Nat × (Nat → Nat)) :
    joined_record p0 K [x]
      = adjust_record (p0.cluster x.1).flagged x.2
          (new_token_record (p0.cluster x.1).flagged K) := rfl

theorem flagged_flagged (c : Cluster) : c.flagged.flagged = c.flagged := rfl

theorem lookup_store_add_self (t : Table) (m s : Nat) (hm : 0 < m) (hlen : t.length = m)
    (K : Key) (e : Elem) (he : e.pKey = K) :
    lookup (store_front (add_elem K t m s) (str2hash K m s) e) m s K = some e := by
  have hh : str2hash K m s < t.length := by
    rw [hlen]; exact str2hash_lt _ _ _ hm
  have hh1 : str2hash K m s < (add_elem K t m s).length := by
    rw [add_elem_length]; exact hh
  exact lookup_store_front_self _ m s K _ e hh1 (front_add_elem K t m s hh) he

theorem lookup_store_add_other (t : Table) (m s : Nat) (hm : 0 < m) (hlen : t.length = m)
    (K K' : Key) (hk : K' ≠ K) (e : Elem) (he : e.pKey = K) :
    lookup (store_front (add_elem K t m s) (str2hash K m s) e) m s K' = lookup t m s K' := by
  have hh : str2hash K m s < t.length := by
    rw [hlen]; exact str2hash_lt _ _ _ hm
  have hh1 : str2hash K m s < (add_elem K t m s).length := by
    rw [add_elem_length]; exact hh
  rw [lookup_store_front_other _ m s K K' _ e hk hh1 (front_add_elem K t m s hh)
    (added_pKey t m s K) he]
  exact lookup_add_elem_other K K' hk t m s hh

theorem joined_record_pElem (p0 : Parameters) (K : Key) (xs : List (Nat × (Nat → Nat)))
    (hne : xs ≠ []) : (joined_record p0 K xs).pElem = K := by
  cases xs with
  | nil => exact absurd rfl hne
  | cons y ys => exact (joined_record_fields p0 K y ys).2.1

theorem adjust_record_constants (c : Cluster) (mk : Nat → Nat) (r : Cluster) :
    (adjust_record c mk r).constants = r.constants := by
  rw [adjust_record_eq]

theorem JoinInv.step_new {p0 p : Parameters} {m s : Nat} {tr : List (Nat × (Nat → Nat))}
    (hm : 0 < m) (h : JoinInv p0 p m s tr) (ptr : Nat) (hptr : ptr < p0.clusters.length)
    (hmer : merged p0 tr (joined_key p0 (ptr, p.tokenMarker)) = [])
    (hfresh : lookup p0.ppClusterTable m s (joined_key p0 (ptr, p.tokenMarker)) = none) :
    JoinInv p0 (join_cluster_with_token ptr (p.setCluster ptr (p.cluster ptr).flagged)) m s
      (tr ++ [(ptr, p.tokenMarker)]) := by
  obtain ⟨x, hx⟩ : ∃ x, x = (ptr, p.tokenMarker) := ⟨_, rfl⟩
  obtain ⟨K, hKdef⟩ : ∃ K, K = joined_key p0 x := ⟨_, rfl⟩
  rw [← hx, ← hKdef] at hmer hfresh
  rw [← hx]
  have hF : (p.cluster ptr).flagged = (p0.cluster ptr).flagged := by
    rw [h.old ptr hptr]; split <;> rfl
  have hlenp : ptr < p.clusters.length := lt_of_lt_of_le hptr h.heap
  obtain ⟨q, hq⟩ : ∃ q, q = p.setCluster ptr (p.cluster ptr).flagged := ⟨_, rfl⟩
  rw [← hq]
  have hqc : ∀ a, q.cluster a = if ptr = a then (p0.cluster ptr).flagged else p.cluster a := by
    intro a
    rw [hq, cluster_setCluster, hF]
    by_cases ha : ptr = a
    · rw [if_pos ⟨ha, hlenp⟩, if_pos ha]
    · rw [if_neg (fun e => ha e.1), if_neg ha]
  have hqlen : q.clusters.length = p.clusters.length := by
    rw [hq]; simp [Parameters.setCluster]
  have hqt : q.ppClusterTable = p.ppClusterTable := by rw [hq]; rfl
  have hK : token_key (q.cluster ptr) q.tokenMarker q.token = K := by
    rw [hqc ptr, if_pos rfl, hKdef, hx, hq]
    show token_key _ p.tokenMarker p.token = _
    rw [h.token]
    rfl
  have hnone : lookup q.ppClusterTable m s K = none := by
    rw [hqt, h.other K hmer]; exact hfresh
  have heq := join_cluster_with_token_new q ptr m s hm (by rw [hq]; exact h.csize)
    (by rw [hq]; exact h.cseed) (by rw [hqt]; exact h.len) (by rw [hqlen]; exact hlenp) K hK hnone
  obtain ⟨p', hp'⟩ : ∃ p', p' = join_cluster_with_token ptr q := ⟨_, rfl⟩
  rw [← hp'] at heq ⊢
  obtain ⟨E, hE⟩ : ∃ E : Elem,
      E = { pKey := K, count := 1, number := 0, pCluster := some q.clusters.length } := ⟨_, rfl⟩
  have hR : adjust_record (q.cluster ptr) q.tokenMarker (new_token_record (q.cluster ptr) K)
      = joined_record p0 K [x] := by
    rw [hqc ptr, if_pos rfl, joined_record_single, hx, hq]
    rfl
  rw [hR, ← hE] at heq
  have c1 : p'.clusters = q.clusters ++ [joined_record p0 K [x]] := by rw [heq]
  have c2 : p'.ppClusterTable
      = store_front (add_elem K q.ppClusterTable m s) (str2hash K m s) E := by rw [heq]
  have c3 : p'.pClusterWithTokenFamily = arrSet q.pClusterWithTokenFamily
      (q.cluster ptr).constants
      (q.clusters.length :: q.pClusterWithTokenFamily (q.cluster ptr).constants) := by rw [heq]
  have hRc : (joined_record p0 K [x]).constants = (q.cluster ptr).constants := by
    rw [(joined_record_fields p0 K x []).1, hqc ptr, if_pos rfl, hx]
    rfl
  have hfamq : q.pClusterWithTokenFamily = p.pClusterWithTokenFamily := by rw [hq]; rfl
  have hcl : ∀ a, p'.cluster a =
      if a = p.clusters.length then joined_record p0 K [x]
      else if ptr = a then (p0.cluster ptr).flagged else p.cluster a := by
    intro a
    rw [← hqc a]
    unfold Parameters.cluster
    rw [c1]
    by_cases h1 : a = p.clusters.length
    · rw [if_pos h1, h1, ← hqlen, getD_append_length]
    · rw [if_neg h1]
      by_cases h2 : a < q.clusters.length
      · exact cluster_append_old _ _ _ h2
      · have h3 : q.clusters.length + 1 ≤ a := by omega
        rw [List.getD_eq_getElem?_getD, List.getD_eq_getElem?_getD,
          List.getElem?_eq_none (by simp; omega), List.getElem?_eq_none (by omega)]
  have hEk : E.pKey = K := by rw [hE]
  have hlk : ∀ K', K' ≠ K → lookup p'.ppClusterTable m s K' = lookup p.ppClusterTable m s K' := by
    intro K' hne
    rw [c2, hqt]
    exact lookup_store_add_other _ m s hm h.len K K' hne E hEk
  have hlK : lookup p'.ppClusterTable m s K = some E := by
    rw [c2, hqt]
    exact lookup_store_add_self _ m s hm h.len K E hEk
  have hmK : merged p0 (tr ++ [x]) K = [x] := by
    rw [merged_snoc, hmer, ← hKdef, if_pos rfl]; rfl
  have hmo : ∀ K', K' ≠ K → merged p0 (tr ++ [x]) K' = merged p0 tr K' := by
    intro K' hne
    rw [merged_snoc, ← hKdef, if_neg (fun e => hne e.symm), List.append_nil]
  refine
    { csize := by rw [heq]; rw [hq]; exact h.csize
      cseed := by rw [heq]; rw [hq]; exact h.cseed
      len := by rw [c2, store_front_length, add_elem_length, hqt]; exact h.len
      token := by rw [heq]; rw [hq]; exact h.token
      family := by rw [heq]; rw [hq]; exact h.family
      biggest := by rw [heq]; rw [hq]; exact h.biggest
      clusterNum := by rw [heq]; rw [hq]; exact h.clusterNum
      weightf := by rw [heq]; rw [hq]; exact h.weightf
      threshold := by rw [heq]; rw [hq]; exact h.threshold
      heap := by rw [c1, List.length_append, hqlen]; have := h.heap; omega
      old := ?_, other := ?_, joined := ?_, records := ?_, fam := ?_, famnodup := ?_
      inNum := ?_, outNum := ?_ }
  · intro a ha
    have hne : a ≠ p.clusters.length := by have := h.heap; omega
    rw [hcl a, if_neg hne]
    by_cases hpa : ptr = a
    · subst hpa
      have : ptr ∈ List.map Prod.fst (tr ++ [x]) := by rw [hx]; simp
      rw [if_pos rfl, if_pos this]
    · rw [if_neg hpa, h.old a ha]
      have : a ∈ List.map Prod.fst (tr ++ [x]) ↔ a ∈ List.map Prod.fst tr := by
        rw [hx]
        simp only [List.map_append, List.mem_append, List.map_cons, List.map_nil,
          List.mem_singleton]
        constructor
        · rintro (e | e)
          · exact e
          · exact absurd e.symm hpa
        · exact Or.inl
      by_cases hmem : a ∈ List.map Prod.fst tr
      · rw [if_pos hmem, if_pos (this.2 hmem)]
      · rw [if_neg hmem, if_neg (fun e => hmem (this.1 e))]
  · intro K' hK'
    have hne : K' ≠ K := by
      intro e
      rw [e, hmK] at hK'
      exact absurd hK' (by simp)
    rw [hmo K' hne] at hK'
    rw [hlk K' hne]
    exact h.other K' hK'
  · intro K' hK'
    by_cases hne : K' = K
    · subst hne
      refine ⟨E, p.clusters.length, hlK, ?_, ?_, h.heap, ?_, ?_, ?_⟩
      · rw [hmK, hE]; rfl
      · rw [hE, hqlen]
      · rw [c1, List.length_append, hqlen]; simp
      · rw [hcl, if_pos rfl, hmK]
      · rw [hcl, if_pos rfl, hRc, c3, hqlen]
        simp [arrSet]
    · rw [hmo K' hne] at hK' ⊢
      obtain ⟨e, J, a1, a2, a3, a4, a5, a6, a7⟩ := h.joined K' hK'
      have hJ1 : J ≠ p.clusters.length := by omega
      have hJ2 : ptr ≠ J := by omega
      have hJc : p'.cluster J = p.cluster J := by rw [hcl, if_neg hJ1, if_neg hJ2]
      refine ⟨e, J, by rw [hlk K' hne]; exact a1, a2, a3, a4, ?_, by rw [hJc]; exact a6, ?_⟩
      · rw [c1, List.length_append, hqlen]; omega
      · rw [hJc, c3, hfamq]
        unfold arrSet
        by_cases hc : (p.cluster J).constants = (q.cluster ptr).constants
        · rw [if_pos hc]
          exact List.mem_cons_of_mem _ (hc ▸ a7)
        · rw [if_neg hc]
          exact a7
  · intro J hJ1 hJ2
    rw [c1, List.length_append, hqlen] at hJ2
    by_cases hJ : J = p.clusters.length
    · refine ⟨K, E, by rw [hmK]; simp, hlK, ?_⟩
      rw [hE, hqlen, hJ]
    · obtain ⟨K'', e'', b1, b2, b3⟩ := h.records J hJ1 (by simp at hJ2; omega)
      have hne : K'' ≠ K := by
        intro e
        rw [e] at b1
        exact b1 hmer
      exact ⟨K'', e'', by rw [hmo K'' hne]; exact b1, by rw [hlk K'' hne]; exact b2, b3⟩
  · intro i J hJ
    rw [c3, hfamq] at hJ
    have hlen' : p'.clusters.length = p.clusters.length + 1 := by
      rw [c1, List.length_append, hqlen]; rfl
    unfold arrSet at hJ
    by_cases hi : i = (q.cluster ptr).constants
    · rw [if_pos hi, hqlen] at hJ
      rcases List.mem_cons.1 hJ with hJ | hJ
      · refine ⟨by rw [hJ]; exact h.heap, by omega, ?_⟩
        rw [hJ, hcl, if_pos rfl, hRc, hi]
      · obtain ⟨d1, d2, d3⟩ := h.fam _ J hJ
        refine ⟨d1, by omega, ?_⟩
        rw [hcl, if_neg (by omega), if_neg (by omega), d3, hi]
    · rw [if_neg hi] at hJ
      obtain ⟨d1, d2, d3⟩ := h.fam _ J hJ
      refine ⟨d1, by omega, ?_⟩
      rw [hcl, if_neg (by omega), if_neg (by omega), d3]
  · intro i
    rw [c3, hfamq]
    unfold arrSet
    by_cases hi : i = (q.cluster ptr).constants
    · rw [if_pos hi, hqlen]
      refine List.nodup_cons.2 ⟨?_, h.famnodup _⟩
      intro hmem
      have := (h.fam _ _ hmem).2.1
      omega
    · rw [if_neg hi]
      exact h.famnodup i
  · have : p'.joinedClusterInputNum = p.joinedClusterInputNum + 1 := by
      rw [heq]; rw [hq]; rfl
    rw [this, h.inNum, List.length_append]
    rfl
  · have e1 : p'.joinedClusterOutputNum = p.joinedClusterOutputNum + 1 := by
      rw [heq]; rw [hq]; rfl
    have e2 : p'.clusters.length = p.clusters.length + 1 := by
      rw [c1, List.length_append, hqlen]; rfl
    have := h.outNum
    omega

theorem JoinInv.step_old {p0 p : Parameters} {m s : Nat} {tr : List (Nat × (Nat → Nat))}
    (hm : 0 < m) (h : JoinInv p0 p m s tr) (ptr : Nat) (hptr : ptr < p0.clusters.length)
    (hmer : merged p0 tr (joined_key p0 (ptr, p.tokenMarker)) ≠ []) :
    JoinInv p0 (join_cluster_with_token ptr (p.setCluster ptr (p.cluster ptr).flagged)) m s
      (tr ++ [(ptr, p.tokenMarker)]) := by
  obtain ⟨x, hx⟩ : ∃ x, x = (ptr, p.tokenMarker) := ⟨_, rfl⟩
  obtain ⟨K, hKdef⟩ : ∃ K, K = joined_key p0 x := ⟨_, rfl⟩
  rw [← hx, ← hKdef] at hmer
  rw [← hx]
  have hF : (p.cluster ptr).flagged = (p0.cluster ptr).flagged := by
    rw [h.old ptr hptr]; split <;> rfl
  have hlenp : ptr < p.clusters.length := lt_of_lt_of_le hptr h.heap
  obtain ⟨q, hq⟩ : ∃ q, q = p.setCluster ptr (p.cluster ptr).flagged := ⟨_, rfl⟩
  rw [← hq]
  have hqc : ∀ a, q.cluster a = if ptr = a then (p0.cluster ptr).flagged else p.cluster a := by
    intro a
    rw [hq, cluster_setCluster, hF]
    by_cases ha : ptr = a
    · rw [if_pos ⟨ha, hlenp⟩, if_pos ha]
    · rw [if_neg (fun e => ha e.1), if_neg ha]
  have hqlen : q.clusters.length = p.clusters.length := by
    rw [hq]; simp [Parameters.setCluster]
  have hqt : q.ppClusterTable = p.ppClusterTable := by rw [hq]; rfl
  have hK : token_key (q.cluster ptr) q.tokenMarker q.token = K := by
    rw [hqc ptr, if_pos rfl, hKdef, hx, hq]
    show token_key _ p.tokenMarker p.token = _
    rw [h.token]
    rfl
  obtain ⟨e, J, a1, a2, a3, a4, a5, a6, a7⟩ := h.joined K hmer
  have hcount : 1 ≤ e.count := by
    rw [a2]
    exact List.length_pos.2 hmer
  have heq := join_cluster_with_token_old q ptr m s hm (by rw [hq]; exact h.csize)
    (by rw [hq]; exact h.cseed) (by rw [hqt]; exact h.len) K hK e J (by rw [hqt]; exact a1)
    hcount a3
  obtain ⟨p', hp'⟩ : ∃ p', p' = join_cluster_with_token ptr q := ⟨_, rfl⟩
  rw [← hp'] at heq ⊢
  have hJptr : ptr ≠ J := by omega
  have hR : adjust_record (q.cluster ptr) q.tokenMarker (q.cluster J)
      = joined_record p0 K (merged p0 tr K ++ [x]) := by
    rw [hqc ptr, if_pos rfl, hqc J, if_neg hJptr, a6, joined_record_snoc p0 K _ hmer, hx, hq]
    rfl
  rw [hR] at heq
  have c1 : p'.clusters = q.clusters.set J (joined_record p0 K (merged p0 tr K ++ [x])) := by
    rw [heq]
  have c2 : p'.ppClusterTable = add_elem K q.ppClusterTable m s := by rw [heq]
  have c3 : p'.pClusterWithTokenFamily = p.pClusterWithTokenFamily := by rw [heq]; rw [hq]; rfl
  have hlen' : p'.clusters.length = p.clusters.length := by
    rw [c1, List.length_set, hqlen]
  have hcl : ∀ a, p'.cluster a =
      if J = a then joined_record p0 K (merged p0 tr K ++ [x])
      else if ptr = a then (p0.cluster ptr).flagged else p.cluster a := by
    intro a
    rw [← hqc a]
    unfold Parameters.cluster
    rw [c1, clusters_set_getD]
    by_cases h1 : J = a
    · rw [if_pos ⟨h1, by rw [hqlen]; exact a5⟩, if_pos h1]
    · rw [if_neg (fun e => h1 e.1), if_neg h1]
  have hh : str2hash K m s < p.ppClusterTable.length := by
    rw [h.len]; exact str2hash_lt _ _ _ hm
  have hlk : ∀ K', K' ≠ K → lookup p'.ppClusterTable m s K' = lookup p.ppClusterTable m s K' := by
    intro K' hne
    rw [c2, hqt]
    exact lookup_add_elem_other K K' hne _ m s hh
  have hlK : lookup p'.ppClusterTable m s K = some { e with count := e.count + 1 } := by
    rw [c2, hqt, lookup_add_elem_self K _ m s hh, a1]
    rfl
  have hmK : merged p0 (tr ++ [x]) K = merged p0 tr K ++ [x] := by
    rw [merged_snoc, ← hKdef, if_pos rfl]
  have hmo : ∀ K', K' ≠ K → merged p0 (tr ++ [x]) K' = merged p0 tr K' := by
    intro K' hne
    rw [merged_snoc, ← hKdef, if_neg (fun e => hne e.symm), List.append_nil]
  have hRc : (joined_record p0 K (merged p0 tr K ++ [x])).constants = (p.cluster J).constants := by
    rw [joined_record_snoc p0 K _ hmer, adjust_record_constants, a6]
  have hconst : ∀ a, (p'.cluster a).constants = (p.cluster a).constants := by
    intro a
    rw [hcl a]
    by_cases h1 : J = a
    · rw [if_pos h1, hRc, h1]
    · rw [if_neg h1]
      by_cases h2 : ptr = a
      · rw [if_pos h2, ← hF, h2]
        rfl
      · rw [if_neg h2]
  refine
    { csize := by rw [heq]; rw [hq]; exact h.csize
      cseed := by rw [heq]; rw [hq]; exact h.cseed
      len := by rw [c2, add_elem_length, hqt]; exact h.len
      token := by rw [heq]; rw [hq]; exact h.token
      family := by rw [heq]; rw [hq]; exact h.family
      biggest := by rw [heq]; rw [hq]; exact h.biggest
      clusterNum := by rw [heq]; rw [hq]; exact h.clusterNum
      weightf := by rw [heq]; rw [hq]; exact h.weightf
      threshold := by rw [heq]; rw [hq]; exact h.threshold
      heap := by rw [hlen']; exact h.heap
      old := ?_, other := ?_, joined := ?_, records := ?_, fam := ?_, famnodup := ?_
      inNum := ?_, outNum := ?_ }
  · intro a ha
    have hne : J ≠ a := by omega
    rw [hcl a, if_neg hne]
    by_cases hpa : ptr = a
    · subst hpa
      have : ptr ∈ List.map Prod.fst (tr ++ [x]) := by rw [hx]; simp
      rw [if_pos rfl, if_pos this]
    · rw [if_neg hpa, h.old a ha]
      have : a ∈ List.map Prod.fst (tr ++ [x]) ↔ a ∈ List.map Prod.fst tr := by
        rw [hx]
        simp only [List.map_append, List.mem_append, List.map_cons, List.map_nil,
          List.mem_singleton]
        constructor
        · rintro (e | e)
          · exact e
          · exact absurd e.symm hpa
        · exact Or.inl
      by_cases hmem : a ∈ List.map Prod.fst tr
      · rw [if_pos hmem, if_pos (this.2 hmem)]
      · rw [if_neg hmem, if_neg (fun e => hmem (this.1 e))]
  · intro K' hK'
    have hne : K' ≠ K := by
      intro e
      rw [e, hmK] at hK'
      exact absurd hK' (by simp)
    rw [hmo K' hne] at hK'
    rw [hlk K' hne]
    exact h.other K' hK'
  · intro K' hK'
    by_cases hne : K' = K
    · subst hne
      refine ⟨_, J, hlK, ?_, a3, a4, by rw [hlen']; exact a5, ?_, ?_⟩
      · rw [hmK, List.length_append]
        show e.count + 1 = _
        rw [a2]
        rfl
      · rw [hcl, if_pos rfl, hmK]
      · rw [hconst, c3]
        exact a7
    · rw [hmo K' hne] at hK' ⊢
      obtain ⟨e', J', b1, b2, b3, b4, b5, b6, b7⟩ := h.joined K' hK'
      have hJJ : J ≠ J' := by
        intro e
        rw [← e, a6] at b6
        have k1 := joined_record_pElem p0 K _ hmer
        have k2 := joined_record_pElem p0 K' _ hK'
        rw [b6, k2] at k1
        exact hne k1
      have hJ2 : ptr ≠ J' := by omega
      have hJc : p'.cluster J' = p.cluster J' := by rw [hcl, if_neg hJJ, if_neg hJ2]
      refine ⟨e', J', by rw [hlk K' hne]; exact b1, b2, b3, b4, by rw [hlen']; exact b5,
        by rw [hJc]; exact b6, ?_⟩
      rw [hJc, c3]
      exact b7
  · intro J'' hJ1 hJ2
    rw [hlen'] at hJ2
    obtain ⟨K'', e'', b1, b2, b3⟩ := h.records J'' hJ1 hJ2
    by_cases hne : K'' = K
    · subst hne
      rw [a1] at b2
      cases b2
      exact ⟨K'', _, by rw [hmK]; simp, hlK, b3⟩
    · exact ⟨K'', e'', by rw [hmo K'' hne]; exact b1, by rw [hlk K'' hne]; exact b2, b3⟩
  · intro i J'' hJ''
    rw [c3] at hJ''
    obtain ⟨d1, d2, d3⟩ := h.fam _ J'' hJ''
    exact ⟨d1, by rw [hlen']; exact d2, by rw [hconst]; exact d3⟩
  · intro i
    rw [c3]
    exact h.famnodup i
  · have : p'.joinedClusterInputNum = p.joinedClusterInputNum + 1 := by
      rw [heq]; rw [hq]; rfl
    rw [this, h.inNum, List.length_append]
    rfl
  · have e1 : p'.joinedClusterOutputNum = p.joinedClusterOutputNum := by
      rw [heq]; rw [hq]; rfl
    rw [e1, hlen']
    exact h.outNum

/-! ## Joining clusters: the keys -/

theorem key_words_ne_nil (k : Key) (h : k ≠ []) : key_words k ≠ [] := by
  cases k with
  | nil => exact absurd rfl h
  | cons c rest =>
    unfold key_words
    split
    · simp
    · split <;> simp

theorem key_words_sep (rest : Key) :
    key_words (CLUSTERSEP :: rest) = [] :: key_words rest := by
  rw [key_words]
  simp

theorem key_words_other (c : Nat) (rest : Key) (hc : c ≠ CLUSTERSEP) (w : Key) (ws : List Key)
    (h : key_words rest = w :: ws) : key_words (c :: rest) = (c :: w) :: ws := by
  rw [key_words, if_neg hc, h]

theorem key_words_append (P X : Key) (hP : P = [] ∨ P.getLast? = some CLUSTERSEP) :
    key_words (P ++ X) = key_words P ++ key_words X := by
  induction P with
  | nil => simp [key_words]
  | cons c P ih =>
    have hP' : P = [] ∨ P.getLast? = some CLUSTERSEP := by
      rcases hP with h | h
      · exact absurd h (by simp)
      · cases P with
        | nil => left; rfl
        | cons d P' =>
          right
          simpa [List.getLast?_cons_cons] using h
    rw [List.cons_append]
    by_cases hc : c = CLUSTERSEP
    · rw [hc, key_words_sep, key_words_sep, ih hP', List.cons_append]
    · have hne : P ≠ [] := by
        intro e
        subst e
        rcases hP with h | h
        · exact absurd h (by simp)
        · simp at h
          exact hc h
      have hk := key_words_ne_nil P hne
      cases hkw : key_words P with
      | nil => exact absurd hkw hk
      | cons w ws =>
        rw [key_words_other c P hc w ws hkw,
          key_words_other c (P ++ X) hc w (ws ++ key_words X) (by rw [ih hP', hkw]; rfl)]
        rfl

theorem key_words_word (w : Key) (hw : CLUSTERSEP ∉ w) (X : Key) :
    key_words (w ++ CLUSTERSEP :: X) = w :: key_words X := by
  induction w with
  | nil => exact key_words_sep X
  | cons c w ih =>
    have hc : c ≠ CLUSTERSEP := fun e => hw (by rw [e]; exact List.mem_cons_self _ _)
    have hw' : CLUSTERSEP ∉ w := fun e => hw (List.mem_cons_of_mem _ e)
    rw [List.cons_append]
    exact key_words_other c _ hc w (key_words X) (ih hw')

theorem token_key_fold_append (c : Cluster) (mk : Nat → Nat) (tk : Key) (L : List Nat) :
    ∀ init : Key,
      L.foldl (fun key i => (if mk i = 0 then key ++ c.word i else key ++ tk) ++ [CLUSTERSEP])
        init
      = init ++ L.foldl
        (fun key i => (if mk i = 0 then key ++ c.word i else key ++ tk) ++ [CLUSTERSEP]) [] := by
  induction L with
  | nil => intro init; simp
  | cons i L ih =>
    intro init
    rw [List.foldl_cons, ih, List.foldl_cons, ih ((if mk i = 0 then [] ++ c.word i
      else [] ++ tk) ++ [CLUSTERSEP])]
    by_cases h : mk i = 0 <;> simp [h]

theorem token_key_fold_last (c : Cluster) (mk : Nat → Nat) (tk : Key) (L : List Nat) :
    L.foldl (fun key i => (if mk i = 0 then key ++ c.word i else key ++ tk) ++ [CLUSTERSEP]) []
      = [] ∨
    (L.foldl (fun key i => (if mk i = 0 then key ++ c.word i else key ++ tk) ++ [CLUSTERSEP])
      []).getLast? = some CLUSTERSEP := by
  induction L using List.reverseRecOn with
  | nil => left; rfl
  | append_singleton L i _ =>
    right
    rw [List.foldl_append, List.foldl_cons, List.foldl_nil]
    simp

/-- A key built by `join_cluster_with_token` for markers with a marked
position has `token` among its strings. -/
theorem token_key_has_token (c : Cluster) (mk : Nat → Nat) (tk : Key)
    (hsep : CLUSTERSEP ∉ tk) (i : Nat) (hi : i ∈ List.range' 1 c.constants) (hmk : mk i ≠ 0) :
    tk ∈ key_words (token_key c mk tk) := by
  unfold token_key
  obtain ⟨L1, L2, hL⟩ := List.append_of_mem hi
  rw [hL, List.foldl_append, List.foldl_cons, token_key_fold_append c mk tk L2, if_neg hmk]
  rw [List.append_assoc, List.append_assoc,
    key_words_append _ _ (token_key_fold_last c mk tk L1)]
  rw [List.singleton_append, key_words_word tk hsep]
  exact List.mem_append_right _ (List.mem_cons_self _ _)

theorem lookup_fresh (p0 : Parameters) (m s : Nat)
    (hsep : CLUSTERSEP ∉ p0.token)
    (htok : ∀ e ∈ p0.ppClusterTable.flatten, p0.token ∉ key_words e.pKey)
    (ptr : Nat) (mk : Nat → Nat) (i : Nat) (hi : i ∈ List.range' 1 (p0.cluster ptr).constants)
    (hmk : mk i ≠ 0) :
    lookup p0.ppClusterTable m s (joined_key p0 (ptr, mk)) = none := by
  cases hl : lookup p0.ppClusterTable m s (joined_key p0 (ptr, mk)) with
  | none => rfl
  | some e =>
    exfalso
    have h1 := lookup_key hl
    have h2 := htok e (lookup_mem_flatten hl)
    rw [h1] at h2
    exact h2 (token_key_has_token _ mk _ hsep i hi hmk)

theorem token_key_fold_congr (c d : Cluster) (mk mk' : Nat → Nat) (tk : Key) (L : List Nat)
    (hm : ∀ i ∈ L, (mk i = 0 ↔ mk' i = 0))
    (hw : ∀ i ∈ L, mk i = 0 → c.word i = d.word i) :
    ∀ init : Key,
      L.foldl (fun key i => (if mk i = 0 then key ++ c.word i else key ++ tk) ++ [CLUSTERSEP])
        init
      = L.foldl (fun key i => (if mk' i = 0 then key ++ d.word i else key ++ tk)
        ++ [CLUSTERSEP]) init := by
  induction L with
  | nil => intro init; rfl
  | cons i L ih =>
    intro init
    rw [List.foldl_cons, List.foldl_cons]
    have h1 := hm i (List.mem_cons_self _ _)
    have h2 := hw i (List.mem_cons_self _ _)
    have e : (if mk i = 0 then init ++ c.word i else init ++ tk)
        = (if mk' i = 0 then init ++ d.word i else init ++ tk) := by
      by_cases h : mk i = 0
      · rw [if_pos h, if_pos (h1.1 h), h2 h]
      · rw [if_neg h, if_neg (fun e => h (h1.2 e))]
    rw [e]
    exact ih (fun j hj => hm j (List.mem_cons_of_mem _ hj))
      (fun j hj => hw j (List.mem_cons_of_mem _ hj)) _

theorem token_key_congr (c d : Cluster) (mk mk' : Nat → Nat) (tk : Key)
    (hc : c.constants = d.constants)
    (hm : ∀ i ∈ List.range' 1 c.constants, (mk i = 0 ↔ mk' i = 0))
    (hw : ∀ i ∈ List.range' 1 c.constants, mk i = 0 → c.word i = d.word i) :
    token_key c mk tk = token_key d mk' tk := by
  unfold token_key
  rw [← hc]
  exact token_key_fold_congr c d mk mk' tk _ hm hw []

/-! ## The token markers -/

theorem MarkFrame.refl_mark (p : Parameters) : MarkFrame p p :=
  ⟨p.tokenMarker, p.wordNumStr, p.pCurrentCluster, rfl⟩

theorem MarkFrame.trans_mark {p q r : Parameters} (h1 : MarkFrame p q) (h2 : MarkFrame q r) :
    MarkFrame p r := by
  obtain ⟨a1, a2, a3, rfl⟩ := h1
  obtain ⟨b1, b2, b3, rfl⟩ := h2
  exact ⟨b1, b2, b3, rfl⟩

theorem unique_words_frame (ptr : Nat) (p : Parameters) : MarkFrame p (unique_words ptr p) := by
  unfold unique_words
  split
  · exact ⟨p.tokenMarker, _, _, rfl⟩
  · exact MarkFrame.refl_mark p

theorem unique_words_tokenMarker (ptr : Nat) (p : Parameters) :
    (unique_words ptr p).tokenMarker = p.tokenMarker := by
  unfold unique_words
  split <;> rfl

theorem unique_words_current (ptr : Nat) (p : Parameters) :
    (unique_words ptr p).pCurrentCluster = some ptr := by
  unfold unique_words
  by_cases h : p.pCurrentCluster ≠ some ptr
  · rw [if_pos h]; rfl
  · rw [if_neg h]; exact not_not.1 h

theorem unique_words_of_current (ptr : Nat) (p : Parameters)
    (h : p.pCurrentCluster = some ptr) : unique_words ptr p = p := by
  unfold unique_words
  rw [if_neg (not_not.2 h)]

theorem unique_words_idem (ptr : Nat) (p : Parameters) :
    unique_words ptr (unique_words ptr p) = unique_words ptr p :=
  unique_words_of_current ptr _ (unique_words_current ptr p)

theorem unique_words_marker (ptr : Nat) (p : Parameters) (tm : Nat → Nat) :
    unique_words ptr { p with tokenMarker := tm }
      = { unique_words ptr p with tokenMarker := tm } := by
  unfold unique_words
  by_cases h : p.pCurrentCluster ≠ some ptr
  · rw [if_pos h, if_pos h]; rfl
  · rw [if_neg h, if_neg h]

/-- The weight of a position is the same in two states with the same cluster
record, matrix and weight function, when the statement `unique_words` leaves
the same numbers in `wordNumStr`. -/
theorem word_weight_congr (ptr i : Nat) (p q : Parameters)
    (h1 : q.cluster ptr = p.cluster ptr) (h2 : q.wordDepMatrix = p.wordDepMatrix)
    (h3 : q.wordDepMatrixBreadth = p.wordDepMatrixBreadth)
    (h4 : q.wordWeightFunction = p.wordWeightFunction)
    (h5 : (unique_words ptr q).wordNumStr = (unique_words ptr p).wordNumStr) :
    word_weight ptr i q = word_weight ptr i p := by
  have u1 : (unique_words ptr q).wordDepMatrix = p.wordDepMatrix := by
    obtain ⟨a, b, c, e⟩ := unique_words_frame ptr q
    rw [e]; exact h2
  have u2 : (unique_words ptr q).wordDepMatrixBreadth = p.wordDepMatrixBreadth := by
    obtain ⟨a, b, c, e⟩ := unique_words_frame ptr q
    rw [e]; exact h3
  have v1 : (unique_words ptr p).wordDepMatrix = p.wordDepMatrix := by
    obtain ⟨a, b, c, e⟩ := unique_words_frame ptr p
    rw [e]
  have v2 : (unique_words ptr p).wordDepMatrixBreadth = p.wordDepMatrixBreadth := by
    obtain ⟨a, b, c, e⟩ := unique_words_frame ptr p
    rw [e]
  unfold word_weight cal_word_weight
  rw [h4]
  by_cases f1 : p.wordWeightFunction = 1
  · simp only [f1, if_true]
    unfold cal_word_weight_function_1 cal_word_dep
    simp only [h1, h2, h3]
  · by_cases f2 : p.wordWeightFunction = 2
    · have h21 : ¬ ((2 : Int) = 1) := by decide
      rw [f2]
      simp only [h21, if_false, if_true]
      unfold cal_word_weight_function_2 cal_word_dep_number_version
      simp only [h1, h5, u1, u2, v1, v2]
      split <;> rfl
    · simp only [f1, f2, if_false]

theorem word_weight_f1 (ptr i : Nat) (p : Parameters) (hf : p.wordWeightFunction = 1) :
    cal_word_weight ptr i p = some (cal_word_weight_function_1 ptr i p, p) ∧
    word_weight ptr i p = cal_word_weight_function_1 ptr i p := by
  unfold word_weight cal_word_weight
  simp only [hf, if_true, and_self]

theorem word_weight_f2 (ptr i : Nat) (p : Parameters) (hf : p.wordWeightFunction = 2) :
    cal_word_weight ptr i p = some (cal_word_weight_function_2 ptr i p) ∧
    word_weight ptr i p = (cal_word_weight_function_2 ptr i p).1 := by
  have h1 : ¬ ((2 : Int) = 1) := by decide
  unfold word_weight cal_word_weight
  simp only [hf, h1, if_false, if_true, and_self]

theorem cal_word_weight_function_2_state (ptr i : Nat) (p : Parameters) :
    (cal_word_weight_function_2 ptr i p).2 = unique_words ptr p := by
  unfold cal_word_weight_function_2
  simp only
  split <;> rfl

theorem cal_word_weight_spec (ptr i : Nat) (p : Parameters)
    (hf : p.wordWeightFunction = 1 ∨ p.wordWeightFunction = 2) :
    ∃ q, cal_word_weight ptr i p = some (word_weight ptr i p, q) ∧ MarkFrame p q ∧
      q.tokenMarker = p.tokenMarker ∧ (∀ j, word_weight ptr j q = word_weight ptr j p) := by
  rcases hf with hf | hf
  · obtain ⟨a1, a2⟩ := word_weight_f1 ptr i p hf
    exact ⟨p, by rw [a1, a2], MarkFrame.refl_mark p, rfl, fun _ => rfl⟩
  · obtain ⟨a1, a2⟩ := word_weight_f2 ptr i p hf
    have e2 := cal_word_weight_function_2_state ptr i p
    obtain ⟨a, b, c, e⟩ := unique_words_frame ptr p
    refine ⟨unique_words ptr p, ?_, unique_words_frame ptr p,
      unique_words_tokenMarker ptr p, ?_⟩
    · rw [a1, a2, ← e2]
    · intro j
      exact word_weight_congr ptr j p (unique_words ptr p)
        (by rw [e]; rfl) (by rw [e]) (by rw [e]) (by rw [e]) (by rw [unique_words_idem])

theorem word_weight_marker (ptr i : Nat) (p : Parameters) (tm : Nat → Nat) :
    word_weight ptr i { p with tokenMarker := tm } = word_weight ptr i p :=
  word_weight_congr ptr i p _ rfl rfl rfl rfl (by rw [unique_words_marker])

theorem MarkFrame.threshold_eq {p q : Parameters} (h : MarkFrame p q) :
    q.wordWeightThreshold = p.wordWeightThreshold := by
  obtain ⟨a, b, c, e⟩ := h
  rw [e]

theorem MarkFrame.weightf_eq {p q : Parameters} (h : MarkFrame p q) :
    q.wordWeightFunction = p.wordWeightFunction := by
  obtain ⟨a, b, c, e⟩ := h
  rw [e]

theorem MarkFrame.cluster_eq_mark {p q : Parameters} (h : MarkFrame p q) (ptr : Nat) :
    q.cluster ptr = p.cluster ptr := by
  obtain ⟨a, b, c, e⟩ := h
  rw [e]
  rfl

theorem check_positions_general (ptr : Nat) (W : Nat → Double) (θ : ℚ) (L : List Nat) :
    ∀ p : Parameters, (p.wordWeightFunction = 1 ∨ p.wordWeightFunction = 2) →
      (∀ j, word_weight ptr j p = W j) → p.wordWeightThreshold = θ →
      ∃ q, check_positions ptr L p = some q ∧ MarkFrame p q ∧
        (∀ j, word_weight ptr j q = W j) ∧
        (∀ j, ((j ∈ L ∧ Double.lt (W j) θ = true) ∨
            (j = 0 ∧ ∃ i ∈ L, Double.lt (W i) θ = true)) → q.tokenMarker j = 1) ∧
        (∀ j, ¬ ((j ∈ L ∧ Double.lt (W j) θ = true) ∨
            (j = 0 ∧ ∃ i ∈ L, Double.lt (W i) θ = true)) →
          q.tokenMarker j = p.tokenMarker j) := by
  induction L with
  | nil =>
    intro p _ hW _
    refine ⟨p, rfl, MarkFrame.refl_mark p, hW, ?_, fun _ _ => rfl⟩
    intro j hj
    rcases hj with ⟨h, -⟩ | ⟨-, i, h, -⟩ <;> simp at h
  | cons i rest ih =>
    intro p hf hW hθ
    obtain ⟨p1, e1, fr1, tm1, ws1⟩ := cal_word_weight_spec ptr i p hf
    have ht1 : p1.wordWeightThreshold = θ := fr1.threshold_eq.trans hθ
    have hf1 : p1.wordWeightFunction = 1 ∨ p1.wordWeightFunction = 2 := by
      rw [fr1.weightf_eq]; exact hf
    have hW1 : ∀ j, word_weight ptr j p1 = W j := fun j => (ws1 j).trans (hW j)
    unfold check_positions
    rw [e1]
    simp only
    by_cases hlt : Double.lt (W i) θ = true
    · rw [if_pos (by rw [ht1, hW i]; exact hlt)]
      obtain ⟨q, c1, c2, c3, c4, c5⟩ := ih
        { p1 with tokenMarker := arrSet (arrSet p1.tokenMarker 0 1) i 1 } hf1
        (fun j => (word_weight_marker ptr j p1 _).trans (hW1 j)) ht1
      have hfr : MarkFrame p { p1 with tokenMarker := arrSet (arrSet p1.tokenMarker 0 1) i 1 } :=
        fr1.trans_mark ⟨_, p1.wordNumStr, p1.pCurrentCluster, rfl⟩
      refine ⟨q, c1, hfr.trans_mark c2, c3, ?_, ?_⟩
      · intro j hj
        by_cases hj' : (j ∈ rest ∧ Double.lt (W j) θ = true) ∨
            (j = 0 ∧ ∃ i ∈ rest, Double.lt (W i) θ = true)
        · exact c4 j hj'
        · rw [c5 j hj']
          show arrSet (arrSet p1.tokenMarker 0 1) i 1 j = 1
          unfold arrSet
          by_cases hji : j = i
          · rw [if_pos hji]
          · rw [if_neg hji]
            have hj0 : j = 0 := by
              rcases hj with ⟨h1, h2⟩ | ⟨h1, -⟩
              · rcases List.mem_cons.1 h1 with h | h
                · exact absurd h hji
                · exact absurd (Or.inl ⟨h, h2⟩) hj'
              · exact h1
            rw [if_pos hj0]
      · intro j hj
        have hji : j ≠ i := fun e => hj (Or.inl ⟨e ▸ List.mem_cons_self _ _, e ▸ hlt⟩)
        have hj0 : j ≠ 0 := fun e => hj (Or.inr ⟨e, i, List.mem_cons_self _ _, hlt⟩)
        have hj' : ¬ ((j ∈ rest ∧ Double.lt (W j) θ = true) ∨
            (j = 0 ∧ ∃ i ∈ rest, Double.lt (W i) θ = true)) := by
          rintro (⟨h1, h2⟩ | ⟨h1, -⟩)
          · exact hj (Or.inl ⟨List.mem_cons_of_mem _ h1, h2⟩)
          · exact hj0 h1
        rw [c5 j hj']
        show arrSet (arrSet p1.tokenMarker 0 1) i 1 j = _
        unfold arrSet
        rw [if_neg hji, if_neg hj0, tm1]
    · rw [if_neg (by rw [ht1, hW i]; exact hlt)]
      obtain ⟨q, c1, c2, c3, c4, c5⟩ := ih p1 hf1 hW1 ht1
      have hiff : ∀ j, ((j ∈ rest ∧ Double.lt (W j) θ = true) ∨
            (j = 0 ∧ ∃ i ∈ rest, Double.lt (W i) θ = true)) ↔
          ((j ∈ i :: rest ∧ Double.lt (W j) θ = true) ∨
            (j = 0 ∧ ∃ a ∈ i :: rest, Double.lt (W a) θ = true)) := by
        intro j
        simp only [List.mem_cons]
        constructor
        · rintro (⟨h1, h2⟩ | ⟨h1, a, h2, h3⟩)
          · exact Or.inl ⟨Or.inr h1, h2⟩
          · exact Or.inr ⟨h1, a, Or.inr h2, h3⟩
        · rintro (⟨h1 | h1, h2⟩ | ⟨h1, a, h2 | h2, h3⟩)
          · exact absurd (h1 ▸ h2) hlt
          · exact Or.inl ⟨h1, h2⟩
          · exact absurd (h2 ▸ h3) hlt
          · exact Or.inr ⟨h1, a, h2, h3⟩
      refine ⟨q, c1, fr1.trans_mark c2, c3, ?_, ?_⟩
      · intro j hj
        exact c4 j ((hiff j).2 hj)
      · intro j hj
        rw [c5 j (fun h => hj ((hiff j).1 h)), tm1]

theorem foldl_clear (L : List Nat) :
    ∀ (tm : Nat → Nat) (j : Nat),
      (L.foldl (fun m i => arrSet m i 0) tm) j = if j ∈ L then 0 else tm j := by
  induction L with
  | nil => intro tm j; simp
  | cons i L ih =>
    intro tm j
    rw [List.foldl_cons, ih]
    by_cases h1 : j ∈ L
    · simp [h1]
    · by_cases h2 : j = i
      · simp [h1, h2, arrSet]
      · simp [h1, h2, arrSet]

/-- `check_cluster_for_join_cluster`: the state `q` after the two loops, and
the call of `join_cluster_with_token` when `tokenMarker[0]` is 1. -/
theorem check_cluster_for_join_cluster_eq (ptr : Nat) (p : Parameters)
    (hf : p.wordWeightFunction = 1 ∨ p.wordWeightFunction = 2) :
    ∃ q, MarkFrame p q ∧
      (∀ j, word_weight ptr j q = word_weight ptr j p) ∧
      (∀ j ∈ List.range' 1 (p.cluster ptr).constants,
        q.tokenMarker j =
          if Double.lt (word_weight ptr j p) p.wordWeightThreshold = true then 1 else 0) ∧
      (q.tokenMarker 0 = 1 ↔ ∃ i ∈ List.range' 1 (p.cluster ptr).constants,
        Double.lt (word_weight ptr i p) p.wordWeightThreshold = true) ∧
      check_cluster_for_join_cluster ptr p = some
        (if q.tokenMarker 0 = 1 then
          join_cluster_with_token ptr (q.setCluster ptr (q.cluster ptr).flagged)
        else q) := by
  obtain ⟨pc, hpc⟩ : ∃ pc : Parameters, pc = { p with
      tokenMarker := (List.range ((p.cluster ptr).constants + 1)).foldl
        (fun m i => arrSet m i 0) p.tokenMarker } := ⟨_, rfl⟩
  have hfc : pc.wordWeightFunction = 1 ∨ pc.wordWeightFunction = 2 := by rw [hpc]; exact hf
  have hfr : MarkFrame p pc := ⟨_, p.wordNumStr, p.pCurrentCluster, hpc⟩
  have hwc : ∀ j, word_weight ptr j pc = word_weight ptr j p := by
    intro j; rw [hpc]; exact word_weight_marker ptr j p _
  have htc : pc.wordWeightThreshold = p.wordWeightThreshold := by rw [hpc]
  have hcl : ∀ j, pc.tokenMarker j
      = if j ∈ List.range ((p.cluster ptr).constants + 1) then 0 else p.tokenMarker j := by
    intro j; rw [hpc]; exact foldl_clear _ _ j
  obtain ⟨q, c1, c2, c3, c4, c5⟩ :=
    check_positions_general ptr (fun j => word_weight ptr j p) p.wordWeightThreshold
      (List.range' 1 (p.cluster ptr).constants) pc hfc hwc htc
  refine ⟨q, hfr.trans_mark c2, c3, ?_, ?_, ?_⟩
  · intro j hj
    by_cases hlt : Double.lt (word_weight ptr j p) p.wordWeightThreshold = true
    · rw [if_pos hlt]
      exact c4 j (Or.inl ⟨hj, hlt⟩)
    · rw [if_neg hlt]
      have hj0 : j ≠ 0 := by
        rw [List.mem_range'_1] at hj; omega
      rw [c5 j (by
        rintro (⟨-, h⟩ | ⟨h, -⟩)
        · exact hlt h
        · exact hj0 h), hcl j, if_pos (by
        rw [List.mem_range'_1] at hj
        rw [List.mem_range]; omega)]
  · constructor
    · intro h0
      by_contra hno
      have := c5 0 (by
        rintro (⟨h, -⟩ | ⟨-, h⟩)
        · rw [List.mem_range'_1] at h; omega
        · exact hno h)
      rw [this, hcl 0, if_pos (by rw [List.mem_range]; omega)] at h0
      exact absurd h0 (by decide)
    · intro h
      exact c4 0 (Or.inr ⟨rfl, h⟩)
  · unfold check_cluster_for_join_cluster
    simp only
    rw [← hpc, c1]
    simp only
    by_cases h0 : q.tokenMarker 0 = 1
    · rw [if_pos h0, if_pos h0]
      rfl
    · rw [if_neg h0, if_neg h0]

theorem JoinInv.of_marks {p0 p q : Parameters} {m s : Nat} {tr : List (Nat × (Nat → Nat))}
    (h : JoinInv p0 p m s tr) (hq : MarkFrame p q) : JoinInv p0 q m s tr := by
  obtain ⟨a, b, c, rfl⟩ := hq
  exact
    { csize := h.csize, cseed := h.cseed, len := h.len, token := h.token, family := h.family,
      biggest := h.biggest, clusterNum := h.clusterNum, weightf := h.weightf,
      threshold := h.threshold, heap := h.heap, old := h.old, other := h.other,
      joined := h.joined, records := h.records, fam := h.fam, famnodup := h.famnodup,
      inNum := h.inNum, outNum := h.outNum }

theorem adjust_cluster_with_token_instance_flag (ptr J : Nat) (q : Parameters)
    (hflag : (q.cluster ptr).bIsJoined = true) :
    ((adjust_cluster_with_token_instance ptr J q).cluster ptr).bIsJoined = true ∧
    (adjust_cluster_with_token_instance ptr J q).tokenMarker = q.tokenMarker := by
  unfold adjust_cluster_with_token_instance
  refine ⟨?_, rfl⟩
  rw [cluster_setCluster]
  by_cases h : J = ptr ∧ J < q.clusters.length
  · rw [if_pos h, adjust_record_eq, h.1]
    exact hflag
  · rw [if_neg h]
    exact hflag

theorem create_cluster_with_token_instance_flag (ptr hash : Nat) (e : Elem) (q : Parameters)
    (hptr : ptr < q.clusters.length) :
    (create_cluster_with_token_instance ptr hash e q).cluster ptr = q.cluster ptr ∧
    (create_cluster_with_token_instance ptr hash e q).tokenMarker = q.tokenMarker := by
  unfold create_cluster_with_token_instance
  refine ⟨?_, rfl⟩
  exact cluster_append_old _ _ _ hptr

/-- `join_cluster_with_token` keeps the flag of the cluster it joins and the
array `tokenMarker`. -/
theorem join_cluster_with_token_flag (ptr : Nat) (q : Parameters)
    (hptr : ptr < q.clusters.length) (hflag : (q.cluster ptr).bIsJoined = true) :
    ((join_cluster_with_token ptr q).cluster ptr).bIsJoined = true ∧
    (join_cluster_with_token ptr q).tokenMarker = q.tokenMarker := by
  obtain ⟨hash, hhash⟩ : ∃ hash, hash = str2hash (token_key (q.clusters.getD ptr {})
    q.tokenMarker q.token) q.clusterTableSize q.clusterTableSeed := ⟨_, rfl⟩
  obtain ⟨table, htable⟩ : ∃ table, table = add_elem (token_key (q.clusters.getD ptr {})
    q.tokenMarker q.token) q.ppClusterTable q.clusterTableSize q.clusterTableSeed := ⟨_, rfl⟩
  obtain ⟨q2f, hq2f⟩ : ∃ q2f : Elem → Parameters, q2f = fun pElem =>
      (if pElem.count = 1 then
        create_cluster_with_token_instance ptr hash pElem
          { q with joinedClusterInputNum := q.joinedClusterInputNum + 1,
                   ppClusterTable := table,
                   joinedClusterOutputNum := q.joinedClusterOutputNum + 1 }
      else { q with joinedClusterInputNum := q.joinedClusterInputNum + 1,
                    ppClusterTable := table }) := ⟨_, rfl⟩
  have hP : ∀ pElem, ((q2f pElem).cluster ptr).bIsJoined = true ∧
      (q2f pElem).tokenMarker = q.tokenMarker := by
    intro pElem
    rw [hq2f]
    simp only
    by_cases hc : pElem.count = 1
    · rw [if_pos hc]
      obtain ⟨a1, a2⟩ := create_cluster_with_token_instance_flag ptr hash pElem
        { q with joinedClusterInputNum := q.joinedClusterInputNum + 1,
                 ppClusterTable := table,
                 joinedClusterOutputNum := q.joinedClusterOutputNum + 1 } hptr
      exact ⟨by rw [a1]; exact hflag, a2⟩
    · rw [if_neg hc]
      exact ⟨hflag, rfl⟩
  have hshape : join_cluster_with_token ptr q =
      match front table hash with
      | none => { q with joinedClusterInputNum := q.joinedClusterInputNum + 1,
                         ppClusterTable := table }
      | some pElem =>
        match front (q2f pElem).ppClusterTable hash with
        | none => q2f pElem
        | some pElem2 =>
          match pElem2.pCluster with
          | none => q2f pElem
          | some J => adjust_cluster_with_token_instance ptr J (q2f pElem) := by
    rw [hq2f, htable, hhash]
    rfl
  rw [hshape]
  cases h1 : front table hash with
  | none => exact ⟨hflag, rfl⟩
  | some pElem =>
    simp only
    cases h2 : front (q2f pElem).ppClusterTable hash with
    | none => exact hP pElem
    | some pElem2 =>
      simp only
      cases h3 : pElem2.pCluster with
      | none => exact hP pElem
      | some J =>
        simp only
        obtain ⟨b1, b2⟩ := adjust_cluster_with_token_instance_flag ptr J (q2f pElem)
          (hP pElem).1
        exact ⟨b1, b2.trans (hP pElem).2⟩

theorem JoinInv.constants_eq {p0 p : Parameters} {m s : Nat} {tr : List (Nat × (Nat → Nat))}
    (h : JoinInv p0 p m s tr) (ptr : Nat) (hptr : ptr < p0.clusters.length) :
    (p.cluster ptr).constants = (p0.cluster ptr).constants := by
  rw [h.old ptr hptr]
  split <;> rfl

/-- The first loop of `join_cluster` keeps the invariant, and the clusters it
joins are those of `join_trace`. -/
theorem join_check_inv (p0 : Parameters) (m s : Nat) (hm : 0 < m)
    (hf : p0.wordWeightFunction = 1 ∨ p0.wordWeightFunction = 2)
    (hsep : CLUSTERSEP ∉ p0.token)
    (htok : ∀ e ∈ p0.ppClusterTable.flatten, p0.token ∉ key_words e.pKey) :
    ∀ (order : List Nat) (p : Parameters) (tr : List (Nat × (Nat → Nat))),
      JoinInv p0 p m s tr → (∀ ptr ∈ order, ptr < p0.clusters.length) →
      ∃ p', join_check order p = some p' ∧ JoinInv p0 p' m s (tr ++ join_trace order p) := by
  intro order
  induction order with
  | nil =>
    intro p tr h _
    exact ⟨p, rfl, by simpa [join_trace] using h⟩
  | cons ptr rest ih =>
    intro p tr h hvalid
    have hptr := hvalid ptr (List.mem_cons_self _ _)
    have hfp : p.wordWeightFunction = 1 ∨ p.wordWeightFunction = 2 := by
      rw [h.weightf]; exact hf
    obtain ⟨q, c1, c2, c3, c4, c5⟩ := check_cluster_for_join_cluster_eq ptr p hfp
    have hq := h.of_marks c1
    unfold join_check join_trace
    rw [c5]
    simp only
    by_cases h0 : q.tokenMarker 0 = 1
    · simp only [if_pos h0]
      obtain ⟨i, hi, hlt⟩ := c4.1 h0
      have hmi : q.tokenMarker i ≠ 0 := by
        rw [c3 i hi, if_pos hlt]; decide
      have hi0 : i ∈ List.range' 1 (p0.cluster ptr).constants := by
        rw [← h.constants_eq ptr hptr]; exact hi
      have hlenq : ptr < q.clusters.length := lt_of_lt_of_le hptr hq.heap
      have hflagq : ((q.setCluster ptr (q.cluster ptr).flagged).cluster ptr).bIsJoined = true := by
        rw [cluster_setCluster, if_pos ⟨rfl, hlenq⟩]
        rfl
      have htm := (join_cluster_with_token_flag ptr (q.setCluster ptr (q.cluster ptr).flagged)
        (by simpa [Parameters.setCluster] using hlenq) hflagq).2
      have htm' : (join_cluster_with_token ptr
          (q.setCluster ptr (q.cluster ptr).flagged)).tokenMarker = q.tokenMarker := htm
      have hstep : JoinInv p0 (join_cluster_with_token ptr
          (q.setCluster ptr (q.cluster ptr).flagged)) m s (tr ++ [(ptr, q.tokenMarker)]) := by
        by_cases hmer : merged p0 tr (joined_key p0 (ptr, q.tokenMarker)) = []
        · exact hq.step_new hm ptr hptr hmer
            (lookup_fresh p0 m s hsep htok ptr q.tokenMarker i hi0 hmi)
        · exact hq.step_old hm ptr hptr hmer
      obtain ⟨p', d1, d2⟩ := ih _ _ hstep (fun a ha => hvalid a (List.mem_cons_of_mem _ ha))
      refine ⟨p', d1, ?_⟩
      rw [htm', if_pos h0]
      simpa [List.append_assoc] using d2
    · simp only [if_neg h0]
      obtain ⟨p', d1, d2⟩ := ih q tr hq (fun a ha => hvalid a (List.mem_cons_of_mem _ ha))
      exact ⟨p', d1, by simpa using d2⟩

theorem JoinInv.init (p0 : Parameters) (m s : Nat) (hsize : p0.clusterTableSize = m)
    (hseed : p0.clusterTableSeed = s) (hlen : p0.ppClusterTable.length = m)
    (hempty : ∀ i, p0.pClusterWithTokenFamily i = []) : JoinInv p0 p0 m s [] :=
  { csize := hsize, cseed := hseed, len := hlen, token := rfl, family := rfl, biggest := rfl,
    clusterNum := rfl, weightf := rfl, threshold := rfl, heap := le_refl _,
    old := fun ptr _ => by simp,
    other := fun _ _ => rfl,
    joined := fun K hK => absurd rfl hK,
    records := fun J h1 h2 => absurd h2 (by omega),
    fam := fun i J hJ => by rw [hempty i] at hJ; simp at hJ,
    famnodup := fun i => by rw [hempty i]; exact List.nodup_nil,
    inNum := rfl, outNum := rfl }

/-! ## The second loop of `join_cluster` -/

theorem lookup_elem_set_count (T : Table) (m s : Nat) (key K : Key) (count : Nat) :
    lookup (elem_set_count key count T m s) m s K =
      if K = key then (lookup T m s K).map (fun e => { e with count := count })
      else lookup T m s K := by
  unfold lookup elem_set_count
  by_cases hh : str2hash key m s = str2hash K m s
  · by_cases hlen : str2hash key m s < T.length
    · simp only [hh] at hlen ⊢
      rw [getD_set_same _ _ _ hlen]
      exact chain_modify_find key K (fun e => { e with count := count }) (fun _ => rfl) _
    · have e1 : T.set (str2hash key m s) (chain_modify key
          (fun e => { e with count := count }) (T.getD (str2hash key m s) [])) = T := by
        apply List.set_eq_of_length_le; omega
      simp only [] at e1 ⊢
      rw [e1]
      have e2 : T.getD (str2hash K m s) [] = [] := by
        rw [← hh, List.getD_eq_getElem?_getD, List.getElem?_eq_none (by omega)]; rfl
      rw [e2]; simp
  · have hne : K ≠ key := by rintro rfl; exact hh rfl
    simp only [hne, if_false]
    rw [getD_set_other _ _ _ _ hh]

theorem join_equal_frame (order : List Nat) :
    ∀ p : Parameters, join_equal order p
      = { p with ppClusterTable := (join_equal order p).ppClusterTable } := by
  induction order with
  | nil => intro p; rfl
  | cons J rest ih =>
    intro p
    unfold join_equal
    rw [List.foldl_cons]
    have := ih { p with ppClusterTable := (elem_set_count (p.cluster J).pElem
      (p.cluster J).count p.ppClusterTable p.clusterTableSize p.clusterTableSeed) }
    unfold join_equal at this
    rw [this]

theorem join_equal_lookup (m s : Nat) (order : List Nat) :
    ∀ p : Parameters, p.clusterTableSize = m → p.clusterTableSeed = s →
      (∀ J ∈ order, ∀ J' ∈ order, (p.cluster J).pElem = (p.cluster J').pElem →
        (p.cluster J).count = (p.cluster J').count) →
      ∀ K, lookup (join_equal order p).ppClusterTable m s K =
        match order.find? (fun J => decide ((p.cluster J).pElem = K)) with
        | some J => (lookup p.ppClusterTable m s K).map
            (fun e => { e with count := (p.cluster J).count })
        | none => lookup p.ppClusterTable m s K := by
  induction order with
  | nil => intro p _ _ _ K; rfl
  | cons J0 rest ih =>
    intro p hsize hseed hkey K
    obtain ⟨p1, hp1⟩ : ∃ p1 : Parameters, p1 = { p with ppClusterTable :=
      (elem_set_count (p.cluster J0).pElem (p.cluster J0).count
        p.ppClusterTable p.clusterTableSize p.clusterTableSeed) } := ⟨_, rfl⟩
    have hstep : join_equal (J0 :: rest) p = join_equal rest p1 := by
      unfold join_equal
      rw [List.foldl_cons, hp1]
    have hcl : ∀ a, p1.cluster a = p.cluster a := by intro a; rw [hp1]; rfl
    have hl1 : lookup p1.ppClusterTable m s K =
        if K = (p.cluster J0).pElem then
          (lookup p.ppClusterTable m s K).map (fun e => { e with count := (p.cluster J0).count })
        else lookup p.ppClusterTable m s K := by
      rw [hp1]
      show lookup (elem_set_count _ _ p.ppClusterTable p.clusterTableSize p.clusterTableSeed)
        m s K = _
      rw [hsize, hseed]
      exact lookup_elem_set_count _ m s _ K _
    have ih' := ih p1 (by rw [hp1]; exact hsize) (by rw [hp1]; exact hseed)
      (fun a ha b hb => by
        rw [hcl a, hcl b]
        exact hkey a (List.mem_cons_of_mem _ ha) b (List.mem_cons_of_mem _ hb)) K
    rw [hstep, ih', hl1]
    simp only [hcl]
    rw [List.find?_cons]
    by_cases hK : (p.cluster J0).pElem = K
    · simp only [hK, decide_True, if_true]
      cases hfind : rest.find? (fun J => decide ((p.cluster J).pElem = K)) with
      | none => rfl
      | some J =>
        simp only
        have hJ := List.mem_of_find?_eq_some hfind
        have hJk : (p.cluster J).pElem = K := by
          have := List.find?_some hfind
          simpa using this
        have hc := hkey J (List.mem_cons_of_mem _ hJ) J0 (List.mem_cons_self _ _)
          (by rw [hJk, hK])
        rw [hc]
        cases lookup p.ppClusterTable m s K <;> rfl
    · have hK' : ¬ K = (p.cluster J0).pElem := fun e => hK e.symm
      simp only [hK, decide_False, hK', if_false]

theorem join_trace_mem (order : List Nat) :
    ∀ (p : Parameters) (x : Nat × (Nat → Nat)), x ∈ join_trace order p → x.1 ∈ order := by
  induction order with
  | nil => intro p x hx; simp [join_trace] at hx
  | cons ptr rest ih =>
    intro p x hx
    unfold join_trace at hx
    cases hc : check_cluster_for_join_cluster ptr p with
    | none => rw [hc] at hx; simp at hx
    | some q =>
      rw [hc] at hx
      simp only [List.mem_append] at hx
      rcases hx with hx | hx
      · by_cases h0 : q.tokenMarker 0 = 1
        · rw [if_pos h0, List.mem_singleton] at hx
          rw [hx]
          exact List.mem_cons_self _ _
        · rw [if_neg h0] at hx
          simp at hx
      · exact List.mem_cons_of_mem _ (ih q x hx)

theorem merged_mem {p0 : Parameters} {tr : List (Nat × (Nat → Nat))} {K : Key}
    {x : Nat × (Nat → Nat)} (h : x ∈ merged p0 tr K) : x ∈ tr ∧ joined_key p0 x = K := by
  unfold merged at h
  rw [List.mem_filter] at h
  exact ⟨h.1, by simpa using h.2⟩

theorem JoinInv.record_key {p0 p : Parameters} {m s : Nat} {tr : List (Nat × (Nat → Nat))}
    (h : JoinInv p0 p m s tr) (J : Nat) (h1 : p0.clusters.length ≤ J)
    (h2 : J < p.clusters.length) :
    merged p0 tr (p.cluster J).pElem ≠ [] ∧
    p.cluster J = joined_record p0 (p.cluster J).pElem (merged p0 tr (p.cluster J).pElem) ∧
    ∃ e, lookup p.ppClusterTable m s (p.cluster J).pElem = some e ∧ e.pCluster = some J ∧
      e.count = (merged p0 tr (p.cluster J).pElem).length := by
  obtain ⟨K, e, a1, a2, a3⟩ := h.records J h1 h2
  obtain ⟨e', J', b1, b2, b3, b4, b5, b6, b7⟩ := h.joined K a1
  rw [a2] at b1
  cases b1
  rw [a3] at b3
  cases b3
  have hk : (p.cluster J).pElem = K := by
    rw [b6]; exact joined_record_pElem p0 K _ a1
  rw [hk]
  exact ⟨a1, b6, e, a2, a3, b2⟩

theorem JoinInv.key_inj {p0 p : Parameters} {m s : Nat} {tr : List (Nat × (Nat → Nat))}
    (h : JoinInv p0 p m s tr) (J J' : Nat) (h1 : p0.clusters.length ≤ J)
    (h2 : J < p.clusters.length) (h1' : p0.clusters.length ≤ J') (h2' : J' < p.clusters.length)
    (hk : (p.cluster J).pElem = (p.cluster J').pElem) : J = J' := by
  obtain ⟨-, -, e, a1, a2, -⟩ := h.record_key J h1 h2
  obtain ⟨-, -, e', b1, b2, -⟩ := h.record_key J' h1' h2'
  rw [hk, b1] at a1
  cases a1
  rw [b2] at a2
  cases a2
  rfl

theorem mem_token_family_order (p : Parameters) (J : Nat) :
    J ∈ token_family_order p ↔
      ∃ i, 1 ≤ i ∧ i ≤ p.biggestConstants ∧ J ∈ p.pClusterWithTokenFamily i := by
  unfold token_family_order
  rw [List.mem_flatMap]
  constructor
  · rintro ⟨i, hi, hJ⟩
    rw [List.mem_range'_1] at hi
    exact ⟨i, hi.1, by omega, hJ⟩
  · rintro ⟨i, h1, h2, hJ⟩
    exact ⟨i, by rw [List.mem_range'_1]; omega, hJ⟩

/-- The state after `join_cluster`: the clusters of the trace are flagged,
every key under which clusters were joined has a table record whose `pCluster`
is the joined record, in the bucket of its constants, and whose count is the
count of that record, and the other table records are those of before. -/
theorem join_cluster_inv (p0 : Parameters) (m s : Nat) (hm : 0 < m)
    (hsize : p0.clusterTableSize = m) (hseed : p0.clusterTableSeed = s)
    (hlen : p0.ppClusterTable.length = m)
    (hempty : ∀ i, p0.pClusterWithTokenFamily i = [])
    (hf : p0.wordWeightFunction = 1 ∨ p0.wordWeightFunction = 2)
    (hsep : CLUSTERSEP ∉ p0.token)
    (htok : ∀ e ∈ p0.ppClusterTable.flatten, p0.token ∉ key_words e.pKey)
    (hvalid : ∀ ptr ∈ family_order p0, ptr < p0.clusters.length)
    (hconst : ∀ ptr ∈ family_order p0, 1 ≤ (p0.cluster ptr).constants ∧
      (p0.cluster ptr).constants ≤ p0.biggestConstants) :
    ∃ p1 p : Parameters, join_cluster p0 = some p ∧
      JoinInv p0 p1 m s (join_trace (family_order p0) p0) ∧
      p = { p1 with ppClusterTable := p.ppClusterTable } ∧
      (∀ K, merged p0 (join_trace (family_order p0) p0) K = [] →
        lookup p.ppClusterTable m s K = lookup p0.ppClusterTable m s K) ∧
      (∀ J, J ∈ token_family_order p ↔ p0.clusters.length ≤ J ∧ J < p.clusters.length) ∧
      (∀ J, p0.clusters.length ≤ J → J < p.clusters.length →
        ∃ e, lookup p.ppClusterTable m s (p.cluster J).pElem = some e ∧
          e.pCluster = some J ∧ e.count = (p.cluster J).count) := by
  obtain ⟨p1, a1, a2⟩ := join_check_inv p0 m s hm hf hsep htok (family_order p0) p0 []
    (JoinInv.init p0 m s hsize hseed hlen hempty) hvalid
  rw [List.nil_append] at a2
  obtain ⟨tr, htr⟩ : ∃ tr, tr = join_trace (family_order p0) p0 := ⟨_, rfl⟩
  rw [← htr] at a2 ⊢
  obtain ⟨p, hp⟩ : ∃ p, p = join_equal (token_family_order p1) p1 := ⟨_, rfl⟩
  have hfr := join_equal_frame (token_family_order p1) p1
  rw [← hp] at hfr
  have hcl : ∀ a, p.cluster a = p1.cluster a := by intro a; rw [hfr]; rfl
  have hlen1 : p.clusters.length = p1.clusters.length := by rw [hfr]
  have hfam : p.pClusterWithTokenFamily = p1.pClusterWithTokenFamily := by rw [hfr]
  have hbig : p.biggestConstants = p1.biggestConstants := by rw [hfr]
  have hord : token_family_order p = token_family_order p1 := by
    unfold token_family_order
    rw [hfam, hbig]
  have hmemJ : ∀ J, J ∈ token_family_order p1 ↔
      p0.clusters.length ≤ J ∧ J < p1.clusters.length := by
    intro J
    rw [mem_token_family_order]
    constructor
    · rintro ⟨i, -, -, hJ⟩
      obtain ⟨d1, d2, -⟩ := a2.fam i J hJ
      exact ⟨d1, d2⟩
    · rintro ⟨h1, h2⟩
      obtain ⟨b1, b2, -⟩ := a2.record_key J h1 h2
      obtain ⟨e, J', c1, c2, c3, c4, c5, c6, c7⟩ := a2.joined _ b1
      obtain ⟨-, -, e2, d1, d2, -⟩ := a2.record_key J h1 h2
      rw [d1] at c1
      cases c1
      rw [d2] at c3
      cases c3
      have hb : 1 ≤ (p1.cluster J).constants ∧
          (p1.cluster J).constants ≤ p1.biggestConstants := by
        cases hm' : merged p0 tr (p1.cluster J).pElem with
        | nil => exact absurd hm' b1
        | cons x rest =>
          have hx : x ∈ merged p0 tr (p1.cluster J).pElem := by
            rw [hm']; exact List.mem_cons_self _ _
          have hx1 := (merged_mem hx).1
          rw [htr] at hx1
          have hx2 := join_trace_mem _ _ _ hx1
          have hc := hconst x.1 hx2
          have e1 : (p1.cluster J).constants = (p0.cluster x.1).constants := by
            rw [b2, hm', (joined_record_fields p0 _ x rest).1]
          rw [e1, a2.biggest]
          exact hc
      exact ⟨(p1.cluster J).constants, hb.1, hb.2, c7⟩
  have hkey : ∀ J ∈ token_family_order p1, ∀ J' ∈ token_family_order p1,
      (p1.cluster J).pElem = (p1.cluster J').pElem →
      (p1.cluster J).count = (p1.cluster J').count := by
    intro J hJ J' hJ' hk
    have h1 := (hmemJ J).1 hJ
    have h2 := (hmemJ J').1 hJ'
    rw [a2.key_inj J J' h1.1 h1.2 h2.1 h2.2 hk]
  have hlook := join_equal_lookup m s (token_family_order p1) p1 a2.csize a2.cseed hkey
  rw [← hp] at hlook
  refine ⟨p1, p, ?_, a2, hfr, ?_, ?_, ?_⟩
  · unfold join_cluster
    rw [a1, hp]
  · intro K hK
    rw [hlook K]
    cases hfind : (token_family_order p1).find? (fun J => decide ((p1.cluster J).pElem = K)) with
    | none => exact a2.other K hK
    | some J =>
      exfalso
      have hJ := (hmemJ J).1 (List.mem_of_find?_eq_some hfind)
      have hJk : (p1.cluster J).pElem = K := by
        have := List.find?_some hfind
        simpa using this
      have := (a2.record_key J hJ.1 hJ.2).1
      rw [hJk] at this
      exact this hK
  · intro J
    rw [hord, hlen1]
    exact hmemJ J
  · intro J h1 h2
    rw [hlen1] at h2
    obtain ⟨b1, b2, e, b3, b4, b5⟩ := a2.record_key J h1 h2
    rw [hcl J, hlook]
    cases hfind : (token_family_order p1).find?
        (fun J' => decide ((p1.cluster J').pElem = (p1.cluster J).pElem)) with
    | none =>
      exfalso
      have := List.find?_eq_none.1 hfind J ((hmemJ J).2 ⟨h1, h2⟩)
      simp at this
    | some J' =>
      have hJ' := (hmemJ J').1 (List.mem_of_find?_eq_some hfind)
      have hJk : (p1.cluster J').pElem = (p1.cluster J).pElem := by
        have := List.find?_some hfind
        simpa using this
      have hJJ := a2.key_inj J' J hJ'.1 hJ'.2 h1 h2 hJk
      subst hJJ
      simp only [b3, Option.map_some']
      exact ⟨_, rfl, b4, rfl⟩

/-! ## Joining clusters: the trace -/

theorem token_key_fold_keyOf (c : Cluster) (mk : Nat → Nat) (tk : Key) (L : List Nat) :
    ∀ init : Key,
      L.foldl (fun key i => (if mk i = 0 then key ++ c.word i else key ++ tk) ++ [CLUSTERSEP])
        init
      = init ++ keyOf (L.map (fun i => if mk i = 0 then c.word i else tk)) := by
  induction L with
  | nil => intro init; simp [keyOf]
  | cons i L ih =>
    intro init
    rw [List.foldl_cons, ih, List.map_cons, keyOf_cons]
    by_cases h : mk i = 0 <;> simp [h]

theorem token_key_eq_keyOf (c : Cluster) (mk : Nat → Nat) (tk : Key) :
    token_key c mk tk
      = keyOf ((List.range' 1 c.constants).map (fun i => if mk i = 0 then c.word i else tk)) := by
  unfold token_key
  rw [token_key_fold_keyOf, List.nil_append]

/-- Two clusters with the same joined key have the same number of constants,
the same marked positions and the same words at the other positions, when no
word holds the separator and `token` is none of the words. -/
theorem token_key_inj (c d : Cluster) (mk mk' : Nat → Nat) (tk : Key)
    (hsep : CLUSTERSEP ∉ tk)
    (hc1 : ∀ i ∈ List.range' 1 c.constants, CLUSTERSEP ∉ c.word i ∧ c.word i ≠ tk)
    (hd1 : ∀ i ∈ List.range' 1 d.constants, CLUSTERSEP ∉ d.word i ∧ d.word i ≠ tk)
    (h : token_key c mk tk = token_key d mk' tk) :
    c.constants = d.constants ∧
    ∀ i ∈ List.range' 1 c.constants, (mk i = 0 ↔ mk' i = 0) ∧ (mk i = 0 → c.word i = d.word i) := by
  rw [token_key_eq_keyOf, token_key_eq_keyOf] at h
  have hl := keyOf_injective _ _ (by
      intro w hw
      rw [List.mem_map] at hw
      obtain ⟨i, hi, rfl⟩ := hw
      by_cases hm : mk i = 0
      · rw [if_pos hm]; exact (hc1 i hi).1
      · rw [if_neg hm]; exact hsep) (by
      intro w hw
      rw [List.mem_map] at hw
      obtain ⟨i, hi, rfl⟩ := hw
      by_cases hm : mk' i = 0
      · rw [if_pos hm]; exact (hd1 i hi).1
      · rw [if_neg hm]; exact hsep) h
  have hk : c.constants = d.constants := by
    have := congrArg List.length hl
    simpa using this
  refine ⟨hk, ?_⟩
  intro i hi
  have hid : i ∈ List.range' 1 d.constants := by rw [← hk]; exact hi
  rw [← hk] at hl
  have hget := (List.map_inj_left.1 hl) i hi
  by_cases hm : mk i = 0
  · by_cases hm' : mk' i = 0
    · rw [if_pos hm, if_pos hm'] at hget
      exact ⟨⟨fun _ => hm', fun _ => hm⟩, fun _ => hget⟩
    · rw [if_pos hm, if_neg hm'] at hget
      exact absurd hget (hc1 i hi).2
  · by_cases hm' : mk' i = 0
    · rw [if_neg hm, if_pos hm'] at hget
      exact absurd hget.symm (hd1 i hid).2
    · exact ⟨⟨fun e => absurd e hm, fun e => absurd e hm'⟩, fun e => absurd e hm⟩

theorem join_trace_cons (ptr : Nat) (rest : List Nat) (p q : Parameters)
    (h : check_cluster_for_join_cluster ptr p = some q) :
    join_trace (ptr :: rest) p
      = (if q.tokenMarker 0 = 1 then [(ptr, q.tokenMarker)] else []) ++ join_trace rest q := by
  conv_lhs => unfold join_trace
  rw [h]

theorem join_trace_sublist (order : List Nat) :
    ∀ p : Parameters, ((join_trace order p).map Prod.fst).Sublist order := by
  induction order with
  | nil => intro p; simp [join_trace]
  | cons ptr rest ih =>
    intro p
    cases hc : check_cluster_for_join_cluster ptr p with
    | none =>
      unfold join_trace
      rw [hc]
      simp
    | some q =>
      rw [join_trace_cons ptr rest p q hc, List.map_append]
      by_cases h0 : q.tokenMarker 0 = 1
      · rw [if_pos h0]
        exact List.Sublist.cons₂ _ (ih q)
      · rw [if_neg h0]
        exact List.Sublist.cons _ (ih q)

/-- The markers of a joined cluster are 0 or 1 at its positions, 1 at one of
them at least, and 1 exactly at the positions whose weight, computed when the
cluster is checked, is below the threshold. -/
theorem join_trace_marks (p0 : Parameters) (m s : Nat) (hm : 0 < m)
    (hf : p0.wordWeightFunction = 1 ∨ p0.wordWeightFunction = 2)
    (hsep : CLUSTERSEP ∉ p0.token)
    (htok : ∀ e ∈ p0.ppClusterTable.flatten, p0.token ∉ key_words e.pKey) :
    ∀ (order : List Nat) (p : Parameters) (tr : List (Nat × (Nat → Nat))),
      JoinInv p0 p m s tr → (∀ ptr ∈ order, ptr < p0.clusters.length) →
      ∀ x ∈ join_trace order p,
        (∀ i ∈ List.range' 1 (p0.cluster x.1).constants, x.2 i = 0 ∨ x.2 i = 1) ∧
        ∃ i ∈ List.range' 1 (p0.cluster x.1).constants, x.2 i = 1 := by
  intro order
  induction order with
  | nil => intro p tr _ _ x hx; simp [join_trace] at hx
  | cons ptr rest ih =>
    intro p tr h hvalid x hx
    have hptr := hvalid ptr (List.mem_cons_self _ _)
    have hfp : p.wordWeightFunction = 1 ∨ p.wordWeightFunction = 2 := by
      rw [h.weightf]; exact hf
    obtain ⟨q, c1, c2, c3, c4, c5⟩ := check_cluster_for_join_cluster_eq ptr p hfp
    obtain ⟨p', d1, d2⟩ := join_check_inv p0 m s hm hf hsep htok [ptr] p tr h
      (fun a ha => by rw [List.mem_singleton.1 ha]; exact hptr)
    have hp' : check_cluster_for_join_cluster ptr p = some p' := by
      unfold join_check at d1
      cases hc : check_cluster_for_join_cluster ptr p with
      | none => rw [hc] at d1; simp at d1
      | some r =>
        rw [hc] at d1
        simp only [join_check] at d1
        rw [d1]
    have htm : p'.tokenMarker = q.tokenMarker := by
      rw [c5] at hp'
      cases hp'
      by_cases h0 : q.tokenMarker 0 = 1
      · rw [if_pos h0]
        have hlenq : ptr < q.clusters.length := lt_of_lt_of_le hptr (h.of_marks c1).heap
        exact (join_cluster_with_token_flag ptr (q.setCluster ptr (q.cluster ptr).flagged)
          (by simpa [Parameters.setCluster] using hlenq) (by
            rw [cluster_setCluster, if_pos ⟨rfl, hlenq⟩]; rfl)).2
      · rw [if_neg h0]
    rw [join_trace_cons ptr rest p p' hp', List.mem_append] at hx
    rcases hx with hx | hx
    · by_cases h0 : p'.tokenMarker 0 = 1
      · rw [if_pos h0, List.mem_singleton] at hx
        rw [hx, htm]
        simp only
        rw [← h.constants_eq ptr hptr]
        constructor
        · intro i hi
          rw [c3 i hi]
          by_cases hlt : Double.lt (word_weight ptr i p) p.wordWeightThreshold = true
          · right; rw [if_pos hlt]
          · left; rw [if_neg hlt]
        · rw [htm] at h0
          obtain ⟨i, hi, hlt⟩ := c4.1 h0
          exact ⟨i, hi, by rw [c3 i hi, if_pos hlt]⟩
      · rw [if_neg h0] at hx
        simp at hx
    · exact ih p' _ d2 (fun a ha => hvalid a (List.mem_cons_of_mem _ ha)) x hx

/-! ## Joining clusters: the joined records -/

/-- The facts of `join_cluster_inv` about a record of the buckets of the joined
clusters. -/
theorem join_cluster_record (p0 : Parameters) (m s : Nat) (h : JoinReady p0 m s) :
    ∃ p : Parameters, join_cluster p0 = some p ∧
      (∀ J ∈ token_family_order p,
        merged p0 (join_trace (family_order p0) p0) (p.cluster J).pElem ≠ [] ∧
        p.cluster J = joined_record p0 (p.cluster J).pElem
          (merged p0 (join_trace (family_order p0) p0) (p.cluster J).pElem)) ∧
      (∀ x ∈ join_trace (family_order p0) p0, ∃ J ∈ token_family_order p,
        (p.cluster J).pElem = joined_key p0 x ∧
        ∀ J' ∈ token_family_order p, (p.cluster J').pElem = joined_key p0 x → J' = J) := by
  obtain ⟨p1, p, a1, a2, a3, a4, a5, a6⟩ := join_cluster_inv p0 m s h.size_pos h.csize h.cseed
    h.len h.empty h.weightf h.sep h.tok h.valid h.consts
  have hcl : ∀ a, p.cluster a = p1.cluster a := by intro a; rw [a3]; rfl
  have hlen1 : p.clusters.length = p1.clusters.length := by rw [a3]
  refine ⟨p, a1, ?_, ?_⟩
  · intro J hJ
    obtain ⟨h1, h2⟩ := (a5 J).1 hJ
    rw [hlen1] at h2
    obtain ⟨b1, b2, -⟩ := a2.record_key J h1 h2
    rw [hcl J]
    exact ⟨b1, b2⟩
  · intro x hx
    have hne : merged p0 (join_trace (family_order p0) p0) (joined_key p0 x) ≠ [] := by
      intro e
      have : x ∈ merged p0 (join_trace (family_order p0) p0) (joined_key p0 x) := by
        unfold merged
        rw [List.mem_filter]
        exact ⟨hx, by simp⟩
      rw [e] at this
      simp at this
    obtain ⟨e, J, c1, c2, c3, c4, c5, c6, c7⟩ := a2.joined _ hne
    have hk : (p1.cluster J).pElem = joined_key p0 x := by
      rw [c6]; exact joined_record_pElem p0 _ _ hne
    refine ⟨J, (a5 J).2 ⟨c4, by rw [hlen1]; exact c5⟩, by rw [hcl J]; exact hk, ?_⟩
    intro J' hJ' hk'
    obtain ⟨h1, h2⟩ := (a5 J').1 hJ'
    rw [hlen1] at h2
    rw [hcl J'] at hk'
    exact a2.key_inj J' J h1 h2 c4 c5 (hk'.trans hk.symm)

/-- C14: after `join_cluster`, for every joined candidate `J` (a record of the
buckets `pClusterWithTokenFamily`) the count is the sum of the counts of the
retained candidates whose joined key is the key of `J`, and for every gap
position `i` the lower bound of `J` is the smallest lower bound and the upper
bound of `J` the largest upper bound of these candidates.  Every candidate that
is joined has exactly one such record with its joined key, and two candidates
with the same number of constants that agree on the marked positions and on
the words at the other positions have the same joined key, hence the same
record.  The joined candidates are those of `join_trace`, each retained
candidate at most once. -/
theorem join_cluster_counts (p0 : Parameters) (m s : Nat) (h : JoinReady p0 m s) :
    ∃ p : Parameters, join_cluster p0 = some p ∧
      ((join_trace (family_order p0) p0).map Prod.fst).Sublist (family_order p0) ∧
      (∀ J ∈ token_family_order p,
        merged p0 (join_trace (family_order p0) p0) (p.cluster J).pElem ≠ [] ∧
        (p.cluster J).count =
          ((merged p0 (join_trace (family_order p0) p0) (p.cluster J).pElem).map
            (fun x => (p0.cluster x.1).count)).sum ∧
        ∀ i, i ≤ (p.cluster J).constants →
          (∀ x ∈ merged p0 (join_trace (family_order p0) p0) (p.cluster J).pElem,
            (p.cluster J).fullWildcard (i * 2) ≤ (p0.cluster x.1).fullWildcard (i * 2)) ∧
          (∃ x ∈ merged p0 (join_trace (family_order p0) p0) (p.cluster J).pElem,
            (p.cluster J).fullWildcard (i * 2) = (p0.cluster x.1).fullWildcard (i * 2)) ∧
          (∀ x ∈ merged p0 (join_trace (family_order p0) p0) (p.cluster J).pElem,
            (p0.cluster x.1).fullWildcard (i * 2 + 1)
              ≤ (p.cluster J).fullWildcard (i * 2 + 1)) ∧
          (∃ x ∈ merged p0 (join_trace (family_order p0) p0) (p.cluster J).pElem,
            (p.cluster J).fullWildcard (i * 2 + 1)
              = (p0.cluster x.1).fullWildcard (i * 2 + 1))) ∧
      (∀ x ∈ join_trace (family_order p0) p0, ∃ J ∈ token_family_order p,
        (p.cluster J).pElem = joined_key p0 x ∧
        ∀ J' ∈ token_family_order p, (p.cluster J').pElem = joined_key p0 x → J' = J) ∧
      (∀ x ∈ join_trace (family_order p0) p0, ∀ y ∈ join_trace (family_order p0) p0,
        (p0.cluster x.1).constants = (p0.cluster y.1).constants →
        (∀ i ∈ List.range' 1 (p0.cluster x.1).constants,
          (x.2 i = 0 ↔ y.2 i = 0) ∧
          (x.2 i = 0 → (p0.cluster x.1).word i = (p0.cluster y.1).word i)) →
        joined_key p0 x = joined_key p0 y) := by
  obtain ⟨p, a1, a2, a3⟩ := join_cluster_record p0 m s h
  refine ⟨p, a1, join_trace_sublist _ _, ?_, a3, ?_⟩
  · intro J hJ
    obtain ⟨b1, b2⟩ := a2 J hJ
    refine ⟨b1, ?_, ?_⟩
    · cases hm : merged p0 (join_trace (family_order p0) p0) (p.cluster J).pElem with
      | nil => exact absurd hm b1
      | cons x rest =>
        rw [hm] at b2
        rw [b2]
        exact (joined_record_fields p0 _ x rest).2.2.2.1
    · intro i hi
      cases hm : merged p0 (join_trace (family_order p0) p0) (p.cluster J).pElem with
      | nil => exact absurd hm b1
      | cons x rest =>
        rw [hm] at b2
        have hc : (p.cluster J).constants = (p0.cluster x.1).constants := by
          rw [b2]; exact (joined_record_fields p0 _ x rest).1
        rw [hc] at hi
        have := joined_record_bounds p0 (p.cluster J).pElem x rest i hi
        rw [← b2] at this
        exact this
  · intro x _ y _ hc hm
    unfold joined_key
    exact token_key_congr _ _ _ _ _ hc (fun i hi => (hm i hi).1) (fun i hi => (hm i hi).2)

/-- C15: after `join_cluster`, for every joined candidate `J` and every
position `i`: when the position is marked in a candidate merged into `J` it is
marked in all of them, and then the chain `ppToken[i]` of `J` holds exactly the
words that the candidates merged into `J` have at the position `i`, each word
once; when the position is not marked, or is not a position of `J`, the chain
is empty.  A word is the record of the word table that `ppWord[i]` points
to. -/
theorem join_cluster_tokens (p0 : Parameters) (m s : Nat) (h : JoinReady p0 m s)
    (hwords : ∀ ptr ∈ family_order p0, ∀ i ∈ List.range' 1 (p0.cluster ptr).constants,
      CLUSTERSEP ∉ (p0.cluster ptr).word i ∧ (p0.cluster ptr).word i ≠ p0.token) :
    ∃ p : Parameters, join_cluster p0 = some p ∧
      ∀ J ∈ token_family_order p, ∀ i,
        ((1 ≤ i ∧ i ≤ (p.cluster J).constants) →
          (∃ x ∈ merged p0 (join_trace (family_order p0) p0) (p.cluster J).pElem, x.2 i = 1) →
          (∀ x ∈ merged p0 (join_trace (family_order p0) p0) (p.cluster J).pElem, x.2 i = 1) ∧
          ((p.cluster J).ppToken i).Nodup ∧
          ∀ w, w ∈ (p.cluster J).ppToken i ↔
            ∃ x ∈ merged p0 (join_trace (family_order p0) p0) (p.cluster J).pElem,
              w = (p0.cluster x.1).ppWord i) ∧
        ((¬ (1 ≤ i ∧ i ≤ (p.cluster J).constants) ∨
          ¬ ∃ x ∈ merged p0 (join_trace (family_order p0) p0) (p.cluster J).pElem, x.2 i = 1) →
          (p.cluster J).ppToken i = []) := by
  obtain ⟨p, a1, a2, -⟩ := join_cluster_record p0 m s h
  have hmarks := join_trace_marks p0 m s h.size_pos h.weightf h.sep h.tok (family_order p0) p0 []
    (JoinInv.init p0 m s h.csize h.cseed h.len h.empty) h.valid
  refine ⟨p, a1, ?_⟩
  intro J hJ i
  obtain ⟨b1, b2⟩ := a2 J hJ
  cases hm : merged p0 (join_trace (family_order p0) p0) (p.cluster J).pElem with
  | nil => exact absurd hm b1
  | cons x0 rest =>
    rw [hm] at b2
    obtain ⟨f1, -, -, -, -, f6, f7, -⟩ := joined_record_fields p0 (p.cluster J).pElem x0 rest
    rw [← b2] at f1 f6 f7
    have hmem : ∀ x ∈ x0 :: rest, x ∈ join_trace (family_order p0) p0 ∧
        joined_key p0 x = (p.cluster J).pElem := by
      intro x hx
      rw [← hm] at hx
      exact merged_mem hx
    obtain ⟨spec1, spec2, -⟩ := token_chain_spec (token_words p0 (x0 :: rest) i)
    constructor
    · intro hi hex
      rw [← f1] at f6
      rw [f6 i hi.1 hi.2]
      have huni : ∀ x ∈ x0 :: rest, x.2 i = 1 := by
        obtain ⟨y, hy, hy1⟩ := hex
        intro x hx
        have hkx := (hmem x hx).2
        have hky := (hmem y hy).2
        have hxo := join_trace_mem _ _ _ (hmem x hx).1
        have hyo := join_trace_mem _ _ _ (hmem y hy).1
        have hinj := token_key_inj (p0.cluster x.1) (p0.cluster y.1) x.2 y.2 p0.token h.sep
          (hwords x.1 hxo) (hwords y.1 hyo) (hkx.trans hky.symm)
        have hkx0 := (hmem x0 (List.mem_cons_self _ _)).2
        have hx0o := join_trace_mem _ _ _ (hmem x0 (List.mem_cons_self _ _)).1
        have hinj0 := token_key_inj (p0.cluster x.1) (p0.cluster x0.1) x.2 x0.2 p0.token h.sep
          (hwords x.1 hxo) (hwords x0.1 hx0o) (hkx.trans hkx0.symm)
        have hix : i ∈ List.range' 1 (p0.cluster x.1).constants := by
          rw [hinj0.1, ← f1, List.mem_range'_1]
          omega
        have h01 := (hmarks x (hmem x hx).1).1 i hix
        rcases h01 with h0 | h1
        · have := ((hinj.2 i hix).1.1 h0)
          rw [hy1] at this
          exact absurd this (by decide)
        · exact h1
      refine ⟨huni, spec1, ?_⟩
      intro w
      rw [spec2 w]
      unfold token_words
      rw [List.mem_map]
      constructor
      · rintro ⟨x, hx, rfl⟩
        exact ⟨x, (List.mem_filter.1 hx).1, rfl⟩
      · rintro ⟨x, hx, rfl⟩
        exact ⟨x, List.mem_filter.2 ⟨hx, by simpa using huni x hx⟩, rfl⟩
    · intro hor
      by_cases hi : 1 ≤ i ∧ i ≤ (p.cluster J).constants
      · have hno : ¬ ∃ x ∈ x0 :: rest, x.2 i = 1 := by
          rcases hor with h1 | h1
          · exact absurd hi h1
          · exact h1
        rw [← f1] at f6
        rw [f6 i hi.1 hi.2]
        have : token_words p0 (x0 :: rest) i = [] := by
          unfold token_words
          rw [List.map_eq_nil_iff, List.filter_eq_nil_iff]
          intro x hx hx1
          exact hno ⟨x, hx, by simpa using hx1⟩
        rw [this]
        rfl
      · rw [← f1] at f7
        exact f7 i hi

/-- The state `joinClusters` fulfils the conditions of `join_cluster`. -/
theorem joinClusters_ready : JoinReady joinClusters 7 0 where
  size_pos := by decide
  csize := by decide!
  cseed := by decide!
  len := by decide!
  empty := fun _ => rfl
  weightf := Or.inl (by decide!)
  sep := by decide!
  tok := by decide!
  valid := by decide!
  consts := by decide!
  nodup := by decide!
  unflagged := by decide!

theorem join_cluster_counts_witness :
    JoinReady joinClusters 7 0 ∧
    (join_trace (family_order joinClusters) joinClusters).map Prod.fst = [1, 0] ∧
    ((family_order joinClusters).map (fun ptr => (joinClusters.cluster ptr).count)) = [3, 2] ∧
    token_family_order joinJoined = [2] ∧ (joinJoined.cluster 2).count = 5 ∧
    ∃ p : Parameters, join_cluster joinClusters = some p ∧
      ∀ J ∈ token_family_order p,
        (p.cluster J).count =
          ((merged joinClusters (join_trace (family_order joinClusters) joinClusters)
            (p.cluster J).pElem).map (fun x => (joinClusters.cluster x.1).count)).sum := by
  have h :
      ((join_trace (family_order joinClusters) joinClusters).map Prod.fst = [1, 0]) ∧
      (((family_order joinClusters).map (fun ptr => (joinClusters.cluster ptr).count)) = [3, 2]) ∧
      (token_family_order joinJoined = [2]) ∧
      ((joinJoined.cluster 2).count = 5) := by
    decide!
  obtain ⟨h1, h2, h3, h4⟩ := h
  exact ⟨joinClusters_ready, h1, h2, h3, h4, (join_cluster_counts joinClusters 7 0
    joinClusters_ready).imp (fun _ h => ⟨h.1, fun J hJ => (h.2.2.1 J hJ).2.1⟩)⟩

theorem join_cluster_tokens_witness :
    JoinReady joinClusters 7 0 ∧
    (∀ ptr ∈ family_order joinClusters,
      ∀ i ∈ List.range' 1 (joinClusters.cluster ptr).constants,
        CLUSTERSEP ∉ (joinClusters.cluster ptr).word i ∧
        (joinClusters.cluster ptr).word i ≠ joinClusters.token) ∧
    token_family_order joinJoined = [2] ∧
    ((joinJoined.cluster 2).ppToken 2).map (fun o => o.map Elem.pKey)
      = [some [101, 48], some [101, 49]] ∧
    (joinJoined.cluster 2).ppToken 1 = [] ∧
    ∃ p : Parameters, join_cluster joinClusters = some p ∧
      ∀ J ∈ token_family_order p, ∀ i,
        (¬ (1 ≤ i ∧ i ≤ (p.cluster J).constants) → (p.cluster J).ppToken i = []) := by
  have h :
      ((∀ ptr ∈ family_order joinClusters,
        ∀ i ∈ List.range' 1 (joinClusters.cluster ptr).constants,
          CLUSTERSEP ∉ (joinClusters.cluster ptr).word i ∧
          (joinClusters.cluster ptr).word i ≠ joinClusters.token)) ∧
      (token_family_order joinJoined = [2]) ∧
      (((joinJoined.cluster 2).ppToken 2).map (fun o => o.map Elem.pKey)
        = [some [101, 48], some [101, 49]]) ∧
      ((joinJoined.cluster 2).ppToken 1 = []) := by
    decide!
  obtain ⟨h1, h2, h3, h4⟩ := h
  exact ⟨joinClusters_ready, h1, h2, h3, h4, (join_cluster_tokens joinClusters 7 0
    joinClusters_ready h1).imp (fun _ h => ⟨h.1, fun J hJ i hi => (h.2 J hJ i).2 (Or.inl hi)⟩)⟩

/-! ## Sorting -/

theorem sort_inner (a : Nat → Elem) (j : Nat) :
    ∀ (n s imax : Nat), j ≤ imax → imax < s →
      (∀ i, j ≤ i → i < s → (a i).count ≤ (a imax).count) →
      j ≤ (List.range' s n).foldl
          (fun imax i => if (a i).count > (a imax).count then i else imax) imax ∧
      (List.range' s n).foldl
          (fun imax i => if (a i).count > (a imax).count then i else imax) imax < s + n ∧
      ∀ i, j ≤ i → i < s + n → (a i).count ≤ (a ((List.range' s n).foldl
          (fun imax i => if (a i).count > (a imax).count then i else imax) imax)).count := by
  intro n
  induction n with
  | zero =>
    intro s imax h1 h2 h3
    exact ⟨h1, h2, h3⟩
  | succ n ih =>
    intro s imax h1 h2 h3
    rw [List.range'_succ, List.foldl_cons]
    by_cases hc : (a s).count > (a imax).count
    · rw [if_pos hc]
      obtain ⟨b1, b2, b3⟩ := ih (s + 1) s (by omega) (by omega) (fun i hi1 hi2 => by
        rcases Nat.lt_succ_iff_lt_or_eq.1 hi2 with h | h
        · exact le_of_lt (lt_of_le_of_lt (h3 i hi1 h) hc)
        · rw [h])
      exact ⟨b1, by omega, fun i hi1 hi2 => b3 i hi1 (by omega)⟩
    · rw [if_neg hc]
      obtain ⟨b1, b2, b3⟩ := ih (s + 1) imax h1 (by omega) (fun i hi1 hi2 => by
        rcases Nat.lt_succ_iff_lt_or_eq.1 hi2 with h | h
        · exact h3 i hi1 h
        · rw [h]; omega)
      exact ⟨b1, by omega, fun i hi1 hi2 => b3 i hi1 (by omega)⟩

theorem map_swap_perm {α : Type} (b : Nat → α) (n j k : Nat) (hj : j < n) (hk : k < n) :
    ((List.range n).map (arrSet (arrSet b j (b k)) k (b j))).Perm ((List.range n).map b) := by
  have hfun : arrSet (arrSet b j (b k)) k (b j) = b ∘ (Equiv.swap j k) := by
    funext x
    unfold arrSet
    simp only [Function.comp, Equiv.swap_apply_def]
    by_cases h1 : x = k
    · rw [if_pos h1]
      by_cases h2 : x = j
      · rw [if_pos h2, ← h2, ← h1]
      · rw [if_neg h2, if_pos h1]
    · rw [if_neg h1]
      by_cases h2 : x = j
      · rw [if_pos h2, if_pos h2]
      · rw [if_neg h2, if_neg h2, if_neg h1]
  rw [hfun, ← List.map_map]
  apply List.Perm.map
  apply (List.perm_ext_iff_of_nodup
    ((List.nodup_range n).map (Equiv.injective _)) (List.nodup_range n)).2
  intro x
  rw [List.mem_map, List.mem_range]
  constructor
  · rintro ⟨y, hy, rfl⟩
    rw [List.mem_range] at hy
    rw [Equiv.swap_apply_def]
    split
    · exact hk
    · split
      · exact hj
      · exact hy
  · intro hx
    refine ⟨Equiv.swap j k x, ?_, Equiv.swap_apply_self j k x⟩
    rw [List.mem_range, Equiv.swap_apply_def]
    split
    · exact hk
    · split
      · exact hj
      · exact hx

theorem sort_outer (a : Nat → Elem) (size : Nat) :
    ∀ t, t + 1 ≤ size →
      ((List.range size).map ((List.range t).foldl
        (fun a j =>
          let imax := (List.range' (j + 1) (size - (j + 1))).foldl
            (fun imax i => if (a i).count > (a imax).count then i else imax) j
          arrSet (arrSet a j (a imax)) imax (a j)) a)).Perm ((List.range size).map a) ∧
      (∀ x, x < t → ∀ y, x < y → y < size →
        (((List.range t).foldl
          (fun a j =>
            let imax := (List.range' (j + 1) (size - (j + 1))).foldl
              (fun imax i => if (a i).count > (a imax).count then i else imax) j
            arrSet (arrSet a j (a imax)) imax (a j)) a) y).count
        ≤ (((List.range t).foldl
          (fun a j =>
            let imax := (List.range' (j + 1) (size - (j + 1))).foldl
              (fun imax i => if (a i).count > (a imax).count then i else imax) j
            arrSet (arrSet a j (a imax)) imax (a j)) a) x).count) ∧
      (∀ k, size ≤ k → ((List.range t).foldl
          (fun a j =>
            let imax := (List.range' (j + 1) (size - (j + 1))).foldl
              (fun imax i => if (a i).count > (a imax).count then i else imax) j
            arrSet (arrSet a j (a imax)) imax (a j)) a) k = a k) := by
  intro t
  induction t with
  | zero =>
    intro _
    refine ⟨List.Perm.refl _, fun x hx => absurd hx (Nat.not_lt_zero x), fun _ _ => rfl⟩
  | succ t ih =>
    intro ht
    obtain ⟨i1, i2, i3⟩ := ih (by omega)
    rw [List.range_succ, List.foldl_append, List.foldl_cons, List.foldl_nil]
    generalize (List.range t).foldl
      (fun a j =>
        let imax := (List.range' (j + 1) (size - (j + 1))).foldl
          (fun imax i => if (a i).count > (a imax).count then i else imax) j
        arrSet (arrSet a j (a imax)) imax (a j)) a = b at i1 i2 i3 ⊢
    obtain ⟨m1, m2, m3⟩ := sort_inner b t (size - (t + 1)) (t + 1) t (le_refl t) (by omega)
      (fun i hi1 hi2 => by
        have : i = t := by omega
        rw [this])
    simp only []
    generalize (List.range' (t + 1) (size - (t + 1))).foldl
      (fun imax i => if (b i).count > (b imax).count then i else imax) t = imax at m1 m2 m3 ⊢
    have hsz : t + 1 + (size - (t + 1)) = size := by omega
    rw [hsz] at m2 m3
    have hval : ∀ z, arrSet (arrSet b t (b imax)) imax (b t) z
        = if z = imax then b t else if z = t then b imax else b z := fun z => rfl
    refine ⟨(map_swap_perm b size t imax (by omega) m2).trans i1, ?_, ?_⟩
    · intro x hx y hxy hy
      rw [hval x, hval y]
      rcases Nat.lt_succ_iff_lt_or_eq.1 hx with hxt | hxt
      · rw [if_neg (by omega : ¬ x = imax), if_neg (by omega : ¬ x = t)]
        split
        · exact i2 x hxt t hxt (by omega)
        · split
          · exact i2 x hxt imax (by omega) m2
          · exact i2 x hxt y hxy hy
      · subst hxt
        by_cases hxi : x = imax
        · rw [if_pos hxi, if_neg (by omega : ¬ y = imax), if_neg (by omega : ¬ y = x)]
          have := m3 y (by omega) hy
          rw [← hxi] at this
          exact this
        · rw [if_neg hxi, if_pos rfl]
          split
          · exact m3 x (le_refl x) (by omega)
          · rw [if_neg (by omega : ¬ y = x)]
            exact m3 y (by omega) hy
    · intro k hk
      rw [hval k, if_neg (by omega : ¬ k = imax), if_neg (by omega : ¬ k = t)]
      exact i3 k hk

/-- `sort_elements` on an array of `size` entries, `0 < size < 2^64`: the
sorted entries are a permutation of the entries, their counts do not increase,
and the array is unchanged from the index `size` on. -/
theorem sort_elements_sorted (a : Nat → Elem) (size : Nat) (h0 : 0 < size)
    (hlt : size < 2 ^ 64) :
    ((List.range size).map (sort_elements a size)).Perm ((List.range size).map a) ∧
    ((List.range size).map (sort_elements a size)).Pairwise (fun x y => y.count ≤ x.count) ∧
    ∀ k, size ≤ k → sort_elements a size k = a k := by
  have hsz : (size + 2 ^ 64 - 1) % 2 ^ 64 = size - 1 := by omega
  obtain ⟨i1, i2, i3⟩ := sort_outer a size (size - 1) (by omega)
  unfold sort_elements
  rw [hsz]
  refine ⟨i1, ?_, i3⟩
  rw [List.pairwise_map]
  apply List.Pairwise.imp_of_mem _ (List.pairwise_lt_range size)
  intro x y _ hy hxy
  rw [List.mem_range] at hy
  exact i2 x (by omega) y hxy hy

/-! ## Printing in the order of the supports -/

theorem sorted_array_range (l : List Elem) :
    (List.range l.length).map (sorted_array l) = l := by
  apply List.ext_getElem
  · simp
  · intro i h1 h2
    simp only [List.getElem_map, List.getElem_range, sorted_array]
    exact List.getD_eq_getElem _ _ h2

/-- The calls made for the sorted array of the records of the pointers `ptrs`:
one call for every pointer, with supports that do not increase. -/
theorem sorted_calls (p : Parameters) (ptrs : List Nat) (n : Nat) (hn : n = ptrs.length)
    (hlt : n < 2 ^ 64) (f : Option Nat → PrintCall) (hf : ∀ o, (f o).record p = p.deref o)
    (hlinks : ∀ ptr ∈ ptrs,
      (p.elem ptr).pCluster = some ptr ∧ (p.elem ptr).count = (p.cluster ptr).count) :
    ((List.range n).map
      (fun k => f (sort_elements (sorted_array (ptrs.map p.elem)) n k).pCluster)).Perm
        (ptrs.map (fun ptr => f (some ptr))) ∧
    (((List.range n).map
      (fun k => f (sort_elements (sorted_array (ptrs.map p.elem)) n k).pCluster)).map
        (fun c => (c.record p).count)).Pairwise (fun x y => y ≤ x) := by
  rcases Nat.eq_zero_or_pos n with h0 | h0
  · subst h0
    have : ptrs = [] := List.length_eq_zero.1 hn.symm
    subst this
    simp only [List.range_zero, List.map_nil]
    exact ⟨List.Perm.refl _, List.Pairwise.nil⟩
  · obtain ⟨s1, s2, -⟩ := sort_elements_sorted (sorted_array (ptrs.map p.elem)) n h0 hlt
    have hL : (List.range n).map (sorted_array (ptrs.map p.elem)) = ptrs.map p.elem := by
      have := sorted_array_range (ptrs.map p.elem)
      rw [List.length_map, ← hn] at this
      exact this
    rw [hL] at s1
    have hcalls : (List.range n).map
        (fun k => f (sort_elements (sorted_array (ptrs.map p.elem)) n k).pCluster)
        = ((List.range n).map (sort_elements (sorted_array (ptrs.map p.elem)) n)).map
            (fun e => f e.pCluster) := by
      rw [List.map_map]; rfl
    rw [hcalls]
    constructor
    · refine (s1.map _).trans ?_
      rw [List.map_map]
      apply List.Perm.of_eq
      apply List.map_congr_left
      intro ptr hptr
      show f (p.elem ptr).pCluster = f (some ptr)
      rw [(hlinks ptr hptr).1]
    · rw [List.map_map]
      have hc : ((List.range n).map (sort_elements (sorted_array (ptrs.map p.elem)) n)).map
          ((fun c => (c.record p).count) ∘ fun e => f e.pCluster)
          = ((List.range n).map (sort_elements (sorted_array (ptrs.map p.elem)) n)).map
            Elem.count := by
        apply List.map_congr_left
        intro e he
        have he2 := s1.mem_iff.1 he
        rw [List.mem_map] at he2
        obtain ⟨ptr, hptr, rfl⟩ := he2
        show ((f (p.elem ptr).pCluster).record p).count = (p.elem ptr).count
        rw [hf, (hlinks ptr hptr).1, (hlinks ptr hptr).2]
        rfl
      rw [hc, List.pairwise_map]
      exact s2

theorem flatMap_filter_append_perm (l : List Nat) (f g : Nat → List Nat) (q : Nat → Bool) :
    (l.flatMap (fun i => (f i).filter q ++ g i)).Perm ((l.flatMap f).filter q ++ l.flatMap g) := by
  rw [List.filter_flatMap]
  exact (List.flatMap_append_perm l (fun i => (f i).filter q) g).symm

/-- The pointers stored by `__print_clusters_if_join_cluster_default_0` are
those of the clusters that are not joined and those of the clusters with
tokens. -/
theorem join_sorted_pointers_perm (p : Parameters) :
    (join_sorted_pointers p).Perm
      ((family_order p).filter (fun ptr => (p.cluster ptr).bIsJoined = false)
        ++ token_family_order p) := by
  unfold join_sorted_pointers family_order token_family_order
  exact flatMap_filter_append_perm _ _ _ _

/-- The state after `join_cluster`, as the printing functions see it: the
retained candidates keep their records, those of `join_trace` with the flag
set, the clusters with tokens are flagged, the number `toBeSortedNum` is the
number of the pointers stored for sorting, and every stored pointer is the
`pCluster` of its record of the cluster table, with the same count. -/
theorem join_cluster_emitted (p0 : Parameters) (m s : Nat) (h : JoinReady p0 m s)
    (hnum : p0.clusterNum = (family_order p0).length) (hbound : p0.clusterNum < 2 ^ 64)
    (hin : p0.joinedClusterInputNum = 0) (hout : p0.joinedClusterOutputNum = 0)
    (hlinks : ∀ ptr ∈ family_order p0, ∃ e,
      lookup p0.ppClusterTable m s (p0.cluster ptr).pElem = some e ∧ e.pCluster = some ptr ∧
        e.count = (p0.cluster ptr).count) :
    ∃ p : Parameters, join_cluster p0 = some p ∧
      family_order p = family_order p0 ∧
      p.biggestConstants = p0.biggestConstants ∧
      p.pClusterFamily = p0.pClusterFamily ∧
      p.wordWeightThreshold = p0.wordWeightThreshold ∧
      (∀ ptr ∈ family_order p0,
        p.cluster ptr = if ptr ∈ (join_trace (family_order p0) p0).map Prod.fst
          then (p0.cluster ptr).flagged else p0.cluster ptr) ∧
      (∀ J ∈ token_family_order p, (p.cluster J).bIsJoined = true) ∧
      (token_family_order p).Nodup ∧
      toBeSortedNum p = (join_sorted_pointers p).length ∧
      toBeSortedNum p < 2 ^ 64 ∧
      (∀ ptr ∈ join_sorted_pointers p,
        (p.elem ptr).pCluster = some ptr ∧ (p.elem ptr).count = (p.cluster ptr).count) := by
  obtain ⟨p1, p, a1, a2, a3, a4, a5, a6⟩ := join_cluster_inv p0 m s h.size_pos h.csize h.cseed
    h.len h.empty h.weightf h.sep h.tok h.valid h.consts
  have hmarks := join_trace_marks p0 m s h.size_pos h.weightf h.sep h.tok (family_order p0) p0 []
    (JoinInv.init p0 m s h.csize h.cseed h.len h.empty) h.valid
  have hcl : ∀ a, p.cluster a = p1.cluster a := by intro a; rw [a3]; rfl
  have hlen1 : p.clusters.length = p1.clusters.length := by rw [a3]
  have hbig : p.biggestConstants = p0.biggestConstants := by rw [a3]; exact a2.biggest
  have hfam : p.pClusterFamily = p0.pClusterFamily := by rw [a3]; exact a2.family
  have htf : p.pClusterWithTokenFamily = p1.pClusterWithTokenFamily := by rw [a3]
  have hth : p.wordWeightThreshold = p0.wordWeightThreshold := by rw [a3]; exact a2.threshold
  have hcn : p.clusterNum = p0.clusterNum := by rw [a3]; exact a2.clusterNum
  have hinN : p.joinedClusterInputNum = (join_trace (family_order p0) p0).length := by
    rw [a3]
    have := a2.inNum
    rw [hin, Nat.zero_add] at this
    exact this
  have houtN : p.joinedClusterOutputNum + p0.clusters.length = p.clusters.length := by
    rw [a3]
    have := a2.outNum
    rw [hout, Nat.zero_add] at this
    exact this
  have hsz : p.clusterTableSize = m := by rw [a3]; exact a2.csize
  have hsd : p.clusterTableSeed = s := by rw [a3]; exact a2.cseed
  have hfo : family_order p = family_order p0 := by
    unfold family_order
    rw [hbig, hfam]
  have hold : ∀ ptr ∈ family_order p0,
      p.cluster ptr = if ptr ∈ (join_trace (family_order p0) p0).map Prod.fst
        then (p0.cluster ptr).flagged else p0.cluster ptr := by
    intro ptr hptr
    rw [hcl ptr]
    exact a2.old ptr (h.valid ptr hptr)
  have hrec : ∀ J ∈ token_family_order p,
      merged p0 (join_trace (family_order p0) p0) (p.cluster J).pElem ≠ [] ∧
      p.cluster J = joined_record p0 (p.cluster J).pElem
        (merged p0 (join_trace (family_order p0) p0) (p.cluster J).pElem) := by
    intro J hJ
    obtain ⟨h1, h2⟩ := (a5 J).1 hJ
    rw [hlen1] at h2
    obtain ⟨b1, b2, -⟩ := a2.record_key J h1 h2
    rw [hcl J]
    exact ⟨b1, b2⟩
  have hflag : ∀ J ∈ token_family_order p, (p.cluster J).bIsJoined = true := by
    intro J hJ
    obtain ⟨b1, b2⟩ := hrec J hJ
    cases hm : merged p0 (join_trace (family_order p0) p0) (p.cluster J).pElem with
    | nil => exact absurd hm b1
    | cons x rest =>
      rw [hm] at b2
      rw [b2]
      exact (joined_record_fields p0 _ x rest).2.2.1
  have hnd : (token_family_order p).Nodup := by
    unfold token_family_order
    rw [List.nodup_flatMap]
    constructor
    · intro i _
      rw [htf]
      exact a2.famnodup i
    · apply List.Pairwise.imp _ (List.nodup_range' 1 p.biggestConstants)
      intro a b hab
      show List.Disjoint (p.pClusterWithTokenFamily a) (p.pClusterWithTokenFamily b)
      intro J hJa hJb
      rw [htf] at hJa hJb
      have e1 := (a2.fam a J hJa).2.2
      have e2 := (a2.fam b J hJb).2.2
      exact hab (e1.symm.trans e2)
  have hlenT : (token_family_order p).length = p.clusters.length - p0.clusters.length := by
    have hperm : (token_family_order p).Perm
        (List.range' p0.clusters.length (p.clusters.length - p0.clusters.length)) := by
      apply (List.perm_ext_iff_of_nodup hnd (List.nodup_range' _ _)).2
      intro J
      rw [a5 J, List.mem_range'_1]
      omega
    rw [hperm.length_eq, List.length_range']
  have hle : (token_family_order p).length ≤ (join_trace (family_order p0) p0).length := by
    have hnd2 : ((token_family_order p).map (fun J => (p.cluster J).pElem)).Nodup := by
      apply List.Nodup.map_on _ hnd
      intro J hJ J' hJ' hk
      obtain ⟨h1, h2⟩ := (a5 J).1 hJ
      obtain ⟨h1', h2'⟩ := (a5 J').1 hJ'
      rw [hlen1] at h2 h2'
      rw [hcl J, hcl J'] at hk
      exact a2.key_inj J J' h1 h2 h1' h2' hk
    have hsub : (token_family_order p).map (fun J => (p.cluster J).pElem)
        ⊆ (join_trace (family_order p0) p0).map (joined_key p0) := by
      intro K hK
      rw [List.mem_map] at hK
      obtain ⟨J, hJ, rfl⟩ := hK
      obtain ⟨b1, -⟩ := hrec J hJ
      obtain ⟨x, hx⟩ := List.exists_mem_of_ne_nil _ b1
      obtain ⟨c1, c2⟩ := merged_mem hx
      rw [List.mem_map]
      exact ⟨x, c1, c2⟩
    have := (hnd2.subperm hsub).length_le
    rwa [List.length_map, List.length_map] at this
  have hTsub := join_trace_sublist (family_order p0) p0
  have hTnd : ((join_trace (family_order p0) p0).map Prod.fst).Nodup := h.nodup.sublist hTsub
  have hfilter : (family_order p).filter (fun ptr => (p.cluster ptr).bIsJoined = false)
      = (family_order p0).filter
          (fun ptr => !decide (ptr ∈ (join_trace (family_order p0) p0).map Prod.fst)) := by
    rw [hfo]
    apply List.filter_congr
    intro ptr hptr
    rw [hold ptr hptr]
    by_cases hmem : ptr ∈ (join_trace (family_order p0) p0).map Prod.fst
    · rw [if_pos hmem]
      simp [Cluster.flagged, hmem]
    · rw [if_neg hmem]
      simp [h.unflagged ptr hptr, hmem]
  have hlenF : ((family_order p0).filter
        (fun ptr => !decide (ptr ∈ (join_trace (family_order p0) p0).map Prod.fst))).length
      + (join_trace (family_order p0) p0).length = (family_order p0).length := by
    have h1 : ((family_order p0).filter
        (fun ptr => decide (ptr ∈ (join_trace (family_order p0) p0).map Prod.fst))).Perm
        ((join_trace (family_order p0) p0).map Prod.fst) := by
      apply (List.perm_ext_iff_of_nodup (h.nodup.filter _) hTnd).2
      intro a
      rw [List.mem_filter, decide_eq_true_eq]
      exact ⟨fun ha => ha.2, fun ha => ⟨hTsub.subset ha, ha⟩⟩
    have h3 := (List.filter_append_perm
      (fun ptr => decide (ptr ∈ (join_trace (family_order p0) p0).map Prod.fst))
      (family_order p0)).length_eq
    rw [List.length_append, h1.length_eq, List.length_map] at h3
    omega
  have hjsp := (join_sorted_pointers_perm p).length_eq
  rw [List.length_append, hfilter, hlenT] at hjsp
  rw [hlenT] at hle
  have hheap : p0.clusters.length ≤ p.clusters.length := by rw [hlen1]; exact a2.heap
  have hnumeq : toBeSortedNum p = (join_sorted_pointers p).length ∧ toBeSortedNum p < 2 ^ 64 := by
    unfold toBeSortedNum
    rw [hcn, hinN, hjsp]
    constructor
    · omega
    · exact Nat.mod_lt _ (by norm_num)
  refine ⟨p, a1, hfo, hbig, hfam, hth, hold, hflag, hnd, hnumeq.1, hnumeq.2, ?_⟩
  intro ptr hptr
  rw [(join_sorted_pointers_perm p).mem_iff, List.mem_append, hfilter, List.mem_filter] at hptr
  unfold Parameters.elem
  rw [hsz, hsd]
  rcases hptr with ⟨hptr, hnot⟩ | hJ
  · have hnot2 : ptr ∉ (join_trace (family_order p0) p0).map Prod.fst := by simpa using hnot
    have hsame : p.cluster ptr = p0.cluster ptr := by
      rw [hold ptr hptr, if_neg hnot2]
    obtain ⟨e, e1, e2, e3⟩ := hlinks ptr hptr
    have hempty : merged p0 (join_trace (family_order p0) p0) (p0.cluster ptr).pElem = [] := by
      rw [List.eq_nil_iff_forall_not_mem]
      intro x hx
      obtain ⟨c1, c2⟩ := merged_mem hx
      obtain ⟨-, i, hi, hi1⟩ := hmarks x c1
      have := lookup_fresh p0 m s h.sep h.tok x.1 x.2 i hi (by rw [hi1]; decide)
      rw [c2, e1] at this
      cases this
    rw [hsame, a4 _ hempty, e1]
    exact ⟨e2, e3⟩
  · obtain ⟨h1, h2⟩ := (a5 ptr).1 hJ
    obtain ⟨e, e1, e2, e3⟩ := a6 ptr h1 h2
    rw [e1]
    exact ⟨e2, e3⟩

/-- The calls of `__print_clusters_if_join_cluster_default_0` after
`join_cluster`: one call for every stored pointer, `print_cluster_with_token`
for the flagged records, with supports that do not increase. -/
theorem join_default_0_calls (p : Parameters)
    (hnum : toBeSortedNum p = (join_sorted_pointers p).length) (hlt : toBeSortedNum p < 2 ^ 64)
    (hlinks : ∀ ptr ∈ join_sorted_pointers p,
      (p.elem ptr).pCluster = some ptr ∧ (p.elem ptr).count = (p.cluster ptr).count) :
    (__print_clusters_if_join_cluster_default_0_calls p).Perm
      ((join_sorted_pointers p).map (fun ptr =>
        if (p.cluster ptr).bIsJoined = true then PrintCall.withToken (some ptr)
        else PrintCall.cluster (some ptr))) ∧
    ((__print_clusters_if_join_cluster_default_0_calls p).map
      (fun c => (c.record p).count)).Pairwise (fun x y => y ≤ x) := by
  have hf : ∀ o : Option Nat,
      (if (p.deref o).bIsJoined = true then PrintCall.withToken o
        else PrintCall.cluster o).record p = p.deref o := by
    intro o
    split <;> rfl
  exact sorted_calls p (join_sorted_pointers p) (toBeSortedNum p) hnum hlt
    (fun o => if (p.deref o).bIsJoined = true then PrintCall.withToken o
      else PrintCall.cluster o) hf hlinks

/-- C17: `sort_elements` returns, for an array of `size` entries with `0 <
size < 2^64`, a permutation of the entries with counts that do not increase.
In the output mode 0 `print_clusters_default_0` makes one call of
`print_cluster` for every cluster of the family buckets, and the supports of
the printed records do not increase (the state holds `clusterNum` clusters and
every cluster is the `pCluster` of its record of the cluster table, with the
same count).  After `join_cluster`, `__print_clusters_if_join_cluster_default_0`
makes one call of `print_cluster` for every retained candidate that is not
joined and one call of `print_cluster_with_token` for every joined candidate,
in one sequence in which the supports do not increase.  Indices are naturals
here, which the `int` indices of the source are up to `2^31 - 1`. -/
theorem print_clusters_default_0_sorted (p0 : Parameters) (m s : Nat) (h : JoinReady p0 m s)
    (hnum : p0.clusterNum = (family_order p0).length) (hbound : p0.clusterNum < 2 ^ 64)
    (hin : p0.joinedClusterInputNum = 0) (hout : p0.joinedClusterOutputNum = 0)
    (hlinks : ∀ ptr ∈ family_order p0, ∃ e,
      lookup p0.ppClusterTable m s (p0.cluster ptr).pElem = some e ∧ e.pCluster = some ptr ∧
        e.count = (p0.cluster ptr).count) :
    (∀ (ppArray : Nat → Elem) (size : Nat), 0 < size → size < 2 ^ 64 →
      ((List.range size).map (sort_elements ppArray size)).Perm ((List.range size).map ppArray) ∧
      ((List.range size).map (sort_elements ppArray size)).Pairwise
        (fun x y => y.count ≤ x.count)) ∧
    (∀ q : Parameters, q.clusterNum = (family_order q).length → q.clusterNum < 2 ^ 64 →
      (∀ ptr ∈ family_order q,
        (q.elem ptr).pCluster = some ptr ∧ (q.elem ptr).count = (q.cluster ptr).count) →
      (print_clusters_default_0_calls q).Perm
        ((family_order q).map (fun ptr => PrintCall.cluster (some ptr))) ∧
      ((print_clusters_default_0_calls q).map
        (fun c => (c.record q).count)).Pairwise (fun x y => y ≤ x)) ∧
    ∃ p : Parameters, join_cluster p0 = some p ∧
      (__print_clusters_if_join_cluster_default_0_calls p).Perm
        (((family_order p).filter (fun ptr => (p.cluster ptr).bIsJoined = false)).map
            (fun ptr => PrintCall.cluster (some ptr))
          ++ (token_family_order p).map (fun J => PrintCall.withToken (some J))) ∧
      ((__print_clusters_if_join_cluster_default_0_calls p).map
        (fun c => (c.record p).count)).Pairwise (fun x y => y ≤ x) ∧
      (family_order p).Nodup ∧ (token_family_order p).Nodup := by
  refine ⟨?_, ?_, ?_⟩
  · intro a size h0 hlt
    obtain ⟨s1, s2, -⟩ := sort_elements_sorted a size h0 hlt
    exact ⟨s1, s2⟩
  · intro q hq hqlt hql
    exact sorted_calls q (family_order q) q.clusterNum hq hqlt PrintCall.cluster (fun _ => rfl) hql
  · obtain ⟨p, a1, hfo, -, -, -, -, hflag, hnd, hn, hlt, hl⟩ :=
      join_cluster_emitted p0 m s h hnum hbound hin hout hlinks
    obtain ⟨c1, c2⟩ := join_default_0_calls p hn hlt hl
    refine ⟨p, a1, ?_, c2, by rw [hfo]; exact h.nodup, hnd⟩
    refine c1.trans (((join_sorted_pointers_perm p).map _).trans ?_)
    rw [List.map_append]
    apply List.Perm.of_eq
    congr 1
    · apply List.map_congr_left
      intro ptr hptr
      have := (List.mem_filter.1 hptr).2
      rw [decide_eq_true_eq] at this
      rw [if_neg (by rw [this]; decide)]
    · apply List.map_congr_left
      intro J hJ
      rw [if_pos (hflag J hJ)]

theorem print_clusters_default_0_sorted_witness :
    JoinReady joinClusters 7 0 ∧ joinClusters.clusterNum = (family_order joinClusters).length ∧
    joinClusters.clusterNum < 2 ^ 64 ∧ joinClusters.joinedClusterInputNum = 0 ∧
    joinClusters.joinedClusterOutputNum = 0 ∧
    (∀ ptr ∈ family_order joinClusters, ∃ e,
      lookup joinClusters.ppClusterTable 7 0 (joinClusters.cluster ptr).pElem = some e ∧
        e.pCluster = some ptr ∧ e.count = (joinClusters.cluster ptr).count) ∧
    print_clusters_default_0_calls joinClusters
      = [PrintCall.cluster (some 1), PrintCall.cluster (some 0)] ∧
    (print_clusters_default_0_calls joinClusters).map
      (fun c => (c.record joinClusters).count) = [3, 2] ∧
    __print_clusters_if_join_cluster_default_0_calls joinJoined = [PrintCall.withToken (some 2)] ∧
    ∃ p : Parameters, join_cluster joinClusters = some p ∧
      ((__print_clusters_if_join_cluster_default_0_calls p).map
        (fun c => (c.record p).count)).Pairwise (fun x y => y ≤ x) := by
  have h :
      (joinClusters.clusterNum = (family_order joinClusters).length) ∧
      (joinClusters.clusterNum < 2 ^ 64) ∧
      (joinClusters.joinedClusterInputNum = 0) ∧
      (joinClusters.joinedClusterOutputNum = 0) ∧
      ((∀ ptr ∈ family_order joinClusters, ∃ e,
        lookup joinClusters.ppClusterTable 7 0 (joinClusters.cluster ptr).pElem = some e ∧
          e.pCluster = some ptr ∧ e.count = (joinClusters.cluster ptr).count)) ∧
      (print_clusters_default_0_calls joinClusters
        = [PrintCall.cluster (some 1), PrintCall.cluster (some 0)]) ∧
      ((print_clusters_default_0_calls joinClusters).map
        (fun c => (c.record joinClusters).count) = [3, 2]) ∧
      (__print_clusters_if_join_cluster_default_0_calls joinJoined = [PrintCall.withToken (some 2)]) := by
    decide!
  obtain ⟨h1, h2, h3, h4, h5, h6, h7, h8⟩ := h
  exact ⟨joinClusters_ready, h1, h2, h3, h4, h5, h6, h7, h8, (print_clusters_default_0_sorted
    joinClusters 7 0 joinClusters_ready h1 h2 h3 h4 h5).2.2.imp (fun _ h => ⟨h.1, h.2.2.1⟩)⟩

/-- C13: `check_cluster_for_join_cluster`, called for an unflagged cluster,
returns with `tokenMarker[i] = 1` for the positions `i` whose weight is strictly
below the threshold and `tokenMarker[i] = 0` for the other positions, and with
the flag `bIsJoined` of the cluster set exactly when some position is marked.
The weight is the value of the type `double` that `cal_word_weight` returns,
computed in double arithmetic, and the comparison is that of two values of the
type `double`, which is false for a weight that is not finite.
After `join_cluster` the flagged retained candidates are those of `join_trace`;
for each of them neither `__print_clusters_if_join_cluster_default_0` nor
`__print_clusters_if_join_cluster_constant_1` (the functions that
`step_3_print_clusters` takes when the threshold is not 0) calls `print_cluster`
with it, exactly one joined candidate has its joined key, and both functions
call `print_cluster_with_token` with that joined candidate. -/
theorem check_cluster_for_join_cluster_spec (p0 : Parameters) (m s : Nat)
    (h : JoinReady p0 m s)
    (hnum : p0.clusterNum = (family_order p0).length) (hbound : p0.clusterNum < 2 ^ 64)
    (hin : p0.joinedClusterInputNum = 0) (hout : p0.joinedClusterOutputNum = 0)
    (hlinks : ∀ ptr ∈ family_order p0, ∃ e,
      lookup p0.ppClusterTable m s (p0.cluster ptr).pElem = some e ∧ e.pCluster = some ptr ∧
        e.count = (p0.cluster ptr).count) :
    (∀ (ptr : Nat) (q : Parameters),
      (q.wordWeightFunction = 1 ∨ q.wordWeightFunction = 2) → ptr < q.clusters.length →
      (q.cluster ptr).bIsJoined = false →
      ∃ q', check_cluster_for_join_cluster ptr q = some q' ∧
        (∀ i ∈ List.range' 1 (q.cluster ptr).constants,
          q'.tokenMarker i =
            if Double.lt (word_weight ptr i q) q.wordWeightThreshold = true then 1 else 0) ∧
        ((q'.cluster ptr).bIsJoined = true ↔
          ∃ i ∈ List.range' 1 (q.cluster ptr).constants,
            Double.lt (word_weight ptr i q) q.wordWeightThreshold = true)) ∧
    (∀ q : Parameters, q.wordWeightThreshold ≠ 0 →
      (q.outputMode = 0 → step_3_print_clusters_calls q
        = __print_clusters_if_join_cluster_default_0_calls q) ∧
      (q.outputMode = 1 → step_3_print_clusters_calls q
        = __print_clusters_if_join_cluster_constant_1_calls q)) ∧
    ∃ p : Parameters, join_cluster p0 = some p ∧
      p.wordWeightThreshold = p0.wordWeightThreshold ∧
      (∀ ptr ∈ family_order p0, (p.cluster ptr).bIsJoined = true ↔
        ptr ∈ (join_trace (family_order p0) p0).map Prod.fst) ∧
      ∀ x ∈ join_trace (family_order p0) p0,
        PrintCall.cluster (some x.1) ∉ __print_clusters_if_join_cluster_default_0_calls p ∧
        PrintCall.cluster (some x.1) ∉ __print_clusters_if_join_cluster_constant_1_calls p ∧
        ∃ J ∈ token_family_order p, (p.cluster J).pElem = joined_key p0 x ∧
          (∀ J' ∈ token_family_order p, (p.cluster J').pElem = joined_key p0 x → J' = J) ∧
          PrintCall.withToken (some J) ∈ __print_clusters_if_join_cluster_default_0_calls p ∧
          PrintCall.withToken (some J) ∈ __print_clusters_if_join_cluster_constant_1_calls p := by
  refine ⟨?_, ?_, ?_⟩
  · intro ptr q hf hptr hun
    obtain ⟨r, c1, c2, c3, c4, c5⟩ := check_cluster_for_join_cluster_eq ptr q hf
    have hlen : r.clusters.length = q.clusters.length := by
      obtain ⟨a, b, c, e⟩ := c1
      rw [e]
    by_cases h0 : r.tokenMarker 0 = 1
    · rw [if_pos h0] at c5
      have hlenr : ptr < r.clusters.length := by rw [hlen]; exact hptr
      have hflagr : ((r.setCluster ptr (r.cluster ptr).flagged).cluster ptr).bIsJoined = true := by
        rw [cluster_setCluster, if_pos ⟨rfl, hlenr⟩]
        rfl
      obtain ⟨f1, f2⟩ := join_cluster_with_token_flag ptr
        (r.setCluster ptr (r.cluster ptr).flagged)
        (by simpa [Parameters.setCluster] using hlenr) hflagr
      have f2' : (join_cluster_with_token ptr
          (r.setCluster ptr (r.cluster ptr).flagged)).tokenMarker = r.tokenMarker := f2
      refine ⟨_, c5, ?_, ?_⟩
      · intro i hi
        rw [f2']
        exact c3 i hi
      · exact ⟨fun _ => c4.1 h0, fun _ => f1⟩
    · rw [if_neg h0] at c5
      refine ⟨r, c5, c3, ?_⟩
      constructor
      · intro hfl
        rw [c1.cluster_eq_mark ptr, hun] at hfl
        cases hfl
      · intro hex
        exact absurd (c4.2 hex) h0
  · intro q hq
    unfold step_3_print_clusters_calls
    constructor
    · intro h0
      rw [if_pos h0, if_pos hq]
    · intro h1
      rw [if_neg (by rw [h1]; decide), if_pos h1, if_pos hq]
  · obtain ⟨p, a1, hfo, hbig, hfam, hth, hold, hflag, hnd, hn, hlt, hl⟩ :=
      join_cluster_emitted p0 m s h hnum hbound hin hout hlinks
    obtain ⟨p', a1', hrec'⟩ := join_cluster_record p0 m s h
    rw [a1] at a1'
    cases a1'
    obtain ⟨c1, -⟩ := join_default_0_calls p hn hlt hl
    have hflagged : ∀ ptr ∈ family_order p0, (p.cluster ptr).bIsJoined = true ↔
        ptr ∈ (join_trace (family_order p0) p0).map Prod.fst := by
      intro ptr hptr
      rw [hold ptr hptr]
      by_cases hmem : ptr ∈ (join_trace (family_order p0) p0).map Prod.fst
      · rw [if_pos hmem]
        exact ⟨fun _ => hmem, fun _ => rfl⟩
      · rw [if_neg hmem, h.unflagged ptr hptr]
        exact ⟨fun e => (by cases e), fun e => absurd e hmem⟩
    refine ⟨p, a1, hth, hflagged, ?_⟩
    intro x hx
    have hxo := join_trace_mem _ _ _ hx
    have hxf : (p.cluster x.1).bIsJoined = true :=
      (hflagged x.1 hxo).2 (List.mem_map.2 ⟨x, hx, rfl⟩)
    refine ⟨?_, ?_, ?_⟩
    · intro hmem
      unfold __print_clusters_if_join_cluster_default_0_calls at hmem
      simp only [List.mem_map] at hmem
      obtain ⟨k, -, hk⟩ := hmem
      split at hk
      · cases hk
      · rename_i hnf
        injection hk with hk
        rw [hk] at hnf
        exact hnf hxf
    · intro hmem
      unfold __print_clusters_if_join_cluster_constant_1_calls at hmem
      simp only [List.mem_flatMap, List.mem_append, List.mem_map, List.mem_filter] at hmem
      obtain ⟨i, -, hmem⟩ := hmem
      rcases hmem with ⟨ptr, ⟨-, hun⟩, hk⟩ | ⟨ptr, -, hk⟩
      · injection hk with hk
        injection hk with hk
        rw [hk, decide_eq_true_eq, hxf] at hun
        cases hun
      · cases hk
    · obtain ⟨J, hJ, hk, huniq⟩ := hrec'.2 x hx
      refine ⟨J, hJ, hk, huniq, ?_, ?_⟩
      · rw [c1.mem_iff, List.mem_map]
        refine ⟨J, ?_, by rw [if_pos (hflag J hJ)]⟩
        rw [(join_sorted_pointers_perm p).mem_iff, List.mem_append]
        exact Or.inr hJ
      · unfold __print_clusters_if_join_cluster_constant_1_calls
        unfold token_family_order at hJ
        rw [List.mem_flatMap] at hJ ⊢
        obtain ⟨i, hi, hJi⟩ := hJ
        refine ⟨i, hi, ?_⟩
        rw [List.mem_append]
        exact Or.inr (List.mem_map.2 ⟨J, hJi, rfl⟩)

theorem check_cluster_for_join_cluster_spec_witness :
    JoinReady joinClusters 7 0 ∧ joinClusters.clusterNum = (family_order joinClusters).length ∧
    joinClusters.clusterNum < 2 ^ 64 ∧ joinClusters.joinedClusterInputNum = 0 ∧
    joinClusters.joinedClusterOutputNum = 0 ∧
    (∀ ptr ∈ family_order joinClusters, ∃ e,
      lookup joinClusters.ppClusterTable 7 0 (joinClusters.cluster ptr).pElem = some e ∧
        e.pCluster = some ptr ∧ e.count = (joinClusters.cluster ptr).count) ∧
    (join_trace (family_order joinClusters) joinClusters).map Prod.fst = [1, 0] ∧
    (List.range 4).map joinJoined.tokenMarker = [1, 0, 1, 0] ∧
    (List.range 3).map (fun ptr => (joinJoined.cluster ptr).bIsJoined) = [true, true, true] ∧
    __print_clusters_if_join_cluster_default_0_calls joinJoined = [PrintCall.withToken (some 2)] ∧
    __print_clusters_if_join_cluster_constant_1_calls joinJoined
      = [PrintCall.withToken (some 2)] ∧
    (roundClusters.cluster 0).words = [[65], [66], [67], [68]] ∧
    exact_word_weight roundClusters (roundClusters.cluster 0) 3 = 3 / 4 ∧
    roundClusters.wordWeightThreshold = 3 / 4 ∧
    word_weight 0 3 roundClusters = some (6755399441055743 / 9007199254740992) ∧
    Double.lt (word_weight 0 3 roundClusters) roundClusters.wordWeightThreshold = true ∧
    (check_cluster_for_join_cluster 0 roundClusters).map
      (fun q => (List.range 5).map q.tokenMarker) = some [1, 1, 1, 1, 0] ∧
    ∃ p : Parameters, join_cluster joinClusters = some p ∧
      ∀ ptr ∈ family_order joinClusters, (p.cluster ptr).bIsJoined = true ↔
        ptr ∈ (join_trace (family_order joinClusters) joinClusters).map Prod.fst := by
  have h :
      (joinClusters.clusterNum = (family_order joinClusters).length) ∧
      (joinClusters.clusterNum < 2 ^ 64) ∧
      (joinClusters.joinedClusterInputNum = 0) ∧
      (joinClusters.joinedClusterOutputNum = 0) ∧
      ((∀ ptr ∈ family_order joinClusters, ∃ e,
        lookup joinClusters.ppClusterTable 7 0 (joinClusters.cluster ptr).pElem = some e ∧
          e.pCluster = some ptr ∧ e.count = (joinClusters.cluster ptr).count)) ∧
      ((join_trace (family_order joinClusters) joinClusters).map Prod.fst = [1, 0]) ∧
      ((List.range 4).map joinJoined.tokenMarker = [1, 0, 1, 0]) ∧
      ((List.range 3).map (fun ptr => (joinJoined.cluster ptr).bIsJoined) = [true, true, true]) ∧
      (__print_clusters_if_join_cluster_default_0_calls joinJoined = [PrintCall.withToken (some 2)]) ∧
      (__print_clusters_if_join_cluster_constant_1_calls joinJoined
        = [PrintCall.withToken (some 2)]) ∧
      ((roundClusters.cluster 0).words = [[65], [66], [67], [68]]) ∧
      (exact_word_weight roundClusters (roundClusters.cluster 0) 3 = 3 / 4) ∧
      (roundClusters.wordWeightThreshold = 3 / 4) ∧
      (word_weight 0 3 roundClusters = some (6755399441055743 / 9007199254740992)) ∧
      (Double.lt (word_weight 0 3 roundClusters) roundClusters.wordWeightThreshold = true) ∧
      ((check_cluster_for_join_cluster 0 roundClusters).map
        (fun q => (List.range 5).map q.tokenMarker) = some [1, 1, 1, 1, 0]) := by
    decide!
  obtain ⟨h1, h2, h3, h4, h5, h6, h7, h8, h9, h10, h11, h12, h13, h14, h15, h16⟩ := h
  exact ⟨joinClusters_ready, h1, h2, h3, h4, h5, h6, h7, h8, h9, h10, h11, h12, h13, h14, h15,
    h16, (check_cluster_for_join_cluster_spec joinClusters 7 0 joinClusters_ready h1 h2 h3 h4
    h5).2.2.imp (fun _ h => ⟨h.1, h.2.2.1⟩)⟩

/-! ## Printing a cluster with tokens -/

theorem print_tokens_eq (l : List (Option Elem)) :
    print_tokens l = List.intercalate [124] (l.map token_word) := by
  induction l with
  | nil => rfl
  | cons w rest ih =>
    unfold print_tokens
    simp only
    cases rest with
    | nil => simp [print_tokens, List.intercalate, token_word]
    | cons v rest2 =>
      rw [if_pos (by simp), ih]
      simp [List.intercalate, token_word, List.intersperse]

theorem foldl_flatMap_of_step {α : Type} (g : List α → Nat → List α) (f : Nat → List α)
    (hstep : ∀ out i, g out i = out ++ f i) (l : List Nat) (init : List α) :
    l.foldl g init = init ++ l.flatMap f := by
  have : g = fun out i => out ++ f i := by
    funext out i
    exact hstep out i
  rw [this]
  exact foldl_append_flatMap f l init

theorem print_cluster_with_token_eq (c : Cluster) (p : Parameters) :
    print_cluster_with_token c p
      = cluster_with_token_text c p.bDetailedTokenFlag
          (fun i => (c.ppToken i).map token_word) := by
  unfold print_cluster_with_token cluster_with_token_text
  simp only
  rw [foldl_flatMap_of_step _
    (fun i => position_text c p.bDetailedTokenFlag ((c.ppToken i).map token_word) i) ?_ _ _]
  · rw [List.nil_append]
    by_cases h : c.fullWildcard 1 ≠ 0
    · simp only [if_pos h]
    · simp only [if_neg h, List.append_nil]
  · intro out i
    unfold position_text token_text
    by_cases hg : c.fullWildcard (i * 2 + 1) = 0
    · cases hc : c.ppToken i with
      | nil => simp [hg, hc]
      | cons w rest =>
        cases hd : p.bDetailedTokenFlag with
        | false =>
          cases rest with
          | nil => simp [hg, hc, token_word]
          | cons v rest2 => simp [hg, hc, print_tokens_eq]
        | true => simp [hg, hc, print_tokens_eq]
    · cases hc : c.ppToken i with
      | nil => simp [hg, hc]
      | cons w rest =>
        cases hd : p.bDetailedTokenFlag with
        | false =>
          cases rest with
          | nil => simp [hg, hc, token_word]
          | cons v rest2 => simp [hg, hc, print_tokens_eq]
        | true => simp [hg, hc, print_tokens_eq]

/-- C20, as stated, fails: on two lines `I e0 u` and three lines `I e1 u` with
support 2 and the threshold 0.75 the candidate 1 (`I e1 u`) is joined first and
the candidate 0 (`I e0 u`) second, so that at the position 2 the word `e1` is
inserted before the word `e0`; the joined candidate is printed as `I (e0|e1) u`,
not as `I (e1|e0) u`, the text with the words in the order of their
insertion. -/
theorem print_cluster_with_token_insertion_order :
    token_family_order joinJoined = [2] ∧
    (join_trace (family_order joinClusters) joinClusters).map Prod.fst = [1, 0] ∧
    (merged joinClusters (join_trace (family_order joinClusters) joinClusters)
      (joinJoined.cluster 2).pElem).map Prod.fst = [1, 0] ∧
    (List.range' 1 3).map (fun i => (token_words joinClusters
      (merged joinClusters (join_trace (family_order joinClusters) joinClusters)
        (joinJoined.cluster 2).pElem) i).map token_word)
      = [[], [[101, 49], [101, 48]], []] ∧
    print_cluster_with_token (joinJoined.cluster 2) joinJoined
      = [73, 32, 40, 101, 48, 124, 101, 49, 41, 32, 117, 32, 10]
        ++ [83, 117, 112, 112, 111, 114, 116, 32, 58, 32, 53, 10, 10] ∧
    cluster_with_token_text (joinJoined.cluster 2) joinJoined.bDetailedTokenFlag
      (fun i => (token_words joinClusters
        (merged joinClusters (join_trace (family_order joinClusters) joinClusters)
          (joinJoined.cluster 2).pElem) i).map token_word)
      = [73, 32, 40, 101, 49, 124, 101, 48, 41, 32, 117, 32, 10]
        ++ [83, 117, 112, 112, 111, 114, 116, 32, 58, 32, 53, 10, 10] ∧
    print_cluster_with_token (joinJoined.cluster 2) joinJoined ≠
      cluster_with_token_text (joinJoined.cluster 2) joinJoined.bDetailedTokenFlag
        (fun i => (token_words joinClusters
          (merged joinClusters (join_trace (family_order joinClusters) joinClusters)
            (joinJoined.cluster 2).pElem) i).map token_word) := by
  decide!

/-- C20 (amended): `print_cluster_with_token` writes, for every position in
order, the gap before it as `*{min,max}` when its `max` is not 0 and then,
where the position has tokens, the words of its token chain from the head on
as `(w_a|w_b|...)`, a single word without the parentheses when the detail flag
is off and every chain between parentheses when it is on, and the word of the
position where it has no token; a space follows each of them.  The chain of a
joined candidate holds the words most recently inserted first: it is the chain
in which every word of the candidates merged into it, in the order in which
they were joined, became the new head unless the chain had it. -/
theorem print_cluster_with_token_spec (p0 : Parameters) (m s : Nat) (h : JoinReady p0 m s) :
    (∀ (c : Cluster) (p : Parameters), print_cluster_with_token c p
      = cluster_with_token_text c p.bDetailedTokenFlag
          (fun i => (c.ppToken i).map token_word)) ∧
    ∃ p : Parameters, join_cluster p0 = some p ∧
      ∀ J ∈ token_family_order p, ∀ i, 1 ≤ i → i ≤ (p.cluster J).constants →
        (p.cluster J).ppToken i = token_chain (token_words p0
          (merged p0 (join_trace (family_order p0) p0) (p.cluster J).pElem) i) ∧
        (p.cluster J).ppToken i = ((token_words p0
          (merged p0 (join_trace (family_order p0) p0) (p.cluster J).pElem) i).reverse).dedup := by
  refine ⟨print_cluster_with_token_eq, ?_⟩
  obtain ⟨p, a1, a2, -⟩ := join_cluster_record p0 m s h
  refine ⟨p, a1, ?_⟩
  intro J hJ i hi1 hi2
  obtain ⟨b1, b2⟩ := a2 J hJ
  cases hm : merged p0 (join_trace (family_order p0) p0) (p.cluster J).pElem with
  | nil => exact absurd hm b1
  | cons x0 rest =>
    rw [hm] at b2
    obtain ⟨f1, -, -, -, -, f6, -, -⟩ := joined_record_fields p0 (p.cluster J).pElem x0 rest
    rw [← b2] at f1 f6
    rw [← f1] at f6
    rw [f6 i hi1 hi2]
    exact ⟨rfl, (token_chain_spec _).2.2⟩

theorem print_cluster_with_token_spec_witness :
    JoinReady joinClusters 7 0 ∧ token_family_order joinJoined = [2] ∧
    ((joinJoined.cluster 2).ppToken 2).map token_word = [[101, 48], [101, 49]] ∧
    ∃ p : Parameters, join_cluster joinClusters = some p ∧
      ∀ J ∈ token_family_order p, ∀ i, 1 ≤ i → i ≤ (p.cluster J).constants →
        (p.cluster J).ppToken i = ((token_words joinClusters
          (merged joinClusters (join_trace (family_order joinClusters) joinClusters)
            (p.cluster J).pElem) i).reverse).dedup := by
  have h :
      (token_family_order joinJoined = [2]) ∧
      (((joinJoined.cluster 2).ppToken 2).map token_word = [[101, 48], [101, 49]]) := by
    decide!
  obtain ⟨h1, h2⟩ := h
  exact ⟨joinClusters_ready, h1, h2, (print_cluster_with_token_spec joinClusters 7 0
    joinClusters_ready).2.imp (fun _ h => ⟨h.1, fun J hJ i h1 h2 => (h.2 J hJ i h1 h2).2⟩)⟩

/-! ## The order of the family buckets after the candidate pass -/

theorem firstSeen_snoc_present (p0 : Parameters) (S : List Key) (done : List (List Key))
    (l : List Key) (h : linesOf p0 S done ≠ []) :
    firstSeen p0 S (done ++ [l]) = firstSeen p0 S done ∧ firstSeen p0 S done < done.length := by
  have hex : ∃ x ∈ done, decide (constantsOf p0 x = S) = true := by
    obtain ⟨x, hx⟩ := List.exists_mem_of_ne_nil _ h
    unfold linesOf at hx
    rw [List.mem_filter] at hx
    exact ⟨x, hx.1, hx.2⟩
  have hlt := List.findIdx_lt_length_of_exists hex
  unfold firstSeen
  rw [List.findIdx_append, if_pos hlt]
  exact ⟨rfl, hlt⟩

theorem firstSeen_snoc_new (p0 : Parameters) (S : List Key) (done : List (List Key))
    (l : List Key) (h : linesOf p0 S done = []) (hl : constantsOf p0 l = S) :
    firstSeen p0 S (done ++ [l]) = done.length := by
  have hall : ∀ x ∈ done, decide (constantsOf p0 x = S) = false := by
    intro x hx
    unfold linesOf at h
    rw [List.filter_eq_nil_iff] at h
    simpa using h x hx
  unfold firstSeen
  rw [List.findIdx_append, List.findIdx_eq_length_of_false hall, if_neg (lt_irrefl _)]
  simp [List.findIdx_cons, hl]

theorem CandInv.present_of_lookup {p0 p : Parameters} {m s : Nat} {done : List (List Key)}
    (hinv : CandInv p0 p m s done) (S : List Key) (e : Elem) (h1 : S ≠ [])
    (h2 : ∀ w ∈ S, CLUSTERSEP ∉ w) (h3 : lookup p.ppClusterTable m s (keyOf S) = some e) :
    linesOf p0 S done ≠ [] := by
  intro h4
  rw [hinv.absent S h1 h2 h4] at h3
  cases h3

theorem put_cluster_order (p0 p : Parameters) (m s : Nat) (hm : 0 < m) (done : List (List Key))
    (l : List Key) (loc : CandidateLocals) (cc : Nat) (hinv : CandInv p0 p m s done)
    (hfam : FamInv p m s) (hord : OrderInv p0 p m s done)
    (hS : constantsOf p0 l ≠ []) (hnl : ∀ w ∈ l, CLUSTERSEP ∉ w)
    (hkey : loc.key = keyOf (constantsOf p0 l)) :
    OrderInv p0 (put_cluster p loc cc).1 m s (done ++ [l]) := by
  have hSnl : ∀ w ∈ constantsOf p0 l, CLUSTERSEP ∉ w :=
    fun w hw => hnl w (List.mem_filter.1 hw).1
  have hh : str2hash loc.key m s < p.ppClusterTable.length := by
    rw [hinv.len]; exact str2hash_lt _ _ _ hm
  by_cases hLs : linesOf p0 (constantsOf p0 l) done = []
  · have hnone : lookup p.ppClusterTable m s loc.key = none := by
      rw [hkey]; exact hinv.absent _ hS hSnl hLs
    obtain ⟨c1, r1, -⟩ :=
      put_cluster_new p loc cc m s hm hinv.csize hinv.cseed hinv.len hnone
    obtain ⟨f1, -⟩ :=
      put_cluster_new_family p loc cc m s hm hinv.csize hinv.cseed hinv.len hnone
    have hself := lookup_step_self loc.key p.ppClusterTable m s
      { pKey := loc.key, count := 1, number := 0, pCluster := some p.clusters.length } hh rfl
    have hoth := fun k hk => lookup_step_other loc.key k hk p.ppClusterTable m s
      { pKey := loc.key, count := 1, number := 0, pCluster := some p.clusters.length } hh rfl
    rw [← r1] at hself hoth
    refine { sorted := ?_, seen := ?_ }
    · intro i
      rw [f1]
      unfold arrSet
      split
      · rw [List.pairwise_cons]
        exact ⟨fun b hb => (hfam.mem _ _ hb).1, hord.sorted _⟩
      · exact hord.sorted i
    · intro S S' e e' ptr ptr' n1 n2 s1 s2 l1 c1 l2 c2 hlt
      by_cases hk : keyOf S = loc.key
      · rw [hk, hself] at l1
        cases l1
        cases c1
        by_cases hk' : keyOf S' = loc.key
        · rw [hk', hself] at l2
          cases l2
          cases c2
          exact absurd hlt (lt_irrefl _)
        · rw [hoth _ hk'] at l2
          have := hinv.bound _ e' ptr' l2 c2
          omega
      · rw [hoth _ hk] at l1
        obtain ⟨q1, q2⟩ := firstSeen_snoc_present p0 S done l (hinv.present_of_lookup S e n1 s1 l1)
        by_cases hk' : keyOf S' = loc.key
        · have hS' : S' = constantsOf p0 l := keyOf_injective _ _ s2 hSnl (hk'.trans hkey)
          rw [q1, hS', firstSeen_snoc_new p0 _ done l hLs rfl]
          exact q2
        · rw [hoth _ hk'] at l2
          rw [q1, (firstSeen_snoc_present p0 S' done l
            (hinv.present_of_lookup S' e' n2 s2 l2)).1]
          exact hord.seen S S' e e' ptr ptr' n1 n2 s1 s2 l1 c1 l2 c2 hlt
  · obtain ⟨e0, ptr0, c, q1, q2, q3, q4, -⟩ := hinv.present _ hS hSnl hLs
    rw [← hkey] at q1
    have hcount : 1 ≤ e0.count := by
      rw [q2]; exact List.length_pos.2 hLs
    obtain ⟨r1, -⟩ :=
      put_cluster_old p loc cc m s hm hinv.csize hinv.cseed hinv.len e0 ptr0 c q1 hcount q3 q4
    obtain ⟨f1, -⟩ :=
      put_cluster_old_family p loc cc m s hm hinv.csize hinv.cseed hinv.len e0 ptr0 c q1 hcount
        q3 q4
    have hself := lookup_add_elem_self loc.key p.ppClusterTable m s hh
    rw [q1] at hself
    simp only [added] at hself
    have hoth := fun k hk => lookup_add_elem_other loc.key k hk p.ppClusterTable m s hh
    rw [← r1] at hself hoth
    have hold : ∀ (S : List Key) (e : Elem) (ptr : Nat),
        lookup (put_cluster p loc cc).1.ppClusterTable m s (keyOf S) = some e →
        e.pCluster = some ptr →
        ∃ e1, lookup p.ppClusterTable m s (keyOf S) = some e1 ∧ e1.pCluster = some ptr := by
      intro S e ptr l1 c1
      by_cases hk : keyOf S = loc.key
      · rw [hk, hself] at l1
        cases l1
        exact ⟨e0, by rw [hk]; exact q1, c1⟩
      · rw [hoth _ hk] at l1
        exact ⟨e, l1, c1⟩
    refine { sorted := ?_, seen := ?_ }
    · intro i
      rw [f1]
      exact hord.sorted i
    · intro S S' e e' ptr ptr' n1 n2 s1 s2 l1 c1 l2 c2 hlt
      obtain ⟨e1, m1, m2⟩ := hold S e ptr l1 c1
      obtain ⟨e2, m3, m4⟩ := hold S' e' ptr' l2 c2
      rw [(firstSeen_snoc_present p0 S done l (hinv.present_of_lookup S e1 n1 s1 m1)).1,
        (firstSeen_snoc_present p0 S' done l (hinv.present_of_lookup S' e2 n2 s2 m3)).1]
      exact hord.seen S S' e1 e2 ptr ptr' n1 n2 s1 s2 m1 m2 m3 m4 hlt

theorem OrderInv.skip_line {p0 p : Parameters} {m s : Nat} {done : List (List Key)}
    (h : OrderInv p0 p m s done) (hinv : CandInv p0 p m s done) (t : Table) (l : List Key) :
    OrderInv p0 { p with ppWordTable := t } m s (done ++ [l]) :=
  { sorted := h.sorted,
    seen := fun S S' e e' ptr ptr' n1 n2 s1 s2 l1 c1 l2 c2 hlt => by
      rw [(firstSeen_snoc_present p0 S done l (hinv.present_of_lookup S e n1 s1 l1)).1,
        (firstSeen_snoc_present p0 S' done l (hinv.present_of_lookup S' e' n2 s2 l2)).1]
      exact h.seen S S' e e' ptr ptr' n1 n2 s1 s2 l1 c1 l2 c2 hlt }

theorem OrderInv.of_wordTable_order {p0 p : Parameters} {m s : Nat} {done : List (List Key)}
    (h : OrderInv p0 p m s done) (t : Table) :
    OrderInv p0 { p with ppWordTable := t } m s done :=
  { sorted := h.sorted, seen := h.seen }

theorem create_cluster_candidates_line_order (p0 : Parameters) (m s : Nat) (hm : 0 < m)
    (st : Parameters × CandidateLocals × Nat) (done : List (List Key)) (l : List Key)
    (hw : WInv p0 st.1) (hc : CandInv p0 st.1 m s done) (hf : FamInv st.1 m s)
    (ho : OrderInv p0 st.1 m s done) (hnl : ∀ w ∈ l, CLUSTERSEP ∉ w) :
    OrderInv p0 (create_cluster_candidates_line st l).1 m s (done ++ [l]) := by
  have hfreq := hw.isFrequent_eq
  have hconsts : constantsOf st.1 l = constantsOf p0 l := by unfold constantsOf; rw [hfreq]
  obtain ⟨c1, c2, -, -⟩ := candidate_scan_decomposition st.1 st.2.1 l
  have c3 := candidate_scan_key st.1 st.2.1 l
  obtain ⟨t, ht⟩ := candidate_scan_fields st.1 st.2.1 l
  have hc2 : CandInv p0 (candidate_scan st.1 st.2.1 l).1 m s done := by
    rw [ht]; exact hc.of_wordTable t
  have hf2 : FamInv (candidate_scan st.1 st.2.1 l).1 m s := by
    rw [ht]; exact hf.of_wordTable_fam t
  have ho2 : OrderInv p0 (candidate_scan st.1 st.2.1 l).1 m s done := by
    rw [ht]; exact ho.of_wordTable_order t
  have ho3 : OrderInv p0 (candidate_scan st.1 st.2.1 l).1 m s (done ++ [l]) := by
    rw [ht]; exact ho.skip_line hc t l
  change (candidate_scan st.1 st.2.1 l).2.constants = (constantsOf st.1 l).length at c1
  change (candidate_scan st.1 st.2.1 l).2.key = keyOf (constantsOf st.1 l) at c3
  rw [hconsts] at c1 c3
  unfold create_cluster_candidates_line
  simp only [hc2.csketch, ne_eq, not_true_eq_false, false_and, if_false]
  by_cases h0 : (candidate_scan st.1 st.2.1 l).2.constants = 0
  · simp only [h0, if_true]
    exact ho3
  · simp only [h0, if_false]
    have hne : constantsOf p0 l ≠ [] := by
      intro h; apply h0; rw [c1, h]; rfl
    exact put_cluster_order p0 _ m s hm done l _ _ hc2 hf2 ho2 hne hnl c3

theorem create_cluster_candidates_lines_order (p0 : Parameters) (m s : Nat) (hm : 0 < m)
    (input : List (List Key)) (hnl : ∀ l ∈ input, ∀ w ∈ l, CLUSTERSEP ∉ w) :
    ∀ (st : Parameters × CandidateLocals × Nat) (done : List (List Key)),
      WInv p0 st.1 → CandInv p0 st.1 m s done → FamInv st.1 m s → OrderInv p0 st.1 m s done →
      OrderInv p0 (input.foldl create_cluster_candidates_line st).1 m s (done ++ input) := by
  induction input with
  | nil => intro st done _ _ _ ho; simpa using ho
  | cons l rest ih =>
    intro st done hw hc hf ho
    obtain ⟨h1, h2⟩ := create_cluster_candidates_line_inv p0 m s hm st done l hw hc
      (hnl l (List.mem_cons_self _ _))
    have h3 := create_cluster_candidates_line_fam p0 m s hm st done l hw hc hf
      (hnl l (List.mem_cons_self _ _))
    have h4 := create_cluster_candidates_line_order p0 m s hm st done l hw hc hf ho
      (hnl l (List.mem_cons_self _ _))
    have := ih (fun l' hl' => hnl l' (List.mem_cons_of_mem _ hl')) _ _ h1 h2 h3 h4
    rw [List.foldl_cons]
    simpa [List.append_assoc] using this

theorem create_cluster_candidates_order (pParam : Parameters) (input : List (List Key))
    (loc : CandidateLocals) (cc : Nat) (hsk : pParam.clusterSketchSize = 0)
    (hsz : 0 < pParam.clusterTableSize) (hnl : ∀ l ∈ input, ∀ w ∈ l, CLUSTERSEP ∉ w)
    (hcl : pParam.clusters = []) (hfm : ∀ i, pParam.pClusterFamily i = []) :
    OrderInv pParam (create_cluster_candidates pParam input loc cc).1
      pParam.clusterTableSize pParam.clusterTableSeed input := by
  have hinit : CandInv pParam
      { pParam with ppClusterTable := List.replicate pParam.clusterTableSize [] }
      pParam.clusterTableSize pParam.clusterTableSeed [] := by
    refine { csize := rfl, cseed := rfl, csketch := hsk, len := by simp, bound := ?_,
             inj := ?_, absent := ?_, present := ?_, keys := ?_ }
    · intro K e ptr he
      change lookup (List.replicate _ []) _ _ K = some e at he
      rw [lookup_replicate] at he; cases he
    · intro K K' e e' ptr he
      change lookup (List.replicate _ []) _ _ K = some e at he
      rw [lookup_replicate] at he; cases he
    · intro S _ _ _
      exact lookup_replicate _ _ _ _
    · intro S _ _ h
      exact absurd rfl h
    · intro K e he
      change lookup (List.replicate _ []) _ _ K = some e at he
      rw [lookup_replicate] at he; cases he
  have hfinit : FamInv
      { pParam with ppClusterTable := List.replicate pParam.clusterTableSize [] }
      pParam.clusterTableSize pParam.clusterTableSeed := by
    refine { mem := ?_, all := ?_, nodup := ?_, back := ?_ }
    · intro i ptr h
      change ptr ∈ pParam.pClusterFamily i at h
      rw [hfm] at h; cases h
    · intro ptr h
      change ptr < pParam.clusters.length at h
      rw [hcl] at h; cases h
    · intro i
      change (pParam.pClusterFamily i).Nodup
      rw [hfm]; exact List.nodup_nil
    · intro ptr h
      change ptr < pParam.clusters.length at h
      rw [hcl] at h; cases h
  have hwinit : WInv pParam
      { pParam with ppClusterTable := List.replicate pParam.clusterTableSize [] } :=
    { wsize := rfl, wseed := rfl, wsame := fun _ => rfl }
  have hoinit : OrderInv pParam
      { pParam with ppClusterTable := List.replicate pParam.clusterTableSize [] }
      pParam.clusterTableSize pParam.clusterTableSeed [] := by
    refine { sorted := ?_, seen := ?_ }
    · intro i
      change (pParam.pClusterFamily i).Pairwise _
      rw [hfm]; exact List.Pairwise.nil
    · intro S S' e e' ptr ptr' _ _ _ _ he
      change lookup (List.replicate _ []) _ _ _ = some e at he
      rw [lookup_replicate] at he; cases he
  have := create_cluster_candidates_lines_order pParam pParam.clusterTableSize
    pParam.clusterTableSeed hsz input hnl
    ({ pParam with ppClusterTable := List.replicate pParam.clusterTableSize [] }, loc, cc) []
    hwinit hinit hfinit hoinit
  rw [List.nil_append] at this
  exact this

theorem flatMap_map_pairwise_le {α : Type} (f : Nat → List α) (g : α → Nat) :
    ∀ l : List Nat, l.Pairwise (fun a b => a < b) → (∀ i ∈ l, ∀ x ∈ f i, g x = i) →
      ((l.flatMap f).map g).Pairwise (fun a b => a ≤ b) := by
  intro l
  induction l with
  | nil => intro _ _; exact List.Pairwise.nil
  | cons a l ih =>
    intro hl hg
    rw [List.pairwise_cons] at hl
    rw [List.flatMap_cons, List.map_append, List.pairwise_append]
    refine ⟨?_, ih hl.2 (fun i hi => hg i (List.mem_cons_of_mem _ hi)), ?_⟩
    · apply List.pairwise_of_forall_mem_list
      intro x hx y hy
      rw [List.mem_map] at hx hy
      obtain ⟨x', hx', rfl⟩ := hx
      obtain ⟨y', hy', rfl⟩ := hy
      rw [hg a (List.mem_cons_self _ _) x' hx', hg a (List.mem_cons_self _ _) y' hy']
    · intro x hx y hy
      rw [List.mem_map] at hx hy
      obtain ⟨x', hx', rfl⟩ := hx
      obtain ⟨y', hy', rfl⟩ := hy
      rw [List.mem_flatMap] at hy'
      obtain ⟨i, hi, hy'⟩ := hy'
      rw [hg a (List.mem_cons_self _ _) x' hx', hg i (List.mem_cons_of_mem _ hi) y' hy']
      exact le_of_lt (hl.1 i hi)

theorem orderParams_fresh :
    (∀ i, orderParams.pClusterFamily i = []) ∧ orderParams.clusters = [] := by
  have h := create_vocabulary_frame { support := 2, wordTableSize := 5, clusterTableSize := 7 }
    joinInput
  unfold orderParams
  dsimp only
  rw [h.1, h.2]
  exact ⟨fun _ => rfl, rfl⟩

/-- C18, as stated, fails: of the lines `I e0 u`, `I e0 u`, `I e1 u`, `I e1 u`,
`I e1 u` with support 2 the candidate `I e0 u` is first seen in the line 0 and
the candidate `I e1 u` in the line 2, both have three constants, and in the
output mode 1 `I e1 u` is printed before `I e0 u`. -/
theorem print_clusters_constant_1_newest_first :
    orderClusters.wordWeightThreshold = 0 ∧
    step_3_print_clusters_calls { orderClusters with outputMode := 1 }
      = print_clusters_constant_1_calls orderClusters ∧
    print_clusters_constant_1_calls orderClusters
      = [PrintCall.cluster (some 1), PrintCall.cluster (some 0)] ∧
    (orderClusters.cluster 0).words = [[73], [101, 48], [117]] ∧
    (orderClusters.cluster 1).words = [[73], [101, 49], [117]] ∧
    (orderClusters.cluster 0).constants = 3 ∧ (orderClusters.cluster 1).constants = 3 ∧
    firstSeen orderParams [[73], [101, 48], [117]] joinInput = 0 ∧
    firstSeen orderParams [[73], [101, 49], [117]] joinInput = 2 ∧
    print_clusters_constant_1 orderClusters
      = [73, 32, 101, 49, 32, 117, 32, 10]
          ++ [83, 117, 112, 112, 111, 114, 116, 32, 58, 32, 51, 10, 10]
        ++ ([73, 32, 101, 48, 32, 117, 32, 10]
          ++ [83, 117, 112, 112, 111, 114, 116, 32, 58, 32, 50, 10, 10]) := by
  decide!

/-- C18 (amended): in the output mode 1 `print_clusters_constant_1` calls
`print_cluster` for the clusters of the bucket 1, then for those of the bucket
2, and so on, each bucket from its head on.  After the candidate pass and the
selection of the clusters the numbers of constants of the printed clusters do
not decrease, and the clusters with the same number of constants are printed
newest first: of two clusters of a bucket the one printed first has the greater
pointer, and its candidate was first seen later in the input. -/
theorem print_clusters_constant_1_order (pParam : Parameters) (input : List (List Key))
    (loc : CandidateLocals) (cc : Nat) (hsk : pParam.clusterSketchSize = 0)
    (hsz : 0 < pParam.clusterTableSize) (hnl : ∀ l ∈ input, ∀ w ∈ l, CLUSTERSEP ∉ w)
    (hcl : pParam.clusters = []) (hfm : ∀ i, pParam.pClusterFamily i = []) :
    (∀ p : Parameters, print_clusters_constant_1_calls p
      = (List.range' 1 p.biggestConstants).flatMap (fun k =>
          (p.pClusterFamily k).map (fun ptr => PrintCall.cluster (some ptr)))) ∧
    ((print_clusters_constant_1_calls
        (find_clusters_from_candidates (create_cluster_candidates pParam input loc cc).1).1).map
      (fun c => (c.record
        (find_clusters_from_candidates (create_cluster_candidates pParam input loc cc).1).1
          ).constants)).Pairwise (fun a b => a ≤ b) ∧
    ∀ k, ((find_clusters_from_candidates
        (create_cluster_candidates pParam input loc cc).1).1.pClusterFamily k).Pairwise
      (fun a b => b < a ∧
        ∀ S S', S ≠ [] → S' ≠ [] → (∀ w ∈ S, CLUSTERSEP ∉ w) → (∀ w ∈ S', CLUSTERSEP ∉ w) →
          ((find_clusters_from_candidates
            (create_cluster_candidates pParam input loc cc).1).1.cluster a).pElem = keyOf S →
          ((find_clusters_from_candidates
            (create_cluster_candidates pParam input loc cc).1).1.cluster b).pElem = keyOf S' →
          firstSeen pParam S' input < firstSeen pParam S input) := by
  have hfam := create_cluster_candidates_fam pParam input loc cc hsk hsz hnl hcl hfm
  have hord := create_cluster_candidates_order pParam input loc cc hsk hsz hnl hcl hfm
  obtain ⟨s1, s2, -, s4, s5⟩ :=
    find_clusters_from_candidates_buckets (create_cluster_candidates pParam input loc cc).1
  generalize (create_cluster_candidates pParam input loc cc).1 = c at hfam hord s1 s2 s4 s5 ⊢
  have hbig : (find_clusters_from_candidates c).1.biggestConstants = c.biggestConstants := rfl
  have hclu : ∀ a, (find_clusters_from_candidates c).1.cluster a = c.cluster a := by
    intro a
    unfold Parameters.cluster
    rw [s5]
  have hsub : ∀ k, ((find_clusters_from_candidates c).1.pClusterFamily k).Sublist
      (c.pClusterFamily k) := by
    intro k
    by_cases hk : 1 ≤ k ∧ k ≤ c.biggestConstants
    · rw [s1 k hk.1 hk.2]
      exact List.filter_sublist _
    · rw [s2 k hk]
  have hcalls : ∀ p : Parameters, print_clusters_constant_1_calls p
      = (List.range' 1 p.biggestConstants).flatMap (fun k =>
          (p.pClusterFamily k).map (fun ptr => PrintCall.cluster (some ptr))) := by
    intro p
    unfold print_clusters_constant_1_calls family_order
    rw [List.map_flatMap]
  refine ⟨hcalls, ?_, ?_⟩
  · rw [hcalls]
    apply flatMap_map_pairwise_le _ _ _ (List.pairwise_lt_range' 1 _)
    intro i _ x hx
    rw [List.mem_map] at hx
    obtain ⟨ptr, hptr, rfl⟩ := hx
    show ((find_clusters_from_candidates c).1.cluster ptr).constants = i
    rw [hclu ptr]
    exact (hfam.mem i ptr ((hsub i).subset hptr)).2.1
  · intro k
    apply List.Pairwise.sublist (hsub k)
    apply List.Pairwise.imp_of_mem _ (hord.sorted k)
    intro a b ha hb hlt
    refine ⟨hlt, ?_⟩
    intro S S' n1 n2 t1 t2 k1 k2
    rw [hclu a] at k1
    rw [hclu b] at k2
    obtain ⟨e, e1, e2⟩ := hfam.back a (hfam.mem k a ha).1
    obtain ⟨e', e1', e2'⟩ := hfam.back b (hfam.mem k b hb).1
    rw [k1] at e1
    rw [k2] at e1'
    exact hord.seen S' S e' e b a n2 n1 t2 t1 e1' e2' e1 e2 hlt

theorem print_clusters_constant_1_order_witness :
    orderParams.clusterSketchSize = 0 ∧ 0 < orderParams.clusterTableSize ∧
    (∀ l ∈ joinInput, ∀ w ∈ l, CLUSTERSEP ∉ w) ∧
    orderParams.clusters = [] ∧ (∀ i, orderParams.pClusterFamily i = []) ∧
    (find_clusters_from_candidates
      (create_cluster_candidates orderParams joinInput {} 0).1).1.pClusterFamily 3 = [1, 0] ∧
    ((print_clusters_constant_1_calls
        (find_clusters_from_candidates (create_cluster_candidates orderParams joinInput {} 0).1).1
          ).map
      (fun c => (c.record
        (find_clusters_from_candidates (create_cluster_candidates orderParams joinInput {} 0).1).1
          ).constants)).Pairwise (fun a b => a ≤ b) :=
  ⟨by decide!, by decide!, by decide!, orderParams_fresh.2, orderParams_fresh.1, by decide!,
    (print_clusters_constant_1_order orderParams joinInput {} 0 (by decide!) (by decide!)
      (by decide!) orderParams_fresh.2 orderParams_fresh.1).2.1⟩

/-! ## Weight function 2 on a candidate with a repeated word -/

/-- C12: on the lines `A A B`, `A A B`, `C A`, `A C` with support 2 the only
cluster has the constants `A A B`.  `get_unique_frequent_words_out_of_cluster`
stores the number of `B` at the index 3 of its position and leaves at the index
2 the number of `C`, which the candidate pass stored there, with `wordNumStr[0]
= 2`; `cal_word_weight_function_2` then returns `(dep(A, B) + dep(C, B) - 1) /
1 = -1/2` for the word `B`, where the function of the documentation, with the
unique words `A` and `B`, gives `(dep(A, B) + dep(B, B) - dep(B, B)) / 1 =
1/2`. -/
theorem cal_word_weight_function_2_repeated :
    family_order repeatClusters = [0] ∧
    (repeatClusters.cluster 0).words = [[65], [65], [66]] ∧
    (List.range' 1 3).map (repeatClusters.cluster 0).wordNumber = [1, 1, 2] ∧
    (List.range 4).map (get_unique_frequent_words_out_of_cluster 0 repeatClusters).wordNumStr
      = [2, 1, 3, 2] ∧
    (cal_word_weight_function_2 0 3 repeatClusters).1 = some (-1 / 2) ∧
    unique_word_weight repeatClusters (repeatClusters.cluster 0) 3 = 1 / 2 := by
  refine ⟨by decide!, by decide!, by decide!, by decide!, by decide!, by decide!⟩

/-! ## The outliers of a run with a word filter -/

/-- C16: on five lines `ip 10.0.0.1` and five lines `ip 10.0.0.2` with support
10, the filter `[.]`, the search expression `[0-9]+` and the replacement `N`
the only cluster is `ip N.N.N.N` with the count 10, the candidate of all ten
lines.  `find_outliers` builds the key of the word `ip` alone for every line,
which the cluster table does not have, and writes all ten lines to the file of
the outliers. -/
theorem find_outliers_with_wfilter :
    dotDigitFilter.is_word_filtered [105, 112] = false ∧
    dotDigitFilter.is_word_filtered [49, 48, 46, 48, 46, 48, 46, 49] = true ∧
    dotDigitFilter.word_search_replace [49, 48, 46, 48, 46, 48, 46, 49]
      = [78, 46, 78, 46, 78, 46, 78] ∧
    dotDigitFilter.word_search_replace [49, 48, 46, 48, 46, 48, 46, 50]
      = [78, 46, 78, 46, 78, 46, 78] ∧
    family_order outlierClusters = [0] ∧
    (outlierClusters.cluster 0).words = [[105, 112], [78, 46, 78, 46, 78, 46, 78]] ∧
    (outlierClusters.cluster 0).count = 10 ∧
    (outlierClusters.cluster 0).pElem = [105, 112, 10, 78, 46, 78, 46, 78, 46, 78, 10] ∧
    outlierInput.map (fun words => (words.foldl outlier_word (outlierClusters, [])).2)
      = List.replicate 10 [105, 112, 10] ∧
    lookup outlierClusters.ppClusterTable 7 0 [105, 112, 10] = none ∧
    (find_outliers outlierClusters outlierInput).2 = outlierInput ∧
    (find_outliers outlierClusters outlierInput).2.length = 10 := by
  decide!

/-! ## The outlier pass -/

theorem outlier_word_eq (p : Parameters) (loc : CandidateLocals) (w : Key) :
    outlier_word (p, loc.key) w
      = ((candidate_word (p, loc) w).1, (candidate_word (p, loc) w).2.key) := by
  unfold outlier_word candidate_word
  simp only
  cases (find_elem w p.ppWordTable p.wordTableSize p.wordTableSeed).1 with
  | none => rfl
  | some e =>
    by_cases hw : w ≠ []
    · simp only [if_pos hw]
    · simp only [if_neg hw]

theorem outlier_words_eq (ws : List Key) :
    ∀ (p : Parameters) (loc : CandidateLocals),
      ws.foldl outlier_word (p, loc.key)
        = ((ws.foldl candidate_word (p, loc)).1, (ws.foldl candidate_word (p, loc)).2.key) := by
  induction ws with
  | nil => intro p loc; rfl
  | cons w rest ih =>
    intro p loc
    rw [List.foldl_cons, List.foldl_cons, outlier_word_eq, ih]

theorem outlier_key (p : Parameters) (l : List Key) :
    l.foldl outlier_word (p, []) = ((candidate_scan p {} l).1, keyOf (constantsOf p l)) := by
  have h := outlier_words_eq l p ({ key := [], constants := 0, variables_ := 0 } : CandidateLocals)
  have hk := candidate_scan_key p {} l
  unfold candidate_scan at hk ⊢
  unfold constantsOf
  simp only at hk ⊢
  rw [← hk]
  exact h

theorem find_outliers_line_spec (p0 q : Parameters) (out : List (List Key)) (l : List Key)
    (hw : WInv p0 q) :
    ∃ tw tc, (find_outliers_line (q, out) l).1
        = { q with ppWordTable := tw, ppClusterTable := tc } ∧
      WInv p0 { q with ppWordTable := tw, ppClusterTable := tc } ∧
      (∀ K, lookup tc q.clusterTableSize q.clusterTableSeed K
        = lookup q.ppClusterTable q.clusterTableSize q.clusterTableSeed K) ∧
      (find_outliers_line (q, out) l).2 =
        if outlier_test q.ppClusterTable q.clusterTableSize q.clusterTableSeed q.support l
            (keyOf (constantsOf p0 l)) = true then out ++ [l] else out := by
  have hfreq := hw.isFrequent_eq
  have hconsts : constantsOf q l = constantsOf p0 l := by unfold constantsOf; rw [hfreq]
  obtain ⟨t, ht⟩ := candidate_scan_fields q {} l
  have hw2 := candidate_scan_WInv hw {} l
  rw [ht] at hw2
  unfold find_outliers_line
  rw [outlier_key, hconsts, ht]
  simp only
  unfold outlier_test
  by_cases hk : keyOf (constantsOf p0 l) = [] ∧ l ≠ []
  · rw [if_pos hk]
    refine ⟨t, q.ppClusterTable, rfl, ?_, fun _ => rfl, ?_⟩
    · exact { wsize := hw2.wsize, wseed := hw2.wseed, wsame := hw2.wsame }
    · simp [hk.1, hk.2]
  · rw [if_neg hk]
    have hfst := find_elem_fst (keyOf (constantsOf p0 l)) q.ppClusterTable q.clusterTableSize
      q.clusterTableSeed
    have hlk := fun K => lookup_find_elem (keyOf (constantsOf p0 l)) K q.ppClusterTable
      q.clusterTableSize q.clusterTableSeed
    have hdec : (decide (keyOf (constantsOf p0 l) = []) && decide (l ≠ [])) = false := by
      simpa using hk
    rw [hdec, Bool.false_or]
    cases hl : lookup q.ppClusterTable q.clusterTableSize q.clusterTableSeed
        (keyOf (constantsOf p0 l)) with
    | none =>
      rw [hl] at hfst
      simp only [hfst]
      exact ⟨t, _, rfl, { wsize := hw2.wsize, wseed := hw2.wseed, wsame := hw2.wsame }, hlk,
        by simp⟩
    | some e =>
      rw [hl] at hfst
      simp only [hfst]
      by_cases hc : e.count < q.support
      · simp only [hc, if_true, decide_True]
        exact ⟨t, _, rfl, { wsize := hw2.wsize, wseed := hw2.wseed, wsame := hw2.wsame }, hlk,
          trivial⟩
      · simp only [hc, if_false, decide_False]
        exact ⟨t, _, rfl, { wsize := hw2.wsize, wseed := hw2.wseed, wsame := hw2.wsame }, hlk,
          by simp⟩

theorem find_outliers_lines (p0 : Parameters) (input : List (List Key)) :
    ∀ (q : Parameters) (out : List (List Key)), WInv p0 q →
      (input.foldl find_outliers_line (q, out)).2
        = out ++ input.filter (fun l => outlier_test q.ppClusterTable q.clusterTableSize
            q.clusterTableSeed q.support l (keyOf (constantsOf p0 l))) := by
  induction input with
  | nil => intro q out _; simp
  | cons l rest ih =>
    intro q out hw
    obtain ⟨tw, tc, h1, h2, h3, h4⟩ := find_outliers_line_spec p0 q out l hw
    have hst : find_outliers_line (q, out) l
        = ({ q with ppWordTable := tw, ppClusterTable := tc },
           (find_outliers_line (q, out) l).2) := by
      rw [← h1]
    have htest : ∀ (l' : List Key) (K : Key),
        outlier_test tc q.clusterTableSize q.clusterTableSeed q.support l' K
          = outlier_test q.ppClusterTable q.clusterTableSize q.clusterTableSeed q.support l' K := by
      intro l' K
      unfold outlier_test
      rw [h3]
    rw [List.foldl_cons, hst, ih _ _ h2, h4]
    simp only [htest]
    rw [List.filter_cons]
    split <;> simp

/-- Without a word filter and a cluster sketch the outliers are the lines
whose candidate key is not the key of a cluster kept by
`find_clusters_from_candidates`, in the order of the input. -/
theorem find_outliers_spec (pParam : Parameters) (input : List (List Key))
    (loc : CandidateLocals) (cc : Nat) (hsk : pParam.clusterSketchSize = 0)
    (hsz : 0 < pParam.clusterTableSize) (hnl : ∀ l ∈ input, ∀ w ∈ l, CLUSTERSEP ∉ w)
    (hcl : pParam.clusters = []) (hfm : ∀ i, pParam.pClusterFamily i = []) :
    (find_outliers (find_clusters_from_candidates
        (create_cluster_candidates pParam input loc cc).1).1 input).2
      = input.filter (fun l => !retained_key (find_clusters_from_candidates
          (create_cluster_candidates pParam input loc cc).1).1 (keyOf (constantsOf pParam l))) := by
  obtain ⟨hwc, hinv⟩ := create_cluster_candidates_inv pParam input loc cc hsk hsz hnl
  have hfam := create_cluster_candidates_fam pParam input loc cc hsk hsz hnl hcl hfm
  obtain ⟨s1, s2, -, s4, s5⟩ :=
    find_clusters_from_candidates_buckets (create_cluster_candidates pParam input loc cc).1
  generalize (create_cluster_candidates pParam input loc cc).1 = c at hwc hinv hfam s1 s2 s4 s5 ⊢
  have hwp : WInv pParam (find_clusters_from_candidates c).1 :=
    { wsize := hwc.wsize, wseed := hwc.wseed, wsame := hwc.wsame }
  have hclu : ∀ a, (find_clusters_from_candidates c).1.cluster a = c.cluster a := by
    intro a
    unfold Parameters.cluster
    rw [s5]
  have hmemp : ∀ ptr, ptr ∈ family_order (find_clusters_from_candidates c).1 ↔
      ptr < c.clusters.length ∧ c.support ≤ (c.cluster ptr).count := by
    intro ptr
    unfold family_order
    rw [List.mem_flatMap]
    constructor
    · rintro ⟨i, hi, hptr⟩
      have hi' := List.mem_range'_1.1 hi
      have hb : (find_clusters_from_candidates c).1.biggestConstants = c.biggestConstants := rfl
      rw [hb] at hi'
      rw [s1 i hi'.1 (by omega), List.mem_filter, decide_eq_true_eq] at hptr
      exact ⟨(hfam.mem i ptr hptr.1).1, hptr.2⟩
    · rintro ⟨hlt, hcount⟩
      have hin := hfam.all ptr hlt
      obtain ⟨-, -, b1, b2⟩ := hfam.mem _ _ hin
      refine ⟨(c.cluster ptr).constants, List.mem_range'_1.2 ⟨b1, ?_⟩, ?_⟩
      · show (c.cluster ptr).constants < 1 + c.biggestConstants
        omega
      · rw [s1 _ b1 b2, List.mem_filter, decide_eq_true_eq]
        exact ⟨hin, hcount⟩
  have hkeyne : ∀ S : List Key, S ≠ [] → keyOf S ≠ [] := by
    intro S hS
    cases S with
    | nil => exact absurd rfl hS
    | cons x a => rw [keyOf_cons]; simp
  have hnokey : lookup c.ppClusterTable pParam.clusterTableSize pParam.clusterTableSeed [] = none := by
    cases hl : lookup c.ppClusterTable pParam.clusterTableSize pParam.clusterTableSeed [] with
    | none => rfl
    | some e =>
      obtain ⟨S, a1, -, a3⟩ := hinv.keys _ e hl
      exact absurd a3.symm (hkeyne S a1)
  unfold find_outliers
  have := find_outliers_lines pParam input (find_clusters_from_candidates c).1 [] hwp
  rw [this, List.nil_append]
  apply List.filter_congr
  intro l hl
  have e1 : (find_clusters_from_candidates c).1.ppClusterTable = c.ppClusterTable := s4
  have e2 : (find_clusters_from_candidates c).1.clusterTableSize = pParam.clusterTableSize :=
    hinv.csize
  have e3 : (find_clusters_from_candidates c).1.clusterTableSeed = pParam.clusterTableSeed :=
    hinv.cseed
  have e4 : (find_clusters_from_candidates c).1.support = c.support := rfl
  rw [e1, e2, e3, e4]
  unfold outlier_test retained_key
  by_cases hS : constantsOf pParam l = []
  · have hK : keyOf (constantsOf pParam l) = [] := by rw [hS]; rfl
    rw [hK, hnokey]
    have hnone : (family_order (find_clusters_from_candidates c).1).any
        (fun ptr => decide (((find_clusters_from_candidates c).1.cluster ptr).pElem = [])) = false := by
      rw [List.any_eq_false]
      intro ptr hptr
      rw [decide_eq_true_eq, hclu ptr]
      intro hp
      obtain ⟨hlt, -⟩ := (hmemp ptr).1 hptr
      obtain ⟨e, b1, -⟩ := hfam.back ptr hlt
      rw [hp, hnokey] at b1
      cases b1
    rw [hnone]
    simp
  · have hlines : linesOf pParam (constantsOf pParam l) input ≠ [] := by
      intro h
      unfold linesOf at h
      rw [List.filter_eq_nil_iff] at h
      exact h l hl (by simp)
    have hSnl : ∀ w ∈ constantsOf pParam l, CLUSTERSEP ∉ w :=
      fun w hw => hnl l hl w (List.mem_filter.1 hw).1
    obtain ⟨e, ptr, cl, q1, q2, q3, q4, q5, -, q7, -⟩ := hinv.present _ hS hSnl hlines
    have hlt : ptr < c.clusters.length := hinv.bound _ e ptr q1 q3
    have hget : c.cluster ptr = cl := by
      unfold Parameters.cluster
      rw [List.getD_eq_getElem?_getD, q4]; rfl
    have hKne := hkeyne _ hS
    rw [q1]
    have hfirst : (decide (keyOf (constantsOf pParam l) = []) && decide (l ≠ [])) = false := by
      simp [hKne]
    rw [hfirst, Bool.false_or]
    by_cases hc : c.support ≤ cl.count
    · have hany : (family_order (find_clusters_from_candidates c).1).any
          (fun ptr => decide (((find_clusters_from_candidates c).1.cluster ptr).pElem
            = keyOf (constantsOf pParam l))) = true := by
        rw [List.any_eq_true]
        refine ⟨ptr, (hmemp ptr).2 ⟨hlt, by rw [hget]; exact hc⟩, ?_⟩
        rw [decide_eq_true_eq, hclu ptr, hget, q7]
      rw [hany]
      have : ¬ e.count < c.support := by rw [q2, ← q5]; omega
      simp [this]
    · have hany : (family_order (find_clusters_from_candidates c).1).any
          (fun ptr => decide (((find_clusters_from_candidates c).1.cluster ptr).pElem
            = keyOf (constantsOf pParam l))) = false := by
        rw [List.any_eq_false]
        intro ptr' hptr'
        rw [decide_eq_true_eq, hclu ptr']
        intro hp
        obtain ⟨hlt', hcount'⟩ := (hmemp ptr').1 hptr'
        obtain ⟨e', b1, b2⟩ := hfam.back ptr' hlt'
        rw [hp, q1] at b1
        cases b1
        rw [q3] at b2
        cases b2
        rw [hget] at hcount'
        exact hc hcount'
      rw [hany]
      have : e.count < c.support := by rw [q2, ← q5]; omega
      simp [this]

/-! ## The string hash -/

theorem hash_step_lt (h b : Nat) (hh : h < 2 ^ 64) : hash_step h b < 2 ^ 64 := by
  unfold hash_step
  exact Nat.xor_lt_two_pow hh (Nat.mod_lt _ (by norm_num))

theorem hash_recurrence_lt (s : List Nat) :
    ∀ h, h < 2 ^ 64 → hash_recurrence s h < 2 ^ 64 := by
  induction s with
  | nil => intro h hh; exact hh
  | cons b s ih => intro h hh; exact ih _ (hash_step_lt h b hh)

theorem hash_step_signed_lt (h b : Nat) (hh : h < 2 ^ 64) : hash_step_signed h b < 2 ^ 64 := by
  unfold hash_step_signed
  refine Nat.xor_lt_two_pow hh ?_
  have h1 : (((h * 32 % 2 ^ 64 + h / 4 : Nat) : Int) + signed_char b) % 2 ^ 64 < 2 ^ 64 :=
    Int.emod_lt_of_pos _ (by norm_num)
  have h2 : 0 ≤ (((h * 32 % 2 ^ 64 + h / 4 : Nat) : Int) + signed_char b) % 2 ^ 64 :=
    Int.emod_nonneg _ (by norm_num)
  omega

theorem hash_recurrence_signed_lt (s : List Nat) :
    ∀ h, h < 2 ^ 64 → hash_recurrence_signed s h < 2 ^ 64 := by
  induction s with
  | nil => intro h hh; exact hh
  | cons b s ih => intro h hh; exact ih _ (hash_step_signed_lt h b hh)

/-- The summand of `str2hash` for a byte is the `char` value of the byte
modulo `2 ^ 64`. -/
theorem char_to_ulong_signed (A b : Nat) :
    (A + char_to_ulong b) % 2 ^ 64 = (((A : Int) + signed_char b) % 2 ^ 64).toNat := by
  unfold char_to_ulong signed_char
  by_cases hb : b < 128
  · rw [if_pos hb, if_pos hb]
    omega
  · rw [if_neg hb, if_neg hb]
    omega

theorem str2hash_fold (s : List Nat) :
    ∀ h, s.foldl
        (fun h c => h ^^^ (((h <<< 5) % 2 ^ 64 + (h >>> 2) + char_to_ulong c) % 2 ^ 64)) h
      = hash_recurrence_signed s h := by
  induction s with
  | nil => intro h; rfl
  | cons b s ih =>
    intro h
    rw [List.foldl_cons, ih]
    have e : h ^^^ (((h <<< 5) % 2 ^ 64 + (h >>> 2) + char_to_ulong b) % 2 ^ 64)
        = hash_step_signed h b := by
      unfold hash_step_signed
      rw [Nat.shiftLeft_eq, Nat.shiftRight_eq_div_pow, ← char_to_ulong_signed]
      rfl
    rw [e]
    rfl

theorem hash_step_signed_ascii (h b : Nat) (hb : b < 128) :
    hash_step_signed h b = hash_step h b := by
  unfold hash_step_signed hash_step
  rw [← char_to_ulong_signed]
  unfold char_to_ulong
  rw [if_pos hb]

theorem hash_recurrence_signed_ascii (s : List Nat) (hs : ∀ b ∈ s, b < 128) :
    ∀ h, hash_recurrence_signed s h = hash_recurrence s h := by
  induction s with
  | nil => intro h; rfl
  | cons b s ih =>
    intro h
    unfold hash_recurrence_signed hash_recurrence
    rw [hash_step_signed_ascii h b (hs b (List.mem_cons_self _ _)),
      ih (fun c hc => hs c (List.mem_cons_of_mem _ hc))]

/-- C23 (amended): for every byte string `s`, modulus `M > 0` and 64-bit seed,
`str2hash s M seed` is the value of the recurrence `h ← h XOR ((h << 5) +
(h >> 2) + c)` over the bytes of `s` in order, started with the seed and
computed on 64-bit words, reduced modulo `M`, where `c` is the byte read as a
signed `char`: the byte `b` itself below 128 and `b - 256` from 128 on, the sum
wrapping modulo `2 ^ 64`.  For a string of bytes below 128 this is the
recurrence with `c = b`.  Every value of the recurrence is a 64-bit word, and
the result is below `M`. -/
theorem str2hash_signed_recurrence (s : Key) (M seed : Nat) (hM : 0 < M)
    (hseed : seed < 2 ^ 64) :
    str2hash s M seed = hash_recurrence_signed s seed % M ∧
    ((∀ b ∈ s, b < 128) → str2hash s M seed = hash_recurrence s seed % M) ∧
    (∀ n, hash_recurrence_signed (s.take n) seed < 2 ^ 64) ∧
    str2hash s M seed < M := by
  have e : str2hash s M seed = hash_recurrence_signed s seed % M := by
    unfold str2hash
    rw [str2hash_fold]
  exact ⟨e, fun hs => by rw [e, hash_recurrence_signed_ascii s hs],
    fun n => hash_recurrence_signed_lt _ _ hseed, by rw [e]; exact Nat.mod_lt _ hM⟩

theorem str2hash_signed_recurrence_witness :
    hash_recurrence_signed [195, 169] 0 = 13835058055282165818 ∧
    str2hash [195, 169] 100000 0 = hash_recurrence_signed [195, 169] 0 % 100000 ∧
    ((∀ b ∈ ([195, 169] : Key), b < 128) →
      str2hash [195, 169] 100000 0 = hash_recurrence [195, 169] 0 % 100000) ∧
    (∀ n, hash_recurrence_signed (([195, 169] : Key).take n) 0 < 2 ^ 64) ∧
    str2hash [195, 169] 100000 0 < 100000 :=
  ⟨by decide, str2hash_signed_recurrence [195, 169] 100000 0 (by decide) (by decide)⟩

/-- C23, the counterexample: for the two bytes 195 and 169 (the UTF-8 encoding
of `é`), the modulus 100000 and the seed 0, the recurrence of the claim, which
adds every byte as a number from 0 to 255, gives 6650, and `str2hash` gives
65818. -/
theorem str2hash_recurrence_unsigned :
    0 < 100000 ∧ 0 < 2 ^ 64 ∧
    hash_recurrence [195, 169] 0 % 100000 = 6650 ∧
    str2hash [195, 169] 100000 0 = 65818 ∧
    str2hash [195, 169] 100000 0 ≠ hash_recurrence [195, 169] 0 % 100000 := by
  refine ⟨by decide, by decide, by decide, by decide, by decide⟩

/-! ## Validation of the parameters -/

theorem ite_zero_of_else {c : Prop} [Decidable c] {x : Int} (h : x = 0) :
    (if c then 0 else x) = 0 := by
  split
  · rfl
  · exact h

/-- The parameters of `csizeAggrsupParams` without `--aggrsup` pass the
validation. -/
theorem validate_parameters_csize_only :
    validate_parameters (fun _ => 0) { csizeAggrsupParams with bAggrsupFlag := false } = 1 := by
  decide

/-- C27: for every parameter record with a cluster sketch size that is not 0
and with the flag of `--aggrsup` set, whatever the other fields and the results
of `regcomp` are, `validate_parameters` returns 0, and step 0.C of `main` exits
before any pass over the input. -/
theorem validate_parameters_csize_aggrsup (regcomp : Key → Int) (pParam : Parameters)
    (hc : pParam.clusterSketchSize ≠ 0) (ha : pParam.bAggrsupFlag = true) :
    validate_parameters regcomp pParam = 0 ∧ main_step_0_C regcomp pParam = none := by
  have h : validate_parameters regcomp pParam = 0 := by
    unfold validate_parameters
    iterate 16 apply ite_zero_of_else
    rw [if_pos ⟨hc, ha⟩]
  exact ⟨h, by unfold main_step_0_C; rw [if_pos h]⟩

theorem validate_parameters_csize_aggrsup_witness :
    csizeAggrsupParams.clusterSketchSize ≠ 0 ∧ csizeAggrsupParams.bAggrsupFlag = true ∧
    validate_parameters (fun _ => 0) csizeAggrsupParams = 0 ∧
    main_step_0_C (fun _ => 0) csizeAggrsupParams = none :=
  ⟨by decide, by decide,
    validate_parameters_csize_aggrsup (fun _ => 0) csizeAggrsupParams (by decide) (by decide)⟩

/-! ## The output mode 1 with joined clusters -/

/-- C21, as stated, fails: on two lines `I e0 u`, three lines `I e1 u` and two
lines `A B C D`, with support 2, the threshold 0.75 and the output mode 1, the
clusters `I e0 u` and `I e1 u` are joined and the cluster `A B C D` is not.
`step_3_print_clusters` prints the joined cluster `I (e0|e1) u`, of the bucket
3, before the cluster `A B C D`, of the bucket 4, that is not joined, and no
heading: the output is not that of the function with the two sections, whose
call `print_clusters_constant1` holds in a comment. -/
theorem print_clusters_constant1_two_sections :
    sectionJoined.outputMode = 1 ∧ sectionJoined.wordWeightThreshold ≠ 0 ∧
    sectionJoined.clusterNum = 3 ∧ sectionJoined.joinedClusterInputNum = 2 ∧
    sectionJoined.joinedClusterOutputNum = 1 ∧
    step_3_print_clusters_calls sectionJoined
      = [PrintCall.withToken (some 3), PrintCall.cluster (some 2)] ∧
    step_3_print_clusters sectionJoined
      = [10] ++ [73, 32, 40, 101, 48, 124, 101, 49, 41, 32, 117, 32, 10]
        ++ [83, 117, 112, 112, 111, 114, 116, 32, 58, 32, 53, 10, 10]
        ++ [65, 32, 66, 32, 67, 32, 68, 32, 10]
        ++ [83, 117, 112, 112, 111, 114, 116, 32, 58, 32, 50, 10, 10] ++ [10] ∧
    print_clusters_if_join_cluster_constant_1 sectionJoined
      = [62, 62, 62, 62, 62, 62, 84, 104, 101, 32, 49, 32, 99, 108, 117, 115, 116, 101, 114, 115,
         32, 116, 104, 97, 116, 32, 97, 114, 101, 32, 110, 111, 116, 32, 106, 111, 105, 110, 101,
         100, 58, 10, 10]
        ++ [65, 32, 66, 32, 67, 32, 68, 32, 10]
        ++ [83, 117, 112, 112, 111, 114, 116, 32, 58, 32, 50, 10, 10]
        ++ [62, 62, 62, 62, 62, 62, 84, 104, 101, 32, 49, 32, 106, 111, 105, 110, 101, 100, 32, 99,
            108, 117, 115, 116, 101, 114, 115, 58, 10, 10]
        ++ [73, 32, 40, 101, 48, 124, 101, 49, 41, 32, 117, 32, 10]
        ++ [83, 117, 112, 112, 111, 114, 116, 32, 58, 32, 53, 10, 10] ∧
    step_3_print_clusters sectionJoined
      ≠ [10] ++ print_clusters_if_join_cluster_constant_1 sectionJoined ++ [10] := by
  decide!

/-- C21 (amended): when joining is active and the output mode is 1, the output
is an empty line, then for every bucket `k = 1 .. biggestConstants` in turn the
clusters of the bucket that are not joined followed by the joined clusters of
the bucket, and a final empty line; there is no heading.  The records printed
are those of the two sections (all clusters that are not joined, then all
joined clusters), in another order. -/
theorem print_clusters_constant1_buckets (pParam : Parameters)
    (hmode : pParam.outputMode = 1) (hjoin : pParam.wordWeightThreshold ≠ 0) :
    step_3_print_clusters pParam
      = [10] ++ (List.range' 1 pParam.biggestConstants).flatMap (fun k =>
          ((pParam.pClusterFamily k).filter
              (fun pCluster => (pParam.cluster pCluster).bIsJoined = false)).flatMap
            (fun pCluster => print_cluster (pParam.cluster pCluster))
          ++ (pParam.pClusterWithTokenFamily k).flatMap
            (fun ptr => print_cluster_with_token (pParam.cluster ptr) pParam)) ++ [10] ∧
    (step_3_print_clusters_calls pParam).Perm
      (((family_order pParam).filter
          (fun pCluster => (pParam.cluster pCluster).bIsJoined = false)).map
        (fun pCluster => PrintCall.cluster (some pCluster))
      ++ (token_family_order pParam).map (fun ptr => PrintCall.withToken (some ptr))) := by
  have hcalls : step_3_print_clusters_calls pParam
      = __print_clusters_if_join_cluster_constant_1_calls pParam := by
    unfold step_3_print_clusters_calls
    rw [if_neg (by rw [hmode]; decide), if_pos hmode, if_pos hjoin]
  constructor
  · unfold step_3_print_clusters
    rw [hcalls]
    unfold __print_clusters_if_join_cluster_constant_1_calls
    congr 2
    rw [List.flatMap_assoc]
    congr 1
    funext k
    rw [List.flatMap_append, List.flatMap_map, List.flatMap_map]
    rfl
  · rw [hcalls]
    unfold __print_clusters_if_join_cluster_constant_1_calls family_order token_family_order
    rw [List.filter_flatMap, List.map_flatMap, List.map_flatMap]
    exact (List.flatMap_append_perm _ _ _).symm

theorem print_clusters_constant1_buckets_witness :
    sectionJoined.outputMode = 1 ∧ sectionJoined.wordWeightThreshold ≠ 0 ∧
    step_3_print_clusters sectionJoined
      = [10] ++ (List.range' 1 sectionJoined.biggestConstants).flatMap (fun k =>
          ((sectionJoined.pClusterFamily k).filter
              (fun pCluster => (sectionJoined.cluster pCluster).bIsJoined = false)).flatMap
            (fun pCluster => print_cluster (sectionJoined.cluster pCluster))
          ++ (sectionJoined.pClusterWithTokenFamily k).flatMap
            (fun ptr => print_cluster_with_token (sectionJoined.cluster ptr) sectionJoined))
        ++ [10] ∧
    (step_3_print_clusters_calls sectionJoined).Perm
      (((family_order sectionJoined).filter
          (fun pCluster => (sectionJoined.cluster pCluster).bIsJoined = false)).map
        (fun pCluster => PrintCall.cluster (some pCluster))
      ++ (token_family_order sectionJoined).map (fun ptr => PrintCall.withToken (some ptr))) := by
  have h :
      (sectionJoined.outputMode = 1) ∧
      (sectionJoined.wordWeightThreshold ≠ 0) := by
    decide!
  obtain ⟨h0, h1⟩ := h
  exact ⟨h0, h1, print_clusters_constant1_buckets sectionJoined h0 h1⟩

/-! ## The grouping of the digits -/

theorem digitChar_digit (m : Nat) (h : m < 10) :
    48 ≤ (Nat.digitChar m).toNat ∧ (Nat.digitChar m).toNat ≤ 57 := by
  interval_cases m <;> decide

theorem toDigitsCore_digits (fuel : Nat) :
    ∀ (n : Nat) (ds : List Char), (∀ c ∈ ds, 48 ≤ c.toNat ∧ c.toNat ≤ 57) →
      ∀ c ∈ Nat.toDigitsCore 10 fuel n ds, 48 ≤ c.toNat ∧ c.toNat ≤ 57 := by
  induction fuel with
  | zero => intro n ds h; simpa [Nat.toDigitsCore] using h
  | succ f ih =>
    intro n ds h
    have hd : ∀ c ∈ Nat.digitChar (n % 10) :: ds, 48 ≤ c.toNat ∧ c.toNat ≤ 57 := by
      intro c hc
      rcases List.mem_cons.1 hc with rfl | hc
      · exact digitChar_digit _ (Nat.mod_lt _ (by decide))
      · exact h c hc
    unfold Nat.toDigitsCore
    simp only
    split
    · exact hd
    · exact ih _ _ hd

theorem fmt_lu_digits (n : Nat) : ∀ c ∈ fmt_lu n, 48 ≤ c ∧ c ≤ 57 := by
  intro c hc
  unfold fmt_lu at hc
  obtain ⟨ch, hch, rfl⟩ := List.mem_map.1 hc
  exact toDigitsCore_digits _ _ _ (by simp) ch hch

theorem toDigitsCore_ne_nil (fuel n : Nat) (ds : List Char) :
    Nat.toDigitsCore 10 (fuel + 1) n ds ≠ [] := by
  induction fuel generalizing n ds with
  | zero => simp [Nat.toDigitsCore]
  | succ f ih =>
    unfold Nat.toDigitsCore
    simp only
    split
    · simp
    · exact ih _ _

theorem fmt_lu_length (n : Nat) (h : n < 2 ^ 64) :
    1 ≤ (fmt_lu n).length ∧ (fmt_lu n).length ≤ 20 := by
  unfold fmt_lu
  rw [List.length_map]
  constructor
  · have := toDigitsCore_ne_nil n n []
    exact List.length_pos.2 this
  · exact Nat.toDigitsCore_length 10 (by decide) (n + 1) n 20 (by omega) (by decide)

/-- The loop of `str_format_int_grouped` from a digit with `rest.length` digits
still to copy: every digit is followed by a comma when the number of the digits
to its right is a multiple of three. -/
theorem grouping_fold (rest : List Nat) :
    ∀ acc : List Nat,
      (rest.foldl
        (fun (st : List Nat × Int) ch =>
          let dst := st.1 ++ [ch]
          (if st.2 = 1 then dst ++ [44] else dst, (st.2 + 1) % 3))
        (acc, 2 - ((rest.length : Int) % 3))).1
      = acc ++ (if rest = [] then [] else grouped_digits rest ++ [44]) := by
  induction rest with
  | nil => intro acc; simp
  | cons d rest ih =>
    intro acc
    rw [List.foldl_cons]
    have hlen : ((d :: rest).length : Int) = (rest.length : Int) + 1 := by simp
    have hnext : ((2 - (((d :: rest).length : Int) % 3)) + 1) % 3
        = 2 - ((rest.length : Int) % 3) := by
      rw [hlen]; omega
    have hc : (2 - (((d :: rest).length : Int) % 3) = 1) ↔ rest.length % 3 = 0 := by
      rw [hlen]; omega
    simp only [hnext]
    by_cases h0 : rest.length % 3 = 0
    · rw [if_pos (hc.2 h0), ih]
      by_cases hr : rest = []
      · subst hr
        simp [grouped_digits]
      · simp [grouped_digits, hr, h0]
    · rw [if_neg (fun h => h0 (hc.1 h)), ih]
      have hr : rest ≠ [] := by
        rintro rfl
        exact h0 rfl
      simp [grouped_digits, hr, h0]

theorem str_format_int_grouped_eq (num : Nat) :
    str_format_int_grouped num = grouped_digits (fmt_lu num) := by
  unfold str_format_int_grouped
  simp only
  rw [grouping_fold (fmt_lu num) []]
  by_cases h : fmt_lu num = []
  · rw [if_pos h, h]; rfl
  · rw [if_neg h]; simp

theorem grouped_digits_filter (ds : List Nat) (h : ∀ c ∈ ds, c ≠ 44) :
    (grouped_digits ds).filter (fun c => decide (c ≠ 44)) = ds := by
  induction ds with
  | nil => rfl
  | cons d rest ih =>
    have hd : d ≠ 44 := h d (List.mem_cons_self _ _)
    have ih2 := ih (fun c hc => h c (List.mem_cons_of_mem _ hc))
    unfold grouped_digits
    split <;> simp [hd] <;> simpa using ih2

theorem grouped_digits_length (ds : List Nat) :
    (grouped_digits ds).length = ds.length + (ds.length - 1) / 3 := by
  induction ds with
  | nil => rfl
  | cons d rest ih =>
    unfold grouped_digits
    split
    · rename_i h
      have h1 := List.length_pos.2 h.1
      simp only [List.length_cons, ih]
      omega
    · rename_i h
      simp only [List.length_cons, ih]
      by_cases hr : rest = []
      · subst hr; rfl
      · have h1 := List.length_pos.2 hr
        have h2 : rest.length % 3 ≠ 0 := fun e => h ⟨hr, e⟩
        omega

theorem grouped_digits_head (ds : List Nat) : (grouped_digits ds).head? = ds.head? := by
  cases ds with
  | nil => rfl
  | cons d rest => unfold grouped_digits; split <;> rfl

theorem grouped_digits_getLast (ds : List Nat) :
    (grouped_digits ds).getLast? = ds.getLast? := by
  induction ds with
  | nil => rfl
  | cons d rest ih =>
    unfold grouped_digits
    split
    · rename_i h
      obtain ⟨e, rest2, rfl⟩ := List.exists_cons_of_ne_nil h.1
      have hne : grouped_digits (e :: rest2) ≠ [] := by
        unfold grouped_digits; split <;> simp
      obtain ⟨g, gs, hg⟩ := List.exists_cons_of_ne_nil hne
      rw [hg] at ih ⊢
      simp only [List.getLast?_cons_cons] at ih ⊢
      exact ih
    · cases rest with
      | nil => rfl
      | cons e rest2 =>
        have hne : grouped_digits (e :: rest2) ≠ [] := by
          unfold grouped_digits; split <;> simp
        obtain ⟨g, gs, hg⟩ := List.exists_cons_of_ne_nil hne
        rw [hg] at ih ⊢
        simp only [List.getLast?_cons_cons] at ih ⊢
        exact ih

theorem str_format_int_grouped_return_eq (num : Nat) (h : num < 2 ^ 64) :
    str_format_int_grouped_return num = (str_format_int_grouped num).length := by
  obtain ⟨h1, h20⟩ := fmt_lu_length num h
  have hne : fmt_lu num ≠ [] := List.length_pos.1 h1
  have hl := grouped_digits_length (fmt_lu num)
  rw [str_format_int_grouped_eq]
  unfold str_format_int_grouped_return
  simp only
  rw [grouping_fold (fmt_lu num) [], if_neg hne]
  simp only [List.nil_append, List.length_append, List.length_singleton]
  omega

/-- C22: for every 64-bit unsigned number, `str_format_int_grouped` writes the
decimal digits of the number with a comma after every digit that has a positive
multiple of three digits to its right, and nothing else: deleting the commas
gives the decimal representation, the first and the last character are digits,
the length of the string is the number of the digits plus the number of the
commas, at most 26, the string with the comma that the loop writes after the
last digit, which the final NUL replaces, fits the buffer of `MAXDIGITBIT`
bytes, and the returned value `p_dst - dst` is the length of the string. -/
theorem str_format_int_grouped_spec (num : Nat) (h : num < 2 ^ 64) :
    str_format_int_grouped num = grouped_digits (fmt_lu num) ∧
    (str_format_int_grouped num).filter (fun c => decide (c ≠ 44)) = fmt_lu num ∧
    (∃ d, (str_format_int_grouped num).head? = some d ∧ 48 ≤ d ∧ d ≤ 57) ∧
    (∃ d, (str_format_int_grouped num).getLast? = some d ∧ 48 ≤ d ∧ d ≤ 57) ∧
    (str_format_int_grouped num).length
      = (fmt_lu num).length + ((fmt_lu num).length - 1) / 3 ∧
    (str_format_int_grouped num).length ≤ 26 ∧
    (str_format_int_grouped num).length + 1 ≤ MAXDIGITBIT ∧
    str_format_int_grouped_return num = (str_format_int_grouped num).length := by
  have hd := fmt_lu_digits num
  obtain ⟨h1, h20⟩ := fmt_lu_length num h
  have hne : fmt_lu num ≠ [] := List.length_pos.1 h1
  have hret := str_format_int_grouped_return_eq num h
  rw [str_format_int_grouped_eq] at hret ⊢
  refine ⟨rfl, grouped_digits_filter _ (fun c hc => by have := hd c hc; omega), ?_, ?_,
    grouped_digits_length _, ?_, ?_, hret⟩
  · rw [grouped_digits_head]
    obtain ⟨d, rest, e⟩ := List.exists_cons_of_ne_nil hne
    exact ⟨d, by rw [e]; rfl, hd d (by rw [e]; exact List.mem_cons_self _ _)⟩
  · rw [grouped_digits_getLast]
    refine ⟨(fmt_lu num).getLast hne, List.getLast?_eq_getLast _ hne,
      hd _ (List.getLast_mem hne)⟩
  · rw [grouped_digits_length]; omega
  · rw [grouped_digits_length]; unfold MAXDIGITBIT; omega

theorem str_format_int_grouped_spec_witness :
    str_format_int_grouped 1234567 = grouped_digits (fmt_lu 1234567) ∧
    (str_format_int_grouped 1234567).filter (fun c => decide (c ≠ 44)) = fmt_lu 1234567 ∧
    (∃ d, (str_format_int_grouped 1234567).head? = some d ∧ 48 ≤ d ∧ d ≤ 57) ∧
    (∃ d, (str_format_int_grouped 1234567).getLast? = some d ∧ 48 ≤ d ∧ d ≤ 57) ∧
    (str_format_int_grouped 1234567).length
      = (fmt_lu 1234567).length + ((fmt_lu 1234567).length - 1) / 3 ∧
    (str_format_int_grouped 1234567).length ≤ 26 ∧
    (str_format_int_grouped 1234567).length + 1 ≤ MAXDIGITBIT ∧
    str_format_int_grouped_return 1234567 = (str_format_int_grouped 1234567).length :=
  str_format_int_grouped_spec 1234567 (by decide)

/-- The largest 64-bit number is written as `18,446,744,073,709,551,615`, a
string of 26 characters. -/
theorem str_format_int_grouped_max :
    str_format_int_grouped (2 ^ 64 - 1)
      = [49, 56, 44, 52, 52, 54, 44, 55, 52, 52, 44, 48, 55, 51, 44, 55, 48, 57, 44, 53, 53, 49,
         44, 54, 49, 53] ∧
    (str_format_int_grouped (2 ^ 64 - 1)).length = 26 := by
  decide

/-! ## The relative support -/

theorem VocabFrame.refl_vocab (p : Parameters) : VocabFrame p p := by
  unfold VocabFrame; rfl

theorem VocabFrame.trans_vocab {p q r : Parameters} (h1 : VocabFrame p q) (h2 : VocabFrame q r) :
    VocabFrame p r := by
  unfold VocabFrame at *
  rw [h2, h1]

theorem vocab_word_frame (st : Parameters × VocabularyLocals) (word : Key) :
    VocabFrame st.1 (create_vocabulary_word st word).1 ∧
    (create_vocabulary_word st word).2.linecount = st.2.linecount := by
  unfold create_vocabulary_word
  simp only []
  split
  · exact ⟨VocabFrame.refl_vocab _, rfl⟩
  · split
    · exact ⟨VocabFrame.refl_vocab _, rfl⟩
    · split
      · exact ⟨VocabFrame.refl_vocab _, rfl⟩
      · split <;> split <;> exact ⟨by unfold VocabFrame; rfl, rfl⟩

theorem vocab_words_frame (ws : List Key) :
    ∀ st : Parameters × VocabularyLocals,
      VocabFrame st.1 (ws.foldl create_vocabulary_word st).1 ∧
      (ws.foldl create_vocabulary_word st).2.linecount = st.2.linecount := by
  induction ws with
  | nil => intro st; exact ⟨VocabFrame.refl_vocab _, rfl⟩
  | cons w ws ih =>
    intro st
    rw [List.foldl_cons]
    obtain ⟨a1, a2⟩ := vocab_word_frame st w
    obtain ⟨b1, b2⟩ := ih (create_vocabulary_word st w)
    exact ⟨a1.trans_vocab b1, b2.trans a2⟩

theorem vocab_line_frame (st : Parameters × VocabularyLocals) (ws : List Key) :
    VocabFrame st.1 (create_vocabulary_line st ws).1 ∧
    (create_vocabulary_line st ws).2.linecount = st.2.linecount + 1 := by
  obtain ⟨a1, a2⟩ := vocab_words_frame ws (st.1, { st.2 with distinctWords := 0 })
  unfold create_vocabulary_line
  exact ⟨a1, by simp only; rw [a2]⟩

theorem vocab_lines_frame (input : List (List Key)) :
    ∀ st : Parameters × VocabularyLocals,
      VocabFrame st.1 (input.foldl create_vocabulary_line st).1 ∧
      (input.foldl create_vocabulary_line st).2.linecount = st.2.linecount + input.length := by
  induction input with
  | nil => intro st; exact ⟨VocabFrame.refl_vocab _, rfl⟩
  | cons l input ih =>
    intro st
    rw [List.foldl_cons]
    obtain ⟨a1, a2⟩ := vocab_line_frame st l
    obtain ⟨b1, b2⟩ := ih (create_vocabulary_line st l)
    exact ⟨a1.trans_vocab b1, by rw [b2, a2, List.length_cons]; omega⟩

theorem vocab_loop_frame (pParam : Parameters) (input : List (List Key)) (g : Nat) :
    VocabFrame pParam (create_vocabulary_loop pParam input g).1 ∧
    (create_vocabulary_loop pParam input g).2.linecount = g + input.length := by
  obtain ⟨a1, a2⟩ := vocab_lines_frame input
    ({ pParam with ppWordTable := List.replicate pParam.wordTableSize [] },
     { number := 0, distinctWords := 0, linecount := g })
  refine ⟨?_, a2⟩
  have h0 : VocabFrame pParam
      { pParam with ppWordTable := List.replicate pParam.wordTableSize [] } := by
    unfold VocabFrame; rfl
  exact h0.trans_vocab a1

theorem SketchFrame.refl_sketch (p : Parameters) : SketchFrame p p := by
  unfold SketchFrame; rfl

theorem SketchFrame.trans_sketch {p q r : Parameters} (h1 : SketchFrame p q) (h2 : SketchFrame q r) :
    SketchFrame p r := by
  unfold SketchFrame at *
  rw [h2, h1]

theorem create_word_sketch_word_frame (p : Parameters) (word : Key) :
    SketchFrame p (create_word_sketch_word p word) := by
  unfold create_word_sketch_word
  split
  · exact SketchFrame.refl_sketch _
  · unfold SketchFrame; rfl

theorem create_word_sketch_words_frame (ws : List Key) :
    ∀ p : Parameters, SketchFrame p (ws.foldl create_word_sketch_word p) := by
  induction ws with
  | nil => intro p; exact SketchFrame.refl_sketch _
  | cons w ws ih =>
    intro p
    rw [List.foldl_cons]
    exact (create_word_sketch_word_frame p w).trans_sketch (ih _)

theorem create_word_sketch_lines_frame (input : List (List Key)) :
    ∀ st : Parameters × Nat,
      SketchFrame st.1 (input.foldl create_word_sketch_line st).1 ∧
      (input.foldl create_word_sketch_line st).2 = st.2 + input.length := by
  induction input with
  | nil => intro st; exact ⟨SketchFrame.refl_sketch _, rfl⟩
  | cons l input ih =>
    intro st
    rw [List.foldl_cons]
    obtain ⟨b1, b2⟩ := ih (create_word_sketch_line st l)
    refine ⟨(create_word_sketch_words_frame l st.1).trans_sketch b1, ?_⟩
    rw [b2, List.length_cons]
    show st.2 + 1 + input.length = _
    omega

theorem create_word_sketch_loop_fields (pParam : Parameters) (input : List (List Key)) :
    SketchFrame pParam (create_word_sketch_loop pParam input).1 ∧
    (create_word_sketch_loop pParam input).2 = input.length := by
  obtain ⟨a1, a2⟩ := create_word_sketch_lines_frame input
    ({ pParam with
        pWordSketch := fun j => if j < pParam.wordSketchSize then 0 else pParam.pWordSketch j },
     0)
  refine ⟨?_, by unfold create_word_sketch_loop; rw [a2]; simp⟩
  have h0 : SketchFrame pParam
      { pParam with
        pWordSketch := fun j => if j < pParam.wordSketchSize then 0 else pParam.pWordSketch j } := by
    unfold SketchFrame; rfl
  exact h0.trans_sketch a1

theorem support_from_linecount_support (linecount : Nat) (pParam : Parameters) :
    (support_from_linecount linecount pParam).support
      = if pParam.support = 0
        then support_percentage linecount pParam.pctSupport
        else pParam.support := by
  unfold support_from_linecount
  by_cases h : pParam.support = 0
  · by_cases hl : pParam.linecount = 0 <;> simp [h, hl]
  · by_cases hl : pParam.linecount = 0 <;> simp [h, hl]

theorem support_from_linecount_sketch (linecount : Nat) (pParam : Parameters) :
    (support_from_linecount linecount pParam).pWordSketch = pParam.pWordSketch ∧
    (support_from_linecount linecount pParam).wordSketchSize = pParam.wordSketchSize ∧
    (support_from_linecount linecount pParam).wordSketchSeed = pParam.wordSketchSeed ∧
    (support_from_linecount linecount pParam).ppWordTable = pParam.ppWordTable ∧
    (support_from_linecount linecount pParam).wordTableSize = pParam.wordTableSize ∧
    (support_from_linecount linecount pParam).wordTableSeed = pParam.wordTableSeed := by
  unfold support_from_linecount
  by_cases h : pParam.support = 0
  · by_cases hl : pParam.linecount = 0 <;> simp [h, hl]
  · by_cases hl : pParam.linecount = 0 <;> simp [h, hl]

theorem create_word_sketch_support (pParam : Parameters) (input : List (List Key)) :
    (create_word_sketch pParam input).1.support
      = if pParam.support = 0
        then support_percentage input.length pParam.pctSupport
        else pParam.support := by
  obtain ⟨a1, a2⟩ := create_word_sketch_loop_fields pParam input
  unfold create_word_sketch
  simp only
  rw [support_from_linecount_support, a2]
  have e1 : (create_word_sketch_loop pParam input).1.support = pParam.support := by
    unfold SketchFrame at a1; rw [a1]
  have e2 : (create_word_sketch_loop pParam input).1.pctSupport = pParam.pctSupport := by
    unfold SketchFrame at a1; rw [a1]
  rw [e1, e2]

theorem create_vocabulary_with_linecount_support (pParam : Parameters)
    (input : List (List Key)) (g : Nat) :
    (create_vocabulary_with_linecount pParam input g).1.support
      = if pParam.support = 0
        then support_percentage (g + input.length) pParam.pctSupport
        else pParam.support := by
  obtain ⟨a1, a2⟩ := vocab_loop_frame pParam input g
  unfold create_vocabulary_with_linecount
  simp only
  rw [support_from_linecount_support, a2]
  have e1 : (create_vocabulary_loop pParam input g).1.support = pParam.support := by
    unfold VocabFrame at a1; rw [a1]
  have e2 : (create_vocabulary_loop pParam input g).1.pctSupport = pParam.pctSupport := by
    unfold VocabFrame at a1; rw [a1]
  rw [e1, e2]

theorem support_percentage_bounds (lines : ℕ) (pct : ℚ) (hp : 0 ≤ pct) (hl : lines ≤ 2 ^ 53)
    (hb : (lines : ℚ) * pct ≤ 2 ^ 52) :
    support_percentage lines pct
      = (Rat.floor (Double.nearest (Double.nearest ((lines : ℚ) * pct) / 100))).toNat ∧
    ⌊(lines : ℚ) * pct / 100⌋ ≤ (support_percentage lines pct : ℤ) ∧
    (support_percentage lines pct : ℤ) ≤ ⌈(lines : ℚ) * pct / 100⌉ := by
  have hX0 : (0 : ℚ) ≤ (lines : ℚ) * pct / 100 :=
    div_nonneg (mul_nonneg (Nat.cast_nonneg _) hp) (by norm_num)
  obtain ⟨N, hN⟩ := Int.eq_ofNat_of_zero_le (Int.floor_nonneg.2 hX0)
  obtain ⟨M, hM⟩ := Int.eq_ofNat_of_zero_le (Int.ceil_nonneg hX0)
  have n1 : ((N : ℕ) : ℚ) ≤ (lines : ℚ) * pct / 100 := by
    have := Int.floor_le ((lines : ℚ) * pct / 100)
    rw [hN] at this
    exact_mod_cast this
  have m1 : (lines : ℚ) * pct / 100 ≤ ((M : ℕ) : ℚ) := by
    have := Int.le_ceil ((lines : ℚ) * pct / 100)
    rw [hM] at this
    exact_mod_cast this
  have m2 : ((M : ℕ) : ℚ) < (lines : ℚ) * pct / 100 + 1 := by
    have := Int.ceil_lt_add_one ((lines : ℚ) * pct / 100)
    rw [hM] at this
    exact_mod_cast this
  have hN53 : 100 * N ≤ 2 ^ 53 := by
    have : ((100 * N : ℕ) : ℚ) ≤ 2 ^ 52 := by push_cast; linarith
    have : 100 * N ≤ 2 ^ 52 := by exact_mod_cast this
    omega
  have hM53 : 100 * M ≤ 2 ^ 53 := by
    have : ((100 * M : ℕ) : ℚ) ≤ 2 ^ 52 + 100 := by push_cast; linarith
    have : 100 * M ≤ 2 ^ 52 + 100 := by exact_mod_cast this
    omega
  obtain ⟨P, hP, p1, p2, -⟩ := Double.round_between ((lines : ℚ) * pct) ((100 * N : ℕ) : ℚ)
    ((100 * M : ℕ) : ℚ) (Double.representable_nat _ hN53) (Double.representable_nat _ hM53)
    (by push_cast; linarith) (by push_cast; linarith)
    (by
      have := pow2_pos 1024
      have : (0 : ℚ) ≤ ((100 * N : ℕ) : ℚ) := Nat.cast_nonneg _
      linarith)
    (pow2_1024_gt _ hM53)
  push_cast at p1 p2
  obtain ⟨Q, hQ, q1, q2, -⟩ := Double.round_between (P / 100) ((N : ℕ) : ℚ) ((M : ℕ) : ℚ)
    (Double.representable_nat _ (by omega)) (Double.representable_nat _ (by omega))
    (by rw [le_div_iff₀ (by norm_num)]; linarith) (by rw [div_le_iff₀ (by norm_num)]; linarith)
    (by
      have := pow2_pos 1024
      have : (0 : ℚ) ≤ ((N : ℕ) : ℚ) := Nat.cast_nonneg _
      linarith)
    (pow2_1024_gt _ (by omega))
  have eP := Double.round_eq_nearest hP
  have eQ := Double.round_eq_nearest hQ
  have hT : support_percentage lines pct = (Rat.floor Q).toNat := by
    unfold support_percentage
    rw [to_double_nat lines hl, hP]
    simp only
    rw [hQ]
    rfl
  have hf : Rat.floor Q = ⌊Q⌋ := rfl
  have f1 : (N : ℤ) ≤ ⌊Q⌋ := by
    rw [Int.le_floor]; exact_mod_cast q1
  have f2 : ⌊Q⌋ ≤ (M : ℤ) := by
    have : (⌊Q⌋ : ℚ) ≤ ((M : ℤ) : ℚ) := le_trans (Int.floor_le Q) (by exact_mod_cast q2)
    exact_mod_cast this
  have hTz : (support_percentage lines pct : ℤ) = ⌊Q⌋ := by
    rw [hT, hf]
    exact Int.toNat_of_nonneg (le_trans (Int.ofNat_nonneg N) f1)
  refine ⟨?_, ?_, ?_⟩
  · rw [hT, eQ, eP]
  · rw [hTz, hN]; exact f1
  · rw [hTz, hM]; exact f2

/-- C24, as stated, fails: on ten lines with the relative support 25 and no
absolute support, `create_word_sketch` and, when it is the first pass and its
variable `linecount` starts at 0, `create_vocabulary` both set the threshold 2,
the integer part of `10 * 25 / 100 = 2.5`; the ceiling is 3. -/
theorem support_percentage_ceiling :
    pctInput.length = 10 ∧
    (create_word_sketch { wordSketchSize := 3, wordTableSize := 5, pctSupport := 25 }
      pctInput).1.support = 2 ∧
    (step_1 { wordSketchSize := 3, wordTableSize := 5, pctSupport := 25 } pctInput 0).1.support
      = 2 ∧
    (step_1 { wordTableSize := 5, pctSupport := 25 } pctInput 0).1.support = 2 ∧
    support_ceiling 10 25 = 3 ∧
    (create_word_sketch { wordSketchSize := 3, wordTableSize := 5, pctSupport := 25 }
      pctInput).1.support ≠ support_ceiling pctInput.length 25 := by
  refine ⟨by decide!, by decide!, by decide!, by decide!, by decide!, by decide!⟩

/-- C24 (amended): when the support is given only as a percentage, the
threshold used after the first pass over an input of `lines` lines is not the
ceiling of `lines * pct / 100`.  It is the integer part of the value that the
expression `linecount * pctSupport / 100` has in double arithmetic: the product
of the line count and the percentage is rounded to the nearest `double`, the
quotient of the rounded product by 100 is rounded to the nearest `double`, and
the conversion to `unsigned long` discards the fraction.  For `pct >= 0` (the
`double` that `atof` returned), at most `2 ^ 53` lines and `lines * pct <=
2 ^ 52`, this threshold is at least the floor and at most the ceiling of the
exact value of `lines * pct / 100`.  The threshold is the same when the first
pass is the word sketch pass and when it is the vocabulary pass with a line
counter that starts at 0. -/
theorem support_percentage_rounded (pParam : Parameters) (input : List (List Key))
    (hs : pParam.support = 0) (hp : 0 ≤ pParam.pctSupport) (hl : input.length ≤ 2 ^ 53)
    (hb : (input.length : ℚ) * pParam.pctSupport ≤ 2 ^ 52) :
    (create_word_sketch pParam input).1.support
      = (Rat.floor (Double.nearest
          (Double.nearest ((input.length : ℚ) * pParam.pctSupport) / 100))).toNat ∧
    (create_vocabulary_with_linecount pParam input 0).1.support
      = (create_word_sketch pParam input).1.support ∧
    ⌊(input.length : ℚ) * pParam.pctSupport / 100⌋
      ≤ ((create_word_sketch pParam input).1.support : ℤ) ∧
    ((create_word_sketch pParam input).1.support : ℤ)
      ≤ ⌈(input.length : ℚ) * pParam.pctSupport / 100⌉ := by
  have e1 := create_word_sketch_support pParam input
  have e3 := create_vocabulary_with_linecount_support pParam input 0
  rw [if_pos hs] at e1 e3
  rw [Nat.zero_add] at e3
  obtain ⟨b1, b2, b3⟩ := support_percentage_bounds input.length pParam.pctSupport hp hl hb
  rw [e1, e3]
  exact ⟨b1, rfl, b2, b3⟩

theorem support_percentage_rounded_witness :
    (create_word_sketch { wordSketchSize := 3, wordTableSize := 5, pctSupport := 25 }
      pctInput).1.support = 2 ∧
    support_percentage 375 (atof (184 / 10)) = 68 ∧
    ⌊((375 : ℕ) : ℚ) * (184 / 10) / 100⌋ = 69 ∧
    support_percentage 1000 (atof (323 / 10)) = 322 ∧
    ⌊((1000 : ℕ) : ℚ) * (323 / 10) / 100⌋ = 323 ∧
    ((create_word_sketch { wordSketchSize := 3, wordTableSize := 5, pctSupport := 25 }
        pctInput).1.support
      = (Rat.floor (Double.nearest (Double.nearest ((pctInput.length : ℚ) *
          ({ wordSketchSize := 3, wordTableSize := 5, pctSupport := 25 } :
            Parameters).pctSupport) / 100))).toNat ∧
    (create_vocabulary_with_linecount
        { wordSketchSize := 3, wordTableSize := 5, pctSupport := 25 } pctInput 0).1.support
      = (create_word_sketch { wordSketchSize := 3, wordTableSize := 5, pctSupport := 25 }
        pctInput).1.support ∧
    ⌊(pctInput.length : ℚ) * ({ wordSketchSize := 3, wordTableSize := 5, pctSupport := 25 } :
          Parameters).pctSupport / 100⌋
      ≤ ((create_word_sketch { wordSketchSize := 3, wordTableSize := 5, pctSupport := 25 }
        pctInput).1.support : ℤ) ∧
    ((create_word_sketch { wordSketchSize := 3, wordTableSize := 5, pctSupport := 25 }
        pctInput).1.support : ℤ)
      ≤ ⌈(pctInput.length : ℚ) * ({ wordSketchSize := 3, wordTableSize := 5, pctSupport := 25 } :
          Parameters).pctSupport / 100⌉) :=
  ⟨by decide!, by decide!, by decide!, by decide!, by decide!,
    support_percentage_rounded { wordSketchSize := 3, wordTableSize := 5, pctSupport := 25 }
      pctInput rfl (by decide) (by decide!) (by decide!)⟩

/-! ## The word sketch -/

theorem sketch_gate_frame {p q : Parameters} (h : VocabFrame p q) (w : Key) :
    sketch_gate q w = sketch_gate p w := by
  unfold VocabFrame at h
  unfold sketch_gate
  rw [h]

theorem create_vocabulary_word_gated (st : Parameters × VocabularyLocals) (w : Key)
    (hg : w = [] ∨ sketch_gate st.1 w = true) : create_vocabulary_word st w = st := by
  unfold create_vocabulary_word
  simp only []
  by_cases hw : w = []
  · rw [if_pos hw]
  · rw [if_neg hw]
    rcases hg with hg | hg
    · exact absurd hg hw
    · unfold sketch_gate at hg
      rw [if_pos (of_decide_eq_true hg)]

theorem create_vocabulary_word_ungated (st : Parameters × VocabularyLocals) (w : Key)
    (hg : sketch_gate st.1 w = false) :
    create_vocabulary_word (without_sketch st.1, st.2) w
      = (without_sketch (create_vocabulary_word st w).1, (create_vocabulary_word st w).2) := by
  unfold create_vocabulary_word
  simp only []
  by_cases hw : w = []
  · rw [if_pos hw, if_pos hw]
  · rw [if_neg hw, if_neg hw]
    have h1 : ¬ (st.1.wordSketchSize ≠ 0 ∧
        st.1.pWordSketch (str2hash w st.1.wordSketchSize st.1.wordSketchSeed)
          < st.1.support) := by
      unfold sketch_gate at hg
      exact of_decide_eq_false hg
    have h2 : ¬ ((without_sketch st.1).wordSketchSize ≠ 0 ∧
        (without_sketch st.1).pWordSketch
            (str2hash w (without_sketch st.1).wordSketchSize (without_sketch st.1).wordSketchSeed)
          < (without_sketch st.1).support) := fun h => h.1 rfl
    rw [if_neg h1, if_neg h2]
    show (match front (add_elem w st.1.ppWordTable st.1.wordTableSize st.1.wordTableSeed)
        (str2hash w st.1.wordTableSize st.1.wordTableSeed) with
      | none => _
      | some x => _) = _
    cases front (add_elem w st.1.ppWordTable st.1.wordTableSize st.1.wordTableSeed)
        (str2hash w st.1.wordTableSize st.1.wordTableSeed) with
    | none => rfl
    | some x =>
      dsimp only [without_sketch]
      split_ifs <;> rfl

theorem vocab_words_gate (ws : List Key) :
    ∀ st : Parameters × VocabularyLocals,
      (ws.filter (fun w => !sketch_gate st.1 w)).foldl create_vocabulary_word
          (without_sketch st.1, st.2)
        = (without_sketch (ws.foldl create_vocabulary_word st).1,
           (ws.foldl create_vocabulary_word st).2) := by
  induction ws with
  | nil => intro st; rfl
  | cons w ws ih =>
    intro st
    rw [List.foldl_cons]
    have hfr := (vocab_word_frame st w).1
    have hfilter : (ws.filter (fun u => !sketch_gate (create_vocabulary_word st w).1 u))
        = ws.filter (fun u => !sketch_gate st.1 u) := by
      congr 1
      funext v
      rw [sketch_gate_frame hfr]
    cases hg : sketch_gate st.1 w with
    | true =>
      rw [List.filter_cons_of_neg (by simp [hg])]
      rw [create_vocabulary_word_gated st w (Or.inr hg)]
      exact ih st
    | false =>
      rw [List.filter_cons_of_pos (by simp [hg]), List.foldl_cons,
        create_vocabulary_word_ungated st w hg, ← hfilter]
      exact ih (create_vocabulary_word st w)

theorem vocab_line_gate (st : Parameters × VocabularyLocals) (ws : List Key) :
    create_vocabulary_line (without_sketch st.1, st.2)
        (ws.filter (fun w => !sketch_gate st.1 w))
      = (without_sketch (create_vocabulary_line st ws).1, (create_vocabulary_line st ws).2) := by
  have h := vocab_words_gate ws (st.1, { st.2 with distinctWords := 0 })
  unfold create_vocabulary_line
  simp only []
  rw [h]

theorem vocab_lines_gate (input : List (List Key)) (p0 : Parameters) :
    ∀ st : Parameters × VocabularyLocals, VocabFrame p0 st.1 →
      (input.map (fun ws => ws.filter (fun w => !sketch_gate p0 w))).foldl create_vocabulary_line
          (without_sketch st.1, st.2)
        = (without_sketch (input.foldl create_vocabulary_line st).1,
           (input.foldl create_vocabulary_line st).2) := by
  induction input with
  | nil => intro st _; rfl
  | cons l input ih =>
    intro st hst
    rw [List.map_cons, List.foldl_cons, List.foldl_cons]
    have e : (l.filter (fun w => !sketch_gate p0 w))
        = l.filter (fun w => !sketch_gate st.1 w) := by
      congr 1
      funext v
      rw [sketch_gate_frame hst]
    rw [e, vocab_line_gate st l]
    exact ih (create_vocabulary_line st l) (hst.trans_vocab (vocab_line_frame st l).1)

theorem linesWith_filter (gate : Key → Bool) (k : Key) (input : List (List Key)) :
    linesWith k (input.map (fun ws => ws.filter (fun w => !gate w)))
      = if gate k = true then 0 else linesWith k input := by
  unfold linesWith
  rw [List.countP_map]
  by_cases hg : gate k = true
  · rw [if_pos hg]
    rw [List.countP_eq_zero]
    intro l _
    simp [List.mem_filter, hg]
  · rw [if_neg hg]
    congr 1
    funext l
    simp [List.mem_filter, hg]

/-- The vocabulary pass behind a word sketch: the count stored for a word is
the number of the lines that contain it, for the words that pass the test on
the sketch, and no other word has a record. -/
theorem create_vocabulary_sketch_counts (pParam : Parameters) (input : List (List Key))
    (g : Nat) (hsz : 0 < pParam.wordTableSize) (word : Key) :
    (lookup (create_vocabulary_loop pParam input g).1.ppWordTable
        pParam.wordTableSize pParam.wordTableSeed word).map Elem.count
      = if word = [] ∨ sketch_gate pParam word = true ∨ linesWith word input = 0 then none
        else some (linesWith word input) := by
  have hsim := vocab_lines_gate input pParam
    ({ pParam with ppWordTable := List.replicate pParam.wordTableSize [] },
     { number := 0, distinctWords := 0, linecount := g })
    (by unfold VocabFrame; rfl)
  have hinv := create_vocabulary_lines_inv (m := (without_sketch pParam).wordTableSize)
    (s := (without_sketch pParam).wordTableSeed) hsz
    (input.map (fun ws => ws.filter (fun w => !sketch_gate pParam w)))
    ({ without_sketch pParam with
        ppWordTable := List.replicate (without_sketch pParam).wordTableSize [] },
     { number := 0, distinctWords := 0, linecount := g }) []
    (create_vocabulary_init_inv (without_sketch pParam) g rfl)
  rw [List.nil_append] at hinv
  have hcnt := hinv.cnt word
  rw [linesWith_snoc_nil, linesWith_filter] at hcnt
  have htab : (create_vocabulary_loop pParam input g).1.ppWordTable
      = ((input.map (fun ws => ws.filter (fun w => !sketch_gate pParam w))).foldl
          create_vocabulary_line
          ({ without_sketch pParam with
              ppWordTable := List.replicate (without_sketch pParam).wordTableSize [] },
           { number := 0, distinctWords := 0, linecount := g })).1.ppWordTable := by
    have := congrArg (fun r => r.1.ppWordTable) hsim
    exact this.symm
  rw [htab]
  show Option.map Elem.count (lookup _ (without_sketch pParam).wordTableSize
    (without_sketch pParam).wordTableSeed word) = _
  rw [hcnt]
  by_cases hw : word = []
  · simp [hw]
  · by_cases hg : sketch_gate pParam word = true
    · simp [hg]
    · simp [hw, hg]

theorem occurrences_ge_linesWith (w : Key) (input : List (List Key)) :
    linesWith w input ≤ occurrences w input := by
  unfold linesWith occurrences
  induction input with
  | nil => simp
  | cons l input ih =>
    rw [List.countP_cons, List.map_cons, List.sum_cons]
    by_cases h : w ∈ l
    · have : 0 < l.count w := List.count_pos_iff.2 h
      simp only [h, decide_True, if_true]
      omega
    · simp only [h, decide_False]
      simp only [Bool.false_eq_true, if_false]
      omega

theorem sketch_words_count (w : Key) (hw : w ≠ []) (ws : List Key) :
    ∀ p : Parameters,
      p.pWordSketch (str2hash w p.wordSketchSize p.wordSketchSeed) + ws.count w
        ≤ (ws.foldl create_word_sketch_word p).pWordSketch
            (str2hash w p.wordSketchSize p.wordSketchSeed) := by
  induction ws with
  | nil => intro p; simp
  | cons v ws ih =>
    intro p
    rw [List.foldl_cons]
    have hfr := create_word_sketch_word_frame p v
    have hsize : (create_word_sketch_word p v).wordSketchSize = p.wordSketchSize := by
      unfold SketchFrame at hfr; rw [hfr]
    have hseed : (create_word_sketch_word p v).wordSketchSeed = p.wordSketchSeed := by
      unfold SketchFrame at hfr; rw [hfr]
    have h := ih (create_word_sketch_word p v)
    rw [hsize, hseed] at h
    refine le_trans ?_ h
    rw [List.count_cons]
    have hstep : p.pWordSketch (str2hash w p.wordSketchSize p.wordSketchSeed)
        + (if v == w then 1 else 0)
        ≤ (create_word_sketch_word p v).pWordSketch
            (str2hash w p.wordSketchSize p.wordSketchSeed) := by
      unfold create_word_sketch_word
      by_cases hv : v = []
      · rw [if_pos hv]
        have : (v == w) = false := by
          rw [hv]; exact beq_false_of_ne (fun e => hw e.symm)
        rw [this]; simp
      · rw [if_neg hv]
        simp only [arrSet]
        by_cases hvw : v = w
        · subst hvw
          simp
        · have : (v == w) = false := beq_false_of_ne hvw
          rw [this]
          simp only [Bool.false_eq_true, if_false, Nat.add_zero]
          by_cases e : str2hash w p.wordSketchSize p.wordSketchSeed
              = str2hash v p.wordSketchSize p.wordSketchSeed
          · rw [if_pos e, e]; omega
          · rw [if_neg e]
    omega

theorem sketch_lines_count (w : Key) (hw : w ≠ []) (input : List (List Key)) :
    ∀ st : Parameters × Nat,
      st.1.pWordSketch (str2hash w st.1.wordSketchSize st.1.wordSketchSeed)
          + occurrences w input
        ≤ (input.foldl create_word_sketch_line st).1.pWordSketch
            (str2hash w st.1.wordSketchSize st.1.wordSketchSeed) := by
  induction input with
  | nil => intro st; simp [occurrences]
  | cons l input ih =>
    intro st
    rw [List.foldl_cons]
    have hfr := create_word_sketch_words_frame l st.1
    have hsize : (create_word_sketch_line st l).1.wordSketchSize = st.1.wordSketchSize := by
      unfold SketchFrame at hfr; unfold create_word_sketch_line; rw [hfr]
    have hseed : (create_word_sketch_line st l).1.wordSketchSeed = st.1.wordSketchSeed := by
      unfold SketchFrame at hfr; unfold create_word_sketch_line; rw [hfr]
    have h := ih (create_word_sketch_line st l)
    rw [hsize, hseed] at h
    have h2 := sketch_words_count w hw l st.1
    have e : occurrences w (l :: input) = l.count w + occurrences w input := by
      unfold occurrences; rw [List.map_cons, List.sum_cons]
    rw [e]
    have h3 : (create_word_sketch_line st l).1 = l.foldl create_word_sketch_word st.1 := rfl
    rw [h3] at h
    omega

theorem create_word_sketch_fields (pParam : Parameters) (input : List (List Key)) :
    (create_word_sketch pParam input).1.wordSketchSize = pParam.wordSketchSize ∧
    (create_word_sketch pParam input).1.wordSketchSeed = pParam.wordSketchSeed ∧
    (create_word_sketch pParam input).1.wordTableSize = pParam.wordTableSize ∧
    (create_word_sketch pParam input).1.wordTableSeed = pParam.wordTableSeed ∧
    (create_word_sketch pParam input).1.pWordSketch
      = (create_word_sketch_loop pParam input).1.pWordSketch := by
  obtain ⟨a1, -⟩ := create_word_sketch_loop_fields pParam input
  obtain ⟨s1, s2, s3, -, s5, s6⟩ := support_from_linecount_sketch
    (create_word_sketch_loop pParam input).2 (create_word_sketch_loop pParam input).1
  unfold SketchFrame at a1
  unfold create_word_sketch
  simp only
  refine ⟨by rw [s2, a1], by rw [s3, a1], by rw [s5, a1], by rw [s6, a1], s1⟩

theorem create_word_sketch_occurrences (pParam : Parameters) (input : List (List Key))
    (w : Key) (hw : w ≠ []) :
    occurrences w input ≤ (create_word_sketch pParam input).1.pWordSketch
      (str2hash w pParam.wordSketchSize pParam.wordSketchSeed) := by
  obtain ⟨-, -, -, -, e⟩ := create_word_sketch_fields pParam input
  rw [e]
  have h := sketch_lines_count w hw input
    ({ pParam with
        pWordSketch := fun j => if j < pParam.wordSketchSize then 0 else pParam.pWordSketch j },
     0)
  exact le_trans (Nat.le_add_left _ _) h

/-- C26: after `create_word_sketch` with a sketch of at least one slot, the
counter of the slot of a non-empty word is at least the number of the
occurrences of the word in the input, which is at least the number of the
lines that contain it.  In the vocabulary pass that follows, a word of the
input whose number of lines reaches the support passes the test on the sketch
and gets a record with that number as its count, and the key of every record
of the word table has a counter that is not below the support; the vocabulary
pass leaves the sketch as it is. -/
theorem word_sketch_sound (pParam : Parameters) (input : List (List Key)) (g : Nat)
    (hsk : 0 < pParam.wordSketchSize) (hsz : 0 < pParam.wordTableSize) :
    (∀ w : Key, w ≠ [] →
      linesWith w input ≤ occurrences w input ∧
      occurrences w input ≤ (create_word_sketch pParam input).1.pWordSketch
        (str2hash w pParam.wordSketchSize pParam.wordSketchSeed)) ∧
    (∀ w : Key, w ≠ [] → 0 < linesWith w input →
      (create_word_sketch pParam input).1.support ≤ linesWith w input →
      sketch_gate (create_word_sketch pParam input).1 w = false ∧
      (lookup (create_vocabulary_with_linecount (create_word_sketch pParam input).1 input g).1.ppWordTable
          pParam.wordTableSize pParam.wordTableSeed w).map Elem.count
        = some (linesWith w input)) ∧
    (∀ (w : Key) (e : Elem),
      lookup (create_vocabulary_with_linecount (create_word_sketch pParam input).1 input g).1.ppWordTable
          pParam.wordTableSize pParam.wordTableSeed w = some e →
      (create_word_sketch pParam input).1.support
        ≤ (create_word_sketch pParam input).1.pWordSketch
            (str2hash w pParam.wordSketchSize pParam.wordSketchSeed)) ∧
    (create_vocabulary_with_linecount (create_word_sketch pParam input).1 input g).1.pWordSketch
      = (create_word_sketch pParam input).1.pWordSketch := by
  obtain ⟨f1, f2, f3, f4, -⟩ := create_word_sketch_fields pParam input
  have hocc := create_word_sketch_occurrences pParam input
  have htab : (create_vocabulary_with_linecount (create_word_sketch pParam input).1 input g).1.ppWordTable
      = (create_vocabulary_loop (create_word_sketch pParam input).1 input g).1.ppWordTable := by
    unfold create_vocabulary_with_linecount
    exact (support_from_linecount_sketch _ _).2.2.2.1
  have hcnt := create_vocabulary_sketch_counts (create_word_sketch pParam input).1 input g
    (by rw [f3]; exact hsz)
  rw [f3, f4] at hcnt
  have hgate : ∀ w, sketch_gate (create_word_sketch pParam input).1 w = false ↔
      (create_word_sketch pParam input).1.support
        ≤ (create_word_sketch pParam input).1.pWordSketch
            (str2hash w pParam.wordSketchSize pParam.wordSketchSeed) := by
    intro w
    unfold sketch_gate
    rw [f1, f2, decide_eq_false_iff_not]
    constructor
    · intro h
      by_contra hlt
      exact h ⟨by omega, by omega⟩
    · intro h hc
      omega
  refine ⟨fun w hw => ⟨occurrences_ge_linesWith w input, hocc w hw⟩, ?_, ?_, ?_⟩
  · intro w hw hpos hsup
    have hg : sketch_gate (create_word_sketch pParam input).1 w = false :=
      (hgate w).2 (le_trans hsup (le_trans (occurrences_ge_linesWith w input) (hocc w hw)))
    refine ⟨hg, ?_⟩
    rw [htab, hcnt w, if_neg]
    rintro (h | h | h)
    · exact hw h
    · rw [hg] at h; cases h
    · omega
  · intro w e he
    rw [htab] at he
    have h := hcnt w
    rw [he] at h
    apply (hgate w).1
    by_contra hg
    rw [if_pos (Or.inr (Or.inl (by simpa using hg)))] at h
    cases h
  · unfold create_vocabulary_with_linecount
    rw [(support_from_linecount_sketch _ _).1]
    have := (vocab_loop_frame (create_word_sketch pParam input).1 input g).1
    unfold VocabFrame at this
    rw [this]

theorem word_sketch_sound_witness :
    0 < sketchParams.wordSketchSize ∧ 0 < sketchParams.wordTableSize ∧
    linesWith [97] sketchInput = 2 ∧ occurrences [97] sketchInput = 3 ∧
    (linesWith [97] sketchInput ≤ occurrences [97] sketchInput ∧
      occurrences [97] sketchInput ≤ (create_word_sketch sketchParams sketchInput).1.pWordSketch
        (str2hash [97] sketchParams.wordSketchSize sketchParams.wordSketchSeed)) ∧
    (sketch_gate (create_word_sketch sketchParams sketchInput).1 [97] = false ∧
      (lookup (create_vocabulary_with_linecount (create_word_sketch sketchParams sketchInput).1
            sketchInput 0).1.ppWordTable
          sketchParams.wordTableSize sketchParams.wordTableSeed [97]).map Elem.count
        = some (linesWith [97] sketchInput)) :=
  ⟨by decide, by decide, by decide, by decide,
    (word_sketch_sound sketchParams sketchInput 0 (by decide) (by decide)).1 [97] (by decide),
    (word_sketch_sound sketchParams sketchInput 0 (by decide) (by decide)).2.1 [97] (by decide)
      (by decide) (by decide!)⟩

/-! ## The relative support that stands for an absolute support -/

/-- A relative support that is exactly `100 * s / lines`, with `100 * s` and
the number of the lines at most `2 ^ 53`, resolves to the threshold `s` in
`create_word_sketch`, and in `create_vocabulary` when its variable `linecount`
starts at 0: the product `lines * pct = 100 * s` and the quotient `s` are
values of the type `double`. -/
theorem rsupport_resolves (pParam : Parameters) (input : List (List Key)) (s : Nat)
    (hs : pParam.support = 0) (hlines : 0 < input.length)
    (hpct : pParam.pctSupport = 100 * (s : ℚ) / (input.length : ℚ))
    (h53 : 100 * s ≤ 2 ^ 53) (hl : input.length ≤ 2 ^ 53) :
    (create_word_sketch pParam input).1.support = s ∧
    (create_vocabulary_with_linecount pParam input 0).1.support = s := by
  have hne : (input.length : ℚ) ≠ 0 := by
    exact_mod_cast (Nat.pos_iff_ne_zero.1 hlines)
  have e : (input.length : ℚ) * pParam.pctSupport = ((100 * s : ℕ) : ℚ) := by
    rw [hpct]; push_cast; field_simp
  have e2 : ((100 * s : ℕ) : ℚ) / 100 = ((s : ℕ) : ℚ) := by
    push_cast; field_simp
  have f : double_to_ulong (s : ℚ) = s := by
    unfold double_to_ulong
    have : Rat.floor (s : ℚ) = (s : Int) := by
      have h1 : Rat.floor (s : ℚ) = ⌊(s : ℚ)⌋ := rfl
      rw [h1]
      exact (Int.floor_natCast s : ⌊((s : Nat) : ℚ)⌋ = ((s : Nat) : Int))
    rw [this]; rfl
  have g : support_percentage input.length pParam.pctSupport = s := by
    unfold support_percentage
    rw [to_double_nat _ hl, e, Double.round_nat _ h53]
    simp only
    rw [e2, Double.round_nat _ (by omega)]
    exact f
  constructor
  · rw [create_word_sketch_support, if_pos hs, g]
  · rw [create_vocabulary_with_linecount_support, if_pos hs, Nat.zero_add, g]

/-- C25, on the code: with 20000 lines the relative support 0.1 gives the
threshold 20 when `linecount` is 20000, as in `create_word_sketch`, and the
threshold 40 when the variable `linecount` of `create_vocabulary`, which is
declared without a value, starts at 20000.  On the four lines `a`, `a`, `b`,
`b` the support 2 keeps the two words; the relative support `100 * 2 / 4 = 50`
gives the threshold 4 and keeps no word when the vocabulary pass is the first
pass and `linecount` starts at 4, and gives the threshold 2 and keeps the two
words when `linecount` starts at 0 or when the word sketch pass is the first
pass. -/
theorem rsupport_vocabulary_linecount :
    (support_from_linecount 20000 { pctSupport := atof (1 / 10) }).support = 20 ∧
    (support_from_linecount (20000 + 20000) { pctSupport := atof (1 / 10) }).support = 40 ∧
    rsupportInput.length = 4 ∧
    (step_1 { support := 2, wordTableSize := 5 } rsupportInput 4).1.support = 2 ∧
    (find_frequent_words (step_1 { support := 2, wordTableSize := 5 } rsupportInput 4).1).2 = 2 ∧
    (step_1 { pctSupport := 50, wordTableSize := 5 } rsupportInput 4).1.support = 4 ∧
    (find_frequent_words (step_1 { pctSupport := 50, wordTableSize := 5 } rsupportInput 4).1).2
      = 0 ∧
    (step_1 { pctSupport := 50, wordTableSize := 5 } rsupportInput 0).1.support = 2 ∧
    (find_frequent_words (step_1 { pctSupport := 50, wordTableSize := 5 } rsupportInput 0).1).2
      = 2 ∧
    (step_1 { pctSupport := 50, wordTableSize := 5, wordSketchSize := 3 }
      rsupportInput 4).1.support = 2 ∧
    (find_frequent_words (step_1 { pctSupport := 50, wordTableSize := 5, wordSketchSize := 3 }
      rsupportInput 4).1).2 = 2 := by
  refine ⟨by decide!, by decide!, by decide!, by decide!, by decide!, by decide!, by decide!,
    by decide!, by decide!, by decide!, by decide!⟩

/-! ## Candidates have constants -/

theorem candidate_constants_frequent (p0 p : Parameters) (m s : Nat) (input : List (List Key))
    (hc : CandInv p0 p m s input) (hf : FamInv p m s)
    (hnl : ∀ l ∈ input, ∀ w ∈ l, CLUSTERSEP ∉ w) (ptr : Nat) (hptr : ptr < p.clusters.length) :
    1 ≤ (p.cluster ptr).constants ∧
    ∀ i, 1 ≤ i → i ≤ (p.cluster ptr).constants →
      ∃ we, (p.cluster ptr).ppWord i = some we ∧ isFrequent p0 we.pKey = true := by
  obtain ⟨e, he1, he2⟩ := hf.back ptr hptr
  obtain ⟨S, a1, a2, a3⟩ := hc.keys _ e he1
  obtain ⟨e1, ptr1, c1, q1, q2, q3, q4, q5, q6, q7, q8, q9⟩ :=
    hc.present S a1 (linesOf_no_sep hnl a2) a2
  rw [← a3, he1] at q1
  cases q1
  rw [he2] at q3
  cases q3
  have hcl : p.cluster ptr = c1 := by
    unfold Parameters.cluster
    rw [List.getD_eq_getElem?_getD, q4]; rfl
  rw [hcl]
  have hpos : 0 < S.length := List.length_pos.2 a1
  refine ⟨by omega, ?_⟩
  intro i hi1 hi2
  have hlt : i - 1 < S.length := by omega
  obtain ⟨we, e1, e2⟩ := q8 (i - 1) _ (List.getElem?_eq_getElem hlt)
  have : i - 1 + 1 = i := by omega
  rw [this] at e1
  refine ⟨we, e1, ?_⟩
  obtain ⟨l, hl⟩ := List.exists_mem_of_ne_nil _ a2
  unfold linesOf at hl
  rw [List.mem_filter, decide_eq_true_eq] at hl
  have hmem : S[i - 1] ∈ constantsOf p0 l := by
    rw [hl.2]; exact List.getElem_mem hlt
  unfold constantsOf at hmem
  rw [e2]
  exact (List.mem_filter.1 hmem).2

theorem create_cluster_candidates_snoc (pParam : Parameters) (pre : List (List Key))
    (l : List Key) (loc : CandidateLocals) (cc : Nat) :
    ∃ st : Parameters × CandidateLocals × Nat,
      st.1 = (create_cluster_candidates pParam pre loc cc).1 ∧
      st.2.2 = (create_cluster_candidates pParam pre loc cc).2 ∧
      create_cluster_candidates pParam (pre ++ [l]) loc cc
        = ((create_cluster_candidates_line st l).1, (create_cluster_candidates_line st l).2.2) := by
  refine ⟨pre.foldl create_cluster_candidates_line
    ({ pParam with ppClusterTable := List.replicate pParam.clusterTableSize [] }, loc, cc),
    rfl, rfl, ?_⟩
  unfold create_cluster_candidates
  simp only [List.foldl_append, List.foldl_cons, List.foldl_nil]

theorem create_cluster_candidates_line_skip (p0 : Parameters)
    (st : Parameters × CandidateLocals × Nat) (l : List Key) (hw : WInv p0 st.1)
    (h0 : constantsOf p0 l = []) :
    (∃ t, (create_cluster_candidates_line st l).1 = { st.1 with ppWordTable := t }) ∧
    (create_cluster_candidates_line st l).2.2 = st.2.2 := by
  obtain ⟨t, ht⟩ := candidate_scan_fields st.1 st.2.1 l
  have hcon := (candidate_scan_decomposition st.1 st.2.1 l).1
  have hfil : l.filter (isFrequent st.1) = l.filter (isFrequent p0) := by
    congr 1
    funext w
    exact isFrequent_congr hw.wsize hw.wseed hw.wsame w
  rw [hfil] at hcon
  unfold constantsOf at h0
  rw [h0, List.length_nil] at hcon
  unfold create_cluster_candidates_line
  simp only []
  rw [if_pos hcon]
  exact ⟨⟨t, ht⟩, rfl⟩

theorem CandLight.of_wordTable_light {p0 p : Parameters} {m s : Nat} (h : CandLight p0 p m s)
    (t : Table) : CandLight p0 { p with ppWordTable := t } m s :=
  { csize := h.csize, cseed := h.cseed, len := h.len, nokey := h.nokey, good := h.good }

theorem CandLight.add_elem_light {p0 p : Parameters} {m s : Nat} (h : CandLight p0 p m s)
    (hm : 0 < m) (k : Key) (hk : k ≠ []) :
    CandLight p0 { p with ppClusterTable := add_elem k p.ppClusterTable m s } m s :=
  { csize := h.csize, cseed := h.cseed,
    len := (add_elem_length k _ m s).trans h.len,
    nokey := (by
      show lookup (add_elem k p.ppClusterTable m s) m s [] = none
      rw [lookup_add_elem_other k [] (Ne.symm hk) _ m s
        (by rw [h.len]; exact str2hash_lt k m s hm)]
      exact h.nokey),
    good := h.good }

theorem CandLight.create_light {p0 p : Parameters} {m s : Nat} (h : CandLight p0 p m s)
    (hm : 0 < m) (k : Key) (hk : k ≠ []) (e0 pElem : Elem)
    (hf : front p.ppClusterTable (str2hash k m s) = some e0) (he0 : e0.pKey = k)
    (he : pElem.pKey = k) (constants : Nat) (wildcard : Nat → Int)
    (pStorage : Nat → Option Elem) (hc : 1 ≤ constants)
    (hs : ∀ i, 1 ≤ i → i ≤ constants →
      ∃ we, pStorage i = some we ∧ isFrequent p0 we.pKey = true) :
    CandLight p0
      (create_cluster_instance (str2hash k m s) pElem constants wildcard pStorage p) m s := by
  refine { csize := h.csize, cseed := h.cseed, len := ?_, nokey := ?_, good := ?_ }
  · show (store_front p.ppClusterTable _ _).length = m
    rw [store_front_length]; exact h.len
  · show lookup (store_front p.ppClusterTable (str2hash k m s)
      { pElem with pCluster := some p.clusters.length }) m s [] = none
    exact (lookup_store_front_other _ m s k [] e0
      { pElem with pCluster := some p.clusters.length } (Ne.symm hk)
      (by rw [h.len]; exact str2hash_lt k m s hm) hf he0 he).trans h.nokey
  · intro ptr hptr
    unfold Parameters.cluster
    unfold create_cluster_instance at hptr ⊢
    simp only [List.length_append, List.length_singleton] at hptr
    simp only []
    by_cases hlt : ptr < p.clusters.length
    · rw [cluster_append_old _ _ _ hlt]; exact h.good ptr hlt
    · have hp : ptr = p.clusters.length := by omega
      subst hp
      rw [List.getD_eq_getElem?_getD, List.getElem?_append_right (le_refl _)]
      simp only [Nat.sub_self, List.getElem?_cons_zero, Option.getD_some]
      refine ⟨hc, ?_⟩
      intro i hi1 hi2
      rw [foldl_storage_set pStorage _ _ i (List.mem_range'_1.2 ⟨hi1, by omega⟩)]
      exact hs i hi1 hi2

theorem CandLight.adjust_light {p0 p : Parameters} {m s : Nat} (h : CandLight p0 p m s)
    (a constants : Nat) (wildcard : Nat → Int) :
    CandLight p0 (adjust_cluster_instance a constants wildcard p) m s := by
  refine { csize := h.csize, cseed := h.cseed, len := h.len, nokey := h.nokey, good := ?_ }
  intro ptr hptr
  unfold adjust_cluster_instance at hptr ⊢
  have hl : ptr < p.clusters.length := by
    simpa [Parameters.setCluster] using hptr
  rw [cluster_setCluster]
  split
  · rename_i hh
    obtain ⟨rfl, ha⟩ := hh
    exact h.good a ha
  · exact h.good ptr hl

theorem CandLight.adjust_front {p0 : Parameters} {m s : Nat} (created : Parameters × Nat)
    (hash constants : Nat) (wildcard : Nat → Int) (h : CandLight p0 created.1 m s) :
    CandLight p0 (match front created.1.ppClusterTable hash with
      | none => created
      | some pElem =>
        match pElem.pCluster with
        | none => created
        | some ptr =>
          (adjust_cluster_instance ptr constants wildcard created.1, created.2)).1 m s := by
  split
  · exact h
  · split
    · exact h
    · exact h.adjust_light _ _ _

theorem put_cluster_light {p0 p : Parameters} {m s : Nat} (h : CandLight p0 p m s)
    (hm : 0 < m) (loc : CandidateLocals) (cc : Nat) (hk : loc.key ≠ [])
    (hc : 1 ≤ loc.constants)
    (hs : ∀ i, 1 ≤ i → i ≤ loc.constants →
      ∃ we, loc.pStorage i = some we ∧ isFrequent p0 we.pKey = true) :
    CandLight p0 (put_cluster p loc cc).1 m s := by
  have e1 := h.csize
  have e2 := h.cseed
  subst e1
  subst e2
  have hlen : str2hash loc.key p.clusterTableSize p.clusterTableSeed
      < p.ppClusterTable.length := by
    rw [h.len]; exact str2hash_lt _ _ _ hm
  have hf := front_add_elem loc.key p.ppClusterTable _ _ hlen
  have hA := h.add_elem_light hm loc.key hk
  have hkey := added_pKey p.ppClusterTable p.clusterTableSize p.clusterTableSeed loc.key
  have hB := hA.create_light hm loc.key hk _
    (added (lookup p.ppClusterTable p.clusterTableSize p.clusterTableSeed loc.key) loc.key)
    hf hkey hkey loc.constants loc.wildcard loc.pStorage hc hs
  unfold put_cluster
  simp only [hf]
  refine CandLight.adjust_front _ _ _ _ ?_
  split
  · exact hB
  · exact hA

theorem keyOf_ne_nil_of_ne_nil (S : List Key) (h : S ≠ []) : keyOf S ≠ [] := by
  cases S with
  | nil => exact absurd rfl h
  | cons x a => rw [keyOf_cons]; simp

theorem create_cluster_candidates_line_light (p0 : Parameters) (m s : Nat) (hm : 0 < m)
    (st : Parameters × CandidateLocals × Nat) (l : List Key)
    (hw : WInv p0 st.1) (hc : CandLight p0 st.1 m s) :
    WInv p0 (create_cluster_candidates_line st l).1 ∧
    CandLight p0 (create_cluster_candidates_line st l).1 m s := by
  have hfreq := hw.isFrequent_eq
  obtain ⟨c1, c2, -, -⟩ := candidate_scan_decomposition st.1 st.2.1 l
  have c3 := candidate_scan_key st.1 st.2.1 l
  have hw2 := candidate_scan_WInv hw st.2.1 l
  obtain ⟨t, ht⟩ := candidate_scan_fields st.1 st.2.1 l
  have hc2 : CandLight p0 (candidate_scan st.1 st.2.1 l).1 m s := by
    rw [ht]; exact hc.of_wordTable_light t
  unfold create_cluster_candidates_line
  simp only []
  split
  · exact ⟨hw2, hc2⟩
  · rename_i h0
    split
    · exact ⟨hw2, hc2⟩
    · obtain ⟨w1, w2, w3⟩ := put_cluster_wordTable (candidate_scan st.1 st.2.1 l).1
        (candidate_scan st.1 st.2.1 l).2 st.2.2
      constructor
      · refine { wsize := ?_, wseed := ?_, wsame := ?_ }
        · rw [w2]; exact hw2.wsize
        · rw [w3]; exact hw2.wseed
        · intro w; rw [w1]; exact hw2.wsame w
      · have hne : l.filter (isFrequent st.1) ≠ [] := by
          intro h; apply h0; rw [c1, h]; rfl
        refine put_cluster_light hc2 hm _ _ ?_ (by omega) ?_
        · rw [c3]; exact keyOf_ne_nil_of_ne_nil _ hne
        · intro i hi1 hi2
          rw [c1] at hi2
          have hlt : i - 1 < (l.filter (isFrequent st.1)).length := by omega
          obtain ⟨e, e1, e2, -⟩ := c2 (i - 1) _ (List.getElem?_eq_getElem hlt)
          have hi : i - 1 + 1 = i := by omega
          rw [hi] at e1
          refine ⟨e, e1, ?_⟩
          rw [e2, ← hfreq]
          exact (List.mem_filter.1 (List.getElem_mem hlt)).2

theorem create_cluster_candidates_lines_light (p0 : Parameters) (m s : Nat) (hm : 0 < m)
    (input : List (List Key)) :
    ∀ (st : Parameters × CandidateLocals × Nat), WInv p0 st.1 → CandLight p0 st.1 m s →
      WInv p0 (input.foldl create_cluster_candidates_line st).1 ∧
      CandLight p0 (input.foldl create_cluster_candidates_line st).1 m s := by
  induction input with
  | nil => intro st hw hc; exact ⟨hw, hc⟩
  | cons l rest ih =>
    intro st hw hc
    obtain ⟨h1, h2⟩ := create_cluster_candidates_line_light p0 m s hm st l hw hc
    exact ih _ h1 h2

theorem create_cluster_candidates_light (pParam : Parameters) (input : List (List Key))
    (loc : CandidateLocals) (cc : Nat) (hsz : 0 < pParam.clusterTableSize)
    (hcl : pParam.clusters = []) :
    WInv pParam (create_cluster_candidates pParam input loc cc).1 ∧
    CandLight pParam (create_cluster_candidates pParam input loc cc).1
      pParam.clusterTableSize pParam.clusterTableSeed := by
  have hinit : CandLight pParam
      { pParam with ppClusterTable := List.replicate pParam.clusterTableSize [] }
      pParam.clusterTableSize pParam.clusterTableSeed := by
    refine { csize := rfl, cseed := rfl, len := by simp, nokey := ?_, good := ?_ }
    · exact lookup_replicate _ _ _ _
    · intro ptr hptr
      change ptr < pParam.clusters.length at hptr
      rw [hcl] at hptr
      exact absurd hptr (Nat.not_lt_zero _)
  have hw : WInv pParam
      { pParam with ppClusterTable := List.replicate pParam.clusterTableSize [] } :=
    { wsize := rfl, wseed := rfl, wsame := fun _ => rfl }
  exact create_cluster_candidates_lines_light pParam pParam.clusterTableSize
    pParam.clusterTableSeed hsz input
    ({ pParam with ppClusterTable := List.replicate pParam.clusterTableSize [] }, loc, cc)
    hw hinit

theorem cluster_sketch_words_clusters (ws : List Key) :
    ∀ st : Parameters × Key × Nat × Nat,
      (ws.foldl cluster_sketch_word st).1.clusters = st.1.clusters := by
  induction ws with
  | nil => intro st; rfl
  | cons w rest ih =>
    intro st
    rw [List.foldl_cons, ih]
    unfold cluster_sketch_word
    simp only []
    split
    · split <;> rfl
    · rfl

theorem cluster_sketch_line_clusters (p : Parameters) (l : List Key) :
    (cluster_sketch_line p l).clusters = p.clusters := by
  unfold cluster_sketch_line
  simp only []
  split
  · exact cluster_sketch_words_clusters l _
  · exact cluster_sketch_words_clusters l _

theorem cluster_sketch_lines_clusters (input : List (List Key)) :
    ∀ p : Parameters, (input.foldl cluster_sketch_line p).clusters = p.clusters := by
  induction input with
  | nil => intro p; rfl
  | cons l rest ih =>
    intro p
    rw [List.foldl_cons, ih, cluster_sketch_line_clusters]

theorem skipSketchParams_fresh : skipSketchParams.clusters = [] := by
  have h := create_vocabulary_frame
    { support := 2, wordTableSize := 5, clusterTableSize := 7, clusterSketchSize := 3 } skipInput
  unfold skipSketchParams create_cluster_candidate_sketch
  dsimp only
  rw [cluster_sketch_lines_clusters]
  exact h.2

theorem skipParams_fresh :
    (∀ i, skipParams.pClusterFamily i = []) ∧ skipParams.clusters = [] := by
  have h := create_vocabulary_frame { support := 2, wordTableSize := 5, clusterTableSize := 7 }
    skipInput
  unfold skipParams
  dsimp only
  rw [h.1, h.2]
  exact ⟨fun _ => rfl, rfl⟩

/-- C28: in the candidate pass, with or without the cluster sketch, every
cluster record has at least one constant, and each of its constants is a
frequent word.  A line without a frequent word leaves the cluster records, the
cluster table (and so every count), the family buckets and the number of the
candidates as they are after the lines before it, and the outlier pass that
follows the selection of the clusters writes the line to the file of the
outliers. -/
theorem candidates_have_constants (pParam : Parameters) (input : List (List Key))
    (loc : CandidateLocals) (cc : Nat) (hsz : 0 < pParam.clusterTableSize)
    (hcl : pParam.clusters = []) :
    (∀ ptr, ptr < (create_cluster_candidates pParam input loc cc).1.clusters.length →
      1 ≤ ((create_cluster_candidates pParam input loc cc).1.cluster ptr).constants ∧
      ∀ i, 1 ≤ i →
        i ≤ ((create_cluster_candidates pParam input loc cc).1.cluster ptr).constants →
        ∃ we, ((create_cluster_candidates pParam input loc cc).1.cluster ptr).ppWord i = some we ∧
          isFrequent pParam we.pKey = true) ∧
    (∀ pre l, constantsOf pParam l = [] →
      (create_cluster_candidates pParam (pre ++ [l]) loc cc).1.clusters
        = (create_cluster_candidates pParam pre loc cc).1.clusters ∧
      (create_cluster_candidates pParam (pre ++ [l]) loc cc).1.ppClusterTable
        = (create_cluster_candidates pParam pre loc cc).1.ppClusterTable ∧
      (create_cluster_candidates pParam (pre ++ [l]) loc cc).1.pClusterFamily
        = (create_cluster_candidates pParam pre loc cc).1.pClusterFamily ∧
      (create_cluster_candidates pParam (pre ++ [l]) loc cc).1.biggestConstants
        = (create_cluster_candidates pParam pre loc cc).1.biggestConstants ∧
      (create_cluster_candidates pParam (pre ++ [l]) loc cc).2
        = (create_cluster_candidates pParam pre loc cc).2) ∧
    (∀ l ∈ input, constantsOf pParam l = [] →
      l ∈ (find_outliers (find_clusters_from_candidates
        (create_cluster_candidates pParam input loc cc).1).1 input).2) := by
  obtain ⟨hwc, hinv⟩ := create_cluster_candidates_light pParam input loc cc hsz hcl
  refine ⟨hinv.good, ?_, ?_⟩
  · intro pre l h0
    obtain ⟨hwpre, -⟩ := create_cluster_candidates_light pParam pre loc cc hsz hcl
    obtain ⟨st, s1, s2, s3⟩ := create_cluster_candidates_snoc pParam pre l loc cc
    rw [← s1] at hwpre
    obtain ⟨⟨t, ht⟩, hcount⟩ := create_cluster_candidates_line_skip pParam st l hwpre h0
    rw [s3, ← s1, ← s2]
    simp only []
    rw [ht, hcount]
    exact ⟨rfl, rfl, rfl, rfl, rfl⟩
  · intro l hl h0
    obtain ⟨-, -, -, s4, -⟩ :=
      find_clusters_from_candidates_buckets (create_cluster_candidates pParam input loc cc).1
    generalize (create_cluster_candidates pParam input loc cc).1 = c at hwc hinv s4 ⊢
    have hwp : WInv pParam (find_clusters_from_candidates c).1 :=
      { wsize := hwc.wsize, wseed := hwc.wseed, wsame := hwc.wsame }
    have hsize : (find_clusters_from_candidates c).1.clusterTableSize
        = pParam.clusterTableSize := hinv.csize
    have hseed : (find_clusters_from_candidates c).1.clusterTableSeed
        = pParam.clusterTableSeed := hinv.cseed
    unfold find_outliers
    rw [find_outliers_lines pParam input _ [] hwp, List.nil_append, List.mem_filter]
    refine ⟨hl, ?_⟩
    have hk : keyOf ([] : List Key) = [] := rfl
    rw [h0, hk, s4, hsize, hseed]
    unfold outlier_test
    rw [hinv.nokey]
    simp

theorem candidates_have_constants_witness :
    skipParams.clusterSketchSize = 0 ∧ 0 < skipParams.clusterTableSize ∧
    skipParams.clusters = [] ∧
    skipSketchParams.clusterSketchSize = 3 ∧
    (List.range 3).map skipSketchParams.pClusterSketch = [0, 0, 2] ∧
    0 < skipSketchParams.clusterTableSize ∧ skipSketchParams.clusters = [] ∧
    constantsOf skipParams [[120], [121]] = [] ∧
    constantsOf skipSketchParams [[120], [121]] = [] ∧
    (create_cluster_candidates skipParams skipInput {} 0).1.clusters.length = 1 ∧
    (create_cluster_candidates skipParams skipInput {} 0).2 = 1 ∧
    (create_cluster_candidates skipSketchParams skipInput {} 0).1.clusters.length = 1 ∧
    (create_cluster_candidates skipSketchParams skipInput {} 0).2 = 1 ∧
    [[120], [121]] ∈ (find_outliers (find_clusters_from_candidates
        (create_cluster_candidates skipParams skipInput {} 0).1).1 skipInput).2 ∧
    [] ∈ (find_outliers (find_clusters_from_candidates
        (create_cluster_candidates skipParams skipInput {} 0).1).1 skipInput).2 ∧
    [[120], [121]] ∈ (find_outliers (find_clusters_from_candidates
        (create_cluster_candidates skipSketchParams skipInput {} 0).1).1 skipInput).2 ∧
    [] ∈ (find_outliers (find_clusters_from_candidates
        (create_cluster_candidates skipSketchParams skipInput {} 0).1).1 skipInput).2 :=
  ⟨by decide!, by decide!, skipParams_fresh.2, by decide!, by decide!, by decide!,
    skipSketchParams_fresh, by decide!, by decide!, by decide!, by decide!, by decide!,
    by decide!,
    (candidates_have_constants skipParams skipInput {} 0 (by decide!)
      skipParams_fresh.2).2.2 [[120], [121]] (by decide) (by decide!),
    (candidates_have_constants skipParams skipInput {} 0 (by decide!)
      skipParams_fresh.2).2.2 [] (by decide) (by decide!),
    (candidates_have_constants skipSketchParams skipInput {} 0 (by decide!)
      skipSketchParams_fresh).2.2 [[120], [121]] (by decide) (by decide!),
    (candidates_have_constants skipSketchParams skipInput {} 0 (by decide!)
      skipSketchParams_fresh).2.2 [] (by decide) (by decide!)⟩

/-! ## The order of the children in the prefix trie -/

theorem siblings_modify_children (g : TrieNode → TrieNode) (t : TrieNode) (a : Nat) :
    (TrieNode.modify (fun pd pc pn => .node pd (g pc) pn) t a).siblings = t.siblings := by
  induction t with
  | null => rfl
  | node d c n _ ihn =>
    by_cases h : d.addr = a
    · simp only [TrieNode.modify, h, if_true, TrieNode.siblings]
    · simp only [TrieNode.modify, h, if_false, TrieNode.siblings, ihn]

theorem siblings_modify_next (dnew : TrieData) (t : TrieNode) (a : Nat) :
    (TrieNode.modify (fun pd pc pn => .node pd pc (.node dnew .null pn)) t a).siblings
      = insert_after dnew a t.siblings := by
  induction t with
  | null => rfl
  | node d c n _ ihn =>
    by_cases h : d.addr = a
    · simp only [TrieNode.modify, h, if_true, TrieNode.siblings, insert_after]
    · simp only [TrieNode.modify, h, if_false, TrieNode.siblings, insert_after, ihn]

theorem siblings_modify_end (o : Nat) (t : TrieNode) (a : Nat) :
    List.Forall₂ (fun d d1 : TrieData => d1.pWord = d.pWord ∧ d1.hashValue = d.hashValue ∧
        d1.wildcardMin = d.wildcardMin ∧ d1.wildcardMax = d.wildcardMax)
      t.siblings
      (TrieNode.modify (fun d pc pn => .node { d with pIsEnd := some o } pc pn) t a).siblings := by
  induction t with
  | null => exact List.Forall₂.nil
  | node d c n _ ihn =>
    by_cases h : d.addr = a
    · simp only [TrieNode.modify, h, if_true, TrieNode.siblings]
      refine List.Forall₂.cons ⟨rfl, rfl, rfl, rfl⟩ ?_
      exact List.forall₂_same.2 (fun _ _ => ⟨rfl, rfl, rfl, rfl⟩)
    · simp only [TrieNode.modify, h, if_false, TrieNode.siblings]
      exact List.Forall₂.cons ⟨rfl, rfl, rfl, rfl⟩ ihn

theorem SiblingsSorted.of_rel {wh seed : Nat} {l l1 : List TrieData}
    (h : List.Forall₂ (fun d d1 : TrieData => d1.pWord = d.pWord ∧
        d1.hashValue = d.hashValue ∧ d1.wildcardMin = d.wildcardMin ∧
        d1.wildcardMax = d.wildcardMax) l l1)
    (hs : SiblingsSorted wh seed l) : SiblingsSorted wh seed l1 := by
  induction h with
  | nil => exact hs
  | @cons a a1 l l1 ha _ ih =>
    obtain ⟨h1, h2⟩ := hs
    rw [List.pairwise_cons] at h2
    have hrest : SiblingsSorted wh seed l :=
      ⟨fun d hd => h1 d (List.mem_cons_of_mem _ hd), h2.2⟩
    obtain ⟨i1, i2⟩ := ih hrest
    obtain ⟨e1, e2, e3, e4⟩ := ha
    refine ⟨?_, List.pairwise_cons.2 ⟨?_, i2⟩⟩
    · intro d hd
      rcases List.mem_cons.1 hd with rfl | hd
      · have := h1 a (List.mem_cons_self _ _)
        unfold NodeHash at this ⊢
        rw [e1, e2]; exact this
      · exact i1 d hd
    · intro b1 hb1
      rename_i hrel
      obtain ⟨b, hb, f1, f2, f3, f4⟩ : ∃ b ∈ l, b1.pWord = b.pWord ∧
          b1.hashValue = b.hashValue ∧ b1.wildcardMin = b.wildcardMin ∧
          b1.wildcardMax = b.wildcardMax := by
        clear ih i1 i2 h2 hrest h1
        induction hrel with
        | nil => cases hb1
        | @cons x x1 m m1 hx _ ih2 =>
          rcases List.mem_cons.1 hb1 with rfl | hb1
          · exact ⟨x, List.mem_cons_self _ _, hx⟩
          · obtain ⟨b, hb, hf⟩ := ih2 hb1
            exact ⟨b, List.mem_cons_of_mem _ hb, hf⟩
      have := h2.1 b hb
      unfold SiblingOrder at this ⊢
      rw [e1, e2, e3, e4, f1, f2, f3, f4]
      exact this

theorem sorted_modify_end (wh seed o : Nat) (t : TrieNode) (a : Nat)
    (h : t.Sorted wh seed) :
    (TrieNode.modify (fun d pc pn => .node { d with pIsEnd := some o } pc pn) t a).Sorted
      wh seed := by
  induction t with
  | null => exact h
  | node d c n ihc ihn =>
    obtain ⟨h1, h2, h3⟩ := h
    by_cases h0 : d.addr = a
    · simp only [TrieNode.modify, h0, if_true]
      exact ⟨h1, h2, h3⟩
    · simp only [TrieNode.modify, h0, if_false]
      exact ⟨SiblingsSorted.of_rel (siblings_modify_end o c a) h1, ihc h2, ihn h3⟩

theorem find_mem_addrs {t : TrieNode} {a : Nat} {d : TrieData} {ch : TrieNode}
    (h : t.find a = some (d, ch)) : a ∈ t.addrs ∧ ∀ b ∈ ch.addrs, b ∈ t.addrs := by
  induction t with
  | null => cases h
  | node d0 c n ihc ihn =>
    simp only [TrieNode.find] at h
    simp only [TrieNode.addrs, List.mem_cons, List.mem_append]
    by_cases h0 : d0.addr = a
    · simp only [h0, if_true, Option.some.injEq, Prod.mk.injEq] at h
      obtain ⟨-, rfl⟩ := h
      exact ⟨Or.inl h0.symm, fun b hb => Or.inr (Or.inl hb)⟩
    · simp only [h0, if_false] at h
      cases hc : c.find a with
      | some r =>
        rw [hc] at h
        simp only [Option.some.injEq] at h
        subst h
        obtain ⟨i1, i2⟩ := ihc hc
        exact ⟨Or.inr (Or.inl i1), fun b hb => Or.inr (Or.inl (i2 b hb))⟩
      | none =>
        rw [hc] at h
        simp only [] at h
        obtain ⟨i1, i2⟩ := ihn h
        exact ⟨Or.inr (Or.inr i1), fun b hb => Or.inr (Or.inr (i2 b hb))⟩

theorem siblings_addrs (t : TrieNode) : ∀ d ∈ t.siblings, d.addr ∈ t.addrs := by
  induction t with
  | null => intro d hd; cases hd
  | node d0 c n _ ihn =>
    intro d hd
    simp only [TrieNode.siblings, List.mem_cons] at hd
    simp only [TrieNode.addrs, List.mem_cons, List.mem_append]
    rcases hd with rfl | hd
    · exact Or.inl rfl
    · exact Or.inr (Or.inr (ihn d hd))

theorem siblings_addrs_nodup (t : TrieNode) (h : t.addrs.Nodup) :
    (t.siblings.map (fun d => d.addr)).Nodup := by
  induction t with
  | null => exact List.nodup_nil
  | node d0 c n _ ihn =>
    obtain ⟨n1, n2, n3, n4, n5⟩ := nodup_addrs_node h
    simp only [TrieNode.siblings, List.map_cons, List.nodup_cons]
    refine ⟨?_, ihn n2⟩
    intro hm
    obtain ⟨d, hd, e⟩ := List.mem_map.1 hm
    exact n4 (e ▸ siblings_addrs n d hd)

/-- The children of the node with the address `a` are replaced by `g` of
them. -/
theorem sorted_modify_children (wh seed : Nat) (g : TrieNode → TrieNode) (a : Nat)
    (t : TrieNode) :
    t.addrs.Nodup → t.Sorted wh seed →
    (∀ d ch, t.find a = some (d, ch) → ch.addrs.Nodup → SiblingsSorted wh seed ch.siblings →
      ch.Sorted wh seed → SiblingsSorted wh seed (g ch).siblings ∧ (g ch).Sorted wh seed) →
    (TrieNode.modify (fun pd pc pn => .node pd (g pc) pn) t a).Sorted wh seed := by
  induction t with
  | null => intro _ h _; exact h
  | node d0 c n ihc ihn =>
    intro hnd hs hg
    obtain ⟨n1, n2, n3, n4, n5⟩ := nodup_addrs_node hnd
    obtain ⟨h1, h2, h3⟩ := hs
    by_cases h0 : d0.addr = a
    · simp only [TrieNode.modify, h0, if_true]
      have hf : (TrieNode.node d0 c n).find a = some (d0, c) := by
        simp only [TrieNode.find, h0, if_true]
      obtain ⟨g1, g2⟩ := hg d0 c hf n1 h1 h2
      exact ⟨g1, g2, h3⟩
    · simp only [TrieNode.modify, h0, if_false]
      refine ⟨?_, ?_, ?_⟩
      · rw [siblings_modify_children]; exact h1
      · apply ihc n1 h2
        intro d ch hf
        apply hg d ch
        simp only [TrieNode.find, h0, if_false, hf]
      · apply ihn n2 h3
        intro d ch hf
        apply hg d ch
        have hc : c.find a = none := by
          apply find_of_not_mem
          intro hm
          exact n5 a hm (find_mem_addrs hf).1
        simp only [TrieNode.find, h0, if_false, hc, hf]

/-- A node linked behind a node of the children of `pParent` is a change of the
children of `pParent`. -/
theorem modify_next_children (dnew : TrieData) (pParent prev : Nat) (t : TrieNode) :
    t.addrs.Nodup → ∀ d ch, t.find pParent = some (d, ch) →
      prev ∈ ch.siblings.map (fun x => x.addr) →
      TrieNode.modify (fun pd pc pn => .node pd pc (.node dnew .null pn)) t prev
        = TrieNode.modify (fun pd pc pn => .node pd
            (TrieNode.modify (fun pd pc pn => .node pd pc (.node dnew .null pn)) pc prev) pn)
          t pParent := by
  induction t with
  | null => intro _ d ch hf; cases hf
  | node d0 c n ihc ihn =>
    intro hnd d ch hf hprev
    obtain ⟨n1, n2, n3, n4, n5⟩ := nodup_addrs_node hnd
    have hprev2 : prev ∈ ch.addrs := by
      obtain ⟨x, hx, e⟩ := List.mem_map.1 hprev
      exact e ▸ siblings_addrs ch x hx
    by_cases h0 : d0.addr = pParent
    · have hf2 : (TrieNode.node d0 c n).find pParent = some (d0, c) := by
        simp only [TrieNode.find, h0, if_true]
      rw [hf2] at hf
      simp only [Option.some.injEq, Prod.mk.injEq] at hf
      obtain ⟨-, rfl⟩ := hf
      have hne : ¬ d0.addr = prev := fun e => n3 (e ▸ hprev2)
      have hn : prev ∉ n.addrs := n5 prev hprev2
      have e1 : TrieNode.modify (fun pd pc pn => .node pd pc (.node dnew .null pn))
          (TrieNode.node d0 c n) prev
          = TrieNode.node d0
              (TrieNode.modify (fun pd pc pn => .node pd pc (.node dnew .null pn)) c prev) n := by
        simp only [TrieNode.modify, hne, if_false, modify_of_not_mem _ n prev hn]
      rw [e1]
      simp only [TrieNode.modify, h0, if_true]
    · simp only [TrieNode.find, h0, if_false] at hf
      cases hc : c.find pParent with
      | some r =>
        rw [hc] at hf
        simp only [Option.some.injEq] at hf
        subst hf
        obtain ⟨i1, i2⟩ := find_mem_addrs hc
        have hpc : prev ∈ c.addrs := i2 prev hprev2
        have hne : ¬ d0.addr = prev := fun e => n3 (e ▸ hpc)
        simp only [TrieNode.modify, h0, if_false, hne,
          modify_of_not_mem _ n prev (n5 prev hpc), modify_of_not_mem _ n pParent (n5 _ i1),
          ihc n1 d ch hc hprev]
      | none =>
        rw [hc] at hf
        simp only [] at hf
        obtain ⟨i1, i2⟩ := find_mem_addrs hf
        have hpn : prev ∈ n.addrs := i2 prev hprev2
        have hne : ¬ d0.addr = prev := fun e => n4 (e ▸ hpn)
        have hpc : prev ∉ c.addrs := fun h => n5 prev h hpn
        have hqc : pParent ∉ c.addrs := by
          intro h
          obtain ⟨r, hr⟩ := find_of_mem c pParent h
          rw [hr] at hc; cases hc
        simp only [TrieNode.modify, h0, if_false, hne, modify_of_not_mem _ c prev hpc,
          modify_of_not_mem _ c pParent hqc, ihn n2 d ch hf hprev]

/-- A node linked behind a node of the chain itself. -/
theorem sorted_modify_next_top (wh seed : Nat) (dnew : TrieData) (prev : Nat) (t : TrieNode) :
    t.addrs.Nodup → t.Sorted wh seed → prev ∈ t.siblings.map (fun x => x.addr) →
    (TrieNode.modify (fun pd pc pn => .node pd pc (.node dnew .null pn)) t prev).Sorted
      wh seed := by
  induction t with
  | null => intro _ h _; exact h
  | node d0 c n _ ihn =>
    intro hnd hs hprev
    obtain ⟨n1, n2, n3, n4, n5⟩ := nodup_addrs_node hnd
    obtain ⟨h1, h2, h3⟩ := hs
    by_cases h0 : d0.addr = prev
    · simp only [TrieNode.modify, h0, if_true]
      show SiblingsSorted wh seed c.siblings ∧ c.Sorted wh seed ∧
        (SiblingsSorted wh seed [] ∧ True ∧ n.Sorted wh seed)
      exact ⟨h1, h2, ⟨fun _ hd => (by cases hd), List.Pairwise.nil⟩, trivial, h3⟩
    · simp only [TrieNode.siblings, List.map_cons, List.mem_cons] at hprev
      rcases hprev with hprev | hprev
      · exact absurd hprev.symm h0
      · have hpn : prev ∈ n.addrs := by
          obtain ⟨x, hx, e⟩ := List.mem_map.1 hprev
          exact e ▸ siblings_addrs n x hx
        have hpc : prev ∉ c.addrs := fun h => n5 prev h hpn
        simp only [TrieNode.modify, h0, if_false, modify_of_not_mem _ c prev hpc]
        exact ⟨h1, h2, ihn n2 h3 hprev⟩

theorem wildcard_scan_absent (wh seed : Nat) (min max : Int) (t : TrieNode) :
    SiblingsSorted wh seed t.siblings → ∀ r, wildcard_scan wh min max t = (false, r) →
      ∀ d ∈ t.siblings, d.pWord = none → ¬ (d.wildcardMin = min ∧ d.wildcardMax = max) := by
  induction t with
  | null => intro _ r _ d hd; cases hd
  | node d0 c n _ ihn =>
    intro hs r h d hd
    obtain ⟨h1, h2⟩ := hs
    simp only [TrieNode.siblings] at h1 h2 hd
    rw [List.pairwise_cons] at h2
    have hrest : SiblingsSorted wh seed n.siblings :=
      ⟨fun x hx => h1 x (List.mem_cons_of_mem _ hx), h2.2⟩
    simp only [wildcard_scan] at h
    by_cases hh : d0.hashValue = wh
    · rw [if_pos hh] at h
      by_cases hm : d0.wildcardMin = min ∧ d0.wildcardMax = max
      · rw [if_pos hm] at h
        simp at h
      · rw [if_neg hm] at h
        rcases List.mem_cons.1 hd with rfl | hd
        · intro _; exact hm
        · exact ihn hrest r h d hd
    · intro hw
      have hd0 := h1 d0 (List.mem_cons_self _ _)
      have hlt : d0.hashValue < wh := by
        cases hp : d0.pWord with
        | none => exact absurd (hd0.1 hp) hh
        | some e => exact (hd0.2 e hp).2
      rcases List.mem_cons.1 hd with rfl | hd
      · exact absurd ((h1 d (List.mem_cons_self _ _)).1 hw) hh
      · have := (h2.1 d hd).1
        have := (h1 d (List.mem_cons_of_mem _ hd)).1 hw
        omega

theorem word_scan_position (wh seed : Nat) (key : Key) (t : TrieNode) :
    ∀ (pPrev r : Option Nat), SiblingsSorted wh seed t.siblings →
      word_scan (str2hash key wh seed) key t pPrev = (false, r) →
      (r = pPrev ∧ ∀ d ∈ t.siblings, d.hashValue < str2hash key wh seed) ∨
      (∃ l1 dp l2, t.siblings = l1 ++ dp :: l2 ∧ r = some dp.addr ∧
        (∀ d ∈ l1 ++ [dp], str2hash key wh seed ≤ d.hashValue ∧
          ∀ e, d.pWord = some e → e.pKey ≠ key) ∧
        ∀ d ∈ l2, d.hashValue < str2hash key wh seed) := by
  induction t with
  | null =>
    intro pPrev r _ h
    simp only [word_scan, Prod.mk.injEq, true_and] at h
    exact Or.inl ⟨h.symm, fun d hd => by cases hd⟩
  | node d0 c n _ ihn =>
    intro pPrev r hs h
    obtain ⟨h1, h2⟩ := hs
    simp only [TrieNode.siblings] at h1 h2 ⊢
    rw [List.pairwise_cons] at h2
    have hrest : SiblingsSorted wh seed n.siblings :=
      ⟨fun x hx => h1 x (List.mem_cons_of_mem _ hx), h2.2⟩
    have hd0 := h1 d0 (List.mem_cons_self _ _)
    have hrec : ∀ r, word_scan (str2hash key wh seed) key n (some d0.addr) = (false, r) →
        str2hash key wh seed ≤ d0.hashValue → (∀ e, d0.pWord = some e → e.pKey ≠ key) →
        (∃ l1 dp l2, d0 :: n.siblings = l1 ++ dp :: l2 ∧ r = some dp.addr ∧
          (∀ d ∈ l1 ++ [dp], str2hash key wh seed ≤ d.hashValue ∧
            ∀ e, d.pWord = some e → e.pKey ≠ key) ∧
          ∀ d ∈ l2, d.hashValue < str2hash key wh seed) := by
      intro r hr hle hkey
      rcases ihn (some d0.addr) r hrest hr with ⟨e1, e2⟩ | ⟨l1, dp, l2, e1, e2, e3, e4⟩
      · refine ⟨[], d0, n.siblings, rfl, e1, ?_, e2⟩
        intro d hd
        simp only [List.nil_append, List.mem_singleton] at hd
        subst hd
        exact ⟨hle, hkey⟩
      · refine ⟨d0 :: l1, dp, l2, by rw [e1]; rfl, e2, ?_, e4⟩
        intro d hd
        simp only [List.cons_append, List.mem_cons] at hd
        rcases hd with rfl | hd
        · exact ⟨hle, hkey⟩
        · exact e3 d hd
    simp only [word_scan] at h
    by_cases hgt : d0.hashValue > str2hash key wh seed
    · rw [if_pos hgt] at h
      refine Or.inr (hrec r h (Nat.le_of_lt hgt) ?_)
      intro e he hk
      have := (hd0.2 e he).1
      rw [hk] at this
      omega
    · rw [if_neg hgt] at h
      by_cases heq : d0.hashValue = str2hash key wh seed
      · rw [if_pos heq] at h
        by_cases hk : d0.pWord.map Elem.pKey = some key
        · rw [if_pos hk] at h
          simp at h
        · rw [if_neg hk] at h
          refine Or.inr (hrec r h (Nat.le_of_eq heq.symm) ?_)
          intro e he hke
          apply hk
          rw [he, Option.map_some', hke]
      · rw [if_neg heq] at h
        simp only [Prod.mk.injEq, true_and] at h
        refine Or.inl ⟨h.symm, ?_⟩
        intro d hd
        rcases List.mem_cons.1 hd with rfl | hd
        · omega
        · have := (h2.1 d hd).1
          omega

theorem insert_after_split (dnew dp : TrieData) (l2 : List TrieData) :
    ∀ l1 : List TrieData, (∀ x ∈ l1, x.addr ≠ dp.addr) →
      insert_after dnew dp.addr (l1 ++ dp :: l2) = l1 ++ dp :: dnew :: l2 := by
  intro l1
  induction l1 with
  | nil => intro _; simp [insert_after]
  | cons x l1 ih =>
    intro h
    have hx := h x (List.mem_cons_self _ _)
    have e := ih (fun y hy => h y (List.mem_cons_of_mem _ hy))
    show insert_after dnew dp.addr (x :: (l1 ++ dp :: l2)) = x :: (l1 ++ dp :: dnew :: l2)
    simp only [insert_after, hx, if_false, e]

theorem SiblingsSorted.insert_sorted {wh seed : Nat} {l1 l2 : List TrieData} {dp dnew : TrieData}
    (hs : SiblingsSorted wh seed (l1 ++ dp :: l2)) (hn : NodeHash wh seed dnew)
    (hb : ∀ x ∈ l1 ++ [dp], SiblingOrder x dnew) (ha : ∀ y ∈ l2, SiblingOrder dnew y) :
    SiblingsSorted wh seed (l1 ++ dp :: dnew :: l2) := by
  obtain ⟨h1, h2⟩ := hs
  constructor
  · intro d hd
    simp only [List.mem_append, List.mem_cons] at hd
    rcases hd with hd | rfl | rfl | hd
    · exact h1 d (by simp [hd])
    · exact h1 d (by simp)
    · exact hn
    · exact h1 d (by simp [hd])
  · rw [List.pairwise_append] at h2 ⊢
    obtain ⟨p1, p2, p3⟩ := h2
    rw [List.pairwise_cons] at p2
    refine ⟨p1, ?_, ?_⟩
    · rw [List.pairwise_cons, List.pairwise_cons]
      refine ⟨?_, ha, p2.2⟩
      intro b hb2
      rcases List.mem_cons.1 hb2 with rfl | hb2
      · exact hb dp (by simp)
      · exact p2.1 b hb2
    · intro a ha1 b hb1
      simp only [List.mem_cons] at hb1
      rcases hb1 with rfl | rfl | hb1
      · exact p3 a ha1 b (by simp)
      · exact hb a (by simp [ha1])
      · exact p3 a ha1 b (by simp [hb1])

theorem SiblingsSorted.cons_sorted {wh seed : Nat} {l : List TrieData} {dnew : TrieData}
    (hs : SiblingsSorted wh seed l) (hn : NodeHash wh seed dnew)
    (ha : ∀ y ∈ l, SiblingOrder dnew y) : SiblingsSorted wh seed (dnew :: l) := by
  obtain ⟨h1, h2⟩ := hs
  constructor
  · intro d hd
    rcases List.mem_cons.1 hd with rfl | hd
    · exact hn
    · exact h1 d hd
  · exact List.pairwise_cons.2 ⟨ha, h2⟩

theorem sorted_of_find (wh seed : Nat) (t : TrieNode) (a : Nat) (d : TrieData) (ch : TrieNode) :
    t.Sorted wh seed → t.find a = some (d, ch) →
      SiblingsSorted wh seed ch.siblings ∧ ch.Sorted wh seed := by
  induction t with
  | null => intro _ h; cases h
  | node d0 c n ihc ihn =>
    intro hs h
    obtain ⟨h1, h2, h3⟩ := hs
    simp only [TrieNode.find] at h
    by_cases h0 : d0.addr = a
    · simp only [h0, if_true, Option.some.injEq, Prod.mk.injEq] at h
      obtain ⟨-, rfl⟩ := h
      exact ⟨h1, h2⟩
    · simp only [h0, if_false] at h
      cases hc : c.find a with
      | some r =>
        rw [hc] at h
        simp only [Option.some.injEq] at h
        subst h
        exact ihc h2 hc
      | none =>
        rw [hc] at h
        simp only [] at h
        exact ihn h3 h

theorem TrieStep.refl_step (p : Parameters) (hf : TrieFresh p) : TrieStep [] p p where
  fresh := hf
  whash := rfl
  psize := rfl
  pseed := rfl
  len := rfl
  cluster := fun _ _ => rfl
  kept := fun x hx => ⟨x, hx, rfl, rfl⟩
  sorted := fun _ _ h => h

theorem TrieStep.trans_step {os1 os2 : List Nat} {p q r : Parameters} (h1 : TrieStep os1 p q)
    (h2 : TrieStep os2 q r) : TrieStep (os1 ++ os2) p r where
  fresh := h2.fresh
  whash := h2.whash.trans h1.whash
  psize := h2.psize.trans h1.psize
  pseed := h2.pseed.trans h1.pseed
  len := h2.len.trans h1.len
  cluster := by
    intro o ho
    rw [List.mem_append, not_or] at ho
    rw [h2.cluster o ho.2, h1.cluster o ho.1]
  kept := by
    intro x hx
    obtain ⟨y, hy, e1, e2⟩ := h1.kept x hx
    obtain ⟨z, hz, f1, f2⟩ := h2.kept y hy
    refine ⟨z, hz, f1.trans e1, ?_⟩
    rw [f2, e2]
  sorted := by
    intro a b c
    have := h2.sorted (by rw [h1.psize, h1.whash]; exact a) (by rw [h1.whash]; exact b)
      (by rw [h1.whash, h1.pseed]; exact h1.sorted a b c)
    rw [h1.whash, h1.pseed] at this
    exact this

theorem create_trie_node_nodes (p : Parameters) (hnd : p.pPrefixRoot.addrs.Nodup)
    (pElem : Option Elem) (pParent : Nat) (pPrev : Option Nat) :
    (create_trie_node pElem pParent pPrev p).1.pPrefixRoot = p.pPrefixRoot ∨
    ∃ π1 l1 l2, p.pPrefixRoot.nodes [] = l1 ++ l2 ∧
      (create_trie_node pElem pParent pPrev p).1.pPrefixRoot.nodes []
        = l1 ++ (π1, new_trie_node pElem pParent p) :: l2 := by
  unfold create_trie_node
  cases pPrev with
  | some prev =>
    simp only []
    by_cases hm : prev ∈ p.pPrefixRoot.addrs
    · obtain ⟨π1, d, l1, l2, -, -, e2, e3⟩ :=
        modify_next_nodes (new_trie_node pElem pParent p) p.pPrefixRoot prev hnd hm []
      exact Or.inr ⟨π1, l1, l2, e2, e3⟩
    · exact Or.inl (modify_of_not_mem _ _ _ hm)
  | none =>
    simp only []
    by_cases hm : pParent ∈ p.pPrefixRoot.addrs
    · obtain ⟨π1, d, l1, l2, -, e2, e3⟩ :=
        modify_child_nodes (new_trie_node pElem pParent p) p.pPrefixRoot pParent hnd hm []
      refine Or.inr ⟨π1 ++ [(pParent, d.elem)], l1 ++ [(π1, d)], l2, ?_, ?_⟩
      · rw [e2]; simp
      · rw [e3]; simp
    · exact Or.inl (modify_of_not_mem _ _ _ hm)

theorem new_trie_node_addr (pElem : Option Elem) (pParent : Nat) (p : Parameters) :
    (new_trie_node pElem pParent p).addr = p.trieNodeNum := by
  unfold new_trie_node
  cases pElem <;> rfl

/-- `create_trie_node` keeps the nodes of the trie, and keeps the children of
every node in order when the new node is put at a place of the list of the
children of `pParent` that respects the order. -/
theorem create_trie_node_step (p : Parameters) (hf : TrieFresh p) (pElem : Option Elem)
    (pParent : Nat) (pPrev : Option Nat)
    (hs : p.prefixSketchSize = p.wildcardHash → 0 < p.wildcardHash →
      p.pPrefixRoot.Sorted p.wildcardHash p.prefixSketchSeed →
      (pPrev = none → ∀ d ch, p.pPrefixRoot.find pParent = some (d, ch) → ch.addrs.Nodup →
        SiblingsSorted p.wildcardHash p.prefixSketchSeed ch.siblings →
        SiblingsSorted p.wildcardHash p.prefixSketchSeed
          (new_trie_node pElem pParent p :: ch.siblings)) ∧
      (∀ prev, pPrev = some prev → ∃ d ch, p.pPrefixRoot.find pParent = some (d, ch) ∧
        prev ∈ ch.siblings.map (fun x => x.addr) ∧
        (ch.addrs.Nodup → SiblingsSorted p.wildcardHash p.prefixSketchSeed ch.siblings →
          SiblingsSorted p.wildcardHash p.prefixSketchSeed
            (insert_after (new_trie_node pElem pParent p) prev ch.siblings)))) :
    TrieStep [] p (create_trie_node pElem pParent pPrev p).1 := by
  have hnum : (create_trie_node pElem pParent pPrev p).1.trieNodeNum = p.trieNodeNum + 1 := rfl
  have hnodes := create_trie_node_nodes p hf.nodup pElem pParent pPrev
  have hfresh2 : ∀ x ∈ p.pPrefixRoot.nodes [], x.2.addr < p.trieNodeNum := by
    intro x hx
    exact hf.fresh _ (mem_addrs_of_mem_nodes hx)
  refine { fresh := ?_, whash := rfl, psize := rfl, pseed := rfl, len := rfl,
           cluster := fun _ _ => rfl, kept := ?_, sorted := ?_ }
  · rcases hnodes with e | ⟨π1, l1, l2, e1, e2⟩
    · constructor
      · rw [e]; exact hf.nodup
      · intro a ha
        rw [e] at ha
        rw [hnum]
        exact Nat.lt_succ_of_lt (hf.fresh a ha)
    · have hnd := hf.nodup
      rw [← nodes_map_addr _ [], e1] at hnd
      have hperm : (l1 ++ (π1, new_trie_node pElem pParent p) :: l2).Perm
          ((π1, new_trie_node pElem pParent p) :: (l1 ++ l2)) := List.perm_middle
      constructor
      · rw [← nodes_map_addr _ [], e2]
        rw [(hperm.map _).nodup_iff, List.map_cons, List.nodup_cons]
        refine ⟨?_, hnd⟩
        intro hm
        obtain ⟨x, hx, e⟩ := List.mem_map.1 hm
        have := hfresh2 x (by rw [e1]; exact hx)
        rw [e, new_trie_node_addr] at this
        exact Nat.lt_irrefl _ this
      · intro a ha
        rw [← nodes_map_addr _ [], e2] at ha
        obtain ⟨x, hx, e⟩ := List.mem_map.1 ha
        rw [hnum, ← e]
        rcases List.mem_cons.1 (hperm.subset hx) with h | h
        · rw [h]
          show (new_trie_node pElem pParent p).addr < _
          rw [new_trie_node_addr]
          exact Nat.lt_succ_self _
        · exact Nat.lt_succ_of_lt (hfresh2 x (by rw [e1]; exact h))
  · intro x hx
    rcases hnodes with e | ⟨π1, l1, l2, e1, e2⟩
    · exact ⟨x, by rw [e]; exact hx, rfl, rfl⟩
    · refine ⟨x, ?_, rfl, rfl⟩
      rw [e2]
      rw [e1] at hx
      simp only [List.mem_append, List.mem_cons] at hx ⊢
      rcases hx with hx | hx
      · exact Or.inl hx
      · exact Or.inr (Or.inr hx)
  · intro a b c
    obtain ⟨s1, s2⟩ := hs a b c
    cases pPrev with
    | none =>
      have hroot : (create_trie_node pElem pParent none p).1.pPrefixRoot
          = TrieNode.modify (fun pd pc pn => .node pd
              ((fun pc => TrieNode.node (new_trie_node pElem pParent p) .null pc) pc) pn)
            p.pPrefixRoot pParent := rfl
      rw [hroot]
      apply sorted_modify_children _ _ _ _ _ hf.nodup c
      intro d ch hfind hnd hss hsc
      refine ⟨s1 rfl d ch hfind hnd hss, ?_⟩
      show SiblingsSorted _ _ [] ∧ True ∧ ch.Sorted _ _
      exact ⟨⟨fun _ hd => (by cases hd), List.Pairwise.nil⟩, trivial, hsc⟩
    | some prev =>
      obtain ⟨d, ch, hfind, hprev, hsort⟩ := s2 prev rfl
      have hroot : (create_trie_node pElem pParent (some prev) p).1.pPrefixRoot
          = TrieNode.modify (fun pd pc pn => .node pd pc
              (.node (new_trie_node pElem pParent p) .null pn)) p.pPrefixRoot prev := rfl
      rw [hroot, modify_next_children _ pParent prev _ hf.nodup d ch hfind hprev]
      apply sorted_modify_children _ _
        (fun pc => TrieNode.modify (fun pd pc pn => .node pd pc
          (.node (new_trie_node pElem pParent p) .null pn)) pc prev) _ _ hf.nodup c
      intro d1 ch1 hfind1 hnd hss hsc
      rw [hfind] at hfind1
      simp only [Option.some.injEq, Prod.mk.injEq] at hfind1
      obtain ⟨-, rfl⟩ := hfind1
      refine ⟨?_, sorted_modify_next_top _ _ _ prev ch hnd hsc hprev⟩
      show SiblingsSorted _ _ (TrieNode.modify _ ch prev).siblings
      rw [siblings_modify_next]
      exact hsort hnd hss

theorem trie_insert_wildcard_step (st : Parameters × Nat) (hf : TrieFresh st.1)
    (min max : Int) : TrieStep [] st.1 (trie_insert_wildcard st min max).1 := by
  have hspec := wildcard_scan_spec st.1.wildcardHash min max
  unfold trie_insert_wildcard
  cases hscan : insert_cluster_into_trie_wildcard st.2 min max st.1 with
  | mk b r =>
    have hcreate : (b = false ∨ r = none) →
        TrieStep [] st.1 (create_trie_node none st.2 r
          { st.1 with prefixWildcardMin := min, prefixWildcardMax := max }).1 := by
      intro hb
      have hrnone : b = false ∧ r = none := by
        unfold insert_cluster_into_trie_wildcard at hscan
        cases hfind : st.1.pPrefixRoot.find st.2 with
        | none =>
          rw [hfind] at hscan
          simp only [Prod.mk.injEq] at hscan
          exact ⟨hscan.1.symm, hscan.2.symm⟩
        | some x =>
          rw [hfind] at hscan
          obtain ⟨q1, q2⟩ := hspec x.2 b r hscan
          cases b with
          | false => exact ⟨rfl, q2 rfl⟩
          | true =>
            obtain ⟨d, -, e, -⟩ := q1 rfl
            rcases hb with hb | hb
            · cases hb
            · rw [hb] at e; cases e
      obtain ⟨hb2, hr2⟩ := hrnone
      subst hb2 hr2
      have hstep := create_trie_node_step
        { st.1 with prefixWildcardMin := min, prefixWildcardMax := max }
        ⟨hf.nodup, hf.fresh⟩ none st.2 none
        (by
          intro a b c
          refine ⟨?_, fun prev hp => (by cases hp)⟩
          intro _ d ch hfind hnd hss
          have hfind2 : st.1.pPrefixRoot.find st.2 = some (d, ch) := hfind
          unfold insert_cluster_into_trie_wildcard at hscan
          rw [hfind2] at hscan
          have habs := wildcard_scan_absent st.1.wildcardHash st.1.prefixSketchSeed min max ch
            hss none hscan
          apply SiblingsSorted.cons_sorted hss
          · exact ⟨fun _ => rfl, fun e he => (by cases he)⟩
          · intro y hy
            have hy1 := hss.1 y hy
            refine ⟨?_, ?_, fun ea eb he => (by cases he)⟩
            · show y.hashValue ≤ st.1.wildcardHash
              cases hp : y.pWord with
              | none => exact Nat.le_of_eq (hy1.1 hp)
              | some e => exact Nat.le_of_lt (hy1.2 e hp).2
            · intro _ hyw hm
              exact habs y hy hyw ⟨hm.1.symm, hm.2.symm⟩)
      exact { fresh := hstep.fresh, whash := hstep.whash, psize := hstep.psize,
              pseed := hstep.pseed, len := hstep.len, cluster := hstep.cluster,
              kept := hstep.kept, sorted := hstep.sorted }
    cases b with
    | false => exact hcreate (Or.inl rfl)
    | true =>
      cases r with
      | none => exact hcreate (Or.inr rfl)
      | some found => exact TrieStep.refl_step st.1 hf

theorem trie_insert_word_step (st : Parameters × Nat) (hf : TrieFresh st.1)
    (pWord : Option Elem) : TrieStep [] st.1 (trie_insert_word st pWord).1 := by
  unfold trie_insert_word
  cases pWord with
  | none => exact TrieStep.refl_step st.1 hf
  | some w =>
    simp only []
    have hspec := word_scan_spec
      (str2hash w.pKey st.1.prefixSketchSize st.1.prefixSketchSeed) w.pKey
    cases hscan : insert_cluster_into_trie_word st.2 w st.1 with
    | mk b r =>
      have hcreate : (b = false ∨ r = none) →
          TrieStep [] st.1 (create_trie_node (some w) st.2 r st.1).1 := by
        intro hb
        have hbf : b = false := by
          rcases hb with hb | hb
          · exact hb
          · unfold insert_cluster_into_trie_word at hscan
            cases hfind : st.1.pPrefixRoot.find st.2 with
            | none =>
              rw [hfind] at hscan
              simp only [Prod.mk.injEq] at hscan
              exact hscan.1.symm
            | some x =>
              rw [hfind] at hscan
              cases b with
              | false => rfl
              | true =>
                obtain ⟨d, -, e, -⟩ := (hspec x.2 none true r hscan).1 rfl
                rw [hb] at e; cases e
        subst hbf
        apply create_trie_node_step st.1 hf
        intro a b c
        have hnode : NodeHash st.1.wildcardHash st.1.prefixSketchSeed
            (new_trie_node (some w) st.2 st.1) := by
          refine ⟨fun h => (by cases h), ?_⟩
          intro e he
          have : e = w := by
            have he2 : some w = some e := he
            cases he2; rfl
          subst this
          show str2hash e.pKey st.1.prefixSketchSize st.1.prefixSketchSeed
              = str2hash e.pKey st.1.wildcardHash st.1.prefixSketchSeed ∧
            str2hash e.pKey st.1.prefixSketchSize st.1.prefixSketchSeed < st.1.wildcardHash
          rw [a]
          exact ⟨rfl, str2hash_lt _ _ _ b⟩
        have hhash : (new_trie_node (some w) st.2 st.1).hashValue
            = str2hash w.pKey st.1.wildcardHash st.1.prefixSketchSeed := by
          show str2hash w.pKey st.1.prefixSketchSize st.1.prefixSketchSeed = _
          rw [a]
        have hbefore : ∀ x : TrieData,
            (str2hash w.pKey st.1.wildcardHash st.1.prefixSketchSeed ≤ x.hashValue ∧
              ∀ e, x.pWord = some e → e.pKey ≠ w.pKey) →
            SiblingOrder x (new_trie_node (some w) st.2 st.1) := by
          intro x hx
          refine ⟨(by rw [hhash]; exact hx.1), fun _ h => (by cases h), ?_⟩
          intro ea eb hea heb
          have : eb = w := by
            have he2 : some w = some eb := heb
            cases he2; rfl
          subst this
          exact hx.2 ea hea
        have hafter : ∀ y : TrieData, NodeHash st.1.wildcardHash st.1.prefixSketchSeed y →
            y.hashValue < str2hash w.pKey st.1.wildcardHash st.1.prefixSketchSeed →
            SiblingOrder (new_trie_node (some w) st.2 st.1) y := by
          intro y hy hlt
          refine ⟨(by rw [hhash]; exact Nat.le_of_lt hlt), fun h => (by cases h), ?_⟩
          intro ea eb hea heb hk
          have : ea = w := by
            have he2 : some w = some ea := hea
            cases he2; rfl
          subst this
          have := (hy.2 eb heb).1
          rw [← hk] at this
          omega
        unfold insert_cluster_into_trie_word at hscan
        constructor
        · intro hr d ch hfind hnd hss
          subst hr
          rw [hfind, a] at hscan
          simp only [] at hscan
          rcases word_scan_position _ _ w.pKey ch none none hss hscan with
            ⟨-, e2⟩ | ⟨l1, dp, l2, -, e2, -, -⟩
          · exact SiblingsSorted.cons_sorted hss hnode (fun y hy => hafter y (hss.1 y hy) (e2 y hy))
          · cases e2
        · intro prev hr
          subst hr
          cases hfind : st.1.pPrefixRoot.find st.2 with
          | none =>
            rw [hfind] at hscan
            simp only [Prod.mk.injEq] at hscan
            cases hscan.2
          | some x =>
            obtain ⟨d, ch⟩ := x
            rw [hfind, a] at hscan
            simp only [] at hscan
            refine ⟨d, ch, rfl, ?_⟩
            have hpos : ∀ hss : SiblingsSorted st.1.wildcardHash st.1.prefixSketchSeed
                ch.siblings, ∃ l1 dp l2, ch.siblings = l1 ++ dp :: l2 ∧ prev = dp.addr ∧
                (∀ d ∈ l1 ++ [dp],
                  str2hash w.pKey st.1.wildcardHash st.1.prefixSketchSeed ≤ d.hashValue ∧
                  ∀ e, d.pWord = some e → e.pKey ≠ w.pKey) ∧
                ∀ d ∈ l2, d.hashValue
                  < str2hash w.pKey st.1.wildcardHash st.1.prefixSketchSeed := by
              intro hss
              rcases word_scan_position _ _ w.pKey ch none (some prev) hss hscan with
                ⟨e1, -⟩ | ⟨l1, dp, l2, e1, e2, e3, e4⟩
              · cases e1
              · simp only [Option.some.injEq] at e2
                exact ⟨l1, dp, l2, e1, e2, e3, e4⟩
            have hss0 : SiblingsSorted st.1.wildcardHash st.1.prefixSketchSeed ch.siblings :=
              (sorted_of_find _ _ _ _ _ _ c hfind).1
            refine ⟨?_, ?_⟩
            · obtain ⟨l1, dp, l2, e1, e2, -, -⟩ := hpos hss0
              rw [e1, e2]
              simp
            · intro hnd hss
              obtain ⟨l1, dp, l2, e1, e2, e3, e4⟩ := hpos hss
              have hnd2 := siblings_addrs_nodup ch hnd
              rw [e1, List.map_append, List.map_cons, List.nodup_append] at hnd2
              have hl1 : ∀ x ∈ l1, x.addr ≠ dp.addr := by
                intro x hx e
                exact hnd2.2.2 (List.mem_map_of_mem _ hx) (by rw [e]; simp)
              rw [e1, e2, insert_after_split _ _ _ _ hl1]
              rw [e1] at hss
              exact SiblingsSorted.insert_sorted hss hnode (fun x hx => hbefore x (e3 x hx))
                (fun y hy => hafter y (hss.1 y (by simp [hy])) (e4 y hy))
      cases b with
      | false => exact hcreate (Or.inl rfl)
      | true =>
        cases r with
        | none => exact hcreate (Or.inr rfl)
        | some found => exact TrieStep.refl_step st.1 hf

theorem trie_insert_constant_step (o : Nat) (st : Parameters × Nat) (hf : TrieFresh st.1)
    (i : Nat) : TrieStep [] st.1 (trie_insert_constant o st i).1 := by
  unfold trie_insert_constant
  simp only []
  split
  · have h1 := trie_insert_wildcard_step st hf ((st.1.cluster o).fullWildcard (i * 2))
      ((st.1.cluster o).fullWildcard (i * 2 + 1))
    have h2 := trie_insert_word_step
      (trie_insert_wildcard st ((st.1.cluster o).fullWildcard (i * 2))
        ((st.1.cluster o).fullWildcard (i * 2 + 1))) h1.fresh ((st.1.cluster o).ppWord i)
    exact h1.trans_step h2
  · exact trie_insert_word_step st hf _

theorem trie_insert_constants_step (o : Nat) (l : List Nat) :
    ∀ st : Parameters × Nat, TrieFresh st.1 →
      TrieStep [] st.1 (l.foldl (trie_insert_constant o) st).1 := by
  induction l with
  | nil => intro st hf; exact TrieStep.refl_step st.1 hf
  | cons i l ih =>
    intro st hf
    rw [List.foldl_cons]
    have h1 := trie_insert_constant_step o st hf i
    exact h1.trans_step (ih _ h1.fresh)

theorem mark_end_step (p0 p : Parameters) (o a : Nat) (h : TrieStep [] p0 p) :
    TrieStep [o] p0
      (({ p with pPrefixRoot := (TrieNode.modify
          (fun d pc pn => .node { d with pIsEnd := some o } pc pn) p.pPrefixRoot a)
        }).setCluster o { p.cluster o with pLastNode := some a }) ∧
    (o < p.clusters.length →
      ((({ p with pPrefixRoot := (TrieNode.modify
          (fun d pc pn => .node { d with pIsEnd := some o } pc pn) p.pPrefixRoot a)
        }).setCluster o { p.cluster o with pLastNode := some a }).cluster o).pLastNode
        = some a ∧
      ∀ y ∈ (({ p with pPrefixRoot := (TrieNode.modify
          (fun d pc pn => .node { d with pIsEnd := some o } pc pn) p.pPrefixRoot a)
        }).setCluster o { p.cluster o with pLastNode := some a }).pPrefixRoot.nodes [],
        y.2.addr = a → y.2.pIsEnd = some o) := by
  have hnodes := modify_end_nodes o p.pPrefixRoot a h.fresh.nodup []
  have haddr : ((p.pPrefixRoot.nodes []).map
      (fun x => if x.2.addr = a then (x.1, { x.2 with pIsEnd := some o }) else x)).map
        (fun x => x.2.addr) = (p.pPrefixRoot.nodes []).map (fun x => x.2.addr) := by
    rw [List.map_map]
    apply List.map_congr_left
    intro x _
    show (if x.2.addr = a then (x.1, { x.2 with pIsEnd := some o }) else x).2.addr = x.2.addr
    split <;> rfl
  have haddrs : (TrieNode.modify (fun d pc pn => .node { d with pIsEnd := some o } pc pn)
      p.pPrefixRoot a).addrs = p.pPrefixRoot.addrs := by
    rw [← nodes_map_addr _ [], hnodes, haddr, nodes_map_addr]
  constructor
  · refine { fresh := ⟨?_, ?_⟩, whash := h.whash, psize := h.psize, pseed := h.pseed,
             len := ?_, cluster := ?_, kept := ?_, sorted := ?_ }
    · show (TrieNode.modify _ p.pPrefixRoot a).addrs.Nodup
      rw [haddrs]; exact h.fresh.nodup
    · intro b hb
      have hb2 : b ∈ (TrieNode.modify (fun d pc pn => .node { d with pIsEnd := some o } pc pn)
          p.pPrefixRoot a).addrs := hb
      rw [haddrs] at hb2
      exact h.fresh.fresh b hb2
    · show (p.clusters.set o _).length = _
      rw [List.length_set]; exact h.len
    · intro o1 ho1
      rw [cluster_setCluster]
      have hne : ¬ (o = o1 ∧ o < p.clusters.length) := by
        intro hc
        exact ho1 (by rw [hc.1]; exact List.mem_singleton_self _)
      rw [if_neg hne]
      exact h.cluster o1 (by simp)
    · intro x hx
      obtain ⟨y, hy, e1, e2⟩ := h.kept x hx
      refine ⟨if y.2.addr = a then (y.1, { y.2 with pIsEnd := some o }) else y, ?_, ?_, ?_⟩
      · show _ ∈ (TrieNode.modify _ p.pPrefixRoot a).nodes []
        rw [hnodes]
        exact List.mem_map_of_mem _ hy
      · split <;> exact e1
      · split
        · show ({ y.2 with pIsEnd := some o } : TrieData) = _
          rw [e2]
        · exact e2
    · intro a1 b1 c1
      exact sorted_modify_end _ _ o _ a (h.sorted a1 b1 c1)
  · intro hlen
    constructor
    · rw [cluster_setCluster, if_pos ⟨rfl, hlen⟩]
    · intro y hy hya
      have hy2 : y ∈ (TrieNode.modify (fun d pc pn => .node { d with pIsEnd := some o } pc pn)
          p.pPrefixRoot a).nodes [] := hy
      rw [hnodes] at hy2
      obtain ⟨x, -, e⟩ := List.mem_map.1 hy2
      by_cases hx : x.2.addr = a
      · rw [if_pos hx] at e
        rw [← e]
      · rw [if_neg hx] at e
        rw [← e] at hya
        exact absurd hya hx

/-- `insert_cluster_into_trie` keeps the nodes of the trie and the order of the
children, changes no record but that of the candidate, and ends in a node that
points back to the candidate. -/
theorem insert_cluster_into_trie_step (pRoot o : Nat) (p : Parameters) (hf : TrieFresh p) :
    TrieStep [o] p (insert_cluster_into_trie pRoot o p) ∧
    (o < p.clusters.length →
      ∃ a, ((insert_cluster_into_trie pRoot o p).cluster o).pLastNode = some a ∧
        ∀ y ∈ (insert_cluster_into_trie pRoot o p).pPrefixRoot.nodes [],
          y.2.addr = a → y.2.pIsEnd = some o) := by
  have h1 := trie_insert_constants_step o (List.range' 1 (p.cluster o).constants) (p, pRoot) hf
  obtain ⟨st2, hst2, h2⟩ : ∃ st2 : Parameters × Nat,
      st2 = (if (p.cluster o).fullWildcard 1 ≠ 0 then
          trie_insert_wildcard
            ((List.range' 1 (p.cluster o).constants).foldl (trie_insert_constant o) (p, pRoot))
            ((p.cluster o).fullWildcard 0) ((p.cluster o).fullWildcard 1)
        else (List.range' 1 (p.cluster o).constants).foldl (trie_insert_constant o) (p, pRoot)) ∧
      TrieStep [] p st2.1 := by
    refine ⟨_, rfl, ?_⟩
    by_cases ht : (p.cluster o).fullWildcard 1 ≠ 0
    · rw [if_pos ht]
      exact h1.trans_step (trie_insert_wildcard_step _ h1.fresh _ _)
    · rw [if_neg ht]
      exact h1
  have hres : insert_cluster_into_trie pRoot o p =
      ({ st2.1 with pPrefixRoot := (TrieNode.modify
          (fun d pc pn => .node { d with pIsEnd := some o } pc pn) st2.1.pPrefixRoot st2.2)
        }).setCluster o { st2.1.cluster o with pLastNode := some st2.2 } := by
    rw [hst2]; rfl
  obtain ⟨m1, m2⟩ := mark_end_step p st2.1 o st2.2 h2
  rw [hres]
  refine ⟨m1, ?_⟩
  intro hlen
  obtain ⟨e1, e2⟩ := m2 (by rw [h2.len]; exact hlen)
  exact ⟨st2.2, e1, e2⟩

theorem insert_clusters_step (pRoot : Nat) (order : List Nat) :
    ∀ p : Parameters, TrieFresh p →
      TrieStep order p (order.foldl (fun p ptr => insert_cluster_into_trie pRoot ptr p) p) := by
  induction order with
  | nil => intro p hf; exact TrieStep.refl_step p hf
  | cons o rest ih =>
    intro p hf
    rw [List.foldl_cons]
    have h1 := (insert_cluster_into_trie_step pRoot o p hf).1
    exact h1.trans_step (ih _ h1.fresh)

theorem TrieInv.trie_fresh {p : Parameters} {ins : List Nat} (h : TrieInv p ins) :
    TrieFresh p := by
  refine ⟨h.nodup, ?_⟩
  intro a ha
  rw [← nodes_map_addr _ []] at ha
  obtain ⟨x, hx, e⟩ := List.mem_map.1 ha
  rw [← e]
  exact h.fresh x hx

theorem empty_prefix_trie_fresh (p : Parameters) : TrieFresh (empty_prefix_trie p) := by
  constructor
  · show ([0] : List Nat).Nodup
    exact List.nodup_singleton _
  · intro a ha
    have : a ∈ ([0] : List Nat) := ha
    rw [List.mem_singleton] at this
    subst this
    exact Nat.zero_lt_one

theorem SiblingsSorted.ordered {wh seed : Nat} {l : List TrieData}
    (h : SiblingsSorted wh seed l) : ChildrenOrdered wh l := by
  obtain ⟨h1, h2⟩ := h
  have hle : ∀ x ∈ l, x.hashValue ≤ wh := by
    intro x hx
    cases hp : x.pWord with
    | none => exact Nat.le_of_eq ((h1 x hx).1 hp)
    | some e => exact Nat.le_of_lt ((h1 x hx).2 e hp).2
  have hwild : ∀ x ∈ l, x.hashValue = wh → x.pWord = none := by
    intro x hx he
    cases hp : x.pWord with
    | none => rfl
    | some e =>
      have := ((h1 x hx).2 e hp).2
      omega
  refine ⟨h2.imp (fun h => h.1), ?_, ?_, ?_, h2.imp (fun h => h.2.2)⟩
  · intro x hx
    cases hp : x.pWord with
    | none => exact Or.inl ⟨(h1 x hx).1 hp, rfl⟩
    | some e => exact Or.inr ⟨((h1 x hx).2 e hp).2, e, rfl⟩
  · refine h2.imp_of_mem ?_
    intro x y hx _ hxy hy
    have := hxy.1
    have := hle x hx
    omega
  · refine h2.imp_of_mem ?_
    intro x y hx hy hxy ex ey
    exact hxy.2.1 (hwild x hx ex) (hwild y hy ey)

/-- C29: after any sequence of calls of `insert_cluster_into_trie` on the trie
that consists of the root alone, with the hash modulus and the wildcard hash
`3F` for `F >= 1` frequent words (`build_prefix_trie` makes these calls for the
candidates of the family buckets), the children of every node are in
non-increasing order of their hash values, every child is a wildcard node with
the hash `3F` or a word node with a hash below `3F`, the wildcard children
stand before the word children, no two wildcard children have the same bounds
and no two word children the same word. -/
theorem trie_children_sorted (pParam : Parameters) (hF : 1 ≤ pParam.freWordNum)
    (order : List Nat) :
    (∀ a : Nat, ChildrenOrdered (pParam.freWordNum * 3)
      ((order.foldl (fun p ptr => insert_cluster_into_trie 0 ptr p)
        (start_prefix_trie pParam)).pPrefixRoot.children a)) ∧
    prepare_prefix_trie pParam
      = (family_order pParam).foldl (fun p ptr => insert_cluster_into_trie 0 ptr p)
          (start_prefix_trie pParam) := by
  refine ⟨?_, rfl⟩
  intro a
  have hstep := insert_clusters_step 0 order (start_prefix_trie pParam)
    (empty_prefix_trie_fresh _)
  have hsorted := hstep.sorted rfl (by show 0 < pParam.freWordNum * 3; omega)
    (by
      show SiblingsSorted _ _ [] ∧ True ∧ True
      exact ⟨⟨fun _ hd => (by cases hd), List.Pairwise.nil⟩, trivial, trivial⟩)
  unfold TrieNode.children
  cases hfind : (order.foldl (fun p ptr => insert_cluster_into_trie 0 ptr p)
      (start_prefix_trie pParam)).pPrefixRoot.find a with
  | none => exact ⟨List.Pairwise.nil, fun _ hx => (by cases hx), List.Pairwise.nil,
      List.Pairwise.nil, List.Pairwise.nil⟩
  | some x =>
    obtain ⟨d, ch⟩ := x
    exact (sorted_of_find _ _ _ _ _ _ hsorted hfind).1.ordered

theorem elementsAt_length (c : Cluster) (l : List Nat) :
    (l.flatMap c.elementsAt).length
      = l.length + (l.filter (fun i => decide (c.fullWildcard (i * 2 + 1) ≠ 0))).length := by
  induction l with
  | nil => rfl
  | cons i l ih =>
    rw [List.flatMap_cons, List.length_append, ih]
    by_cases h : c.fullWildcard (i * 2 + 1) ≠ 0
    · have e1 : (c.elementsAt i).length = 2 := by
        unfold Cluster.elementsAt; rw [if_pos h]; rfl
      rw [List.filter_cons, if_pos (decide_eq_true h), e1, List.length_cons, List.length_cons]
      omega
    · have e1 : (c.elementsAt i).length = 1 := by
        unfold Cluster.elementsAt; rw [if_neg h]; rfl
      rw [List.filter_cons, if_neg (by simpa using h), e1, List.length_cons]
      omega

theorem elements_length (c : Cluster) : c.elements.length = c.constants + c.gaps := by
  unfold Cluster.elements Cluster.gaps
  rw [List.length_append, elementsAt_length, List.length_range']
  have hr : List.range (c.constants + 1) = 0 :: List.range' 1 c.constants := by
    rw [List.range_eq_range', List.range'_succ]
  rw [hr]
  by_cases h : c.fullWildcard 1 ≠ 0
  · have e1 : c.elementsTail.length = 1 := by
      unfold Cluster.elementsTail; rw [if_pos h]; rfl
    have h2 : decide (c.fullWildcard (0 * 2 + 1) ≠ 0) = true := decide_eq_true h
    rw [List.filter_cons, if_pos h2, e1, List.length_cons]
    omega
  · have e1 : c.elementsTail.length = 0 := by
      unfold Cluster.elementsTail; rw [if_neg h]; rfl
    have h2 : ¬ decide (c.fullWildcard (0 * 2 + 1) ≠ 0) = true := by
      rw [decide_eq_true_eq]; exact h
    rw [List.filter_cons, if_neg h2, e1]
    omega

theorem insert_cluster_into_trie_nodes (p : Parameters) (ins : List Nat) (o : Nat)
    (hinv : TrieInv p ins) (ho : o ∉ ins) (hlen : o < p.clusters.length)
    (hw : ∀ i, 1 ≤ i → i ≤ (p.cluster o).constants → ∃ w, (p.cluster o).ppWord i = some w)
    (order : List Nat) (hno : o ∉ order) :
    ∃ x ∈ (insert_cluster_into_trie 0 o p).pPrefixRoot.nodes [],
      pathElems x = (p.cluster o).elements ∧
      x.2.pIsEnd = some o ∧
      ((insert_cluster_into_trie 0 o p).cluster o).pLastNode = some x.2.addr ∧
      x.1.length = (p.cluster o).constants + (p.cluster o).gaps ∧
      ((order.foldl (fun p ptr => insert_cluster_into_trie 0 ptr p)
        (insert_cluster_into_trie 0 o p)).cluster o).pLastNode = some x.2.addr ∧
      ∃ y ∈ (order.foldl (fun p ptr => insert_cluster_into_trie 0 ptr p)
          (insert_cluster_into_trie 0 o p)).pPrefixRoot.nodes [],
        y.1 = x.1 ∧ y.2 = { x.2 with pIsEnd := y.2.pIsEnd } := by
  obtain ⟨hframe, hinv2⟩ := insert_cluster_into_trie_inv p ins o hinv ho hlen hw
  obtain ⟨hstep, hend⟩ := insert_cluster_into_trie_step 0 o p hinv.trie_fresh
  obtain ⟨a, ha1, ha2⟩ := hend hlen
  obtain ⟨x, hx, hx1, hx2⟩ := hinv2.last o (List.mem_cons_self _ _)
  have hxa : x.2.addr = a := by
    rw [ha1] at hx1
    simp only [Option.some.injEq] at hx1
    exact hx1.symm
  have hpath : pathElems x = (p.cluster o).elements := by
    rw [hx2, hframe.elements]
  have hsteps := insert_clusters_step 0 order (insert_cluster_into_trie 0 o p) hstep.fresh
  obtain ⟨y, hy, hy1, hy2⟩ := hsteps.kept x hx
  refine ⟨x, hx, hpath, ha2 x hx hxa, by rw [ha1, hxa], ?_, ?_, y, hy, hy1, hy2⟩
  · rw [← pathElems_length, hpath, elements_length]
  · rw [hsteps.cluster o hno, ha1, hxa]

/-- C30: when a candidate is inserted into the trie, the elements of the nodes
on the way from below the root to its terminal node are the elements of the
candidate: for every constant in order the gap before it, when the upper bound
of the gap is not 0, and the word, and last the gap after the last constant,
when its upper bound is not 0.  The terminal node points to the candidate, the
candidate points to the terminal node, and the depth of the node is the number
of the constants plus the number of the gaps with an upper bound that is not
0.  After any further insertions of other candidates the candidate points to
the same node, which has the same ancestors and the same fields but `pIsEnd`. -/
theorem insert_cluster_into_trie_path (p : Parameters) (ins : List Nat) (o : Nat)
    (hinv : TrieInv p ins) (ho : o ∉ ins) (hlen : o < p.clusters.length)
    (hw : ∀ i, 1 ≤ i → i ≤ (p.cluster o).constants → ∃ w, (p.cluster o).ppWord i = some w)
    (order : List Nat) (hno : o ∉ order) :
    ∃ x ∈ (insert_cluster_into_trie 0 o p).pPrefixRoot.nodes [],
      pathElems x = (p.cluster o).elements ∧
      x.2.pIsEnd = some o ∧
      ((insert_cluster_into_trie 0 o p).cluster o).pLastNode = some x.2.addr ∧
      x.1.length = (p.cluster o).constants + (p.cluster o).gaps ∧
      ((order.foldl (fun p ptr => insert_cluster_into_trie 0 ptr p)
        (insert_cluster_into_trie 0 o p)).cluster o).pLastNode = some x.2.addr ∧
      ∃ y ∈ (order.foldl (fun p ptr => insert_cluster_into_trie 0 ptr p)
          (insert_cluster_into_trie 0 o p)).pPrefixRoot.nodes [],
        y.1 = x.1 ∧ y.2 = { x.2 with pIsEnd := y.2.pIsEnd } :=
  insert_cluster_into_trie_nodes p ins o hinv ho hlen hw order hno

theorem trie_children_sorted_witness :
    1 ≤ aggrCandidates.freWordNum ∧ aggrCandidates.freWordNum * 3 = 9 ∧
    (∀ a : Nat, ChildrenOrdered (aggrCandidates.freWordNum * 3)
      (((family_order aggrCandidates).foldl (fun p ptr => insert_cluster_into_trie 0 ptr p)
        (start_prefix_trie aggrCandidates)).pPrefixRoot.children a)) ∧
    (aggrTrie.pPrefixRoot.children 0).map (fun d => d.hashValue) = [4, 2] ∧
    (aggrTrie.pPrefixRoot.children 2).map (fun d => d.hashValue) = [9, 4] :=
  ⟨by decide!, by decide!,
    (trie_children_sorted aggrCandidates (by decide!) (family_order aggrCandidates)).1,
    by decide!, by decide!⟩

/-- The trie `pathParams` holds the candidate 0. -/
theorem pathParams_inv : TrieInv pathParams [0] := by
  have hfam : family_order (find_clusters_from_candidates aggrCandidates).1 = [0] := by decide!
  have h := prepare_prefix_trie_inv (find_clusters_from_candidates aggrCandidates).1
    (by rw [hfam]; decide)
    (by
      rw [hfam]
      intro o ho
      rw [List.mem_singleton] at ho
      subst ho
      decide!)
    (by
      rw [hfam]
      intro o ho i h1 h2
      rw [List.mem_singleton] at ho
      subst ho
      have hc : ((find_clusters_from_candidates aggrCandidates).1.cluster 0).constants = 2 := by
        decide!
      rw [hc] at h2
      have hi : i = 1 ∨ i = 2 := by omega
      rcases hi with rfl | rfl
      · exact Option.isSome_iff_exists.1 (by decide!)
      · exact Option.isSome_iff_exists.1 (by decide!))
  have h2 := h.2.2.2.2.2.2.2.2
  rw [hfam] at h2
  exact h2

theorem pathParams_words :
    ∀ i, 1 ≤ i → i ≤ (pathParams.cluster 1).constants →
      ∃ w, (pathParams.cluster 1).ppWord i = some w := by
  intro i h1 h2
  have hc : (pathParams.cluster 1).constants = 3 := by decide!
  rw [hc] at h2
  have hi : i = 1 ∨ i = 2 ∨ i = 3 := by omega
  rcases hi with rfl | rfl | rfl
  · exact Option.isSome_iff_exists.1 (by decide!)
  · exact Option.isSome_iff_exists.1 (by decide!)
  · exact Option.isSome_iff_exists.1 (by decide!)

theorem insert_cluster_into_trie_path_witness :
    TrieInv pathParams [0] ∧ 1 ∉ ([0] : List Nat) ∧ 1 < pathParams.clusters.length ∧
    1 ∉ ([2] : List Nat) ∧
    (pathParams.cluster 1).elements
      = [TrieElem.word [65], TrieElem.word [67], TrieElem.word [66]] ∧
    ((insert_cluster_into_trie 0 1 pathParams).cluster 1).pLastNode = some 5 ∧
    ∃ x ∈ (insert_cluster_into_trie 0 1 pathParams).pPrefixRoot.nodes [],
      pathElems x = (pathParams.cluster 1).elements ∧
      x.2.pIsEnd = some 1 ∧
      ((insert_cluster_into_trie 0 1 pathParams).cluster 1).pLastNode = some x.2.addr ∧
      x.1.length = (pathParams.cluster 1).constants + (pathParams.cluster 1).gaps ∧
      ((([2] : List Nat).foldl (fun p ptr => insert_cluster_into_trie 0 ptr p)
        (insert_cluster_into_trie 0 1 pathParams)).cluster 1).pLastNode = some x.2.addr ∧
      ∃ y ∈ (([2] : List Nat).foldl (fun p ptr => insert_cluster_into_trie 0 ptr p)
          (insert_cluster_into_trie 0 1 pathParams)).pPrefixRoot.nodes [],
        y.1 = x.1 ∧ y.2 = { x.2 with pIsEnd := y.2.pIsEnd } :=
  ⟨pathParams_inv, by decide, by decide!, by decide, by decide!, by decide!,
    insert_cluster_into_trie_path pathParams [0] 1 pathParams_inv (by decide) (by decide!)
      pathParams_words [2] (by decide)⟩

/-! ## The common parent of a candidate -/

theorem first_wildcard_none (c : Cluster) (h : get_first_wildcard_location c = -1) :
    ∀ j, j ≤ c.constants → c.fullWildcard (j * 2 + 1) = 0 := by
  unfold get_first_wildcard_location at h
  cases hf : (List.range' 1 c.constants).find?
      (fun i => decide (c.fullWildcard (i * 2 + 1) ≠ 0)) with
  | some i =>
    rw [hf] at h
    simp only [] at h
    omega
  | none =>
    rw [hf] at h
    simp only [] at h
    have hn := find_range'_none _ _ _ hf
    by_cases ht : c.fullWildcard 1 ≠ 0
    · rw [if_pos ht] at h; cases h
    · intro j hj
      by_cases hj0 : j = 0
      · subst hj0
        simpa using ht
      · have := hn j (by omega) (by omega)
        simpa using this

theorem nodes_root_only (d0 : TrieData) (c0 : TrieNode) (x : List (Nat × TrieElem) × TrieData)
    (hx : x ∈ (TrieNode.node d0 c0 TrieNode.null).nodes []) (h : x.1 = []) : x.2 = d0 := by
  simp only [TrieNode.nodes, List.mem_cons, List.mem_append, List.not_mem_nil, or_false] at hx
  rcases hx with hx | hx
  · rw [hx]
  · rcases nodes_parent c0 _ x hx with e | ⟨y, -, e⟩
    · rw [h] at e; simp at e
    · rw [h] at e; simp at e

theorem get_common_parent_walk (p : Parameters) (ins : List Nat) (hinv : TrieInv p ins)
    (ptr : Nat) (hptr : ptr ∈ ins)
    (hgap : ∃ j, j ≤ (p.cluster ptr).constants ∧ (p.cluster ptr).fullWildcard (j * 2 + 1) ≠ 0) :
    ∃ x ∈ p.pPrefixRoot.nodes [], ∃ y ∈ p.pPrefixRoot.nodes [],
      ∃ (suf : List (Nat × TrieElem)) (m : Nat) (a b : Int) (rest : List TrieElem),
      (p.cluster ptr).pLastNode = some x.2.addr ∧
      pathElems x = (p.cluster ptr).elements ∧
      get_common_parent p ptr = some y.2.addr ∧
      x.1 ++ [(x.2.addr, x.2.elem)] = (y.1 ++ [(y.2.addr, y.2.elem)]) ++ suf ∧
      suf.length = get_first_wildcard_reverse_depth (p.cluster ptr) ∧
      1 ≤ get_first_wildcard_reverse_depth (p.cluster ptr) ∧
      get_first_wildcard_reverse_depth (p.cluster ptr) ≤ x.1.length ∧
      m ≤ (p.cluster ptr).constants ∧
      (∀ j, 1 ≤ j → j ≤ m → (p.cluster ptr).fullWildcard (j * 2 + 1) = 0) ∧
      pathElems y = (List.range' 1 m).map (fun j => TrieElem.word ((p.cluster ptr).word j)) ∧
      (m = 0 → y.1 = [] ∧ y.2.addr = 0) ∧
      suf.map Prod.snd = TrieElem.gap a b :: rest ∧ b ≠ 0 ∧
      ((m < (p.cluster ptr).constants ∧
          a = (p.cluster ptr).fullWildcard ((m + 1) * 2) ∧
          b = (p.cluster ptr).fullWildcard ((m + 1) * 2 + 1)) ∨
        (m = (p.cluster ptr).constants ∧
          a = (p.cluster ptr).fullWildcard 0 ∧ b = (p.cluster ptr).fullWildcard 1)) := by
  obtain ⟨x, hx, hx1, hx2⟩ := hinv.last ptr hptr
  -- the split of the elements at the first gap
  have hsplit : ∃ (m : Nat) (a b : Int) (rest : List TrieElem),
      (p.cluster ptr).elements =
        (List.range' 1 m).map (fun j => TrieElem.word ((p.cluster ptr).word j))
          ++ TrieElem.gap a b :: rest ∧
      (TrieElem.gap a b :: rest).length = get_first_wildcard_reverse_depth (p.cluster ptr) ∧
      m ≤ (p.cluster ptr).constants ∧
      (∀ j, 1 ≤ j → j ≤ m → (p.cluster ptr).fullWildcard (j * 2 + 1) = 0) ∧ b ≠ 0 ∧
      ((m < (p.cluster ptr).constants ∧
          a = (p.cluster ptr).fullWildcard ((m + 1) * 2) ∧
          b = (p.cluster ptr).fullWildcard ((m + 1) * 2 + 1)) ∨
        (m = (p.cluster ptr).constants ∧
          a = (p.cluster ptr).fullWildcard 0 ∧ b = (p.cluster ptr).fullWildcard 1)) := by
    rcases first_wildcard_cases (p.cluster ptr) with h | ⟨h0, ht, hz⟩ | ⟨i, h0, h1, h2, h3, hz⟩
    · obtain ⟨j, hj1, hj2⟩ := hgap
      exact absurd (first_wildcard_none _ h j hj1) hj2
    · refine ⟨(p.cluster ptr).constants, (p.cluster ptr).fullWildcard 0,
        (p.cluster ptr).fullWildcard 1, [], ?_, ?_, Nat.le_refl _, hz, ht, Or.inr ⟨rfl, rfl, rfl⟩⟩
      · unfold Cluster.elements
        rw [flatMap_words]
        · unfold Cluster.elementsTail
          rw [if_pos ht]
        · intro j hj
          rw [List.mem_range'_1] at hj
          exact hz j hj.1 (by omega)
      · unfold get_first_wildcard_reverse_depth
        simp only [h0]
        rfl
    · have hrange : List.range' i ((p.cluster ptr).constants + 1 - i)
          = i :: List.range' (i + 1) ((p.cluster ptr).constants - i) := by
        have e : (p.cluster ptr).constants + 1 - i = ((p.cluster ptr).constants - i) + 1 := by
          omega
        rw [e, List.range'_succ]
      have hat : (p.cluster ptr).elementsAt i
          = [TrieElem.gap ((p.cluster ptr).fullWildcard (i * 2))
              ((p.cluster ptr).fullWildcard (i * 2 + 1)),
             TrieElem.word ((p.cluster ptr).word i)] := by
        unfold Cluster.elementsAt
        rw [if_pos h3]
        rfl
      have hi : i - 1 + 1 = i := by omega
      refine ⟨i - 1, (p.cluster ptr).fullWildcard (i * 2),
        (p.cluster ptr).fullWildcard (i * 2 + 1),
        TrieElem.word ((p.cluster ptr).word i) ::
          ((List.range' (i + 1) ((p.cluster ptr).constants - i)).flatMap
            (p.cluster ptr).elementsAt ++ (p.cluster ptr).elementsTail),
        ?_, ?_, by omega, fun j a1 a2 => hz j a1 (by omega), h3,
        Or.inl ⟨by omega, by rw [hi], by rw [hi]⟩⟩
      · unfold Cluster.elements
        have hs : List.range' 1 (p.cluster ptr).constants =
            List.range' 1 (i - 1) ++ List.range' i ((p.cluster ptr).constants + 1 - i) := by
          have := List.range'_append_1 1 (i - 1) ((p.cluster ptr).constants + 1 - i)
          have e1 : 1 + (i - 1) = i := by omega
          have e2 : (p.cluster ptr).constants + 1 - i + (i - 1) = (p.cluster ptr).constants := by
            omega
          rw [e1, e2] at this
          exact this.symm
        rw [hs, List.flatMap_append, List.append_assoc, flatMap_words, hrange,
          List.flatMap_cons, hat]
        · simp
        · intro j hj
          rw [List.mem_range'_1] at hj
          exact hz j hj.1 (by omega)
      · obtain ⟨post, e1, e2⟩ := elements_split_loop _ i h0 h1 h2 hz
        rw [← e2]
        have hl := congrArg List.length e1
        unfold Cluster.elements at hl
        have hs : List.range' 1 (p.cluster ptr).constants =
            List.range' 1 (i - 1) ++ List.range' i ((p.cluster ptr).constants + 1 - i) := by
          have := List.range'_append_1 1 (i - 1) ((p.cluster ptr).constants + 1 - i)
          have e1 : 1 + (i - 1) = i := by omega
          have e2 : (p.cluster ptr).constants + 1 - i + (i - 1) = (p.cluster ptr).constants := by
            omega
          rw [e1, e2] at this
          exact this.symm
        rw [hs, List.flatMap_append, List.append_assoc, flatMap_words, hrange,
          List.flatMap_cons, hat] at hl
        · simp only [List.length_append, List.length_map, List.length_cons,
            List.length_nil, List.cons_append, List.nil_append] at hl ⊢
          omega
        · intro j hj
          rw [List.mem_range'_1] at hj
          exact hz j hj.1 (by omega)
  obtain ⟨m, a, b, rest, hel, hpost, hm, hzero, hb, hwhich⟩ := hsplit
  have hlen : get_first_wildcard_reverse_depth (p.cluster ptr) ≤ x.1.length := by
    rw [← pathElems_length, hx2, hel, List.length_append, ← hpost]
    omega
  obtain ⟨y, hy, suf, e1, e2, e3⟩ := trie_ancestor_spec hinv _ x hx hlen
  have hcp : get_common_parent p ptr = some y.2.addr := by
    unfold get_common_parent
    simp only []
    rw [hx1]; exact e1
  have e4 := pathElems_append x y suf e2
  rw [hx2, hel] at e4
  have hsuf : (suf.map Prod.snd).length = (TrieElem.gap a b :: rest).length := by
    rw [List.length_map, e3, hpost]
  have hpre := List.append_inj_left' e4 hsuf.symm
  have hpostEq := List.append_inj_right' e4 hsuf.symm
  refine ⟨x, hx, y, hy, suf, m, a, b, rest, hx1, hx2, hcp, e2, e3, ?_, hlen, hm, hzero,
    hpre.symm, ?_, hpostEq.symm, hb, hwhich⟩
  · rw [← hpost]; simp
  · intro hm0
    have hy1 : y.1 = [] := by
      have := pathElems_length y
      rw [← hpre, hm0] at this
      simp only [List.range'_zero, List.map_nil, List.length_nil] at this
      exact List.length_eq_zero.1 this.symm
    obtain ⟨d0, c0, hroot, haddr⟩ := hinv.root
    rw [hroot] at hy
    have := nodes_root_only d0 c0 y hy hy1
    exact ⟨hy1, by rw [this]; exact haddr⟩

/-- C31: for a candidate of the trie that has a gap with an upper bound that is
not 0, `get_common_parent` returns a node `y` on the way from the root to the
terminal node `x` of the candidate.  The elements from below the root to `y`
are the first `m` constants of the candidate, none of which has a gap before
it, so that `y` is the node of the `m`-th constant, and the root (the node with
the address 0) when `m = 0`.  The node below `y` on the way to `x` is a
wildcard node: that of the gap before the constant `m + 1`, or, when `m` is the
number of the constants, that of the gap after the last constant.  The number
of the steps of the walk from `x` up to `y` is `get_first_wildcard_reverse_depth`,
at least 1 and at most the depth of `x`. -/
theorem get_common_parent_spec (p : Parameters) (ins : List Nat) (hinv : TrieInv p ins)
    (ptr : Nat) (hptr : ptr ∈ ins)
    (hgap : ∃ j, j ≤ (p.cluster ptr).constants ∧ (p.cluster ptr).fullWildcard (j * 2 + 1) ≠ 0) :
    ∃ x ∈ p.pPrefixRoot.nodes [], ∃ y ∈ p.pPrefixRoot.nodes [],
      ∃ (suf : List (Nat × TrieElem)) (m : Nat) (a b : Int) (rest : List TrieElem),
      (p.cluster ptr).pLastNode = some x.2.addr ∧
      pathElems x = (p.cluster ptr).elements ∧
      get_common_parent p ptr = some y.2.addr ∧
      x.1 ++ [(x.2.addr, x.2.elem)] = (y.1 ++ [(y.2.addr, y.2.elem)]) ++ suf ∧
      suf.length = get_first_wildcard_reverse_depth (p.cluster ptr) ∧
      1 ≤ get_first_wildcard_reverse_depth (p.cluster ptr) ∧
      get_first_wildcard_reverse_depth (p.cluster ptr) ≤ x.1.length ∧
      m ≤ (p.cluster ptr).constants ∧
      (∀ j, 1 ≤ j → j ≤ m → (p.cluster ptr).fullWildcard (j * 2 + 1) = 0) ∧
      pathElems y = (List.range' 1 m).map (fun j => TrieElem.word ((p.cluster ptr).word j)) ∧
      (m = 0 → y.1 = [] ∧ y.2.addr = 0) ∧
      suf.map Prod.snd = TrieElem.gap a b :: rest ∧ b ≠ 0 ∧
      ((m < (p.cluster ptr).constants ∧
          a = (p.cluster ptr).fullWildcard ((m + 1) * 2) ∧
          b = (p.cluster ptr).fullWildcard ((m + 1) * 2 + 1)) ∨
        (m = (p.cluster ptr).constants ∧
          a = (p.cluster ptr).fullWildcard 0 ∧ b = (p.cluster ptr).fullWildcard 1)) :=
  get_common_parent_walk p ins hinv ptr hptr hgap

theorem get_common_parent_spec_witness :
    (pathParams.cluster 0).constants = 2 ∧ (pathParams.cluster 0).fullWildcard 5 = 1 ∧
    get_first_wildcard_location (pathParams.cluster 0) = 2 ∧
    get_first_wildcard_reverse_depth (pathParams.cluster 0) = 2 ∧
    (pathParams.cluster 0).pLastNode = some 3 ∧
    get_common_parent pathParams 0 = some 1 ∧
    ∃ x ∈ pathParams.pPrefixRoot.nodes [], ∃ y ∈ pathParams.pPrefixRoot.nodes [],
      ∃ (suf : List (Nat × TrieElem)) (m : Nat) (a b : Int) (rest : List TrieElem),
      (pathParams.cluster 0).pLastNode = some x.2.addr ∧
      pathElems x = (pathParams.cluster 0).elements ∧
      get_common_parent pathParams 0 = some y.2.addr ∧
      x.1 ++ [(x.2.addr, x.2.elem)] = (y.1 ++ [(y.2.addr, y.2.elem)]) ++ suf ∧
      suf.length = get_first_wildcard_reverse_depth (pathParams.cluster 0) ∧
      1 ≤ get_first_wildcard_reverse_depth (pathParams.cluster 0) ∧
      get_first_wildcard_reverse_depth (pathParams.cluster 0) ≤ x.1.length ∧
      m ≤ (pathParams.cluster 0).constants ∧
      (∀ j, 1 ≤ j → j ≤ m → (pathParams.cluster 0).fullWildcard (j * 2 + 1) = 0) ∧
      pathElems y
        = (List.range' 1 m).map (fun j => TrieElem.word ((pathParams.cluster 0).word j)) ∧
      (m = 0 → y.1 = [] ∧ y.2.addr = 0) ∧
      suf.map Prod.snd = TrieElem.gap a b :: rest ∧ b ≠ 0 ∧
      ((m < (pathParams.cluster 0).constants ∧
          a = (pathParams.cluster 0).fullWildcard ((m + 1) * 2) ∧
          b = (pathParams.cluster 0).fullWildcard ((m + 1) * 2 + 1)) ∨
        (m = (pathParams.cluster 0).constants ∧
          a = (pathParams.cluster 0).fullWildcard 0 ∧
          b = (pathParams.cluster 0).fullWildcard 1)) := by
  have h :
      ((pathParams.cluster 0).constants = 2) ∧
      ((pathParams.cluster 0).fullWildcard 5 = 1) ∧
      (get_first_wildcard_location (pathParams.cluster 0) = 2) ∧
      (get_first_wildcard_reverse_depth (pathParams.cluster 0) = 2) ∧
      ((pathParams.cluster 0).pLastNode = some 3) ∧
      (get_common_parent pathParams 0 = some 1) := by
    decide!
  obtain ⟨h0, h1, h2, h3, h4, h5⟩ := h
  exact ⟨h0, h1, h2, h3, h4, h5, get_common_parent_spec pathParams [0] pathParams_inv 0
    (List.mem_singleton.2 rfl) ⟨2, by decide!, by decide!⟩⟩

/-! ## Every candidate is added at most once -/

theorem matched_sublist_ends (p : Parameters) (ptr : Nat) :
    (matched p ptr).Sublist ((p.pPrefixRoot.nodes []).filterMap (fun x => x.2.pIsEnd)) := by
  unfold matched
  simp only []
  split
  swap
  · exact List.nil_sublist _
  cases hcp : get_common_parent p ptr with
  | none => exact List.nil_sublist _
  | some pParent =>
    simp only []
    cases hfind : p.pPrefixRoot.find pParent with
    | none => exact List.nil_sublist _
    | some r =>
      obtain ⟨dP, ch⟩ := r
      simp only []
      obtain ⟨-, π1, l1, l2, hnodes⟩ := find_spec _ _ _ _ [] hfind
      have hsubl : ((ch.nodes (π1 ++ [(dP.addr, dP.elem)])).filterMap
          (fun x => x.2.pIsEnd)).Sublist
          ((p.pPrefixRoot.nodes []).filterMap (fun x => x.2.pIsEnd)) := by
        rw [hnodes]
        apply List.Sublist.filterMap
        apply List.sublist_append_of_sublist_right
        apply List.Sublist.cons
        exact List.sublist_append_left _ _
      split
      · exact (matched_tail_sublist _ _ ch _ _).trans hsubl
      · exact (matched_loop_sublist _ _ _ ch _ _ _ _).trans hsubl

theorem support_sum_le_of_nodup (p : Parameters) (l1 l2 : List Nat) (hnd : l1.Nodup)
    (hsub : ∀ o ∈ l1, o ∈ l2) : support_sum p l1 ≤ support_sum p l2 := by
  obtain ⟨l, hl1, hl2⟩ := List.subperm_of_subset hnd hsub
  unfold support_sum
  rw [← (hl1.map _).sum_eq]
  exact (hl2.map _).sum_le_sum (fun _ _ => Nat.zero_le _)

/-- C35: in the aggregation of the supports after the candidate pass, the
search for a candidate adds the count of a candidate at most once and never the
count of the candidate itself: the candidates whose counts are added are
terminal pointers of distinct nodes of the trie (a sublist of the terminal
pointers of all nodes in preorder, which has no duplicates), each of them a
candidate other than the one searched for.  The count of the candidate after
the aggregation is its count from before plus the counts from before of these
candidates, hence at least its own count and at most the sum of the counts
from before of all candidates. -/
theorem aggregation_counts_once (pParam : Parameters) (input : List (List Key))
    (loc : CandidateLocals) (cc : Nat) (hsk : pParam.clusterSketchSize = 0)
    (hsz : 0 < pParam.clusterTableSize) (hnl : ∀ l ∈ input, ∀ w ∈ l, CLUSTERSEP ∉ w)
    (hcl : pParam.clusters = []) (hfm : ∀ i, pParam.pClusterFamily i = []) :
    (((prepare_prefix_trie (create_cluster_candidates pParam input loc cc).1).pPrefixRoot.nodes
        []).filterMap (fun x => x.2.pIsEnd)).Nodup ∧
    ∀ ptr, ptr < (create_cluster_candidates pParam input loc cc).1.clusters.length →
      (matched (prepare_prefix_trie (create_cluster_candidates pParam input loc cc).1)
          ptr).Sublist
        (((prepare_prefix_trie (create_cluster_candidates pParam input loc cc).1).pPrefixRoot.nodes
          []).filterMap (fun x => x.2.pIsEnd)) ∧
      (matched (prepare_prefix_trie (create_cluster_candidates pParam input loc cc).1)
        ptr).Nodup ∧
      ptr ∉ matched (prepare_prefix_trie (create_cluster_candidates pParam input loc cc).1) ptr ∧
      (∀ o ∈ matched (prepare_prefix_trie (create_cluster_candidates pParam input loc cc).1) ptr,
        o < (create_cluster_candidates pParam input loc cc).1.clusters.length) ∧
      ((step_2_aggregate_support (create_cluster_candidates pParam input loc cc).1).cluster
          ptr).count
        = ((create_cluster_candidates pParam input loc cc).1.cluster ptr).count +
          support_sum (create_cluster_candidates pParam input loc cc).1
            (matched (prepare_prefix_trie (create_cluster_candidates pParam input loc cc).1)
              ptr) ∧
      ((create_cluster_candidates pParam input loc cc).1.cluster ptr).count
        ≤ ((step_2_aggregate_support (create_cluster_candidates pParam input loc cc).1).cluster
            ptr).count ∧
      ((step_2_aggregate_support (create_cluster_candidates pParam input loc cc).1).cluster
          ptr).count
        ≤ support_sum (create_cluster_candidates pParam input loc cc).1
            (List.range (create_cluster_candidates pParam input loc cc).1.clusters.length) := by
  obtain ⟨-, hc⟩ := create_cluster_candidates_inv pParam input loc cc hsk hsz hnl
  have hf := create_cluster_candidates_fam pParam input loc cc hsk hsz hnl hcl hfm
  generalize (create_cluster_candidates pParam input loc cc).1 = pc at hc hf ⊢
  have hnd := family_order_nodup hf
  have hmemo := family_order_mem hf
  have facts := fun o ho => candidate_facts pParam pc _ _ input hc hf hnl o ho
  obtain ⟨t1, t2, t3, t4, t5, t6, t7, t8, t9⟩ := prepare_prefix_trie_inv pc hnd
    (fun o ho => (hmemo o).1 ho) (fun o ho => (facts o ((hmemo o).1 ho)).2.2.1)
  generalize hpt : prepare_prefix_trie pc = pt at t1 t2 t3 t4 t5 t6 t7 t8 t9 ⊢
  have hfo : family_order pt = family_order pc := by unfold family_order; rw [t4, t5]
  have hkey : ∀ o, (pt.cluster o).pElem = (pc.cluster o).pElem := by
    intro o; rw [t8 o]
  have hcnt : ∀ o, (pt.cluster o).count = (pc.cluster o).count := by
    intro o; rw [t8 o]
  have hcst : ∀ o, (pt.cluster o).constants = (pc.cluster o).constants := by
    intro o; rw [t8 o]
  have hfw : ∀ o j, (pt.cluster o).fullWildcard j = (pc.cluster o).fullWildcard j := by
    intro o j; rw [t8 o]
  have hagg := aggregate_in_order_count pt (family_order pt) (by rw [hfo]; exact hnd)
    (by intro o ho; rw [hfo] at ho; rw [t7]; exact (hmemo o).1 ho)
    (by
      intro a ha b hb hab
      rw [hfo] at ha hb
      rw [hkey, hkey] at hab
      exact candidate_keys_inj pc _ _ hf a b ((hmemo a).1 ha) ((hmemo b).1 hb) hab)
    (by
      intro o ho
      rw [hfo] at ho
      rw [t1, t2, t3, hkey, hcnt, hc.csize, hc.cseed]
      exact (facts o ((hmemo o).1 ho)).2.1)
  have hpa : step_2_aggregate_support pc = aggregate_in_order (family_order pt) pt := by
    rw [← hpt]; rfl
  refine ⟨t9.ends_nodup, ?_⟩
  intro ptr hlt
  have hord : ptr ∈ family_order pt := by rw [hfo]; exact (hmemo ptr).2 hlt
  have hins : ptr ∈ (family_order pc).reverse := List.mem_reverse.2 ((hmemo ptr).2 hlt)
  obtain ⟨m1, m2⟩ := matched_sound pt _ t9 ptr hins (by
    intro j hj
    rw [hcst] at hj
    rw [hfw, hfw]
    exact (facts ptr hlt).2.2.2 j hj)
  have hvalid : ∀ o ∈ matched pt ptr, o < pc.clusters.length := by
    intro o ho
    exact (hmemo o).1 (List.mem_reverse.1 (m2 o ho).2.1)
  have hself : ptr ∉ matched pt ptr := fun h => (m2 ptr h).1 rfl
  have hsum : support_sum pt (matched pt ptr) = support_sum pc (matched pt ptr) := by
    unfold support_sum
    apply congrArg
    apply List.map_congr_left
    intro o _
    exact hcnt o
  have hcount : ((step_2_aggregate_support pc).cluster ptr).count
      = (pc.cluster ptr).count + support_sum pc (matched pt ptr) := by
    rw [hpa, hagg ptr]
    simp only [hord, if_true]
    rw [hcnt, hsum]
  refine ⟨matched_sublist_ends pt ptr, m1, hself, hvalid, hcount, ?_, ?_⟩
  · rw [hcount]; exact Nat.le_add_right _ _
  · rw [hcount]
    have h1 : support_sum pc (ptr :: matched pt ptr)
        = (pc.cluster ptr).count + support_sum pc (matched pt ptr) := by
      unfold support_sum
      simp
    rw [← h1]
    apply support_sum_le_of_nodup
    · exact List.nodup_cons.2 ⟨hself, m1⟩
    · intro o ho
      rw [List.mem_range]
      rcases List.mem_cons.1 ho with rfl | ho
      · exact hlt
      · exact hvalid o ho
theorem aggregation_counts_once_witness :
    docParams.clusterSketchSize = 0 ∧ 0 < docParams.clusterTableSize ∧
    (∀ l ∈ docInput, ∀ w ∈ l, CLUSTERSEP ∉ w) ∧
    docParams.clusters = [] ∧ (∀ i, docParams.pClusterFamily i = []) ∧
    (create_cluster_candidates docParams docInput {} 0).1.clusters.length = 3 ∧
    matched (prepare_prefix_trie (create_cluster_candidates docParams docInput {} 0).1) 0
      = [2, 1] ∧
    ((create_cluster_candidates docParams docInput {} 0).1.cluster 0).count = 20 ∧
    ((step_2_aggregate_support (create_cluster_candidates docParams docInput {} 0).1).cluster
      0).count = 35 ∧
    support_sum (create_cluster_candidates docParams docInput {} 0).1 (List.range 3) = 35 ∧
    ((create_cluster_candidates docParams docInput {} 0).1.cluster 0).count
      ≤ ((step_2_aggregate_support (create_cluster_candidates docParams docInput {} 0).1).cluster
          0).count ∧
    ((step_2_aggregate_support (create_cluster_candidates docParams docInput {} 0).1).cluster
        0).count
      ≤ support_sum (create_cluster_candidates docParams docInput {} 0).1
          (List.range (create_cluster_candidates docParams docInput {} 0).1.clusters.length) := by
  have h :
      (docParams.clusterSketchSize = 0) ∧
      (0 < docParams.clusterTableSize) ∧
      ((∀ l ∈ docInput, ∀ w ∈ l, CLUSTERSEP ∉ w)) ∧
      ((create_cluster_candidates docParams docInput {} 0).1.clusters.length = 3) ∧
      (matched (prepare_prefix_trie (create_cluster_candidates docParams docInput {} 0).1) 0
        = [2, 1]) ∧
      (((create_cluster_candidates docParams docInput {} 0).1.cluster 0).count = 20) ∧
      (((step_2_aggregate_support (create_cluster_candidates docParams docInput {} 0).1).cluster
        0).count = 35) ∧
      (support_sum (create_cluster_candidates docParams docInput {} 0).1 (List.range 3) = 35) ∧
      (0 < (create_cluster_candidates docParams docInput {} 0).1.clusters.length) := by
    decide!
  obtain ⟨h0, h1, h2, h5, h6, h7, h8, h9, x0⟩ := h
  exact ⟨h0, h1, h2, docParams_fresh.2, docParams_fresh.1, h5, h6, h7, h8, h9,
    ((aggregation_counts_once docParams docInput {} 0 h0 h1 h2 docParams_fresh.2
    docParams_fresh.1).2 0 x0).2.2.2.2.2.1, ((aggregation_counts_once docParams docInput {} 0 h0
    h1 h2 docParams_fresh.2 docParams_fresh.1).2 0 x0).2.2.2.2.2.2⟩

/-! ## The fused pass and the candidate pass -/

theorem DepFrame.refl_dep (p : Parameters) : DepFrame p p := by
  unfold DepFrame; rfl

theorem DepFrame.set_dep {p q : Parameters} (h : DepFrame p q) (a : Nat → Nat) (b : Nat → Nat) :
    DepFrame p { q with wordNumStr := a, wordDepMatrix := b } := by
  unfold DepFrame at *
  rw [h]

theorem candidate_word_dep_frame (st : Parameters × CandidateLocals × Nat)
    (st' : Parameters × CandidateLocals) (word : Key) (h : DepFrame st'.1 st.1)
    (hl : st.2.1 = st'.2) :
    DepFrame (candidate_word st' word).1 (candidate_word_dep st word).1 ∧
    (candidate_word_dep st word).2.1 = (candidate_word st' word).2 := by
  obtain ⟨p, loc, dc⟩ := st
  obtain ⟨p', loc'⟩ := st'
  simp only at h hl
  subst hl
  unfold DepFrame at h
  unfold candidate_word_dep candidate_word
  simp only []
  rw [h]
  simp only []
  cases (find_elem word p'.ppWordTable p'.wordTableSize p'.wordTableSeed).1 with
  | none => exact ⟨by unfold DepFrame; rfl, rfl⟩
  | some pWord =>
    simp only []
    split_ifs <;> exact ⟨by unfold DepFrame; rfl, rfl⟩

theorem candidate_words_dep_frame (words : List Key) :
    ∀ (st : Parameters × CandidateLocals × Nat) (st' : Parameters × CandidateLocals),
      DepFrame st'.1 st.1 → st.2.1 = st'.2 →
      DepFrame (words.foldl candidate_word st').1 (words.foldl candidate_word_dep st).1 ∧
      (words.foldl candidate_word_dep st).2.1 = (words.foldl candidate_word st').2 := by
  induction words with
  | nil => intro st st' h hl; exact ⟨h, hl⟩
  | cons w rest ih =>
    intro st st' h hl
    obtain ⟨a1, a2⟩ := candidate_word_dep_frame st st' w h hl
    exact ih _ _ a1 a2

theorem candidate_scan_dep_frame (p p' : Parameters) (loc : CandidateLocals) (words : List Key)
    (h : DepFrame p' p) :
    DepFrame (candidate_scan p' loc words).1 (candidate_scan_dep p loc words).1 ∧
    (candidate_scan_dep p loc words).2.1 = (candidate_scan p' loc words).2 := by
  obtain ⟨a1, a2⟩ := candidate_words_dep_frame words
    (p, { loc with key := [], constants := 0, variables_ := 0 }, 0)
    (p', { loc with key := [], constants := 0, variables_ := 0 }) h rfl
  unfold candidate_scan_dep candidate_scan
  simp only []
  rw [a2]
  exact ⟨a1, rfl⟩

theorem put_cluster_set_dep (p : Parameters) (a : Nat → Nat) (b : Nat → Nat)
    (loc : CandidateLocals) (cc : Nat) :
    put_cluster { p with wordNumStr := a, wordDepMatrix := b } loc cc
      = ({ (put_cluster p loc cc).1 with wordNumStr := a, wordDepMatrix := b },
         (put_cluster p loc cc).2) := by
  simp only [put_cluster, create_cluster_instance]
  cases hf : front (add_elem loc.key p.ppClusterTable p.clusterTableSize p.clusterTableSeed)
      (str2hash loc.key p.clusterTableSize p.clusterTableSeed) with
  | none => rfl
  | some pElem =>
    simp only []
    by_cases hc : pElem.count = 1
    · rw [if_pos hc, if_pos hc]
      simp only []
      split
      · rfl
      · split <;> rfl
    · rw [if_neg hc, if_neg hc]
      simp only [hf]
      split <;> rfl

theorem put_cluster_dep_frame (p q : Parameters) (loc : CandidateLocals) (cc : Nat)
    (h : DepFrame p q) :
    DepFrame (put_cluster p loc cc).1 (put_cluster q loc cc).1 ∧
    (put_cluster q loc cc).2 = (put_cluster p loc cc).2 := by
  unfold DepFrame at h
  have e := put_cluster_set_dep p q.wordNumStr q.wordDepMatrix loc cc
  rw [← h] at e
  rw [e]
  exact ⟨by unfold DepFrame; rfl, rfl⟩

theorem create_cluster_candidates_word_dep_line_frame
    (st st' : Parameters × CandidateLocals × Nat) (l : List Key) (h : DepFrame st'.1 st.1)
    (hl : st.2.1 = st'.2.1) (hc : st.2.2 = st'.2.2) :
    DepFrame (create_cluster_candidates_line st' l).1
      (create_cluster_candidates_word_dep_line st l).1 ∧
    (create_cluster_candidates_word_dep_line st l).2.1 = (create_cluster_candidates_line st' l).2.1 ∧
    (create_cluster_candidates_word_dep_line st l).2.2
      = (create_cluster_candidates_line st' l).2.2 := by
  obtain ⟨a1, a2⟩ := candidate_scan_dep_frame st.1 st'.1 st.2.1 l h
  rw [hl] at a1 a2
  unfold create_cluster_candidates_word_dep_line create_cluster_candidates_line
  simp only []
  rw [hl, a2, hc]
  have hfields : ∀ q : Parameters, DepFrame (candidate_scan st'.1 st'.2.1 l).1 q →
      q.clusterSketchSize = (candidate_scan st'.1 st'.2.1 l).1.clusterSketchSize ∧
      q.clusterSketchSeed = (candidate_scan st'.1 st'.2.1 l).1.clusterSketchSeed ∧
      q.pClusterSketch = (candidate_scan st'.1 st'.2.1 l).1.pClusterSketch ∧
      q.support = (candidate_scan st'.1 st'.2.1 l).1.support := by
    intro q hq
    unfold DepFrame at hq
    rw [hq]
    exact ⟨rfl, rfl, rfl, rfl⟩
  by_cases h0 : (candidate_scan st'.1 st'.2.1 l).2.constants = 0
  · rw [if_pos h0, if_pos h0]
    exact ⟨a1, rfl, rfl⟩
  · rw [if_neg h0, if_neg h0]
    have a3 : DepFrame (candidate_scan st'.1 st'.2.1 l).1
        (update_word_dep_matrix (candidate_scan_dep st.1 st'.2.1 l).1.wordNumStr
          (candidate_scan_dep st.1 st'.2.1 l).2.2 (candidate_scan_dep st.1 st'.2.1 l).1) := by
      unfold update_word_dep_matrix
      unfold DepFrame at a1 ⊢
      simp only []
      rw [a1]
    obtain ⟨f1, f2, f3, f4⟩ := hfields _ a3
    rw [f1, f2, f3, f4]
    split
    · exact ⟨a3, rfl, rfl⟩
    · obtain ⟨b1, b2⟩ := put_cluster_dep_frame _ _ (candidate_scan st'.1 st'.2.1 l).2 st'.2.2 a3
      exact ⟨b1, rfl, b2⟩

theorem create_cluster_candidates_word_dep_lines_frame (input : List (List Key)) :
    ∀ (st st' : Parameters × CandidateLocals × Nat), DepFrame st'.1 st.1 →
      st.2.1 = st'.2.1 → st.2.2 = st'.2.2 →
      DepFrame (input.foldl create_cluster_candidates_line st').1
        (input.foldl create_cluster_candidates_word_dep_line st).1 ∧
      (input.foldl create_cluster_candidates_word_dep_line st).2.2
        = (input.foldl create_cluster_candidates_line st').2.2 := by
  induction input with
  | nil => intro st st' h _ hc; exact ⟨h, hc⟩
  | cons l rest ih =>
    intro st st' h hl hc
    obtain ⟨a1, a2, a3⟩ := create_cluster_candidates_word_dep_line_frame st st' l h hl hc
    exact ih _ _ a1 a2 a3

/-- The fused candidate and word-dependency pass leaves the state of the
candidate pass, but for the scratch array `wordNumStr` and the matrix, and
returns the same number of candidates. -/
theorem create_cluster_candidates_word_dep_frame (pParam : Parameters)
    (input : List (List Key)) (loc : CandidateLocals) (cc : Nat) :
    DepFrame (create_cluster_candidates pParam input loc cc).1
      (create_cluster_candidates_word_dep pParam input loc cc).1 ∧
    (create_cluster_candidates_word_dep pParam input loc cc).2
      = (create_cluster_candidates pParam input loc cc).2 := by
  unfold create_cluster_candidates_word_dep create_cluster_candidates
  simp only []
  exact create_cluster_candidates_word_dep_lines_frame input _ _
    (by unfold DepFrame; rfl) rfl rfl
/-! ## The keys and the constants of the candidates -/

theorem mem_flatten_of_getD (t : Table) (h : Nat) (e : Elem) (he : e ∈ t.getD h []) :
    e ∈ t.flatten := by
  rw [List.getD_eq_getElem?_getD] at he
  cases hg : t[h]? with
  | none => rw [hg] at he; simp at he
  | some c =>
    rw [hg] at he
    simp only [Option.getD_some] at he
    rw [List.mem_flatten]
    exact ⟨c, List.getElem?_mem hg, he⟩

theorem mem_flatten_set (t : Table) (h : Nat) (c : List Elem) (e : Elem)
    (he : e ∈ (t.set h c).flatten) : e ∈ c ∨ e ∈ t.flatten := by
  rw [List.mem_flatten] at he
  obtain ⟨c1, hc1, he1⟩ := he
  rcases List.mem_or_eq_of_mem_set hc1 with h1 | h1
  · exact Or.inr (List.mem_flatten.2 ⟨c1, h1, he1⟩)
  · subst h1; exact Or.inl he1

theorem chain_scan_mem {k : Key} :
    ∀ {c : List Elem} {x : Elem} {r : List Elem}, chain_scan k c = some (x, r) →
      x ∈ c ∧ ∀ y ∈ r, y ∈ c := by
  intro c
  induction c with
  | nil => intro x r h; simp [chain_scan] at h
  | cons e rest ih =>
    intro x r h
    unfold chain_scan at h
    by_cases he : e.pKey = k
    · simp only [he, if_true, Option.some.injEq, Prod.mk.injEq] at h
      obtain ⟨rfl, rfl⟩ := h
      exact ⟨List.mem_cons_self _ _, fun y hy => List.mem_cons_of_mem _ hy⟩
    · simp only [he, if_false] at h
      cases hs : chain_scan k rest with
      | none => simp [hs] at h
      | some pr =>
        obtain ⟨y, r'⟩ := pr
        simp only [hs, Option.some.injEq, Prod.mk.injEq] at h
        obtain ⟨rfl, rfl⟩ := h
        obtain ⟨a1, a2⟩ := ih hs
        refine ⟨List.mem_cons_of_mem _ a1, ?_⟩
        intro z hz
        rcases List.mem_cons.1 hz with rfl | hz
        · exact List.mem_cons_self _ _
        · exact List.mem_cons_of_mem _ (a2 z hz)

theorem mem_flatten_add_elem (k : Key) (t : Table) (m s : Nat) (e : Elem)
    (he : e ∈ (add_elem k t m s).flatten) :
    e.pKey = k ∨ e ∈ t.flatten := by
  unfold add_elem at he
  simp only [] at he
  cases hs : chain_scan k (t.getD (str2hash k m s) []) with
  | none =>
    rw [hs] at he
    simp only [] at he
    rcases mem_flatten_set _ _ _ _ he with h1 | h1
    · rcases List.mem_cons.1 h1 with rfl | h2
      · exact Or.inl rfl
      · exact Or.inr (mem_flatten_of_getD _ _ _ h2)
    · exact Or.inr h1
  | some pr =>
    obtain ⟨ptr, others⟩ := pr
    rw [hs] at he
    simp only [] at he
    obtain ⟨a1, a2⟩ := chain_scan_mem hs
    rcases mem_flatten_set _ _ _ _ he with h1 | h1
    · rcases List.mem_cons.1 h1 with rfl | h2
      · exact Or.inl (chain_scan_key hs : ptr.pKey = k)
      · exact Or.inr (mem_flatten_of_getD _ _ _ (a2 e h2))
    · exact Or.inr h1

theorem mem_flatten_store_front (t : Table) (h : Nat) (e' e : Elem)
    (he : e ∈ (store_front t h e').flatten) : e = e' ∨ e ∈ t.flatten := by
  unfold store_front at he
  cases hc : t.getD h [] with
  | nil => rw [hc] at he; exact Or.inr he
  | cons x rest =>
    rw [hc] at he
    simp only [] at he
    rcases mem_flatten_set _ _ _ _ he with h1 | h1
    · rcases List.mem_cons.1 h1 with rfl | h2
      · exact Or.inl rfl
      · exact Or.inr (mem_flatten_of_getD t h e (by rw [hc]; exact List.mem_cons_of_mem _ h2))
    · exact Or.inr h1

theorem CandGen.mono_gen {G G' : Elem → Prop} {K K' : Key → Prop} {p : Parameters} {m s : Nat}
    (h : CandGen G K p m s) (hG : ∀ e, G e → G' e) (hK : ∀ k, K k → K' k) :
    CandGen G' K' p m s :=
  { csize := h.csize, cseed := h.cseed, len := h.len,
    keys := fun e he => hK _ (h.keys e he),
    good := fun ptr hptr =>
      ⟨(h.good ptr hptr).1, hK _ (h.good ptr hptr).2.1, fun i h1 h2 =>
        (by
          obtain ⟨we, a1, a2⟩ := (h.good ptr hptr).2.2 i h1 h2
          exact ⟨we, a1, hG we a2⟩)⟩ }

theorem CandGen.of_wordTable_gen {G : Elem → Prop} {K : Key → Prop} {p : Parameters}
    {m s : Nat} (h : CandGen G K p m s) (t : Table) :
    CandGen G K { p with ppWordTable := t } m s :=
  { csize := h.csize, cseed := h.cseed, len := h.len, keys := h.keys, good := h.good }

theorem CandGen.add_elem_gen {G : Elem → Prop} {K : Key → Prop} {p : Parameters} {m s : Nat}
    (h : CandGen G K p m s) (k : Key) (hk : K k) :
    CandGen G K { p with ppClusterTable := add_elem k p.ppClusterTable m s } m s :=
  { csize := h.csize, cseed := h.cseed,
    len := (add_elem_length k _ m s).trans h.len,
    keys := (by
      intro e he
      rcases mem_flatten_add_elem k _ m s e he with h1 | h1
      · rw [h1]; exact hk
      · exact h.keys e h1),
    good := h.good }

theorem CandGen.create_gen {G : Elem → Prop} {K : Key → Prop} {p : Parameters} {m s : Nat}
    (h : CandGen G K p m s) (hash : Nat) (pElem : Elem) (hk : K pElem.pKey)
    (constants : Nat) (wildcard : Nat → Int)
    (pStorage : Nat → Option Elem) (hc : 1 ≤ constants)
    (hs : ∀ i, 1 ≤ i → i ≤ constants → ∃ we, pStorage i = some we ∧ G we) :
    CandGen G K (create_cluster_instance hash pElem constants wildcard pStorage p) m s := by
  refine { csize := h.csize, cseed := h.cseed, len := ?_, keys := ?_, good := ?_ }
  · show (store_front p.ppClusterTable _ _).length = m
    rw [store_front_length]; exact h.len
  · intro e he
    rcases mem_flatten_store_front _ _ _ _ he with h1 | h1
    · rw [h1]; exact hk
    · exact h.keys e h1
  · intro ptr hptr
    unfold Parameters.cluster
    unfold create_cluster_instance at hptr ⊢
    simp only [List.length_append, List.length_singleton] at hptr
    simp only []
    by_cases hlt : ptr < p.clusters.length
    · rw [cluster_append_old _ _ _ hlt]; exact h.good ptr hlt
    · have hp : ptr = p.clusters.length := by omega
      subst hp
      rw [List.getD_eq_getElem?_getD, List.getElem?_append_right (le_refl _)]
      simp only [Nat.sub_self, List.getElem?_cons_zero, Option.getD_some]
      refine ⟨hc, hk, ?_⟩
      intro i hi1 hi2
      rw [foldl_storage_set pStorage _ _ i (List.mem_range'_1.2 ⟨hi1, by omega⟩)]
      exact hs i hi1 hi2

theorem CandGen.adjust_gen {G : Elem → Prop} {K : Key → Prop} {p : Parameters} {m s : Nat}
    (h : CandGen G K p m s) (a constants : Nat) (wildcard : Nat → Int) :
    CandGen G K (adjust_cluster_instance a constants wildcard p) m s := by
  refine { csize := h.csize, cseed := h.cseed, len := h.len, keys := h.keys, good := ?_ }
  intro ptr hptr
  unfold adjust_cluster_instance at hptr ⊢
  have hl : ptr < p.clusters.length := by
    simpa [Parameters.setCluster] using hptr
  rw [cluster_setCluster]
  split
  · rename_i hh
    obtain ⟨rfl, ha⟩ := hh
    exact h.good a ha
  · exact h.good ptr hl

theorem CandGen.adjust_front_gen {G : Elem → Prop} {K : Key → Prop} {m s : Nat}
    (created : Parameters × Nat)
    (hash constants : Nat) (wildcard : Nat → Int) (h : CandGen G K created.1 m s) :
    CandGen G K (match front created.1.ppClusterTable hash with
      | none => created
      | some pElem =>
        match pElem.pCluster with
        | none => created
        | some ptr =>
          (adjust_cluster_instance ptr constants wildcard created.1, created.2)).1 m s := by
  split
  · exact h
  · split
    · exact h
    · exact h.adjust_gen _ _ _

theorem put_cluster_gen {G : Elem → Prop} {K : Key → Prop} {p : Parameters} {m s : Nat}
    (h : CandGen G K p m s) (hm : 0 < m) (loc : CandidateLocals) (cc : Nat) (hk : K loc.key)
    (hc : 1 ≤ loc.constants)
    (hs : ∀ i, 1 ≤ i → i ≤ loc.constants → ∃ we, loc.pStorage i = some we ∧ G we) :
    CandGen G K (put_cluster p loc cc).1 m s := by
  have e1 := h.csize
  have e2 := h.cseed
  subst e1
  subst e2
  have hlen : str2hash loc.key p.clusterTableSize p.clusterTableSeed
      < p.ppClusterTable.length := by
    rw [h.len]; exact str2hash_lt _ _ _ hm
  have hf := front_add_elem loc.key p.ppClusterTable _ _ hlen
  have hA := h.add_elem_gen loc.key hk
  have hkey := added_pKey p.ppClusterTable p.clusterTableSize p.clusterTableSeed loc.key
  have hB := hA.create_gen (str2hash loc.key p.clusterTableSize p.clusterTableSeed)
    (added (lookup p.ppClusterTable p.clusterTableSize p.clusterTableSeed loc.key) loc.key)
    (by rw [hkey]; exact hk) loc.constants loc.wildcard loc.pStorage hc hs
  unfold put_cluster
  simp only [hf]
  refine CandGen.adjust_front_gen _ _ _ _ ?_
  split
  · exact hB
  · exact hA
theorem ConstantOf.mono_constant {p0 : Parameters} {done : List (List Key)} (l : List Key) {we : Elem}
    (h : ConstantOf p0 done we) : ConstantOf p0 (done ++ [l]) we := by
  obtain ⟨a1, a2, l1, a3, a4⟩ := h
  exact ⟨a1, a2, l1, List.mem_append_left _ a3, a4⟩

theorem CandidateKey.mono_key {p0 : Parameters} {done : List (List Key)} (l : List Key) {k : Key}
    (h : CandidateKey p0 done k) : CandidateKey p0 (done ++ [l]) k := by
  obtain ⟨l1, a1, a2, a3⟩ := h
  exact ⟨l1, List.mem_append_left _ a1, a2, a3⟩

theorem create_cluster_candidates_line_gen (p0 : Parameters) (m s : Nat) (hm : 0 < m)
    (st : Parameters × CandidateLocals × Nat) (done : List (List Key)) (l : List Key)
    (hw : WInv p0 st.1)
    (hc : CandGen (ConstantOf p0 done) (CandidateKey p0 done) st.1 m s) :
    WInv p0 (create_cluster_candidates_line st l).1 ∧
    CandGen (ConstantOf p0 (done ++ [l])) (CandidateKey p0 (done ++ [l]))
      (create_cluster_candidates_line st l).1 m s := by
  have hfreq := hw.isFrequent_eq
  obtain ⟨c1, c2, -, -⟩ := candidate_scan_decomposition st.1 st.2.1 l
  have c3 := candidate_scan_key st.1 st.2.1 l
  have hw2 := candidate_scan_WInv hw st.2.1 l
  obtain ⟨t, ht⟩ := candidate_scan_fields st.1 st.2.1 l
  have hc1 : CandGen (ConstantOf p0 (done ++ [l])) (CandidateKey p0 (done ++ [l])) st.1 m s :=
    hc.mono_gen (fun _ h => h.mono_constant l) (fun _ h => h.mono_key l)
  have hc2 : CandGen (ConstantOf p0 (done ++ [l])) (CandidateKey p0 (done ++ [l]))
      (candidate_scan st.1 st.2.1 l).1 m s := by
    rw [ht]; exact hc1.of_wordTable_gen t
  unfold create_cluster_candidates_line
  simp only []
  split
  · exact ⟨hw2, hc2⟩
  · rename_i h0
    split
    · exact ⟨hw2, hc2⟩
    · obtain ⟨w1, w2, w3⟩ := put_cluster_wordTable (candidate_scan st.1 st.2.1 l).1
        (candidate_scan st.1 st.2.1 l).2 st.2.2
      constructor
      · refine { wsize := ?_, wseed := ?_, wsame := ?_ }
        · rw [w2]; exact hw2.wsize
        · rw [w3]; exact hw2.wseed
        · intro w; rw [w1]; exact hw2.wsame w
      · have hne : l.filter (isFrequent st.1) ≠ [] := by
          intro h; apply h0; rw [c1, h]; rfl
        have hcon : constantsOf p0 l = l.filter (isFrequent st.1) := by
          unfold constantsOf; rw [hfreq]
        refine put_cluster_gen hc2 hm _ _ ?_ (by omega) ?_
        · refine ⟨l, List.mem_append_right _ (List.mem_singleton.2 rfl), ?_, ?_⟩
          · rw [hcon]; exact hne
          · rw [hcon]; exact c3
        · intro i hi1 hi2
          rw [c1] at hi2
          have hlt : i - 1 < (l.filter (isFrequent st.1)).length := by omega
          obtain ⟨e, e1, e2, e3⟩ := c2 (i - 1) _ (List.getElem?_eq_getElem hlt)
          have hi : i - 1 + 1 = i := by omega
          rw [hi] at e1
          have hmem := List.mem_filter.1 (List.getElem_mem hlt)
          refine ⟨e, e1, ?_, ?_, l, List.mem_append_right _ (List.mem_singleton.2 rfl), ?_⟩
          · rw [e2, ← hw.wsame, ← hw.wsize, ← hw.wseed]
            exact e3
          · rw [e2, ← hfreq]
            exact hmem.2
          · rw [e2]; exact hmem.1

theorem create_cluster_candidates_lines_gen (p0 : Parameters) (m s : Nat) (hm : 0 < m)
    (input : List (List Key)) :
    ∀ (st : Parameters × CandidateLocals × Nat) (done : List (List Key)), WInv p0 st.1 →
      CandGen (ConstantOf p0 done) (CandidateKey p0 done) st.1 m s →
      WInv p0 (input.foldl create_cluster_candidates_line st).1 ∧
      CandGen (ConstantOf p0 (done ++ input)) (CandidateKey p0 (done ++ input))
        (input.foldl create_cluster_candidates_line st).1 m s := by
  induction input with
  | nil => intro st done hw hc; simpa using ⟨hw, hc⟩
  | cons l rest ih =>
    intro st done hw hc
    obtain ⟨h1, h2⟩ := create_cluster_candidates_line_gen p0 m s hm st done l hw hc
    have := ih _ _ h1 h2
    simpa [List.foldl_cons, List.append_assoc] using this

/-- After the candidate pass, with or without the cluster sketch: the word
table holds the records of before, every record of the cluster table has the
candidate key of a line of the input, and every cluster record has at least one
constant, the key of a line, and for every constant the word-table record of a
frequent word that occurs in the input. -/
theorem create_cluster_candidates_gen (pParam : Parameters) (input : List (List Key))
    (loc : CandidateLocals) (cc : Nat) (hsz : 0 < pParam.clusterTableSize)
    (hcl : pParam.clusters = []) :
    WInv pParam (create_cluster_candidates pParam input loc cc).1 ∧
    CandGen (ConstantOf pParam input) (CandidateKey pParam input)
      (create_cluster_candidates pParam input loc cc).1
      pParam.clusterTableSize pParam.clusterTableSeed := by
  have hinit : CandGen (ConstantOf pParam []) (CandidateKey pParam [])
      { pParam with ppClusterTable := List.replicate pParam.clusterTableSize [] }
      pParam.clusterTableSize pParam.clusterTableSeed := by
    refine { csize := rfl, cseed := rfl, len := by simp, keys := ?_, good := ?_ }
    · intro e he
      change e ∈ (List.replicate pParam.clusterTableSize ([] : List Elem)).flatten at he
      rw [List.mem_flatten] at he
      obtain ⟨c, hc1, hc2⟩ := he
      rw [List.eq_of_mem_replicate hc1] at hc2
      cases hc2
    · intro ptr hptr
      change ptr < pParam.clusters.length at hptr
      rw [hcl] at hptr
      exact absurd hptr (Nat.not_lt_zero _)
  have hw : WInv pParam
      { pParam with ppClusterTable := List.replicate pParam.clusterTableSize [] } :=
    { wsize := rfl, wseed := rfl, wsame := fun _ => rfl }
  have := create_cluster_candidates_lines_gen pParam pParam.clusterTableSize
    pParam.clusterTableSeed hsz input
    ({ pParam with ppClusterTable := List.replicate pParam.clusterTableSize [] }, loc, cc) []
    hw hinit
  simpa [create_cluster_candidates] using this

theorem CandGen.of_dep_gen {G : Elem → Prop} {K : Key → Prop} {p q : Parameters} {m s : Nat}
    (h : CandGen G K p m s) (hf : DepFrame p q) : CandGen G K q m s := by
  unfold DepFrame at hf
  rw [hf]
  exact { csize := h.csize, cseed := h.cseed, len := h.len, keys := h.keys, good := h.good }

theorem WInv.of_dep_words {p0 p q : Parameters} (h : WInv p0 p) (hf : DepFrame p q) : WInv p0 q := by
  unfold DepFrame at hf
  rw [hf]
  exact { wsize := h.wsize, wseed := h.wseed, wsame := h.wsame }

/-- The same after the fused candidate and word-dependency pass. -/
theorem create_cluster_candidates_word_dep_gen (pParam : Parameters) (input : List (List Key))
    (loc : CandidateLocals) (cc : Nat) (hsz : 0 < pParam.clusterTableSize)
    (hcl : pParam.clusters = []) :
    WInv pParam (create_cluster_candidates_word_dep pParam input loc cc).1 ∧
    CandGen (ConstantOf pParam input) (CandidateKey pParam input)
      (create_cluster_candidates_word_dep pParam input loc cc).1
      pParam.clusterTableSize pParam.clusterTableSeed := by
  obtain ⟨a1, a2⟩ := create_cluster_candidates_gen pParam input loc cc hsz hcl
  obtain ⟨b1, -⟩ := create_cluster_candidates_word_dep_frame pParam input loc cc
  exact ⟨a1.of_dep_words b1, a2.of_dep_gen b1⟩

theorem CandLine.mono_line {done : List (List Key)} {p : Parameters} (h : CandLine done p)
    (l : List Key) : CandLine (done ++ [l]) p := by
  intro ptr hptr
  obtain ⟨l1, a1, a2, a3⟩ := h ptr hptr
  exact ⟨l1, List.mem_append_left _ a1, a2, a3⟩

theorem CandLine.of_tables {done : List (List Key)} {p : Parameters} (h : CandLine done p)
    (t ct : Table) : CandLine done { p with ppWordTable := t, ppClusterTable := ct } := h

theorem CandLine.create_line {done : List (List Key)} {p : Parameters} (h : CandLine done p)
    (hash : Nat) (pElem : Elem) (constants : Nat) (wildcard : Nat → Int)
    (pStorage : Nat → Option Elem) (l : List Key) (hl : l ∈ done) (hc : constants ≤ l.length)
    (hs : ∀ i, 1 ≤ i → i ≤ constants → ∃ we, pStorage i = some we ∧ we.pKey ∈ l) :
    CandLine done (create_cluster_instance hash pElem constants wildcard pStorage p) := by
  intro ptr hptr
  unfold Parameters.cluster
  unfold create_cluster_instance at hptr ⊢
  simp only [List.length_append, List.length_singleton] at hptr
  simp only []
  by_cases hlt : ptr < p.clusters.length
  · rw [cluster_append_old _ _ _ hlt]; exact h ptr hlt
  · have hp : ptr = p.clusters.length := by omega
    subst hp
    rw [List.getD_eq_getElem?_getD, List.getElem?_append_right (le_refl _)]
    simp only [Nat.sub_self, List.getElem?_cons_zero, Option.getD_some]
    refine ⟨l, hl, hc, ?_⟩
    intro i hi1 hi2
    rw [foldl_storage_set pStorage _ _ i (List.mem_range'_1.2 ⟨hi1, by omega⟩)]
    exact hs i hi1 hi2

theorem CandLine.adjust_line {done : List (List Key)} {p : Parameters} (h : CandLine done p)
    (a constants : Nat) (wildcard : Nat → Int) :
    CandLine done (adjust_cluster_instance a constants wildcard p) := by
  intro ptr hptr
  unfold adjust_cluster_instance at hptr ⊢
  have hl : ptr < p.clusters.length := by
    simpa [Parameters.setCluster] using hptr
  rw [cluster_setCluster]
  split
  · rename_i hh
    obtain ⟨rfl, ha⟩ := hh
    exact h a ha
  · exact h ptr hl

theorem CandLine.adjust_front_line {done : List (List Key)} (created : Parameters × Nat)
    (hash constants : Nat) (wildcard : Nat → Int) (h : CandLine done created.1) :
    CandLine done (match front created.1.ppClusterTable hash with
      | none => created
      | some pElem =>
        match pElem.pCluster with
        | none => created
        | some ptr =>
          (adjust_cluster_instance ptr constants wildcard created.1, created.2)).1 := by
  split
  · exact h
  · split
    · exact h
    · exact h.adjust_line _ _ _

theorem put_cluster_line {done : List (List Key)} {p : Parameters} (h : CandLine done p)
    (hm : 0 < p.clusterTableSize) (hlen : p.ppClusterTable.length = p.clusterTableSize)
    (loc : CandidateLocals) (cc : Nat) (l : List Key) (hl : l ∈ done)
    (hc : loc.constants ≤ l.length)
    (hs : ∀ i, 1 ≤ i → i ≤ loc.constants → ∃ we, loc.pStorage i = some we ∧ we.pKey ∈ l) :
    CandLine done (put_cluster p loc cc).1 := by
  have hlt : str2hash loc.key p.clusterTableSize p.clusterTableSeed
      < p.ppClusterTable.length := by
    rw [hlen]; exact str2hash_lt _ _ _ hm
  have hf := front_add_elem loc.key p.ppClusterTable _ _ hlt
  have hA : CandLine done
      { p with ppClusterTable :=
          add_elem loc.key p.ppClusterTable p.clusterTableSize p.clusterTableSeed } := h
  have hB := hA.create_line (str2hash loc.key p.clusterTableSize p.clusterTableSeed)
    (added (lookup p.ppClusterTable p.clusterTableSize p.clusterTableSeed loc.key) loc.key)
    loc.constants loc.wildcard loc.pStorage l hl hc hs
  unfold put_cluster
  simp only [hf]
  refine CandLine.adjust_front_line _ _ _ _ ?_
  split
  · exact hB
  · exact hA

theorem create_cluster_candidates_line_line (p0 : Parameters) (m s : Nat) (hm : 0 < m)
    (st : Parameters × CandidateLocals × Nat) (done : List (List Key)) (l : List Key)
    (hg : CandGen (ConstantOf p0 done) (CandidateKey p0 done) st.1 m s)
    (hc : CandLine done st.1) :
    CandLine (done ++ [l]) (create_cluster_candidates_line st l).1 := by
  obtain ⟨c1, c2, -, -⟩ := candidate_scan_decomposition st.1 st.2.1 l
  obtain ⟨t, ht⟩ := candidate_scan_fields st.1 st.2.1 l
  have hc1 : CandLine (done ++ [l]) st.1 := hc.mono_line l
  have hc2 : CandLine (done ++ [l]) (candidate_scan st.1 st.2.1 l).1 := by
    rw [ht]; exact hc1
  have hsz : (candidate_scan st.1 st.2.1 l).1.clusterTableSize = m := by
    rw [ht]; exact hg.csize
  have hlen : (candidate_scan st.1 st.2.1 l).1.ppClusterTable.length = m := by
    rw [ht]; exact hg.len
  unfold create_cluster_candidates_line
  simp only []
  split
  · exact hc2
  · split
    · exact hc2
    · refine put_cluster_line hc2 (by rw [hsz]; exact hm) (by rw [hlen, hsz]) _ _ l
        (List.mem_append_right _ (List.mem_singleton.2 rfl)) ?_ ?_
      · rw [c1]; exact List.length_filter_le _ _
      · intro i hi1 hi2
        rw [c1] at hi2
        have hlt : i - 1 < (l.filter (isFrequent st.1)).length := by omega
        obtain ⟨e, e1, e2, -⟩ := c2 (i - 1) _ (List.getElem?_eq_getElem hlt)
        have hi : i - 1 + 1 = i := by omega
        rw [hi] at e1
        have hmem := List.mem_filter.1 (List.getElem_mem hlt)
        exact ⟨e, e1, by rw [e2]; exact hmem.1⟩

theorem create_cluster_candidates_lines_line (p0 : Parameters) (m s : Nat) (hm : 0 < m)
    (input : List (List Key)) :
    ∀ (st : Parameters × CandidateLocals × Nat) (done : List (List Key)), WInv p0 st.1 →
      CandGen (ConstantOf p0 done) (CandidateKey p0 done) st.1 m s →
      CandLine done st.1 →
      CandLine (done ++ input) (input.foldl create_cluster_candidates_line st).1 := by
  induction input with
  | nil => intro st done _ _ hc; simpa using hc
  | cons l rest ih =>
    intro st done hw hg hc
    obtain ⟨h1, h2⟩ := create_cluster_candidates_line_gen p0 m s hm st done l hw hg
    have h3 := create_cluster_candidates_line_line p0 m s hm st done l hg hc
    have := ih _ _ h1 h2 h3
    simpa [List.foldl_cons, List.append_assoc] using this

/-- After the candidate pass every cluster record was made for a line of the
input. -/
theorem create_cluster_candidates_made (pParam : Parameters) (input : List (List Key))
    (loc : CandidateLocals) (cc : Nat) (hsz : 0 < pParam.clusterTableSize)
    (hcl : pParam.clusters = []) :
    CandLine input (create_cluster_candidates pParam input loc cc).1 := by
  have hinit : CandGen (ConstantOf pParam []) (CandidateKey pParam [])
      { pParam with ppClusterTable := List.replicate pParam.clusterTableSize [] }
      pParam.clusterTableSize pParam.clusterTableSeed := by
    refine { csize := rfl, cseed := rfl, len := by simp, keys := ?_, good := ?_ }
    · intro e he
      change e ∈ (List.replicate pParam.clusterTableSize ([] : List Elem)).flatten at he
      rw [List.mem_flatten] at he
      obtain ⟨c, hc1, hc2⟩ := he
      rw [List.eq_of_mem_replicate hc1] at hc2
      cases hc2
    · intro ptr hptr
      change ptr < pParam.clusters.length at hptr
      rw [hcl] at hptr
      exact absurd hptr (Nat.not_lt_zero _)
  have hline : CandLine []
      { pParam with ppClusterTable := List.replicate pParam.clusterTableSize [] } := by
    intro ptr hptr
    change ptr < pParam.clusters.length at hptr
    rw [hcl] at hptr
    exact absurd hptr (Nat.not_lt_zero _)
  have hw : WInv pParam
      { pParam with ppClusterTable := List.replicate pParam.clusterTableSize [] } :=
    { wsize := rfl, wseed := rfl, wsame := fun _ => rfl }
  have := create_cluster_candidates_lines_line pParam pParam.clusterTableSize
    pParam.clusterTableSeed hsz input
    ({ pParam with ppClusterTable := List.replicate pParam.clusterTableSize [] }, loc, cc) []
    hw hinit hline
  simpa [create_cluster_candidates] using this

/-- The same after the fused candidate and word-dependency pass. -/
theorem create_cluster_candidates_word_dep_made (pParam : Parameters)
    (input : List (List Key)) (loc : CandidateLocals) (cc : Nat)
    (hsz : 0 < pParam.clusterTableSize) (hcl : pParam.clusters = []) :
    CandLine input (create_cluster_candidates_word_dep pParam input loc cc).1 := by
  have a := create_cluster_candidates_made pParam input loc cc hsz hcl
  obtain ⟨b1, -⟩ := create_cluster_candidates_word_dep_frame pParam input loc cc
  unfold DepFrame at b1
  rw [b1]
  exact a

/-! ## The bounds of the word-dependency matrix and of the weights -/

theorem word_dep_matrix_inv (pParam : Parameters) (input : List (List Key))
    (loc : CandidateLocals) (cc : Nat) (hinj : NumbersInjective pParam)
    (hlt : NumbersBelow pParam pParam.wordDepMatrixBreadth) :
    MatrixInv pParam (create_cluster_candidates_word_dep pParam input loc cc).1 input := by
  have hinit : MatrixInv pParam
      { pParam with
          ppClusterTable := List.replicate pParam.clusterTableSize [],
          wordDepMatrix := (List.range pParam.wordDepMatrixBreadth).foldl (fun D p =>
            (List.range pParam.wordDepMatrixBreadth).foldl (fun D q =>
              arrSet D (p * pParam.wordDepMatrixBreadth + q) 0) D) pParam.wordDepMatrix } [] := by
    refine { words := { wsize := rfl, wseed := rfl, wsame := fun _ => rfl }, breadth := rfl,
             entries := ?_ }
    intro u v eu ev _ _ hu hv
    show (List.foldl _ _ _ : Nat → Nat) _ = _
    rw [foldl_zero2_hit (fun p q => p * pParam.wordDepMatrixBreadth + q) _ _ _ eu.number
      ev.number (List.mem_range.2 (hlt u eu hu)) (List.mem_range.2 (hlt v ev hv))]
    rfl
  have := create_cluster_candidates_word_dep_lines_inv pParam hinj hlt input
    (_, loc, cc) [] hinit
  rw [List.nil_append] at this
  exact this

theorem linesWithBoth_comm (u v : Key) (input : List (List Key)) :
    linesWithBoth u v input = linesWithBoth v u input := by
  unfold linesWithBoth
  congr 1
  funext l
  simp only [and_comm]

theorem linesWithBoth_le (u v : Key) (input : List (List Key)) :
    linesWithBoth u v input ≤ linesWith u input := by
  unfold linesWithBoth linesWith
  apply List.countP_mono_left
  intro l _ h
  simp only [decide_eq_true_eq] at h ⊢
  exact h.1

theorem sum_le_length_of_le_one (l : List ℚ) (h : ∀ x ∈ l, x ≤ 1) : l.sum ≤ l.length := by
  induction l with
  | nil => simp
  | cons a rest ih =>
    rw [List.sum_cons, List.length_cons]
    have h1 := h a (List.mem_cons_self _ _)
    have h2 := ih (fun x hx => h x (List.mem_cons_of_mem _ hx))
    push_cast
    linarith

theorem one_le_sum_of_mem (l : List ℚ) (h : ∀ x ∈ l, 0 ≤ x) (h1 : (1 : ℚ) ∈ l) : 1 ≤ l.sum := by
  induction l with
  | nil => cases h1
  | cons a rest ih =>
    rw [List.sum_cons]
    have hnn : 0 ≤ rest.sum := List.sum_nonneg (fun x hx => h x (List.mem_cons_of_mem _ hx))
    rcases List.mem_cons.1 h1 with e | e
    · rw [← e]; linarith
    · have := ih (fun x hx => h x (List.mem_cons_of_mem _ hx)) e
      have := h a (List.mem_cons_self _ _)
      linarith

theorem rounded_sum_append (d : Nat → ℚ) (l1 l2 : List Nat) (s : ℚ) :
    rounded_sum d (l1 ++ l2) s = rounded_sum d l2 (rounded_sum d l1 s) := by
  unfold rounded_sum
  rw [List.foldl_append]

theorem pow2_neg_52 : pow2 (-52) = 1 / 2 ^ 52 := by
  rw [pow2_eq]; norm_num

/-- A rounded sum of summands of at least `2 ^ (-52)`, started with at least
`N` times `2 ^ (-52)`, is at least `N` plus the number of the summands times
`2 ^ (-52)`. -/
theorem rounded_sum_lower (d : Nat → ℚ) (l : List Nat) (h : ∀ j ∈ l, pow2 (-52) ≤ d j)
    (N : ℕ) (s : ℚ) (hs : (N : ℚ) * pow2 (-52) ≤ s) (hN : N + l.length ≤ 2 ^ 53) :
    ((N + l.length : ℕ) : ℚ) * pow2 (-52) ≤ rounded_sum d l s := by
  have hm := rounded_sum_mono (fun _ => ((1 : ℕ) : ℚ) * pow2 (-52)) d l
    (fun j hj => by simpa using h j hj) _ _ hs
  have hsum : (l.map (fun _ : ℕ => (1 : ℕ))).sum = l.length := by
    simp
  rw [rounded_sum_units (-52) (by norm_num) (fun _ => 1) l N (by rw [hsum]; exact hN), hsum]
    at hm
  exact hm

theorem range'_split (k i : ℕ) (hi1 : 1 ≤ i) (hik : i ≤ k) :
    List.range' 1 k = List.range' 1 (i - 1) ++ i :: List.range' (i + 1) (k - i) := by
  have e1 : k = ((k - i) + 1) + (i - 1) := by omega
  have e2 : List.range' 1 k
      = List.range' 1 (i - 1) ++ List.range' (1 + (i - 1)) ((k - i) + 1) := by
    conv_lhs => rw [e1]
    rw [List.range'_append_1]
  rw [e2, List.range'_succ]
  have e3 : 1 + (i - 1) = i := by omega
  rw [e3]

/-- The weight of the double arithmetic is at least the exact `1 / k` when one
summand is 1 and every summand is at least `2 ^ (-52)`. -/
theorem rounded_weight_lower (d : ℕ → ℚ) (k i : ℕ) (hi1 : 1 ≤ i) (hik : i ≤ k)
    (hk : k ≤ 2 ^ 52) (hd : ∀ j ∈ List.range' 1 k, pow2 (-52) ≤ d j ∧ d j ≤ 1)
    (hdi : d i = 1) :
    1 / (k : ℚ) ≤ Double.nearest (rounded_sum d (List.range' 1 k) 0 / (k : ℚ)) := by
  have hu := pow2_neg_52
  have hupos : (0 : ℚ) < pow2 (-52) := pow2_pos _
  have hkq : (0 : ℚ) < (k : ℚ) := by exact_mod_cast (by omega : 0 < k)
  have hsplit := range'_split k i hi1 hik
  have hd1 : ∀ j ∈ List.range' 1 (i - 1), pow2 (-52) ≤ d j := by
    intro j hj
    exact (hd j (by rw [hsplit]; exact List.mem_append_left _ hj)).1
  have hd2 : ∀ j ∈ List.range' (i + 1) (k - i), pow2 (-52) ≤ d j := by
    intro j hj
    exact (hd j (by
      rw [hsplit]; exact List.mem_append_right _ (List.mem_cons_of_mem _ hj))).1
  -- the lower bound of the sum
  have s1 := rounded_sum_lower d (List.range' 1 (i - 1)) hd1 0 0 (by simp)
    (by rw [List.length_range']; omega)
  rw [List.length_range', Nat.zero_add] at s1
  have s2 : ((2 ^ 52 + (i - 1) : ℕ) : ℚ) * pow2 (-52)
      ≤ Double.nearest (rounded_sum d (List.range' 1 (i - 1)) 0 + d i) := by
    have hr := Double.representable_units (2 ^ 52 + (i - 1)) (-52) (by norm_num) (by omega)
    have := Double.nearest_mono (x := ((2 ^ 52 + (i - 1) : ℕ) : ℚ) * pow2 (-52))
      (y := rounded_sum d (List.range' 1 (i - 1)) 0 + d i) (by
        rw [hdi]
        have e : ((2 ^ 52 + (i - 1) : ℕ) : ℚ) * pow2 (-52)
            = ((i - 1 : ℕ) : ℚ) * pow2 (-52) + 1 := by
          rw [hu]; push_cast; ring
        rw [e]; linarith)
    rwa [Double.nearest_of_repr _ hr] at this
  have s3 := rounded_sum_lower d (List.range' (i + 1) (k - i)) hd2 (2 ^ 52 + (i - 1)) _ s2
    (by rw [List.length_range']; omega)
  rw [List.length_range'] at s3
  have hsum : rounded_sum d (List.range' 1 k) 0
      = rounded_sum d (List.range' (i + 1) (k - i))
          (Double.nearest (rounded_sum d (List.range' 1 (i - 1)) 0 + d i)) := by
    rw [hsplit, rounded_sum_append, rounded_sum_cons]
  rw [← hsum] at s3
  have hcount : 2 ^ 52 + (i - 1) + (k - i) = 2 ^ 52 + (k - 1) := by omega
  rw [hcount] at s3
  -- the upper bound of the sum
  obtain ⟨-, -, hup⟩ := foldl_add_rounded (fun j => some (d j)) d (List.range' 1 k)
    (fun j hj => ⟨rfl, le_trans hupos.le (hd j hj).1, (hd j hj).2⟩) 0 0 le_rfl (by simp)
    (by rw [List.length_range']; omega)
  rw [List.length_range', Nat.zero_add] at hup
  generalize rounded_sum d (List.range' 1 k) 0 = rs at s3 hup ⊢
  have hlow : 1 + ((k - 1 : ℕ) : ℚ) / 2 ^ 52 ≤ rs := by
    have e : ((2 ^ 52 + (k - 1) : ℕ) : ℚ) * pow2 (-52) = 1 + ((k - 1 : ℕ) : ℚ) / 2 ^ 52 := by
      rw [hu]; push_cast; ring
    rw [e] at s3; exact s3
  by_cases hk1 : k = 1
  · subst hk1
    have h1 : rs = 1 := by
      have a : (1 : ℚ) ≤ rs := by simpa using hlow
      have b : rs ≤ 1 := by simpa using hup
      linarith
    rw [h1]
    norm_num
    rw [Double.nearest_of_repr 1 Double.representable_one]
  · have hk2 : 2 ≤ k := by omega
    have hk1q : (1 : ℚ) ≤ ((k - 1 : ℕ) : ℚ) := by exact_mod_cast (by omega : 1 ≤ k - 1)
    have hrs : 1 + 1 / 2 ^ 52 ≤ rs := by
      have : (1 : ℚ) / 2 ^ 52 ≤ ((k - 1 : ℕ) : ℚ) / 2 ^ 52 :=
        div_le_div_of_nonneg_right hk1q (by positivity)
      linarith
    have hy : (1 + 1 / 2 ^ 52) / (k : ℚ) ≤ rs / (k : ℚ) :=
      div_le_div_of_nonneg_right hrs hkq.le
    have hypos : 0 < rs / (k : ℚ) := div_pos (by linarith) hkq
    have hk52 : (k : ℚ) ≤ 2 ^ 52 := by exact_mod_cast hk
    have hnorm : pow2 (-1022) ≤ |rs / (k : ℚ)| := by
      rw [abs_of_pos hypos]
      have h1 : pow2 (-1022) ≤ pow2 (-52) := pow2_le (by norm_num)
      have h2 : pow2 (-52) ≤ 1 / (k : ℚ) := by
        rw [hu]
        exact one_div_le_one_div_of_le hkq hk52
      have h3 : 1 / (k : ℚ) ≤ rs / (k : ℚ) :=
        div_le_div_of_nonneg_right (by linarith) hkq.le
      linarith
    have hrel := Double.nearest_relative (rs / (k : ℚ)) hnorm
    rw [abs_of_pos hypos] at hrel
    have h53 : pow2 (-53) = 1 / 2 ^ 53 := by rw [pow2_eq]; norm_num
    rw [h53] at hrel
    have hw : rs / (k : ℚ) - 1 / 2 ^ 53 * (rs / (k : ℚ))
        ≤ Double.nearest (rs / (k : ℚ)) := by
      have := neg_le_of_abs_le hrel
      linarith
    have hfin : 1 / (k : ℚ) ≤ rs / (k : ℚ) - 1 / 2 ^ 53 * (rs / (k : ℚ)) := by
      have e : rs / (k : ℚ) - 1 / 2 ^ 53 * (rs / (k : ℚ))
          = (rs / (k : ℚ)) * (1 - 1 / 2 ^ 53) := by ring
      rw [e]
      have hc : (1 + 1 / 2 ^ 52) / (k : ℚ) * (1 - 1 / 2 ^ 53)
          ≤ rs / (k : ℚ) * (1 - 1 / 2 ^ 53) :=
        mul_le_mul_of_nonneg_right hy (by norm_num)
      have hc2 : 1 / (k : ℚ) ≤ (1 + 1 / 2 ^ 52) / (k : ℚ) * (1 - 1 / 2 ^ 53) := by
        have e2 : (1 + 1 / 2 ^ 52) / (k : ℚ) * (1 - 1 / 2 ^ 53)
            = ((1 + 1 / 2 ^ 52) * (1 - 1 / 2 ^ 53)) / (k : ℚ) := by ring
        rw [e2]
        exact div_le_div_of_nonneg_right (by norm_num) hkq.le
      linarith
    linarith

theorem linesWith_le_length (u : Key) (input : List (List Key)) :
    linesWith u input ≤ input.length := by
  unfold linesWith
  exact List.countP_le_length _

theorem linesWithBoth_pos (u v : Key) (input : List (List Key)) (l : List Key)
    (hl : l ∈ input) (hu : u ∈ l) (hv : v ∈ l) : 1 ≤ linesWithBoth u v input := by
  unfold linesWithBoth
  have : 0 < input.countP (fun line => decide (u ∈ line ∧ v ∈ line)) := by
    rw [List.countP_pos_iff]
    exact ⟨l, hl, by simpa using ⟨hu, hv⟩⟩
  omega

/-- C39: after `find_frequent_words` and the fused candidate and
word-dependency pass on an input of at most `2 ^ 52` lines of at most
`MAXWORDS` words each, for all frequent words with the numbers `i` and `j` the
matrix is symmetric, `D[i][j] = D[j][i]`, and `D[i][j] <= D[i][i]`.  For every
candidate and all of its positions `i` and `j` the diagonal entry of the
constant at `j` is at least 1, so that `cal_word_dep` does not divide by zero
and returns, in double arithmetic, a finite value in `[0, 1]`, and weight
function 1 returns for every position a finite value `w` of the type `double`
with `1 / k <= w <= 1`, where `k` is the number of the constants and `1 / k` is
the exact rational number. -/
theorem word_dep_matrix_bounds (q : Parameters) (input : List (List Key))
    (loc : CandidateLocals) (cc : Nat) (hlen : q.ppWordTable.length = q.wordTableSize)
    (hsz : 0 < q.clusterTableSize) (hcl : q.clusters = [])
    (hin : input.length ≤ 2 ^ 52) (hwords : ∀ l ∈ input, l.length ≤ MAXWORDS) :
    (∀ u v eu ev, isFrequent (prepare_word_dep q) u = true →
      isFrequent (prepare_word_dep q) v = true →
      lookup (prepare_word_dep q).ppWordTable q.wordTableSize q.wordTableSeed u = some eu →
      lookup (prepare_word_dep q).ppWordTable q.wordTableSize q.wordTableSeed v = some ev →
      (create_cluster_candidates_word_dep (prepare_word_dep q) input loc cc).1.wordDepMatrix
          (eu.number * (prepare_word_dep q).wordDepMatrixBreadth + ev.number)
        = (create_cluster_candidates_word_dep (prepare_word_dep q) input loc cc).1.wordDepMatrix
          (ev.number * (prepare_word_dep q).wordDepMatrixBreadth + eu.number) ∧
      (create_cluster_candidates_word_dep (prepare_word_dep q) input loc cc).1.wordDepMatrix
          (eu.number * (prepare_word_dep q).wordDepMatrixBreadth + ev.number)
        ≤ (create_cluster_candidates_word_dep (prepare_word_dep q) input loc cc).1.wordDepMatrix
          (eu.number * (prepare_word_dep q).wordDepMatrixBreadth + eu.number)) ∧
    (create_cluster_candidates_word_dep (prepare_word_dep q) input loc cc).1.wordDepMatrixBreadth
      = (prepare_word_dep q).wordDepMatrixBreadth ∧
    ∀ ptr, ptr < (create_cluster_candidates_word_dep (prepare_word_dep q) input loc
        cc).1.clusters.length →
      1 ≤ ((create_cluster_candidates_word_dep (prepare_word_dep q) input loc cc).1.cluster
        ptr).constants ∧
      (∀ i j, 1 ≤ i →
        i ≤ ((create_cluster_candidates_word_dep (prepare_word_dep q) input loc cc).1.cluster
          ptr).constants → 1 ≤ j →
        j ≤ ((create_cluster_candidates_word_dep (prepare_word_dep q) input loc cc).1.cluster
          ptr).constants →
        1 ≤ depEntry (create_cluster_candidates_word_dep (prepare_word_dep q) input loc cc).1
          ((create_cluster_candidates_word_dep (prepare_word_dep q) input loc cc).1.cluster ptr)
          j j ∧
        depEntry (create_cluster_candidates_word_dep (prepare_word_dep q) input loc cc).1
          ((create_cluster_candidates_word_dep (prepare_word_dep q) input loc cc).1.cluster ptr)
          j i
          = depEntry (create_cluster_candidates_word_dep (prepare_word_dep q) input loc cc).1
            ((create_cluster_candidates_word_dep (prepare_word_dep q) input loc cc).1.cluster
              ptr) i j ∧
        depEntry (create_cluster_candidates_word_dep (prepare_word_dep q) input loc cc).1
          ((create_cluster_candidates_word_dep (prepare_word_dep q) input loc cc).1.cluster ptr)
          j i
          ≤ depEntry (create_cluster_candidates_word_dep (prepare_word_dep q) input loc cc).1
            ((create_cluster_candidates_word_dep (prepare_word_dep q) input loc cc).1.cluster
              ptr) j j ∧
        ∃ d : ℚ, cal_word_dep
            (((create_cluster_candidates_word_dep (prepare_word_dep q) input loc cc).1.cluster
              ptr).ppWord j)
            (((create_cluster_candidates_word_dep (prepare_word_dep q) input loc cc).1.cluster
              ptr).ppWord i)
            (create_cluster_candidates_word_dep (prepare_word_dep q) input loc cc).1 = some d ∧
          0 ≤ d ∧ d ≤ 1) ∧
      ∀ i, 1 ≤ i →
        i ≤ ((create_cluster_candidates_word_dep (prepare_word_dep q) input loc cc).1.cluster
          ptr).constants →
        ∃ w : ℚ, cal_word_weight_function_1 ptr i
            (create_cluster_candidates_word_dep (prepare_word_dep q) input loc cc).1 = some w ∧
          1 / (((create_cluster_candidates_word_dep (prepare_word_dep q) input loc
            cc).1.cluster ptr).constants : ℚ) ≤ w ∧ w ≤ 1 := by
  obtain ⟨hinj, hlt⟩ := prepare_word_dep_numbers q hlen
  have hM := word_dep_matrix_inv (prepare_word_dep q) input loc cc hinj hlt
  have hsz' : 0 < (prepare_word_dep q).clusterTableSize := hsz
  have hcl' : (prepare_word_dep q).clusters = [] := hcl
  obtain ⟨-, hG⟩ := create_cluster_candidates_word_dep_gen (prepare_word_dep q) input loc cc
    hsz' hcl'
  have hL := create_cluster_candidates_word_dep_made (prepare_word_dep q) input loc cc hsz' hcl'
  generalize (create_cluster_candidates_word_dep (prepare_word_dep q) input loc cc).1 = p
    at hM hG hL ⊢
  have hts : (prepare_word_dep q).wordTableSize = q.wordTableSize := rfl
  have htd : (prepare_word_dep q).wordTableSeed = q.wordTableSeed := rfl
  have hent := hM.entries
  rw [hts, htd] at hent
  refine ⟨?_, hM.breadth, ?_⟩
  · intro u v eu ev hu hv heu hev
    rw [hent u v eu ev hu hv heu hev, hent v u ev eu hv hu hev heu,
      hent u u eu eu hu hu heu heu, linesWithBoth_self]
    exact ⟨linesWithBoth_comm u v input, linesWithBoth_le u v input⟩
  · intro ptr hptr
    obtain ⟨g1, -, g3⟩ := hG.good ptr hptr
    obtain ⟨l0, hl0, hkl, hmem⟩ := hL ptr hptr
    have hk512 : (p.cluster ptr).constants ≤ MAXWORDS := le_trans hkl (hwords l0 hl0)
    have hk52 : (p.cluster ptr).constants ≤ 2 ^ 52 :=
      le_trans hk512 (by unfold MAXWORDS; norm_num)
    have hentry : ∀ i j, 1 ≤ i → i ≤ (p.cluster ptr).constants → 1 ≤ j →
        j ≤ (p.cluster ptr).constants →
        1 ≤ depEntry p (p.cluster ptr) j j ∧
        depEntry p (p.cluster ptr) j i = depEntry p (p.cluster ptr) i j ∧
        depEntry p (p.cluster ptr) j i ≤ depEntry p (p.cluster ptr) j j ∧
        1 ≤ depEntry p (p.cluster ptr) j i ∧
        depEntry p (p.cluster ptr) j j ≤ 2 ^ 52 := by
      intro i j hi1 hi2 hj1 hj2
      obtain ⟨wi, a1, a2, a3, li, a4, a5⟩ := g3 i hi1 hi2
      obtain ⟨wj, b1, b2, b3, lj, b4, b5⟩ := g3 j hj1 hj2
      obtain ⟨wi', c1, c2⟩ := hmem i hi1 hi2
      obtain ⟨wj', d1, d2⟩ := hmem j hj1 hj2
      have ei : wi' = wi := Option.some.inj (c1.symm.trans a1)
      have ej : wj' = wj := Option.some.inj (d1.symm.trans b1)
      rw [ei] at c2
      rw [ej] at d2
      rw [hts, htd] at a2 b2
      unfold depEntry Cluster.wordNumber
      rw [a1, b1, hM.breadth]
      simp only [Option.map_some', Option.getD_some]
      rw [hent _ _ wj wj b3 b3 b2 b2, hent _ _ wj wi b3 a3 b2 a2, hent _ _ wi wj a3 b3 a2 b2,
        linesWithBoth_self]
      refine ⟨?_, linesWithBoth_comm _ _ _, linesWithBoth_le _ _ _,
        linesWithBoth_pos _ _ _ l0 hl0 d2 c2,
        le_trans (linesWith_le_length _ _) hin⟩
      have := (linesWith_pos_iff wj.pKey input).2 (List.mem_flatten.2 ⟨lj, b4, b5⟩)
      omega
    have hdep : ∀ i j, 1 ≤ i → i ≤ (p.cluster ptr).constants → 1 ≤ j →
        j ≤ (p.cluster ptr).constants →
        cal_word_dep ((p.cluster ptr).ppWord j) ((p.cluster ptr).ppWord i) p
          = some (Double.nearest
              ((depEntry p (p.cluster ptr) j i : ℚ) / (depEntry p (p.cluster ptr) j j : ℚ))) ∧
        0 ≤ Double.nearest
              ((depEntry p (p.cluster ptr) j i : ℚ) / (depEntry p (p.cluster ptr) j j : ℚ)) ∧
        Double.nearest
              ((depEntry p (p.cluster ptr) j i : ℚ) / (depEntry p (p.cluster ptr) j j : ℚ))
          ≤ 1 := by
      intro i j hi1 hi2 hj1 hj2
      obtain ⟨e1, -, e3, -, e5⟩ := hentry i j hi1 hi2 hj1 hj2
      obtain ⟨r1, r2, r3, -⟩ := cal_word_dep_eq p (p.cluster ptr) j i (by omega) e3 (by omega)
      exact ⟨r1, r2, r3⟩
    refine ⟨g1, ?_, ?_⟩
    · intro i j hi1 hi2 hj1 hj2
      obtain ⟨e1, e2, e3, -, -⟩ := hentry i j hi1 hi2 hj1 hj2
      obtain ⟨d1, d2, d3⟩ := hdep i j hi1 hi2 hj1 hj2
      exact ⟨e1, e2, e3, _, d1, d2, d3⟩
    · intro i hi1 hi2
      have hk : (p.cluster ptr).constants ≠ 0 := by omega
      have hD : ∀ j ∈ List.range' 1 (p.cluster ptr).constants,
          depEntry p (p.cluster ptr) j j ≠ 0 ∧
          depEntry p (p.cluster ptr) j i ≤ depEntry p (p.cluster ptr) j j ∧
          depEntry p (p.cluster ptr) j j ≤ 2 ^ 53 := by
        intro j hj
        rw [List.mem_range'_1] at hj
        obtain ⟨e1, -, e3, -, e5⟩ := hentry i j hi1 hi2 hj.1 (by omega)
        exact ⟨by omega, e3, by omega⟩
      obtain ⟨w1, -, w3, -, -⟩ := cal_word_weight_function_1_eq p ptr i hk (by omega) hD
      refine ⟨_, w1, ?_, w3⟩
      unfold rounded_word_weight
      refine rounded_weight_lower _ _ i hi1 hi2 hk52 ?_ ?_
      · intro j hj
        rw [List.mem_range'_1] at hj
        obtain ⟨e1, -, e3, e4, e5⟩ := hentry i j hi1 hi2 hj.1 (by omega)
        obtain ⟨-, -, d3⟩ := hdep i j hi1 hi2 hj.1 (by omega)
        refine ⟨?_, d3⟩
        have hb : (0 : ℚ) < (depEntry p (p.cluster ptr) j j : ℚ) := by exact_mod_cast e1
        have hq : pow2 (-52)
            ≤ (depEntry p (p.cluster ptr) j i : ℚ) / (depEntry p (p.cluster ptr) j j : ℚ) := by
          rw [pow2_neg_52, div_le_div_iff₀ (by positivity) hb]
          have h1 : (1 : ℚ) ≤ (depEntry p (p.cluster ptr) j i : ℚ) := by exact_mod_cast e4
          have h2 : (depEntry p (p.cluster ptr) j j : ℚ) ≤ 2 ^ 52 := by exact_mod_cast e5
          nlinarith
        have := Double.nearest_mono hq
        rwa [Double.nearest_of_repr _ (Double.representable_pow2 (-52) (by norm_num))] at this
      · obtain ⟨e1, -, -, -, -⟩ := hentry i i hi1 hi2 hi1 hi2
        have hb : (depEntry p (p.cluster ptr) i i : ℚ) ≠ 0 := by
          exact_mod_cast (by omega : depEntry p (p.cluster ptr) i i ≠ 0)
        show Double.nearest
          ((depEntry p (p.cluster ptr) i i : ℚ) / (depEntry p (p.cluster ptr) i i : ℚ)) = 1
        rw [div_self hb, Double.nearest_of_repr 1 Double.representable_one]

theorem create_vocabulary_vocab_frame (pParam : Parameters) (input : List (List Key)) :
    VocabFrame pParam (create_vocabulary pParam input).1 :=
  (vocab_loop_frame pParam input 0).1

theorem VocabFrame.cluster_table {p q : Parameters} (h : VocabFrame p q) :
    q.clusterTableSize = p.clusterTableSize ∧ q.clusterTableSeed = p.clusterTableSeed ∧
    q.clusters = p.clusters ∧ q.wordTableSize = p.wordTableSize ∧
    q.wordTableSeed = p.wordTableSeed ∧ q.support = p.support := by
  unfold VocabFrame at h
  rw [h]
  exact ⟨rfl, rfl, rfl, rfl, rfl, rfl⟩

theorem word_dep_matrix_bounds_witness :
    (create_vocabulary { support := 1, wordTableSize := 5, clusterTableSize := 7 }
      weightInput).1.ppWordTable.length
      = (create_vocabulary { support := 1, wordTableSize := 5, clusterTableSize := 7 }
        weightInput).1.wordTableSize ∧
    0 < (create_vocabulary { support := 1, wordTableSize := 5, clusterTableSize := 7 }
      weightInput).1.clusterTableSize ∧
    (create_vocabulary { support := 1, wordTableSize := 5, clusterTableSize := 7 }
      weightInput).1.clusters = [] ∧
    weightInput.length ≤ 2 ^ 52 ∧ (∀ l ∈ weightInput, l.length ≤ MAXWORDS) ∧
    0 < weightCandidates.clusters.length ∧
    (weightCandidates.cluster 0).constants = 3 ∧
    depEntry weightCandidates (weightCandidates.cluster 0) 1 1 = 20 ∧
    depEntry weightCandidates (weightCandidates.cluster 0) 1 2 = 1 ∧
    depEntry weightCandidates (weightCandidates.cluster 0) 2 1 = 1 ∧
    cal_word_weight_function_1 0 2 weightCandidates
      = some (7205759403792793 / 18014398509481984) ∧
    ∃ w : ℚ, cal_word_weight_function_1 0 2 weightCandidates = some w ∧
      1 / ((weightCandidates.cluster 0).constants : ℚ) ≤ w ∧ w ≤ 1 := by
  have h :
      ((create_vocabulary { support := 1, wordTableSize := 5, clusterTableSize := 7 }
        weightInput).1.ppWordTable.length
        = (create_vocabulary { support := 1, wordTableSize := 5, clusterTableSize := 7 }
          weightInput).1.wordTableSize) ∧
      (weightInput.length ≤ 2 ^ 52) ∧
      ((∀ l ∈ weightInput, l.length ≤ MAXWORDS)) ∧
      (0 < weightCandidates.clusters.length) ∧
      ((weightCandidates.cluster 0).constants = 3) ∧
      (depEntry weightCandidates (weightCandidates.cluster 0) 1 1 = 20) ∧
      (depEntry weightCandidates (weightCandidates.cluster 0) 1 2 = 1) ∧
      (depEntry weightCandidates (weightCandidates.cluster 0) 2 1 = 1) ∧
      (cal_word_weight_function_1 0 2 weightCandidates
        = some (7205759403792793 / 18014398509481984)) ∧
      (0 < (create_cluster_candidates_word_dep (prepare_word_dep
        (create_vocabulary { support := 1, wordTableSize := 5, clusterTableSize := 7 }
          weightInput).1) weightInput {} 0).1.clusters.length) ∧
      (2 ≤ ((create_cluster_candidates_word_dep (prepare_word_dep
        (create_vocabulary { support := 1, wordTableSize := 5, clusterTableSize := 7 }
          weightInput).1) weightInput {} 0).1.cluster 0).constants) := by
    decide!
  obtain ⟨h0, h3, h4, h5, h6, h7, h8, h9, h10, x0, x1⟩ := h
  exact ⟨h0,
    (by
      rw [(create_vocabulary_vocab_frame _ _).cluster_table.1]
      decide),
    (by rw [(create_vocabulary_vocab_frame _ _).cluster_table.2.2.1]), h3, h4, h5, h6, h7, h8,
    h9, h10,
    ((word_dep_matrix_bounds
      (create_vocabulary { support := 1, wordTableSize := 5, clusterTableSize := 7 }
        weightInput).1 weightInput {} 0 h0
      (by
        rw [(create_vocabulary_vocab_frame _ _).cluster_table.1]
        decide)
      (by rw [(create_vocabulary_vocab_frame _ _).cluster_table.2.2.1])
      h3 h4).2.2 0 x0).2.2 2 (by decide) x1⟩

/-! ## The totals of the joined clusters -/

theorem merged_filter_ne (p0 : Parameters) (tr : List (Nat × (Nat → Nat))) (K K' : Key)
    (h : K' ≠ K) :
    merged p0 (tr.filter (fun x => !decide (joined_key p0 x = K))) K' = merged p0 tr K' := by
  unfold merged
  rw [List.filter_filter]
  apply List.filter_congr
  intro x _
  by_cases hx : joined_key p0 x = K'
  · have : ¬ joined_key p0 x = K := by rw [hx]; exact h
    simp [hx, h]
  · simp [hx]

theorem sum_merged_partition (p0 : Parameters) (g : Nat × (Nat → Nat) → Nat) (Ks : List Key) :
    ∀ tr : List (Nat × (Nat → Nat)), Ks.Nodup → (∀ x ∈ tr, joined_key p0 x ∈ Ks) →
      (Ks.map (fun K => ((merged p0 tr K).map g).sum)).sum = (tr.map g).sum := by
  induction Ks with
  | nil =>
    intro tr _ hc
    cases tr with
    | nil => rfl
    | cons x rest => exact absurd (hc x (List.mem_cons_self _ _)) (List.not_mem_nil _)
  | cons K rest ih =>
    intro tr hnd hc
    obtain ⟨hK, hnd2⟩ := List.nodup_cons.1 hnd
    rw [List.map_cons, List.sum_cons]
    have hrest : (rest.map (fun K' => ((merged p0 tr K').map g).sum))
        = rest.map (fun K' => ((merged p0
            (tr.filter (fun x => !decide (joined_key p0 x = K))) K').map g).sum) := by
      apply List.map_congr_left
      intro K' hK'
      rw [merged_filter_ne p0 tr K K' (fun e => hK (e ▸ hK'))]
    rw [hrest, ih (tr.filter (fun x => !decide (joined_key p0 x = K))) hnd2]
    · have hperm := List.filter_append_perm (fun x => decide (joined_key p0 x = K)) tr
      have := (hperm.map g).sum_eq
      rw [List.map_append, List.sum_append] at this
      exact this
    · intro x hx
      rw [List.mem_filter] at hx
      have hne : joined_key p0 x ≠ K := by simpa using hx.2
      rcases List.mem_cons.1 (hc x hx.1) with e | e
      · exact absurd e hne
      · exact e
/-- C38: after `join_cluster`, run on the retained candidates with the counters
of the joining at 0, the emitted clusters are the retained candidates that are
not flagged and the joined candidates (the records of the buckets
`pClusterWithTokenFamily`).  The sum of their counts is the sum of the counts
of all retained candidates, which the joining leaves as they are, and their
number is `clusterNum - joinedClusterInputNum + joinedClusterOutputNum`, where
`clusterNum` is the number of the retained candidates,
`joinedClusterInputNum` the number of the flagged ones and
`joinedClusterOutputNum` the number of the joined candidates. -/
theorem join_cluster_totals (p0 : Parameters) (m s : Nat) (h : JoinReady p0 m s)
    (hnum : p0.clusterNum = (family_order p0).length)
    (hin : p0.joinedClusterInputNum = 0) (hout : p0.joinedClusterOutputNum = 0) :
    ∃ p : Parameters, join_cluster p0 = some p ∧
      family_order p = family_order p0 ∧
      p.clusterNum = (family_order p).length ∧
      p.joinedClusterInputNum
        = ((family_order p).filter (fun ptr => (p.cluster ptr).bIsJoined = true)).length ∧
      p.joinedClusterOutputNum = (token_family_order p).length ∧
      p.joinedClusterOutputNum ≤ p.joinedClusterInputNum ∧
      p.joinedClusterInputNum ≤ p.clusterNum ∧
      ((family_order p).filter (fun ptr => (p.cluster ptr).bIsJoined = false)).length
          + (token_family_order p).length
        = p.clusterNum - p.joinedClusterInputNum + p.joinedClusterOutputNum ∧
      support_sum p (family_order p) = support_sum p0 (family_order p0) ∧
      support_sum p ((family_order p).filter (fun ptr => (p.cluster ptr).bIsJoined = false))
          + support_sum p (token_family_order p)
        = support_sum p0 (family_order p0) := by
  obtain ⟨p1, p, a1, a2, a3, a4, a5, a6⟩ := join_cluster_inv p0 m s h.size_pos h.csize h.cseed
    h.len h.empty h.weightf h.sep h.tok h.valid h.consts
  obtain ⟨p', r1, r2, r3⟩ := join_cluster_record p0 m s h
  rw [a1] at r1
  cases r1
  have hcl : ∀ a, p.cluster a = p1.cluster a := by intro a; rw [a3]; rfl
  have hlen1 : p.clusters.length = p1.clusters.length := by rw [a3]
  have hbig : p.biggestConstants = p0.biggestConstants := by rw [a3]; exact a2.biggest
  have hfam : p.pClusterFamily = p0.pClusterFamily := by rw [a3]; exact a2.family
  have htf : p.pClusterWithTokenFamily = p1.pClusterWithTokenFamily := by rw [a3]
  have hcn : p.clusterNum = p0.clusterNum := by rw [a3]; exact a2.clusterNum
  have hinN : p.joinedClusterInputNum = (join_trace (family_order p0) p0).length := by
    rw [a3]
    have := a2.inNum
    rw [hin, Nat.zero_add] at this
    exact this
  have houtN : p.joinedClusterOutputNum + p0.clusters.length = p.clusters.length := by
    rw [a3]
    have := a2.outNum
    rw [hout, Nat.zero_add] at this
    exact this
  have hfo : family_order p = family_order p0 := by
    unfold family_order
    rw [hbig, hfam]
  have hold : ∀ ptr ∈ family_order p0,
      p.cluster ptr = if ptr ∈ (join_trace (family_order p0) p0).map Prod.fst
        then (p0.cluster ptr).flagged else p0.cluster ptr := by
    intro ptr hptr
    rw [hcl ptr]
    exact a2.old ptr (h.valid ptr hptr)
  have hcount : ∀ ptr ∈ family_order p0, (p.cluster ptr).count = (p0.cluster ptr).count := by
    intro ptr hptr
    rw [hold ptr hptr]
    split <;> rfl
  have hnd : (token_family_order p).Nodup := by
    unfold token_family_order
    rw [List.nodup_flatMap]
    constructor
    · intro i _
      rw [htf]
      exact a2.famnodup i
    · apply List.Pairwise.imp _ (List.nodup_range' 1 p.biggestConstants)
      intro a b hab
      show List.Disjoint (p.pClusterWithTokenFamily a) (p.pClusterWithTokenFamily b)
      intro J hJa hJb
      rw [htf] at hJa hJb
      have e1 := (a2.fam a J hJa).2.2
      have e2 := (a2.fam b J hJb).2.2
      exact hab (e1.symm.trans e2)
  have hlenT : (token_family_order p).length = p.clusters.length - p0.clusters.length := by
    have hperm : (token_family_order p).Perm
        (List.range' p0.clusters.length (p.clusters.length - p0.clusters.length)) := by
      apply (List.perm_ext_iff_of_nodup hnd (List.nodup_range' _ _)).2
      intro J
      rw [a5 J, List.mem_range'_1]
      omega
    rw [hperm.length_eq, List.length_range']
  have hkeynd : ((token_family_order p).map (fun J => (p.cluster J).pElem)).Nodup := by
    apply List.Nodup.map_on _ hnd
    intro J hJ J' hJ' hk
    obtain ⟨h1, h2⟩ := (a5 J).1 hJ
    obtain ⟨h1', h2'⟩ := (a5 J').1 hJ'
    rw [hlen1] at h2 h2'
    rw [hcl J, hcl J'] at hk
    exact a2.key_inj J J' h1 h2 h1' h2' hk
  have hle : (token_family_order p).length ≤ (join_trace (family_order p0) p0).length := by
    have hsub : (token_family_order p).map (fun J => (p.cluster J).pElem)
        ⊆ (join_trace (family_order p0) p0).map (joined_key p0) := by
      intro K hK
      rw [List.mem_map] at hK
      obtain ⟨J, hJ, rfl⟩ := hK
      obtain ⟨b1, -⟩ := r2 J hJ
      obtain ⟨x, hx⟩ := List.exists_mem_of_ne_nil _ b1
      obtain ⟨c1, c2⟩ := merged_mem hx
      rw [List.mem_map]
      exact ⟨x, c1, c2⟩
    have := (hkeynd.subperm hsub).length_le
    rwa [List.length_map, List.length_map] at this
  have hTsub := join_trace_sublist (family_order p0) p0
  have hTnd : ((join_trace (family_order p0) p0).map Prod.fst).Nodup := h.nodup.sublist hTsub
  have hflagged : ∀ ptr ∈ family_order p0, (p.cluster ptr).bIsJoined
      = decide (ptr ∈ (join_trace (family_order p0) p0).map Prod.fst) := by
    intro ptr hptr
    rw [hold ptr hptr]
    by_cases hmem : ptr ∈ (join_trace (family_order p0) p0).map Prod.fst
    · rw [if_pos hmem]
      simp [Cluster.flagged, hmem]
    · rw [if_neg hmem]
      simp [h.unflagged ptr hptr, hmem]
  have hfilterF : (family_order p).filter (fun ptr => (p.cluster ptr).bIsJoined = false)
      = (family_order p0).filter
          (fun ptr => !decide (ptr ∈ (join_trace (family_order p0) p0).map Prod.fst)) := by
    rw [hfo]
    apply List.filter_congr
    intro ptr hptr
    rw [hflagged ptr hptr]
    by_cases hmem : ptr ∈ (join_trace (family_order p0) p0).map Prod.fst <;> simp [hmem]
  have hfilterT : (family_order p).filter (fun ptr => (p.cluster ptr).bIsJoined = true)
      = (family_order p0).filter
          (fun ptr => decide (ptr ∈ (join_trace (family_order p0) p0).map Prod.fst)) := by
    rw [hfo]
    apply List.filter_congr
    intro ptr hptr
    rw [hflagged ptr hptr]
    by_cases hmem : ptr ∈ (join_trace (family_order p0) p0).map Prod.fst <;> simp [hmem]
  have hpermT : ((family_order p0).filter
      (fun ptr => decide (ptr ∈ (join_trace (family_order p0) p0).map Prod.fst))).Perm
      ((join_trace (family_order p0) p0).map Prod.fst) := by
    apply (List.perm_ext_iff_of_nodup (h.nodup.filter _) hTnd).2
    intro a
    rw [List.mem_filter, decide_eq_true_eq]
    exact ⟨fun ha => ha.2, fun ha => ⟨hTsub.subset ha, ha⟩⟩
  have hsplit := List.filter_append_perm
    (fun ptr => decide (ptr ∈ (join_trace (family_order p0) p0).map Prod.fst))
    (family_order p0)
  have hlenF : ((family_order p0).filter
        (fun ptr => !decide (ptr ∈ (join_trace (family_order p0) p0).map Prod.fst))).length
      + (join_trace (family_order p0) p0).length = (family_order p0).length := by
    have h3 := hsplit.length_eq
    rw [List.length_append, hpermT.length_eq, List.length_map] at h3
    omega
  have hheap : p0.clusters.length ≤ p.clusters.length := by rw [hlen1]; exact a2.heap
  have hsum0 : ∀ l : List Nat, (∀ ptr ∈ l, ptr ∈ family_order p0) →
      support_sum p l = support_sum p0 l := by
    intro l hl
    unfold support_sum
    apply congrArg
    apply List.map_congr_left
    intro ptr hptr
    exact hcount ptr (hl ptr hptr)
  -- the counts of the joined candidates
  have hjoined : support_sum p (token_family_order p)
      = ((join_trace (family_order p0) p0).map (fun x => (p0.cluster x.1).count)).sum := by
    have hcover : ∀ x ∈ join_trace (family_order p0) p0,
        joined_key p0 x ∈ (token_family_order p).map (fun J => (p.cluster J).pElem) := by
      intro x hx
      obtain ⟨J, hJ, hk, -⟩ := r3 x hx
      rw [List.mem_map]
      exact ⟨J, hJ, hk⟩
    have hpart := sum_merged_partition p0 (fun x => (p0.cluster x.1).count) _
      (join_trace (family_order p0) p0) hkeynd hcover
    rw [← hpart, List.map_map]
    unfold support_sum
    apply congrArg
    apply List.map_congr_left
    intro J hJ
    obtain ⟨b1, b2⟩ := r2 J hJ
    show (p.cluster J).count = _
    cases hm : merged p0 (join_trace (family_order p0) p0) (p.cluster J).pElem with
    | nil => exact absurd hm b1
    | cons x rest =>
      rw [hm] at b2
      have := (joined_record_fields p0 (p.cluster J).pElem x rest).2.2.2.1
      rw [← b2] at this
      rw [this]
      simp only [Function.comp, hm]
  refine ⟨p, a1, hfo, ?_, ?_, ?_, ?_, ?_, ?_, ?_, ?_⟩
  · rw [hcn, hnum, hfo]
  · rw [hinN, hfilterT, hpermT.length_eq, List.length_map]
  · omega
  · rw [hinN]; omega
  · rw [hinN, hcn, hnum]; omega
  · rw [hfilterF, hlenT, hinN, hcn, hnum]; omega
  · rw [hfo]; exact hsum0 _ (fun _ hp => hp)
  · rw [hfilterF, hjoined, hsum0 _ (fun ptr hp => (List.mem_filter.1 hp).1)]
    have e1 : ((join_trace (family_order p0) p0).map (fun x => (p0.cluster x.1).count)).sum
        = support_sum p0 ((join_trace (family_order p0) p0).map Prod.fst) := by
      unfold support_sum
      rw [List.map_map]
      rfl
    rw [e1]
    have e2 : support_sum p0 ((join_trace (family_order p0) p0).map Prod.fst)
        = support_sum p0 ((family_order p0).filter
            (fun ptr => decide (ptr ∈ (join_trace (family_order p0) p0).map Prod.fst))) := by
      unfold support_sum
      exact ((hpermT.map _).sum_eq).symm
    rw [e2]
    have e3 := (hsplit.map (fun ptr => (p0.cluster ptr).count)).sum_eq
    rw [List.map_append, List.sum_append] at e3
    unfold support_sum
    omega
theorem join_cluster_totals_witness :
    joinClusters.clusterNum = (family_order joinClusters).length ∧
    joinClusters.joinedClusterInputNum = 0 ∧ joinClusters.joinedClusterOutputNum = 0 ∧
    joinClusters.clusterNum = 2 ∧ support_sum joinClusters (family_order joinClusters) = 5 ∧
    (join_cluster joinClusters).isSome = true ∧
    joinJoined.joinedClusterInputNum = 2 ∧ joinJoined.joinedClusterOutputNum = 1 ∧
    token_family_order joinJoined = [2] ∧ (joinJoined.cluster 2).count = 5 ∧
    ∃ p : Parameters, join_cluster joinClusters = some p ∧
      family_order p = family_order joinClusters ∧
      p.clusterNum = (family_order p).length ∧
      p.joinedClusterInputNum
        = ((family_order p).filter (fun ptr => (p.cluster ptr).bIsJoined = true)).length ∧
      p.joinedClusterOutputNum = (token_family_order p).length ∧
      p.joinedClusterOutputNum ≤ p.joinedClusterInputNum ∧
      p.joinedClusterInputNum ≤ p.clusterNum ∧
      ((family_order p).filter (fun ptr => (p.cluster ptr).bIsJoined = false)).length
          + (token_family_order p).length
        = p.clusterNum - p.joinedClusterInputNum + p.joinedClusterOutputNum ∧
      support_sum p (family_order p) = support_sum joinClusters (family_order joinClusters) ∧
      support_sum p ((family_order p).filter (fun ptr => (p.cluster ptr).bIsJoined = false))
          + support_sum p (token_family_order p)
        = support_sum joinClusters (family_order joinClusters) := by
  have h :
      (joinClusters.clusterNum = (family_order joinClusters).length) ∧
      (joinClusters.joinedClusterInputNum = 0) ∧
      (joinClusters.joinedClusterOutputNum = 0) ∧
      (joinClusters.clusterNum = 2) ∧
      (support_sum joinClusters (family_order joinClusters) = 5) ∧
      ((join_cluster joinClusters).isSome = true) ∧
      (joinJoined.joinedClusterInputNum = 2) ∧
      (joinJoined.joinedClusterOutputNum = 1) ∧
      (token_family_order joinJoined = [2]) ∧
      ((joinJoined.cluster 2).count = 5) := by
    decide!
  obtain ⟨h0, h1, h2, h3, h4, h5, h6, h7, h8, h9⟩ := h
  exact ⟨h0, h1, h2, h3, h4, h5, h6, h7, h8, h9, join_cluster_totals joinClusters 7 0
    joinClusters_ready h0 h1 h2⟩

/-! ## The token sentinel and the keys of the joined clusters -/

theorem AggFrame.refl_agg (p : Parameters) : AggFrame p p :=
  ⟨rfl, rfl, rfl, rfl, rfl, rfl, fun e he => ⟨e, he, rfl⟩⟩

theorem AggFrame.trans_agg {p q r : Parameters} (h1 : AggFrame p q) (h2 : AggFrame q r) :
    AggFrame p r :=
  ⟨h2.token.trans h1.token, h2.wtable.trans h1.wtable, h2.wsize.trans h1.wsize,
    h2.wseed.trans h1.wseed, h2.csize.trans h1.csize, h2.cseed.trans h1.cseed,
    fun e he => by
      obtain ⟨e1, he1, k1⟩ := h2.keys e he
      obtain ⟨e0, he0, k0⟩ := h1.keys e1 he1
      exact ⟨e0, he0, k0.trans k1⟩⟩

theorem AggFrame.create_node (pElem : Option Elem) (pParent : Nat) (pPrev : Option Nat)
    (p : Parameters) : AggFrame p (create_trie_node pElem pParent pPrev p).1 :=
  ⟨rfl, rfl, rfl, rfl, rfl, rfl, fun e he => ⟨e, he, rfl⟩⟩

theorem AggFrame.insert_wildcard (st : Parameters × Nat) (min max : Int) :
    AggFrame st.1 (trie_insert_wildcard st min max).1 := by
  unfold trie_insert_wildcard
  split
  · exact AggFrame.refl_agg _
  · exact AggFrame.trans_agg (q := { st.1 with prefixWildcardMin := min, prefixWildcardMax := max })
      ⟨rfl, rfl, rfl, rfl, rfl, rfl, fun e he => ⟨e, he, rfl⟩⟩ (AggFrame.create_node _ _ _ _)

theorem AggFrame.insert_word (st : Parameters × Nat) (pWord : Option Elem) :
    AggFrame st.1 (trie_insert_word st pWord).1 := by
  unfold trie_insert_word
  split
  · exact AggFrame.refl_agg _
  · split
    · exact AggFrame.refl_agg _
    · exact AggFrame.create_node _ _ _ _

theorem AggFrame.insert_constant (o : Nat) (st : Parameters × Nat) (i : Nat) :
    AggFrame st.1 (trie_insert_constant o st i).1 := by
  unfold trie_insert_constant
  simp only []
  split
  · exact (AggFrame.insert_wildcard st _ _).trans_agg (AggFrame.insert_word _ _)
  · exact AggFrame.insert_word _ _

theorem AggFrame.insert_constants (o : Nat) (l : List Nat) :
    ∀ st : Parameters × Nat, AggFrame st.1 (l.foldl (trie_insert_constant o) st).1 := by
  induction l with
  | nil => intro st; exact AggFrame.refl_agg _
  | cons i l ih =>
    intro st
    rw [List.foldl_cons]
    exact (AggFrame.insert_constant o st i).trans_agg (ih _)

theorem AggFrame.set_cluster (p : Parameters) (o : Nat) (c : Cluster) :
    AggFrame p (p.setCluster o c) :=
  ⟨rfl, rfl, rfl, rfl, rfl, rfl, fun e he => ⟨e, he, rfl⟩⟩

theorem AggFrame.insert_cluster (o : Nat) (p : Parameters) :
    AggFrame p (insert_cluster_into_trie 0 o p) := by
  have hst : AggFrame p
      (if (p.cluster o).fullWildcard 1 ≠ 0 then
        trie_insert_wildcard
          ((List.range' 1 (p.cluster o).constants).foldl (trie_insert_constant o) (p, 0))
          ((p.cluster o).fullWildcard 0) ((p.cluster o).fullWildcard 1)
       else (List.range' 1 (p.cluster o).constants).foldl (trie_insert_constant o) (p, 0)).1 := by
    split
    · exact (AggFrame.insert_constants o _ (p, 0)).trans_agg (AggFrame.insert_wildcard _ _ _)
    · exact AggFrame.insert_constants o _ (p, 0)
  exact AggFrame.trans_agg hst ⟨rfl, rfl, rfl, rfl, rfl, rfl, fun e he => ⟨e, he, rfl⟩⟩

theorem AggFrame.insert_clusters (order : List Nat) :
    ∀ p : Parameters,
      AggFrame p (order.foldl (fun p ptr => insert_cluster_into_trie 0 ptr p) p) := by
  induction order with
  | nil => intro p; exact AggFrame.refl_agg _
  | cons o l ih =>
    intro p
    rw [List.foldl_cons]
    exact (AggFrame.insert_cluster o p).trans_agg (ih _)

theorem AggFrame.build (p : Parameters) : AggFrame p (build_prefix_trie p) := by
  have h := AggFrame.insert_clusters (family_order p)
    { p with trieNodeNum := 1,
             pPrefixRoot := .node { addr := 0, pParent := none, pIsEnd := none, pWord := none,
                                    wildcardMin := 0, wildcardMax := 0,
                                    hashValue := p.wildcardHash + 1 } .null .null }
  refine AggFrame.trans_agg ?_ h
  exact ⟨rfl, rfl, rfl, rfl, rfl, rfl, fun e he => ⟨e, he, rfl⟩⟩

theorem AggFrame.prepare (p : Parameters) : AggFrame p (prepare_prefix_trie p) := by
  have h := AggFrame.build { p with prefixSketchSize := p.freWordNum * 3,
                                    wildcardHash := p.freWordNum * 3 }
  refine AggFrame.trans_agg ?_ h
  exact ⟨rfl, rfl, rfl, rfl, rfl, rfl, fun e he => ⟨e, he, rfl⟩⟩

theorem chain_modify_keys (k : Key) (f : Elem → Elem) (hf : ∀ e, (f e).pKey = e.pKey) :
    ∀ (c : List Elem) (e : Elem), e ∈ chain_modify k f c → ∃ e0 ∈ c, e0.pKey = e.pKey := by
  intro c
  induction c with
  | nil => intro e he; simp [chain_modify] at he
  | cons a rest ih =>
    intro e he
    unfold chain_modify at he
    split at he
    · rcases List.mem_cons.1 he with h1 | h1
      · exact ⟨a, List.mem_cons_self _ _, by rw [h1, hf]⟩
      · exact ⟨e, List.mem_cons_of_mem _ h1, rfl⟩
    · rcases List.mem_cons.1 he with h1 | h1
      · exact ⟨a, List.mem_cons_self _ _, by rw [h1]⟩
      · obtain ⟨e0, h0, k0⟩ := ih e h1
        exact ⟨e0, List.mem_cons_of_mem _ h0, k0⟩

theorem AggFrame.support (pc o : Nat) (p : Parameters) :
    AggFrame p (aggregate_support pc o p) := by
  refine ⟨rfl, rfl, rfl, rfl, rfl, rfl, ?_⟩
  intro e he
  rcases mem_flatten_set _ _ _ _ he with h1 | h1
  · obtain ⟨e0, h0, k0⟩ := chain_modify_keys (p.cluster pc).pElem
      (fun e => { e with count := e.count + (p.cluster o).count }) (fun _ => rfl) _ e h1
    exact ⟨e0, mem_flatten_of_getD _ _ _ h0, k0⟩
  · exact ⟨e, h1, rfl⟩

theorem AggFrame.supports (pc : Nat) (l : List Nat) :
    ∀ p : Parameters, AggFrame p (aggregate_supports pc l p) := by
  induction l with
  | nil => intro p; exact AggFrame.refl_agg _
  | cons o l ih =>
    intro p
    exact (AggFrame.support pc o p).trans_agg (ih _)

theorem AggFrame.search (order : List Nat) :
    ∀ p : Parameters, AggFrame p (aggregate_search order p) := by
  induction order with
  | nil => intro p; exact AggFrame.refl_agg _
  | cons o l ih =>
    intro p
    rw [aggregate_search_cons]
    exact (AggFrame.supports o _ p).trans_agg (ih _)

theorem AggFrame.commit (order : List Nat) :
    ∀ p : Parameters, AggFrame p (aggregate_commit order p) := by
  induction order with
  | nil => intro p; exact AggFrame.refl_agg _
  | cons o l ih =>
    intro p
    exact (AggFrame.set_cluster p o _).trans_agg (ih _)

theorem AggFrame.aggregate (p : Parameters) : AggFrame p (step_2_aggregate_support p) :=
  (AggFrame.prepare p).trans_agg
    ((AggFrame.search _ _).trans_agg (AggFrame.commit _ _))

theorem AggFrame.find_clusters (p : Parameters) :
    AggFrame p { (find_clusters_from_candidates p).1 with
      clusterNum := (find_clusters_from_candidates p).2 } :=
  ⟨rfl, rfl, rfl, rfl, rfl, rfl, fun e he => ⟨e, he, rfl⟩⟩

theorem AggFrame.mine (pParam : Parameters) (input : List (List Key)) (loc : CandidateLocals)
    (cc : Nat) :
    AggFrame (create_cluster_candidates_word_dep pParam input loc cc).1
      (mine_word_dep pParam input loc cc) := by
  have h : AggFrame (create_cluster_candidates_word_dep pParam input loc cc).1
      (if (create_cluster_candidates_word_dep pParam input loc cc).1.bAggrsupFlag = true then
        step_2_aggregate_support (create_cluster_candidates_word_dep pParam input loc cc).1
       else (create_cluster_candidates_word_dep pParam input loc cc).1) := by
    split
    · exact AggFrame.aggregate _
    · exact AggFrame.refl_agg _
  exact h.trans_agg (AggFrame.find_clusters _)
theorem put_cluster_token (p : Parameters) (loc : CandidateLocals) (cc : Nat) :
    (put_cluster p loc cc).1.token = p.token := by
  unfold put_cluster
  simp only []
  cases front (add_elem loc.key p.ppClusterTable p.clusterTableSize p.clusterTableSeed)
      (str2hash loc.key p.clusterTableSize p.clusterTableSeed) with
  | none => rfl
  | some pElem =>
    simp only []
    by_cases hc : pElem.count = 1
    · rw [if_pos hc]
      simp only []
      split
      · rfl
      · split <;> rfl
    · rw [if_neg hc]
      simp only []
      split
      · rfl
      · split <;> rfl

theorem create_cluster_candidates_line_token (st : Parameters × CandidateLocals × Nat)
    (l : List Key) : (create_cluster_candidates_line st l).1.token = st.1.token := by
  obtain ⟨t, ht⟩ := candidate_scan_fields st.1 st.2.1 l
  have h0 : (candidate_scan st.1 st.2.1 l).1.token = st.1.token := by rw [ht]
  unfold create_cluster_candidates_line
  simp only []
  split_ifs
  · exact h0
  · exact h0
  · exact (put_cluster_token _ _ _).trans h0

theorem create_cluster_candidates_lines_token (input : List (List Key)) :
    ∀ st : Parameters × CandidateLocals × Nat,
      (input.foldl create_cluster_candidates_line st).1.token = st.1.token := by
  induction input with
  | nil => intro st; rfl
  | cons l rest ih =>
    intro st
    rw [List.foldl_cons, ih, create_cluster_candidates_line_token]

theorem create_cluster_candidates_word_dep_token (pParam : Parameters)
    (input : List (List Key)) (loc : CandidateLocals) (cc : Nat) :
    (create_cluster_candidates_word_dep pParam input loc cc).1.token = pParam.token := by
  obtain ⟨b1, -⟩ := create_cluster_candidates_word_dep_frame pParam input loc cc
  have h1 : (create_cluster_candidates pParam input loc cc).1.token = pParam.token :=
    create_cluster_candidates_lines_token input _
  unfold DepFrame at b1
  rw [b1]
  exact h1

theorem key_words_keyOf (S : List Key) (hS : ∀ w ∈ S, CLUSTERSEP ∉ w) :
    key_words (keyOf S) = S := by
  induction S with
  | nil => rfl
  | cons w rest ih =>
    have e : keyOf (w :: rest) = w ++ CLUSTERSEP :: keyOf rest := by
      simp [keyOf]
    rw [e, key_words_word w (hS w (List.mem_cons_self _ _)),
      ih (fun x hx => hS x (List.mem_cons_of_mem _ hx))]

theorem alphanum_no_sep : CLUSTERSEP ∉ alphanum := by decide

theorem gen_random_string_alphanum (rand : Nat → Nat) (k len : Nat) :
    ∀ c ∈ gen_random_string rand k len, c ∈ alphanum := by
  intro c hc
  unfold gen_random_string at hc
  obtain ⟨i, -, hi⟩ := List.mem_map.1 hc
  rw [← hi, List.getD_eq_getElem?_getD,
    List.getElem?_eq_getElem (Nat.mod_lt _ (by decide))]
  exact List.getElem_mem _

theorem set_token_spec : ∀ (fuel : Nat) (rand : Nat → Nat) (k : Nat) (p r : Parameters),
    set_token fuel rand k p = some r →
    (∃ tk tb, r = { p with token := tk, ppWordTable := tb }) ∧
    (∀ w, lookup r.ppWordTable p.wordTableSize p.wordTableSeed w
      = lookup p.ppWordTable p.wordTableSize p.wordTableSeed w) ∧
    lookup r.ppWordTable p.wordTableSize p.wordTableSeed r.token = none ∧
    (r.token = p.token ∨
      (r.token.length = TOKENLEN - 1 ∧ ∀ c ∈ r.token, c ∈ alphanum)) := by
  intro fuel
  induction fuel with
  | zero => intro rand k p r h; simp [set_token] at h
  | succ n ih =>
    intro rand k p r h
    unfold set_token at h
    simp only [find_elem_fst] at h
    cases hl : lookup p.ppWordTable p.wordTableSize p.wordTableSeed p.token with
    | none =>
      rw [hl] at h
      simp only [Option.some.injEq] at h
      subst h
      refine ⟨⟨_, _, rfl⟩, fun w => lookup_find_elem _ _ _ _ _, ?_, Or.inl rfl⟩
      show lookup (find_elem _ _ _ _).2 _ _ _ = none
      rw [lookup_find_elem]; exact hl
    | some e =>
      rw [hl] at h
      simp only [] at h
      obtain ⟨⟨tk, tb, h1⟩, h2, h3, h4⟩ := ih _ _ _ _ h
      refine ⟨⟨tk, tb, by rw [h1]⟩, ?_, h3, Or.inr ?_⟩
      · intro w
        rw [h2 w]
        exact lookup_find_elem _ _ _ _ _
      · rcases h4 with h4 | h4
        · rw [h4]
          refine ⟨by simp [gen_random_string], gen_random_string_alphanum _ _ _⟩
        · exact h4

theorem set_token_returns (fuel : Nat) (rand : Nat → Nat) (k : Nat) (p : Parameters)
    (h : lookup p.ppWordTable p.wordTableSize p.wordTableSeed p.token = none) :
    set_token (fuel + 1) rand k p
      = some { p with ppWordTable :=
          (find_elem p.token p.ppWordTable p.wordTableSize p.wordTableSeed).2 } := by
  unfold set_token
  simp only [find_elem_fst, h]

theorem set_token_again (fuel : Nat) (rand : Nat → Nat) (k : Nat) (p : Parameters) (e : Elem)
    (h : lookup p.ppWordTable p.wordTableSize p.wordTableSeed p.token = some e) :
    set_token (fuel + 1) rand k p
      = set_token fuel rand (k + (TOKENLEN - 1))
          { p with
            ppWordTable := (find_elem p.token p.ppWordTable p.wordTableSize p.wordTableSeed).2,
            token := gen_random_string rand k (TOKENLEN - 1) } := by
  rw [set_token]
  simp only [find_elem_fst, h]
theorem join_first_insertion {p0 p : Parameters} {m s : Nat} {tr : List (Nat × (Nat → Nat))}
    (hm : 0 < m) (h : JoinInv p0 p m s tr) (ptr : Nat) (hptr : ptr < p0.clusters.length)
    (hmer : merged p0 tr (joined_key p0 (ptr, p.tokenMarker)) = [])
    (hfresh : lookup p0.ppClusterTable m s (joined_key p0 (ptr, p.tokenMarker)) = none) :
    lookup p.ppClusterTable m s (joined_key p0 (ptr, p.tokenMarker)) = none ∧
    (join_cluster_with_token ptr (p.setCluster ptr (p.cluster ptr).flagged)).clusters
      = (p.setCluster ptr (p.cluster ptr).flagged).clusters
          ++ [joined_record p0 (joined_key p0 (ptr, p.tokenMarker)) [(ptr, p.tokenMarker)]] ∧
    lookup (join_cluster_with_token ptr (p.setCluster ptr (p.cluster ptr).flagged)).ppClusterTable
        m s (joined_key p0 (ptr, p.tokenMarker))
      = some { pKey := joined_key p0 (ptr, p.tokenMarker), count := 1, number := 0,
               pCluster := some p.clusters.length } ∧
    (∀ K', K' ≠ joined_key p0 (ptr, p.tokenMarker) →
      lookup (join_cluster_with_token ptr
          (p.setCluster ptr (p.cluster ptr).flagged)).ppClusterTable m s K'
        = lookup p.ppClusterTable m s K') ∧
    (join_cluster_with_token ptr (p.setCluster ptr (p.cluster ptr).flagged)).joinedClusterOutputNum
      = p.joinedClusterOutputNum + 1 := by
  obtain ⟨x, hx⟩ : ∃ x, x = (ptr, p.tokenMarker) := ⟨_, rfl⟩
  obtain ⟨K, hKdef⟩ : ∃ K, K = joined_key p0 x := ⟨_, rfl⟩
  rw [← hx, ← hKdef] at hmer hfresh
  rw [← hx, ← hKdef]
  have hF : (p.cluster ptr).flagged = (p0.cluster ptr).flagged := by
    rw [h.old ptr hptr]; split <;> rfl
  have hlenp : ptr < p.clusters.length := lt_of_lt_of_le hptr h.heap
  obtain ⟨q, hq⟩ : ∃ q, q = p.setCluster ptr (p.cluster ptr).flagged := ⟨_, rfl⟩
  rw [← hq]
  have hqc : ∀ a, q.cluster a = if ptr = a then (p0.cluster ptr).flagged else p.cluster a := by
    intro a
    rw [hq, cluster_setCluster, hF]
    by_cases ha : ptr = a
    · rw [if_pos ⟨ha, hlenp⟩, if_pos ha]
    · rw [if_neg (fun e => ha e.1), if_neg ha]
  have hqlen : q.clusters.length = p.clusters.length := by
    rw [hq]; simp [Parameters.setCluster]
  have hqt : q.ppClusterTable = p.ppClusterTable := by rw [hq]; rfl
  have hK : token_key (q.cluster ptr) q.tokenMarker q.token = K := by
    rw [hqc ptr, if_pos rfl, hKdef, hx, hq]
    show token_key _ p.tokenMarker p.token = _
    rw [h.token]
    rfl
  have hnone : lookup q.ppClusterTable m s K = none := by
    rw [hqt, h.other K hmer]; exact hfresh
  have heq := join_cluster_with_token_new q ptr m s hm (by rw [hq]; exact h.csize)
    (by rw [hq]; exact h.cseed) (by rw [hqt]; exact h.len) (by rw [hqlen]; exact hlenp) K hK hnone
  obtain ⟨p', hp'⟩ : ∃ p', p' = join_cluster_with_token ptr q := ⟨_, rfl⟩
  rw [← hp'] at heq ⊢
  obtain ⟨E, hE⟩ : ∃ E : Elem,
      E = { pKey := K, count := 1, number := 0, pCluster := some q.clusters.length } := ⟨_, rfl⟩
  have hR : adjust_record (q.cluster ptr) q.tokenMarker (new_token_record (q.cluster ptr) K)
      = joined_record p0 K [x] := by
    rw [hqc ptr, if_pos rfl, joined_record_single, hx, hq]
    rfl
  rw [hR, ← hE] at heq
  have c1 : p'.clusters = q.clusters ++ [joined_record p0 K [x]] := by rw [heq]
  have c2 : p'.ppClusterTable
      = store_front (add_elem K q.ppClusterTable m s) (str2hash K m s) E := by rw [heq]
  have c4 : p'.joinedClusterOutputNum = q.joinedClusterOutputNum + 1 := by rw [heq]
  have hEk : E.pKey = K := by rw [hE]
  refine ⟨?_, c1, ?_, ?_, ?_⟩
  · rw [← hqt]; exact hnone
  · rw [c2, hqt, ← hqlen, ← hE]
    exact lookup_store_add_self _ m s hm h.len K E hEk
  · intro K' hne
    rw [c2, hqt]
    exact lookup_store_add_other _ m s hm h.len K K' hne E hEk
  · rw [c4, hq]; rfl
/-- C33: if `set_token` returns on the state in which `step_3_join_clusters`
calls it, then `token` has no record in the word table, so it is none of the
frequent words (which are the same as before), and it holds no separator.
Therefore, for every record `c` and every marker array `mk` that marks a
position `1 <= i <= c.constants`, the joined key differs from the candidate key
of every line with a frequent word and from the key of every record of the
cluster table, and the cluster table has no record for it.  During the loop of
`join_cluster` (the states `p` with the invariant `JoinInv`), the first
insertion of a joined key finds no record, appends one new cluster record
behind all the records of the candidates, leaves a table record with count 1
that points to the new record, leaves the records of all other keys as they
are, and counts one more joined cluster in the output. -/
theorem set_token_fresh_key (q : Parameters) (input : List (List Key)) (loc : CandidateLocals)
    (cc : Nat) (rand : Nat → Nat) (k fuel : Nat) (r : Parameters)
    (hsz : 0 < q.clusterTableSize) (hcl : q.clusters = [])
    (hnl : ∀ l ∈ input, ∀ w ∈ l, CLUSTERSEP ∉ w) (hsep : CLUSTERSEP ∉ q.token)
    (hret : set_token fuel rand k (mine_word_dep q input loc cc) = some r) :
    lookup r.ppWordTable r.wordTableSize r.wordTableSeed r.token = none ∧
    (∀ w, isFrequent r w = isFrequent q w) ∧
    (∀ w, isFrequent q w = true → w ≠ r.token) ∧
    CLUSTERSEP ∉ r.token ∧
    (∀ (c : Cluster) (mk : Nat → Nat) (i : Nat), 1 ≤ i → i ≤ c.constants → mk i ≠ 0 →
      (∀ l ∈ input, constantsOf q l ≠ [] →
        keyOf (constantsOf q l) ≠ token_key c mk r.token) ∧
      (∀ e ∈ r.ppClusterTable.flatten, e.pKey ≠ token_key c mk r.token) ∧
      lookup r.ppClusterTable r.clusterTableSize r.clusterTableSeed (token_key c mk r.token)
        = none) ∧
    ∀ (p : Parameters) (tr : List (Nat × (Nat → Nat))) (ptr i : Nat),
      JoinInv r p r.clusterTableSize r.clusterTableSeed tr → ptr < r.clusters.length →
      1 ≤ i → i ≤ (r.cluster ptr).constants → p.tokenMarker i ≠ 0 →
      merged r tr (joined_key r (ptr, p.tokenMarker)) = [] →
      lookup p.ppClusterTable r.clusterTableSize r.clusterTableSeed
        (joined_key r (ptr, p.tokenMarker)) = none ∧
      r.clusters.length ≤ p.clusters.length ∧
      (join_cluster_with_token ptr (p.setCluster ptr (p.cluster ptr).flagged)).clusters
        = (p.setCluster ptr (p.cluster ptr).flagged).clusters
            ++ [joined_record r (joined_key r (ptr, p.tokenMarker)) [(ptr, p.tokenMarker)]] ∧
      lookup (join_cluster_with_token ptr
          (p.setCluster ptr (p.cluster ptr).flagged)).ppClusterTable
          r.clusterTableSize r.clusterTableSeed (joined_key r (ptr, p.tokenMarker))
        = some { pKey := joined_key r (ptr, p.tokenMarker), count := 1, number := 0,
                 pCluster := some p.clusters.length } ∧
      (∀ K', K' ≠ joined_key r (ptr, p.tokenMarker) →
        lookup (join_cluster_with_token ptr
            (p.setCluster ptr (p.cluster ptr).flagged)).ppClusterTable
            r.clusterTableSize r.clusterTableSeed K'
          = lookup p.ppClusterTable r.clusterTableSize r.clusterTableSeed K') ∧
      (join_cluster_with_token ptr
          (p.setCluster ptr (p.cluster ptr).flagged)).joinedClusterOutputNum
        = p.joinedClusterOutputNum + 1 := by
  obtain ⟨hW, hG⟩ := create_cluster_candidates_word_dep_gen q input loc cc hsz hcl
  have htok0 := create_cluster_candidates_word_dep_token q input loc cc
  have hA := AggFrame.mine q input loc cc
  obtain ⟨⟨tk, tb, hr⟩, h2, h3, h4⟩ := set_token_spec _ _ _ _ _ hret
  obtain ⟨P, hP⟩ : ∃ P, P = mine_word_dep q input loc cc := ⟨_, rfl⟩
  rw [← hP] at hA hr h2 h3 h4
  have ws : r.wordTableSize = q.wordTableSize := by
    rw [hr]; exact hA.wsize.trans hW.wsize
  have wd : r.wordTableSeed = q.wordTableSeed := by
    rw [hr]; exact hA.wseed.trans hW.wseed
  have cs : r.clusterTableSize = q.clusterTableSize := by
    rw [hr]; exact hA.csize.trans hG.csize
  have ct : r.ppClusterTable = P.ppClusterTable := by rw [hr]
  have hPs : P.wordTableSize = q.wordTableSize := hA.wsize.trans hW.wsize
  have hPd : P.wordTableSeed = q.wordTableSeed := hA.wseed.trans hW.wseed
  rw [hPs, hPd] at h2 h3
  have hlook : ∀ w, lookup r.ppWordTable q.wordTableSize q.wordTableSeed w
      = lookup q.ppWordTable q.wordTableSize q.wordTableSeed w := by
    intro w
    rw [h2 w, hA.wtable]
    exact hW.wsame w
  have hfreq : ∀ w, isFrequent r w = isFrequent q w := by
    intro w
    unfold isFrequent
    rw [ws, wd, hlook w]
  have hnot : ∀ w, isFrequent q w = true → w ≠ r.token := by
    intro w hw e
    rw [← hfreq w, e] at hw
    unfold isFrequent at hw
    rw [ws, wd, h3] at hw
    simp at hw
  have hsepr : CLUSTERSEP ∉ r.token := by
    rcases h4 with h4 | h4
    · rw [h4, hA.token, htok0]; exact hsep
    · exact fun hc => alphanum_no_sep (h4.2 _ hc)
  have hline : ∀ l ∈ input, r.token ∉ key_words (keyOf (constantsOf q l)) := by
    intro l hl hmem
    have hS : ∀ w ∈ constantsOf q l, CLUSTERSEP ∉ w :=
      fun w hw => hnl l hl w (List.mem_filter.1 hw).1
    rw [key_words_keyOf _ hS] at hmem
    exact hnot _ (List.mem_filter.1 hmem).2 rfl
  have hkeys : ∀ e ∈ r.ppClusterTable.flatten, r.token ∉ key_words e.pKey := by
    intro e he
    rw [ct] at he
    obtain ⟨e0, he0, k0⟩ := hA.keys e he
    obtain ⟨l, hl, -, hk⟩ := hG.keys e0 he0
    rw [← k0, hk]
    exact hline l hl
  have hhas : ∀ (c : Cluster) (mk : Nat → Nat) (i : Nat), 1 ≤ i → i ≤ c.constants → mk i ≠ 0 →
      r.token ∈ key_words (token_key c mk r.token) := by
    intro c mk i h1 h2 h3
    exact token_key_has_token c mk _ hsepr i (List.mem_range'_1.2 ⟨h1, by omega⟩) h3
  have hnone : ∀ (c : Cluster) (mk : Nat → Nat) (i : Nat), 1 ≤ i → i ≤ c.constants →
      mk i ≠ 0 → ∀ m s, lookup r.ppClusterTable m s (token_key c mk r.token) = none := by
    intro c mk i h1 h2 h3 m s
    cases hl : lookup r.ppClusterTable m s (token_key c mk r.token) with
    | none => rfl
    | some e =>
      exfalso
      have a1 := lookup_key hl
      have a2 := hkeys e (lookup_mem_flatten hl)
      rw [a1] at a2
      exact a2 (hhas c mk i h1 h2 h3)
  refine ⟨by rw [ws, wd]; exact h3, hfreq, hnot, hsepr, ?_, ?_⟩
  · intro c mk i h1 h2 h3
    refine ⟨?_, ?_, hnone c mk i h1 h2 h3 _ _⟩
    · intro l hl _ e
      have := hline l hl
      rw [e] at this
      exact this (hhas c mk i h1 h2 h3)
    · intro e he ek
      have := hkeys e he
      rw [ek] at this
      exact this (hhas c mk i h1 h2 h3)
  · intro p tr ptr i hJ hptr h1 h2 h3 hmer
    have hm : 0 < r.clusterTableSize := by rw [cs]; exact hsz
    obtain ⟨b1, b2, b3, b4, b5⟩ := join_first_insertion hm hJ ptr hptr hmer
      (hnone (r.cluster ptr) p.tokenMarker i h1 h2 h3 _ _)
    exact ⟨b1, hJ.heap, b2, b3, b4, b5⟩
theorem set_token_fresh_key_witness :
    ∃ r, set_token 2 (fun n => n) 0 (mine_word_dep tokenParams tokenInput {} 0) = some r ∧
      isFrequent tokenParams [116, 111, 107, 101, 110] = true ∧
      (mine_word_dep tokenParams tokenInput {} 0).token = [116, 111, 107, 101, 110] ∧
      r.token = [48, 49, 50, 51, 52, 53, 54, 55, 56] ∧
      (mine_word_dep tokenParams tokenInput {} 0).bAggrsupFlag = true ∧
      ((mine_word_dep tokenParams tokenInput {} 0).cluster 0).constants = 2 ∧
      lookup r.ppWordTable r.wordTableSize r.wordTableSeed r.token = none ∧
      lookup r.ppClusterTable r.clusterTableSize r.clusterTableSeed
        (token_key ((mine_word_dep tokenParams tokenInput {} 0).cluster 0)
          (fun i => if i = 2 then 1 else 0) r.token) = none := by
  have e1 : (lookup (mine_word_dep tokenParams tokenInput {} 0).ppWordTable
      (mine_word_dep tokenParams tokenInput {} 0).wordTableSize
      (mine_word_dep tokenParams tokenInput {} 0).wordTableSeed
      (mine_word_dep tokenParams tokenInput {} 0).token).isSome = true := by decide!
  obtain ⟨e, he⟩ := Option.isSome_iff_exists.1 e1
  have e2 : lookup (mine_word_dep tokenParams tokenInput {} 0).ppWordTable
      (mine_word_dep tokenParams tokenInput {} 0).wordTableSize
      (mine_word_dep tokenParams tokenInput {} 0).wordTableSeed
      (gen_random_string (fun n => n) 0 (TOKENLEN - 1)) = none := by decide!
  have hret := set_token_again 1 (fun n => n) 0 _ e he
  rw [set_token_returns 0 (fun n => n) _ _
    ((lookup_find_elem _ _ _ _ _).trans e2)] at hret
  have h := set_token_fresh_key tokenParams tokenInput {} 0 (fun n => n) 0 2 _
    (by decide!) (List.length_eq_zero.1 (by decide!)) (by decide) (by decide!) hret
  exact ⟨_, hret, by decide!, by decide!, by decide, by decide!, by decide!, h.1,
    (h.2.2.2.2.1 _ (fun i => if i = 2 then 1 else 0) 2 (by decide) (by decide!) (by decide)).2.2⟩

/-! ## The guard of the search and replace loop -/

theorem check_endless_loop_from_zero (t w : Key) :
    ∀ (n i j : Nat), check_endless_loop_from t w n i j = 0 ↔
      ∀ d, d < n → t.getD (i + d) 0 = w.getD (j + d) 0 := by
  intro n
  induction n with
  | zero => intro i j; simp [check_endless_loop_from]
  | succ n ih =>
    intro i j
    unfold check_endless_loop_from
    by_cases h : t.getD i 0 = w.getD j 0
    · rw [if_neg (fun hn => hn h), ih]
      constructor
      · intro H d hd
        cases d with
        | zero => exact h
        | succ d =>
          have := H d (by omega)
          rw [Nat.add_assoc, Nat.add_comm 1 d, Nat.add_assoc, Nat.add_comm 1 d] at this
          exact this
      · intro H d hd
        have := H (d + 1) (by omega)
        rw [Nat.add_assoc, Nat.add_comm 1 d, Nat.add_assoc, Nat.add_comm 1 d]
        exact this
    · rw [if_pos h]
      constructor
      · intro H; exact absurd H (by decide)
      · intro H; exact absurd (H 0 (by omega)) h

theorem check_endless_loop_prefix (t w : Key) (so eo : Nat) (hso : so ≤ eo)
    (heo : eo ≤ t.length) (hz : 0 ∉ t) :
    check_endless_loop so eo t w = 0 ↔ (t.drop so).take (eo - so) <+: w := by
  unfold check_endless_loop
  rw [check_endless_loop_from_zero]
  have hlen : ((t.drop so).take (eo - so)).length = eo - so := by
    rw [List.length_take, List.length_drop]; omega
  have hget : ∀ d, d < eo - so →
      ((t.drop so).take (eo - so))[d]? = some (t.getD (so + d) 0) := by
    intro d hd
    rw [List.getElem?_take_of_lt hd, List.getElem?_drop, List.getD_eq_getElem?_getD,
      List.getElem?_eq_getElem (by omega)]
    rfl
  have hnz : ∀ d, d < eo - so → t.getD (so + d) 0 ≠ 0 := by
    intro d hd e
    apply hz
    rw [← e, List.getD_eq_getElem?_getD, List.getElem?_eq_getElem (by omega)]
    exact List.getElem_mem _
  constructor
  · intro H
    have hw : eo - so ≤ w.length := by
      by_contra hc
      have h1 := H w.length (by omega)
      rw [Nat.zero_add, List.getD_eq_getElem?_getD w, List.getElem?_eq_none (le_refl _)] at h1
      exact hnz w.length (by omega) h1
    rw [List.prefix_iff_eq_take, hlen]
    apply List.ext_getElem?
    intro d
    by_cases hd : d < eo - so
    · rw [hget d hd, List.getElem?_take_of_lt hd, H d hd, Nat.zero_add,
        List.getD_eq_getElem?_getD, List.getElem?_eq_getElem (by omega)]
      rfl
    · rw [List.getElem?_eq_none (by rw [hlen]; omega),
        List.getElem?_eq_none (by rw [List.length_take]; omega)]
  · intro H d hd
    rw [Nat.zero_add]
    obtain ⟨rest, hr⟩ := H
    have h1 := hget d hd
    have h2 : w[d]? = some (t.getD (so + d) 0) := by
      rw [← hr, List.getElem?_append_left (by rw [hlen]; exact hd)]
      exact h1
    rw [List.getD_eq_getElem?_getD w, h2]
    rfl
theorem word_search_replace_spec_diverges :
    ∀ (fuel : Nat) (rest : Key),
      word_search_replace_spec eqSearch [61, 86, 65, 76, 85, 69] fuel (97 :: 61 :: 86 :: rest)
        = none := by
  intro fuel
  induction fuel with
  | zero => intro rest; rfl
  | succ n ih =>
    intro rest
    unfold word_search_replace_spec
    simp only [eqSearch]
    rw [if_neg (by simp)]
    exact ih _

/-- C34 (amended): a round of the loop of `word_search_replace` on a string `t`
without the byte 0 returns `t` when nothing matches.  When the span `so .. eo`
matches, `check_endless_loop` returns 0 exactly when the bytes of the span are
a prefix of `pWordReplace` (the empty span and the whole string included), and
the loop stops with `t` exactly when this is so and a replacement was made
before (`cnt` is not 0); in every other case, the first match of a call
included, the span is replaced (the text before the span, `pWordReplace`, the
text after the span) and the search is repeated with `cnt + 1`. -/
theorem word_search_replace_guard (regexec : Key → Option (Nat × Nat)) (w t : Key)
    (cnt fuel : Nat) (hz : 0 ∉ t) :
    (regexec t = none → word_search_replace_loop regexec w (fuel + 1) t cnt = some t) ∧
    ∀ so eo, regexec t = some (so, eo) → so ≤ eo → eo ≤ t.length →
      (check_endless_loop so eo t w = 0 ↔ (t.drop so).take (eo - so) <+: w) ∧
      replace_string_for_word_search so eo t w = t.take so ++ w ++ t.drop eo ∧
      word_search_replace_loop regexec w (fuel + 1) t cnt =
        if cnt ≠ 0 ∧ (t.drop so).take (eo - so) <+: w then some t
        else word_search_replace_loop regexec w fuel (t.take so ++ w ++ t.drop eo)
          (cnt + 1) := by
  refine ⟨?_, ?_⟩
  · intro h
    rw [word_search_replace_loop, h]
  · intro so eo h hso heo
    have hp := check_endless_loop_prefix t w so eo hso heo hz
    refine ⟨hp, rfl, ?_⟩
    rw [word_search_replace_loop, h]
    simp only [hp]
    rfl

theorem word_search_replace_guard_witness :
    eqSearch [97, 61, 86, 65, 76, 85, 69] = some (1, 3) ∧
    (check_endless_loop 1 3 [97, 61, 86, 65, 76, 85, 69] [61, 86, 65, 76, 85, 69] = 0 ↔
      ([97, 61, 86, 65, 76, 85, 69].drop 1).take (3 - 1) <+: [61, 86, 65, 76, 85, 69]) ∧
    word_search_replace_loop eqSearch [61, 86, 65, 76, 85, 69] 1 [97, 61, 86, 65, 76, 85, 69] 1
      = some [97, 61, 86, 65, 76, 85, 69] :=
  ⟨rfl,
    ((word_search_replace_guard eqSearch [61, 86, 65, 76, 85, 69] [97, 61, 86, 65, 76, 85, 69]
      1 0 (by decide)).2 1 3 rfl (by decide) (by decide)).1,
    ((word_search_replace_guard eqSearch [61, 86, 65, 76, 85, 69] [97, 61, 86, 65, 76, 85, 69]
      1 0 (by decide)).2 1 3 rfl (by decide) (by decide)).2.2.trans (by decide)⟩

/-- C34 (counterexample): with `--wreplace==VALUE` and a search that matches
the byte `=` and the byte behind it, `word_search_replace` turns `a=X` into
`a=VALUE` and stops there: the next match is the span `=V`, which is not equal
to the string `=VALUE`, but it is left unreplaced and ends the loop.  The loop
in the words of the specification replaces that match again and again and
ends for no number of rounds. -/
theorem word_search_replace_guard_counterexample :
    word_search_replace eqSearch 2 [97, 61, 88] eqValueParams
      = some [97, 61, 86, 65, 76, 85, 69] ∧
    eqSearch [97, 61, 86, 65, 76, 85, 69] = some (1, 3) ∧
    ([97, 61, 86, 65, 76, 85, 69].drop 1).take (3 - 1) = [61, 86] ∧
    ([61, 86] : Key) ≠ [61, 86, 65, 76, 85, 69] ∧
    word_search_replace_loop eqSearch [61, 86, 65, 76, 85, 69] 1 [97, 61, 86, 65, 76, 85, 69] 1
      = some [97, 61, 86, 65, 76, 85, 69] ∧
    ∀ fuel, word_search_replace_spec eqSearch [61, 86, 65, 76, 85, 69] fuel [97, 61, 88]
      = none := by
  have hspec : ∀ fuel,
      word_search_replace_spec eqSearch [61, 86, 65, 76, 85, 69] fuel [97, 61, 88] = none := by
    intro fuel
    cases fuel with
    | zero => rfl
    | succ n =>
      unfold word_search_replace_spec
      simp only [eqSearch]
      rw [if_neg (by decide)]
      exact word_search_replace_spec_diverges n [65, 76, 85, 69]
  exact ⟨by decide, rfl, rfl, by decide, by decide, hspec⟩

/-! ## The tests of the search for more specific candidates -/

theorem find_more_specific_action_cases (c : Cluster) (constant : Nat) (d : TrieData)
    (mm : Int × Int) :
    (find_more_specific_action c constant d mm = .descend ↔
      (trie_step d mm).1 - 1 < c.fullWildcard (constant * 2)) ∧
    (find_more_specific_action c constant d mm = .prune ↔
      c.fullWildcard (constant * 2) ≤ (trie_step d mm).1 - 1 ∧
        c.fullWildcard (constant * 2 + 1) < (trie_step d mm).2 - 1) ∧
    (find_more_specific_action c constant d mm = .compare ↔
      c.fullWildcard (constant * 2) ≤ (trie_step d mm).1 - 1 ∧
        (trie_step d mm).2 - 1 ≤ c.fullWildcard (constant * 2 + 1)) := by
  unfold find_more_specific_action
  simp only []
  by_cases h1 : (trie_step d mm).1 - 1 < c.fullWildcard (constant * 2)
  · rw [if_pos h1]
    refine ⟨⟨fun _ => h1, fun _ => rfl⟩, ⟨fun h => (by cases h), fun h => ?_⟩,
      ⟨fun h => (by cases h), fun h => ?_⟩⟩
    · exact absurd h1 (not_lt.2 h.1)
    · exact absurd h1 (not_lt.2 h.1)
  · rw [if_neg h1]
    by_cases h2 : (trie_step d mm).2 - 1 > c.fullWildcard (constant * 2 + 1)
    · rw [if_pos h2]
      refine ⟨⟨fun h => (by cases h), fun h => absurd h h1⟩,
        ⟨fun _ => ⟨not_lt.1 h1, h2⟩, fun _ => rfl⟩, ⟨fun h => (by cases h), fun h => ?_⟩⟩
      exact absurd h2 (not_lt.2 h.2)
    · rw [if_neg h2]
      refine ⟨⟨fun h => (by cases h), fun h => absurd h h1⟩,
        ⟨fun h => (by cases h), fun h => absurd h.2 h2⟩,
        ⟨fun _ => ⟨not_lt.1 h1, not_lt.1 h2⟩, fun _ => rfl⟩⟩

theorem find_more_specific_tail_action_cases (c : Cluster) (d : TrieData) (mm : Int × Int) :
    (find_more_specific_tail_action c d mm = .descend ↔
      (trie_step d mm).1 < c.fullWildcard 0) ∧
    (find_more_specific_tail_action c d mm = .prune ↔
      c.fullWildcard 0 ≤ (trie_step d mm).1 ∧ c.fullWildcard 1 < (trie_step d mm).2) ∧
    (find_more_specific_tail_action c d mm = .compare ↔
      c.fullWildcard 0 ≤ (trie_step d mm).1 ∧ (trie_step d mm).2 ≤ c.fullWildcard 1) := by
  unfold find_more_specific_tail_action
  simp only []
  by_cases h1 : (trie_step d mm).1 < c.fullWildcard 0
  · rw [if_pos h1]
    refine ⟨⟨fun _ => h1, fun _ => rfl⟩, ⟨fun h => (by cases h), fun h => ?_⟩,
      ⟨fun h => (by cases h), fun h => ?_⟩⟩
    · exact absurd h1 (not_lt.2 h.1)
    · exact absurd h1 (not_lt.2 h.1)
  · rw [if_neg h1]
    by_cases h2 : (trie_step d mm).2 > c.fullWildcard 1
    · rw [if_pos h2]
      refine ⟨⟨fun h => (by cases h), fun h => absurd h h1⟩,
        ⟨fun _ => ⟨not_lt.1 h1, h2⟩, fun _ => rfl⟩, ⟨fun h => (by cases h), fun h => ?_⟩⟩
      exact absurd h2 (not_lt.2 h.2)
    · rw [if_neg h2]
      refine ⟨⟨fun h => (by cases h), fun h => absurd h h1⟩,
        ⟨fun h => (by cases h), fun h => absurd h.2 h2⟩,
        ⟨fun _ => ⟨not_lt.1 h1, not_lt.1 h2⟩, fun _ => rfl⟩⟩

/-- C32 (amended): at a node `d` with the sums `mm` of the nodes before it,
`(min, max) = trie_step d mm` adds `(1, 1)` for a word node and the bounds of a
wildcard node.  While the constant at the position `constant >= 1` is looked
for, the search descends below the node without a comparison exactly when
`min - 1` is below the minimum of the gap of the cluster; otherwise the node
and all below it are pruned exactly when `max - 1` exceeds the maximum of the
gap; and the node is compared with the constant exactly when the minimum is at
most `min - 1` and `max - 1` is at most the maximum (both bounds inclusive).
In the tail the same holds with `min` and `max` in place of `min - 1` and
`max - 1`, and a node that is neither descended nor pruned has the support of
its end candidate added. -/
theorem find_more_specific_tests (pCluster : Nat) (c : Cluster) (hashOf : Key → Nat)
    (d : TrieData) (pChild pNext : TrieNode) (constant : Nat) (mm : Int × Int) (hash : Nat)
    (pParam : Parameters) :
    trie_step d mm
      = (if d.wildcardMax = 0 then (mm.1 + 1, mm.2 + 1)
         else (mm.1 + d.wildcardMin, mm.2 + d.wildcardMax)) ∧
    ((trie_step d mm).1 - 1 < c.fullWildcard (constant * 2) →
      find_more_specific_loop pCluster c hashOf (.node d pChild pNext) constant mm hash pParam
        = find_more_specific_loop pCluster c hashOf pNext constant mm hash
            (find_more_specific_loop pCluster c hashOf pChild constant (trie_step d mm) hash
              pParam) ∧
      matched_loop pCluster c hashOf (.node d pChild pNext) constant mm hash
        = matched_loop pCluster c hashOf pChild constant (trie_step d mm) hash
            ++ matched_loop pCluster c hashOf pNext constant mm hash) ∧
    (c.fullWildcard (constant * 2) ≤ (trie_step d mm).1 - 1 →
      c.fullWildcard (constant * 2 + 1) < (trie_step d mm).2 - 1 →
      find_more_specific_loop pCluster c hashOf (.node d pChild pNext) constant mm hash pParam
        = find_more_specific_loop pCluster c hashOf pNext constant mm hash pParam ∧
      matched_loop pCluster c hashOf (.node d pChild pNext) constant mm hash
        = matched_loop pCluster c hashOf pNext constant mm hash) ∧
    (c.fullWildcard (constant * 2) ≤ (trie_step d mm).1 - 1 →
      (trie_step d mm).2 - 1 ≤ c.fullWildcard (constant * 2 + 1) →
      (¬ (d.hashValue = hash ∧
          d.pWord.map Elem.pKey = (c.ppWord constant).map Elem.pKey ∧ d.pWord ≠ none) →
        find_more_specific_loop pCluster c hashOf (.node d pChild pNext) constant mm hash pParam
          = find_more_specific_loop pCluster c hashOf pNext constant mm hash
              (find_more_specific_loop pCluster c hashOf pChild constant (trie_step d mm) hash
                pParam)) ∧
      (d.hashValue = hash ∧
          d.pWord.map Elem.pKey = (c.ppWord constant).map Elem.pKey ∧ d.pWord ≠ none →
        constant < c.constants →
        find_more_specific_loop pCluster c hashOf (.node d pChild pNext) constant mm hash pParam
          = find_more_specific_loop pCluster c hashOf pNext constant mm hash
              (find_more_specific_loop pCluster c hashOf pChild (constant + 1) (0, 0)
                (match c.ppWord (constant + 1) with
                 | some w => hashOf w.pKey
                 | none => 0) pParam)) ∧
      (d.hashValue = hash ∧
          d.pWord.map Elem.pKey = (c.ppWord constant).map Elem.pKey ∧ d.pWord ≠ none →
        constant = c.constants → c.fullWildcard 1 = 0 →
        find_more_specific_loop pCluster c hashOf (.node d pChild pNext) constant mm hash pParam
          = find_more_specific_loop pCluster c hashOf pNext constant mm hash
              (aggregate_end pCluster d pParam))) ∧
    ((trie_step d mm).1 < c.fullWildcard 0 →
      find_more_specific_tail pCluster c (.node d pChild pNext) mm pParam
        = find_more_specific_tail pCluster c pNext mm
            (find_more_specific_tail pCluster c pChild (trie_step d mm) pParam)) ∧
    (c.fullWildcard 0 ≤ (trie_step d mm).1 → c.fullWildcard 1 < (trie_step d mm).2 →
      find_more_specific_tail pCluster c (.node d pChild pNext) mm pParam
        = find_more_specific_tail pCluster c pNext mm pParam) ∧
    (c.fullWildcard 0 ≤ (trie_step d mm).1 → (trie_step d mm).2 ≤ c.fullWildcard 1 →
      find_more_specific_tail pCluster c (.node d pChild pNext) mm pParam
        = find_more_specific_tail pCluster c pNext mm
            (find_more_specific_tail pCluster c pChild (trie_step d mm)
              (aggregate_end pCluster d pParam))) ∧
    (find_more_specific_action c constant d mm = .descend ↔
      (trie_step d mm).1 - 1 < c.fullWildcard (constant * 2)) ∧
    (find_more_specific_action c constant d mm = .prune ↔
      c.fullWildcard (constant * 2) ≤ (trie_step d mm).1 - 1 ∧
        c.fullWildcard (constant * 2 + 1) < (trie_step d mm).2 - 1) ∧
    (find_more_specific_action c constant d mm = .compare ↔
      c.fullWildcard (constant * 2) ≤ (trie_step d mm).1 - 1 ∧
        (trie_step d mm).2 - 1 ≤ c.fullWildcard (constant * 2 + 1)) ∧
    (find_more_specific_tail_action c d mm = .descend ↔
      (trie_step d mm).1 < c.fullWildcard 0) ∧
    (find_more_specific_tail_action c d mm = .prune ↔
      c.fullWildcard 0 ≤ (trie_step d mm).1 ∧ c.fullWildcard 1 < (trie_step d mm).2) ∧
    (find_more_specific_tail_action c d mm = .compare ↔
      c.fullWildcard 0 ≤ (trie_step d mm).1 ∧ (trie_step d mm).2 ≤ c.fullWildcard 1) := by
  obtain ⟨a1, a2, a3⟩ := find_more_specific_action_cases c constant d mm
  obtain ⟨b1, b2, b3⟩ := find_more_specific_tail_action_cases c d mm
  refine ⟨rfl, ?_, ?_, ?_, ?_, ?_, ?_, a1, a2, a3, b1, b2, b3⟩
  · intro h
    constructor
    · rw [find_more_specific_loop]; simp only [h, if_true]
    · rw [matched_loop]; simp only [h, if_true]
  · intro h1 h2
    have n1 : ¬ (trie_step d mm).1 - 1 < c.fullWildcard (constant * 2) := not_lt.2 h1
    have n2 : (trie_step d mm).2 - 1 > c.fullWildcard (constant * 2 + 1) := h2
    constructor
    · rw [find_more_specific_loop]; simp only [n1, n2, if_true, if_false]
    · rw [matched_loop]; simp only [n1, n2, if_true, if_false]
  · intro h1 h2
    have n1 : ¬ (trie_step d mm).1 - 1 < c.fullWildcard (constant * 2) := not_lt.2 h1
    have n2 : ¬ (trie_step d mm).2 - 1 > c.fullWildcard (constant * 2 + 1) := not_lt.2 h2
    refine ⟨?_, ?_, ?_⟩
    · intro hm
      rw [find_more_specific_loop]; simp only [n1, n2, if_false]
      rw [if_neg hm]
    · intro hm hc
      rw [find_more_specific_loop]; simp only [n1, n2, if_false]
      rw [if_pos hm, if_pos hc]
    · intro hm hc ht
      have hc2 : ¬ constant < c.constants := by omega
      rw [find_more_specific_loop]; simp only [n1, n2, if_false]
      rw [if_pos hm, if_neg hc2, if_pos hc, if_pos ht]
  · intro h
    rw [find_more_specific_tail]; simp only [h, if_true]
  · intro h1 h2
    have n1 : ¬ (trie_step d mm).1 < c.fullWildcard 0 := not_lt.2 h1
    have n2 : (trie_step d mm).2 > c.fullWildcard 1 := h2
    rw [find_more_specific_tail]; simp only [n1, n2, if_true, if_false]
  · intro h1 h2
    have n1 : ¬ (trie_step d mm).1 < c.fullWildcard 0 := not_lt.2 h1
    have n2 : ¬ (trie_step d mm).2 > c.fullWildcard 1 := not_lt.2 h2
    rw [find_more_specific_tail]; simp only [n1, n2, if_false]

/-- C32 (counterexample): on the lines `A x B`, `A y z w B`, `A D B` and `A D
q r s t u B` with support 2, the candidate 0 is `A *{1,3} B` and the candidate
1 is `A D *{0,5} B`.  The search for the candidate 0 reaches the end node `B`
of the candidate 1 behind `D` and the wildcard `(0, 5)`, with the sums `(2, 7)`
(`(1, 6)` without the node itself).  The minimum sum does not exceed the
maximum 3 of the gap, but the node is pruned, since the maximum sum does: the
search adds no candidate, where the tests of the specification add the
candidate 1. -/
theorem find_more_specific_tests_counterexample :
    (pruneTrie.cluster 0).constants = 2 ∧
    (pruneTrie.cluster 0).fullWildcard 4 = 1 ∧ (pruneTrie.cluster 0).fullWildcard 5 = 3 ∧
    ((pruneTrie.pPrefixRoot.nodes []).filter (fun x => decide (x.2.addr = 6))).map
        (fun x => (x.1.map Prod.snd, x.2.elem, x.2.pIsEnd))
      = [([TrieElem.gap 0 0, TrieElem.word [65], TrieElem.word [68], TrieElem.gap 0 5],
          TrieElem.word [66], some 1)] ∧
    (pruneTrie.pPrefixRoot.find 6).map (fun x => (trie_step x.1 (1, 6),
        find_more_specific_action (pruneTrie.cluster 0) 2 x.1 (1, 6),
        spec_action (trie_step x.1 (1, 6)) 1 3, spec_action (1, 6) 1 3))
      = some ((2, 7), SearchAction.prune, SearchAction.compare, SearchAction.compare) ∧
    ¬ ((2 : Int) > (pruneTrie.cluster 0).fullWildcard 5) ∧
    matched pruneTrie 0 = [] ∧
    matched_spec 0 pruneTrie 0 = [1] ∧ matched_spec 1 pruneTrie 0 = [1] ∧
    ((step_2_aggregate_support
      (create_cluster_candidates pruneParams pruneInput {} 0).1).cluster 0).count = 2 := by
  decide!

/-! ## Well-formed hash tables -/

theorem chain_scan_perm {k : Key} :
    ∀ {c : List Elem} {x : Elem} {r : List Elem}, chain_scan k c = some (x, r) →
      (x :: r).Perm c := by
  intro c
  induction c with
  | nil => intro x r h; simp [chain_scan] at h
  | cons e rest ih =>
    intro x r h
    unfold chain_scan at h
    by_cases he : e.pKey = k
    · rw [if_pos he] at h
      simp only [Option.some.injEq, Prod.mk.injEq] at h
      rw [← h.1, ← h.2]
    · rw [if_neg he] at h
      cases hs : chain_scan k rest with
      | none => rw [hs] at h; cases h
      | some pr =>
        obtain ⟨y, o⟩ := pr
        rw [hs] at h
        simp only [Option.some.injEq, Prod.mk.injEq] at h
        rw [← h.1, ← h.2]
        exact (List.Perm.swap e y o).trans ((ih hs).cons e)

theorem chain_scan_none {k : Key} {c : List Elem} (h : chain_scan k c = none) :
    k ∉ c.map Elem.pKey := by
  intro hk
  obtain ⟨e, he, hek⟩ := List.mem_map.1 hk
  have h1 := chain_scan_fst k c
  rw [h] at h1
  have h2 := List.find?_eq_none.1 h1.symm e he
  simp [hek] at h2

theorem getD_set_cases (t : Table) (h i : Nat) (c : List Elem) :
    (t.set h c).getD i [] = if h = i ∧ h < t.length then c else t.getD i [] := by
  simp only [List.getD_eq_getElem?_getD, List.getElem?_set]
  by_cases e : h = i
  · subst e
    by_cases h2 : h < t.length
    · simp [h2]
    · simp [h2, List.getElem?_eq_none (Nat.le_of_not_lt h2)]
  · simp [e]

theorem TableWf.replicate_wf (m s : Nat) : TableWf (List.replicate m []) m s := by
  refine ⟨by simp, ?_, ?_⟩
  · intro i
    rw [List.getD_eq_getElem?_getD]
    by_cases h : i < m
    · simp [h]
    · simp [h]
  · intro i e he
    rw [List.getD_eq_getElem?_getD] at he
    by_cases h : i < m
    · simp [h] at he
    · simp [h] at he

theorem TableWf.set_wf {t : Table} {m s : Nat} (h : TableWf t m s) (i : Nat)
    (c : List Elem) (hn : (c.map Elem.pKey).Nodup)
    (hs : ∀ e ∈ c, str2hash e.pKey m s = i) : TableWf (t.set i c) m s := by
  refine ⟨by rw [List.length_set]; exact h.len, ?_, ?_⟩
  · intro j
    rw [getD_set_cases]
    split
    · exact hn
    · exact h.nodup j
  · intro j e he
    rw [getD_set_cases] at he
    split at he
    · rename_i hc
      rw [← hc.1]; exact hs e he
    · exact h.slot j e he

theorem TableWf.add_elem_wf {t : Table} {m s : Nat} (h : TableWf t m s) (k : Key) :
    TableWf (add_elem k t m s) m s := by
  unfold add_elem
  simp only []
  cases hs : chain_scan k (t.getD (str2hash k m s) []) with
  | none =>
    simp only []
    apply h.set_wf
    · rw [List.map_cons, List.nodup_cons]
      exact ⟨chain_scan_none hs, h.nodup _⟩
    · intro e he
      rcases List.mem_cons.1 he with e1 | e1
      · rw [e1]
      · exact h.slot _ e e1
  | some pr =>
    obtain ⟨x, r⟩ := pr
    simp only []
    have hp := chain_scan_perm hs
    have hx := chain_scan_key hs
    apply h.set_wf
    · have h1 : (List.map Elem.pKey (x :: r)).Nodup :=
        (List.Perm.nodup_iff (hp.map Elem.pKey)).2 (h.nodup _)
      exact h1
    · intro e he
      rcases List.mem_cons.1 he with e1 | e1
      · rw [e1]; show str2hash x.pKey m s = _; rw [hx]
      · exact h.slot _ e (hp.subset (List.mem_cons_of_mem _ e1))

theorem TableWf.find_elem_wf {t : Table} {m s : Nat} (h : TableWf t m s) (k : Key) :
    TableWf (find_elem k t m s).2 m s := by
  unfold find_elem
  simp only []
  cases hs : chain_scan k (t.getD (str2hash k m s) []) with
  | none => exact h
  | some pr =>
    obtain ⟨x, r⟩ := pr
    simp only []
    have hp := chain_scan_perm hs
    apply h.set_wf
    · exact (List.Perm.nodup_iff (hp.map Elem.pKey)).2 (h.nodup _)
    · intro e he
      exact h.slot _ e (hp.subset he)

theorem TableWf.store_front_wf {t : Table} {m s : Nat} (h : TableWf t m s) (i : Nat)
    (e e0 : Elem) (hf : front t i = some e0) (hk : e.pKey = e0.pKey) :
    TableWf (store_front t i e) m s := by
  unfold front at hf
  unfold store_front
  cases hc : t.getD i [] with
  | nil => rw [hc] at hf; simp at hf
  | cons x rest =>
    rw [hc] at hf
    simp only [List.head?_cons, Option.some.injEq] at hf
    subst hf
    simp only []
    have hn := h.nodup i
    rw [hc] at hn
    apply h.set_wf
    · rw [List.map_cons, hk]; exact hn
    · intro y hy
      rcases List.mem_cons.1 hy with e1 | e1
      · rw [e1, hk]; exact h.slot i x (by rw [hc]; exact List.mem_cons_self _ _)
      · exact h.slot i y (by rw [hc]; exact List.mem_cons_of_mem _ e1)

theorem TableWf.mem_iff_lookup {t : Table} {m s : Nat} (h : TableWf t m s) (e : Elem) :
    e ∈ t.flatten ↔ lookup t m s e.pKey = some e := by
  constructor
  · intro he
    obtain ⟨c, hc, hec⟩ := List.mem_flatten.1 he
    obtain ⟨i, hi, hci⟩ := List.getElem_of_mem hc
    have hg : t.getD i [] = c := by
      rw [List.getD_eq_getElem?_getD, List.getElem?_eq_getElem hi, hci]; rfl
    have hs := h.slot i e (by rw [hg]; exact hec)
    unfold lookup
    rw [hs, hg]
    have hn := h.nodup i
    rw [hg] at hn
    clear hg hci hc
    induction c with
    | nil => cases hec
    | cons x rest ih =>
      rw [List.find?_cons]
      by_cases hx : x.pKey = e.pKey
      · simp only [hx, decide_True]
        rcases List.mem_cons.1 hec with e1 | e1
        · rw [e1]
        · exfalso
          rw [List.map_cons, List.nodup_cons] at hn
          exact hn.1 (by rw [hx]; exact List.mem_map_of_mem _ e1)
      · simp only [hx, decide_False]
        rcases List.mem_cons.1 hec with e1 | e1
        · exact absurd (by rw [e1]) hx
        · rw [List.map_cons, List.nodup_cons] at hn
          exact ih e1 hn.2
  · exact lookup_mem_flatten

theorem TableWf.flatten_nodup {t : Table} {m s : Nat} (h : TableWf t m s) :
    (t.flatten.map Elem.pKey).Nodup := by
  rw [List.map_flatten, List.nodup_flatten]
  constructor
  · intro l hl
    obtain ⟨c, hc, hcl⟩ := List.mem_map.1 hl
    obtain ⟨i, hi, hci⟩ := List.getElem_of_mem hc
    have hg : t.getD i [] = c := by
      rw [List.getD_eq_getElem?_getD, List.getElem?_eq_getElem hi, hci]; rfl
    rw [← hcl, ← hg]
    exact h.nodup i
  · rw [List.pairwise_iff_getElem]
    intro i j hi hj hij
    simp only [List.getElem_map]
    rw [List.length_map] at hi hj
    have hgi : t.getD i [] = t[i] := by
      rw [List.getD_eq_getElem?_getD, List.getElem?_eq_getElem hi]; rfl
    have hgj : t.getD j [] = t[j] := by
      rw [List.getD_eq_getElem?_getD, List.getElem?_eq_getElem hj]; rfl
    intro k hk1 hk2
    obtain ⟨e1, he1, hk1⟩ := List.mem_map.1 hk1
    obtain ⟨e2, he2, hk2⟩ := List.mem_map.1 hk2
    have s1 := h.slot i e1 (by rw [hgi]; exact he1)
    have s2 := h.slot j e2 (by rw [hgj]; exact he2)
    rw [hk1] at s1
    rw [hk2] at s2
    omega
theorem create_vocabulary_word_wf {m s : Nat} (st : Parameters × VocabularyLocals) (w : Key)
    (hm : st.1.wordTableSize = m) (hs : st.1.wordTableSeed = s)
    (h : TableWf st.1.ppWordTable m s) :
    (create_vocabulary_word st w).1.wordTableSize = m ∧
    (create_vocabulary_word st w).1.wordTableSeed = s ∧
    TableWf (create_vocabulary_word st w).1.ppWordTable m s := by
  subst hm
  subst hs
  have hA := h.add_elem_wf w
  unfold create_vocabulary_word
  simp only []
  by_cases hw : w = []
  · rw [if_pos hw]; exact ⟨rfl, rfl, h⟩
  · rw [if_neg hw]
    split
    · exact ⟨rfl, rfl, h⟩
    · split
      · exact ⟨rfl, rfl, h⟩
      · rename_i e heq
        split_ifs <;>
          exact ⟨rfl, rfl, hA.store_front_wf _ _ e heq rfl⟩

theorem create_vocabulary_words_wf {m s : Nat} (ws : List Key) :
    ∀ st : Parameters × VocabularyLocals, st.1.wordTableSize = m → st.1.wordTableSeed = s →
      TableWf st.1.ppWordTable m s →
      (ws.foldl create_vocabulary_word st).1.wordTableSize = m ∧
      (ws.foldl create_vocabulary_word st).1.wordTableSeed = s ∧
      TableWf (ws.foldl create_vocabulary_word st).1.ppWordTable m s := by
  induction ws with
  | nil => intro st hm hs h; exact ⟨hm, hs, h⟩
  | cons w rest ih =>
    intro st hm hs h
    obtain ⟨a1, a2, a3⟩ := create_vocabulary_word_wf st w hm hs h
    exact ih _ a1 a2 a3

theorem create_vocabulary_lines_wf {m s : Nat} (input : List (List Key)) :
    ∀ st : Parameters × VocabularyLocals, st.1.wordTableSize = m → st.1.wordTableSeed = s →
      TableWf st.1.ppWordTable m s →
      (input.foldl create_vocabulary_line st).1.wordTableSize = m ∧
      (input.foldl create_vocabulary_line st).1.wordTableSeed = s ∧
      TableWf (input.foldl create_vocabulary_line st).1.ppWordTable m s := by
  induction input with
  | nil => intro st hm hs h; exact ⟨hm, hs, h⟩
  | cons l rest ih =>
    intro st hm hs h
    obtain ⟨a1, a2, a3⟩ := create_vocabulary_words_wf l
      (st.1, { st.2 with distinctWords := 0 }) hm hs h
    exact ih (create_vocabulary_line st l) a1 a2 a3

theorem create_vocabulary_loop_wf (pParam : Parameters) (input : List (List Key)) (g : Nat) :
    TableWf (create_vocabulary_loop pParam input g).1.ppWordTable pParam.wordTableSize
      pParam.wordTableSeed :=
  (create_vocabulary_lines_wf input
    ({ pParam with ppWordTable := List.replicate pParam.wordTableSize [] },
     { number := 0, distinctWords := 0, linecount := g }) rfl rfl
    (TableWf.replicate_wf _ _)).2.2

theorem find_frequent_words_chain_keys (support : Nat) (chain : List Elem) (n : Nat) :
    ∀ e ∈ (find_frequent_words_chain support chain n).1,
      ∃ e0 ∈ chain, e0.pKey = e.pKey ∧ e0.count = e.count ∧ support ≤ e0.count := by
  intro e he
  have h1 := (find_frequent_words_chain_spec support chain n).1
  have h2 : e.entry ∈ (find_frequent_words_chain support chain n).1.map Elem.entry :=
    List.mem_map_of_mem _ he
  rw [h1] at h2
  obtain ⟨e0, h0, h3⟩ := List.mem_map.1 h2
  have h4 := List.mem_filter.1 h0
  unfold Elem.entry at h3
  simp only [Prod.mk.injEq] at h3
  exact ⟨e0, h4.1, h3.1, h3.2, by simpa using h4.2⟩

theorem find_frequent_words_chain_find (support : Nat) (w : Key) :
    ∀ (chain : List Elem) (n : Nat), (chain.map Elem.pKey).Nodup →
      ((find_frequent_words_chain support chain n).1.find?
          (fun e => decide (e.pKey = w))).map Elem.entry
        = ((chain.find? (fun e => decide (e.pKey = w))).filter
            (fun e => decide (support ≤ e.count))).map Elem.entry := by
  intro chain
  induction chain with
  | nil => intro n _; rfl
  | cons e rest ih =>
    intro n hn
    rw [List.map_cons, List.nodup_cons] at hn
    unfold find_frequent_words_chain
    by_cases hc : e.count < support
    · rw [if_pos hc]
      by_cases hk : e.pKey = w
      · have hnone : (find_frequent_words_chain support rest n).1.find?
            (fun e => decide (e.pKey = w)) = none := by
          rw [List.find?_eq_none]
          intro x hx
          obtain ⟨x0, hx0, k0, -, -⟩ := find_frequent_words_chain_keys support rest n x hx
          simp only [decide_eq_true_eq]
          intro hxw
          apply hn.1
          rw [hk, ← hxw, ← k0]
          exact List.mem_map_of_mem _ hx0
        rw [hnone, List.find?_cons]
        simp only [hk, decide_True]
        have : ¬ support ≤ e.count := by omega
        simp [Option.filter, this]
      · rw [ih n hn.2, List.find?_cons]
        simp only [hk, decide_False]
    · rw [if_neg hc]
      simp only []
      by_cases hk : e.pKey = w
      · rw [List.find?_cons, List.find?_cons]
        simp only [hk, decide_True]
        have : support ≤ e.count := by omega
        simp [Option.filter, this, Elem.entry, hk]
      · rw [List.find?_cons, List.find?_cons]
        simp only [hk, decide_False]
        exact ih (n + 1) hn.2

theorem find_frequent_words_slots_getD (support : Nat) :
    ∀ (table : Table) (n i : Nat), ∃ n',
      (find_frequent_words_slots support table.length table n).1.getD i []
        = (find_frequent_words_chain support (table.getD i []) n').1 := by
  intro table
  induction table with
  | nil => intro n i; exact ⟨0, by simp [find_frequent_words_slots, find_frequent_words_chain]⟩
  | cons c rest ih =>
    intro n i
    simp only [List.length_cons, find_frequent_words_slots]
    cases i with
    | zero => exact ⟨n, by simp⟩
    | succ j =>
      obtain ⟨n', hn'⟩ := ih (find_frequent_words_chain support c n).2 j
      refine ⟨n', ?_⟩
      simpa using hn'
theorem lookup_find_frequent_words (pParam : Parameters)
    (hlen : pParam.ppWordTable.length = pParam.wordTableSize)
    (hn : ∀ i, ((pParam.ppWordTable.getD i []).map Elem.pKey).Nodup) (m s : Nat) (w : Key) :
    (lookup (find_frequent_words pParam).1.ppWordTable m s w).map Elem.entry
      = ((lookup pParam.ppWordTable m s w).filter
          (fun e => decide (pParam.support ≤ e.count))).map Elem.entry := by
  unfold lookup find_frequent_words
  simp only []
  obtain ⟨n', hn'⟩ := find_frequent_words_slots_getD pParam.support pParam.ppWordTable 0
    (str2hash w m s)
  rw [hlen] at hn'
  rw [hn']
  exact find_frequent_words_chain_find pParam.support w _ n' (hn _)

theorem lookup_find_frequent_words_count (pParam : Parameters)
    (hlen : pParam.ppWordTable.length = pParam.wordTableSize)
    (hn : ∀ i, ((pParam.ppWordTable.getD i []).map Elem.pKey).Nodup) (m s : Nat) (w : Key) :
    (lookup (find_frequent_words pParam).1.ppWordTable m s w).map Elem.count
      = ((lookup pParam.ppWordTable m s w).map Elem.count).filter
          (fun c => decide (pParam.support ≤ c)) := by
  have h := congrArg (Option.map Prod.snd) (lookup_find_frequent_words pParam hlen hn m s w)
  rw [Option.map_map, Option.map_map] at h
  have e : (Prod.snd ∘ Elem.entry) = Elem.count := rfl
  rw [e] at h
  rw [h]
  cases lookup pParam.ppWordTable m s w with
  | none => rfl
  | some x =>
    by_cases hx : pParam.support ≤ x.count <;> simp [Option.filter, hx]

theorem find_frequent_words_chain_sublist (support : Nat) :
    ∀ (chain : List Elem) (n : Nat),
      ((find_frequent_words_chain support chain n).1.map Elem.pKey).Sublist
        (chain.map Elem.pKey) := by
  intro chain
  induction chain with
  | nil => intro n; simp [find_frequent_words_chain]
  | cons e rest ih =>
    intro n
    unfold find_frequent_words_chain
    split
    · exact (ih n).trans (List.sublist_cons_self _ _)
    · exact (ih (n + 1)).cons₂ _

theorem TableWf.find_frequent_words_wf {p : Parameters} {s : Nat}
    (h : TableWf p.ppWordTable p.wordTableSize s) :
    TableWf (find_frequent_words p).1.ppWordTable p.wordTableSize s := by
  have hl : (find_frequent_words p).1.ppWordTable.length = p.wordTableSize := by
    have := congrArg List.length (find_frequent_words_sweep p h.len).1
    rw [List.length_map, List.length_map] at this
    rw [this]; exact h.len
  have hg : ∀ i, ∃ n', (find_frequent_words p).1.ppWordTable.getD i []
      = (find_frequent_words_chain p.support (p.ppWordTable.getD i []) n').1 := by
    intro i
    obtain ⟨n', hn'⟩ := find_frequent_words_slots_getD p.support p.ppWordTable 0 i
    rw [h.len] at hn'
    exact ⟨n', hn'⟩
  refine ⟨hl, ?_, ?_⟩
  · intro i
    obtain ⟨n', hn'⟩ := hg i
    rw [hn']
    exact (find_frequent_words_chain_sublist _ _ _).nodup (h.nodup i)
  · intro i e he
    obtain ⟨n', hn'⟩ := hg i
    rw [hn'] at he
    obtain ⟨e0, h0, k0, -, -⟩ := find_frequent_words_chain_keys _ _ _ e he
    rw [← k0]
    exact h.slot i e0 h0

theorem TableWf.length_eq_of_keys {t : Table} {m s : Nat} (h : TableWf t m s) (L : List Key)
    (hL : L.Nodup) (hmem : ∀ k, k ∈ L ↔ (lookup t m s k).isSome = true) :
    t.flatten.length = L.length := by
  have hp : (t.flatten.map Elem.pKey).Perm L := by
    rw [List.perm_ext_iff_of_nodup h.flatten_nodup hL]
    intro k
    rw [hmem k]
    constructor
    · intro hk
      obtain ⟨e, he, hek⟩ := List.mem_map.1 hk
      rw [← hek, (h.mem_iff_lookup e).1 he]; rfl
    · intro hk
      obtain ⟨e, he⟩ := Option.isSome_iff_exists.1 hk
      have := lookup_key he
      rw [← this]
      exact List.mem_map_of_mem _ (lookup_mem_flatten he)
  have := hp.length_eq
  rw [List.length_map] at this
  exact this
theorem step_1_sketch_fields (pParam : Parameters) (input : List (List Key)) :
    (if pParam.wordSketchSize ≠ 0 then (create_word_sketch pParam input).1
      else pParam).wordTableSize = pParam.wordTableSize ∧
    (if pParam.wordSketchSize ≠ 0 then (create_word_sketch pParam input).1
      else pParam).wordTableSeed = pParam.wordTableSeed ∧
    (if pParam.wordSketchSize ≠ 0 then (create_word_sketch pParam input).1
      else pParam).wordSketchSize = pParam.wordSketchSize ∧
    (if pParam.wordSketchSize ≠ 0 then (create_word_sketch pParam input).1
      else pParam).wordSketchSeed = pParam.wordSketchSeed := by
  obtain ⟨f1, f2, f3, f4, -⟩ := create_word_sketch_fields pParam input
  split
  · exact ⟨f3, f4, f1, f2⟩
  · exact ⟨rfl, rfl, rfl, rfl⟩

theorem step_1_counts (pParam : Parameters) (input : List (List Key)) (g : Nat)
    (hsz : 0 < pParam.wordTableSize) :
    (step_1 pParam input g).1.wordTableSize = pParam.wordTableSize ∧
    (step_1 pParam input g).1.wordTableSeed = pParam.wordTableSeed ∧
    TableWf (step_1 pParam input g).1.ppWordTable pParam.wordTableSize pParam.wordTableSeed ∧
    (step_1 pParam input g).1.support
      = (if (if pParam.wordSketchSize ≠ 0 then (create_word_sketch pParam input).1
              else pParam).support = 0
         then support_percentage (g + input.length)
           (if pParam.wordSketchSize ≠ 0 then (create_word_sketch pParam input).1
              else pParam).pctSupport
         else (if pParam.wordSketchSize ≠ 0 then (create_word_sketch pParam input).1
              else pParam).support) ∧
    ∀ w, (lookup (step_1 pParam input g).1.ppWordTable pParam.wordTableSize
          pParam.wordTableSeed w).map Elem.count
      = if w = [] ∨
          sketch_gate (if pParam.wordSketchSize ≠ 0 then (create_word_sketch pParam input).1
            else pParam) w = true ∨ linesWith w input = 0 then none
        else some (linesWith w input) := by
  obtain ⟨ps, hps⟩ : ∃ ps, ps = (if pParam.wordSketchSize ≠ 0
      then (create_word_sketch pParam input).1 else pParam) := ⟨_, rfl⟩
  obtain ⟨f1, f2, -, -⟩ := step_1_sketch_fields pParam input
  rw [← hps] at f1 f2 ⊢
  have e : step_1 pParam input g = create_vocabulary_with_linecount ps input g := by
    rw [hps]; rfl
  rw [e]
  have htab : (create_vocabulary_with_linecount ps input g).1.ppWordTable
      = (create_vocabulary_loop ps input g).1.ppWordTable := by
    unfold create_vocabulary_with_linecount
    exact (support_from_linecount_sketch _ _).2.2.2.1
  obtain ⟨a1, -⟩ := vocab_loop_frame ps input g
  have hsize : (create_vocabulary_with_linecount ps input g).1.wordTableSize
      = ps.wordTableSize := by
    unfold create_vocabulary_with_linecount
    rw [(support_from_linecount_sketch _ _).2.2.2.2.1]
    unfold VocabFrame at a1; rw [a1]
  have hseed : (create_vocabulary_with_linecount ps input g).1.wordTableSeed
      = ps.wordTableSeed := by
    unfold create_vocabulary_with_linecount
    rw [(support_from_linecount_sketch _ _).2.2.2.2.2]
    unfold VocabFrame at a1; rw [a1]
  have hwf := create_vocabulary_loop_wf ps input g
  have hcnt := create_vocabulary_sketch_counts ps input g (by rw [f1]; exact hsz)
  rw [f1, f2] at hwf hcnt
  refine ⟨hsize.trans f1, hseed.trans f2, by rw [htab]; exact hwf,
    create_vocabulary_with_linecount_support ps input g, ?_⟩
  intro w
  rw [htab]
  exact hcnt w

theorem frequent_words_counts (pParam : Parameters) (input : List (List Key)) (g : Nat)
    (hsz : 0 < pParam.wordTableSize) :
    (find_frequent_words (step_1 pParam input g).1).1.wordTableSize = pParam.wordTableSize ∧
    (find_frequent_words (step_1 pParam input g).1).1.wordTableSeed = pParam.wordTableSeed ∧
    TableWf (find_frequent_words (step_1 pParam input g).1).1.ppWordTable
      pParam.wordTableSize pParam.wordTableSeed ∧
    (find_frequent_words (step_1 pParam input g).1).2
      = (find_frequent_words (step_1 pParam input g).1).1.ppWordTable.flatten.length ∧
    ∀ w, (lookup (find_frequent_words (step_1 pParam input g).1).1.ppWordTable
          pParam.wordTableSize pParam.wordTableSeed w).map Elem.count
      = if w ≠ [] ∧ 0 < linesWith w input ∧
            (step_1 pParam input g).1.support ≤ linesWith w input ∧
            sketch_gate (if pParam.wordSketchSize ≠ 0 then (create_word_sketch pParam input).1
              else pParam) w = false
        then some (linesWith w input) else none := by
  obtain ⟨a1, a2, a3, -, a5⟩ := step_1_counts pParam input g hsz
  have hlen : (step_1 pParam input g).1.ppWordTable.length
      = (step_1 pParam input g).1.wordTableSize := by rw [a1]; exact a3.len
  have hwf : TableWf (step_1 pParam input g).1.ppWordTable
      (step_1 pParam input g).1.wordTableSize pParam.wordTableSeed := by rw [a1]; exact a3
  have hwf2 := hwf.find_frequent_words_wf
  rw [a1] at hwf2
  refine ⟨a1, a2, hwf2, (find_frequent_words_sweep _ hlen).2.2, ?_⟩
  intro w
  rw [lookup_find_frequent_words_count _ hlen a3.nodup, a5 w]
  obtain ⟨G, hG⟩ : ∃ G : Bool, G = sketch_gate (if pParam.wordSketchSize ≠ 0
      then (create_word_sketch pParam input).1 else pParam) w := ⟨_, rfl⟩
  obtain ⟨S, hS⟩ : ∃ S : Nat, S = (step_1 pParam input g).1.support := ⟨_, rfl⟩
  obtain ⟨n, hn⟩ : ∃ n : Nat, n = linesWith w input := ⟨_, rfl⟩
  rw [← hG, ← hS, ← hn]
  by_cases h1 : w = []
  · rw [if_pos (Or.inl h1), if_neg (fun h => h.1 h1)]; rfl
  · cases G with
    | true =>
      rw [if_pos (Or.inr (Or.inl rfl)), if_neg (fun h => by simp at h)]; rfl
    | false =>
      by_cases h3 : n = 0
      · rw [if_pos (Or.inr (Or.inr h3)), if_neg (fun h => by omega)]; rfl
      · rw [if_neg (by simp [h1, h3])]
        by_cases h5 : S ≤ n
        · rw [if_pos ⟨h1, by omega, h5, rfl⟩]
          simp [Option.filter, h5]
        · rw [if_neg (fun h => h5 h.2.2.1)]
          simp [Option.filter, h5]
theorem create_word_sketch_pct (pParam : Parameters) (input : List (List Key)) :
    (create_word_sketch pParam input).1.pctSupport = pParam.pctSupport := by
  obtain ⟨a1, -⟩ := create_word_sketch_loop_fields pParam input
  have e2 : (create_word_sketch_loop pParam input).1.pctSupport = pParam.pctSupport := by
    unfold SketchFrame at a1; rw [a1]
  unfold create_word_sketch support_from_linecount
  simp only []
  split_ifs <;> exact e2

theorem step_1_support_gate (pParam : Parameters) (input : List (List Key)) (g : Nat)
    (hsk : 0 < pParam.wordSketchSize) (hsz : 0 < pParam.wordTableSize)
    (hs : pParam.support ≠ 0 ∨ g = 0) :
    (step_1 pParam input g).1.support = (step_1 (without_sketch pParam) input g).1.support := by
  obtain ⟨-, -, -, a4, -⟩ := step_1_counts pParam input g hsz
  obtain ⟨-, -, -, b4, -⟩ := step_1_counts (without_sketch pParam) input g hsz
  have hne : pParam.wordSketchSize ≠ 0 := by omega
  have hz : ¬ (without_sketch pParam).wordSketchSize ≠ 0 := fun h => h rfl
  rw [if_pos hne] at a4
  rw [if_neg hz] at b4
  rw [a4, b4, create_word_sketch_support, create_word_sketch_pct]
  show _ = if pParam.support = 0 then _ else pParam.support
  rcases hs with hs | hs
  · rw [if_neg hs, if_neg hs, if_neg hs]
  · subst hs
    by_cases h0 : pParam.support = 0
    · rw [if_pos h0, if_pos h0]
      show _ = support_percentage (0 + input.length) pParam.pctSupport
      rw [Nat.zero_add]
      split <;> rfl
    · rw [if_neg h0, if_neg h0, if_neg h0]

theorem step_1_gate_sound (pParam : Parameters) (input : List (List Key)) (g : Nat)
    (hsz : 0 < pParam.wordTableSize) (w : Key) (hw : w ≠ [])
    (h : (step_1 pParam input g).1.support ≤ linesWith w input) :
    sketch_gate (if pParam.wordSketchSize ≠ 0 then (create_word_sketch pParam input).1
      else pParam) w = false := by
  obtain ⟨-, -, -, a4, -⟩ := step_1_counts pParam input g hsz
  by_cases hne : pParam.wordSketchSize ≠ 0
  · rw [if_pos hne]
    rw [if_pos hne] at a4
    obtain ⟨f1, f2, -, -, -⟩ := create_word_sketch_fields pParam input
    have hocc := create_word_sketch_occurrences pParam input w hw
    have hlw := occurrences_ge_linesWith w input
    unfold sketch_gate
    rw [f1, f2, decide_eq_false_iff_not]
    rintro ⟨-, hlt⟩
    by_cases h0 : (create_word_sketch pParam input).1.support = 0
    · omega
    · rw [if_neg h0] at a4
      omega
  · rw [if_neg hne]
    unfold sketch_gate
    rw [decide_eq_false_iff_not]
    exact fun h => hne h.1

theorem frequent_words_spec (pParam : Parameters) (input : List (List Key)) (g : Nat)
    (hsz : 0 < pParam.wordTableSize) :
    (∀ w, (lookup (find_frequent_words (step_1 pParam input g).1).1.ppWordTable
          pParam.wordTableSize pParam.wordTableSeed w).map Elem.count
      = if w ≠ [] ∧ 0 < linesWith w input ∧
            (step_1 pParam input g).1.support ≤ linesWith w input
        then some (linesWith w input) else none) ∧
    (∀ w, isFrequent (find_frequent_words (step_1 pParam input g).1).1 w = true ↔
      w ≠ [] ∧ 0 < linesWith w input ∧
        (step_1 pParam input g).1.support ≤ linesWith w input) ∧
    (find_frequent_words (step_1 pParam input g).1).2
      = ((distinctWordsOf input).filter
          (fun w => decide ((step_1 pParam input g).1.support ≤ linesWith w input))).length := by
  obtain ⟨a1, a2, a3, a4, a5⟩ := frequent_words_counts pParam input g hsz
  have hcnt : ∀ w, (lookup (find_frequent_words (step_1 pParam input g).1).1.ppWordTable
          pParam.wordTableSize pParam.wordTableSeed w).map Elem.count
      = if w ≠ [] ∧ 0 < linesWith w input ∧
            (step_1 pParam input g).1.support ≤ linesWith w input
        then some (linesWith w input) else none := by
    intro w
    rw [a5 w]
    by_cases hc : w ≠ [] ∧ 0 < linesWith w input ∧
        (step_1 pParam input g).1.support ≤ linesWith w input
    · rw [if_pos hc, if_pos ⟨hc.1, hc.2.1, hc.2.2,
        step_1_gate_sound pParam input g hsz w hc.1 hc.2.2⟩]
    · rw [if_neg hc, if_neg (fun h => hc ⟨h.1, h.2.1, h.2.2.1⟩)]
  have hsome : ∀ w, (lookup (find_frequent_words (step_1 pParam input g).1).1.ppWordTable
          pParam.wordTableSize pParam.wordTableSeed w).isSome = true ↔
      w ≠ [] ∧ 0 < linesWith w input ∧
        (step_1 pParam input g).1.support ≤ linesWith w input := by
    intro w
    have h := hcnt w
    by_cases hc : w ≠ [] ∧ 0 < linesWith w input ∧
        (step_1 pParam input g).1.support ≤ linesWith w input
    · rw [if_pos hc] at h
      refine ⟨fun _ => hc, fun _ => ?_⟩
      cases hl : lookup (find_frequent_words (step_1 pParam input g).1).1.ppWordTable
          pParam.wordTableSize pParam.wordTableSeed w with
      | none => rw [hl] at h; cases h
      | some e => rfl
    · rw [if_neg hc] at h
      refine ⟨fun hx => ?_, fun hx => absurd hx hc⟩
      cases hl : lookup (find_frequent_words (step_1 pParam input g).1).1.ppWordTable
          pParam.wordTableSize pParam.wordTableSeed w with
      | none => rw [hl] at hx; cases hx
      | some e => rw [hl] at h; cases h
  refine ⟨hcnt, ?_, ?_⟩
  · intro w
    unfold isFrequent
    rw [a1, a2, Bool.and_eq_true, decide_eq_true_eq, hsome w]
    exact ⟨fun h => h.2, fun h => ⟨h.1, h⟩⟩
  · rw [a4]
    apply a3.length_eq_of_keys
    · exact (List.nodup_dedup _).filter _
    · intro k
      rw [hsome k, List.mem_filter, decide_eq_true_eq]
      unfold distinctWordsOf
      rw [List.mem_dedup, List.mem_filter, decide_eq_true_eq, ← linesWith_pos_iff]
      exact ⟨fun h => ⟨h.1.2, h.1.1, h.2⟩, fun h => ⟨⟨h.2.1, h.1⟩, h.2.2⟩⟩
/-- C36: for a sketch of at least one slot (any sketch seed), a word table of
at least one slot and a support given as a number (or as a percentage, when the
variable `linecount` of `create_vocabulary` starts at 0), the run with the word
sketch and the run without it end with the same threshold, and after
`find_frequent_words` the word tables of the two runs have records for the same
words with the same counts: a word is retained exactly when it is not empty and
the number of the lines that contain it reaches the threshold, and its count
is that number.  The returned numbers of frequent words are equal.  A word
with a record in the vocabulary of the run without the sketch and none in the
vocabulary of the run with the sketch has a count below the threshold. -/
theorem word_sketch_gate_equiv (pParam : Parameters) (input : List (List Key)) (g : Nat)
    (hsk : 0 < pParam.wordSketchSize) (hsz : 0 < pParam.wordTableSize)
    (hs : pParam.support ≠ 0 ∨ g = 0) :
    (find_frequent_words (step_1 pParam input g).1).1.support
      = (find_frequent_words (step_1 (without_sketch pParam) input g).1).1.support ∧
    (∀ w, (lookup (find_frequent_words (step_1 pParam input g).1).1.ppWordTable
          pParam.wordTableSize pParam.wordTableSeed w).map Elem.count
      = (lookup (find_frequent_words (step_1 (without_sketch pParam) input g).1).1.ppWordTable
          pParam.wordTableSize pParam.wordTableSeed w).map Elem.count) ∧
    (∀ w, isFrequent (find_frequent_words (step_1 pParam input g).1).1 w
      = isFrequent (find_frequent_words (step_1 (without_sketch pParam) input g).1).1 w) ∧
    (find_frequent_words (step_1 pParam input g).1).2
      = (find_frequent_words (step_1 (without_sketch pParam) input g).1).2 ∧
    (∀ w, isFrequent (find_frequent_words (step_1 pParam input g).1).1 w = true ↔
      w ≠ [] ∧ 0 < linesWith w input ∧
        (step_1 pParam input g).1.support ≤ linesWith w input) ∧
    (∀ w, (lookup (find_frequent_words (step_1 pParam input g).1).1.ppWordTable
          pParam.wordTableSize pParam.wordTableSeed w).map Elem.count
      = if w ≠ [] ∧ 0 < linesWith w input ∧
            (step_1 pParam input g).1.support ≤ linesWith w input
        then some (linesWith w input) else none) ∧
    ∀ w e, lookup (step_1 (without_sketch pParam) input g).1.ppWordTable
          pParam.wordTableSize pParam.wordTableSeed w = some e →
      lookup (step_1 pParam input g).1.ppWordTable
          pParam.wordTableSize pParam.wordTableSeed w = none →
      e.count < (step_1 pParam input g).1.support := by
  have hS := step_1_support_gate pParam input g hsk hsz hs
  obtain ⟨a1, a2, a3⟩ := frequent_words_spec pParam input g hsz
  obtain ⟨b1, b2, b3⟩ := frequent_words_spec (without_sketch pParam) input g hsz
  rw [← hS] at b1 b2 b3
  refine ⟨hS, ?_, ?_, ?_, a2, a1, ?_⟩
  · intro w
    rw [a1 w]
    exact (b1 w).symm
  · intro w
    have h1 := a2 w
    have h2 := b2 w
    cases hx : isFrequent (find_frequent_words (step_1 pParam input g).1).1 w with
    | true => exact ((h2.2 (h1.1 hx))).symm
    | false =>
      cases hy : isFrequent
          (find_frequent_words (step_1 (without_sketch pParam) input g).1).1 w with
      | true => rw [h1.2 (h2.1 hy)] at hx; cases hx
      | false => rfl
  · rw [a3]; exact b3.symm
  · intro w e he hnone
    obtain ⟨-, -, -, -, c5⟩ := step_1_counts pParam input g hsz
    obtain ⟨-, -, -, -, d5⟩ := step_1_counts (without_sketch pParam) input g hsz
    have hc := c5 w
    have hd := d5 w
    rw [hnone] at hc
    change Option.map Elem.count (lookup _ pParam.wordTableSize pParam.wordTableSeed w) = _
      at hd
    rw [he] at hd
    by_cases hw : w = []
    · rw [if_pos (Or.inl hw)] at hd; cases hd
    · by_cases hl : linesWith w input = 0
      · rw [if_pos (Or.inr (Or.inr hl))] at hd; cases hd
      · have hz : ¬ (without_sketch pParam).wordSketchSize ≠ 0 := fun h => h rfl
        have hg0 : sketch_gate (if (without_sketch pParam).wordSketchSize ≠ 0
            then (create_word_sketch (without_sketch pParam) input).1
            else without_sketch pParam) w = false := by
          rw [if_neg hz]
          unfold sketch_gate
          rw [decide_eq_false_iff_not]
          exact fun h => h.1 rfl
        rw [if_neg (by rw [hg0]; simp [hw, hl])] at hd
        simp only [Option.map_some', Option.some.injEq] at hd
        rw [hd]
        by_contra hlt
        have hg := step_1_gate_sound pParam input g hsz w hw (not_lt.1 hlt)
        rw [if_neg (by rw [hg]; simp [hw, hl])] at hc
        cases hc

theorem word_sketch_gate_equiv_witness :
    0 < sketchParams.wordSketchSize ∧ 0 < sketchParams.wordTableSize ∧
    sketchParams.support = 2 ∧
    linesWith [97] sketchInput = 2 ∧ linesWith [99] sketchInput = 1 ∧
    (find_frequent_words (step_1 sketchParams sketchInput 0).1).2 = 2 ∧
    (find_frequent_words (step_1 sketchParams sketchInput 0).1).2
      = (find_frequent_words (step_1 (without_sketch sketchParams) sketchInput 0).1).2 ∧
    isFrequent (find_frequent_words (step_1 sketchParams sketchInput 0).1).1 [99]
      = isFrequent (find_frequent_words
          (step_1 (without_sketch sketchParams) sketchInput 0).1).1 [99] :=
  ⟨by decide, by decide, rfl, by decide, by decide, by decide!,
    (word_sketch_gate_equiv sketchParams sketchInput 0 (by decide) (by decide)
      (Or.inl (by decide))).2.2.2.1,
    (word_sketch_gate_equiv sketchParams sketchInput 0 (by decide) (by decide)
      (Or.inl (by decide))).2.2.1 [99]⟩
/-! ## The cluster sketch as a gate of the candidate pass -/

theorem GateFrame.refl_gate (p : Parameters) : GateFrame p p := ⟨rfl, rfl, rfl, rfl⟩

theorem constantsOf_congr {p q : Parameters} (h : isFrequent p = isFrequent q) (l : List Key) :
    constantsOf p l = constantsOf q l := by
  unfold constantsOf; rw [h]

theorem CandFrame.refl_cand (p : Parameters) : CandFrame p p :=
  ⟨_, _, _, _, _, rfl⟩

theorem CandFrame.trans_cand {p q r : Parameters} (h1 : CandFrame p q) (h2 : CandFrame q r) :
    CandFrame p r := by
  obtain ⟨t, ct, cl, fam, b, e1⟩ := h1
  obtain ⟨t', ct', cl', fam', b', e2⟩ := h2
  subst e1
  exact ⟨t', ct', cl', fam', b', e2⟩

theorem CandFrame.put_cand (p : Parameters) (loc : CandidateLocals) (cc : Nat) :
    CandFrame p (put_cluster p loc cc).1 := by
  simp only [put_cluster, create_cluster_instance, adjust_cluster_instance,
    Parameters.setCluster]
  cases hf : front (add_elem loc.key p.ppClusterTable p.clusterTableSize p.clusterTableSeed)
      (str2hash loc.key p.clusterTableSize p.clusterTableSeed) with
  | none => exact ⟨_, _, _, _, _, rfl⟩
  | some pElem =>
    simp only []
    by_cases hc : pElem.count = 1
    · rw [if_pos hc]
      simp only []
      split
      · exact ⟨_, _, _, _, _, rfl⟩
      · split <;> exact ⟨_, _, _, _, _, rfl⟩
    · rw [if_neg hc]
      simp only [hf]
      split <;> exact ⟨_, _, _, _, _, rfl⟩

theorem CandFrame.scan_cand (p : Parameters) (loc : CandidateLocals) (l : List Key) :
    CandFrame p (candidate_scan p loc l).1 := by
  obtain ⟨t, ht⟩ := candidate_scan_fields p loc l
  rw [ht]
  exact ⟨_, _, _, _, _, rfl⟩

theorem CandFrame.line (st : Parameters × CandidateLocals × Nat) (l : List Key) :
    CandFrame st.1 (create_cluster_candidates_line st l).1 := by
  have h1 := CandFrame.scan_cand st.1 st.2.1 l
  unfold create_cluster_candidates_line
  simp only []
  split
  · exact h1
  · split
    · exact h1
    · exact h1.trans_cand (CandFrame.put_cand _ _ _)

theorem CandFrame.lines (input : List (List Key)) :
    ∀ st : Parameters × CandidateLocals × Nat,
      CandFrame st.1 (input.foldl create_cluster_candidates_line st).1 := by
  induction input with
  | nil => intro st; exact CandFrame.refl_cand _
  | cons l rest ih =>
    intro st
    rw [List.foldl_cons]
    exact (CandFrame.line st l).trans_cand (ih _)

theorem SamePattern.refl_pattern (c : Cluster) : SamePattern c c :=
  ⟨rfl, fun _ _ _ => rfl, fun _ _ => ⟨rfl, rfl⟩⟩

end LogClusterC
